import Mathlib

/-!
# glare containers: AvlTree and BTree

A shallow embedding of `engine/containers/AvlTree.h` and `engine/containers/BTree.h`.

Conventions of the embedding

* A node pointer is a value of the node type; `nullptr` is the constructor `nil`
  (AVL) or `none` (B-tree).  A function that mutates a node through a reference
  parameter returns the new node.
* A failed `GLARE_ASSERT` and a dereference of a null pointer are the result `none`
  of an `Option`-valued function.
* Keys are compared with `==`, `<`, `>` of a linear order; the comparator object
  `m_binPredicate` of the AVL tree is an explicit Boolean function.
* `m_size` is a natural number: the counter follows the number of live nodes, which
  the address space bounds.
-/

namespace glare

/-! ## Definitions: AvlTree.h -/

/-- The enumeration `AvlTreeNode::BalanceFactor`. -/
inductive BalanceFactor where
  | RightHigher
  | EqualHeight
  | LeftHigher
  deriving DecidableEq, Repr

/-- The integer value of the enumerator: RightHigher = -1, EqualHeight = 0, LeftHigher = 1. -/
def BalanceFactor.toInt : BalanceFactor → Int
  | .RightHigher => -1
  | .EqualHeight => 0
  | .LeftHigher => 1

/-- A `node_pointer` of the AVL tree: `nil` is `nullptr`, `node l k v b r` points to a node
with `m_left = l`, `m_pair = (k, v)`, `m_balanceFactor = b`, `m_right = r`. -/
inductive AvlTreeNode (K V : Type) where
  | nil : AvlTreeNode K V
  | node (m_left : AvlTreeNode K V) (key : K) (value : V)
      (m_balanceFactor : BalanceFactor) (m_right : AvlTreeNode K V) : AvlTreeNode K V
  deriving DecidableEq, Repr

/-- The three static walks `m_traversalFunc` can point to. -/
inductive TraversalFunc where
  | preorder
  | postorder
  | inorder
  deriving DecidableEq, Repr

/-- The data members of `AvlTree`. -/
structure AvlTree (K V : Type) where
  m_size : Nat
  m_root : AvlTreeNode K V
  m_binPredicate : K → K → Bool
  m_traversalFunc : TraversalFunc

namespace AvlTree

variable {K V : Type}

open BalanceFactor AvlTreeNode

/-- The functor `glare::less`, the default `_Pred`. -/
def less [LinearOrder K] (a b : K) : Bool := decide (a < b)

/-- The functor `glare::greater`. -/
def greater [LinearOrder K] (a b : K) : Bool := decide (a > b)

/-- The default constructor `AvlTree()` with the comparator `less`. -/
def empty [LinearOrder K] : AvlTree K V :=
  { m_size := 0, m_root := nil, m_binPredicate := less, m_traversalFunc := .preorder }

/-- `rotate_left(_subRoot)`; `none` when the assertion `_subRoot && _subRoot->m_right` fails. -/
def rotate_left : AvlTreeNode K V → Option (AvlTreeNode K V)
  | node l k v b (node rl rk rv rb rr) => some (node (node l k v b rl) rk rv rb rr)
  | _ => none

/-- `rotate_right(_subRoot)`; `none` when the assertion `_subRoot && _subRoot->m_left` fails. -/
def rotate_right : AvlTreeNode K V → Option (AvlTreeNode K V)
  | node (node ll lk lv lb lr) k v b r => some (node ll lk lv lb (node lr k v b r))
  | _ => none

/-- `balance_right(_subRoot)`; `none` when a null pointer is dereferenced. -/
def balance_right : AvlTreeNode K V → Option (AvlTreeNode K V)
  | node l k v _ (node rl rk rv rb rr) =>
    match rb with
    | EqualHeight => rotate_left (node l k v RightHigher (node rl rk rv LeftHigher rr))
    | RightHigher => rotate_left (node l k v EqualHeight (node rl rk rv EqualHeight rr))
    | LeftHigher =>
      match rl with
      | node gl gk gv gb gr =>
        let sub : BalanceFactor :=
          match gb with
          | EqualHeight => EqualHeight
          | RightHigher => LeftHigher
          | LeftHigher => EqualHeight
        let right : BalanceFactor :=
          match gb with
          | EqualHeight => EqualHeight
          | RightHigher => EqualHeight
          | LeftHigher => RightHigher
        match rotate_right (node (node gl gk gv EqualHeight gr) rk rv right rr) with
        | some r1 => rotate_left (node l k v sub r1)
        | none => none
      | nil => none
  | _ => none

/-- `balance_left(_subRoot)`; `none` when a null pointer is dereferenced. -/
def balance_left : AvlTreeNode K V → Option (AvlTreeNode K V)
  | node (node ll lk lv lb lr) k v _ r =>
    match lb with
    | EqualHeight => rotate_right (node (node ll lk lv RightHigher lr) k v LeftHigher r)
    | LeftHigher => rotate_right (node (node ll lk lv EqualHeight lr) k v EqualHeight r)
    | RightHigher =>
      match lr with
      | node gl gk gv gb gr =>
        let sub : BalanceFactor :=
          match gb with
          | LeftHigher => RightHigher
          | RightHigher => EqualHeight
          | EqualHeight => EqualHeight
        let left : BalanceFactor :=
          match gb with
          | LeftHigher => EqualHeight
          | RightHigher => LeftHigher
          | EqualHeight => EqualHeight
        match rotate_left (node ll lk lv left (node gl gk gv EqualHeight gr)) with
        | some l1 => rotate_right (node l1 k v sub r)
        | none => none
      | nil => none
  | _ => none

/-- The out-parameters of `avl_insert`: the subtree `_subRoot` after the call, whether
`_newNode` is non-null, the flag `_taller`, and the member `m_size`. -/
structure InsertOut (K V : Type) where
  subRoot : AvlTreeNode K V
  newNode : Bool
  taller : Bool
  m_size : Nat

/-- `avl_insert(_pair, _subRoot, _newNode, _taller)`.  `alloc` tells whether
`m_nodeAllocator.allocate(1)` returns a non-null pointer. -/
def avl_insert [DecidableEq K] (pred : K → K → Bool) (alloc : Bool) (key : K) (value : V) :
    AvlTreeNode K V → Nat → Option (InsertOut K V)
  | nil, m_size =>
    if alloc then
      some ⟨node nil key value EqualHeight nil, true, true, m_size + 1⟩
    else
      some ⟨nil, false, false, m_size⟩
  | node l k v b r, m_size =>
    if k = key then
      some ⟨node l k v b r, false, false, m_size⟩
    else if pred key k then
      match avl_insert pred alloc key value l m_size with
      | none => none
      | some o =>
        if o.taller then
          match b with
          | LeftHigher =>
            match balance_left (node o.subRoot k v b r) with
            | some t => some ⟨t, o.newNode, false, o.m_size⟩
            | none => none
          | EqualHeight => some ⟨node o.subRoot k v LeftHigher r, o.newNode, true, o.m_size⟩
          | RightHigher => some ⟨node o.subRoot k v EqualHeight r, o.newNode, false, o.m_size⟩
        else
          some ⟨node o.subRoot k v b r, o.newNode, false, o.m_size⟩
    else
      match avl_insert pred alloc key value r m_size with
      | none => none
      | some o =>
        if o.taller then
          match b with
          | LeftHigher => some ⟨node l k v EqualHeight o.subRoot, o.newNode, false, o.m_size⟩
          | EqualHeight => some ⟨node l k v RightHigher o.subRoot, o.newNode, true, o.m_size⟩
          | RightHigher =>
            match balance_right (node l k v b o.subRoot) with
            | some t => some ⟨t, o.newNode, false, o.m_size⟩
            | none => none
        else
          some ⟨node l k v b o.subRoot, o.newNode, false, o.m_size⟩

/-- `insert(_key, _value)`: the tree after the call and the returned Boolean. -/
def insert [DecidableEq K] (t : AvlTree K V) (alloc : Bool) (key : K) (value : V) :
    Option (AvlTree K V × Bool) :=
  match avl_insert t.m_binPredicate alloc key value t.m_root t.m_size with
  | none => none
  | some o => some ({ t with m_root := o.subRoot, m_size := o.m_size }, o.newNode)

/-- The loop of `find_logical_predecessor`: the right-most node below `predecessor`. -/
def rightmost : AvlTreeNode K V → Option (K × V)
  | nil => none
  | node _ k v _ nil => some (k, v)
  | node _ _ _ _ (node rl rk rv rb rr) => rightmost (node rl rk rv rb rr)

/-- `find_logical_predecessor(_node)`: key and value of the node it returns. -/
def find_logical_predecessor : AvlTreeNode K V → Option (K × V)
  | nil => none
  | node l _ _ _ _ => rightmost l

/-- `delete_node(_refNodePtr)`: the returned Boolean, the pointer after the call, `m_size`. -/
def delete_node : AvlTreeNode K V → Nat → Option (Bool × AvlTreeNode K V × Nat)
  | nil, _ => none
  | node nil _ _ _ r, m_size => some (true, r, m_size - 1)
  | node (node ll lk lv lb lr) _ _ _ nil, m_size => some (true, node ll lk lv lb lr, m_size - 1)
  | node (node ll lk lv lb lr) k v b (node rl rk rv rb rr), m_size =>
    some (false, node (node ll lk lv lb lr) k v b (node rl rk rv rb rr), m_size)

/-- The local enumeration `Direction` of `avl_delete`. -/
inductive Direction where
  | EDir_LeftBranch
  | EDir_RightBranch
  | EDir_None
  deriving DecidableEq, Repr

/-- The closing `switch (direction)` of `avl_delete`: the subtree and the flag `_shorter`
after it. -/
def avl_delete_switch (direction : Direction) (subRoot : AvlTreeNode K V) (shorter : Bool) :
    Option (AvlTreeNode K V × Bool) :=
  match direction with
  | .EDir_LeftBranch =>
    match subRoot with
    | nil => none
    | node l k v b r =>
      match b with
      | LeftHigher => some (node l k v EqualHeight r, shorter)
      | EqualHeight => some (node l k v RightHigher r, false)
      | RightHigher =>
        match r with
        | nil => none
        | node _ _ _ rb _ =>
          match balance_right (node l k v b r) with
          | some t => some (t, if rb = EqualHeight then false else shorter)
          | none => none
  | .EDir_RightBranch =>
    match subRoot with
    | nil => none
    | node l k v b r =>
      match b with
      | LeftHigher =>
        match l with
        | nil => none
        | node _ _ _ lb _ =>
          match balance_left (node l k v b r) with
          | some t => some (t, if lb = EqualHeight then false else shorter)
          | none => none
      | EqualHeight => some (node l k v LeftHigher r, false)
      | RightHigher => some (node l k v EqualHeight r, shorter)
  | .EDir_None => some (subRoot, shorter)

/-- The out-parameters of `avl_delete`: the subtree, the flag `_shorter`, and `m_size`. -/
structure DeleteOut (K V : Type) where
  subRoot : AvlTreeNode K V
  shorter : Bool
  m_size : Nat

/-- `avl_delete(_key, _subRoot, _shorter)`. -/
def avl_delete [DecidableEq K] (pred : K → K → Bool) :
    K → AvlTreeNode K V → Nat → Option (DeleteOut K V)
  | _, nil, m_size => some ⟨nil, false, m_size⟩
  | key, node l k v b r, m_size =>
    if key = k then
      match delete_node (node l k v b r) m_size with
      | none => none
      | some (true, p, sz) => some ⟨p, true, sz⟩
      | some (false, _, _) =>
        match find_logical_predecessor (node l k v b r) with
        | none => none
        | some (pk, pv) =>
          match avl_delete pred pk l m_size with
          | none => none
          | some o =>
            match avl_delete_switch
                (if o.shorter then .EDir_LeftBranch else .EDir_None)
                (node o.subRoot pk pv b r) o.shorter with
            | some (t, s) => some ⟨t, s, o.m_size⟩
            | none => none
    else if pred key k then
      match avl_delete pred key l m_size with
      | none => none
      | some o =>
        match avl_delete_switch
            (if o.shorter then .EDir_LeftBranch else .EDir_None)
            (node o.subRoot k v b r) o.shorter with
        | some (t, s) => some ⟨t, s, o.m_size⟩
        | none => none
    else
      match avl_delete pred key r m_size with
      | none => none
      | some o =>
        match avl_delete_switch
            (if o.shorter then .EDir_RightBranch else .EDir_None)
            (node l k v b o.subRoot) o.shorter with
        | some (t, s) => some ⟨t, s, o.m_size⟩
        | none => none

/-- `remove(_key)`: the tree after the call. -/
def remove [DecidableEq K] (t : AvlTree K V) (key : K) : Option (AvlTree K V) :=
  match avl_delete t.m_binPredicate key t.m_root t.m_size with
  | none => none
  | some o => some { t with m_root := o.subRoot, m_size := o.m_size }

/-- `avl_find(_key, _subRoot)`: the value of the node it returns, `none` for `nullptr`.
The loop compares with `==` and `<`, not with `m_binPredicate`. -/
def avl_find [LinearOrder K] (key : K) : AvlTreeNode K V → Option V
  | nil => none
  | node l k v _ r =>
    if key = k then some v
    else if key < k then avl_find key l
    else avl_find key r

/-- `find(_key)`, the two pointer-returning overloads: `&(avl_find(_key, m_root)->value())`.
`some (some v)` is a pointer to the stored value `v` and `some none` the pointer `nullptr`;
the result is `none` when `avl_find` returns `nullptr`, which the expression
dereferences. -/
def find [LinearOrder K] (t : AvlTree K V) (key : K) : Option (Option V) :=
  match avl_find key t.m_root with
  | some v => some (some v)
  | none => none

/-- `find(_key, _pVal)`: the returned Boolean and `_pVal` after the call. -/
def find_out [LinearOrder K] (t : AvlTree K V) (key : K) (pVal : V) : Option (Bool × V) :=
  match find t key with
  | none => none
  | some (some v) => some (true, v)
  | some none => some (false, pVal)

/-- The number of edges-plus-one on the longest path below a pointer; 0 for `nullptr`. -/
def height : AvlTreeNode K V → Nat
  | nil => 0
  | node l _ _ _ r => max (height l) (height r) + 1

/-- The number of nodes below a pointer. -/
def count : AvlTreeNode K V → Nat
  | nil => 0
  | node l _ _ _ r => count l + 1 + count r

/-- The key/value pairs in symmetric order: left subtree, node, right subtree. -/
def pairs : AvlTreeNode K V → List (K × V)
  | nil => []
  | node l k v _ r => pairs l ++ (k, v) :: pairs r

/-- The height-balance invariant: at every node the heights of the two subtrees differ
by at most 1 and the stored balance factor is the sign of height(left) - height(right). -/
def HeightBalanced : AvlTreeNode K V → Prop
  | nil => True
  | node l _ _ b r =>
    Int.natAbs ((height l : Int) - (height r : Int)) ≤ 1 ∧
    b.toInt = Int.sign ((height l : Int) - (height r : Int)) ∧
    HeightBalanced l ∧ HeightBalanced r

/-- The balance factor stored at the root of a subtree, `EqualHeight` for `nullptr`. -/
def rootBalance : AvlTreeNode K V → BalanceFactor
  | nil => EqualHeight
  | node _ _ _ b _ => b

/-- Decision procedure for `HeightBalanced`. -/
def decHeightBalanced : (t : AvlTreeNode K V) → Decidable (HeightBalanced t)
  | nil => isTrue trivial
  | node l _ _ _ r =>
    have := decHeightBalanced l
    have := decHeightBalanced r
    (inferInstance : Decidable (_ ∧ _ ∧ HeightBalanced l ∧ HeightBalanced r))

instance (t : AvlTreeNode K V) : Decidable (HeightBalanced t) := decHeightBalanced t

/-- A call of the public interface that changes the tree: `insert(key, value)`, with the
outcome of its node allocation, or `remove(key)`. -/
inductive Call (K V : Type) where
  | insert (alloc : Bool) (key : K) (value : V)
  | remove (key : K)

/-- The tree after one call. -/
def call [DecidableEq K] (t : AvlTree K V) : Call K V → Option (AvlTree K V)
  | .insert alloc key value =>
    match insert t alloc key value with
    | none => none
    | some r => some r.1
  | .remove key => remove t key

/-- The tree after a sequence of calls, first call first. -/
def calls [DecidableEq K] (t : AvlTree K V) : List (Call K V) → Option (AvlTree K V)
  | [] => some t
  | c :: cs =>
    match call t c with
    | none => none
    | some t1 => calls t1 cs

/-- `clear()`: a non-null root is freed with its subtrees and `m_size` is reset; a tree
whose root is null is left as it is. -/
def clear (t : AvlTree K V) : AvlTree K V :=
  match t.m_root with
  | nil => t
  | node _ _ _ _ _ => { t with m_root := nil, m_size := 0 }

/-- `copy(_copyRoot, _originalRoot)`: `_copyRoot` and `m_size` after the call.  Every node
of the original is copy-constructed (pair and balance factor) into a fresh node, in
pre-order, and `m_size` is incremented once per node.  `allocate(1)` is taken to return a
node: `copy` constructs into the pointer without testing it. -/
def copy : AvlTreeNode K V → Nat → AvlTreeNode K V × Nat
  | nil, m_size => (nil, m_size)
  | node l k v b r, m_size =>
    let left := copy l (m_size + 1)
    let right := copy r left.2
    (node left.1 k v b right.1, right.2)

/-- `copyTree(_originalRoot)` called on the tree `t`. -/
def copyTree (t original : AvlTree K V) : AvlTree K V :=
  let c := copy original.m_root t.m_size
  { m_size := c.2, m_root := c.1, m_binPredicate := original.m_binPredicate,
    m_traversalFunc := original.m_traversalFunc }

/-- The copy constructor `AvlTree(const AvlTree& _avl)`. -/
def copyConstruct (avl : AvlTree K V) : AvlTree K V :=
  copyTree { m_size := 0, m_root := nil, m_binPredicate := avl.m_binPredicate,
             m_traversalFunc := avl.m_traversalFunc } avl

/-- `operator = (_avl)` called on the tree `t`.  The argument is `none` when it is the
object itself (`this == &_avl`) and `some avl` for another object. -/
def assign (t : AvlTree K V) : Option (AvlTree K V) → AvlTree K V
  | none => t
  | some avl => copyTree (clear t) avl

/-- `preorder(_node, _funcCb)`: the pairs passed to `_funcCb`, first call first; `none`
when `_node` is `nullptr`, which the function dereferences. -/
def preorder : AvlTreeNode K V → Option (List (K × V))
  | nil => none
  | node l k v _ r =>
    match (match l with
        | nil => some []
        | node _ _ _ _ _ => preorder l),
      (match r with
        | nil => some []
        | node _ _ _ _ _ => preorder r) with
    | some a, some b => some ((k, v) :: a ++ b)
    | _, _ => none

/-- `postorder(_node, _funcCb)`: the pairs passed to `_funcCb`, first call first; `none`
when `_node` is `nullptr`. -/
def postorder : AvlTreeNode K V → Option (List (K × V))
  | nil => none
  | node l k v _ r =>
    match (match l with
        | nil => some []
        | node _ _ _ _ _ => postorder l),
      (match r with
        | nil => some []
        | node _ _ _ _ _ => postorder r) with
    | some a, some b => some (a ++ b ++ [(k, v)])
    | _, _ => none

/-- `inorder(_node, _funcCb)`: the pairs passed to `_funcCb`, first call first; `none`
when `_node` is `nullptr`. -/
def inorder : AvlTreeNode K V → Option (List (K × V))
  | nil => none
  | node l k v _ r =>
    match (match l with
        | nil => some []
        | node _ _ _ _ _ => inorder l),
      (match r with
        | nil => some []
        | node _ _ _ _ _ => inorder r) with
    | some a, some b => some (a ++ (k, v) :: b)
    | _, _ => none

/-- `traverse(_cb)`: `m_traversalFunc(m_root, _cb)`. -/
def traverse (t : AvlTree K V) : Option (List (K × V)) :=
  match t.m_traversalFunc with
  | .preorder => preorder t.m_root
  | .postorder => postorder t.m_root
  | .inorder => inorder t.m_root

/-- `setPreOrderTraversal()`. -/
def setPreOrderTraversal (t : AvlTree K V) : AvlTree K V :=
  { t with m_traversalFunc := .preorder }

/-- `setPostOrderTraversal()`. -/
def setPostOrderTraversal (t : AvlTree K V) : AvlTree K V :=
  { t with m_traversalFunc := .postorder }

/-- `setInOrderTraversal()`. -/
def setInOrderTraversal (t : AvlTree K V) : AvlTree K V :=
  { t with m_traversalFunc := .inorder }

/-- The conventional pre-order sequence of a tree: self, left subtree, right subtree; the
empty sequence for the empty tree. -/
def conventionalPreorder : AvlTreeNode K V → List (K × V)
  | nil => []
  | node l k v _ r => (k, v) :: conventionalPreorder l ++ conventionalPreorder r

/-- The conventional in-order sequence: left subtree, self, right subtree. -/
def conventionalInorder : AvlTreeNode K V → List (K × V)
  | nil => []
  | node l k v _ r => conventionalInorder l ++ (k, v) :: conventionalInorder r

/-- The conventional post-order sequence: left subtree, right subtree, self. -/
def conventionalPostorder : AvlTreeNode K V → List (K × V)
  | nil => []
  | node l k v _ r => conventionalPostorder l ++ conventionalPostorder r ++ [(k, v)]

/-- The struct `AvlTreeNode::SerializableType`: the pair and the balance factor of a
node. -/
structure SerializableType (K V : Type) where
  m_pair : K × V
  m_balanceFactor : BalanceFactor
  deriving DecidableEq, Repr

/-- `avl_serialize_to_list(_node, _list)`: the entries pushed to the back of `_list`, in
order; `none` when `_node` is `nullptr`, which the function dereferences. -/
def avl_serialize_to_list : AvlTreeNode K V → Option (List (SerializableType K V))
  | nil => none
  | node l k v b r =>
    match (match l with
        | nil => some []
        | node _ _ _ _ _ => avl_serialize_to_list l),
      (match r with
        | nil => some []
        | node _ _ _ _ _ => avl_serialize_to_list r) with
    | some x, some y => some (⟨(k, v), b⟩ :: x ++ y)
    | _, _ => none

/-- `avl_serialize_insert(_subRoot, _obj)`: `_subRoot` and `m_size` after the call.
`alloc` tells whether `m_nodeAllocator.allocate(1)` returns a non-null pointer.  The new
node is constructed from the entry, balance factor included; no node is rotated and the
key is not compared for equality. -/
def avl_serialize_insert (pred : K → K → Bool) (alloc : Bool) (obj : SerializableType K V) :
    AvlTreeNode K V → Nat → AvlTreeNode K V × Nat
  | nil, m_size =>
    if alloc then (node nil obj.m_pair.1 obj.m_pair.2 obj.m_balanceFactor nil, m_size + 1)
    else (nil, m_size)
  | node l k v b r, m_size =>
    if pred obj.m_pair.1 k then
      let o := avl_serialize_insert pred alloc obj l m_size
      (node o.1 k v b r, o.2)
    else
      let o := avl_serialize_insert pred alloc obj r m_size
      (node l k v b o.1, o.2)

/-- `avl_serialize_from_list(_root, _list)`: `_root` and `m_size` after the loop.
`alloc i` is the outcome of the allocation made for the entry at index `i`. -/
def avl_serialize_from_list (pred : K → K → Bool) (alloc : Nat → Bool) :
    List (SerializableType K V) → AvlTreeNode K V → Nat → AvlTreeNode K V × Nat
  | [], root, m_size => (root, m_size)
  | obj :: rest, root, m_size =>
    let o := avl_serialize_insert pred (alloc 0) obj root m_size
    avl_serialize_from_list pred (fun i => alloc (i + 1)) rest o.1 o.2

/-- `serializeList(_list, _read)`: the tree and `_list` after the call; `none` when the
read direction is asked of a tree whose root is null. -/
def serializeList (t : AvlTree K V) (alloc : Nat → Bool) (list : List (SerializableType K V))
    (read : Bool) : Option (AvlTree K V × List (SerializableType K V)) :=
  if read then
    match avl_serialize_to_list t.m_root with
    | none => none
    | some entries => some (t, list ++ entries)
  else
    let o := avl_serialize_from_list t.m_binPredicate alloc list t.m_root t.m_size
    some ({ t with m_root := o.1, m_size := o.2 }, list)

/-- The entries of the nodes below a pointer in pre-order (self, left, right), each with
the key, the value and the balance factor of its node; empty for `nullptr`. -/
def preorderEntries : AvlTreeNode K V → List (SerializableType K V)
  | nil => []
  | node l k v b r => ⟨(k, v), b⟩ :: preorderEntries l ++ preorderEntries r

/-- The calls of `balance_left` and `balance_right` that `avl_insert` makes on its way
back up, innermost call first: `true` marks a call of `balance_left`, `false` one of
`balance_right`, each with the subtree `_subRoot` points to at the call. -/
def avl_insert_balance_calls [DecidableEq K] (pred : K → K → Bool) (alloc : Bool) (key : K)
    (value : V) : AvlTreeNode K V → Nat → List (Bool × AvlTreeNode K V)
  | nil, _ => []
  | node l k v b r, m_size =>
    if k = key then []
    else if pred key k then
      avl_insert_balance_calls pred alloc key value l m_size ++
        (match avl_insert pred alloc key value l m_size with
        | none => []
        | some o =>
          if o.taller then
            match b with
            | LeftHigher => [(true, node o.subRoot k v b r)]
            | EqualHeight => []
            | RightHigher => []
          else [])
    else
      avl_insert_balance_calls pred alloc key value r m_size ++
        (match avl_insert pred alloc key value r m_size with
        | none => []
        | some o =>
          if o.taller then
            match b with
            | LeftHigher => []
            | EqualHeight => []
            | RightHigher => [(false, node l k v b o.subRoot)]
          else [])

/-- The left child of the root of a subtree, `nullptr` for `nullptr`. -/
def leftChild : AvlTreeNode K V → AvlTreeNode K V
  | nil => nil
  | node l _ _ _ _ => l

/-- The right child of the root of a subtree, `nullptr` for `nullptr`. -/
def rightChild : AvlTreeNode K V → AvlTreeNode K V
  | nil => nil
  | node _ _ _ _ r => r

/-- The tree of the unit test `insertList`: keys 500, 400, 600, 300, 450, 550, 700. -/
def scenarioTree : AvlTree Nat Nat :=
  { m_size := 7
    m_root :=
      node (node (node nil 300 3 EqualHeight nil) 400 4 EqualHeight (node nil 450 5 EqualHeight nil))
        500 1 EqualHeight
        (node (node nil 550 6 EqualHeight nil) 600 2 EqualHeight (node nil 700 7 EqualHeight nil))
    m_binPredicate := less
    m_traversalFunc := .preorder }

/-- The tree 3 over 2, leaning left: a further key below 2 makes `insert` rebalance. -/
def scenarioLeftChain : AvlTree Nat Nat :=
  { m_size := 2
    m_root := node (node nil 2 20 EqualHeight nil) 3 30 LeftHigher nil
    m_binPredicate := less
    m_traversalFunc := .preorder }

/-- The tree 3 over 1, leaning left: the key 2 goes to the right of 1. -/
def scenarioZigZag : AvlTree Nat Nat :=
  { m_size := 2
    m_root := node (node nil 1 10 EqualHeight nil) 3 30 LeftHigher nil
    m_binPredicate := less
    m_traversalFunc := .preorder }

/-- What the tree asks of its comparator `_Pred`: a strict total order of the keys, with
`==` as its equality. -/
def StrictTotalOrder (pred : K → K → Bool) : Prop :=
  (∀ a, pred a a = false) ∧
    (∀ a b c, pred a b = true → pred b c = true → pred a c = true) ∧
    (∀ a b, a ≠ b → pred a b = true ∨ pred b a = true)

/-- Search order by a comparator: every pair of the list comes before the later ones. -/
def SortedBy (pred : K → K → Bool) (l : List (K × V)) : Prop :=
  l.Pairwise (fun a b => pred a.1 b.1 = true)

/-- The tree `insert` of the keys 1, 2 and 3 builds under the comparator `greater`: the
root 2 with 3 on its left and 1 on its right. -/
def scenarioGreater : AvlTree Nat Nat :=
  { m_size := 3
    m_root := node (node nil 3 30 EqualHeight nil) 2 20 EqualHeight (node nil 1 10 EqualHeight nil)
    m_binPredicate := greater
    m_traversalFunc := .preorder }

/-- The calls of the unit test that build `scenarioTree` from the empty tree. -/
def scenarioCalls : List (Call Nat Nat) :=
  [.insert true 500 1, .insert true 400 4, .insert true 600 2, .insert true 300 3,
    .insert true 450 5, .insert true 550 6, .insert true 700 7]

end AvlTree

/-! ## Definitions: association lists in key order

The sequence of key/value pairs of a search tree in symmetric order is an association
list.  The operations below describe, on that list, what the tree operations are
expected to do; the trees are compared with them in the theorems. -/

section AssocList

variable {K V : Type}

/-- The keys of the list are strictly increasing. -/
def SortedKeys [LT K] (l : List (K × V)) : Prop :=
  l.Pairwise (fun a b => a.1 < b.1)

/-- The value stored with `k` in the list, if any (the first one). -/
def lookup [DecidableEq K] (k : K) : List (K × V) → Option V
  | [] => none
  | (a, w) :: l => if k = a then some w else lookup k l

/-- Insertion of `(k, v)` before the first entry with a key not below `k`; the list is
left alone when that entry has the key `k` itself. -/
def insList [LinearOrder K] (k : K) (v : V) : List (K × V) → List (K × V)
  | [] => [(k, v)]
  | (a, w) :: l =>
    if k < a then (k, v) :: (a, w) :: l
    else if k = a then (a, w) :: l
    else (a, w) :: insList k v l

/-- Removal of the first entry with the key `k`. -/
def delList [DecidableEq K] (k : K) : List (K × V) → List (K × V)
  | [] => []
  | (a, w) :: l => if k = a then l else (a, w) :: delList k l

end AssocList

/-! ## Definitions: BTree.h

`order` is the template parameter `_Order`.  A node's array `m_branch[ORDER]` is kept in
two parts: `m_branch` holds the slots `0 .. nbKeys()` and `m_stale` the slots past
`nbKeys()`, which no member function reads.  The key and value arrays are the list of the
`nbKeys()` constructed pairs. -/

/-- A node of the B-tree; a `node_pointer` is an `Option (BTreeNode K V)`. -/
inductive BTreeNode (K V : Type) where
  | mk (keys : List (K × V)) (m_branch : List (Option (BTreeNode K V)))
      (m_stale : List (Option (BTreeNode K V))) : BTreeNode K V

namespace BTreeNode

variable {K V : Type}

/-- The constructed key/value pairs `key(i)`, `value(i)` for `i < nbKeys()`. -/
def keys : BTreeNode K V → List (K × V)
  | mk ks _ _ => ks

/-- The branch slots `0 .. nbKeys()`. -/
def m_branch : BTreeNode K V → List (Option (BTreeNode K V))
  | mk _ br _ => br

/-- The branch slots past `nbKeys()`. -/
def m_stale : BTreeNode K V → List (Option (BTreeNode K V))
  | mk _ _ st => st

/-- `nbKeys()`, the member `m_keyCount`. -/
def nbKeys (n : BTreeNode K V) : Nat := n.keys.length

/-- `branch(_idx)`: the slot `_idx` of the whole array. -/
def branch (n : BTreeNode K V) (idx : Nat) : Option (BTreeNode K V) :=
  (n.m_branch ++ n.m_stale).getD idx none

/-- `MAXKEYS = _Order - 1`. -/
def MAXKEYS (order : Nat) : Nat := order - 1

/-- `MINKEYS = MAXKEYS / 2`. -/
def MINKEYS (order : Nat) : Nat := MAXKEYS order / 2

/-- `isFull()`. -/
def isFull (order : Nat) (n : BTreeNode K V) : Bool := n.nbKeys == MAXKEYS order

/-- The constructor `BTreeNode()`: no keys, every branch slot null. -/
def new (order : Nat) : BTreeNode K V :=
  mk [] [none] (List.replicate (order - 1) none)

/-- The loop of `findKeyPosition`, entered with `_pos = pos` and the keys from `pos` on. -/
def findKeyPositionFrom [LinearOrder K] (key : K) : List (K × V) → Nat → Bool × Nat
  | [], pos => (false, pos)
  | (a, _) :: rest, pos =>
    if key > a then findKeyPositionFrom key rest (pos + 1)
    else (decide (key = a), pos)

/-- `findKeyPosition(_key, _pos)`: the returned Boolean and `_pos`. -/
def findKeyPosition [LinearOrder K] (n : BTreeNode K V) (key : K) : Bool × Nat :=
  findKeyPositionFrom key n.keys 0

/-- `insertAt(_pos, _key, _val, _rightBranch)`; `none` when the assertion
`m_keyCount < MAXKEYS` fails. -/
def insertAt (order : Nat) (n : BTreeNode K V) (pos : Nat) (kv : K × V)
    (rightBranch : Option (BTreeNode K V)) : Option (BTreeNode K V) :=
  if n.nbKeys < MAXKEYS order then
    some (mk (n.keys.take pos ++ kv :: n.keys.drop pos)
      (n.m_branch.take (pos + 1) ++ rightBranch :: n.m_branch.drop (pos + 1))
      (n.m_stale.drop 1))
  else none

/-- `splitInsertAt(_pos, _keyIn, _valueIn, _rightBranchIn, ...)` on a fresh
`_rightBranchOut`: the node after the call, the median pair, and `_rightBranchOut`;
`none` when the assertion `isFull()` or one of `insertAt` fails. -/
def splitInsertAt (order : Nat) (n : BTreeNode K V) (pos : Nat) (kv : K × V)
    (rightBranchIn : Option (BTreeNode K V)) :
    Option (BTreeNode K V × (K × V) × BTreeNode K V) :=
  if n.isFull order then
    let mid := order / 2
    let halves : Option (BTreeNode K V × BTreeNode K V) :=
      if pos ≤ mid then
        let right : BTreeNode K V :=
          mk (n.keys.drop mid) (none :: n.m_branch.drop (mid + 1)) (List.replicate mid none)
        let left : BTreeNode K V :=
          mk (n.keys.take mid) (n.m_branch.take (mid + 1)) (n.m_branch.drop (mid + 1) ++ n.m_stale)
        match insertAt order left pos kv rightBranchIn with
        | some l => some (l, right)
        | none => none
      else
        let mid1 := mid + 1
        let right : BTreeNode K V :=
          mk (n.keys.drop mid1) (none :: n.m_branch.drop (mid1 + 1)) (List.replicate mid1 none)
        let left : BTreeNode K V :=
          mk (n.keys.take mid1) (n.m_branch.take (mid1 + 1))
            (n.m_branch.drop (mid1 + 1) ++ n.m_stale)
        match insertAt order right (pos - mid1) kv rightBranchIn with
        | some r => some (left, r)
        | none => none
    match halves with
    | none => none
    | some (l, r) =>
      match l.keys.getLast?, l.m_branch.getLast? with
      | some median, some b =>
        some (mk l.keys.dropLast l.m_branch.dropLast (b :: l.m_stale), median,
          mk r.keys (b :: r.m_branch.drop 1) r.m_stale)
      | _, _ => none
  else none

/-- `shift_left(_begPos)`; `none` when the assertion `_begPos > 0 && _begPos < nbKeys()`
fails. -/
def shift_left (n : BTreeNode K V) (begPos : Nat) : Option (BTreeNode K V) :=
  if 0 < begPos ∧ begPos < n.nbKeys then
    some (mk (n.keys.eraseIdx (begPos - 1)) (n.m_branch.eraseIdx (begPos - 1))
      (none :: n.m_stale))
  else none

/-- `removeLeafData(_idx)`; `none` when the assertion `branch(_idx) == nullptr` or the one
of `shift_left` fails. -/
def removeLeafData (n : BTreeNode K V) (idx : Nat) : Option (BTreeNode K V) :=
  match n.branch idx with
  | some _ => none
  | none =>
    if idx + 1 = n.nbKeys then
      match n.m_branch.getLast? with
      | some b => some (mk n.keys.dropLast n.m_branch.dropLast (b :: n.m_stale))
      | none => none
    else shift_left n (idx + 1)

/-- `shift_right(_begPos, _key, _val, _leftBranch)`; `none` when the assertion
`_begPos < nbKeys() && nbKeys() < MAXKEYS` fails. -/
def shift_right (order : Nat) (n : BTreeNode K V) (begPos : Nat) (kv : K × V)
    (leftBranch : Option (BTreeNode K V)) : Option (BTreeNode K V) :=
  if begPos < n.nbKeys ∧ n.nbKeys < MAXKEYS order then
    some (mk (n.keys.take begPos ++ kv :: n.keys.drop begPos)
      (n.m_branch.take begPos ++ leftBranch :: n.m_branch.drop begPos)
      (n.m_stale.drop 1))
  else none

/-- `moveLeft(rightBranchPosition)`; `none` when a child is null, when the assertion
`ptrRightBranch->nbKeys() > MINKEYS` or the one of `shift_left` fails, or when an index
leaves its array. -/
def moveLeft (order : Nat) (n : BTreeNode K V) (rightBranchPosition : Nat) :
    Option (BTreeNode K V) :=
  if rightBranchPosition = 0 then none
  else
    let currKeyPosition := rightBranchPosition - 1
    match n.branch currKeyPosition, n.branch rightBranchPosition,
      n.keys.get? currKeyPosition with
    | some l, some r, some sep =>
      if r.nbKeys > MINKEYS order then
        match r.keys.head?, shift_left r 1 with
        | some first, some r1 =>
          some (mk (n.keys.set currKeyPosition first)
            ((n.m_branch.set currKeyPosition
              (some (mk (l.keys ++ [sep]) (l.m_branch ++ [r.branch 0]) (l.m_stale.drop 1)))).set
              rightBranchPosition (some r1))
            n.m_stale)
        | _, _ => none
      else none
    | _, _, _ => none

/-- `moveRight(leftBranchPosition)`; `none` when a child is null, when the assertion
`ptrLeftBranch->nbKeys() > MINKEYS` or the one of `shift_right` fails, or when an index
leaves its array. -/
def moveRight (order : Nat) (n : BTreeNode K V) (leftBranchPosition : Nat) :
    Option (BTreeNode K V) :=
  match n.branch leftBranchPosition, n.branch (leftBranchPosition + 1),
    n.keys.get? leftBranchPosition with
  | some l, some r, some sep =>
    if l.nbKeys > MINKEYS order then
      match shift_right order r 0 sep (l.branch l.nbKeys), l.keys.getLast?,
        l.m_branch.getLast? with
      | some r1, some last, some b =>
        some (mk (n.keys.set leftBranchPosition last)
          ((n.m_branch.set leftBranchPosition
            (some (mk l.keys.dropLast l.m_branch.dropLast (b :: l.m_stale)))).set
            (leftBranchPosition + 1) (some r1))
          n.m_stale)
      | _, _, _ => none
    else none
  | _, _, _ => none

/-- `combine(rightBranchPosition)`: the node after the call and the returned right child;
`none` when a child is null, when the assertion
`ptrLeftBranch->nbKeys() + ptrRightBranch->nbKeys() < MAXKEYS` fails, or when an index
leaves its array. -/
def combine (order : Nat) (n : BTreeNode K V) (rightBranchPosition : Nat) :
    Option (BTreeNode K V × BTreeNode K V) :=
  if rightBranchPosition = 0 then none
  else
    let currKeyPosition := rightBranchPosition - 1
    match n.branch currKeyPosition, n.branch rightBranchPosition,
      n.keys.get? currKeyPosition with
    | some l, some r, some sep =>
      if l.nbKeys + r.nbKeys < MAXKEYS order then
        some (mk (n.keys.eraseIdx currKeyPosition)
          ((n.m_branch.set currKeyPosition
            (some (mk (l.keys ++ sep :: r.keys) (l.m_branch ++ r.m_branch)
              (l.m_stale.drop (r.nbKeys + 1))))).eraseIdx rightBranchPosition)
          (none :: n.m_stale), r)
      else none
    | _, _, _ => none

mutual
/-- The loop of `copyInPredecessor` from `subRoot` on: the last pair of the node it
stops at; `none` when an index leaves its array. -/
def lastOfRightmost : BTreeNode K V → Option (K × V)
  | mk ks br _ => lastOfRightmostAt ks br ks.length
/-- The step of the loop that reads `subRoot->branch(i)` for the node with pairs `ks`. -/
def lastOfRightmostAt (ks : List (K × V)) :
    List (Option (BTreeNode K V)) → Nat → Option (K × V)
  | [], _ => none
  | none :: _, 0 => ks.getLast?
  | some c :: _, 0 => lastOfRightmost c
  | _ :: bs, i + 1 => lastOfRightmostAt ks bs i
end

/-- `copyInPredecessor(_idx)`; `none` when `branch(_idx)` is null or an index leaves its
array. -/
def copyInPredecessor (n : BTreeNode K V) (idx : Nat) : Option (BTreeNode K V) :=
  match n.branch idx with
  | none => none
  | some subRoot =>
    match lastOfRightmost subRoot with
    | none => none
    | some p => if idx < n.nbKeys then some (mk (n.keys.set idx p) n.m_branch n.m_stale) else none

mutual
/-- The key/value pairs below a node in symmetric order: child 0, pair 0, child 1, ...,
the last pair, the last child. -/
def pairs : BTreeNode K V → List (K × V)
  | mk ks br _ => pairsAux ks br
/-- The pairs `ks` interleaved with the subtrees `br`. -/
def pairsAux : List (K × V) → List (Option (BTreeNode K V)) → List (K × V)
  | _, [] => []
  | [], b :: _ => pairsPtr b
  | kv :: ks, b :: bs => pairsPtr b ++ kv :: pairsAux ks bs
/-- The pairs below a pointer, none for `nullptr`. -/
def pairsPtr : Option (BTreeNode K V) → List (K × V)
  | none => []
  | some n => pairs n
end

mutual
/-- Every node below (and including) this one holds at most `MAXKEYS` keys and has
`nbKeys() + 1` branch slots in use. -/
def WF (order : Nat) : BTreeNode K V → Prop
  | mk ks br _ => ks.length ≤ MAXKEYS order ∧ br.length = ks.length + 1 ∧ WFList order br
/-- `WF` for every non-null pointer of a list of branches. -/
def WFList (order : Nat) : List (Option (BTreeNode K V)) → Prop
  | [] => True
  | b :: bs => WFPtr order b ∧ WFList order bs
/-- `WF` for the node a pointer points to, if any. -/
def WFPtr (order : Nat) : Option (BTreeNode K V) → Prop
  | none => True
  | some n => WF order n
end

mutual
/-- The nodes strictly below a node, through the branches `0 .. nbKeys()`. -/
def descendants : BTreeNode K V → List (BTreeNode K V)
  | mk _ br _ => descendantsList br
/-- The nodes at and below the pointers of a list of branches. -/
def descendantsList : List (Option (BTreeNode K V)) → List (BTreeNode K V)
  | [] => []
  | b :: bs => descendantsPtr b ++ descendantsList bs
/-- The nodes at and below a pointer. -/
def descendantsPtr : Option (BTreeNode K V) → List (BTreeNode K V)
  | none => []
  | some n => n :: descendants n
end

/-- Every node at or below the pointers of a list of branches holds at least `MINKEYS`
keys. -/
def MinKeysList (order : Nat) (bs : List (Option (BTreeNode K V))) : Prop :=
  ∀ x ∈ descendantsList bs, MINKEYS order ≤ x.nbKeys

/-- Every node at or below a pointer holds at least `MINKEYS` keys. -/
def MinKeysPtr (order : Nat) (q : Option (BTreeNode K V)) : Prop :=
  ∀ x ∈ descendantsPtr q, MINKEYS order ≤ x.nbKeys

mutual
/-- All the null pointers below a node lie `h + 1` levels below it: the branches
`0 .. nbKeys()` of a node of height `h + 1` are subtrees of height `h`. -/
def Uniform (h : Nat) : BTreeNode K V → Prop
  | mk _ br _ => UniformList h br
/-- `UniformPtr` for every pointer of a list of branches. -/
def UniformList (h : Nat) : List (Option (BTreeNode K V)) → Prop
  | [] => True
  | b :: bs => UniformPtr h b ∧ UniformList h bs
/-- A pointer is the root of a subtree of height `h` with all its leaves on one level:
`nullptr` has height 0, a node is one level above its branches. -/
def UniformPtr (h : Nat) : Option (BTreeNode K V) → Prop
  | none => h = 0
  | some n => 0 < h ∧ Uniform (h - 1) n
end

end BTreeNode

/-- The data member of `BTree`: the root pointer. -/
structure BTree (K V : Type) where
  m_root : Option (BTreeNode K V)

namespace BTree

variable {K V : Type}

open BTreeNode

/-- The default constructor `BTree()`. -/
def empty : BTree K V := { m_root := none }

mutual
/-- `internal_find(_current, _key, _retNode, _position)`: `_retNode` and `_position` when
it returns true, `none` when it returns false. -/
def internal_find [LinearOrder K] (key : K) :
    Option (BTreeNode K V) → Option (BTreeNode K V × Nat)
  | none => none
  | some current => internal_find_node key current
/-- The body of the loop of `internal_find` for a non-null `_current`. -/
def internal_find_node [LinearOrder K] (key : K) :
    BTreeNode K V → Option (BTreeNode K V × Nat)
  | BTreeNode.mk ks br st =>
    match findKeyPositionFrom key ks 0 with
    | (true, position) => some (BTreeNode.mk ks br st, position)
    | (false, position) => internal_find_branch key br position
/-- The step `_current = _current->branch(_position)` of `internal_find`. -/
def internal_find_branch [LinearOrder K] (key : K) :
    List (Option (BTreeNode K V)) → Nat → Option (BTreeNode K V × Nat)
  | [], _ => none
  | b :: _, 0 => internal_find key b
  | _ :: bs, i + 1 => internal_find_branch key bs i
end

/-- `find(_key)`: the value the returned pointer points to, `none` for `nullptr`. -/
def find [LinearOrder K] (t : BTree K V) (key : K) : Option V :=
  match internal_find key t.m_root with
  | some (n, position) =>
    match n.keys.get? position with
    | some kv => some kv.2
    | none => none
  | none => none

/-- The outcome of `internal_push_down_insert`: the result code with the node `_current`
after the call and, for `ERCode_Insert_Overflow`, the median pair and `_rightBranchOut`. -/
inductive PushDown (K V : Type) where
  | ERCode_Insert_Success (current : Option (BTreeNode K V))
  | ERCode_Insert_Overflow (current : Option (BTreeNode K V)) (median : K × V)
      (rightBranchOut : Option (BTreeNode K V))
  | ERCode_Insert_Error_Duplicate

mutual
/-- `internal_push_down_insert(_current, _key, _val, ...)`; `none` when an assertion of
`insertAt` or `splitInsertAt` fails. -/
def internal_push_down_insert [LinearOrder K] (order : Nat) (key : K) (val : V) :
    Option (BTreeNode K V) → Option (PushDown K V)
  | none => some (.ERCode_Insert_Overflow none (key, val) none)
  | some current => push_down_node order key val current
/-- The `else` branch of `internal_push_down_insert`, for a non-null `_current`. -/
def push_down_node [LinearOrder K] (order : Nat) (key : K) (val : V) :
    BTreeNode K V → Option (PushDown K V)
  | BTreeNode.mk ks br st =>
    match findKeyPositionFrom key ks 0 with
    | (true, _) => some .ERCode_Insert_Error_Duplicate
    | (false, position) =>
      match push_down_branch order key val br position with
      | none => none
      | some .ERCode_Insert_Error_Duplicate => some .ERCode_Insert_Error_Duplicate
      | some (.ERCode_Insert_Success child) =>
        some (.ERCode_Insert_Success (some (BTreeNode.mk ks (br.set position child) st)))
      | some (.ERCode_Insert_Overflow child median rightBranchPtr) =>
        if (BTreeNode.mk ks (br.set position child) st).isFull order then
          match splitInsertAt order (BTreeNode.mk ks (br.set position child) st) position median
              rightBranchPtr with
          | some (l, m, r) => some (.ERCode_Insert_Overflow (some l) m (some r))
          | none => none
        else
          match insertAt order (BTreeNode.mk ks (br.set position child) st) position median
              rightBranchPtr with
          | some n => some (.ERCode_Insert_Success (some n))
          | none => none
/-- The recursive call of `internal_push_down_insert` on `_current->branch(position)`. -/
def push_down_branch [LinearOrder K] (order : Nat) (key : K) (val : V) :
    List (Option (BTreeNode K V)) → Nat → Option (PushDown K V)
  | [], _ => none
  | b :: _, 0 => internal_push_down_insert order key val b
  | _ :: bs, i + 1 => push_down_branch order key val bs i
end

/-- `internal_insert(_key, _val)` and `insert`: the tree after the call and the returned
Boolean. -/
def insert [LinearOrder K] (order : Nat) (t : BTree K V) (key : K) (val : V) :
    Option (BTree K V × Bool) :=
  match internal_push_down_insert order key val t.m_root with
  | none => none
  | some (.ERCode_Insert_Overflow current median rightBranchOut) =>
    match insertAt order (BTreeNode.mk [] [current] (List.replicate (order - 1) none)) 0 median
        rightBranchOut with
    | some nodePtr => some ({ m_root := some nodePtr }, true)
    | none => none
  | some (.ERCode_Insert_Success current) => some ({ m_root := current }, true)
  | some .ERCode_Insert_Error_Duplicate => some (t, false)

/-- `internal_restore(_current, _position)`; `none` when a sibling pointer is null or an
assertion of `moveLeft`, `moveRight` or `combine` fails. -/
def internal_restore (order : Nat) (current : BTreeNode K V) (position : Nat) :
    Option (BTreeNode K V) :=
  if position = current.nbKeys then
    if position = 0 then none
    else
      match current.branch (position - 1) with
      | none => none
      | some l =>
        if l.nbKeys > MINKEYS order then moveRight order current (position - 1)
        else
          match combine order current position with
          | some r => some r.1
          | none => none
  else if position = 0 then
    match current.branch (position + 1) with
    | none => none
    | some r =>
      if r.nbKeys > MINKEYS order then moveLeft order current 1
      else
        match combine order current 1 with
        | some r => some r.1
        | none => none
  else
    match current.branch (position - 1) with
    | none => none
    | some l =>
      match (if l.nbKeys > MINKEYS order then moveRight order current (position - 1)
          else some current) with
      | none => none
      | some current1 =>
        match current1.branch (position + 1) with
        | none => none
        | some r =>
          if r.nbKeys > MINKEYS order then moveLeft order current1 (position + 1)
          else
            match combine order current1 position with
            | some r => some r.1
            | none => none

/-- The closing test of `internal_recursive_remove`: restore `branch(position)` when it
holds fewer than `MINKEYS` keys. -/
def restore_if_underflow (order : Nat) (current : BTreeNode K V) (position : Nat) :
    Option (BTreeNode K V) :=
  match current.branch position with
  | some c => if c.nbKeys < MINKEYS order then internal_restore order current position
    else some current
  | none => some current

mutual
/-- `internal_recursive_remove(_current, _key)`: the node `_current` after the call and the
returned Boolean; `none` when an assertion fails or a null pointer is dereferenced. -/
def internal_recursive_remove [LinearOrder K] (order : Nat) :
    Option (BTreeNode K V) → K → Option (Option (BTreeNode K V) × Bool)
  | none, _ => some (none, false)
  | some current, key => recursive_remove_node order current key
/-- The `else` branch of `internal_recursive_remove`, for a non-null `_current`. -/
def recursive_remove_node [LinearOrder K] (order : Nat) :
    BTreeNode K V → K → Option (Option (BTreeNode K V) × Bool)
  | BTreeNode.mk ks br st, key =>
    match findKeyPositionFrom key ks 0 with
    | (true, position) =>
      match (BTreeNode.mk ks br st).branch position with
      | some _ =>
        match copyInPredecessor (BTreeNode.mk ks br st) position with
        | none => none
        | some current1 =>
          match current1.keys.get? position with
          | none => none
          | some pred =>
            match recursive_remove_branch order br position pred.1 with
            | none => none
            | some (child, _) =>
              match restore_if_underflow order
                  (BTreeNode.mk current1.keys (br.set position child) st) position with
              | some current2 => some (some current2, true)
              | none => none
      | none =>
        match removeLeafData (BTreeNode.mk ks br st) position with
        | none => none
        | some current1 =>
          match restore_if_underflow order current1 position with
          | some current2 => some (some current2, true)
          | none => none
    | (false, position) =>
      match recursive_remove_branch order br position key with
      | none => none
      | some (child, result) =>
        match restore_if_underflow order (BTreeNode.mk ks (br.set position child) st) position with
        | some current2 => some (some current2, result)
        | none => none
/-- The recursive call of `internal_recursive_remove` on `_current->branch(position)`. -/
def recursive_remove_branch [LinearOrder K] (order : Nat) :
    List (Option (BTreeNode K V)) → Nat → K → Option (Option (BTreeNode K V) × Bool)
  | [], _, _ => some (none, false)
  | b :: _, 0, key => internal_recursive_remove order b key
  | _ :: bs, i + 1, key => recursive_remove_branch order bs i key
end

/-- `internal_remove(_key)` and `remove`: the tree after the call. -/
def remove [LinearOrder K] (order : Nat) (t : BTree K V) (key : K) : Option (BTree K V) :=
  match internal_recursive_remove order t.m_root key with
  | none => none
  | some (root, result) =>
    match root with
    | some n =>
      if result = true ∧ n.nbKeys = 0 then some { m_root := n.branch 0 }
      else some { m_root := root }
    | none => some { m_root := none }

/-- The full root leaf of the unit tests `Btree_Node_Test` at `G_ORDER = 6`: the keys
0, 10, 20, 30, 40. -/
def scenarioNode : BTreeNode Nat Nat :=
  BTreeNode.mk [(0, 0), (10, 1), (20, 2), (30, 3), (40, 4)]
    [none, none, none, none, none, none] []

/-- `clear()`: `cleanUp` frees every node and the root becomes null. -/
def clear (_t : BTree K V) : BTree K V := { m_root := none }

/-- A call of the public interface that changes the tree. -/
inductive Call (K V : Type) where
  | insert (key : K) (value : V)
  | remove (key : K)
  | clear

/-- The tree after one call. -/
def call [LinearOrder K] (order : Nat) (t : BTree K V) : Call K V → Option (BTree K V)
  | .insert key value =>
    match insert order t key value with
    | none => none
    | some r => some r.1
  | .remove key => remove order t key
  | .clear => some (clear t)

/-- The tree after a sequence of calls, first call first. -/
def calls [LinearOrder K] (order : Nat) (t : BTree K V) : List (Call K V) → Option (BTree K V)
  | [] => some t
  | c :: cs =>
    match call order t c with
    | none => none
    | some t1 => calls order t1 cs

mutual
/-- `copy(_copyRoot, _originalRoot)`: `_copyRoot` after the call. -/
def copy : Option (BTreeNode K V) → Option (BTreeNode K V)
  | none => none
  | some originalRoot => some (copy_node originalRoot)
/-- The non-null case of `copy`: the node the copy constructor `BTreeNode(const BTreeNode&)`
builds, with the pairs of the original and every branch slot null, after the loop has set
its slots `0 .. nbKeys()` to copies of the original's. -/
def copy_node : BTreeNode K V → BTreeNode K V
  | BTreeNode.mk ks br st => BTreeNode.mk ks (copy_branches br) (List.replicate st.length none)
/-- The loop of `copy` over the branch slots `0 .. nbKeys()`. -/
def copy_branches : List (Option (BTreeNode K V)) → List (Option (BTreeNode K V))
  | [] => []
  | b :: bs => copy b :: copy_branches bs
end

/-- The copy constructor `BTree(const BTree& _other)`. -/
def copyConstruct (other : BTree K V) : BTree K V := { m_root := copy other.m_root }

/-- `operator = (_other)` called on the tree `t`.  The argument is `none` when it is the
object itself (`this == &_other`) and `some other` for another object. -/
def assign (t : BTree K V) : Option (BTree K V) → BTree K V
  | none => t
  | some other => { m_root := copy other.m_root }

mutual
/-- Two nodes of the same shape: the same pairs in the same order, and branch slots
`0 .. nbKeys()` that are null together or point to nodes of the same shape. -/
def SameShape : BTreeNode K V → BTreeNode K V → Prop
  | BTreeNode.mk ks br _, m => m.keys = ks ∧ SameShapeList br m.m_branch
/-- `SameShapePtr` slot by slot. -/
def SameShapeList : List (Option (BTreeNode K V)) → List (Option (BTreeNode K V)) → Prop
  | [], bs => bs = []
  | b :: rest, bs =>
    match bs with
    | [] => False
    | c :: cs => SameShapePtr b c ∧ SameShapeList rest cs
/-- Two pointers that are both null or point to nodes of the same shape. -/
def SameShapePtr : Option (BTreeNode K V) → Option (BTreeNode K V) → Prop
  | none, q => q = none
  | some n, q =>
    match q with
    | none => False
    | some m => SameShape n m
end

/-- The calls of the unit tests at `G_ORDER = 6` that fill the root leaf with the keys
0, 10, 20, 30, 40 and split it by inserting 35. -/
def scenarioSplitCalls : List (Call Nat Nat) :=
  [.insert 0 0, .insert 10 1, .insert 20 2, .insert 30 3, .insert 40 4, .insert 35 5]

/-- The tree `scenarioSplitCalls` build: the root with the key 30 over the leaves
0, 10, 20 and 35, 40. -/
def scenarioSplitTree : BTree Nat Nat :=
  { m_root := some (BTreeNode.mk [(30, 3)]
      [some (BTreeNode.mk [(0, 0), (10, 1), (20, 2)] [none, none, none, none] [none, none]),
       some (BTreeNode.mk [(35, 5), (40, 4)] [none, none, none] [none, none, none])]
      [none, none, none, none]) }

end BTree

/-! ## Definitions: GeneralTree.h -/

/-- A node of the general tree, as a non-null `node_pointer`: `m_data` and the list
`m_children`. -/
inductive GTreeNode (T : Type) where
  | mk (m_data : T) (m_children : List (GTreeNode T)) : GTreeNode T

/-- The two static walks the member `traversalFunc` can point to. -/
inductive GTreeTraversalFunc where
  | preorder
  | postorder
  deriving DecidableEq, Repr

/-- The data members of `GTree`. -/
structure GTree (T : Type) where
  m_root : Option (GTreeNode T)
  m_size : Nat
  traversalFunc : GTreeTraversalFunc

namespace GTree

variable {T : Type}

mutual
/-- `preorder(pNode, pFunc)`: the data passed to `pFunc`, first call first. -/
def preorder : GTreeNode T → List T
  | GTreeNode.mk d cs => d :: preorderChildren cs
/-- The loop of `preorder` over `m_children`. -/
def preorderChildren : List (GTreeNode T) → List T
  | [] => []
  | c :: cs => preorder c ++ preorderChildren cs
end

/-- `postorder(pNode, pFunc)`: the data passed to `pFunc`, first call first.  The loop
over `m_children` calls `preorder` on each child. -/
def postorder : GTreeNode T → List T
  | GTreeNode.mk d cs => preorderChildren cs ++ [d]

/-- The default constructor `GTree()`. -/
def empty : GTree T := { m_root := none, m_size := 0, traversalFunc := .preorder }

/-- `setPreOrderTraversal()`. -/
def setPreOrderTraversal (t : GTree T) : GTree T := { t with traversalFunc := .preorder }

/-- `setPostOrderTraversal()`. -/
def setPostOrderTraversal (t : GTree T) : GTree T := { t with traversalFunc := .postorder }

/-- `traverse(itr, pFunc)` for an iterator at the node `itr`: `traversalFunc(*itr, pFunc)`. -/
def traverse (t : GTree T) (itr : GTreeNode T) : List T :=
  match t.traversalFunc with
  | .preorder => preorder itr
  | .postorder => postorder itr

mutual
/-- The post-order sequence of a node: the post-order sequences of its child subtrees in
list order, then the node itself. -/
def truePostorder : GTreeNode T → List T
  | GTreeNode.mk d cs => truePostorderChildren cs ++ [d]
/-- The post-order sequences of a list of subtrees, one after the other. -/
def truePostorderChildren : List (GTreeNode T) → List T
  | [] => []
  | c :: cs => truePostorder c ++ truePostorderChildren cs
end

/-- A root 1 with the single child 2, which has the single child 3. -/
def scenarioChain : GTreeNode Nat :=
  GTreeNode.mk 1 [GTreeNode.mk 2 [GTreeNode.mk 3 []]]

end GTree

/-! ## Definitions: Heap.h, BTreeArrayNode.h

The array `m_pRoot` of `m_uCapacity` nodes is a list; `m_uCapacity` is its length.  An
index is a natural number, and `node_index_invalid` (-1) as a returned index is `none`.
`reheapDown` and `reheapUp` are recursive without a measure that the source makes
decrease, so they take a bound on the depth of the recursion. -/

/-- The struct `BTreeArrayNode<_Ty>`; `m_index` is -1 (`node_index_invalid`) in a node
that is not in use. -/
structure BTreeArrayNode (T : Type) where
  m_index : Int
  m_data : T
  deriving DecidableEq, Repr

/-- `BTreeArrayNode::isValid()`. -/
def BTreeArrayNode.isValid {T : Type} (n : BTreeArrayNode T) : Bool := n.m_index != -1

/-- The data members of `CHeap`. -/
structure CHeap (K V : Type) where
  m_pRoot : List (BTreeArrayNode (K × V))
  m_uSize : Nat
  m_binPredicate : K → K → Bool

/-- How a call ends: it returns, it reads or writes outside the array, or its recursion
goes deeper than the bound given. -/
inductive Run (α : Type) where
  | done (a : α)
  | fault
  | depthExceeded
  deriving DecidableEq, Repr

namespace CHeap

variable {K V : Type}

/-- The member `m_uCapacity`. -/
def m_uCapacity (h : CHeap K V) : Nat := h.m_pRoot.length

/-- `isNodeValid(_index)`: `isIndexValid(_index) && getNode(_index).isValid()`. -/
def isNodeValid (h : CHeap K V) (index : Nat) : Bool :=
  match h.m_pRoot.get? index with
  | some n => n.isValid
  | none => false

/-- `compareNodes(_leftNodeIdx, _rightNodeIdx)`; `none` is `node_index_invalid`. -/
def compareNodes (h : CHeap K V) (leftNodeIdx rightNodeIdx : Nat) : Option Nat :=
  match h.m_pRoot.get? leftNodeIdx, h.m_pRoot.get? rightNodeIdx with
  | some l, some r =>
    if l.isValid && r.isValid then
      (if h.m_binPredicate l.m_data.1 r.m_data.1 then some leftNodeIdx else some rightNodeIdx)
    else if l.isValid then some leftNodeIdx
    else if r.isValid then some rightNodeIdx
    else none
  | some l, none => if l.isValid then some leftNodeIdx else none
  | none, some r => if r.isValid then some rightNodeIdx else none
  | none, none => none

/-- `swap(getNode(first), getNode(second))`: the data of the two nodes change places, the
members `m_index` stay; `none` when an index is outside the array. -/
def swap (h : CHeap K V) (first second : Nat) : Option (CHeap K V) :=
  match h.m_pRoot.get? first, h.m_pRoot.get? second with
  | some a, some b =>
    some { h with
      m_pRoot := (h.m_pRoot.set first { a with m_data := b.m_data }).set second
        { b with m_data := a.m_data } }
  | _, _ => none

/-- `reheapDown(_nodeIndex)` with recursion depth at most `depth`.  The statement
`if (swapIndex != _nodeIndex);` is empty, so the block after it runs in both cases. -/
def reheapDown (h : CHeap K V) : Nat → Nat → Run (CHeap K V)
  | 0, _ => .depthExceeded
  | depth + 1, nodeIndex =>
    match compareNodes h (nodeIndex * 2 + 1) (nodeIndex * 2 + 2) with
    | none => .done h
    | some child =>
      match compareNodes h nodeIndex child with
      | none => .fault
      | some swapIndex =>
        match swap h swapIndex nodeIndex with
        | none => .fault
        | some h1 => reheapDown h1 depth swapIndex

/-- `reheapUp(_nodeIndex)` with recursion depth at most `depth`. -/
def reheapUp (h : CHeap K V) : Nat → Nat → Run (CHeap K V)
  | 0, _ => .depthExceeded
  | depth + 1, nodeIndex =>
    if nodeIndex > 0 then
      let parentNodeIndex := (nodeIndex - 1) / 2
      if compareNodes h nodeIndex parentNodeIndex = some nodeIndex then
        match swap h nodeIndex parentNodeIndex with
        | none => .fault
        | some h1 => reheapUp h1 depth parentNodeIndex
      else .done h
    else .done h

/-- `resize(_nSize)` for `_nSize` not below the capacity, the allocation returning the
array: the old nodes are kept and the new ones are default nodes. -/
def resize [Inhabited K] [Inhabited V] (h : CHeap K V) (nSize : Nat) : CHeap K V :=
  { h with
    m_pRoot := h.m_pRoot ++
      List.replicate (nSize - h.m_pRoot.length) { m_index := -1, m_data := default } }

/-- The constructor `CHeap(_size)` with the predicate object `pred`. -/
def new [Inhabited K] [Inhabited V] (pred : K → K → Bool) (size : Nat) : CHeap K V :=
  resize { m_pRoot := [], m_uSize := 0, m_binPredicate := pred } size

/-- `insert(_pair)` with recursion depth at most `depth` in `reheapUp`. -/
def insert [Inhabited K] [Inhabited V] (h : CHeap K V) (depth : Nat) (pair : K × V) :
    Run (CHeap K V) :=
  let h1 := if h.m_uSize + 1 > h.m_uCapacity then resize h (2 * h.m_uCapacity + 1) else h
  if h1.m_uSize < h1.m_uCapacity then
    reheapUp
      { h1 with
        m_pRoot := h1.m_pRoot.set h1.m_uSize { m_index := h1.m_uSize, m_data := pair }
        m_uSize := h1.m_uSize + 1 }
      depth h1.m_uSize
  else .fault

/-- `removeRoot()` with recursion depth at most `depth` in `reheapDown`; `m_uSize` is a
`size_t` of 64 bits. -/
def removeRoot [Inhabited K] [Inhabited V] (h : CHeap K V) (depth : Nat) : Run (CHeap K V) :=
  let size := (h.m_uSize + (2 ^ 64 - 1)) % 2 ^ 64
  if size > 0 then
    match h.m_pRoot.get? 0, h.m_pRoot.get? size with
    | some root, some last =>
      reheapDown
        { h with
          m_pRoot := (h.m_pRoot.set 0 { root with m_data := last.m_data }).set size
            { m_index := -1, m_data := default }
          m_uSize := size }
        depth 0
    | _, _ => .fault
  else
    match h.m_pRoot.get? 0 with
    | some _ =>
      .done { h with
        m_pRoot := h.m_pRoot.set 0 { m_index := -1, m_data := default }
        m_uSize := size }
    | none => .fault

/-- The heap after the calls `insert` of the list, first call first, each with recursion
depth at most `depth`. -/
def inserts [Inhabited K] [Inhabited V] (h : CHeap K V) (depth : Nat) :
    List (K × V) → Run (CHeap K V)
  | [] => .done h
  | p :: ps =>
    match insert h depth p with
    | .done h1 => inserts h1 depth ps
    | .fault => .fault
    | .depthExceeded => .depthExceeded

/-- The predicate `greater` and the two nodes with the keys 5 and 3: a heap in order. -/
def scenarioPair : CHeap Nat Nat :=
  { m_pRoot := [{ m_index := 0, m_data := (5, 50) }, { m_index := 1, m_data := (3, 30) },
      { m_index := -1, m_data := (0, 0) }]
    m_uSize := 2
    m_binPredicate := AvlTree.greater }

/-- The heap of capacity 7 after the calls `insert` for the keys 10, 9, 8, 1, 2, 7. -/
def scenarioSix : CHeap Nat Nat :=
  { m_pRoot := [{ m_index := 0, m_data := (10, 100) }, { m_index := 1, m_data := (9, 90) },
      { m_index := 2, m_data := (8, 80) }, { m_index := 3, m_data := (1, 10) },
      { m_index := 4, m_data := (2, 20) }, { m_index := 5, m_data := (7, 70) },
      { m_index := -1, m_data := (0, 0) }]
    m_uSize := 6
    m_binPredicate := AvlTree.greater }

/-- The heap `scenarioSix` two steps into `removeRoot`: the key 7 has moved from the last
node to the root and from there below the key 9. -/
def scenarioStuck : CHeap Nat Nat :=
  { m_pRoot := [{ m_index := 0, m_data := (9, 90) }, { m_index := 1, m_data := (7, 70) },
      { m_index := 2, m_data := (8, 80) }, { m_index := 3, m_data := (1, 10) },
      { m_index := 4, m_data := (2, 20) }, { m_index := -1, m_data := (0, 0) },
      { m_index := -1, m_data := (0, 0) }]
    m_uSize := 5
    m_binPredicate := AvlTree.greater }

end CHeap

/-! ## Definitions: RbTree.h

A `node_pointer` is a subtree, `nil` for `nullptr`.  The member `m_parent` is not stored:
a position in the tree is a subtree together with the list of the `Frame`s above it, the
nearest first, and the end of that list is the root.  The members `m_leftmost` and
`m_rightmost`, which `rb_insert` and `rb_remove` only update, and the allocator are left
out. -/

/-- The enumeration `RbTreeNode::Color`. -/
inductive RbTreeNode.Color where
  | Black
  | Red
  deriving DecidableEq, Repr

/-- A subtree as a `node_pointer`: `nil` is `nullptr`, `node` holds `m_left`, `m_color`,
the key and the value of `m_pair`, and `m_right`. -/
inductive RbTreeNode (K V : Type) where
  | nil : RbTreeNode K V
  | node (m_left : RbTreeNode K V) (m_color : RbTreeNode.Color) (key : K) (value : V)
      (m_right : RbTreeNode K V) : RbTreeNode K V
  deriving DecidableEq, Repr

/-- The data members `m_size`, `m_root` and `m_binPredicate` of `RedBlackTree`. -/
structure RedBlackTree (K V : Type) where
  m_size : Nat
  m_root : RbTreeNode K V
  m_binPredicate : K → K → Bool

namespace RedBlackTree

variable {K V : Type}

open RbTreeNode RbTreeNode.Color

/-- The node reached through `m_parent`, without the child the step came from: `left` when
that child is its `m_left`, `right` when it is its `m_right`. -/
inductive Frame (K V : Type) where
  | left (m_color : Color) (key : K) (value : V) (m_right : RbTreeNode K V) : Frame K V
  | right (m_left : RbTreeNode K V) (m_color : Color) (key : K) (value : V) : Frame K V
  deriving DecidableEq, Repr

/-- The colour tests of the source on a pointer that may be null: `color p = Red` is
`p && p->isRed()` and `color p = Black` is `p == nullptr || p->isBlack()` (property #3:
every nil leaf is black). -/
def color : RbTreeNode K V → Color
  | nil => Black
  | node _ c _ _ _ => c

/-- `p->color(c)` on a pointer known to be non-null (`nil` is left alone, as in
`if (x) x->color(...)`). -/
def withColor (c : Color) : RbTreeNode K V → RbTreeNode K V
  | nil => nil
  | node l _ k v r => node l c k v r

/-- `color()` of the node of a frame. -/
def Frame.color : Frame K V → Color
  | .left c _ _ _ => c
  | .right _ c _ _ => c

/-- The node of a frame with the subtree `t` as the child the frame lacks. -/
def Frame.fill (t : RbTreeNode K V) : Frame K V → RbTreeNode K V
  | .left c k v r => node t c k v r
  | .right l c k v => node l c k v t

/-- The tree `m_root` with the subtree `t` at the position below the frames `path`. -/
def plug : RbTreeNode K V → List (Frame K V) → RbTreeNode K V
  | t, [] => t
  | t, f :: path => plug (f.fill t) path

/-- In-order list of the pairs of a subtree. -/
def pairs : RbTreeNode K V → List (K × V)
  | nil => []
  | node l _ k v r => pairs l ++ (k, v) :: pairs r

/-- The number of black nodes on the leftmost path from a subtree to a nil leaf. -/
def blackHeight : RbTreeNode K V → Nat
  | nil => 0
  | node l c _ _ _ => blackHeight l + (if c = Black then 1 else 0)

/-- Property #5: for each node, all simple paths from the node to descendant leaves
contain the same number of black nodes. -/
def EqualBlackCounts : RbTreeNode K V → Prop
  | nil => True
  | node l _ _ _ r => blackHeight l = blackHeight r ∧ EqualBlackCounts l ∧ EqualBlackCounts r

/-- The number of black nodes on each simple path from the root of a subtree down to a
nil leaf, the paths taken from left to right. -/
def blackCounts : RbTreeNode K V → List Nat
  | nil => [0]
  | node l c _ _ r =>
    (blackCounts l ++ blackCounts r).map (fun n => n + (if c = Black then 1 else 0))

/-- The subtrees of a subtree: itself and those below it, nil leaves included. -/
def subtrees : RbTreeNode K V → List (RbTreeNode K V)
  | nil => [nil]
  | node l c k v r => node l c k v r :: (subtrees l ++ subtrees r)

/-- Property #4: if a node is red, then both its children are black. -/
def NoRedRed : RbTreeNode K V → Prop
  | nil => True
  | node l c _ _ r => (c = Red → color l = Black ∧ color r = Black) ∧ NoRedRed l ∧ NoRedRed r

/-- The red-black properties of a tree: search order of the keys, property #2 (the root is
black), property #4 and property #5. -/
def IsRedBlack [LT K] (root : RbTreeNode K V) : Prop :=
  SortedKeys (pairs root) ∧ color root = Black ∧ NoRedRed root ∧ EqualBlackCounts root

/-- The pairs of the tree that come before those of the position below `path`. -/
def pairsBefore : List (Frame K V) → List (K × V)
  | [] => []
  | .left _ _ _ _ :: path => pairsBefore path
  | .right l _ k v :: path => pairsBefore path ++ (pairs l ++ [(k, v)])

/-- The pairs of the tree that come after those of the position below `path`. -/
def pairsAfter : List (Frame K V) → List (K × V)
  | [] => []
  | .left _ k v r :: path => (k, v) :: pairs r ++ pairsAfter path
  | .right _ _ _ _ :: path => pairsAfter path

/-- Property #5 for the part of the tree outside the position below `path`, when the
subtree at that position has the black height `n`. -/
def PathEqualBlackCounts : List (Frame K V) → Nat → Prop
  | [], _ => True
  | .left c _ _ r :: path, n =>
    blackHeight r = n ∧ EqualBlackCounts r ∧
      PathEqualBlackCounts path (n + (if c = Black then 1 else 0))
  | .right l c _ _ :: path, n =>
    blackHeight l = n ∧ EqualBlackCounts l ∧
      PathEqualBlackCounts path (n + (if c = Black then 1 else 0))

/-- Property #4 for the part of the tree outside the position below `path`, when the
subtree at that position has a root of the colour `hc`. -/
def PathNoRedRed : List (Frame K V) → Color → Prop
  | [], _ => True
  | .left c _ _ r :: path, hc =>
    (c = Red → hc = Black ∧ color r = Black) ∧ NoRedRed r ∧ PathNoRedRed path c
  | .right l c _ _ :: path, hc =>
    (c = Red → color l = Black ∧ hc = Black) ∧ NoRedRed l ∧ PathNoRedRed path c

/-- The colour of the root of the tree, when the subtree at the position below `path` has
a root of the colour `hc`. -/
def pathRootColor : List (Frame K V) → Color → Color
  | [], hc => hc
  | f :: path, _ => pathRootColor path f.color

/-- The number of black nodes among the frames of `path`. -/
def pathBlackCount : List (Frame K V) → Nat
  | [] => 0
  | f :: path => (if f.color = Black then 1 else 0) + pathBlackCount path

/-- The default constructor `RedBlackTree()` with the comparator `less`. -/
def empty [LinearOrder K] : RedBlackTree K V :=
  { m_size := 0, m_root := nil, m_binPredicate := AvlTree.less }

/-- The search loop of `rb_insert` from the node `currentPtr` below `path`: `none` when
the key is met (duplicate), else the frames above the null position where the loop ends,
`parentPtr` first. -/
def rb_insert_search [DecidableEq K] (pred : K → K → Bool) (key : K) :
    RbTreeNode K V → List (Frame K V) → Option (List (Frame K V))
  | nil, path => some path
  | node l c k v r, path =>
    if pred key k then rb_insert_search pred key l (.left c k v r :: path)
    else if key = k then none
    else rb_insert_search pred key r (.right l c k v :: path)

/-- `rb_insert_fixup(_newNodePtr)` for the node `_newNodePtr` below `path`: the tree
`m_root` after the call.  `none` when a null pointer is dereferenced: `_newNodePtr` itself,
or `grandParentPtr` when the red parent is the root.  The assertion at the entry holds at
the only call, in `rb_insert`.  After Case 2 and Case 3 the parent of `_newNodePtr` is
black, so the loop ends there. -/
def rb_insert_fixup : RbTreeNode K V → List (Frame K V) → Option (RbTreeNode K V)
  | nil, _ => none
  | node zl _ zk zv zr, [] => some (node zl Black zk zv zr)
  | node zl zc zk zv zr, [p] =>
    if p.color = Red then none
    else some (withColor Black (plug (node zl zc zk zv zr) [p]))
  | node zl zc zk zv zr, p :: g :: rest =>
    if p.color = Red then
      match g with
      | .left _ gk gv aunt =>
        if color aunt = Red then
          rb_insert_fixup
            (node (withColor Black (p.fill (node zl zc zk zv zr))) Red gk gv
              (withColor Black aunt)) rest
        else
          match p with
          | .right pl pc pk pv =>
            some (withColor Black
              (plug (node (node pl pc pk pv zl) Black zk zv (node zr Red gk gv aunt)) rest))
          | .left _ pk pv pr =>
            some (withColor Black
              (plug (node (node zl zc zk zv zr) Black pk pv (node pr Red gk gv aunt)) rest))
      | .right aunt _ gk gv =>
        if color aunt = Red then
          rb_insert_fixup
            (node (withColor Black aunt) Red gk gv
              (withColor Black (p.fill (node zl zc zk zv zr)))) rest
        else
          match p with
          | .left pc pk pv pr =>
            some (withColor Black
              (plug (node (node aunt Red gk gv zl) Black zk zv (node zr pc pk pv pr)) rest))
          | .right pl _ pk pv =>
            some (withColor Black
              (plug (node (node aunt Red gk gv pl) Black pk pv (node zl zc zk zv zr)) rest))
    else some (withColor Black (plug (node zl zc zk zv zr) (p :: g :: rest)))

/-- `rb_insert(_pair, _retNodePtr)`: the tree after the call and the returned flag; `none`
when `rb_insert_fixup` dereferences a null pointer. -/
def rb_insert [DecidableEq K] (t : RedBlackTree K V) (key : K) (value : V) :
    Option (RedBlackTree K V × Bool) :=
  match rb_insert_search t.m_binPredicate key t.m_root [] with
  | none => some (t, false)
  | some [] =>
    some ({ t with m_root := node nil Black key value nil,
                   m_size := (t.m_size + 1) % 2 ^ 64 }, true)
  | some (f :: path) =>
    match rb_insert_fixup (node nil Red key value nil) (f :: path) with
    | none => none
    | some root => some ({ t with m_root := root, m_size := (t.m_size + 1) % 2 ^ 64 }, true)

/-- `insert(_key, _value)`: the tree after the call and the flag of the returned pair. -/
def insert [DecidableEq K] (t : RedBlackTree K V) (key : K) (value : V) :
    Option (RedBlackTree K V × Bool) :=
  rb_insert t key value

/-- `bst_find(_key)` from the node `currentPtr` below `path`: the node found, with the
frames above it, or `none` for `nullptr`. -/
def bst_find [DecidableEq K] (pred : K → K → Bool) (key : K) :
    RbTreeNode K V → List (Frame K V) → Option (RbTreeNode K V × List (Frame K V))
  | nil, _ => none
  | node l c k v r, path =>
    if pred key k then bst_find pred key l (.left c k v r :: path)
    else if key = k then some (node l c k v r, path)
    else bst_find pred key r (.right l c k v :: path)

/-- `minimum(_nodePtr)` for the node `_nodePtr` below `path`: colour, key, value and right
child of the leftmost node, and the frames above it; `none` when `_nodePtr` is null. -/
def minimum : RbTreeNode K V → List (Frame K V) →
    Option (Color × K × V × RbTreeNode K V × List (Frame K V))
  | nil, _ => none
  | node nil c k v r, path => some (c, k, v, r, path)
  | node (node ll lc lk lv lr) c k v r, path =>
    minimum (node ll lc lk lv lr) (.left c k v r :: path)

/-- What one pass of the loop of `rb_remove_fixup` leaves from Case 2 on: `up x` when
`x` becomes `xp` (Case 2), with the subtree now at that node; `stop sub` when `x` becomes
`m_root` (Case 1), with the subtree now at the former position of `xp`. -/
inductive FixupStep (K V : Type) where
  | up (x : RbTreeNode K V) : FixupStep K V
  | stop (sub : RbTreeNode K V) : FixupStep K V

/-- The loop body of `rb_remove_fixup` after the test for Case 3, for `x` the left child
of `xp` (colour `pc`, key `pk`, value `pv`) and its sibling `s`; `none` when `s` is null. -/
def rb_remove_fixup_left (x : RbTreeNode K V) (pc : Color) (pk : K) (pv : V) :
    RbTreeNode K V → Option (FixupStep K V)
  | nil => none
  | node sl _ sk sv sr =>
    if color sr = Black ∧ color sl = Black then
      some (.up (node x pc pk pv (node sl Red sk sv sr)))
    else if color sr = Black then
      match sl with
      | nil => none
      | node sll _ slk slv slr =>
        some (.stop (node (node x Black pk pv sll) pc slk slv (node slr Black sk sv sr)))
    else
      some (.stop (node (node x Black pk pv sl) pc sk sv (withColor Black sr)))

/-- The loop body of `rb_remove_fixup` after the test for Case 3, for `x` the right child
of `xp` and its sibling `s`; `none` when `s` is null. -/
def rb_remove_fixup_right (x : RbTreeNode K V) (pc : Color) (pk : K) (pv : V) :
    RbTreeNode K V → Option (FixupStep K V)
  | nil => none
  | node sl _ sk sv sr =>
    if color sl = Black ∧ color sr = Black then
      some (.up (node (node sl Red sk sv sr) pc pk pv x))
    else if color sl = Black then
      match sr with
      | nil => none
      | node srl _ srk srv srr =>
        some (.stop (node (node sl Black sk sv srl) pc srk srv (node srr Black pk pv x)))
    else
      some (.stop (node (withColor Black sl) pc sk sv (node sr Black pk pv x)))

/-- `rb_remove_fixup(_x, _xp)` for the subtree `x` below `path`, whose first frame is
`xp`: the tree `m_root` after the call; `none` when a null sibling is dereferenced (this
is also where the test `x == xp->left()` goes wrong: it takes a null right child for the
left one only when the sibling is null as well).  After Case 3 `xp` is red, so when Case 2
then makes it the new `x` the loop ends. -/
def rb_remove_fixup : RbTreeNode K V → List (Frame K V) → Option (RbTreeNode K V)
  | x, [] => some (withColor Black x)
  | x, .left pc pk pv s :: rest =>
    if color x = Red then some (plug (withColor Black x) (.left pc pk pv s :: rest))
    else
      match s with
      | nil => none
      | node sl sc sk sv sr =>
        if sc = Red then
          match rb_remove_fixup_left x Red pk pv sl with
          | none => none
          | some (.up x1) => some (plug (withColor Black x1) (.left Black sk sv sr :: rest))
          | some (.stop sub) => some (withColor Black (plug sub (.left Black sk sv sr :: rest)))
        else
          match rb_remove_fixup_left x pc pk pv (node sl sc sk sv sr) with
          | none => none
          | some (.up x1) => rb_remove_fixup x1 rest
          | some (.stop sub) => some (withColor Black (plug sub rest))
  | x, .right s pc pk pv :: rest =>
    if color x = Red then some (plug (withColor Black x) (.right s pc pk pv :: rest))
    else
      match s with
      | nil => none
      | node sl sc sk sv sr =>
        if sc = Red then
          match rb_remove_fixup_right x Red pk pv sr with
          | none => none
          | some (.up x1) => some (plug (withColor Black x1) (.right sl Black sk sv :: rest))
          | some (.stop sub) => some (withColor Black (plug sub (.right sl Black sk sv :: rest)))
        else
          match rb_remove_fixup_right x pc pk pv (node sl sc sk sv sr) with
          | none => none
          | some (.up x1) => rb_remove_fixup x1 rest
          | some (.stop sub) => some (withColor Black (plug sub rest))

/-- `rb_remove(_nodeToDelete)` for the node `_nodeToDelete` below `path`: the tree `m_root`
after the call; `none` when an assertion fails or a null pointer is dereferenced.  With
two children, `y = minimum(_nodeToDelete->m_right)` takes the place and the colour of
`_nodeToDelete` and `x = y->right()` takes the place of `y`; the frames above `x` are then
those between `y` and `_nodeToDelete` (none when `xp == _nodeToDelete`), the frame of `y`
at its new place, and `path`. -/
def rb_remove : RbTreeNode K V → List (Frame K V) → Option (RbTreeNode K V)
  | nil, _ => none
  | node nil c _ _ nil, path =>
    if c = Black then rb_remove_fixup nil path else some (plug nil path)
  | node nil c _ _ (node rl rc rk rv rr), path =>
    if rc = Red then
      if c = Black then rb_remove_fixup (node rl rc rk rv rr) path
      else some (plug (node rl rc rk rv rr) path)
    else none
  | node (node ll lc lk lv lr) c _ _ nil, path =>
    if lc = Red then
      if c = Black then rb_remove_fixup (node ll lc lk lv lr) path
      else some (plug (node ll lc lk lv lr) path)
    else none
  | node (node ll lc lk lv lr) c _ _ (node rl rc rk rv rr), path =>
    match minimum (node rl rc rk rv rr) [] with
    | none => none
    | some (yc, yk, yv, x, inner) =>
      if yc = Black then
        rb_remove_fixup x (inner ++ .right (node ll lc lk lv lr) c yk yv :: path)
      else some (plug x (inner ++ .right (node ll lc lk lv lr) c yk yv :: path))

/-- `erase(_key)`: the tree after the call; `none` when `rb_remove` does not return. -/
def erase [DecidableEq K] (t : RedBlackTree K V) (key : K) : Option (RedBlackTree K V) :=
  match bst_find t.m_binPredicate key t.m_root [] with
  | none => some t
  | some (nodeToDelete, path) =>
    match rb_remove nodeToDelete path with
    | none => none
    | some root =>
      some { t with m_root := root, m_size := (t.m_size + (2 ^ 64 - 1)) % 2 ^ 64 }

/-- The tree after `insert` of the keys 1, 2 and 3 into the empty tree: the black root 2
over the red leaves 1 and 3. -/
def scenarioThree : RedBlackTree Nat Nat :=
  { m_size := 3,
    m_root := node (node nil Red 1 10 nil) Black 2 20 (node nil Red 3 30 nil),
    m_binPredicate := AvlTree.less }

end RedBlackTree

/-! ## Definitions: AvlTree.h in the free store

The nodes of the trees live in a store, addressed by natural numbers; a `node_pointer` is
an address and 0 is `nullptr`.  Two tree objects share a node when the same address is
reached from both roots.  The functions below are the member functions of `AvlTree` once
more, acting on the store through the pointers; a result `none` is a failed assertion or
the dereference of a pointer that is null or points to no object.  The recursive functions
take a bound on the depth of the recursion. -/

namespace AvlStore

open BalanceFactor AvlTreeNode

variable {K V : Type}

/-- An `AvlTreeNode` object in the free store.  A `node_pointer` is the address of such an
object, a natural number, and 0 is `nullptr`. -/
structure NodeObject (K V : Type) where
  m_left : Nat
  m_right : Nat
  key : K
  value : V
  m_balanceFactor : BalanceFactor
  deriving DecidableEq, Repr

/-- The free store: the node object that lives at each address, `none` where none does. -/
abbrev Store (K V : Type) := Nat → Option (NodeObject K V)

/-- The store with the object `n` at the address `a`. -/
def Store.write (s : Store K V) (a : Nat) (n : NodeObject K V) : Store K V :=
  fun x => if x = a then some n else s x

/-- The store after `destroy` and `deallocate` of the object at the address `a`. -/
def Store.free (s : Store K V) (a : Nat) : Store K V :=
  fun x => if x = a then none else s x

/-- The object a pointer points to: `none` for `nullptr` and for an address where no object
lives. -/
def deref (s : Store K V) (p : Nat) : Option (NodeObject K V) :=
  if p = 0 then none else s p

/-- The assignment `p->m_left = q`. -/
def setLeft (s : Store K V) (p q : Nat) : Option (Store K V) :=
  match deref s p with
  | none => none
  | some n => some (s.write p { n with m_left := q })

/-- The assignment `p->m_right = q`. -/
def setRight (s : Store K V) (p q : Nat) : Option (Store K V) :=
  match deref s p with
  | none => none
  | some n => some (s.write p { n with m_right := q })

/-- The call `p->setBalanceFactor(f)`. -/
def setBalanceFactor (s : Store K V) (p : Nat) (f : BalanceFactor) : Option (Store K V) :=
  match deref s p with
  | none => none
  | some n => some (s.write p { n with m_balanceFactor := f })

/-- The call `p->copyDataOnly(*q)`: the pair of `*q` is assigned to the pair of `*p`. -/
def copyDataOnly (s : Store K V) (p q : Nat) : Option (Store K V) :=
  match deref s p, deref s q with
  | some n, some o => some (s.write p { n with key := o.key, value := o.value })
  | _, _ => none

/-- The data members of an `AvlTree` object; `m_root` is a pointer into the free store. -/
structure TreeObject (K V : Type) where
  m_size : Nat
  m_root : Nat
  m_binPredicate : K → K → Bool
  m_traversalFunc : TraversalFunc

/-- `rotate_left(_subRoot)`: the store and the pointer `_subRoot` after the call.  A
reference parameter `node_pointer&` is passed as the pointer it holds and handed back as
the pointer it holds after the call; the caller stores it where the reference points. -/
def rotate_left (s : Store K V) (subRoot : Nat) : Option (Store K V × Nat) :=
  match deref s subRoot with
  | none => none
  | some n =>
    if n.m_right = 0 then none
    else
      let rightTree := n.m_right
      match deref s rightTree with
      | none => none
      | some r =>
        match setRight s subRoot r.m_left with
        | none => none
        | some s1 =>
          match setLeft s1 rightTree subRoot with
          | none => none
          | some s2 => some (s2, rightTree)

/-- `rotate_right(_subRoot)`: the store and the pointer `_subRoot` after the call. -/
def rotate_right (s : Store K V) (subRoot : Nat) : Option (Store K V × Nat) :=
  match deref s subRoot with
  | none => none
  | some n =>
    if n.m_left = 0 then none
    else
      let leftTree := n.m_left
      match deref s leftTree with
      | none => none
      | some l =>
        match setLeft s subRoot l.m_right with
        | none => none
        | some s1 =>
          match setRight s1 leftTree subRoot with
          | none => none
          | some s2 => some (s2, leftTree)

/-- `balance_right(_subRoot)`: the store and the pointer `_subRoot` after the call. -/
def balance_right (s : Store K V) (subRoot : Nat) : Option (Store K V × Nat) :=
  match deref s subRoot with
  | none => none
  | some n =>
    let rightSubRoot := n.m_right
    match deref s rightSubRoot with
    | none => none
    | some r =>
      match r.m_balanceFactor with
      | EqualHeight =>
        match setBalanceFactor s subRoot RightHigher with
        | none => none
        | some s1 =>
          match setBalanceFactor s1 rightSubRoot LeftHigher with
          | none => none
          | some s2 => rotate_left s2 subRoot
      | RightHigher =>
        match setBalanceFactor s subRoot EqualHeight with
        | none => none
        | some s1 =>
          match setBalanceFactor s1 rightSubRoot EqualHeight with
          | none => none
          | some s2 => rotate_left s2 subRoot
      | LeftHigher =>
        let leftSubTree := r.m_left
        match deref s leftSubTree with
        | none => none
        | some g =>
          let sub : BalanceFactor :=
            match g.m_balanceFactor with
            | EqualHeight => EqualHeight
            | RightHigher => LeftHigher
            | LeftHigher => EqualHeight
          let right : BalanceFactor :=
            match g.m_balanceFactor with
            | EqualHeight => EqualHeight
            | RightHigher => EqualHeight
            | LeftHigher => RightHigher
          match setBalanceFactor s subRoot sub with
          | none => none
          | some s1 =>
            match setBalanceFactor s1 rightSubRoot right with
            | none => none
            | some s2 =>
              match setBalanceFactor s2 leftSubTree EqualHeight with
              | none => none
              | some s3 =>
                match rotate_right s3 rightSubRoot with
                | none => none
                | some (s4, r1) =>
                  match setRight s4 subRoot r1 with
                  | none => none
                  | some s5 => rotate_left s5 subRoot

/-- `balance_left(_subRoot)`: the store and the pointer `_subRoot` after the call. -/
def balance_left (s : Store K V) (subRoot : Nat) : Option (Store K V × Nat) :=
  match deref s subRoot with
  | none => none
  | some n =>
    let leftSubRoot := n.m_left
    match deref s leftSubRoot with
    | none => none
    | some l =>
      match l.m_balanceFactor with
      | EqualHeight =>
        match setBalanceFactor s subRoot LeftHigher with
        | none => none
        | some s1 =>
          match setBalanceFactor s1 leftSubRoot RightHigher with
          | none => none
          | some s2 => rotate_right s2 subRoot
      | LeftHigher =>
        match setBalanceFactor s subRoot EqualHeight with
        | none => none
        | some s1 =>
          match setBalanceFactor s1 leftSubRoot EqualHeight with
          | none => none
          | some s2 => rotate_right s2 subRoot
      | RightHigher =>
        let rightSubTree := l.m_right
        match deref s rightSubTree with
        | none => none
        | some g =>
          let sub : BalanceFactor :=
            match g.m_balanceFactor with
            | LeftHigher => RightHigher
            | RightHigher => EqualHeight
            | EqualHeight => EqualHeight
          let left : BalanceFactor :=
            match g.m_balanceFactor with
            | LeftHigher => EqualHeight
            | RightHigher => LeftHigher
            | EqualHeight => EqualHeight
          match setBalanceFactor s subRoot sub with
          | none => none
          | some s1 =>
            match setBalanceFactor s1 leftSubRoot left with
            | none => none
            | some s2 =>
              match setBalanceFactor s2 rightSubTree EqualHeight with
              | none => none
              | some s3 =>
                match rotate_left s3 leftSubRoot with
                | none => none
                | some (s4, l1) =>
                  match setLeft s4 subRoot l1 with
                  | none => none
                  | some s5 => rotate_right s5 subRoot

/-- The out-parameters of `avl_insert`: the pointers `_subRoot` and `_newNode` after the
call, the flag `_taller`, and the member `m_size`. -/
structure InsertOut where
  subRoot : Nat
  newNode : Nat
  taller : Bool
  m_size : Nat
  deriving DecidableEq, Repr

/-- `avl_insert(_pair, _subRoot, _newNode, _taller)`: the store and the out-parameters
after the call.  `a` is the pointer that `m_nodeAllocator.allocate(1)` returns, should it
be called.  The first argument bounds the depth of the recursion; the result is `none`
when it is used up, and when a pointer that is null or dangling is dereferenced. -/
def avl_insert [DecidableEq K] (pred : K → K → Bool) (a : Nat) (key : K) (value : V) :
    Nat → Store K V → Nat → Nat → Option (Store K V × InsertOut)
  | 0, _, _, _ => none
  | fuel + 1, s, subRoot, m_size =>
    if subRoot = 0 then
      if a ≠ 0 then
        some (s.write a ⟨0, 0, key, value, EqualHeight⟩, ⟨a, a, true, m_size + 1⟩)
      else
        some (s, ⟨subRoot, 0, false, m_size⟩)
    else
      match deref s subRoot with
      | none => none
      | some n =>
        if n.key = key then
          some (s, ⟨subRoot, 0, false, m_size⟩)
        else if pred key n.key then
          match avl_insert pred a key value fuel s n.m_left m_size with
          | none => none
          | some (s1, o) =>
            match setLeft s1 subRoot o.subRoot with
            | none => none
            | some s2 =>
              if o.taller then
                match deref s2 subRoot with
                | none => none
                | some n2 =>
                  match n2.m_balanceFactor with
                  | LeftHigher =>
                    match balance_left s2 subRoot with
                    | some (s3, p) => some (s3, ⟨p, o.newNode, false, o.m_size⟩)
                    | none => none
                  | EqualHeight =>
                    match setBalanceFactor s2 subRoot LeftHigher with
                    | some s3 => some (s3, ⟨subRoot, o.newNode, true, o.m_size⟩)
                    | none => none
                  | RightHigher =>
                    match setBalanceFactor s2 subRoot EqualHeight with
                    | some s3 => some (s3, ⟨subRoot, o.newNode, false, o.m_size⟩)
                    | none => none
              else
                some (s2, ⟨subRoot, o.newNode, false, o.m_size⟩)
        else
          match avl_insert pred a key value fuel s n.m_right m_size with
          | none => none
          | some (s1, o) =>
            match setRight s1 subRoot o.subRoot with
            | none => none
            | some s2 =>
              if o.taller then
                match deref s2 subRoot with
                | none => none
                | some n2 =>
                  match n2.m_balanceFactor with
                  | LeftHigher =>
                    match setBalanceFactor s2 subRoot EqualHeight with
                    | some s3 => some (s3, ⟨subRoot, o.newNode, false, o.m_size⟩)
                    | none => none
                  | EqualHeight =>
                    match setBalanceFactor s2 subRoot RightHigher with
                    | some s3 => some (s3, ⟨subRoot, o.newNode, true, o.m_size⟩)
                    | none => none
                  | RightHigher =>
                    match balance_right s2 subRoot with
                    | some (s3, p) => some (s3, ⟨p, o.newNode, false, o.m_size⟩)
                    | none => none
              else
                some (s2, ⟨subRoot, o.newNode, false, o.m_size⟩)

/-- `insert(_key, _value)`: the store and the tree object after the call, and the returned
Boolean. -/
def insert [DecidableEq K] (fuel : Nat) (a : Nat) (s : Store K V) (t : TreeObject K V)
    (key : K) (value : V) : Option (Store K V × TreeObject K V × Bool) :=
  match avl_insert t.m_binPredicate a key value fuel s t.m_root t.m_size with
  | none => none
  | some (s1, o) =>
    some (s1, { t with m_root := o.subRoot, m_size := o.m_size }, decide (o.newNode ≠ 0))

/-- The loop of `find_logical_predecessor`: the pointer `predecessor` when it ends. -/
def rightmost : Nat → Store K V → Nat → Option Nat
  | 0, _, _ => none
  | fuel + 1, s, predecessor =>
    match deref s predecessor with
    | none => none
    | some n => if n.m_right ≠ 0 then rightmost fuel s n.m_right else some predecessor

/-- `find_logical_predecessor(_node)`: the returned pointer. -/
def find_logical_predecessor (fuel : Nat) (s : Store K V) (node : Nat) : Option Nat :=
  match deref s node with
  | none => none
  | some n => rightmost fuel s n.m_left

/-- `delete_node(_refNodePtr)`: the returned Boolean, the store, the pointer `_refNodePtr`
and `m_size` after the call. -/
def delete_node (s : Store K V) (refNodePtr : Nat) (m_size : Nat) :
    Option (Bool × Store K V × Nat × Nat) :=
  match deref s refNodePtr with
  | none => none
  | some n =>
    if n.m_left = 0 ∨ n.m_right = 0 then
      let temp := refNodePtr
      some (true, s.free temp, if n.m_left = 0 then n.m_right else n.m_left, m_size - 1)
    else
      some (false, s, refNodePtr, m_size)

/-- The closing `switch (direction)` of `avl_delete`: the store, the pointer `_subRoot` and
the flag `_shorter` after it. -/
def avl_delete_switch (direction : AvlTree.Direction) (s : Store K V) (subRoot : Nat)
    (shorter : Bool) : Option (Store K V × Nat × Bool) :=
  match direction with
  | .EDir_LeftBranch =>
    match deref s subRoot with
    | none => none
    | some n =>
      match n.m_balanceFactor with
      | LeftHigher =>
        match setBalanceFactor s subRoot EqualHeight with
        | some s1 => some (s1, subRoot, shorter)
        | none => none
      | EqualHeight =>
        match setBalanceFactor s subRoot RightHigher with
        | some s1 => some (s1, subRoot, false)
        | none => none
      | RightHigher =>
        match deref s n.m_right with
        | none => none
        | some r =>
          match balance_right s subRoot with
          | some (s1, p) =>
            some (s1, p, if r.m_balanceFactor = EqualHeight then false else shorter)
          | none => none
  | .EDir_RightBranch =>
    match deref s subRoot with
    | none => none
    | some n =>
      match n.m_balanceFactor with
      | LeftHigher =>
        match deref s n.m_left with
        | none => none
        | some l =>
          match balance_left s subRoot with
          | some (s1, p) =>
            some (s1, p, if l.m_balanceFactor = EqualHeight then false else shorter)
          | none => none
      | EqualHeight =>
        match setBalanceFactor s subRoot LeftHigher with
        | some s1 => some (s1, subRoot, false)
        | none => none
      | RightHigher =>
        match setBalanceFactor s subRoot EqualHeight with
        | some s1 => some (s1, subRoot, shorter)
        | none => none
  | .EDir_None => some (s, subRoot, shorter)

/-- The out-parameters of `avl_delete`: the pointer `_subRoot`, the flag `_shorter`, and
`m_size`. -/
structure DeleteOut where
  subRoot : Nat
  shorter : Bool
  m_size : Nat
  deriving DecidableEq, Repr

/-- `avl_delete(_key, _subRoot, _shorter)`: the store and the out-parameters after the
call.  The first argument bounds the depth of the recursion and the length of the loop of
`find_logical_predecessor`. -/
def avl_delete [DecidableEq K] (pred : K → K → Bool) :
    Nat → K → Store K V → Nat → Nat → Option (Store K V × DeleteOut)
  | 0, _, _, _, _ => none
  | fuel + 1, key, s, subRoot, m_size =>
    if subRoot = 0 then
      some (s, ⟨subRoot, false, m_size⟩)
    else
      match deref s subRoot with
      | none => none
      | some n =>
        if key = n.key then
          match delete_node s subRoot m_size with
          | none => none
          | some (true, s1, p, sz) => some (s1, ⟨p, true, sz⟩)
          | some (false, s1, _, sz) =>
            match find_logical_predecessor fuel s1 subRoot with
            | none => none
            | some nodePtr =>
              match copyDataOnly s1 subRoot nodePtr with
              | none => none
              | some s2 =>
                match deref s2 nodePtr, deref s2 subRoot with
                | some pn, some n2 =>
                  match avl_delete pred fuel pn.key s2 n2.m_left sz with
                  | none => none
                  | some (s3, o) =>
                    match setLeft s3 subRoot o.subRoot with
                    | none => none
                    | some s4 =>
                      match avl_delete_switch
                          (if o.shorter then .EDir_LeftBranch else .EDir_None)
                          s4 subRoot o.shorter with
                      | some (s5, p, sh) => some (s5, ⟨p, sh, o.m_size⟩)
                      | none => none
                | _, _ => none
        else if pred key n.key then
          match avl_delete pred fuel key s n.m_left m_size with
          | none => none
          | some (s1, o) =>
            match setLeft s1 subRoot o.subRoot with
            | none => none
            | some s2 =>
              match avl_delete_switch
                  (if o.shorter then .EDir_LeftBranch else .EDir_None)
                  s2 subRoot o.shorter with
              | some (s3, p, sh) => some (s3, ⟨p, sh, o.m_size⟩)
              | none => none
        else
          match avl_delete pred fuel key s n.m_right m_size with
          | none => none
          | some (s1, o) =>
            match setRight s1 subRoot o.subRoot with
            | none => none
            | some s2 =>
              match avl_delete_switch
                  (if o.shorter then .EDir_RightBranch else .EDir_None)
                  s2 subRoot o.shorter with
              | some (s3, p, sh) => some (s3, ⟨p, sh, o.m_size⟩)
              | none => none

/-- `remove(_key)`: the store and the tree object after the call. -/
def remove [DecidableEq K] (fuel : Nat) (s : Store K V) (t : TreeObject K V) (key : K) :
    Option (Store K V × TreeObject K V) :=
  match avl_delete t.m_binPredicate fuel key s t.m_root t.m_size with
  | none => none
  | some (s1, o) => some (s1, { t with m_root := o.subRoot, m_size := o.m_size })

/-- `avl_find(_key, _subRoot)`: the returned pointer, 0 for `nullptr`.  The first argument
bounds the number of passes of the loop. -/
def avl_find [LinearOrder K] (key : K) : Nat → Store K V → Nat → Option Nat
  | 0, _, _ => none
  | fuel + 1, s, nodePtr =>
    if nodePtr = 0 then some 0
    else
      match deref s nodePtr with
      | none => none
      | some n =>
        if key = n.key then some nodePtr
        else if key < n.key then avl_find key fuel s n.m_left
        else avl_find key fuel s n.m_right

/-- `find(_key)`, the two pointer-returning overloads: `&(avl_find(_key, m_root)->value())`.
The result `some p` is the pointer to the member `value` of the node at the address `p`;
the result is `none` when `avl_find` returns `nullptr`, which the expression
dereferences. -/
def find [LinearOrder K] (fuel : Nat) (s : Store K V) (t : TreeObject K V) (key : K) :
    Option Nat :=
  match avl_find key fuel s t.m_root with
  | none => none
  | some p =>
    match deref s p with
    | none => none
    | some _ => some p

/-- The value that the pointer returned by `find(_key)` points to. -/
def findValue [LinearOrder K] (fuel : Nat) (s : Store K V) (t : TreeObject K V) (key : K) :
    Option V :=
  match find fuel s t key with
  | none => none
  | some p => (deref s p).map (fun n => n.value)

/-- `find(_key, _pVal)`: the returned Boolean and `_pVal` after the call. -/
def find_out [LinearOrder K] (fuel : Nat) (s : Store K V) (t : TreeObject K V) (key : K)
    (pVal : V) : Option (Bool × V) :=
  match find fuel s t key with
  | none => none
  | some ptr =>
    if ptr ≠ 0 then
      match deref s ptr with
      | none => none
      | some n => some (true, n.value)
    else some (false, pVal)

/-- `internal_clean(_subroot)`: the store after the call. -/
def internal_clean : Nat → Store K V → Nat → Option (Store K V)
  | 0, _, _ => none
  | fuel + 1, s, subroot =>
    match deref s subroot with
    | none => none
    | some n =>
      match (if n.m_left ≠ 0 then internal_clean fuel s n.m_left else some s) with
      | none => none
      | some s1 =>
        match deref s1 subroot with
        | none => none
        | some n1 =>
          match (if n1.m_right ≠ 0 then internal_clean fuel s1 n1.m_right else some s1) with
          | none => none
          | some s2 =>
            match deref s2 subroot with
            | none => none
            | some _ => some (s2.free subroot)

/-- `clear()`: the store and the tree object after the call. -/
def clear (fuel : Nat) (s : Store K V) (t : TreeObject K V) :
    Option (Store K V × TreeObject K V) :=
  if t.m_root ≠ 0 then
    match internal_clean fuel s t.m_root with
    | none => none
    | some s1 => some (s1, { t with m_root := 0, m_size := 0 })
  else some (s, t)

/-- `copy(_copyRoot, _originalRoot)`: the store, the pointer `_copyRoot` and `m_size` after
the call, and the addresses not yet handed out.  The list holds the pointers that the
successive calls of `m_nodeAllocator.allocate(1)` return; `copy` constructs into the
pointer without testing it, so a null pointer (or a list that is used up) gives `none`. -/
def copy : Nat → List Nat → Store K V → Nat → Nat → Option (Store K V × Nat × Nat × List Nat)
  | 0, _, _, _, _ => none
  | fuel + 1, addrs, s, originalRoot, m_size =>
    if originalRoot = 0 then some (s, 0, m_size, addrs)
    else
      match addrs with
      | [] => none
      | copyRoot :: rest =>
        if copyRoot = 0 then none
        else
          match deref s originalRoot with
          | none => none
          | some o =>
            let s1 := s.write copyRoot ⟨0, 0, o.key, o.value, o.m_balanceFactor⟩
            match deref s1 originalRoot with
            | none => none
            | some o1 =>
              match copy fuel rest s1 o1.m_left (m_size + 1) with
              | none => none
              | some (s2, left, sz2, rest2) =>
                match setLeft s2 copyRoot left with
                | none => none
                | some s3 =>
                  match deref s3 originalRoot with
                  | none => none
                  | some o2 =>
                    match copy fuel rest2 s3 o2.m_right sz2 with
                    | none => none
                    | some (s4, right, sz4, rest4) =>
                      match setRight s4 copyRoot right with
                      | none => none
                      | some s5 => some (s5, copyRoot, sz4, rest4)

/-- `copyTree(_originalRoot)` called on the tree object `t`. -/
def copyTree (fuel : Nat) (addrs : List Nat) (s : Store K V) (t original : TreeObject K V) :
    Option (Store K V × TreeObject K V) :=
  match copy fuel addrs s original.m_root t.m_size with
  | none => none
  | some (s1, root, sz, _) =>
    some (s1, { m_size := sz, m_root := root, m_binPredicate := original.m_binPredicate,
                m_traversalFunc := original.m_traversalFunc })

/-- The copy constructor `AvlTree(const AvlTree& _avl)`: the store after it and the object
it constructs. -/
def copyConstruct (fuel : Nat) (addrs : List Nat) (s : Store K V) (avl : TreeObject K V) :
    Option (Store K V × TreeObject K V) :=
  copyTree fuel addrs s
    { m_size := 0, m_root := 0, m_binPredicate := avl.m_binPredicate,
      m_traversalFunc := avl.m_traversalFunc } avl

/-- `operator = (_avl)` called on the tree object `t`.  The argument is `none` when it is
the object itself (`this == &_avl`) and `some avl` for another object. -/
def assign (fuel : Nat) (addrs : List Nat) (s : Store K V) (t : TreeObject K V) :
    Option (TreeObject K V) → Option (Store K V × TreeObject K V)
  | none => some (s, t)
  | some avl =>
    match clear fuel s t with
    | none => none
    | some (s1, t1) => copyTree fuel addrs s1 t1 avl

/-- The store `s` holds at the pointer `p` the tree `t`, in the nodes at the addresses `F`
(first the root, then the nodes of the left subtree, then those of the right one). -/
def Holds (s : Store K V) : Nat → AvlTreeNode K V → List Nat → Prop
  | p, .nil, F => p = 0 ∧ F = []
  | p, .node l k v b r, F =>
    p ≠ 0 ∧ ∃ pl pr Fl Fr, s p = some ⟨pl, pr, k, v, b⟩ ∧ Holds s pl l Fl ∧ Holds s pr r Fr ∧
      F = p :: (Fl ++ Fr)

/-- What it is for a step of the store-level code, with the result `sres`, to carry out on
a tree that the store `s` holds in the nodes `F` the step with the result `vres` on the
tree as a value: both fail, or the store afterwards holds the resulting tree in the same
nodes and is unchanged elsewhere. -/
def Refines (vres : Option (AvlTreeNode K V)) (sres : Option (Store K V × Nat))
    (s : Store K V) (F : List Nat) : Prop :=
  (vres = none → sres = none) ∧
    ∀ t1, vres = some t1 →
      ∃ s1 p1 F1, sres = some (s1, p1) ∧ Holds s1 p1 t1 F1 ∧ F1.Perm F ∧
        ∀ x, x ∉ F → s1 x = s x

/-- The tree object `t` as a value, when the store holds the tree `tv` at its root. -/
def asValue (t : TreeObject K V) (tv : AvlTreeNode K V) : AvlTree K V :=
  { m_size := t.m_size, m_root := tv, m_binPredicate := t.m_binPredicate,
    m_traversalFunc := t.m_traversalFunc }

/-- The find results of the tree object `t` are in the store `s2` what they are in the
store `s1`: the pointer that `find(key)` returns, the value it points to, and the result of
`find(key, out)`, for every key. -/
def SameFinds [LinearOrder K] (fuel : Nat) (s1 s2 : Store K V) (t : TreeObject K V) : Prop :=
  ∀ k, find fuel s2 t k = find fuel s1 t k ∧ findValue fuel s2 t k = findValue fuel s1 t k ∧
    ∀ out, find_out fuel s2 t k out = find_out fuel s1 t k out

/-- A store with two trees: the keys 20, 10, 30 in the nodes at the addresses 1, 2, 3, and
the key 5 in the node at the address 7. -/
def scenarioStore : Store Nat Nat
  | 1 => some ⟨2, 3, 20, 200, EqualHeight⟩
  | 2 => some ⟨0, 0, 10, 100, EqualHeight⟩
  | 3 => some ⟨0, 0, 30, 300, EqualHeight⟩
  | 7 => some ⟨0, 0, 5, 50, EqualHeight⟩
  | _ => none

/-- The tree object whose root is the node at the address 1 of `scenarioStore`. -/
def scenarioObject : TreeObject Nat Nat :=
  { m_size := 3, m_root := 1, m_binPredicate := AvlTree.less, m_traversalFunc := .preorder }

/-- The tree that `scenarioStore` holds at the address 1. -/
def scenarioHeld : AvlTreeNode Nat Nat :=
  node (node nil 10 100 EqualHeight nil) 20 200 EqualHeight (node nil 30 300 EqualHeight nil)

/-- The tree object whose root is the node at the address 7 of `scenarioStore`. -/
def scenarioTarget : TreeObject Nat Nat :=
  { m_size := 1, m_root := 7, m_binPredicate := AvlTree.less, m_traversalFunc := .preorder }

/-- The tree that `scenarioStore` holds at the address 7. -/
def scenarioTargetHeld : AvlTreeNode Nat Nat :=
  node nil 5 50 EqualHeight nil

end AvlStore

/-! ## Definitions: BTree.h in the free store

The nodes of the B-trees live in a store, addressed by natural numbers; a `node_pointer`
is an address and 0 is `nullptr`.  Two tree objects share a node when the same address is
reached from both roots.  The functions below are the member functions of `BTreeNode` and
`BTree` once more, acting on the store through the pointers; a result `none` is a failed
assertion, an index that leaves its array, or the dereference of a pointer that is null or
points to no object.  The recursive functions and the loops that follow pointers take a
bound on the number of nodes they pass through.  The array `m_value` that a node allocates
for its values is kept with the node object: it is allocated by the constructors and freed
by the destructor of the node, and no other object points to it. -/

namespace BTreeStore

variable {K V : Type}

/-- A `BTreeNode` object in the free store: the `nbKeys()` constructed pairs, the branch
slots `0 .. nbKeys()` and the branch slots past `nbKeys()`, as pointers. -/
structure NodeObject (K V : Type) where
  keys : List (K × V)
  m_branch : List Nat
  m_stale : List Nat

/-- `nbKeys()`, the member `m_keyCount`. -/
def NodeObject.nbKeys (o : NodeObject K V) : Nat := o.keys.length

/-- `branch(_idx)`: the slot `_idx` of the whole array. -/
def NodeObject.branch (o : NodeObject K V) (idx : Nat) : Nat :=
  (o.m_branch ++ o.m_stale).getD idx 0

/-- The free store: the node object that lives at each address, `none` where none does. -/
abbrev Store (K V : Type) := Nat → Option (NodeObject K V)

/-- The store with the object `n` at the address `a`. -/
def Store.write (s : Store K V) (a : Nat) (n : NodeObject K V) : Store K V :=
  fun x => if x = a then some n else s x

/-- The store after `destroy` and `deallocate` of the object at the address `a`. -/
def Store.free (s : Store K V) (a : Nat) : Store K V :=
  fun x => if x = a then none else s x

/-- The object a pointer points to: `none` for `nullptr` and for an address where no object
lives. -/
def deref (s : Store K V) (p : Nat) : Option (NodeObject K V) :=
  if p = 0 then none else s p

/-- `destroyObject(m_nodeAllocator, _ptr)`: the destructor of the node, then `deallocate`. -/
def destroyObject (s : Store K V) (ptr : Nat) : Option (Store K V) :=
  match deref s ptr with
  | none => none
  | some _ => some (s.free ptr)

/-- The data member of a `BTree` object; `m_root` is a pointer into the free store. -/
structure TreeObject where
  m_root : Nat

/-- `internal_find(_current, _key, _retNode, _position)`: `some (some (_retNode, _position))`
when it returns true, `some none` when it returns false. -/
def internal_find [LinearOrder K] (key : K) : Nat → Store K V → Nat → Option (Option (Nat × Nat))
  | 0, _, _ => none
  | fuel + 1, s, current =>
    if current = 0 then some none
    else
      match deref s current with
      | none => none
      | some o =>
        match BTreeNode.findKeyPositionFrom key o.keys 0 with
        | (true, position) => some (some (current, position))
        | (false, position) => internal_find key fuel s (o.branch position)

/-- `find(_key)`: the value the returned pointer `&nodePtr->value(position)` points to,
`some none` for `nullptr`. -/
def find [LinearOrder K] (fuel : Nat) (s : Store K V) (t : TreeObject) (key : K) :
    Option (Option V) :=
  match internal_find key fuel s t.m_root with
  | none => none
  | some none => some none
  | some (some (nodePtr, position)) =>
    match deref s nodePtr with
    | none => none
    | some o =>
      match o.keys.get? position with
      | some kv => some (some kv.2)
      | none => none

/-- The assignment `node->branch(i) = q`. -/
def setBranch (s : Store K V) (node i q : Nat) : Option (Store K V) :=
  match deref s node with
  | none => none
  | some o =>
    if i < o.m_branch.length then
      some (s.write node { o with m_branch := o.m_branch.set i q })
    else if i < o.m_branch.length + o.m_stale.length then
      some (s.write node { o with m_stale := o.m_stale.set (i - o.m_branch.length) q })
    else none

/-- The loop of `copy` from the index `i` on, for `n` more slots: the store after it and
the addresses not yet handed out.  The argument `rec` is the recursive call of `copy`. -/
def copy_loop (rec : List Nat → Store K V → Nat → Option (Store K V × Nat × List Nat)) :
    Nat → Nat → List Nat → Store K V → Nat → Nat → Option (Store K V × List Nat)
  | 0, _, addrs, s, _, _ => some (s, addrs)
  | n + 1, i, addrs, s, copyRoot, originalRoot =>
    match deref s originalRoot with
    | none => none
    | some o =>
      match rec addrs s (o.branch i) with
      | none => none
      | some (s1, q, addrs1) =>
        match setBranch s1 copyRoot i q with
        | none => none
        | some s2 => copy_loop rec n (i + 1) addrs1 s2 copyRoot originalRoot

/-- `copy(_copyRoot, _originalRoot)`: the store and the pointer `_copyRoot` after the call,
and the addresses not yet handed out.  The list holds the pointers that the successive
calls of `m_nodeAllocator.allocate(1)` return; `createObject` constructs into the pointer
without testing it, so a null pointer (or a list that is used up) gives `none`.  The copy
constructor of the node copies the pairs and sets every branch slot to null; the loop then
runs over the slots `0 .. nbKeys()` of the original, which it does not change.  The
reference parameter `_copyRoot` is handed back as the pointer it holds after the call; the
caller stores it in the branch slot that the reference points to. -/
def copy : Nat → List Nat → Store K V → Nat → Option (Store K V × Nat × List Nat)
  | 0, _, _, _ => none
  | fuel + 1, addrs, s, originalRoot =>
    if originalRoot = 0 then some (s, 0, addrs)
    else
      match addrs with
      | [] => none
      | copyRoot :: rest =>
        if copyRoot = 0 then none
        else
          match deref s originalRoot with
          | none => none
          | some o =>
            match copy_loop (fun a1 s1 p1 => copy fuel a1 s1 p1) (o.nbKeys + 1) 0 rest
                (s.write copyRoot
                  ⟨o.keys, List.replicate o.m_branch.length 0, List.replicate o.m_stale.length 0⟩)
                copyRoot originalRoot with
            | none => none
            | some (s2, rest2) => some (s2, copyRoot, rest2)

/-- The loop of `cleanUp` from the index `i` on, for `n` more slots.  The argument `rec` is
the recursive call of `cleanUp`. -/
def cleanUp_loop (rec : Store K V → Nat → Option (Store K V)) :
    Nat → Nat → Store K V → Nat → Option (Store K V)
  | 0, _, s, _ => some s
  | n + 1, i, s, subRoot =>
    match deref s subRoot with
    | none => none
    | some o =>
      match rec s (o.branch i) with
      | none => none
      | some s1 => cleanUp_loop rec n (i + 1) s1 subRoot

/-- `cleanUp(_subRoot)`: the store after the call.  The loop runs over the slots
`0 .. nbKeys()` of the node, which the calls on its branches do not change. -/
def cleanUp : Nat → Store K V → Nat → Option (Store K V)
  | 0, _, _ => none
  | fuel + 1, s, subRoot =>
    if subRoot = 0 then some s
    else
      match deref s subRoot with
      | none => none
      | some o =>
        match cleanUp_loop (fun s1 p1 => cleanUp fuel s1 p1) (o.nbKeys + 1) 0 s subRoot with
        | none => none
        | some s1 => destroyObject s1 subRoot

/-- `clear()`: the store and the tree object after the call. -/
def clear (fuel : Nat) (s : Store K V) (t : TreeObject) : Option (Store K V × TreeObject) :=
  match cleanUp fuel s t.m_root with
  | none => none
  | some s1 => some (s1, { m_root := 0 })

/-- The copy constructor `BTree(const BTree& _other)`: the store after it and the object it
constructs. -/
def copyConstruct (fuel : Nat) (addrs : List Nat) (s : Store K V) (other : TreeObject) :
    Option (Store K V × TreeObject) :=
  match copy fuel addrs s other.m_root with
  | none => none
  | some (s1, root, _) => some (s1, { m_root := root })

/-- `operator = (_other)` called on the tree object `t`.  The argument is `none` when it is
the object itself (`this == &_other`) and `some other` for another object. -/
def assign (fuel : Nat) (addrs : List Nat) (s : Store K V) (t : TreeObject) :
    Option TreeObject → Option (Store K V × TreeObject)
  | none => some (s, t)
  | some other =>
    match clear fuel s t with
    | none => none
    | some (s1, _) =>
      match copy fuel addrs s1 other.m_root with
      | none => none
      | some (s2, root, _) => some (s2, { m_root := root })

/-- `node->shift_left(_begPos)`; `none` when the assertion `_begPos > 0 && _begPos < nbKeys()`
fails. -/
def shift_left (s : Store K V) (node begPos : Nat) : Option (Store K V) :=
  match deref s node with
  | none => none
  | some o =>
    if 0 < begPos ∧ begPos < o.nbKeys then
      some (s.write node
        ⟨o.keys.eraseIdx (begPos - 1), o.m_branch.eraseIdx (begPos - 1), 0 :: o.m_stale⟩)
    else none

/-- `node->removeLeafData(_idx)`; `none` when the assertion `branch(_idx) == nullptr` or
the one of `shift_left` fails. -/
def removeLeafData (s : Store K V) (node idx : Nat) : Option (Store K V) :=
  match deref s node with
  | none => none
  | some o =>
    if o.branch idx ≠ 0 then none
    else if idx + 1 = o.nbKeys then
      match o.m_branch.getLast? with
      | some b => some (s.write node ⟨o.keys.dropLast, o.m_branch.dropLast, b :: o.m_stale⟩)
      | none => none
    else shift_left s node (idx + 1)

/-- `node->shift_right(_begPos, _key, _val, _leftBranch)`; `none` when the assertion
`_begPos < nbKeys() && nbKeys() < MAXKEYS` fails. -/
def shift_right (order : Nat) (s : Store K V) (node begPos : Nat) (kv : K × V)
    (leftBranch : Nat) : Option (Store K V) :=
  match deref s node with
  | none => none
  | some o =>
    if begPos < o.nbKeys ∧ o.nbKeys < BTreeNode.MAXKEYS order then
      some (s.write node
        ⟨o.keys.take begPos ++ kv :: o.keys.drop begPos,
          o.m_branch.take begPos ++ leftBranch :: o.m_branch.drop begPos, o.m_stale.drop 1⟩)
    else none

/-- The two statements `node->copy_construct_key_value(node->nbKeys(), kv)` and
`node->m_branch[++node->m_keyCount] = q` of `moveLeft` and `combine`. -/
def appendEntry (s : Store K V) (node : Nat) (kv : K × V) (q : Nat) : Option (Store K V) :=
  match deref s node with
  | none => none
  | some o => some (s.write node ⟨o.keys ++ [kv], o.m_branch ++ [q], o.m_stale.drop 1⟩)

/-- `node->copy_assign_key_value(_pos, kv)`; `none` when no pair is constructed at `_pos`. -/
def copy_assign_key_value (s : Store K V) (node pos : Nat) (kv : K × V) :
    Option (Store K V) :=
  match deref s node with
  | none => none
  | some o =>
    if pos < o.nbKeys then some (s.write node { o with keys := o.keys.set pos kv })
    else none

/-- The two statements `node->destroy_key_value(node->nbKeys() - 1)` and
`--node->m_keyCount` of `moveRight`. -/
def dropLastEntry (s : Store K V) (node : Nat) : Option (Store K V) :=
  match deref s node with
  | none => none
  | some o =>
    match o.m_branch.getLast? with
    | some b => some (s.write node ⟨o.keys.dropLast, o.m_branch.dropLast, b :: o.m_stale⟩)
    | none => none

/-- `node->moveLeft(rightBranchPosition)`; `none` when a child is null, when the assertion
`ptrRightBranch->nbKeys() > MINKEYS` or the one of `shift_left` fails, or when an index
leaves its array. -/
def moveLeft (order : Nat) (s : Store K V) (node rightBranchPosition : Nat) :
    Option (Store K V) :=
  if rightBranchPosition = 0 then none
  else
    let currKeyPosition := rightBranchPosition - 1
    match deref s node with
    | none => none
    | some o =>
      let ptrLeftBranch := o.branch currKeyPosition
      let ptrRightBranch := o.branch rightBranchPosition
      match deref s ptrRightBranch, o.keys.get? currKeyPosition with
      | some r, some sep =>
        if r.nbKeys > BTreeNode.MINKEYS order then
          match appendEntry s ptrLeftBranch sep (r.branch 0) with
          | none => none
          | some s1 =>
            match deref s1 ptrRightBranch with
            | none => none
            | some r1 =>
              match r1.keys.head? with
              | none => none
              | some first =>
                match copy_assign_key_value s1 node currKeyPosition first with
                | none => none
                | some s2 => shift_left s2 ptrRightBranch 1
        else none
      | _, _ => none

/-- `node->moveRight(leftBranchPosition)`; `none` when a child is null, when the assertion
`ptrLeftBranch->nbKeys() > MINKEYS` or the one of `shift_right` fails, or when an index
leaves its array. -/
def moveRight (order : Nat) (s : Store K V) (node leftBranchPosition : Nat) :
    Option (Store K V) :=
  match deref s node with
  | none => none
  | some o =>
    let ptrLeftBranch := o.branch leftBranchPosition
    let ptrRightBranch := o.branch (leftBranchPosition + 1)
    match deref s ptrLeftBranch, o.keys.get? leftBranchPosition with
    | some l, some sep =>
      if l.nbKeys > BTreeNode.MINKEYS order then
        match shift_right order s ptrRightBranch 0 sep (l.branch l.nbKeys) with
        | none => none
        | some s1 =>
          match deref s1 ptrLeftBranch with
          | none => none
          | some l1 =>
            match l1.keys.getLast? with
            | none => none
            | some last =>
              match copy_assign_key_value s1 node leftBranchPosition last with
              | none => none
              | some s2 => dropLastEntry s2 ptrLeftBranch
      else none
    | _, _ => none

/-- `node->combine(rightBranchPosition)`: the store after the call and the returned
pointer to the right child; `none` when a child is null, when the assertion
`ptrLeftBranch->nbKeys() + ptrRightBranch->nbKeys() < MAXKEYS` fails, or when an index
leaves its array.  The first loop appends to the left child the pairs of the right child
and its branch slots `1 .. nbKeys()`. -/
def combine (order : Nat) (s : Store K V) (node rightBranchPosition : Nat) :
    Option (Store K V × Nat) :=
  if rightBranchPosition = 0 then none
  else
    let currKeyPosition := rightBranchPosition - 1
    match deref s node with
    | none => none
    | some o =>
      let ptrLeftBranch := o.branch currKeyPosition
      let ptrRightBranch := o.branch rightBranchPosition
      match deref s ptrLeftBranch, deref s ptrRightBranch, o.keys.get? currKeyPosition with
      | some l, some r, some sep =>
        if l.nbKeys + r.nbKeys < BTreeNode.MAXKEYS order then
          let s1 := s.write ptrLeftBranch
            ⟨l.keys ++ sep :: r.keys, l.m_branch ++ r.m_branch, l.m_stale.drop (r.nbKeys + 1)⟩
          match deref s1 node with
          | none => none
          | some o1 =>
            some (s1.write node
              ⟨o1.keys.eraseIdx currKeyPosition, o1.m_branch.eraseIdx rightBranchPosition,
                0 :: o1.m_stale⟩, ptrRightBranch)
        else none
      | _, _, _ => none

/-- The loop of `copyInPredecessor`: the node it stops at. -/
def rightmost : Nat → Store K V → Nat → Option Nat
  | 0, _, _ => none
  | fuel + 1, s, subRoot =>
    match deref s subRoot with
    | none => none
    | some o =>
      if o.branch o.nbKeys ≠ 0 then rightmost fuel s (o.branch o.nbKeys)
      else some subRoot

/-- `node->copyInPredecessor(_idx)`; `none` when `branch(_idx)` is null or an index leaves
its array. -/
def copyInPredecessor (fuel : Nat) (s : Store K V) (node idx : Nat) : Option (Store K V) :=
  match deref s node with
  | none => none
  | some o =>
    match rightmost fuel s (o.branch idx) with
    | none => none
    | some subRoot =>
      match deref s subRoot with
      | none => none
      | some q =>
        match q.keys.getLast? with
        | none => none
        | some kv => copy_assign_key_value s node idx kv

/-- The two statements `ptrRightBranch = _current->combine(pos)` and
`destroyObject(m_nodeAllocator, ptrRightBranch)` of `internal_restore`. -/
def combine_destroy (order : Nat) (s : Store K V) (current pos : Nat) : Option (Store K V) :=
  match combine order s current pos with
  | none => none
  | some (s1, ptrRightBranch) => destroyObject s1 ptrRightBranch

/-- `internal_restore(_current, _position)`; `none` when a sibling pointer is null or an
assertion of `moveLeft`, `moveRight` or `combine` fails. -/
def internal_restore (order : Nat) (s : Store K V) (current position : Nat) :
    Option (Store K V) :=
  match deref s current with
  | none => none
  | some o =>
    if position = o.nbKeys then
      if position = 0 then none
      else
        match deref s (o.branch (position - 1)) with
        | none => none
        | some l =>
          if l.nbKeys > BTreeNode.MINKEYS order then moveRight order s current (position - 1)
          else combine_destroy order s current position
    else if position = 0 then
      match deref s (o.branch (position + 1)) with
      | none => none
      | some r =>
        if r.nbKeys > BTreeNode.MINKEYS order then moveLeft order s current 1
        else combine_destroy order s current 1
    else
      match deref s (o.branch (position - 1)) with
      | none => none
      | some l =>
        match (if l.nbKeys > BTreeNode.MINKEYS order then moveRight order s current (position - 1)
            else some s) with
        | none => none
        | some s1 =>
          match deref s1 current with
          | none => none
          | some o1 =>
            match deref s1 (o1.branch (position + 1)) with
            | none => none
            | some r =>
              if r.nbKeys > BTreeNode.MINKEYS order then moveLeft order s1 current (position + 1)
              else combine_destroy order s1 current position

/-- The closing test of `internal_recursive_remove`: restore `branch(position)` when it
holds fewer than `MINKEYS` keys. -/
def restore_if_underflow (order : Nat) (s : Store K V) (current position : Nat) :
    Option (Store K V) :=
  match deref s current with
  | none => none
  | some o =>
    if o.branch position ≠ 0 then
      match deref s (o.branch position) with
      | none => none
      | some c =>
        if c.nbKeys < BTreeNode.MINKEYS order then internal_restore order s current position
        else some s
    else some s

/-- `internal_recursive_remove(_current, _key)`: the store after the call and the returned
Boolean; `none` when an assertion fails or a pointer that is null or points to no object is
dereferenced. -/
def internal_recursive_remove [LinearOrder K] (order : Nat) :
    Nat → Store K V → Nat → K → Option (Store K V × Bool)
  | 0, _, _, _ => none
  | fuel + 1, s, current, key =>
    if current = 0 then some (s, false)
    else
      match deref s current with
      | none => none
      | some o =>
        match BTreeNode.findKeyPositionFrom key o.keys 0 with
        | (true, position) =>
          if o.branch position ≠ 0 then
            match copyInPredecessor fuel s current position with
            | none => none
            | some s1 =>
              match deref s1 current with
              | none => none
              | some o1 =>
                match o1.keys.get? position with
                | none => none
                | some pred =>
                  match internal_recursive_remove order fuel s1 (o1.branch position) pred.1 with
                  | none => none
                  | some (s2, _) =>
                    match restore_if_underflow order s2 current position with
                    | none => none
                    | some s3 => some (s3, true)
          else
            match removeLeafData s current position with
            | none => none
            | some s1 =>
              match restore_if_underflow order s1 current position with
              | none => none
              | some s2 => some (s2, true)
        | (false, position) =>
          match internal_recursive_remove order fuel s (o.branch position) key with
          | none => none
          | some (s1, result) =>
            match restore_if_underflow order s1 current position with
            | none => none
            | some s2 => some (s2, result)

/-- `internal_remove(_key)` and `remove`: the store and the tree object after the call. -/
def remove [LinearOrder K] (order fuel : Nat) (s : Store K V) (t : TreeObject) (key : K) :
    Option (Store K V × TreeObject) :=
  match internal_recursive_remove order fuel s t.m_root key with
  | none => none
  | some (s1, result) =>
    if result = true ∧ t.m_root ≠ 0 then
      match deref s1 t.m_root with
      | none => none
      | some o =>
        if o.nbKeys = 0 then
          match destroyObject s1 t.m_root with
          | none => none
          | some s2 => some (s2, { m_root := o.branch 0 })
        else some (s1, t)
    else some (s1, t)

/-- The store and the tree object after `remove` calls for the keys of a list, first key
first. -/
def removes [LinearOrder K] (order fuel : Nat) (s : Store K V) (t : TreeObject) :
    List K → Option (Store K V × TreeObject)
  | [] => some (s, t)
  | key :: ks =>
    match remove order fuel s t key with
    | none => none
    | some (s1, t1) => removes order fuel s1 t1 ks

mutual
/-- The store `s` holds at the non-null pointer `p` the node `n` with the nodes below it,
in the nodes at the addresses `F`: first `p`, then the nodes of the branches 0, 1, ... -/
def HoldsNode (s : Store K V) : Nat → BTreeNode K V → List Nat → Prop
  | p, BTreeNode.mk ks br _, F =>
    p ≠ 0 ∧ ∃ pbr pst G, s p = some ⟨ks, pbr, pst⟩ ∧ HoldsList s pbr br G ∧ F = p :: G
/-- The store holds at the pointers `ps` the subtrees `bs`, slot by slot. -/
def HoldsList (s : Store K V) : List Nat → List (Option (BTreeNode K V)) → List Nat → Prop
  | ps, [], F => ps = [] ∧ F = []
  | ps, b :: bs, F =>
    ∃ q qs F1 F2, ps = q :: qs ∧ HoldsPtr s q b F1 ∧ HoldsList s qs bs F2 ∧ F = F1 ++ F2
/-- The store holds at the pointer `q` the subtree `b`: a null pointer for none. -/
def HoldsPtr (s : Store K V) : Nat → Option (BTreeNode K V) → List Nat → Prop
  | q, none, F => q = 0 ∧ F = []
  | q, some n, F => HoldsNode s q n F
end

open BTreeNode BTree

/-- The pointer-level statement of `internal_find_holds`. -/
def FindAgrees [LinearOrder K] (order : Nat) (key : K) (s : Store K V)
    (b : Option (BTreeNode K V)) : Prop :=
  ∀ (fuel h q : Nat) (F : List Nat), HoldsPtr s q b F → WFPtr order b → UniformPtr h b →
    h < fuel →
    (BTree.internal_find key b = none → internal_find key fuel s q = some none) ∧
    ∀ m pos, BTree.internal_find key b = some (m, pos) →
      pos < m.keys.length ∧
      ∃ r pbr pst, internal_find key fuel s q = some (some (r, pos)) ∧
        deref s r = some ⟨m.keys, pbr, pst⟩

/-- The pointer-level statement of `btree_copy_holds`. -/
def CopyAgrees (order : Nat) (b : Option (BTreeNode K V)) : Prop :=
  ∀ (fuel h : Nat) (addrs : List Nat) (s : Store K V) (q : Nat) (F : List Nat),
    HoldsPtr s q b F → WFPtr order b → UniformPtr h b → h < fuel → addrs.Nodup →
    (∀ a ∈ addrs, a ≠ 0 ∧ a ∉ F) → (descendantsPtr b).length ≤ addrs.length →
    ∃ s1 r, copy fuel addrs s q = some (s1, r, addrs.drop (descendantsPtr b).length) ∧
      HoldsPtr s1 r (BTree.copy b) (addrs.take (descendantsPtr b).length) ∧
      ∀ x, x ∉ addrs.take (descendantsPtr b).length → s1 x = s x

/-- What it is for a step of the store-level code on the node at the pointer `p`, with the
result `sres`, to carry out on the subtree that the store `s` holds there in the nodes `F`
the step with the result `vres` on the subtree as a value: both fail, or the store
afterwards holds the resulting subtree at `p` in nodes among `F` and is unchanged
elsewhere. -/
def RefinesNode (vres : Option (BTreeNode K V)) (sres : Option (Store K V)) (s : Store K V)
    (p : Nat) (F : List Nat) : Prop :=
  (vres = none → sres = none) ∧
    ∀ n1, vres = some n1 →
      ∃ s1 F1, sres = some s1 ∧ HoldsNode s1 p n1 F1 ∧ (∀ x, F1.count x ≤ F.count x) ∧
        ∀ x, x ∉ F → s1 x = s x

/-- What it is for a call of the store-level `internal_recursive_remove` on the pointer
`q`, with the result `sres`, to carry out on the subtree that the store `s` holds there in
the nodes `F` the call with the result `vres` on the subtree as a value: both fail, or they
return the same Boolean and the store afterwards holds the resulting subtree at `q` in
nodes among `F` and is unchanged elsewhere. -/
def RefinesRemove (vres : Option (Option (BTreeNode K V) × Bool))
    (sres : Option (Store K V × Bool)) (s : Store K V) (q : Nat) (F : List Nat) : Prop :=
  (vres = none → sres = none) ∧
    ∀ child result, vres = some (child, result) →
      ∃ s1 F1, sres = some (s1, result) ∧ HoldsPtr s1 q child F1 ∧
        (∀ x, F1.count x ≤ F.count x) ∧ ∀ x, x ∉ F → s1 x = s x

/-- The pointer-level statement of `recursive_remove_holds`. -/
def RemoveAgrees [LinearOrder K] (order : Nat) (b : Option (BTreeNode K V)) : Prop :=
  ∀ (fuel h : Nat) (key : K) (s : Store K V) (q : Nat) (F : List Nat),
    HoldsPtr s q b F → F.Nodup → WFPtr order b → SortedKeys (pairsPtr b) → UniformPtr h b →
    h < fuel →
    RefinesRemove (BTree.internal_recursive_remove order b key)
      (internal_recursive_remove order fuel s q key) s q F

/-- What it is for a public call on a tree object, with the result `sres`, to carry out on
the tree that the store `s` holds at its root in the nodes `F` the call with the result
`vres` on the tree as a value: both fail, or the store afterwards holds the resulting tree
at the root of the resulting object in nodes among `F` and is unchanged elsewhere. -/
def RefinesTree (vres : Option (BTree K V)) (sres : Option (Store K V × TreeObject))
    (s : Store K V) (F : List Nat) : Prop :=
  (vres = none → sres = none) ∧
    ∀ t1, vres = some t1 →
      ∃ s1 o1 F1, sres = some (s1, o1) ∧ HoldsPtr s1 o1.m_root t1.m_root F1 ∧
        (∀ x, F1.count x ≤ F.count x) ∧ ∀ x, x ∉ F → s1 x = s x

/-- A store with two trees at order 6: the tree `scenarioSplitTree` in the nodes at the
addresses 1, 2, 3, and a leaf with the key 5 in the node at the address 7. -/
def scenarioStore : Store Nat Nat
  | 1 => some ⟨[(30, 3)], [2, 3], [0, 0, 0, 0]⟩
  | 2 => some ⟨[(0, 0), (10, 1), (20, 2)], [0, 0, 0, 0], [0, 0]⟩
  | 3 => some ⟨[(35, 5), (40, 4)], [0, 0, 0], [0, 0, 0]⟩
  | 7 => some ⟨[(5, 50)], [0, 0], [0, 0, 0, 0]⟩
  | _ => none

/-- The tree object whose root is the node at the address 1 of `scenarioStore`. -/
def scenarioObject : TreeObject := { m_root := 1 }

/-- The tree object whose root is the node at the address 7 of `scenarioStore`. -/
def scenarioTarget : TreeObject := { m_root := 7 }

end BTreeStore

/-! ## Theorems: association lists -/

section AssocList

variable {K V : Type}

theorem sortedKeys_append [LT K] (l1 l2 : List (K × V)) :
    SortedKeys (l1 ++ l2) ↔
      SortedKeys l1 ∧ SortedKeys l2 ∧ ∀ a ∈ l1, ∀ b ∈ l2, a.1 < b.1 :=
  List.pairwise_append

theorem sortedKeys_cons [LT K] (a : K × V) (l : List (K × V)) :
    SortedKeys (a :: l) ↔ (∀ b ∈ l, a.1 < b.1) ∧ SortedKeys l :=
  List.pairwise_cons

theorem lookup_eq_none_iff [DecidableEq K] (k : K) (l : List (K × V)) :
    lookup k l = none ↔ ∀ p ∈ l, p.1 ≠ k := by
  induction l with
  | nil => simp [lookup]
  | cons a l ih =>
    obtain ⟨a, w⟩ := a
    by_cases h : k = a
    · simp [lookup, h]
    · simp only [lookup, h, ↓reduceIte, ih, List.mem_cons, forall_eq_or_imp, ne_eq]
      exact ⟨fun hh => ⟨fun e => h e.symm, hh⟩, fun hh => hh.2⟩

theorem lookup_append [DecidableEq K] (k : K) (l1 l2 : List (K × V)) :
    lookup k (l1 ++ l2) = (lookup k l1).orElse (fun _ => lookup k l2) := by
  induction l1 with
  | nil => simp [lookup]
  | cons a l ih =>
    obtain ⟨a, w⟩ := a
    by_cases h : k = a
    · simp [lookup, h]
    · simp [lookup, h, ih]

theorem lookup_append_of_not_mem [DecidableEq K] (k : K) (l1 l2 : List (K × V))
    (h : ∀ p ∈ l1, p.1 ≠ k) : lookup k (l1 ++ l2) = lookup k l2 := by
  rw [lookup_append, (lookup_eq_none_iff k l1).2 h]; rfl

theorem insList_append_lt [LinearOrder K] (k : K) (v : V) (l1 : List (K × V)) (a : K × V)
    (l2 : List (K × V)) (h : k < a.1) :
    insList k v (l1 ++ a :: l2) = insList k v l1 ++ a :: l2 := by
  induction l1 with
  | nil => obtain ⟨a, w⟩ := a; simp only [List.nil_append, insList, if_pos h]; rfl
  | cons b l ih =>
    obtain ⟨b, u⟩ := b
    simp only [List.cons_append, insList]
    split_ifs <;> simp [ih]

theorem insList_append_gt [LinearOrder K] (k : K) (v : V) (l1 : List (K × V)) (a : K × V)
    (l2 : List (K × V)) (h1 : ∀ b ∈ l1, b.1 < k) (h : a.1 < k) :
    insList k v (l1 ++ a :: l2) = l1 ++ a :: insList k v l2 := by
  induction l1 with
  | nil =>
    obtain ⟨a, w⟩ := a
    simp only [List.nil_append, insList, if_neg (not_lt.2 (le_of_lt h)), if_neg (ne_of_gt h)]
  | cons b l ih =>
    obtain ⟨b, u⟩ := b
    have hb : b < k := h1 (b, u) (List.mem_cons_self _ _)
    simp only [List.cons_append, insList, if_neg (not_lt.2 (le_of_lt hb)), if_neg (ne_of_gt hb),
      List.append_eq]
    rw [ih (fun c hc => h1 c (List.mem_cons_of_mem _ hc))]

theorem insList_append_eq [LinearOrder K] (k : K) (v : V) (l1 : List (K × V)) (a : K × V)
    (l2 : List (K × V)) (h1 : ∀ b ∈ l1, b.1 < k) (h : a.1 = k) :
    insList k v (l1 ++ a :: l2) = l1 ++ a :: l2 := by
  induction l1 with
  | nil =>
    obtain ⟨a, w⟩ := a
    simp only at h
    simp only [List.nil_append, insList, h, lt_irrefl, ↓reduceIte]
  | cons b l ih =>
    obtain ⟨b, u⟩ := b
    have hb : b < k := h1 (b, u) (List.mem_cons_self _ _)
    simp only [List.cons_append, insList, if_neg (not_lt.2 (le_of_lt hb)), if_neg (ne_of_gt hb),
      List.append_eq]
    rw [ih (fun c hc => h1 c (List.mem_cons_of_mem _ hc))]

theorem mem_insList [LinearOrder K] (k : K) (v : V) (l : List (K × V)) (p : K × V)
    (h : p ∈ insList k v l) : p = (k, v) ∨ p ∈ l := by
  induction l with
  | nil => simpa [insList] using h
  | cons b l ih =>
    obtain ⟨b, u⟩ := b
    simp only [insList] at h
    split_ifs at h with h1 h2
    · simpa using h
    · exact Or.inr h
    · rcases List.mem_cons.1 h with h | h
      · exact Or.inr (h ▸ List.mem_cons_self _ _)
      · rcases ih h with h | h
        · exact Or.inl h
        · exact Or.inr (List.mem_cons_of_mem _ h)

theorem sortedKeys_insList [LinearOrder K] (k : K) (v : V) (l : List (K × V))
    (h : SortedKeys l) : SortedKeys (insList k v l) := by
  induction l with
  | nil => simp [insList, SortedKeys]
  | cons b l ih =>
    obtain ⟨b, u⟩ := b
    rw [sortedKeys_cons] at h
    simp only [insList]
    split_ifs with h1 h2
    · rw [sortedKeys_cons]
      refine ⟨?_, (sortedKeys_cons _ _).2 h⟩
      intro c hc
      rcases List.mem_cons.1 hc with hc | hc
      · rw [hc]; exact h1
      · exact lt_trans h1 (h.1 c hc)
    · exact (sortedKeys_cons _ _).2 h
    · rw [sortedKeys_cons]
      refine ⟨?_, ih h.2⟩
      intro c hc
      rcases mem_insList k v l c hc with hc | hc
      · rw [hc]; exact lt_of_le_of_ne (not_lt.1 h1) (fun e => h2 e.symm)
      · exact h.1 c hc

theorem lookup_insList [LinearOrder K] (k : K) (v : V) (l : List (K × V))
    (h : lookup k l = none) (k1 : K) :
    lookup k1 (insList k v l) = if k1 = k then some v else lookup k1 l := by
  induction l with
  | nil => simp [insList, lookup]
  | cons b l ih =>
    obtain ⟨b, u⟩ := b
    have hkb : k ≠ b := by
      intro e; simp [lookup, e] at h
    have hl : lookup k l = none := by simpa [lookup, hkb] using h
    simp only [insList, if_neg hkb]
    by_cases h1 : k < b
    · simp only [if_pos h1, lookup]
    · simp only [if_neg h1, lookup, ih hl]
      by_cases h3 : k1 = b
      · have : k1 ≠ k := fun e => hkb (e ▸ h3)
        simp only [if_pos h3, if_neg this]
      · simp only [if_neg h3]

theorem length_insList [LinearOrder K] (k : K) (v : V) (l : List (K × V))
    (h : lookup k l = none) : (insList k v l).length = l.length + 1 := by
  induction l with
  | nil => simp [insList]
  | cons b l ih =>
    obtain ⟨b, u⟩ := b
    have hkb : k ≠ b := by
      intro e; simp [lookup, e] at h
    have hl : lookup k l = none := by simpa [lookup, hkb] using h
    simp only [insList, if_neg hkb]
    split_ifs <;> simp [ih hl]

theorem delList_of_not_mem [DecidableEq K] (k : K) (l : List (K × V))
    (h : ∀ p ∈ l, p.1 ≠ k) : delList k l = l := by
  induction l with
  | nil => rfl
  | cons b l ih =>
    obtain ⟨b, u⟩ := b
    have hb : k ≠ b := fun e => h (b, u) (List.mem_cons_self _ _) e.symm
    simp only [delList, if_neg hb, ih (fun c hc => h c (List.mem_cons_of_mem _ hc))]

theorem delList_append_of_not_mem [DecidableEq K] (k : K) (l1 l2 : List (K × V))
    (h : ∀ p ∈ l1, p.1 ≠ k) : delList k (l1 ++ l2) = l1 ++ delList k l2 := by
  induction l1 with
  | nil => rfl
  | cons b l ih =>
    obtain ⟨b, u⟩ := b
    have hb : k ≠ b := fun e => h (b, u) (List.mem_cons_self _ _) e.symm
    simp only [List.cons_append, delList, if_neg hb, List.append_eq,
      ih (fun c hc => h c (List.mem_cons_of_mem _ hc))]

theorem delList_append_left [DecidableEq K] (k : K) (l1 l2 : List (K × V))
    (h : ∀ p ∈ l2, p.1 ≠ k) : delList k (l1 ++ l2) = delList k l1 ++ l2 := by
  induction l1 with
  | nil => simpa [delList] using delList_of_not_mem k l2 h
  | cons b l ih =>
    obtain ⟨b, u⟩ := b
    by_cases hb : k = b
    · simp [delList, hb]
    · simp [delList, hb, ih]

theorem delList_sublist [DecidableEq K] (k : K) (l : List (K × V)) :
    List.Sublist (delList k l) l := by
  induction l with
  | nil => exact List.Sublist.slnil
  | cons b l ih =>
    obtain ⟨b, u⟩ := b
    by_cases hb : k = b
    · simp [delList, hb]
    · simp only [delList, if_neg hb]
      exact ih.cons₂ _

theorem sortedKeys_delList [LinearOrder K] (k : K) (l : List (K × V)) (h : SortedKeys l) :
    SortedKeys (delList k l) :=
  List.Pairwise.sublist (delList_sublist k l) h

theorem lookup_delList [LinearOrder K] (k : K) (l : List (K × V)) (h : SortedKeys l)
    (k1 : K) : lookup k1 (delList k l) = if k1 = k then none else lookup k1 l := by
  induction l with
  | nil => simp [delList, lookup]
  | cons b l ih =>
    obtain ⟨b, u⟩ := b
    rw [sortedKeys_cons] at h
    by_cases hb : k = b
    · subst hb
      simp only [delList, ↓reduceIte, lookup]
      split_ifs with h1
      · subst h1
        exact (lookup_eq_none_iff _ _).2 (fun p hp => ne_of_gt (h.1 p hp))
      · rfl
    · simp only [delList, if_neg hb, lookup, ih h.2]
      by_cases h1 : k1 = b
      · have : k1 ≠ k := fun e => hb (e ▸ h1)
        simp [h1, this, Ne.symm hb]
      · simp [h1]

theorem length_delList [DecidableEq K] (k : K) (l : List (K × V)) (v : V)
    (h : lookup k l = some v) : (delList k l).length + 1 = l.length := by
  induction l with
  | nil => simp [lookup] at h
  | cons b l ih =>
    obtain ⟨b, u⟩ := b
    by_cases hb : k = b
    · simp [delList, hb]
    · simp only [lookup, if_neg hb] at h
      simp [delList, hb, ih h]

theorem insList_append_of_lt [LinearOrder K] (k : K) (v : V) (l1 l2 : List (K × V))
    (h1 : ∀ b ∈ l1, b.1 < k) : insList k v (l1 ++ l2) = l1 ++ insList k v l2 := by
  induction l1 with
  | nil => rfl
  | cons b l ih =>
    obtain ⟨b, u⟩ := b
    have hb : b < k := h1 (b, u) (List.mem_cons_self _ _)
    simp only [List.cons_append, insList, if_neg (not_lt.2 (le_of_lt hb)), if_neg (ne_of_gt hb),
      List.append_eq]
    rw [ih (fun c hc => h1 c (List.mem_cons_of_mem _ hc))]

theorem insList_append_of_gt [LinearOrder K] (k : K) (v : V) (l2 l3 : List (K × V))
    (h3 : ∀ b ∈ l3, k < b.1) : insList k v (l2 ++ l3) = insList k v l2 ++ l3 := by
  cases l3 with
  | nil => simp
  | cons a l3 => exact insList_append_lt k v l2 a l3 (h3 a (List.mem_cons_self _ _))

theorem insList_middle [LinearOrder K] (k : K) (v : V) (l1 l2 l3 : List (K × V))
    (h1 : ∀ b ∈ l1, b.1 < k) (h3 : ∀ b ∈ l3, k < b.1) :
    insList k v (l1 ++ l2 ++ l3) = l1 ++ insList k v l2 ++ l3 := by
  rw [List.append_assoc, insList_append_of_lt k v _ _ h1, insList_append_of_gt k v _ _ h3,
    List.append_assoc]

theorem lookup_middle [LinearOrder K] (k : K) (l1 l2 l3 : List (K × V))
    (h1 : ∀ b ∈ l1, b.1 < k) (h3 : ∀ b ∈ l3, k < b.1) :
    lookup k (l1 ++ l2 ++ l3) = lookup k l2 := by
  rw [List.append_assoc, lookup_append_of_not_mem k l1 _ (fun p hp => ne_of_lt (h1 p hp)),
    lookup_append, (lookup_eq_none_iff k l3).2 (fun p hp => ne_of_gt (h3 p hp))]
  cases lookup k l2 <;> rfl

theorem mem_delList [LinearOrder K] (k : K) (l : List (K × V)) (h : SortedKeys l)
    (p : K × V) (hp : p ∈ delList k l) : p ∈ l ∧ p.1 ≠ k := by
  refine ⟨(delList_sublist k l).subset hp, fun e => ?_⟩
  have h1 := lookup_delList k l h k
  simp only [↓reduceIte] at h1
  exact (lookup_eq_none_iff k _).1 h1 p hp e

theorem perm_insList [LinearOrder K] (k : K) (v : V) (l : List (K × V))
    (h : ∀ p ∈ l, p.1 ≠ k) : (insList k v l).Perm ((k, v) :: l) := by
  induction l with
  | nil => simp [insList]
  | cons a l ih =>
    obtain ⟨b, u⟩ := a
    have hb : ¬ k = b := fun e => h (b, u) (List.mem_cons_self _ _) e.symm
    simp only [insList]
    by_cases h1 : k < b
    · simp [h1]
    · simp only [h1, ↓reduceIte, hb]
      exact ((ih (fun p hp => h p (List.mem_cons_of_mem _ hp))).cons (b, u)).trans
        (List.Perm.swap _ _ _)

-- (end of the association list lemmas)
end AssocList

/-! ## Theorems: lists -/

section ListAux

variable {α : Type}

theorem exists_append_of_le_length (l : List α) (pos : Nat) (h : pos ≤ l.length) :
    ∃ l1 l2, l = l1 ++ l2 ∧ l1.length = pos :=
  ⟨l.take pos, l.drop pos, (List.take_append_drop pos l).symm, by simp [h]⟩

theorem exists_append_cons_of_lt_length (l : List α) (pos : Nat) (h : pos < l.length) :
    ∃ l1 b l2, l = l1 ++ b :: l2 ∧ l1.length = pos := by
  obtain ⟨l1, l2, e, hl⟩ := exists_append_of_le_length l pos (le_of_lt h)
  cases l2 with
  | nil => subst e; simp at h; omega
  | cons b l2 => exact ⟨l1, b, l2, e, hl⟩

theorem get?_append_cons_length (l1 : List α) (b : α) (l2 : List α) :
    (l1 ++ b :: l2).get? l1.length = some b := by
  induction l1 with
  | nil => rfl
  | cons a l ih => simpa using ih

theorem getD_append_cons_length (l1 : List α) (b : α) (l2 : List α) (d : α) :
    (l1 ++ b :: l2).getD l1.length d = b := by
  induction l1 with
  | nil => rfl
  | cons a l ih => simpa using ih

theorem set_append_cons_length (l1 : List α) (b c : α) (l2 : List α) :
    (l1 ++ b :: l2).set l1.length c = l1 ++ c :: l2 := by
  induction l1 with
  | nil => rfl
  | cons a l ih => simp [ih]

theorem take_length_append (l1 l2 : List α) : (l1 ++ l2).take l1.length = l1 := by
  simp

theorem drop_length_append (l1 l2 : List α) : (l1 ++ l2).drop l1.length = l2 := by
  simp

theorem take_succ_length_append_cons (l1 : List α) (b : α) (l2 : List α) :
    (l1 ++ b :: l2).take (l1.length + 1) = l1 ++ [b] := by
  induction l1 with
  | nil => simp
  | cons a l ih => simp [ih]

theorem drop_succ_length_append_cons (l1 : List α) (b : α) (l2 : List α) :
    (l1 ++ b :: l2).drop (l1.length + 1) = l2 := by
  induction l1 with
  | nil => simp
  | cons a l ih => simp

/-- Inserting at `pos` and cutting after `mid + 1` is cutting after `mid` and inserting. -/
theorem take_insert_of_le (l : List α) (x : α) (pos mid : Nat) (h : pos ≤ mid) :
    (l.take mid).take pos ++ x :: (l.take mid).drop pos =
      (l.take pos ++ x :: l.drop pos).take (mid + 1) := by
  induction pos generalizing l mid with
  | zero => simp
  | succ p ih =>
    cases l with
    | nil => simp
    | cons a l =>
      cases mid with
      | zero => omega
      | succ m =>
        simp only [List.take_succ_cons, List.drop_succ_cons, List.cons_append, List.cons.injEq,
          true_and]
        exact ih l m (by omega)

theorem drop_insert_of_le (l : List α) (x : α) (pos mid : Nat) (h : pos ≤ mid) :
    l.drop mid = (l.take pos ++ x :: l.drop pos).drop (mid + 1) := by
  induction pos generalizing l mid with
  | zero => simp
  | succ p ih =>
    cases l with
    | nil => simp
    | cons a l =>
      cases mid with
      | zero => omega
      | succ m =>
        simp only [List.take_succ_cons, List.drop_succ_cons, List.cons_append]
        exact ih l m (by omega)

theorem take_insert_of_ge (l : List α) (x : α) (pos mid : Nat) (h : mid ≤ pos)
    (hp : pos ≤ l.length) :
    l.take mid = (l.take pos ++ x :: l.drop pos).take mid := by
  induction mid generalizing l pos with
  | zero => simp
  | succ m ih =>
    cases l with
    | nil => simp at hp; omega
    | cons a l =>
      cases pos with
      | zero => omega
      | succ p =>
        simp only [List.take_succ_cons, List.drop_succ_cons, List.cons_append, List.cons.injEq,
          true_and]
        exact ih l p (by omega) (by simpa using hp)

theorem drop_insert_of_ge (l : List α) (x : α) (pos mid : Nat) (h : mid ≤ pos)
    (hp : pos ≤ l.length) :
    (l.drop mid).take (pos - mid) ++ x :: (l.drop mid).drop (pos - mid) =
      (l.take pos ++ x :: l.drop pos).drop mid := by
  induction mid generalizing l pos with
  | zero => simp
  | succ m ih =>
    cases l with
    | nil => simp at hp; omega
    | cons a l =>
      cases pos with
      | zero => omega
      | succ p =>
        simp only [List.take_succ_cons, List.drop_succ_cons, List.cons_append, Nat.add_sub_add_right]
        exact ih l p (by omega) (by simpa using hp)

theorem getLast?_take_succ (l : List α) (n : Nat) (h : n < l.length) :
    (l.take (n + 1)).getLast? = l.get? n := by
  induction n generalizing l with
  | zero =>
    cases l with
    | nil => simp at h
    | cons a l => simp
  | succ m ih =>
    cases l with
    | nil => simp at h
    | cons a l =>
      have h2 : m < l.length := by simpa using h
      have := ih l h2
      cases l with
      | nil => simp at h2
      | cons b l =>
        simp only [List.take_succ_cons, List.get?_cons_succ] at this ⊢
        rw [List.getLast?_cons_cons]
        exact this

theorem dropLast_take_succ (l : List α) (n : Nat) (h : n < l.length) :
    (l.take (n + 1)).dropLast = l.take n := by
  induction n generalizing l with
  | zero =>
    cases l with
    | nil => simp at h
    | cons a l => simp
  | succ m ih =>
    cases l with
    | nil => simp at h
    | cons a l =>
      have h2 : m < l.length := by simpa using h
      have := ih l h2
      cases l with
      | nil => simp at h2
      | cons b l =>
        simp only [List.take_succ_cons] at this ⊢
        rw [List.dropLast_cons₂, this]

theorem drop_eq_cons_of_get? (l : List α) (n : Nat) (b : α) (h : l.get? n = some b) :
    l.drop n = b :: l.drop (n + 1) := by
  induction n generalizing l with
  | zero =>
    cases l with
    | nil => simp at h
    | cons a l => simp at h; simp [h]
  | succ m ih =>
    cases l with
    | nil => simp at h
    | cons a l => simpa using ih l (by simpa using h)

theorem get?_insert_of_lt (l : List α) (x : α) (pos mid : Nat) (h : mid < pos)
    (hp : pos ≤ l.length) : (l.take pos ++ x :: l.drop pos).get? mid = l.get? mid := by
  induction mid generalizing l pos with
  | zero =>
    cases l with
    | nil => simp at hp; omega
    | cons a l =>
      cases pos with
      | zero => omega
      | succ p => simp
  | succ m ih =>
    cases l with
    | nil => simp at hp; omega
    | cons a l =>
      cases pos with
      | zero => omega
      | succ p =>
        simp only [List.take_succ_cons, List.drop_succ_cons, List.cons_append,
          List.get?_cons_succ]
        exact ih l p (by omega) (by simpa using hp)

-- (end of the list lemmas)
end ListAux

/-! ## Theorems: AvlTree -/

namespace AvlTree

variable {K V : Type}

open BalanceFactor AvlTreeNode

theorem heightBalanced_node_iff (l : AvlTreeNode K V) (k : K) (v : V) (b : BalanceFactor)
    (r : AvlTreeNode K V) :
    HeightBalanced (node l k v b r) ↔
      ((b = LeftHigher ∧ height l = height r + 1) ∨ (b = EqualHeight ∧ height l = height r) ∨
        (b = RightHigher ∧ height l + 1 = height r)) ∧ HeightBalanced l ∧ HeightBalanced r := by
  have e1 : ∀ x : Int, 1 = x.sign ↔ 0 < x := fun x => by rw [eq_comm]; exact Int.sign_eq_one_iff_pos
  have e2 : ∀ x : Int, 0 = x.sign ↔ x = 0 := fun x => by rw [eq_comm]; exact Int.sign_eq_zero_iff_zero
  have e3 : ∀ x : Int, -1 = x.sign ↔ x < 0 := fun x => by rw [eq_comm]; exact Int.sign_eq_neg_one_iff_neg
  cases b <;>
    simp only [HeightBalanced, BalanceFactor.toInt, e1, e2, e3, reduceCtorEq, false_and, true_and,
      false_or, or_false] <;>
    constructor <;>
    first
      | (rintro ⟨h1, h2, h3, h4⟩; exact ⟨by omega, h3, h4⟩)
      | (rintro ⟨h, h3, h4⟩; exact ⟨by omega, by omega, h3, h4⟩)


theorem balance_left_spec (l : AvlTreeNode K V) (k : K) (v : V) (b : BalanceFactor)
    (r : AvlTreeNode K V) (hl : HeightBalanced l) (hr : HeightBalanced r)
    (hh : height l = height r + 2) :
    ∃ t, balance_left (node l k v b r) = some t ∧ HeightBalanced t ∧
      height t = (if rootBalance l = EqualHeight then height r + 3 else height r + 2) ∧
      (rootBalance l = EqualHeight → rootBalance t ≠ EqualHeight) := by
  cases l with
  | nil => simp [height] at hh
  | node ll lk lv lb lr =>
    rw [heightBalanced_node_iff] at hl
    obtain ⟨hb, hll, hlr⟩ := hl
    simp only [height] at hh
    cases lb with
    | EqualHeight =>
      simp only [reduceCtorEq, false_and, true_and, false_or, or_false] at hb
      refine ⟨_, rfl, ?_, ?_, ?_⟩
      · simp only [heightBalanced_node_iff, height, reduceCtorEq, false_and, true_and, false_or,
          or_false]
        exact ⟨by omega, hll, by omega, hlr, hr⟩
      · simp only [rootBalance, height, ↓reduceIte]; omega
      · simp [rootBalance]
    | LeftHigher =>
      simp only [reduceCtorEq, false_and, true_and, false_or, or_false] at hb
      refine ⟨_, rfl, ?_, ?_, ?_⟩
      · simp only [heightBalanced_node_iff, height, reduceCtorEq, false_and, true_and, false_or,
          or_false]
        exact ⟨by omega, hll, by omega, hlr, hr⟩
      · simp only [rootBalance, height, reduceCtorEq, if_false]; omega
      · simp [rootBalance]
    | RightHigher =>
      simp only [reduceCtorEq, false_and, true_and, false_or, or_false] at hb
      cases lr with
      | nil => simp [height] at hb
      | node gl gk gv gb gr =>
        rw [heightBalanced_node_iff] at hlr
        obtain ⟨hg, hgl, hgr⟩ := hlr
        simp only [height] at hb hh
        cases gb <;>
          simp only [reduceCtorEq, false_and, true_and, false_or, or_false] at hg <;>
          refine ⟨_, rfl, ?_, ?_, ?_⟩ <;>
          first
            | (simp only [heightBalanced_node_iff, height, reduceCtorEq, false_and, true_and,
                false_or, or_false]
               exact ⟨by omega, ⟨by omega, hll, hgl⟩, by omega, hgr, hr⟩)
            | (simp only [rootBalance, height, reduceCtorEq, if_false]; omega)
            | simp [rootBalance]

theorem balance_right_spec (l : AvlTreeNode K V) (k : K) (v : V) (b : BalanceFactor)
    (r : AvlTreeNode K V) (hl : HeightBalanced l) (hr : HeightBalanced r)
    (hh : height r = height l + 2) :
    ∃ t, balance_right (node l k v b r) = some t ∧ HeightBalanced t ∧
      height t = (if rootBalance r = EqualHeight then height l + 3 else height l + 2) ∧
      (rootBalance r = EqualHeight → rootBalance t ≠ EqualHeight) := by
  cases r with
  | nil => simp [height] at hh
  | node rl rk rv rb rr =>
    rw [heightBalanced_node_iff] at hr
    obtain ⟨hb, hrl, hrr⟩ := hr
    simp only [height] at hh
    cases rb with
    | EqualHeight =>
      simp only [reduceCtorEq, false_and, true_and, false_or, or_false] at hb
      refine ⟨_, rfl, ?_, ?_, ?_⟩
      · simp only [heightBalanced_node_iff, height, reduceCtorEq, false_and, true_and, false_or,
          or_false]
        exact ⟨by omega, ⟨by omega, hl, hrl⟩, hrr⟩
      · simp only [rootBalance, height, ↓reduceIte]; omega
      · simp [rootBalance]
    | RightHigher =>
      simp only [reduceCtorEq, false_and, true_and, false_or, or_false] at hb
      refine ⟨_, rfl, ?_, ?_, ?_⟩
      · simp only [heightBalanced_node_iff, height, reduceCtorEq, false_and, true_and, false_or,
          or_false]
        exact ⟨by omega, ⟨by omega, hl, hrl⟩, hrr⟩
      · simp only [rootBalance, height, reduceCtorEq, if_false]; omega
      · simp [rootBalance]
    | LeftHigher =>
      simp only [reduceCtorEq, false_and, true_and, false_or, or_false] at hb
      cases rl with
      | nil => simp [height] at hb
      | node gl gk gv gb gr =>
        rw [heightBalanced_node_iff] at hrl
        obtain ⟨hg, hgl, hgr⟩ := hrl
        simp only [height] at hb hh
        cases gb <;>
          simp only [reduceCtorEq, false_and, true_and, false_or, or_false] at hg <;>
          refine ⟨_, rfl, ?_, ?_, ?_⟩ <;>
          first
            | (simp only [heightBalanced_node_iff, height, reduceCtorEq, false_and, true_and,
                false_or, or_false]
               exact ⟨by omega, ⟨by omega, hl, hgl⟩, by omega, hgr, hrr⟩)
            | (simp only [rootBalance, height, reduceCtorEq, if_false]; omega)
            | simp [rootBalance]

theorem avl_insert_balanced [DecidableEq K] (pred : K → K → Bool) (alloc : Bool) (key : K)
    (value : V) (t : AvlTreeNode K V) (sz : Nat) (h : HeightBalanced t) :
    ∃ o, avl_insert pred alloc key value t sz = some o ∧ HeightBalanced o.subRoot ∧
      height o.subRoot = height t + (if o.taller then 1 else 0) ∧
      (o.taller = true → t = nil ∨ rootBalance o.subRoot ≠ EqualHeight) := by
  induction t generalizing sz with
  | nil =>
    cases alloc
    · exact ⟨_, rfl, trivial, by simp, by simp⟩
    · refine ⟨_, rfl, ?_, by simp [height], by simp⟩
      rw [heightBalanced_node_iff]
      exact ⟨Or.inr (Or.inl ⟨rfl, rfl⟩), trivial, trivial⟩
  | node l k v b r ihl ihr =>
    have hbal := h
    rw [heightBalanced_node_iff] at h
    obtain ⟨hb, hl, hr⟩ := h
    unfold avl_insert
    by_cases hk : k = key
    · simp only [hk, ↓reduceIte]
      exact ⟨_, rfl, by rw [← hk]; exact hbal, by simp, by simp⟩
    · simp only [hk, ↓reduceIte]
      by_cases hp : pred key k = true
      · simp only [hp, ↓reduceIte]
        obtain ⟨o, ho, hob, hoh, hot⟩ := ihl sz hl
        rw [ho]
        cases htl : o.taller
        · simp only [htl, Bool.false_eq_true, ↓reduceIte, add_zero] at hoh ⊢
          refine ⟨_, rfl, ?_, by simp [height, hoh], by simp⟩
          rw [heightBalanced_node_iff, hoh]
          exact ⟨hb, hob, hr⟩
        · simp only [htl, ↓reduceIte] at hoh hot ⊢
          cases b with
          | LeftHigher =>
            simp only [reduceCtorEq, false_and, true_and, false_or, or_false] at hb
            have hne : rootBalance o.subRoot ≠ EqualHeight := by
              rcases hot trivial with h0 | h0
              · rw [h0] at hb; simp [height] at hb
              · exact h0
            obtain ⟨t, ht, htb, hth, _⟩ := balance_left_spec o.subRoot k v LeftHigher r hob hr
              (by omega)
            simp only [ht]
            refine ⟨_, rfl, htb, ?_, by simp⟩
            simp only [hth, hne, ↓reduceIte, height, Bool.false_eq_true]
            omega
          | EqualHeight =>
            simp only [reduceCtorEq, false_and, true_and, false_or, or_false] at hb
            refine ⟨_, rfl, ?_, ?_, ?_⟩
            · simp only [heightBalanced_node_iff, reduceCtorEq, false_and, true_and, false_or,
                or_false]
              exact ⟨by omega, hob, hr⟩
            · simp only [height, ↓reduceIte]; omega
            · simp [rootBalance]
          | RightHigher =>
            simp only [reduceCtorEq, false_and, true_and, false_or, or_false] at hb
            refine ⟨_, rfl, ?_, ?_, ?_⟩
            · simp only [heightBalanced_node_iff, reduceCtorEq, false_and, true_and, false_or,
                or_false]
              exact ⟨by omega, hob, hr⟩
            · simp only [height, Bool.false_eq_true, ↓reduceIte]; omega
            · simp
      · simp only [hp, Bool.false_eq_true, ↓reduceIte]
        obtain ⟨o, ho, hob, hoh, hot⟩ := ihr sz hr
        rw [ho]
        cases htl : o.taller
        · simp only [htl, Bool.false_eq_true, ↓reduceIte, add_zero] at hoh ⊢
          refine ⟨_, rfl, ?_, by simp [height, hoh], by simp⟩
          rw [heightBalanced_node_iff, hoh]
          exact ⟨hb, hl, hob⟩
        · simp only [htl, ↓reduceIte] at hoh hot ⊢
          cases b with
          | RightHigher =>
            simp only [reduceCtorEq, false_and, true_and, false_or, or_false] at hb
            have hne : rootBalance o.subRoot ≠ EqualHeight := by
              rcases hot trivial with h0 | h0
              · rw [h0] at hb; simp [height] at hb
              · exact h0
            obtain ⟨t, ht, htb, hth, _⟩ := balance_right_spec l k v RightHigher o.subRoot hl hob
              (by omega)
            simp only [ht]
            refine ⟨_, rfl, htb, ?_, by simp⟩
            simp only [hth, hne, ↓reduceIte, height, Bool.false_eq_true]
            omega
          | EqualHeight =>
            simp only [reduceCtorEq, false_and, true_and, false_or, or_false] at hb
            refine ⟨_, rfl, ?_, ?_, ?_⟩
            · simp only [heightBalanced_node_iff, reduceCtorEq, false_and, true_and, false_or,
                or_false]
              exact ⟨by omega, hl, hob⟩
            · simp only [height, ↓reduceIte]; omega
            · simp [rootBalance]
          | LeftHigher =>
            simp only [reduceCtorEq, false_and, true_and, false_or, or_false] at hb
            refine ⟨_, rfl, ?_, ?_, ?_⟩
            · simp only [heightBalanced_node_iff, reduceCtorEq, false_and, true_and, false_or,
                or_false]
              exact ⟨by omega, hl, hob⟩
            · simp only [height, Bool.false_eq_true, ↓reduceIte]; omega
            · simp

theorem avl_delete_switch_left (l : AvlTreeNode K V) (k : K) (v : V) (b : BalanceFactor)
    (r : AvlTreeNode K V) (hl : HeightBalanced l) (hr : HeightBalanced r)
    (hb : (b = LeftHigher ∧ height l + 1 = height r + 1) ∨
      (b = EqualHeight ∧ height l + 1 = height r) ∨
      (b = RightHigher ∧ height l + 1 + 1 = height r)) :
    ∃ t s, avl_delete_switch .EDir_LeftBranch (node l k v b r) true = some (t, s) ∧
      HeightBalanced t ∧ max (height l + 1) (height r) + 1 = height t + (if s then 1 else 0) := by
  cases b with
  | LeftHigher =>
    simp only [reduceCtorEq, false_and, true_and, false_or, or_false] at hb
    refine ⟨_, _, rfl, ?_, ?_⟩
    · simp only [heightBalanced_node_iff, reduceCtorEq, false_and, true_and, false_or, or_false]
      exact ⟨by omega, hl, hr⟩
    · simp only [height, ↓reduceIte]; omega
  | EqualHeight =>
    simp only [reduceCtorEq, false_and, true_and, false_or, or_false] at hb
    refine ⟨_, _, rfl, ?_, ?_⟩
    · simp only [heightBalanced_node_iff, reduceCtorEq, false_and, true_and, false_or, or_false]
      exact ⟨by omega, hl, hr⟩
    · simp only [height, Bool.false_eq_true, ↓reduceIte]; omega
  | RightHigher =>
    simp only [reduceCtorEq, false_and, true_and, false_or, or_false] at hb
    obtain ⟨t, ht, htb, hth, _⟩ := balance_right_spec l k v RightHigher r hl hr (by omega)
    cases r with
    | nil => simp [height] at hb
    | node rl rk rv rb rr =>
      simp only [avl_delete_switch, ht]
      refine ⟨_, _, rfl, htb, ?_⟩
      simp only [rootBalance] at hth
      rw [hth]
      simp only [height] at hb ⊢
      by_cases e : rb = EqualHeight
      · simp only [e, eq_self, ↓reduceIte, Bool.false_eq_true]; omega
      · simp only [e, ↓reduceIte]; omega

theorem avl_delete_switch_right (l : AvlTreeNode K V) (k : K) (v : V) (b : BalanceFactor)
    (r : AvlTreeNode K V) (hl : HeightBalanced l) (hr : HeightBalanced r)
    (hb : (b = LeftHigher ∧ height l = height r + 1 + 1) ∨
      (b = EqualHeight ∧ height l = height r + 1) ∨
      (b = RightHigher ∧ height l + 1 = height r + 1)) :
    ∃ t s, avl_delete_switch .EDir_RightBranch (node l k v b r) true = some (t, s) ∧
      HeightBalanced t ∧ max (height l) (height r + 1) + 1 = height t + (if s then 1 else 0) := by
  cases b with
  | RightHigher =>
    simp only [reduceCtorEq, false_and, true_and, false_or, or_false] at hb
    refine ⟨_, _, rfl, ?_, ?_⟩
    · simp only [heightBalanced_node_iff, reduceCtorEq, false_and, true_and, false_or, or_false]
      exact ⟨by omega, hl, hr⟩
    · simp only [height, ↓reduceIte]; omega
  | EqualHeight =>
    simp only [reduceCtorEq, false_and, true_and, false_or, or_false] at hb
    refine ⟨_, _, rfl, ?_, ?_⟩
    · simp only [heightBalanced_node_iff, reduceCtorEq, false_and, true_and, false_or, or_false]
      exact ⟨by omega, hl, hr⟩
    · simp only [height, Bool.false_eq_true, ↓reduceIte]; omega
  | LeftHigher =>
    simp only [reduceCtorEq, false_and, true_and, false_or, or_false] at hb
    obtain ⟨t, ht, htb, hth, _⟩ := balance_left_spec l k v LeftHigher r hl hr (by omega)
    cases l with
    | nil => simp [height] at hb
    | node ll lk lv lb lr =>
      simp only [avl_delete_switch, ht]
      refine ⟨_, _, rfl, htb, ?_⟩
      simp only [rootBalance] at hth
      rw [hth]
      simp only [height] at hb ⊢
      by_cases e : lb = EqualHeight
      · simp only [e, eq_self, ↓reduceIte, Bool.false_eq_true]; omega
      · simp only [e, ↓reduceIte]; omega

theorem rightmost_isSome (l : AvlTreeNode K V) (k : K) (v : V) (b : BalanceFactor)
    (r : AvlTreeNode K V) : ∃ p, rightmost (node l k v b r) = some p := by
  induction r generalizing l k v b with
  | nil => exact ⟨_, rfl⟩
  | node rl rk rv rb rr _ ih =>
    obtain ⟨p, hp⟩ := ih rl rk rv rb
    exact ⟨p, by rw [rightmost, hp]⟩

theorem avl_delete_balanced [DecidableEq K] (pred : K → K → Bool) (key : K)
    (t : AvlTreeNode K V) (sz : Nat) (h : HeightBalanced t) :
    ∃ o, avl_delete pred key t sz = some o ∧ HeightBalanced o.subRoot ∧
      height t = height o.subRoot + (if o.shorter then 1 else 0) := by
  induction t generalizing key sz with
  | nil => exact ⟨_, rfl, trivial, by simp⟩
  | node l k v b r ihl ihr =>
    have hbal := h
    rw [heightBalanced_node_iff] at h
    obtain ⟨hb, hl, hr⟩ := h
    unfold avl_delete
    by_cases hk : key = k
    · simp only [hk, ↓reduceIte]
      cases l with
      | nil =>
        simp only [delete_node]
        refine ⟨_, rfl, hr, ?_⟩
        simp [height]
      | node ll lk lv lb lr =>
        cases r with
        | nil =>
          simp only [delete_node]
          refine ⟨_, rfl, hl, ?_⟩
          simp [height]
        | node rl rk rv rb rr =>
          simp only [delete_node, find_logical_predecessor]
          obtain ⟨⟨pk, pv⟩, hp⟩ := rightmost_isSome ll lk lv lb lr
          simp only [hp]
          obtain ⟨o, ho, hob, hoh⟩ := ihl pk sz hl
          rw [ho]
          cases hs : o.shorter
          · simp only [hs, Bool.false_eq_true, ↓reduceIte, add_zero] at hoh ⊢
            simp only [avl_delete_switch]
            refine ⟨_, rfl, ?_, ?_⟩
            · rw [heightBalanced_node_iff, ← hoh]; exact ⟨hb, hob, hr⟩
            · simp only [height, Bool.false_eq_true, ↓reduceIte] at hoh ⊢; omega
          · simp only [hs, ↓reduceIte] at hoh ⊢
            obtain ⟨t, s, hts, htb, hth⟩ := avl_delete_switch_left o.subRoot pk pv b
              (node rl rk rv rb rr) hob hr (by rw [← hoh]; exact hb)
            rw [hts]
            refine ⟨_, rfl, htb, ?_⟩
            simp only
            rw [← hth, ← hoh]
            simp only [height]
    · simp only [hk, ↓reduceIte]
      by_cases hp : pred key k = true
      · simp only [hp, ↓reduceIte]
        obtain ⟨o, ho, hob, hoh⟩ := ihl key sz hl
        rw [ho]
        cases hs : o.shorter
        · simp only [hs, Bool.false_eq_true, ↓reduceIte, add_zero] at hoh ⊢
          simp only [avl_delete_switch]
          refine ⟨_, rfl, ?_, ?_⟩
          · rw [heightBalanced_node_iff, ← hoh]; exact ⟨hb, hob, hr⟩
          · simp only [height, Bool.false_eq_true, ↓reduceIte] at hoh ⊢; omega
        · simp only [hs, ↓reduceIte] at hoh ⊢
          obtain ⟨t, s, hts, htb, hth⟩ := avl_delete_switch_left o.subRoot k v b r hob hr
            (by rw [← hoh]; exact hb)
          rw [hts]
          refine ⟨_, rfl, htb, ?_⟩
          simp only
          rw [← hth, ← hoh]
          simp only [height]
      · simp only [hp, Bool.false_eq_true, ↓reduceIte]
        obtain ⟨o, ho, hob, hoh⟩ := ihr key sz hr
        rw [ho]
        cases hs : o.shorter
        · simp only [hs, Bool.false_eq_true, ↓reduceIte, add_zero] at hoh ⊢
          simp only [avl_delete_switch]
          refine ⟨_, rfl, ?_, ?_⟩
          · rw [heightBalanced_node_iff, ← hoh]; exact ⟨hb, hl, hob⟩
          · simp only [height, Bool.false_eq_true, ↓reduceIte] at hoh ⊢; omega
        · simp only [hs, ↓reduceIte] at hoh ⊢
          obtain ⟨t, s, hts, htb, hth⟩ := avl_delete_switch_right l k v b o.subRoot hl hob
            (by rw [← hoh]; exact hb)
          rw [hts]
          refine ⟨_, rfl, htb, ?_⟩
          simp only
          rw [← hth, ← hoh]
          simp only [height]

theorem rotate_left_pairs (t t1 : AvlTreeNode K V) (h : rotate_left t = some t1) :
    pairs t1 = pairs t := by
  unfold rotate_left at h
  split at h
  · simp only [Option.some.injEq] at h
    subst h
    simp [pairs]
  · exact absurd h (by simp)

theorem rotate_right_pairs (t t1 : AvlTreeNode K V) (h : rotate_right t = some t1) :
    pairs t1 = pairs t := by
  unfold rotate_right at h
  split at h
  · simp only [Option.some.injEq] at h
    subst h
    simp [pairs]
  · exact absurd h (by simp)

theorem balance_right_pairs (t t1 : AvlTreeNode K V) (h : balance_right t = some t1) :
    pairs t1 = pairs t := by
  unfold balance_right at h
  split at h
  · split at h
    · rw [rotate_left_pairs _ _ h]; simp [pairs]
    · rw [rotate_left_pairs _ _ h]; simp [pairs]
    · split at h
      · simp only [rotate_right] at h
        rw [rotate_left_pairs _ _ h]; simp [pairs]
      · exact absurd h (by simp)
  · exact absurd h (by simp)

theorem balance_left_pairs (t t1 : AvlTreeNode K V) (h : balance_left t = some t1) :
    pairs t1 = pairs t := by
  unfold balance_left at h
  split at h
  · split at h
    · rw [rotate_right_pairs _ _ h]; simp [pairs]
    · rw [rotate_right_pairs _ _ h]; simp [pairs]
    · split at h
      · simp only [rotate_left] at h
        rw [rotate_right_pairs _ _ h]; simp [pairs]
      · exact absurd h (by simp)
  · exact absurd h (by simp)

theorem avl_delete_switch_pairs (d : Direction) (t t1 : AvlTreeNode K V) (s s1 : Bool)
    (h : avl_delete_switch d t s = some (t1, s1)) : pairs t1 = pairs t := by
  unfold avl_delete_switch at h
  cases d with
  | EDir_None =>
    simp only [Option.some.injEq, Prod.mk.injEq] at h
    rw [h.1]
  | EDir_LeftBranch =>
    cases t with
    | nil => simp at h
    | node l k v b r =>
      cases b with
      | LeftHigher =>
        simp only [Option.some.injEq, Prod.mk.injEq] at h
        rw [← h.1]; simp [pairs]
      | EqualHeight =>
        simp only [Option.some.injEq, Prod.mk.injEq] at h
        rw [← h.1]; simp [pairs]
      | RightHigher =>
        cases r with
        | nil => simp at h
        | node rl rk rv rb rr =>
          simp only at h
          cases hb : balance_right (node l k v RightHigher (node rl rk rv rb rr)) with
          | none => rw [hb] at h; simp at h
          | some t2 =>
            rw [hb] at h
            simp only [Option.some.injEq, Prod.mk.injEq] at h
            rw [← h.1]
            exact balance_right_pairs _ _ hb
  | EDir_RightBranch =>
    cases t with
    | nil => simp at h
    | node l k v b r =>
      cases b with
      | RightHigher =>
        simp only [Option.some.injEq, Prod.mk.injEq] at h
        rw [← h.1]; simp [pairs]
      | EqualHeight =>
        simp only [Option.some.injEq, Prod.mk.injEq] at h
        rw [← h.1]; simp [pairs]
      | LeftHigher =>
        cases l with
        | nil => simp at h
        | node ll lk lv lb lr =>
          simp only at h
          cases hb : balance_left (node (node ll lk lv lb lr) k v LeftHigher r) with
          | none => rw [hb] at h; simp at h
          | some t2 =>
            rw [hb] at h
            simp only [Option.some.injEq, Prod.mk.injEq] at h
            rw [← h.1]
            exact balance_left_pairs _ _ hb

theorem avl_find_eq_lookup [LinearOrder K] (key : K) (t : AvlTreeNode K V)
    (h : SortedKeys (pairs t)) : avl_find key t = lookup key (pairs t) := by
  induction t with
  | nil => rfl
  | node l k v b r ihl ihr =>
    simp only [pairs] at h
    rw [sortedKeys_append, sortedKeys_cons] at h
    obtain ⟨hl, ⟨hkr, hr⟩, hlr⟩ := h
    have hlk : ∀ p ∈ pairs l, p.1 < k := fun p hp => hlr p hp (k, v) (List.mem_cons_self _ _)
    simp only [avl_find, pairs]
    by_cases h1 : key = k
    · subst h1
      rw [if_pos rfl, lookup_append_of_not_mem _ _ _ (fun p hp => ne_of_lt (hlk p hp))]
      simp [lookup]
    · rw [if_neg h1]
      by_cases h2 : key < k
      · rw [if_pos h2, ihl hl, lookup_append]
        cases hlk2 : lookup key (pairs l) with
        | some w => rfl
        | none =>
          simp only [Option.orElse, lookup, if_neg h1]
          symm
          exact (lookup_eq_none_iff _ _).2 (fun p hp => ne_of_gt (lt_trans h2 (hkr p hp)))
      · rw [if_neg h2, ihr hr]
        have h3 : k < key := lt_of_le_of_ne (not_lt.1 h2) (fun e => h1 e.symm)
        rw [lookup_append_of_not_mem _ _ _ (fun p hp => ne_of_lt (lt_trans (hlk p hp) h3))]
        simp [lookup, h1]

/-- When `avl_insert` reports no new node, nothing has changed. -/
theorem avl_insert_no_new [DecidableEq K] (pred : K → K → Bool) (alloc : Bool) (key : K)
    (value : V) (t : AvlTreeNode K V) (sz : Nat) (o : InsertOut K V)
    (h : avl_insert pred alloc key value t sz = some o) :
    (o.newNode = false → o.subRoot = t ∧ o.taller = false ∧ o.m_size = sz) ∧
      (o.newNode = true → o.m_size = sz + 1 ∧ alloc = true) := by
  induction t generalizing sz o with
  | nil =>
    cases alloc <;> simp only [avl_insert, Bool.false_eq_true, ↓reduceIte, Option.some.injEq] at h <;>
      subst h <;> simp
  | node l k v b r ihl ihr =>
    unfold avl_insert at h
    by_cases hk : k = key
    · simp only [hk, ↓reduceIte, Option.some.injEq] at h
      subst h; simp [hk]
    · simp only [hk, ↓reduceIte] at h
      by_cases hp : pred key k = true
      · simp only [hp, ↓reduceIte] at h
        cases ho : avl_insert pred alloc key value l sz with
        | none => rw [ho] at h; simp at h
        | some o1 =>
          simp only [ho] at h
          obtain ⟨i1, i2⟩ := ihl sz o1 ho
          cases hn : o1.newNode
          · obtain ⟨e1, e2, e3⟩ := i1 hn
            simp only [e2, Bool.false_eq_true, ↓reduceIte, Option.some.injEq] at h
            subst h
            simp [hn, e1, e3]
          · obtain ⟨e3, e4⟩ := i2 hn
            have hnn : o.newNode = true ∧ o.m_size = o1.m_size := by
              revert h
              split_ifs
              · cases b <;> simp only
                · intro h; simp only [Option.some.injEq] at h; subst h; exact ⟨hn, rfl⟩
                · intro h; simp only [Option.some.injEq] at h; subst h; exact ⟨hn, rfl⟩
                · cases balance_left (node o1.subRoot k v LeftHigher r) with
                  | none => simp
                  | some t2 =>
                    intro h; simp only [Option.some.injEq] at h; subst h; exact ⟨hn, rfl⟩
              · intro h; simp only [Option.some.injEq] at h; subst h; exact ⟨hn, rfl⟩
            simp [hnn.1, hnn.2, e3, e4]
      · simp only [hp, Bool.false_eq_true, ↓reduceIte] at h
        cases ho : avl_insert pred alloc key value r sz with
        | none => rw [ho] at h; simp at h
        | some o1 =>
          simp only [ho] at h
          obtain ⟨i1, i2⟩ := ihr sz o1 ho
          cases hn : o1.newNode
          · obtain ⟨e1, e2, e3⟩ := i1 hn
            simp only [e2, Bool.false_eq_true, ↓reduceIte, Option.some.injEq] at h
            subst h
            simp [hn, e1, e3]
          · obtain ⟨e3, e4⟩ := i2 hn
            have hnn : o.newNode = true ∧ o.m_size = o1.m_size := by
              revert h
              split_ifs
              · cases b <;> simp only
                · cases balance_right (node l k v RightHigher o1.subRoot) with
                  | none => simp
                  | some t2 =>
                    intro h; simp only [Option.some.injEq] at h; subst h; exact ⟨hn, rfl⟩
                · intro h; simp only [Option.some.injEq] at h; subst h; exact ⟨hn, rfl⟩
                · intro h; simp only [Option.some.injEq] at h; subst h; exact ⟨hn, rfl⟩
              · intro h; simp only [Option.some.injEq] at h; subst h; exact ⟨hn, rfl⟩
            simp [hnn.1, hnn.2, e3, e4]

/-- The pairs after `avl_insert`, for any result shape: the subtree is rebuilt from the
new child by a step that keeps the symmetric order. -/
theorem avl_insert_pairs [LinearOrder K] (alloc : Bool) (key : K) (value : V)
    (t : AvlTreeNode K V) (sz : Nat) (o : InsertOut K V) (hs : SortedKeys (pairs t))
    (h : avl_insert less alloc key value t sz = some o) :
    (alloc = true → pairs o.subRoot = insList key value (pairs t)) ∧
      (o.newNode = (alloc && (lookup key (pairs t)).isNone)) := by
  induction t generalizing sz o with
  | nil =>
    cases alloc <;> simp only [avl_insert, Bool.false_eq_true, ↓reduceIte, Option.some.injEq] at h <;>
      subst h <;> simp [pairs, insList, lookup]
  | node l k v b r ihl ihr =>
    simp only [pairs] at hs
    rw [sortedKeys_append, sortedKeys_cons] at hs
    obtain ⟨hl, ⟨hkr, hr⟩, hlr⟩ := hs
    have hlk : ∀ p ∈ pairs l, p.1 < k := fun p hp => hlr p hp (k, v) (List.mem_cons_self _ _)
    unfold avl_insert at h
    by_cases hk : k = key
    · simp only [hk, ↓reduceIte, Option.some.injEq] at h
      subst h
      subst hk
      simp only [pairs]
      refine ⟨fun _ => (insList_append_eq k value _ (k, v) _ hlk rfl).symm, ?_⟩
      rw [lookup_append_of_not_mem _ _ _ (fun p hp => ne_of_lt (hlk p hp))]
      simp [lookup]
    · simp only [hk, ↓reduceIte] at h
      by_cases hp : key < k
      · have hp2 : less key k = true := by simp [less, hp]
        simp only [hp2, ↓reduceIte] at h
        cases ho : avl_insert less alloc key value l sz with
        | none => rw [ho] at h; simp at h
        | some o1 =>
          simp only [ho] at h
          obtain ⟨i1, i2⟩ := ihl sz o1 hl ho
          have hlook : (lookup key (pairs l ++ (k, v) :: pairs r)).isNone =
              (lookup key (pairs l)).isNone := by
            rw [lookup_append]
            cases hlk2 : lookup key (pairs l) with
            | some w => rfl
            | none =>
              simp only [Option.orElse, lookup, if_neg (Ne.symm hk), Option.isNone_none]
              rw [(lookup_eq_none_iff _ _).2 (fun p hp1 => ne_of_gt (lt_trans hp (hkr p hp1)))]
              rfl
          have key_fact : ∀ t2 : AvlTreeNode K V, pairs t2 = pairs o1.subRoot ++ (k, v) :: pairs r →
              (alloc = true → pairs t2 = insList key value (pairs (node l k v b r))) := by
            intro t2 ht2 ha
            rw [ht2, i1 ha]
            simp only [pairs]
            exact (insList_append_lt key value _ (k, v) _ hp).symm
          have hnn : o.newNode = o1.newNode ∧ pairs o.subRoot = pairs o1.subRoot ++ (k, v) :: pairs r := by
            revert h
            split_ifs
            · cases b <;> simp only
              · intro h; simp only [Option.some.injEq] at h; subst h; exact ⟨rfl, rfl⟩
              · intro h; simp only [Option.some.injEq] at h; subst h; exact ⟨rfl, rfl⟩
              · cases hb : balance_left (node o1.subRoot k v LeftHigher r) with
                | none => simp
                | some t2 =>
                  intro h; simp only [Option.some.injEq] at h; subst h
                  exact ⟨rfl, by rw [balance_left_pairs _ _ hb]; rfl⟩
            · intro h; simp only [Option.some.injEq] at h; subst h; exact ⟨rfl, rfl⟩
          refine ⟨key_fact _ hnn.2, ?_⟩
          simp only [pairs]
          rw [hnn.1, i2, hlook]
      · have hp2 : less key k = false := by simp [less, hp]
        have hgt : k < key := lt_of_le_of_ne (not_lt.1 hp) hk
        simp only [hp2, Bool.false_eq_true, ↓reduceIte] at h
        cases ho : avl_insert less alloc key value r sz with
        | none => rw [ho] at h; simp at h
        | some o1 =>
          simp only [ho] at h
          obtain ⟨i1, i2⟩ := ihr sz o1 hr ho
          have hlook : (lookup key (pairs l ++ (k, v) :: pairs r)).isNone =
              (lookup key (pairs r)).isNone := by
            rw [lookup_append_of_not_mem _ _ _ (fun p hp1 => ne_of_lt (lt_trans (hlk p hp1) hgt))]
            simp only [lookup, if_neg (Ne.symm hk)]
          have key_fact : ∀ t2 : AvlTreeNode K V, pairs t2 = pairs l ++ (k, v) :: pairs o1.subRoot →
              (alloc = true → pairs t2 = insList key value (pairs (node l k v b r))) := by
            intro t2 ht2 ha
            rw [ht2, i1 ha]
            simp only [pairs]
            exact (insList_append_gt key value _ (k, v) _
              (fun p hp1 => lt_trans (hlk p hp1) hgt) hgt).symm
          have hnn : o.newNode = o1.newNode ∧ pairs o.subRoot = pairs l ++ (k, v) :: pairs o1.subRoot := by
            revert h
            split_ifs
            · cases b <;> simp only
              · cases hb : balance_right (node l k v RightHigher o1.subRoot) with
                | none => simp
                | some t2 =>
                  intro h; simp only [Option.some.injEq] at h; subst h
                  exact ⟨rfl, by rw [balance_right_pairs _ _ hb]; rfl⟩
              · intro h; simp only [Option.some.injEq] at h; subst h; exact ⟨rfl, rfl⟩
              · intro h; simp only [Option.some.injEq] at h; subst h; exact ⟨rfl, rfl⟩
            · intro h; simp only [Option.some.injEq] at h; subst h; exact ⟨rfl, rfl⟩
          refine ⟨key_fact _ hnn.2, ?_⟩
          simp only [pairs]
          rw [hnn.1, i2, hlook]

theorem rightmost_pairs (t : AvlTreeNode K V) (p : K × V) (h : rightmost t = some p) :
    ∃ init, pairs t = init ++ [p] := by
  induction t with
  | nil => simp [rightmost] at h
  | node l k v b r _ ihr =>
    cases r with
    | nil =>
      simp only [rightmost, Option.some.injEq] at h
      exact ⟨pairs l, by simp [pairs, h]⟩
    | node rl rk rv rb rr =>
      simp only [rightmost] at h
      obtain ⟨init, hi⟩ := ihr h
      exact ⟨pairs l ++ (k, v) :: init, by simp only [pairs] at hi ⊢; rw [hi]; simp⟩

theorem avl_delete_absent [LinearOrder K] (key : K) (t : AvlTreeNode K V) (sz : Nat)
    (h : avl_find key t = none) : avl_delete less key t sz = some ⟨t, false, sz⟩ := by
  induction t with
  | nil => rfl
  | node l k v b r ihl ihr =>
    unfold avl_find at h
    unfold avl_delete
    by_cases hk : key = k
    · simp [hk] at h
    · simp only [hk, ↓reduceIte] at h ⊢
      by_cases hp : key < k
      · simp only [hp, ↓reduceIte] at h
        simp only [less, hp, decide_True, ↓reduceIte, ihl h, Bool.false_eq_true, avl_delete_switch]
      · simp only [hp, ↓reduceIte] at h
        simp only [less, hp, decide_False, Bool.false_eq_true, ↓reduceIte, ihr h, avl_delete_switch]

theorem avl_delete_pairs [LinearOrder K] (key : K) (t : AvlTreeNode K V) (sz : Nat)
    (o : DeleteOut K V) (hs : SortedKeys (pairs t))
    (h : avl_delete less key t sz = some o) :
    pairs o.subRoot = delList key (pairs t) ∧
      o.m_size = if (lookup key (pairs t)).isSome then sz - 1 else sz := by
  induction t generalizing key sz o with
  | nil =>
    simp only [avl_delete, Option.some.injEq] at h
    subst h
    simp [pairs, delList, lookup]
  | node l k v b r ihl ihr =>
    simp only [pairs] at hs
    rw [sortedKeys_append, sortedKeys_cons] at hs
    obtain ⟨hl, ⟨hkr, hr⟩, hlr⟩ := hs
    have hlk : ∀ p ∈ pairs l, p.1 < k := fun p hp => hlr p hp (k, v) (List.mem_cons_self _ _)
    have hdel_eq : delList k (pairs l ++ (k, v) :: pairs r) = pairs l ++ pairs r := by
      rw [delList_append_of_not_mem _ _ _ (fun p hp => ne_of_lt (hlk p hp))]
      simp [delList]
    have hlook_eq : (lookup k (pairs l ++ (k, v) :: pairs r)).isSome = true := by
      rw [lookup_append_of_not_mem _ _ _ (fun p hp => ne_of_lt (hlk p hp))]
      simp [lookup]
    unfold avl_delete at h
    by_cases hk : key = k
    · subst hk
      simp only [↓reduceIte] at h
      simp only [pairs, hdel_eq, hlook_eq, ↓reduceIte]
      cases l with
      | nil =>
        simp only [delete_node, Option.some.injEq] at h
        subst h
        simp [pairs]
      | node ll lk lv lb lr =>
        cases r with
        | nil =>
          simp only [delete_node, Option.some.injEq] at h
          subst h
          simp [pairs]
        | node rl rk rv rb rr =>
          simp only [delete_node, find_logical_predecessor] at h
          cases hp : rightmost (node ll lk lv lb lr) with
          | none => simp [hp] at h
          | some p =>
            obtain ⟨pk, pv⟩ := p
            simp only [hp] at h
            obtain ⟨init, hi⟩ := rightmost_pairs _ _ hp
            cases ho : avl_delete less pk (node ll lk lv lb lr) sz with
            | none => simp [ho] at h
            | some o1 =>
              simp only [ho] at h
              obtain ⟨i1, i2⟩ := ihl pk sz o1 hl ho
              have hinit : ∀ q ∈ init, q.1 ≠ pk := by
                intro q hq
                rw [hi, sortedKeys_append] at hl
                exact ne_of_lt (hl.2.2 q hq (pk, pv) (List.mem_singleton_self _))
              rw [hi, delList_append_of_not_mem _ _ _ hinit] at i1
              rw [hi, lookup_append_of_not_mem _ _ _ hinit] at i2
              simp only [delList, ↓reduceIte, List.append_nil, lookup, Option.isSome_some] at i1 i2
              cases hsw : avl_delete_switch
                  (if o1.shorter = true then Direction.EDir_LeftBranch else Direction.EDir_None)
                  (node o1.subRoot pk pv b (node rl rk rv rb rr)) o1.shorter with
              | none => simp [hsw] at h
              | some ts =>
                obtain ⟨t2, s2⟩ := ts
                simp only [hsw, Option.some.injEq] at h
                subst h
                refine ⟨?_, i2⟩
                show pairs t2 = _
                rw [avl_delete_switch_pairs _ _ _ _ _ hsw, pairs, i1, hi]
                simp
    · simp only [hk, ↓reduceIte] at h
      by_cases hp : key < k
      · have hp2 : less key k = true := by simp [less, hp]
        simp only [hp2, ↓reduceIte] at h
        cases ho : avl_delete less key l sz with
        | none => simp [ho] at h
        | some o1 =>
          simp only [ho] at h
          obtain ⟨i1, i2⟩ := ihl key sz o1 hl ho
          cases hsw : avl_delete_switch
              (if o1.shorter = true then Direction.EDir_LeftBranch else Direction.EDir_None)
              (node o1.subRoot k v b r) o1.shorter with
          | none => simp [hsw] at h
          | some ts =>
            obtain ⟨t2, s2⟩ := ts
            simp only [hsw, Option.some.injEq] at h
            subst h
            simp only
            have hr_ne : ∀ p ∈ (k, v) :: pairs r, p.1 ≠ key := by
              intro p hp1
              rcases List.mem_cons.1 hp1 with e | e
              · rw [e]; exact fun e2 => hk e2.symm
              · exact ne_of_gt (lt_trans hp (hkr p e))
            have hlook : (lookup key (pairs l ++ (k, v) :: pairs r)).isSome =
                (lookup key (pairs l)).isSome := by
              rw [lookup_append]
              cases hlk2 : lookup key (pairs l) with
              | some w => rfl
              | none =>
                have := (lookup_eq_none_iff key ((k, v) :: pairs r)).2 hr_ne
                simp [Option.orElse, this]
            rw [avl_delete_switch_pairs _ _ _ _ _ hsw]
            simp only [pairs, i1, i2, hlook]
            rw [delList_append_left _ _ _ hr_ne]
            simp
      · have hp2 : less key k = false := by simp [less, hp]
        have hgt : k < key := lt_of_le_of_ne (not_lt.1 hp) (fun e => hk e.symm)
        simp only [hp2, Bool.false_eq_true, ↓reduceIte] at h
        cases ho : avl_delete less key r sz with
        | none => simp [ho] at h
        | some o1 =>
          simp only [ho] at h
          obtain ⟨i1, i2⟩ := ihr key sz o1 hr ho
          cases hsw : avl_delete_switch
              (if o1.shorter = true then Direction.EDir_RightBranch else Direction.EDir_None)
              (node l k v b o1.subRoot) o1.shorter with
          | none => simp [hsw] at h
          | some ts =>
            obtain ⟨t2, s2⟩ := ts
            simp only [hsw, Option.some.injEq] at h
            subst h
            simp only
            have hl_ne : ∀ p ∈ pairs l, p.1 ≠ key :=
              fun p hp1 => ne_of_lt (lt_trans (hlk p hp1) hgt)
            have hlook : (lookup key (pairs l ++ (k, v) :: pairs r)).isSome =
                (lookup key (pairs r)).isSome := by
              rw [lookup_append_of_not_mem _ _ _ hl_ne]
              simp only [lookup, if_neg hk]
            rw [avl_delete_switch_pairs _ _ _ _ _ hsw]
            simp only [pairs, i1, i2, hlook]
            rw [delList_append_of_not_mem _ _ _ hl_ne]
            simp only [delList, if_neg hk]
            simp

theorem count_eq_length_pairs (t : AvlTreeNode K V) : count t = (pairs t).length := by
  induction t with
  | nil => rfl
  | node l k v b r ihl ihr => simp [count, pairs, ihl, ihr]; omega

/-- What `insert` does to a balanced, search-ordered tree with the comparator `less`. -/
theorem insert_spec [LinearOrder K] (t : AvlTree K V) (alloc : Bool) (key : K) (value : V)
    (hc : t.m_binPredicate = less) (hb : HeightBalanced t.m_root)
    (hs : SortedKeys (pairs t.m_root)) :
    ∃ t1 ret, insert t alloc key value = some (t1, ret) ∧
      t1.m_binPredicate = less ∧ HeightBalanced t1.m_root ∧ SortedKeys (pairs t1.m_root) ∧
      ret = (alloc && (lookup key (pairs t.m_root)).isNone) ∧
      (ret = true → pairs t1.m_root = insList key value (pairs t.m_root) ∧
        t1.m_size = t.m_size + 1) ∧
      (ret = false → t1.m_root = t.m_root ∧ t1.m_size = t.m_size) := by
  obtain ⟨o, ho, hob, _, _⟩ :=
    avl_insert_balanced t.m_binPredicate alloc key value t.m_root t.m_size hb
  have ho2 := ho
  rw [hc] at ho2
  obtain ⟨p1, p2⟩ := avl_insert_pairs alloc key value t.m_root t.m_size o hs ho2
  obtain ⟨n1, n2⟩ := avl_insert_no_new _ alloc key value t.m_root t.m_size o ho
  refine ⟨{ t with m_root := o.subRoot, m_size := o.m_size }, o.newNode, ?_, hc, hob, ?_, p2,
    ?_, ?_⟩
  · simp only [insert, ho]
  · show SortedKeys (pairs o.subRoot)
    cases hn : o.newNode
    · rw [(n1 hn).1]; exact hs
    · rw [p1 (n2 hn).2]; exact sortedKeys_insList _ _ _ hs
  · intro hn
    exact ⟨p1 (n2 hn).2, (n2 hn).1⟩
  · intro hn
    exact ⟨(n1 hn).1, (n1 hn).2.2⟩

/-- What `remove` does to a balanced, search-ordered tree with the comparator `less`. -/
theorem remove_spec [LinearOrder K] (t : AvlTree K V) (key : K)
    (hc : t.m_binPredicate = less) (hb : HeightBalanced t.m_root)
    (hs : SortedKeys (pairs t.m_root)) :
    ∃ t1, remove t key = some t1 ∧
      t1.m_binPredicate = less ∧ HeightBalanced t1.m_root ∧ SortedKeys (pairs t1.m_root) ∧
      pairs t1.m_root = delList key (pairs t.m_root) ∧
      t1.m_size = (if (lookup key (pairs t.m_root)).isSome then t.m_size - 1 else t.m_size) := by
  obtain ⟨o, ho, hob, _⟩ := avl_delete_balanced t.m_binPredicate key t.m_root t.m_size hb
  have ho2 := ho
  rw [hc] at ho2
  obtain ⟨p1, p2⟩ := avl_delete_pairs key t.m_root t.m_size o hs ho2
  refine ⟨{ t with m_root := o.subRoot, m_size := o.m_size }, ?_, hc, hob, ?_, p1, p2⟩
  · simp only [remove, ho]
  · show SortedKeys (pairs o.subRoot)
    rw [p1]; exact sortedKeys_delList _ _ hs

/-- Every call keeps the comparator, the balance, the search order and the node count. -/
theorem call_invariant [LinearOrder K] (t : AvlTree K V) (c : Call K V)
    (hc : t.m_binPredicate = less) (hb : HeightBalanced t.m_root)
    (hs : SortedKeys (pairs t.m_root)) (hn : t.m_size = count t.m_root) :
    ∃ t1, call t c = some t1 ∧ t1.m_binPredicate = less ∧ HeightBalanced t1.m_root ∧
      SortedKeys (pairs t1.m_root) ∧ t1.m_size = count t1.m_root := by
  cases c with
  | insert alloc key value =>
    obtain ⟨t1, ret, h1, h2, h3, h4, h5, h6, h7⟩ := insert_spec t alloc key value hc hb hs
    refine ⟨t1, by simp only [call, h1], h2, h3, h4, ?_⟩
    cases hr : ret
    · obtain ⟨e1, e2⟩ := h7 hr
      rw [e1, e2]; exact hn
    · obtain ⟨e1, e2⟩ := h6 hr
      have hl : lookup key (pairs t.m_root) = none := by
        rw [hr] at h5
        cases hh : lookup key (pairs t.m_root) with
        | none => rfl
        | some w => rw [hh] at h5; simp at h5
      rw [count_eq_length_pairs, e1, e2, length_insList _ _ _ hl, hn, count_eq_length_pairs]
  | remove key =>
    obtain ⟨t1, h1, h2, h3, h4, h5, h6⟩ := remove_spec t key hc hb hs
    refine ⟨t1, by simp only [call, h1], h2, h3, h4, ?_⟩
    rw [count_eq_length_pairs, h5, h6, hn, count_eq_length_pairs]
    cases hh : lookup key (pairs t.m_root) with
    | none =>
      simp only [Option.isSome_none, Bool.false_eq_true, ↓reduceIte]
      rw [delList_of_not_mem _ _ ((lookup_eq_none_iff _ _).1 hh)]
    | some w =>
      simp only [Option.isSome_some, ↓reduceIte]
      have := length_delList key (pairs t.m_root) w hh
      omega

theorem calls_invariant [LinearOrder K] (cs : List (Call K V)) (t : AvlTree K V)
    (hc : t.m_binPredicate = less) (hb : HeightBalanced t.m_root)
    (hs : SortedKeys (pairs t.m_root)) (hn : t.m_size = count t.m_root) :
    ∃ t1, calls t cs = some t1 ∧ t1.m_binPredicate = less ∧ HeightBalanced t1.m_root ∧
      SortedKeys (pairs t1.m_root) ∧ t1.m_size = count t1.m_root := by
  induction cs generalizing t with
  | nil => exact ⟨t, rfl, hc, hb, hs, hn⟩
  | cons c cs ih =>
    obtain ⟨t1, h1, h2, h3, h4, h5⟩ := call_invariant t c hc hb hs hn
    obtain ⟨t2, g1, g2⟩ := ih t1 h2 h3 h4 h5
    exact ⟨t2, by simp only [calls, h1, g1], g2⟩

/-- On the search path of a key that `avl_find` locates, `avl_insert` with the comparator
`less` meets the node with that key and changes nothing. -/
theorem avl_insert_duplicate [LinearOrder K] (alloc : Bool) (key : K) (value w : V)
    (t : AvlTreeNode K V) (sz : Nat) (h : avl_find key t = some w) :
    avl_insert less alloc key value t sz = some ⟨t, false, false, sz⟩ := by
  induction t with
  | nil => simp [avl_find] at h
  | node l k v b r ihl ihr =>
    simp only [avl_find] at h
    simp only [avl_insert]
    by_cases h1 : key = k
    · simp [h1]
    · have h1' : ¬ k = key := fun e => h1 e.symm
      simp only [h1, ↓reduceIte] at h
      simp only [h1', ↓reduceIte, less, decide_eq_true_eq]
      by_cases h2 : key < k
      · simp only [h2, ↓reduceIte] at h ⊢
        simp [ihl h]
      · simp only [h2, ↓reduceIte] at h ⊢
        simp [ihr h]

theorem calls_append [DecidableEq K] (t : AvlTree K V) (cs1 cs2 : List (Call K V)) :
    calls t (cs1 ++ cs2) =
      match calls t cs1 with
      | none => none
      | some t1 => calls t1 cs2 := by
  induction cs1 generalizing t with
  | nil => simp [calls]
  | cons c cs ih =>
    simp only [List.cons_append, calls]
    cases call t c with
    | none => rfl
    | some t1 => exact ih t1

theorem pairs_eq_nil (t : AvlTreeNode K V) (h : pairs t = []) : t = nil := by
  cases t with
  | nil => rfl
  | node l k v b r => simp [pairs] at h

/-- After a sequence of `insert` calls every stored pair was stored before or has one of
the inserted keys. -/
theorem inserts_invariant [LinearOrder K] (kvs : List (K × V)) (t : AvlTree K V)
    (hc : t.m_binPredicate = less) (hb : HeightBalanced t.m_root)
    (hs : SortedKeys (pairs t.m_root)) (hn : t.m_size = count t.m_root) :
    ∃ t1, calls t (kvs.map (fun kv => Call.insert true kv.1 kv.2)) = some t1 ∧
      t1.m_binPredicate = less ∧ HeightBalanced t1.m_root ∧ SortedKeys (pairs t1.m_root) ∧
      t1.m_size = count t1.m_root ∧
      ∀ p ∈ pairs t1.m_root, p ∈ pairs t.m_root ∨ p.1 ∈ kvs.map Prod.fst := by
  induction kvs generalizing t with
  | nil => exact ⟨t, rfl, hc, hb, hs, hn, fun p hp => Or.inl hp⟩
  | cons kv kvs ih =>
    obtain ⟨t1, ret, h1, h2, h3, h4, h5, h6, h7⟩ := insert_spec t true kv.1 kv.2 hc hb hs
    have hn1 : t1.m_size = count t1.m_root := by
      cases ret with
      | true =>
        obtain ⟨e1, e2⟩ := h6 rfl
        have hl : lookup kv.1 (pairs t.m_root) = none := by
          cases hlk : lookup kv.1 (pairs t.m_root) with
          | none => rfl
          | some w => simp [hlk] at h5
        rw [e2, count_eq_length_pairs, e1, length_insList _ _ _ hl, hn, count_eq_length_pairs]
      | false =>
        obtain ⟨e1, e2⟩ := h7 rfl
        rw [e2, e1, hn]
    obtain ⟨t2, g1, g2, g3, g4, g5, g6⟩ := ih t1 h2 h3 h4 hn1
    refine ⟨t2, by simp only [List.map_cons, calls, call, h1, g1], g2, g3, g4, g5, ?_⟩
    intro p hp
    rcases g6 p hp with e | e
    · have hmem : p ∈ pairs t.m_root ∨ p = (kv.1, kv.2) := by
        cases ret with
        | true =>
          rw [(h6 rfl).1] at e
          rcases mem_insList _ _ _ _ e with e1 | e1
          · exact Or.inr e1
          · exact Or.inl e1
        | false =>
          rw [(h7 rfl).1] at e
          exact Or.inl e
      rcases hmem with e1 | e1
      · exact Or.inl e1
      · right
        rw [e1]
        simp
    · right
      simp only [List.map_cons, List.mem_cons]
      exact Or.inr e

/-- After a sequence of `remove` calls the stored pairs are among the earlier ones and
none of them has a removed key. -/
theorem removes_invariant [LinearOrder K] (ks : List K) (t : AvlTree K V)
    (hc : t.m_binPredicate = less) (hb : HeightBalanced t.m_root)
    (hs : SortedKeys (pairs t.m_root)) (hn : t.m_size = count t.m_root) :
    ∃ t1, calls t (ks.map Call.remove) = some t1 ∧
      t1.m_binPredicate = less ∧ HeightBalanced t1.m_root ∧ SortedKeys (pairs t1.m_root) ∧
      t1.m_size = count t1.m_root ∧
      ∀ p ∈ pairs t1.m_root, p ∈ pairs t.m_root ∧ p.1 ∉ ks := by
  induction ks generalizing t with
  | nil => exact ⟨t, rfl, hc, hb, hs, hn, fun p hp => ⟨hp, by simp⟩⟩
  | cons k ks ih =>
    obtain ⟨t1, h1, h2, h3, h4, h5, h6⟩ := remove_spec t k hc hb hs
    obtain ⟨t1', h1', _, _, _, hn1⟩ := call_invariant t (Call.remove k) hc hb hs hn
    have e : t1' = t1 := by
      simp only [call, h1, Option.some.injEq] at h1'
      exact h1'.symm
    subst e
    obtain ⟨t2, g1, g2, g3, g4, g5, g6⟩ := ih t1' h2 h3 h4 hn1
    refine ⟨t2, by simp only [List.map_cons, calls, call, h1, g1], g2, g3, g4, g5, ?_⟩
    intro p hp
    obtain ⟨e1, e2⟩ := g6 p hp
    rw [h5] at e1
    obtain ⟨e3, e4⟩ := mem_delList k _ hs p e1
    refine ⟨e3, ?_⟩
    simp only [List.mem_cons, not_or]
    exact ⟨e4, e2⟩

/-- On a non-null pointer `preorder` returns and visits in the conventional order. -/
theorem preorder_eq_conventional (t : AvlTreeNode K V) (h : t ≠ nil) :
    preorder t = some (conventionalPreorder t) := by
  induction t with
  | nil => exact absurd rfl h
  | node l k v b r ihl ihr =>
    cases l with
    | nil =>
      cases r with
      | nil => rfl
      | node rl rk rv rb rr =>
        rw [preorder, ihr (by simp)]
        simp [conventionalPreorder]
    | node ll lk lv lb lr =>
      cases r with
      | nil =>
        rw [preorder, ihl (by simp)]
        simp [conventionalPreorder]
      | node rl rk rv rb rr =>
        rw [preorder, ihl (by simp), ihr (by simp)]
        simp [conventionalPreorder]

/-- On a non-null pointer `postorder` returns and visits in the conventional order. -/
theorem postorder_eq_conventional (t : AvlTreeNode K V) (h : t ≠ nil) :
    postorder t = some (conventionalPostorder t) := by
  induction t with
  | nil => exact absurd rfl h
  | node l k v b r ihl ihr =>
    cases l with
    | nil =>
      cases r with
      | nil => rfl
      | node rl rk rv rb rr =>
        rw [postorder, ihr (by simp)]
        simp [conventionalPostorder]
    | node ll lk lv lb lr =>
      cases r with
      | nil =>
        rw [postorder, ihl (by simp)]
        simp [conventionalPostorder]
      | node rl rk rv rb rr =>
        rw [postorder, ihl (by simp), ihr (by simp)]
        simp [conventionalPostorder]

/-- On a non-null pointer `inorder` returns and visits in the conventional order. -/
theorem inorder_eq_conventional (t : AvlTreeNode K V) (h : t ≠ nil) :
    inorder t = some (conventionalInorder t) := by
  induction t with
  | nil => exact absurd rfl h
  | node l k v b r ihl ihr =>
    cases l with
    | nil =>
      cases r with
      | nil => rfl
      | node rl rk rv rb rr =>
        rw [inorder, ihr (by simp)]
        simp [conventionalInorder]
    | node ll lk lv lb lr =>
      cases r with
      | nil =>
        rw [inorder, ihl (by simp)]
        simp [conventionalInorder]
      | node rl rk rv rb rr =>
        rw [inorder, ihl (by simp), ihr (by simp)]
        simp [conventionalInorder]

theorem conventionalInorder_eq_pairs (t : AvlTreeNode K V) :
    conventionalInorder t = pairs t := by
  induction t with
  | nil => rfl
  | node l k v b r ihl ihr => simp [conventionalInorder, pairs, ihl, ihr]

theorem conventionalPreorder_perm_pairs (t : AvlTreeNode K V) :
    (conventionalPreorder t).Perm (pairs t) := by
  induction t with
  | nil => exact List.Perm.refl _
  | node l k v b r ihl ihr =>
    simp only [conventionalPreorder, pairs]
    exact ((List.Perm.append ihl ihr).cons (k, v)).trans List.perm_middle.symm

theorem conventionalPostorder_perm_pairs (t : AvlTreeNode K V) :
    (conventionalPostorder t).Perm (pairs t) := by
  induction t with
  | nil => exact List.Perm.refl _
  | node l k v b r ihl ihr =>
    simp only [conventionalPostorder, pairs, List.append_assoc]
    refine List.Perm.append ihl ?_
    exact (List.perm_append_comm).trans (ihr.cons (k, v))

/-- On a non-null pointer `avl_serialize_to_list` returns and pushes the pre-order
entries. -/
theorem avl_serialize_to_list_eq (t : AvlTreeNode K V) (h : t ≠ nil) :
    avl_serialize_to_list t = some (preorderEntries t) := by
  induction t with
  | nil => exact absurd rfl h
  | node l k v b r ihl ihr =>
    cases l with
    | nil =>
      cases r with
      | nil => rfl
      | node rl rk rv rb rr =>
        rw [avl_serialize_to_list, ihr (by simp)]
        simp [preorderEntries]
    | node ll lk lv lb lr =>
      cases r with
      | nil =>
        rw [avl_serialize_to_list, ihl (by simp)]
        simp [preorderEntries]
      | node rl rk rv rb rr =>
        rw [avl_serialize_to_list, ihl (by simp), ihr (by simp)]
        simp [preorderEntries]

theorem mem_preorderEntries (t : AvlTreeNode K V) (e : SerializableType K V)
    (h : e ∈ preorderEntries t) : e.m_pair ∈ pairs t := by
  induction t with
  | nil => simp [preorderEntries] at h
  | node l k v b r ihl ihr =>
    simp only [preorderEntries, List.cons_append, List.mem_cons, List.mem_append] at h
    simp only [pairs, List.mem_append, List.mem_cons]
    rcases h with h | h | h
    · rw [h]; exact Or.inr (Or.inl rfl)
    · exact Or.inl (ihl h)
    · exact Or.inr (Or.inr (ihr h))

theorem length_preorderEntries (t : AvlTreeNode K V) :
    (preorderEntries t).length = count t := by
  induction t with
  | nil => rfl
  | node l k v b r ihl ihr => simp [preorderEntries, count, ihl, ihr]; omega

theorem from_list_append (pred : K → K → Bool) (es1 es2 : List (SerializableType K V))
    (root : AvlTreeNode K V) (sz : Nat) :
    avl_serialize_from_list pred (fun _ => true) (es1 ++ es2) root sz =
      avl_serialize_from_list pred (fun _ => true) es2
        (avl_serialize_from_list pred (fun _ => true) es1 root sz).1
        (avl_serialize_from_list pred (fun _ => true) es1 root sz).2 := by
  induction es1 generalizing root sz with
  | nil => rfl
  | cons e es ih => simp only [List.cons_append, avl_serialize_from_list, List.append_eq, ih]

/-- Entries that the comparator sends to the left of a node only change its left
subtree. -/
theorem from_list_left (pred : K → K → Bool) (es : List (SerializableType K V))
    (l r : AvlTreeNode K V) (k : K) (v : V) (b : BalanceFactor) (sz : Nat)
    (h : ∀ e ∈ es, pred e.m_pair.1 k = true) :
    avl_serialize_from_list pred (fun _ => true) es (node l k v b r) sz =
      (node (avl_serialize_from_list pred (fun _ => true) es l sz).1 k v b r,
        (avl_serialize_from_list pred (fun _ => true) es l sz).2) := by
  induction es generalizing l sz with
  | nil => rfl
  | cons e es ih =>
    simp only [avl_serialize_from_list, avl_serialize_insert,
      h e (List.mem_cons_self _ _), ↓reduceIte]
    exact ih _ _ (fun x hx => h x (List.mem_cons_of_mem _ hx))

/-- Entries that the comparator sends to the right of a node only change its right
subtree. -/
theorem from_list_right (pred : K → K → Bool) (es : List (SerializableType K V))
    (l r : AvlTreeNode K V) (k : K) (v : V) (b : BalanceFactor) (sz : Nat)
    (h : ∀ e ∈ es, pred e.m_pair.1 k = false) :
    avl_serialize_from_list pred (fun _ => true) es (node l k v b r) sz =
      (node l k v b (avl_serialize_from_list pred (fun _ => true) es r sz).1,
        (avl_serialize_from_list pred (fun _ => true) es r sz).2) := by
  induction es generalizing r sz with
  | nil => rfl
  | cons e es ih =>
    simp only [avl_serialize_from_list, avl_serialize_insert,
      h e (List.mem_cons_self _ _), Bool.false_eq_true, ↓reduceIte]
    exact ih _ _ (fun x hx => h x (List.mem_cons_of_mem _ hx))

/-- Inserting the pre-order entries of a search-ordered tree one by one, without
rebalancing, rebuilds the tree node for node. -/
theorem from_list_preorderEntries [LinearOrder K] (t : AvlTreeNode K V) (sz : Nat)
    (hs : SortedKeys (pairs t)) :
    avl_serialize_from_list less (fun _ => true) (preorderEntries t) nil sz
      = (t, sz + count t) := by
  induction t generalizing sz with
  | nil => rfl
  | node l k v b r ihl ihr =>
    simp only [pairs] at hs
    rw [sortedKeys_append, sortedKeys_cons] at hs
    obtain ⟨hl, ⟨hkr, hr⟩, hlr⟩ := hs
    have hlk : ∀ e ∈ preorderEntries l, less e.m_pair.1 k = true := by
      intro e he
      have := hlr _ (mem_preorderEntries l e he) (k, v) (List.mem_cons_self _ _)
      simpa [less] using this
    have hrk : ∀ e ∈ preorderEntries r, less e.m_pair.1 k = false := by
      intro e he
      have := hkr _ (mem_preorderEntries r e he)
      simp only [less, decide_eq_false_iff_not, not_lt]
      exact le_of_lt this
    simp only [preorderEntries, avl_serialize_from_list, avl_serialize_insert, ↓reduceIte,
      List.append_eq]
    rw [from_list_append, from_list_left less _ _ _ _ _ _ _ hlk, ihl _ hl]
    simp only []
    rw [from_list_right less _ _ _ _ _ _ _ hrk, ihr _ hr]
    simp only [count, Prod.mk.injEq, true_and]
    omega

theorem call_traversalFunc [DecidableEq K] (t t1 : AvlTree K V) (c : Call K V)
    (h : call t c = some t1) : t1.m_traversalFunc = t.m_traversalFunc := by
  cases c with
  | insert alloc key value =>
    simp only [call, insert] at h
    cases ha : avl_insert t.m_binPredicate alloc key value t.m_root t.m_size with
    | none => simp [ha] at h
    | some o =>
      simp only [ha, Option.some.injEq] at h
      subst h; rfl
  | remove key =>
    simp only [call, remove] at h
    cases ha : avl_delete t.m_binPredicate key t.m_root t.m_size with
    | none => simp [ha] at h
    | some o =>
      simp only [ha, Option.some.injEq] at h
      subst h; rfl

theorem calls_traversalFunc [DecidableEq K] (cs : List (Call K V)) (t t1 : AvlTree K V)
    (h : calls t cs = some t1) : t1.m_traversalFunc = t.m_traversalFunc := by
  induction cs generalizing t with
  | nil => simp only [calls, Option.some.injEq] at h; subst h; rfl
  | cons c cs ih =>
    simp only [calls] at h
    cases hc : call t c with
    | none => simp [hc] at h
    | some t2 =>
      simp only [hc] at h
      rw [ih t2 h, call_traversalFunc t t2 c hc]

/-- On a search-ordered tree without the key, `avl_serialize_insert` inserts the pair at
its place in the in-order sequence. -/
theorem serialize_insert_pairs [LinearOrder K] (obj : SerializableType K V)
    (t : AvlTreeNode K V) (sz : Nat) (hs : SortedKeys (pairs t))
    (hk : ∀ p ∈ pairs t, p.1 ≠ obj.m_pair.1) :
    pairs (avl_serialize_insert less true obj t sz).1
      = insList obj.m_pair.1 obj.m_pair.2 (pairs t) := by
  induction t generalizing sz with
  | nil => simp [avl_serialize_insert, pairs, insList]
  | node l a w b r ihl ihr =>
    simp only [pairs] at hs hk
    rw [sortedKeys_append, sortedKeys_cons] at hs
    obtain ⟨hl, ⟨hkr, hr⟩, hlr⟩ := hs
    by_cases h : obj.m_pair.1 < a
    · simp only [avl_serialize_insert, less, h, decide_True, ↓reduceIte, pairs]
      rw [ihl _ hl (fun p hp => hk p (by simp [hp]))]
      exact (insList_append_lt _ _ _ (a, w) _ h).symm
    · have hne : a ≠ obj.m_pair.1 := hk (a, w) (by simp)
      have hlt : a < obj.m_pair.1 := lt_of_le_of_ne (not_lt.1 h) hne
      simp only [avl_serialize_insert, less, h, decide_False, Bool.false_eq_true, ↓reduceIte,
        pairs]
      rw [ihr _ hr (fun p hp => hk p (by simp [hp]))]
      refine (insList_append_gt _ _ _ (a, w) _ (fun p hp => ?_) hlt).symm
      exact lt_trans (hlr p hp (a, w) (List.mem_cons_self _ _)) hlt

theorem serialize_insert_size (pred : K → K → Bool) (obj : SerializableType K V)
    (t : AvlTreeNode K V) (sz : Nat) :
    (avl_serialize_insert pred true obj t sz).2 = sz + 1 := by
  induction t generalizing sz with
  | nil => rfl
  | node l a w b r ihl ihr =>
    simp only [avl_serialize_insert]
    split
    · exact ihl sz
    · exact ihr sz

/-- The nodes after `avl_serialize_insert` are the old nodes and one node carrying the
pair and the balance factor of the entry. -/
theorem serialize_insert_entries (pred : K → K → Bool) (obj : SerializableType K V)
    (t : AvlTreeNode K V) (sz : Nat) :
    (preorderEntries (avl_serialize_insert pred true obj t sz).1).Perm
      (obj :: preorderEntries t) := by
  induction t generalizing sz with
  | nil => simp [avl_serialize_insert, preorderEntries]
  | node l a w b r ihl ihr =>
    simp only [avl_serialize_insert]
    split
    · simp only [preorderEntries]
      refine ((((ihl sz).append_right _).cons _).trans ?_)
      simp only [List.cons_append]
      exact List.Perm.swap _ _ _
    · simp only [preorderEntries]
      refine ((((ihr sz).append_left _).cons _).trans ?_)
      refine (List.Perm.cons _ List.perm_middle).trans ?_
      exact List.Perm.swap _ _ _

/-- The root node stays the root: `avl_serialize_insert` rotates nothing. -/
theorem serialize_insert_root (pred : K → K → Bool) (alloc : Bool)
    (obj : SerializableType K V) (l r : AvlTreeNode K V) (k : K) (v : V) (b : BalanceFactor)
    (sz : Nat) :
    ∃ l1 r1, (avl_serialize_insert pred alloc obj (node l k v b r) sz).1 = node l1 k v b r1 := by
  simp only [avl_serialize_insert]
  split
  · exact ⟨_, _, rfl⟩
  · exact ⟨_, _, rfl⟩

theorem from_list_root (pred : K → K → Bool) (alloc : Nat → Bool)
    (es : List (SerializableType K V)) (l r : AvlTreeNode K V) (k : K) (v : V)
    (b : BalanceFactor) (sz : Nat) :
    ∃ l1 r1, (avl_serialize_from_list pred alloc es (node l k v b r) sz).1 = node l1 k v b r1 := by
  induction es generalizing l r sz alloc with
  | nil => exact ⟨_, _, rfl⟩
  | cons e es ih =>
    obtain ⟨l1, r1, h⟩ := serialize_insert_root pred (alloc 0) e l r k v b sz
    simp only [avl_serialize_from_list]
    rw [h]
    exact ih _ _ _ _

theorem from_list_entries (pred : K → K → Bool) (es : List (SerializableType K V))
    (t : AvlTreeNode K V) (sz : Nat) :
    (preorderEntries (avl_serialize_from_list pred (fun _ => true) es t sz).1).Perm
        (es.reverse ++ preorderEntries t) ∧
      (avl_serialize_from_list pred (fun _ => true) es t sz).2 = sz + es.length := by
  induction es generalizing t sz with
  | nil => simp [avl_serialize_from_list]
  | cons e es ih =>
    simp only [avl_serialize_from_list]
    obtain ⟨h1, h2⟩ := ih (avl_serialize_insert pred true e t sz).1
      (avl_serialize_insert pred true e t sz).2
    refine ⟨?_, ?_⟩
    · refine h1.trans ?_
      simp only [List.reverse_cons, List.append_assoc, List.singleton_append]
      exact List.Perm.append_left _ (serialize_insert_entries pred e t sz)
    · rw [h2, serialize_insert_size]
      simp only [List.length_cons]; omega

/-- The write direction and a sequence of `insert` calls keep the same in-order pairs and
the same size. -/
theorem from_list_pairs_eq_inserts [LinearOrder K] (es : List (SerializableType K V))
    (a : AvlTreeNode K V) (ta : AvlTree K V)
    (hc : ta.m_binPredicate = less) (hb : HeightBalanced ta.m_root)
    (hs : SortedKeys (pairs ta.m_root)) (hn : ta.m_size = count ta.m_root)
    (hp : pairs a = pairs ta.m_root)
    (hd : (es.map (fun e => e.m_pair.1)).Nodup)
    (hnew : ∀ p ∈ pairs a, p.1 ∉ es.map (fun e => e.m_pair.1)) :
    ∃ t2, calls ta (es.map (fun e => Call.insert true e.m_pair.1 e.m_pair.2)) = some t2 ∧
      pairs (avl_serialize_from_list less (fun _ => true) es a ta.m_size).1 = pairs t2.m_root ∧
      (avl_serialize_from_list less (fun _ => true) es a ta.m_size).2 = t2.m_size ∧
      HeightBalanced t2.m_root ∧ SortedKeys (pairs t2.m_root) := by
  induction es generalizing a ta with
  | nil => exact ⟨ta, rfl, hp, rfl, hb, hs⟩
  | cons e es ih =>
    simp only [List.map_cons, List.nodup_cons] at hd
    obtain ⟨hd1, hd2⟩ := hd
    have habs : ∀ p ∈ pairs a, p.1 ≠ e.m_pair.1 := by
      intro p hpm heq
      exact hnew p hpm (by simp [heq])
    obtain ⟨t1, ret, h1, h2, h3, h4, h5, h6, _⟩ :=
      insert_spec ta true e.m_pair.1 e.m_pair.2 hc hb hs
    have hnone : lookup e.m_pair.1 (pairs ta.m_root) = none := by
      rw [lookup_eq_none_iff, ← hp]; exact habs
    have hret : ret = true := by rw [h5, hnone]; rfl
    obtain ⟨g1, g2⟩ := h6 hret
    have hsa : SortedKeys (pairs a) := by rw [hp]; exact hs
    have hpa := serialize_insert_pairs e a ta.m_size hsa habs
    have hn1 : t1.m_size = count t1.m_root := by
      rw [g2, hn, count_eq_length_pairs, count_eq_length_pairs, g1,
        List.Perm.length_eq (perm_insList _ _ _ (by rw [← hp]; exact habs))]
      simp
    have hp1 : pairs (avl_serialize_insert less true e a ta.m_size).1 = pairs t1.m_root := by
      rw [hpa, g1, hp]
    have hnew1 : ∀ p ∈ pairs (avl_serialize_insert less true e a ta.m_size).1,
        p.1 ∉ es.map (fun e => e.m_pair.1) := by
      intro p hpm
      rw [hpa] at hpm
      have := (perm_insList _ _ _ habs).subset hpm
      simp only [List.mem_cons] at this
      rcases this with h | h
      · rw [h]; exact hd1
      · intro hmem
        exact hnew p h (by simp only [List.map_cons, List.mem_cons]; exact Or.inr hmem)
    obtain ⟨t2, k1, k2, k3, k4, k5⟩ := ih _ t1 h2 h3 h4 hn1 hp1 hd2 hnew1
    refine ⟨t2, ?_, ?_, ?_, k4, k5⟩
    · simp only [List.map_cons, calls, call, h1]
      exact k1
    · simp only [avl_serialize_from_list]
      rw [serialize_insert_size, ← g2]
      exact k2
    · simp only [avl_serialize_from_list]
      rw [serialize_insert_size, ← g2]
      exact k3

/-- `copy` rebuilds the original node for node and counts its nodes. -/
theorem copy_eq (t : AvlTreeNode K V) (sz : Nat) : copy t sz = (t, sz + count t) := by
  induction t generalizing sz with
  | nil => rfl
  | node l k v b r ihl ihr =>
    simp only [copy, ihl, ihr, count, Prod.mk.injEq, true_and]
    omega

theorem clear_size (t : AvlTree K V) (h : t.m_size = count t.m_root) :
    (clear t).m_size = 0 ∧ (clear t).m_root = nil := by
  cases t with
  | mk sz root pred tf =>
    cases root with
    | nil => simp only [count] at h; subst h; exact ⟨rfl, rfl⟩
    | node l k v b r => exact ⟨rfl, rfl⟩

/-- The shape of a subtree that `avl_insert` reports as taller: a fresh leaf in place of
`nullptr`, or a root leaning towards a child that is the fresh leaf or leans itself. -/
theorem avl_insert_taller_shape [DecidableEq K] (pred : K → K → Bool) (alloc : Bool) (key : K)
    (value : V) (t : AvlTreeNode K V) (sz : Nat) (o : InsertOut K V) (h : HeightBalanced t)
    (ho : avl_insert pred alloc key value t sz = some o) (ht : o.taller = true) :
    (t = nil ∧ o.subRoot = node nil key value EqualHeight nil) ∨
      (t ≠ nil ∧
        ((rootBalance o.subRoot = LeftHigher ∧
            (leftChild o.subRoot = node nil key value EqualHeight nil ∨
              (leftChild o.subRoot ≠ nil ∧ rootBalance (leftChild o.subRoot) ≠ EqualHeight))) ∨
          (rootBalance o.subRoot = RightHigher ∧
            (rightChild o.subRoot = node nil key value EqualHeight nil ∨
              (rightChild o.subRoot ≠ nil ∧
                rootBalance (rightChild o.subRoot) ≠ EqualHeight))))) := by
  induction t generalizing sz o with
  | nil =>
    cases alloc
    · simp only [avl_insert, Bool.false_eq_true, ↓reduceIte, Option.some.injEq] at ho
      subst ho; simp at ht
    · simp only [avl_insert, ↓reduceIte, Option.some.injEq] at ho
      subst ho; exact Or.inl ⟨rfl, rfl⟩
  | node l k v b r ihl ihr =>
    right
    refine ⟨by simp, ?_⟩
    rw [heightBalanced_node_iff] at h
    obtain ⟨hb, hl, hr⟩ := h
    simp only [avl_insert] at ho
    by_cases hk : k = key
    · simp only [hk, ↓reduceIte, Option.some.injEq] at ho
      subst ho; simp at ht
    · simp only [hk, ↓reduceIte] at ho
      by_cases hp : pred key k = true
      · simp only [hp, ↓reduceIte] at ho
        obtain ⟨o1, h1, hb1, hh1, _⟩ := avl_insert_balanced pred alloc key value l sz hl
        rw [h1] at ho
        simp only at ho
        cases ht1 : o1.taller
        · simp only [ht1, Bool.false_eq_true, ↓reduceIte, Option.some.injEq] at ho
          subst ho; simp at ht
        · simp only [ht1, ↓reduceIte] at ho
          have sh := ihl sz o1 hl h1 ht1
          cases b with
          | LeftHigher =>
            simp only at ho
            cases hbl : balance_left (node o1.subRoot k v LeftHigher r) with
            | none => simp [hbl] at ho
            | some t1 =>
              simp only [hbl, Option.some.injEq] at ho
              subst ho; simp at ht
          | RightHigher =>
            simp only [Option.some.injEq] at ho
            subst ho; simp at ht
          | EqualHeight =>
            simp only [Option.some.injEq] at ho
            subst ho
            left
            refine ⟨rfl, ?_⟩
            simp only [leftChild]
            rcases sh with ⟨e1, e2⟩ | ⟨e1, e2⟩
            · exact Or.inl e2
            · right
              rcases e2 with ⟨e3, _⟩ | ⟨e3, _⟩
              · refine ⟨?_, by rw [e3]; simp⟩
                intro hn; rw [hn] at e3; simp [rootBalance] at e3
              · refine ⟨?_, by rw [e3]; simp⟩
                intro hn; rw [hn] at e3; simp [rootBalance] at e3
      · simp only [hp, Bool.false_eq_true, ↓reduceIte] at ho
        obtain ⟨o1, h1, hb1, hh1, _⟩ := avl_insert_balanced pred alloc key value r sz hr
        rw [h1] at ho
        simp only at ho
        cases ht1 : o1.taller
        · simp only [ht1, Bool.false_eq_true, ↓reduceIte, Option.some.injEq] at ho
          subst ho; simp at ht
        · simp only [ht1, ↓reduceIte] at ho
          have sh := ihr sz o1 hr h1 ht1
          cases b with
          | RightHigher =>
            simp only at ho
            cases hbl : balance_right (node l k v RightHigher o1.subRoot) with
            | none => simp [hbl] at ho
            | some t1 =>
              simp only [hbl, Option.some.injEq] at ho
              subst ho; simp at ht
          | LeftHigher =>
            simp only [Option.some.injEq] at ho
            subst ho; simp at ht
          | EqualHeight =>
            simp only [Option.some.injEq] at ho
            subst ho
            right
            refine ⟨rfl, ?_⟩
            simp only [rightChild]
            rcases sh with ⟨e1, e2⟩ | ⟨e1, e2⟩
            · exact Or.inl e2
            · right
              rcases e2 with ⟨e3, _⟩ | ⟨e3, _⟩
              · refine ⟨?_, by rw [e3]; simp⟩
                intro hn; rw [hn] at e3; simp [rootBalance] at e3
              · refine ⟨?_, by rw [e3]; simp⟩
                intro hn; rw [hn] at e3; simp [rootBalance] at e3

/-- What holds at every call of `balance_left` or `balance_right` made by `avl_insert` on
a height-balanced subtree. -/
theorem balance_calls_shape [DecidableEq K] (pred : K → K → Bool) (alloc : Bool) (key : K)
    (value : V) (t : AvlTreeNode K V) (sz : Nat) (h : HeightBalanced t) :
    ∀ c ∈ avl_insert_balance_calls pred alloc key value t sz,
      (c.1 = true →
        leftChild c.2 ≠ nil ∧
        ((rootBalance (leftChild c.2) = LeftHigher) ∨
          (rootBalance (leftChild c.2) = RightHigher ∧
            (rightChild (leftChild c.2) = node nil key value EqualHeight nil ∨
              (rightChild (leftChild c.2) ≠ nil ∧
                rootBalance (rightChild (leftChild c.2)) ≠ EqualHeight))))) ∧
      (c.1 = false →
        rightChild c.2 ≠ nil ∧
        ((rootBalance (rightChild c.2) = RightHigher) ∨
          (rootBalance (rightChild c.2) = LeftHigher ∧
            (leftChild (rightChild c.2) = node nil key value EqualHeight nil ∨
              (leftChild (rightChild c.2) ≠ nil ∧
                rootBalance (leftChild (rightChild c.2)) ≠ EqualHeight))))) := by
  induction t generalizing sz with
  | nil => intro c hc; simp [avl_insert_balance_calls] at hc
  | node l k v b r ihl ihr =>
    rw [heightBalanced_node_iff] at h
    obtain ⟨hb, hl, hr⟩ := h
    intro c hc
    simp only [avl_insert_balance_calls] at hc
    by_cases hk : k = key
    · simp [hk] at hc
    · simp only [hk, ↓reduceIte] at hc
      by_cases hp : pred key k = true
      · simp only [hp, ↓reduceIte, List.mem_append] at hc
        rcases hc with hc | hc
        · exact ihl sz hl c hc
        · cases ho : avl_insert pred alloc key value l sz with
          | none => simp [ho] at hc
          | some o =>
            simp only [ho] at hc
            cases ht : o.taller
            · simp [ht] at hc
            · simp only [ht, ↓reduceIte] at hc
              cases b with
              | EqualHeight => simp at hc
              | RightHigher => simp at hc
              | LeftHigher =>
                simp only [List.mem_singleton] at hc
                subst hc
                have hne : l ≠ nil := by
                  intro e
                  simp [e, height] at hb
                refine ⟨fun _ => ?_, fun hf => by simp at hf⟩
                simp only [leftChild]
                rcases avl_insert_taller_shape pred alloc key value l sz o hl ho ht with
                  ⟨e1, _⟩ | ⟨_, e2⟩
                · exact absurd e1 hne
                · rcases e2 with ⟨e3, _⟩ | ⟨e3, e4⟩
                  · refine ⟨?_, Or.inl e3⟩
                    intro hn; rw [hn] at e3; simp [rootBalance] at e3
                  · refine ⟨?_, Or.inr ⟨e3, e4⟩⟩
                    intro hn; rw [hn] at e3; simp [rootBalance] at e3
      · simp only [hp, Bool.false_eq_true, ↓reduceIte, List.mem_append] at hc
        rcases hc with hc | hc
        · exact ihr sz hr c hc
        · cases ho : avl_insert pred alloc key value r sz with
          | none => simp [ho] at hc
          | some o =>
            simp only [ho] at hc
            cases ht : o.taller
            · simp [ht] at hc
            · simp only [ht, ↓reduceIte] at hc
              cases b with
              | EqualHeight => simp at hc
              | LeftHigher => simp at hc
              | RightHigher =>
                simp only [List.mem_singleton] at hc
                subst hc
                have hne : r ≠ nil := by
                  intro e
                  simp [e, height] at hb
                refine ⟨fun hf => by simp at hf, fun _ => ?_⟩
                simp only [rightChild]
                rcases avl_insert_taller_shape pred alloc key value r sz o hr ho ht with
                  ⟨e1, _⟩ | ⟨_, e2⟩
                · exact absurd e1 hne
                · rcases e2 with ⟨e3, e4⟩ | ⟨e3, _⟩
                  · refine ⟨?_, Or.inr ⟨e3, e4⟩⟩
                    intro hn; rw [hn] at e3; simp [rootBalance] at e3
                  · refine ⟨?_, Or.inl e3⟩
                    intro hn; rw [hn] at e3; simp [rootBalance] at e3

theorem exists_linearOrder [inst : DecidableEq K] (pred : K → K → Bool)
    (h : StrictTotalOrder pred) :
    ∃ J : LinearOrder K, @less K J = pred ∧
      (∀ l : List (K × V), @SortedKeys K V J.toLT l ↔ SortedBy pred l) ∧
      @LinearOrder.decidableEq K J = inst := by
  obtain ⟨h1, h2, h3⟩ := h
  have hasym : ∀ a b, pred a b = true → pred b a = true → False := by
    intro a b hab hba
    have := h2 a b a hab hba
    rw [h1 a] at this
    exact absurd this (by simp)
  refine ⟨{ le := fun a b => pred a b = true ∨ a = b
            lt := fun a b => pred a b = true
            le_refl := fun a => Or.inr rfl
            le_trans := ?_
            lt_iff_le_not_le := ?_
            le_antisymm := ?_
            le_total := ?_
            decidableLE := fun a b => inferInstanceAs (Decidable (pred a b = true ∨ a = b))
            decidableEq := inst
            decidableLT := fun a b => inferInstanceAs (Decidable (pred a b = true)) }, ?_, ?_, rfl⟩
  · intro a b c hab hbc
    rcases hab with hab | hab
    · rcases hbc with hbc | hbc
      · exact Or.inl (h2 a b c hab hbc)
      · rw [← hbc]; exact Or.inl hab
    · rw [hab]; exact hbc
  · intro a b
    constructor
    · intro hab
      refine ⟨Or.inl hab, ?_⟩
      rintro (hba | hba)
      · exact hasym a b hab hba
      · subst hba
        have hab1 : pred b b = true := hab
        rw [h1 b] at hab1
        exact absurd hab1 (by simp)
    · rintro ⟨hab | hab, hn⟩
      · exact hab
      · exact absurd (Or.inr hab.symm) hn
  · intro a b hab hba
    rcases hab with hab | hab
    · rcases hba with hba | hba
      · exact absurd (hasym a b hab hba) id
      · exact hba.symm
    · exact hab
  · intro a b
    by_cases e : a = b
    · exact Or.inl (Or.inr e)
    · rcases h3 a b e with hab | hba
      · exact Or.inl (Or.inl hab)
      · exact Or.inr (Or.inl hba)
  · funext a b
    simp only [less]
    show decide (pred a b = true) = pred a b
    simp
  · intro l
    exact Iff.rfl

/-- In a list in search order a key has one value. -/
theorem sortedBy_unique (pred : K → K → Bool) (h1 : ∀ a, pred a a = false)
    (l : List (K × V)) (hs : SortedBy pred l) (k : K) (v w : V)
    (hv : (k, v) ∈ l) (hw : (k, w) ∈ l) : v = w := by
  induction l with
  | nil => simp at hv
  | cons a l ih =>
    simp only [SortedBy, List.pairwise_cons] at hs
    have irr : ∀ u, (k, u) ∈ l → a = (k, v) ∨ a = (k, w) → False := by
      intro u hu ha
      have := hs.1 (k, u) hu
      rcases ha with e | e <;> rw [e] at this <;> simp only [h1 k] at this <;>
        exact absurd this (by simp)
    rcases List.mem_cons.1 hv with e1 | e1
    · rcases List.mem_cons.1 hw with e2 | e2
      · rw [← e1] at e2; exact (Prod.mk.inj e2).2.symm
      · exact absurd (irr w e2 (Or.inl e1.symm)) id
    · rcases List.mem_cons.1 hw with e2 | e2
      · exact absurd (irr v e1 (Or.inr e2.symm)) id
      · exact ih hs.2 e1 e2

theorem lookup_eq_none_of_not_mem [DecidableEq K] (k : K) (l : List (K × V))
    (h : ∀ w, (k, w) ∉ l) : lookup k l = none := by
  rw [lookup_eq_none_iff]
  intro p hp e
  exact h p.2 (by rw [← e]; exact hp)

theorem lookup_eq_some_of_mem [DecidableEq K] (pred : K → K → Bool)
    (h1 : ∀ a, pred a a = false) (k : K) (w : V) (l : List (K × V)) (hs : SortedBy pred l)
    (h : (k, w) ∈ l) : lookup k l = some w := by
  induction l with
  | nil => simp at h
  | cons a l ih =>
    obtain ⟨b, u⟩ := a
    simp only [lookup]
    by_cases e : k = b
    · rw [if_pos e]
      subst e
      rw [sortedBy_unique pred h1 _ hs k u w (List.mem_cons_self _ _) h]
    · rw [if_neg e]
      simp only [SortedBy, List.pairwise_cons] at hs
      rcases List.mem_cons.1 h with e1 | e1
      · exact absurd (Prod.mk.inj e1).1 e
      · exact ih hs.2 e1

theorem mem_of_lookup_eq_some [DecidableEq K] (k : K) (w : V) (l : List (K × V))
    (h : lookup k l = some w) : (k, w) ∈ l := by
  induction l with
  | nil => simp [lookup] at h
  | cons a l ih =>
    obtain ⟨b, u⟩ := a
    simp only [lookup] at h
    by_cases e : k = b
    · rw [if_pos e] at h
      simp only [Option.some.injEq] at h
      rw [e, h]; exact List.mem_cons_self _ _
    · rw [if_neg e] at h
      exact List.mem_cons_of_mem _ (ih h)

/-- `insert` under a comparator that is a strict total order. -/
theorem insert_spec_comparator [DecidableEq K] (t : AvlTree K V) (alloc : Bool) (key : K)
    (value : V) (hp : StrictTotalOrder t.m_binPredicate) (hb : HeightBalanced t.m_root)
    (hs : SortedBy t.m_binPredicate (pairs t.m_root)) :
    ∃ t1 ret, insert t alloc key value = some (t1, ret) ∧
      t1.m_binPredicate = t.m_binPredicate ∧ HeightBalanced t1.m_root ∧
      SortedBy t.m_binPredicate (pairs t1.m_root) ∧
      ret = (alloc && (lookup key (pairs t.m_root)).isNone) ∧
      (ret = true → (pairs t1.m_root).Perm ((key, value) :: pairs t.m_root) ∧
        t1.m_size = t.m_size + 1) ∧
      (ret = false → t1.m_root = t.m_root ∧ t1.m_size = t.m_size) := by
  obtain ⟨J, hJ1, hJ2, hJ3⟩ := @exists_linearOrder K V _ t.m_binPredicate hp
  subst hJ3
  obtain ⟨t1, ret, e1, e2, e3, e4, e5, e6, e7⟩ :=
    @insert_spec K V J t alloc key value hJ1.symm hb ((hJ2 _).2 hs)
  refine ⟨t1, ret, e1, e2.trans hJ1, e3, (hJ2 _).1 e4, e5, ?_, e7⟩
  intro hr
  obtain ⟨g1, g2⟩ := e6 hr
  refine ⟨?_, g2⟩
  rw [g1]
  apply @perm_insList K V J
  rw [e5, hr] at hr
  have hl : lookup key (pairs t.m_root) = none := by
    cases alloc <;> simp_all
  exact (lookup_eq_none_iff key _).1 hl

/-- `remove` under a comparator that is a strict total order. -/
theorem remove_spec_comparator [DecidableEq K] (t : AvlTree K V) (key : K)
    (hp : StrictTotalOrder t.m_binPredicate) (hb : HeightBalanced t.m_root)
    (hs : SortedBy t.m_binPredicate (pairs t.m_root)) :
    ∃ t1, remove t key = some t1 ∧
      t1.m_binPredicate = t.m_binPredicate ∧ HeightBalanced t1.m_root ∧
      SortedBy t.m_binPredicate (pairs t1.m_root) ∧
      pairs t1.m_root = delList key (pairs t.m_root) ∧
      t1.m_size = (if (lookup key (pairs t.m_root)).isSome then t.m_size - 1 else t.m_size) ∧
      (lookup key (pairs t.m_root) = none → t1 = t) := by
  obtain ⟨J, hJ1, hJ2, hJ3⟩ := @exists_linearOrder K V _ t.m_binPredicate hp
  subst hJ3
  obtain ⟨t1, e1, e2, e3, e4, e5, e6⟩ :=
    @remove_spec K V J t key hJ1.symm hb ((hJ2 _).2 hs)
  refine ⟨t1, e1, e2.trans hJ1, e3, (hJ2 _).1 e4, e5, e6, ?_⟩
  intro hl
  have hf : @avl_find K V J key t.m_root = none := by
    rw [@avl_find_eq_lookup K V J key _ ((hJ2 _).2 hs)]; exact hl
  have := @avl_delete_absent K V J key t.m_root t.m_size hf
  rw [hJ1] at this
  simp only [remove, this, Option.some.injEq] at e1
  rw [← e1]

theorem strictTotalOrder_less [LinearOrder K] : StrictTotalOrder (less : K → K → Bool) := by
  refine ⟨fun a => by simp [less], fun a b c h1 h2 => ?_, fun a b h => ?_⟩
  · simp only [less, decide_eq_true_eq] at h1 h2 ⊢
    exact lt_trans h1 h2
  · simp only [less, decide_eq_true_eq]
    exact lt_or_gt_of_ne h

theorem strictTotalOrder_greater [LinearOrder K] :
    StrictTotalOrder (greater : K → K → Bool) := by
  refine ⟨fun a => by simp [greater], fun a b c h1 h2 => ?_, fun a b h => ?_⟩
  · simp only [greater, decide_eq_true_eq] at h1 h2 ⊢
    exact lt_trans h2 h1
  · simp only [greater, decide_eq_true_eq]
    exact (lt_or_gt_of_ne h).symm

theorem sortedBy_less_iff [LinearOrder K] (l : List (K × V)) :
    SortedBy less l ↔ SortedKeys l := by
  simp only [SortedBy, SortedKeys, less, decide_eq_true_eq]

/-- With the comparator `less`, the pairs of a tree in search order are what `avl_find`
locates. -/
theorem avl_find_iff_mem [LinearOrder K] (t : AvlTreeNode K V) (hs : SortedBy less (pairs t))
    (k : K) (w : V) : avl_find k t = some w ↔ (k, w) ∈ pairs t := by
  rw [avl_find_eq_lookup k t ((sortedBy_less_iff _).1 hs)]
  exact ⟨mem_of_lookup_eq_some k w _,
    lookup_eq_some_of_mem less strictTotalOrder_less.1 k w _ hs⟩

/-- A key that is stored is met by `avl_insert` under a comparator that is a strict total
order: the call changes nothing. -/
theorem insert_duplicate_comparator [DecidableEq K] (t : AvlTree K V) (k : K) (w : V)
    (hp : StrictTotalOrder t.m_binPredicate)
    (hs : SortedBy t.m_binPredicate (pairs t.m_root)) (hk : (k, w) ∈ pairs t.m_root)
    (alloc : Bool) (v : V) : insert t alloc k v = some (t, false) := by
  have hl := lookup_eq_some_of_mem t.m_binPredicate hp.1 k w _ hs hk
  obtain ⟨J, hJ1, hJ2, hJ3⟩ := @exists_linearOrder K V _ t.m_binPredicate hp
  subst hJ3
  have hf : @avl_find K V J k t.m_root = some w := by
    rw [@avl_find_eq_lookup K V J k _ ((hJ2 _).2 hs)]; exact hl
  have := @avl_insert_duplicate K V J alloc k v w t.m_root t.m_size hf
  rw [hJ1] at this
  cases t with
  | mk sz root pred tf => simp only [insert, this]

/-- Every sequence of calls on a tree with a comparator that is a strict total order
returns and keeps the comparator, the height balance, the search order by the comparator
and the size. -/
theorem calls_invariant_comparator [DecidableEq K] (cs : List (Call K V)) (t : AvlTree K V)
    (hp : StrictTotalOrder t.m_binPredicate) (hb : HeightBalanced t.m_root)
    (hs : SortedBy t.m_binPredicate (pairs t.m_root)) (hn : t.m_size = count t.m_root) :
    ∃ t1, calls t cs = some t1 ∧ t1.m_binPredicate = t.m_binPredicate ∧
      HeightBalanced t1.m_root ∧ SortedBy t.m_binPredicate (pairs t1.m_root) ∧
      t1.m_size = count t1.m_root := by
  obtain ⟨J, hJ1, hJ2, hJ3⟩ := @exists_linearOrder K V _ t.m_binPredicate hp
  subst hJ3
  obtain ⟨t1, e1, e2, e3, e4, e5⟩ :=
    @calls_invariant K V J cs t hJ1.symm hb ((hJ2 _).2 hs) hn
  exact ⟨t1, e1, e2.trans hJ1, e3, (hJ2 _).1 e4, e5⟩

/-- The pairs of a list in search order after the removal of a key. -/
theorem mem_delList_comparator [DecidableEq K] (pred : K → K → Bool)
    (hp : StrictTotalOrder pred) (k : K) (l : List (K × V)) (hs : SortedBy pred l)
    (k1 : K) (w1 : V) : (k1, w1) ∈ delList k l ↔ ((k1, w1) ∈ l ∧ k1 ≠ k) := by
  obtain ⟨J, _, hJ2, hJ3⟩ := @exists_linearOrder K V _ pred hp
  subst hJ3
  have hsJ := (hJ2 l).2 hs
  constructor
  · intro h
    exact @mem_delList K V J k _ hsJ (k1, w1) h
  · rintro ⟨h, hne⟩
    have h1 := lookup_eq_some_of_mem pred hp.1 k1 w1 _ hs h
    apply mem_of_lookup_eq_some
    rw [@lookup_delList K V J k _ hsJ k1, if_neg hne]
    exact h1

/-- The tree `scenarioGreater` is what the calls build. -/
theorem scenarioGreater_built :
    calls { (empty : AvlTree Nat Nat) with m_binPredicate := greater }
        [.insert true 1 10, .insert true 2 20, .insert true 3 30] = some scenarioGreater := by
  rfl

-- (end of the AvlTree lemmas)

/-- C1: `AvlTree.insert` preserves the height-balance invariant.  For every tree whose
nodes all have subtree heights differing by at most 1 and a stored balance factor equal to
the sign of height(left) - height(right), and for every key, value and allocation outcome,
`insert` returns and the tree after it satisfies both conditions at every node again. -/
theorem insert_preserves_height_balance [DecidableEq K] (t : AvlTree K V) (alloc : Bool)
    (key : K) (value : V) (h : HeightBalanced t.m_root) :
    ∃ t1 ret, insert t alloc key value = some (t1, ret) ∧ HeightBalanced t1.m_root := by
  obtain ⟨o, ho, hb, _, _⟩ :=
    avl_insert_balanced t.m_binPredicate alloc key value t.m_root t.m_size h
  refine ⟨{ t with m_root := o.subRoot, m_size := o.m_size }, o.newNode, ?_, hb⟩
  simp only [insert, ho]

theorem insert_preserves_height_balance_witness :
    HeightBalanced scenarioTree.m_root ∧
      ∃ t1 ret, insert scenarioTree true 350 8 = some (t1, ret) ∧ HeightBalanced t1.m_root :=
  ⟨by decide, insert_preserves_height_balance scenarioTree true 350 8 (by decide)⟩

/-- C2: `AvlTree.remove` preserves the height-balance invariant.  For every tree whose
nodes all have subtree heights differing by at most 1 and a stored balance factor equal to
the sign of height(left) - height(right), and for every key (present or absent), `remove`
returns and the tree after it satisfies both conditions at every node again. -/
theorem remove_preserves_height_balance [DecidableEq K] (t : AvlTree K V) (key : K)
    (h : HeightBalanced t.m_root) :
    ∃ t1, remove t key = some t1 ∧ HeightBalanced t1.m_root := by
  obtain ⟨o, ho, hb, _⟩ := avl_delete_balanced t.m_binPredicate key t.m_root t.m_size h
  refine ⟨{ t with m_root := o.subRoot, m_size := o.m_size }, ?_, hb⟩
  simp only [remove, ho]

theorem remove_preserves_height_balance_witness :
    HeightBalanced scenarioTree.m_root ∧
      ∃ t1, remove scenarioTree 500 = some t1 ∧ HeightBalanced t1.m_root :=
  ⟨by decide, remove_preserves_height_balance scenarioTree 500 (by decide)⟩

/-- C5: AvlTree keeps the search order.  For every sequence of `insert` and `remove` calls
applied to an empty AvlTree with the default `less` comparator, every call returns and the
symmetric-order (in-order) listing of the resulting tree has strictly increasing keys. -/
theorem calls_keep_search_order [LinearOrder K] (cs : List (Call K V)) :
    ∃ t, calls (empty : AvlTree K V) cs = some t ∧
      List.Pairwise (fun a b => a < b) ((pairs t.m_root).map Prod.fst) := by
  obtain ⟨t, h1, _, _, h4, _⟩ :=
    calls_invariant cs (empty : AvlTree K V) rfl trivial List.Pairwise.nil rfl
  exact ⟨t, h1, List.pairwise_map.2 h4⟩

/-- C7 (amended): `AvlTree.insert` of a new key.  For every height-balanced tree in
search order by its comparator (any strict total order of the keys), every key `k` that is
not stored in it and every value `v`: when the node allocation succeeds, `insert(k, v)`
returns true, `size()` grows by exactly 1, `k` is afterwards stored with the value `v` and
no other, every pair stored before is still stored, the stored pairs are those before and
`(k, v)`, and the tree is height-balanced and in search order again; when the allocation
returns null, `insert(k, v)` returns false and leaves the tree as it was.  The stored pairs
are those of the in-order walk; with the comparator `less` they are what `avl_find`
locates, before and after the call. -/
theorem insert_new_key [LinearOrder K] (t : AvlTree K V) (k : K) (v : V)
    (hp : StrictTotalOrder t.m_binPredicate) (hb : HeightBalanced t.m_root)
    (hs : SortedBy t.m_binPredicate (pairs t.m_root)) (hk : ∀ w, (k, w) ∉ pairs t.m_root) :
    (∃ t1, insert t true k v = some (t1, true) ∧ t1.m_size = t.m_size + 1 ∧
      (k, v) ∈ pairs t1.m_root ∧ (∀ w, (k, w) ∈ pairs t1.m_root → w = v) ∧
      (∀ p ∈ pairs t.m_root, p ∈ pairs t1.m_root) ∧
      (pairs t1.m_root).Perm ((k, v) :: pairs t.m_root) ∧
      HeightBalanced t1.m_root ∧ SortedBy t.m_binPredicate (pairs t1.m_root) ∧
      (t.m_binPredicate = less → ∀ k1 w1,
        (avl_find k1 t.m_root = some w1 ↔ (k1, w1) ∈ pairs t.m_root) ∧
        (avl_find k1 t1.m_root = some w1 ↔ (k1, w1) ∈ pairs t1.m_root))) ∧
    insert t false k v = some (t, false) := by
  have hl : lookup k (pairs t.m_root) = none := lookup_eq_none_of_not_mem k _ hk
  constructor
  · obtain ⟨t1, ret, e1, e2, e3, e4, e5, e6, _⟩ := insert_spec_comparator t true k v hp hb hs
    have hr : ret = true := by rw [e5, hl]; rfl
    subst hr
    obtain ⟨g1, g2⟩ := e6 rfl
    refine ⟨t1, e1, g2, g1.mem_iff.2 (List.mem_cons_self _ _), ?_, ?_, g1, e3, e4, ?_⟩
    · intro w hw
      exact sortedBy_unique _ hp.1 _ e4 k w v hw (g1.mem_iff.2 (List.mem_cons_self _ _))
    · intro p hp1
      exact g1.mem_iff.2 (List.mem_cons_of_mem _ hp1)
    · intro hc k1 w1
      rw [hc] at hs e4
      exact ⟨avl_find_iff_mem _ hs k1 w1, avl_find_iff_mem _ e4 k1 w1⟩
  · obtain ⟨t1, ret, e1, _, _, _, e5, _, e7⟩ := insert_spec_comparator t false k v hp hb hs
    have hr : ret = false := by rw [e5]; rfl
    subst hr
    obtain ⟨g1, g2⟩ := e7 rfl
    rw [e1]
    simp only [insert] at e1
    cases ha : avl_insert t.m_binPredicate false k v t.m_root t.m_size with
    | none => simp [ha] at e1
    | some o =>
      simp only [ha, Option.some.injEq, Prod.mk.injEq] at e1
      rw [← e1.1] at g1 g2 ⊢
      simp only at g1 g2
      cases t with
      | mk sz root pred tf =>
        simp only at g1 g2 ⊢
        rw [g1, g2]

theorem insert_new_key_witness :
    StrictTotalOrder scenarioGreater.m_binPredicate ∧
      HeightBalanced scenarioGreater.m_root ∧
      SortedBy scenarioGreater.m_binPredicate (pairs scenarioGreater.m_root) ∧
      (∀ w, (4, w) ∉ pairs scenarioGreater.m_root) ∧
      (∃ t1, insert scenarioGreater true 4 40 = some (t1, true) ∧
        t1.m_size = scenarioGreater.m_size + 1 ∧
        (4, 40) ∈ pairs t1.m_root ∧ (∀ w, (4, w) ∈ pairs t1.m_root → w = 40) ∧
        (∀ p ∈ pairs scenarioGreater.m_root, p ∈ pairs t1.m_root) ∧
        (pairs t1.m_root).Perm ((4, 40) :: pairs scenarioGreater.m_root) ∧
        HeightBalanced t1.m_root ∧
        SortedBy scenarioGreater.m_binPredicate (pairs t1.m_root) ∧
        (scenarioGreater.m_binPredicate = less → ∀ k1 w1,
          (avl_find k1 scenarioGreater.m_root = some w1 ↔
            (k1, w1) ∈ pairs scenarioGreater.m_root) ∧
          (avl_find k1 t1.m_root = some w1 ↔ (k1, w1) ∈ pairs t1.m_root))) ∧
      insert scenarioGreater false 4 40 = some (scenarioGreater, false) :=
  have h1 : StrictTotalOrder scenarioGreater.m_binPredicate := strictTotalOrder_greater
  have h2 : HeightBalanced scenarioGreater.m_root := by decide
  have h3 : SortedBy scenarioGreater.m_binPredicate (pairs scenarioGreater.m_root) := by
    simp [SortedBy, scenarioGreater, pairs, greater]
  have h4 : ∀ w, (4, w) ∉ pairs scenarioGreater.m_root := by
    simp [scenarioGreater, pairs]
  ⟨h1, h2, h3, h4, insert_new_key scenarioGreater 4 40 h1 h2 h3 h4⟩

/-- C7 as stated fails: when the allocator returns no node, `insert` of a key that is not
stored returns false. -/
theorem insert_new_key_alloc_failure :
    HeightBalanced (empty : AvlTree Nat Nat).m_root ∧
      avl_find 1 (empty : AvlTree Nat Nat).m_root = none ∧
      (match insert (empty : AvlTree Nat Nat) false 1 10 with
        | some r => r.2
        | none => true) = false :=
  ⟨by decide, by decide, by decide⟩

/-- C9: `AvlTree.remove` semantics.  For every valid AVL tree (its comparator any strict
total order of the keys, height-balanced, in search order by the comparator, `m_size` the
number of nodes) and every key `k`, `remove(k)` returns; if `k` is not stored the tree
(shape, keys, values, balance factors) and `size()` are unchanged; if `k` is stored,
afterwards `k` is no longer stored, every other key is stored exactly with the value it
had, and `size()` has decreased by exactly 1; the tree is valid again.  The stored pairs
are those of the in-order walk; with the comparator `less` they are what `avl_find`
locates, before and after the call. -/
theorem remove_semantics [LinearOrder K] (t : AvlTree K V) (k : K)
    (hp : StrictTotalOrder t.m_binPredicate) (hb : HeightBalanced t.m_root)
    (hs : SortedBy t.m_binPredicate (pairs t.m_root)) (hn : t.m_size = count t.m_root) :
    ∃ t1, remove t k = some t1 ∧
      ((∀ w, (k, w) ∉ pairs t.m_root) → t1 = t) ∧
      (∀ w, (k, w) ∈ pairs t.m_root →
        (∀ w1, (k, w1) ∉ pairs t1.m_root) ∧
        (∀ k1 w1, k1 ≠ k → ((k1, w1) ∈ pairs t1.m_root ↔ (k1, w1) ∈ pairs t.m_root)) ∧
        t1.m_size + 1 = t.m_size) ∧
      HeightBalanced t1.m_root ∧ SortedBy t.m_binPredicate (pairs t1.m_root) ∧
      t1.m_size = count t1.m_root ∧
      (t.m_binPredicate = less → ∀ k1 w1,
        (avl_find k1 t.m_root = some w1 ↔ (k1, w1) ∈ pairs t.m_root) ∧
        (avl_find k1 t1.m_root = some w1 ↔ (k1, w1) ∈ pairs t1.m_root)) := by
  obtain ⟨t1, e1, e2, e3, e4, e5, e6, e7⟩ := remove_spec_comparator t k hp hb hs
  obtain ⟨t1', c1, _, _, _, c5⟩ :=
    calls_invariant_comparator [Call.remove k] t hp hb hs hn
  have ec : t1' = t1 := by
    simp only [calls, call, e1, Option.some.injEq] at c1
    exact c1.symm
  subst ec
  have hmem : ∀ k1 w1, (k1, w1) ∈ pairs t1'.m_root ↔ ((k1, w1) ∈ pairs t.m_root ∧ k1 ≠ k) := by
    intro k1 w1
    rw [e5]
    exact mem_delList_comparator _ hp k _ hs k1 w1
  refine ⟨t1', e1, ?_, ?_, e3, e4, c5, ?_⟩
  · intro hk
    exact e7 (lookup_eq_none_of_not_mem k _ hk)
  · intro w hw
    refine ⟨fun w1 h1 => ((hmem k w1).1 h1).2 rfl, ?_, ?_⟩
    · intro k1 w1 hne
      rw [hmem k1 w1]
      exact ⟨fun h => h.1, fun h => ⟨h, hne⟩⟩
    · have hl := lookup_eq_some_of_mem _ hp.1 k w _ hs hw
      rw [e6, hl]
      simp only [Option.isSome_some, ↓reduceIte]
      have hpos : 0 < count t.m_root := by
        rw [count_eq_length_pairs]
        exact List.length_pos_of_mem hw
      omega
  · intro hc k1 w1
    rw [hc] at hs e4
    exact ⟨avl_find_iff_mem _ hs k1 w1, avl_find_iff_mem _ e4 k1 w1⟩

theorem remove_semantics_witness :
    StrictTotalOrder scenarioGreater.m_binPredicate ∧
      HeightBalanced scenarioGreater.m_root ∧
      SortedBy scenarioGreater.m_binPredicate (pairs scenarioGreater.m_root) ∧
      scenarioGreater.m_size = count scenarioGreater.m_root ∧
      (3, 30) ∈ pairs scenarioGreater.m_root ∧
      ∃ t1, remove scenarioGreater 3 = some t1 ∧
        ((∀ w, (3, w) ∉ pairs scenarioGreater.m_root) → t1 = scenarioGreater) ∧
        (∀ w, (3, w) ∈ pairs scenarioGreater.m_root →
          (∀ w1, (3, w1) ∉ pairs t1.m_root) ∧
          (∀ k1 w1, k1 ≠ 3 →
            ((k1, w1) ∈ pairs t1.m_root ↔ (k1, w1) ∈ pairs scenarioGreater.m_root)) ∧
          t1.m_size + 1 = scenarioGreater.m_size) ∧
        HeightBalanced t1.m_root ∧
        SortedBy scenarioGreater.m_binPredicate (pairs t1.m_root) ∧
        t1.m_size = count t1.m_root ∧
        (scenarioGreater.m_binPredicate = less → ∀ k1 w1,
          (avl_find k1 scenarioGreater.m_root = some w1 ↔
            (k1, w1) ∈ pairs scenarioGreater.m_root) ∧
          (avl_find k1 t1.m_root = some w1 ↔ (k1, w1) ∈ pairs t1.m_root)) :=
  have h1 : StrictTotalOrder scenarioGreater.m_binPredicate := strictTotalOrder_greater
  have h2 : HeightBalanced scenarioGreater.m_root := by decide
  have h3 : SortedBy scenarioGreater.m_binPredicate (pairs scenarioGreater.m_root) := by
    simp [SortedBy, scenarioGreater, pairs, greater]
  have h4 : scenarioGreater.m_size = count scenarioGreater.m_root := by decide
  ⟨h1, h2, h3, h4, by simp [scenarioGreater, pairs],
    remove_semantics scenarioGreater 3 h1 h2 h3 h4⟩

/-- C11: AvlTree rejects duplicates without mutation.  For every tree in search order by
its comparator (any strict total order of the keys) and every key `k` stored in it,
`insert(k, v)` returns false for every value `v` and every allocation outcome, and the tree
(shape, keys, stored values, balance factors) and `size()` are unchanged.  The stored pairs
are those of the in-order walk; with the comparator `less` they are what `avl_find`
locates. -/
theorem insert_duplicate_no_mutation [LinearOrder K] (t : AvlTree K V) (k : K) (w : V)
    (hp : StrictTotalOrder t.m_binPredicate)
    (hs : SortedBy t.m_binPredicate (pairs t.m_root)) (hk : (k, w) ∈ pairs t.m_root) :
    (∀ (alloc : Bool) (v : V), insert t alloc k v = some (t, false)) ∧
      (t.m_binPredicate = less → ∀ k1 w1,
        (avl_find k1 t.m_root = some w1 ↔ (k1, w1) ∈ pairs t.m_root)) := by
  refine ⟨fun alloc v => insert_duplicate_comparator t k w hp hs hk alloc v, ?_⟩
  intro hc k1 w1
  rw [hc] at hs
  exact avl_find_iff_mem _ hs k1 w1

theorem insert_duplicate_no_mutation_witness :
    StrictTotalOrder scenarioGreater.m_binPredicate ∧
      SortedBy scenarioGreater.m_binPredicate (pairs scenarioGreater.m_root) ∧
      (1, 10) ∈ pairs scenarioGreater.m_root ∧
      (∀ (alloc : Bool) (v : Nat),
        insert scenarioGreater alloc 1 v = some (scenarioGreater, false)) ∧
      (scenarioGreater.m_binPredicate = less → ∀ k1 w1,
        (avl_find k1 scenarioGreater.m_root = some w1 ↔
          (k1, w1) ∈ pairs scenarioGreater.m_root)) :=
  have h1 : StrictTotalOrder scenarioGreater.m_binPredicate := strictTotalOrder_greater
  have h3 : SortedBy scenarioGreater.m_binPredicate (pairs scenarioGreater.m_root) := by
    simp [SortedBy, scenarioGreater, pairs, greater]
  have h5 : (1, 10) ∈ pairs scenarioGreater.m_root := by simp [scenarioGreater, pairs]
  ⟨h1, h3, h5, insert_duplicate_no_mutation scenarioGreater 1 10 h1 h3 h5⟩

/-- C13: a failing input of `find`.  On the empty tree, and on the tree of the unit test
for the absent key 1, `avl_find` returns `nullptr`; the pointer-returning `find` then
evaluates `&(nullptr->value())` instead of returning `nullptr`, and `find(key, out)`,
which calls it, does not return false either. -/
theorem find_absent_dereferences_null :
    avl_find 1 (empty : AvlTree Nat Nat).m_root = none ∧
      find (empty : AvlTree Nat Nat) 1 = none ∧
      find_out (empty : AvlTree Nat Nat) 1 0 = none ∧
      avl_find 1 scenarioTree.m_root = none ∧
      find scenarioTree 1 = none ∧ find_out scenarioTree 1 0 = none :=
  ⟨by decide, by decide, by decide, by decide, by decide, by decide⟩

/-- C14: a failing input of `find` under the comparator `greater`.  `insert(1, 10)` and
`insert(2, 20)` both return true and `avl_insert`, descending with `m_binPredicate`,
places 2 in the left subtree of 1; `avl_find(2)`, descending with `<`, goes right and
returns `nullptr`. -/
theorem find_ignores_comparator :
    ∃ t1 t2 : AvlTree Nat Nat,
      insert { (empty : AvlTree Nat Nat) with m_binPredicate := greater } true 1 10 =
        some (t1, true) ∧
      insert t1 true 2 20 = some (t2, true) ∧
      t2.m_root = node (node nil 2 20 EqualHeight nil) 1 10 LeftHigher nil ∧
      avl_find 2 t2.m_root = none ∧ find t2 2 = none :=
  ⟨_, _, rfl, rfl, rfl, by decide, by decide⟩

/-- C16: the insert-all/remove-all round trip, and where it fails.  For every finite list
of pairs with pairwise distinct keys and every permutation of its keys, inserting all the
pairs into an empty AvlTree and then removing the keys in the permuted order returns and
leaves the root null and `size() == 0`, and `avl_find` returns `nullptr` for every key.
The public `find(key)` then evaluates `&(nullptr->value())` instead of reporting the
failure: for every key neither it nor `find(key, out)` returns. -/
theorem insert_all_remove_all [LinearOrder K] (kvs : List (K × V)) (perm : List K)
    (_hd : (kvs.map Prod.fst).Nodup) (hp : perm.Perm (kvs.map Prod.fst)) :
    ∃ t, calls (empty : AvlTree K V)
        (kvs.map (fun kv => Call.insert true kv.1 kv.2) ++ perm.map Call.remove) = some t ∧
      t.m_root = nil ∧ t.m_size = 0 ∧ (∀ k, avl_find k t.m_root = none) ∧
      (∀ k, find t k = none) ∧ (∀ k out, find_out t k out = none) := by
  obtain ⟨t1, h1, h2, h3, h4, h5, h6⟩ :=
    inserts_invariant kvs (empty : AvlTree K V) rfl trivial List.Pairwise.nil rfl
  obtain ⟨t2, g1, g2, g3, g4, g5, g6⟩ := removes_invariant perm t1 h2 h3 h4 h5
  have hnil : pairs t2.m_root = [] := by
    apply List.eq_nil_iff_forall_not_mem.2
    intro p hp2
    obtain ⟨e1, e2⟩ := g6 p hp2
    rcases h6 p e1 with e3 | e3
    · simp [empty, pairs] at e3
    · exact e2 (hp.mem_iff.2 e3)
  have hroot := pairs_eq_nil t2.m_root hnil
  refine ⟨t2, by rw [calls_append, h1]; exact g1, hroot, ?_, ?_, ?_, ?_⟩
  · rw [g5, hroot]; rfl
  · intro k; rw [hroot]; rfl
  · intro k; simp only [find, hroot, avl_find]
  · intro k out; simp only [find_out, find, hroot, avl_find]

theorem insert_all_remove_all_witness :
    ([(5, 50), (3, 30), (8, 80), (1, 10)].map Prod.fst).Nodup ∧
      ([3, 1, 8, 5] : List Nat).Perm ([(5, 50), (3, 30), (8, 80), (1, 10)].map Prod.fst) ∧
      ∃ t, calls (empty : AvlTree Nat Nat)
          ([(5, 50), (3, 30), (8, 80), (1, 10)].map (fun kv => Call.insert true kv.1 kv.2) ++
            [3, 1, 8, 5].map Call.remove) = some t ∧
        t.m_root = nil ∧ t.m_size = 0 ∧ (∀ k, avl_find k t.m_root = none) ∧
        (∀ k, find t k = none) ∧ (∀ k out, find_out t k out = none) :=
  ⟨by decide, by decide,
    insert_all_remove_all [(5, 50), (3, 30), (8, 80), (1, 10)] [3, 1, 8, 5] (by decide)
      (by decide)⟩

/-- C29: `AvlTree::traverse` visits in the conventional orders.  For every tree with a
non-null root, `traverse` returns, and the sequence of pairs it passes to the callback is
self, left subtree, right subtree after `setPreOrderTraversal()`, left, self, right after
`setInOrderTraversal()` and left, right, self after `setPostOrderTraversal()`, applied
recursively; whatever the mode, the sequence is a rearrangement of the stored pairs, one
visit per node; and the default constructor selects the pre-order mode. -/
theorem traverse_conventional_orders [LinearOrder K] (t : AvlTree K V) (h : t.m_root ≠ nil) :
    traverse (setPreOrderTraversal t) = some (conventionalPreorder t.m_root) ∧
      traverse (setInOrderTraversal t) = some (conventionalInorder t.m_root) ∧
      traverse (setPostOrderTraversal t) = some (conventionalPostorder t.m_root) ∧
      (∃ visited, traverse t = some visited ∧ visited.Perm (pairs t.m_root) ∧
        visited.length = count t.m_root) ∧
      (empty : AvlTree K V).m_traversalFunc = TraversalFunc.preorder := by
  refine ⟨?_, ?_, ?_, ?_, rfl⟩
  · simp only [traverse, setPreOrderTraversal]
    exact preorder_eq_conventional _ h
  · simp only [traverse, setInOrderTraversal]
    exact inorder_eq_conventional _ h
  · simp only [traverse, setPostOrderTraversal]
    exact postorder_eq_conventional _ h
  · cases hm : t.m_traversalFunc with
    | preorder =>
      refine ⟨_, by simp only [traverse, hm]; exact preorder_eq_conventional _ h,
        conventionalPreorder_perm_pairs _, ?_⟩
      rw [count_eq_length_pairs]
      exact List.Perm.length_eq (conventionalPreorder_perm_pairs _)
    | postorder =>
      refine ⟨_, by simp only [traverse, hm]; exact postorder_eq_conventional _ h,
        conventionalPostorder_perm_pairs _, ?_⟩
      rw [count_eq_length_pairs]
      exact List.Perm.length_eq (conventionalPostorder_perm_pairs _)
    | inorder =>
      refine ⟨_, by simp only [traverse, hm]; exact inorder_eq_conventional _ h, ?_, ?_⟩
      · rw [conventionalInorder_eq_pairs]
      · rw [count_eq_length_pairs, conventionalInorder_eq_pairs]

theorem traverse_conventional_orders_witness :
    scenarioTree.m_root ≠ nil ∧
      traverse (setPreOrderTraversal scenarioTree) =
        some (conventionalPreorder scenarioTree.m_root) ∧
      traverse (setInOrderTraversal scenarioTree) =
        some (conventionalInorder scenarioTree.m_root) ∧
      traverse (setPostOrderTraversal scenarioTree) =
        some (conventionalPostorder scenarioTree.m_root) ∧
      (∃ visited, traverse scenarioTree = some visited ∧
        visited.Perm (pairs scenarioTree.m_root) ∧
        visited.length = count scenarioTree.m_root) ∧
      (empty : AvlTree Nat Nat).m_traversalFunc = TraversalFunc.preorder :=
  ⟨by decide, traverse_conventional_orders scenarioTree (by decide)⟩

/-- C28: AvlTree serialization round trip.  For every tree `t` built by `insert` and
`remove` calls from the empty tree whose root is not null, `serializeList(list, true)`
on an empty list returns and fills the list with the pre-order entries of `t`, each with
the key, the value and the balance factor of its node; `serializeList(list, false)` on an
empty tree, every allocation returning a node, then yields a tree with the root of `t`
(same shape, keys, values and balance factors) and the size of `t`: it is `t` itself. -/
theorem serialization_round_trip [LinearOrder K] (cs : List (Call K V)) (t : AvlTree K V)
    (alloc : Nat → Bool)
    (hc : calls (empty : AvlTree K V) cs = some t) (hne : t.m_root ≠ nil) :
    ∃ t1, serializeList t alloc [] true = some (t, preorderEntries t.m_root) ∧
      serializeList (empty : AvlTree K V) (fun _ => true) (preorderEntries t.m_root) false
        = some (t1, preorderEntries t.m_root) ∧
      t1.m_root = t.m_root ∧ t1.m_size = t.m_size ∧ t1 = t := by
  obtain ⟨t', h1, h2, h3, h4, h5⟩ :=
    calls_invariant cs (empty : AvlTree K V) rfl trivial List.Pairwise.nil rfl
  rw [hc, Option.some.injEq] at h1
  subst h1
  have htf := calls_traversalFunc cs _ _ hc
  have hrt := from_list_preorderEntries t.m_root 0 h4
  refine ⟨_, ?_, rfl, ?_, ?_, ?_⟩
  · simp only [serializeList, ↓reduceIte, avl_serialize_to_list_eq _ hne, List.nil_append]
  · show (avl_serialize_from_list less (fun _ => true) (preorderEntries t.m_root) nil 0).1 = _
    rw [hrt]
  · show (avl_serialize_from_list less (fun _ => true) (preorderEntries t.m_root) nil 0).2 = _
    rw [hrt, h5]; simp
  · cases t with
    | mk sz root pred tf =>
      simp only at h2 h5 htf hrt ⊢
      subst h2 h5
      simp only [empty] at htf ⊢
      subst htf
      simp only [hrt, Nat.zero_add]

theorem serialization_round_trip_witness :
    calls (empty : AvlTree Nat Nat) scenarioCalls = some scenarioTree ∧
      scenarioTree.m_root ≠ nil ∧
      ∃ t1, serializeList scenarioTree (fun _ => false) [] true
          = some (scenarioTree, preorderEntries scenarioTree.m_root) ∧
        serializeList (empty : AvlTree Nat Nat) (fun _ => true)
            (preorderEntries scenarioTree.m_root) false
          = some (t1, preorderEntries scenarioTree.m_root) ∧
        t1.m_root = scenarioTree.m_root ∧ t1.m_size = scenarioTree.m_size ∧
        t1 = scenarioTree :=
  ⟨rfl, by decide,
    serialization_round_trip scenarioCalls scenarioTree (fun _ => false) rfl (by decide)⟩

/-- C27 as stated fails: the write direction of `serializeList` is not the normal
insertion.  From the entries with the keys 1, 2, 3, all stored as `EqualHeight`, it builds
the chain 1, 2, 3 down the right branches, where `insert` rotates and makes 2 the root;
and from the single entry with the key 1 stored as `LeftHigher` it builds a root marked
`LeftHigher`, where `insert` marks it `EqualHeight`: the stored balance factor reaches
the tree. -/
theorem serialize_write_is_not_insert :
    serializeList (empty : AvlTree Nat Nat) (fun _ => true)
        [⟨(1, 10), EqualHeight⟩, ⟨(2, 20), EqualHeight⟩, ⟨(3, 30), EqualHeight⟩] false
      = some ({ m_size := 3
                m_root := node nil 1 10 EqualHeight
                  (node nil 2 20 EqualHeight (node nil 3 30 EqualHeight nil))
                m_binPredicate := less, m_traversalFunc := .preorder },
          [⟨(1, 10), EqualHeight⟩, ⟨(2, 20), EqualHeight⟩, ⟨(3, 30), EqualHeight⟩]) ∧
    calls (empty : AvlTree Nat Nat)
        [.insert true 1 10, .insert true 2 20, .insert true 3 30]
      = some { m_size := 3
               m_root := node (node nil 1 10 EqualHeight nil) 2 20 EqualHeight
                 (node nil 3 30 EqualHeight nil)
               m_binPredicate := less, m_traversalFunc := .preorder } ∧
    serializeList (empty : AvlTree Nat Nat) (fun _ => true) [⟨(1, 10), LeftHigher⟩] false
      = some ({ m_size := 1, m_root := node nil 1 10 LeftHigher nil
                m_binPredicate := less, m_traversalFunc := .preorder },
          [⟨(1, 10), LeftHigher⟩]) ∧
    calls (empty : AvlTree Nat Nat) [.insert true 1 10]
      = some { m_size := 1, m_root := node nil 1 10 EqualHeight nil
               m_binPredicate := less, m_traversalFunc := .preorder } ∧
    (node nil 1 10 EqualHeight (node nil 2 20 EqualHeight (node nil 3 30 EqualHeight nil)) :
        AvlTreeNode Nat Nat)
      ≠ node (node nil 1 10 EqualHeight nil) 2 20 EqualHeight (node nil 3 30 EqualHeight nil) ∧
    (node nil 1 10 LeftHigher nil : AvlTreeNode Nat Nat) ≠ node nil 1 10 EqualHeight nil :=
  ⟨rfl, rfl, rfl, rfl, by decide, by decide⟩

/-- C27 (amended): the write direction of `serializeList` is a plain search-tree
insertion.  For every list of entries with pairwise distinct keys, `serializeList(list,
false)` on an empty tree, every allocation returning a node, and the `insert` calls for
the keys and values of the entries in list order both return, and the two trees have
the same in-order sequence of keys and values and the same size, the length of the list.
The nodes of the rebuilt tree are the list entries, each with the balance factor stored
in its entry, and the first entry stays the root: nothing is rotated. -/
theorem serialize_write_plain_insertion [LinearOrder K] (list : List (SerializableType K V))
    (hd : (list.map (fun e => e.m_pair.1)).Nodup) :
    ∃ t1 t2, serializeList (empty : AvlTree K V) (fun _ => true) list false = some (t1, list) ∧
      calls (empty : AvlTree K V)
        (list.map (fun e => Call.insert true e.m_pair.1 e.m_pair.2)) = some t2 ∧
      pairs t1.m_root = pairs t2.m_root ∧ SortedKeys (pairs t1.m_root) ∧
      t1.m_size = t2.m_size ∧ t1.m_size = list.length ∧
      (preorderEntries t1.m_root).Perm list ∧
      (∀ e rest, list = e :: rest →
        ∃ l r, t1.m_root = node l e.m_pair.1 e.m_pair.2 e.m_balanceFactor r) := by
  obtain ⟨t2, h1, h2, h3, _, h5⟩ :=
    from_list_pairs_eq_inserts list nil (empty : AvlTree K V) rfl trivial List.Pairwise.nil
      rfl rfl hd (fun p hp => by simp [pairs] at hp)
  obtain ⟨g1, g2⟩ := from_list_entries (less : K → K → Bool) list nil 0
  refine ⟨_, t2, rfl, h1, h2, ?_, h3, ?_, ?_, ?_⟩
  · show SortedKeys (pairs (avl_serialize_from_list less (fun _ => true) list nil 0).1)
    have := h2
    simp only [empty] at this
    rw [this]; exact h5
  · show (avl_serialize_from_list less (fun _ => true) list nil 0).2 = _
    rw [g2]; simp
  · show (preorderEntries (avl_serialize_from_list less (fun _ => true) list nil 0).1).Perm _
    refine g1.trans ?_
    simp only [preorderEntries, List.append_nil]
    exact List.reverse_perm list
  · intro e rest he
    subst he
    show ∃ l r, (avl_serialize_from_list less (fun _ => true) (e :: rest) nil 0).1 = _
    simp only [avl_serialize_from_list, avl_serialize_insert, ↓reduceIte]
    exact from_list_root _ _ _ _ _ _ _ _ _

theorem serialize_write_plain_insertion_witness :
    (([⟨(1, 10), EqualHeight⟩, ⟨(2, 20), EqualHeight⟩, ⟨(3, 30), EqualHeight⟩] :
        List (SerializableType Nat Nat)).map (fun e => e.m_pair.1)).Nodup ∧
      ∃ t1 t2, serializeList (empty : AvlTree Nat Nat) (fun _ => true)
          [⟨(1, 10), EqualHeight⟩, ⟨(2, 20), EqualHeight⟩, ⟨(3, 30), EqualHeight⟩] false
          = some (t1, [⟨(1, 10), EqualHeight⟩, ⟨(2, 20), EqualHeight⟩,
              ⟨(3, 30), EqualHeight⟩]) ∧
        calls (empty : AvlTree Nat Nat)
          (([⟨(1, 10), EqualHeight⟩, ⟨(2, 20), EqualHeight⟩, ⟨(3, 30), EqualHeight⟩] :
            List (SerializableType Nat Nat)).map
              (fun e => Call.insert true e.m_pair.1 e.m_pair.2)) = some t2 ∧
        pairs t1.m_root = pairs t2.m_root ∧ SortedKeys (pairs t1.m_root) ∧
        t1.m_size = t2.m_size ∧
        t1.m_size = ([⟨(1, 10), EqualHeight⟩, ⟨(2, 20), EqualHeight⟩,
          ⟨(3, 30), EqualHeight⟩] : List (SerializableType Nat Nat)).length ∧
        (preorderEntries t1.m_root).Perm
          [⟨(1, 10), EqualHeight⟩, ⟨(2, 20), EqualHeight⟩, ⟨(3, 30), EqualHeight⟩] ∧
        (∀ e rest, ([⟨(1, 10), EqualHeight⟩, ⟨(2, 20), EqualHeight⟩,
            ⟨(3, 30), EqualHeight⟩] : List (SerializableType Nat Nat)) = e :: rest →
          ∃ l r, t1.m_root = node l e.m_pair.1 e.m_pair.2 e.m_balanceFactor r) :=
  ⟨by decide, serialize_write_plain_insertion _ (by decide)⟩

/-- C30: the concrete AVL scenario.  Inserting the keys 500, 400, 600, 300, 450, 550, 700
in that order into an empty AvlTree, with any values, gives a tree of 7 nodes whose root
holds the key 500, and `find(450)` yields the value inserted with 450; removing 700 and
then 600 returns a tree of 5 nodes that satisfies the height-balance invariant, balance
factors included, and `find(450)` still yields that value. -/
theorem scenario_500_root_and_removals (v500 v400 v600 v300 v450 v550 v700 : V) :
    ∃ l r : AvlTreeNode Nat V, ∃ b : BalanceFactor, ∃ t2 : AvlTree Nat V,
      calls empty [.insert true 500 v500, .insert true 400 v400, .insert true 600 v600,
        .insert true 300 v300, .insert true 450 v450, .insert true 550 v550,
        .insert true 700 v700]
        = some { m_size := 7, m_root := node l 500 v500 b r, m_binPredicate := less,
                 m_traversalFunc := .preorder } ∧
      find { m_size := 7, m_root := node l 500 v500 b r, m_binPredicate := less,
             m_traversalFunc := .preorder } 450 = some (some v450) ∧
      calls { m_size := 7, m_root := node l 500 v500 b r, m_binPredicate := less,
              m_traversalFunc := .preorder } [.remove 700, .remove 600] = some t2 ∧
      HeightBalanced t2.m_root ∧
      t2.m_size = 5 ∧
      find t2 450 = some (some v450) := by
  refine ⟨node (node nil 300 v300 EqualHeight nil) 400 v400 EqualHeight
            (node nil 450 v450 EqualHeight nil),
          node (node nil 550 v550 EqualHeight nil) 600 v600 EqualHeight
            (node nil 700 v700 EqualHeight nil), EqualHeight,
          { m_size := 5
            m_root := node (node (node nil 300 v300 EqualHeight nil) 400 v400 EqualHeight
                (node nil 450 v450 EqualHeight nil)) 500 v500 LeftHigher
                (node nil 550 v550 EqualHeight nil)
            m_binPredicate := less, m_traversalFunc := .preorder }, ?_, ?_, ?_, ?_, ?_, ?_⟩
  · simp [calls, call, insert, avl_insert, empty, less, balance_left, balance_right]
  · simp [find, avl_find]
  · simp [calls, call, remove, avl_delete, less, delete_node, find_logical_predecessor,
      avl_delete_switch, balance_left, balance_right, rightmost]
  · simp [HeightBalanced, height, BalanceFactor.toInt]
  · rfl
  · simp [find, avl_find]

/-- C39: a failing input of the walks.  On every tree whose root is null, `traverse`
dereferences the root in each of the three order modes, and so does
`serializeList(list, true)`: none of them returns. -/
theorem walks_dereference_null_root (t : AvlTree K V) (alloc : Nat → Bool)
    (list : List (SerializableType K V)) (h : t.m_root = nil) :
    traverse (setPreOrderTraversal t) = none ∧
      traverse (setInOrderTraversal t) = none ∧
      traverse (setPostOrderTraversal t) = none ∧
      serializeList t alloc list true = none := by
  cases t with
  | mk sz root pred tf =>
    simp only at h
    subst h
    exact ⟨rfl, rfl, rfl, rfl⟩

theorem walks_dereference_null_root_witness :
    (empty : AvlTree Nat Nat).m_root = nil ∧
      traverse (setPreOrderTraversal (empty : AvlTree Nat Nat)) = none ∧
      traverse (setInOrderTraversal (empty : AvlTree Nat Nat)) = none ∧
      traverse (setPostOrderTraversal (empty : AvlTree Nat Nat)) = none ∧
      serializeList (empty : AvlTree Nat Nat) (fun _ => true) [] true = none :=
  ⟨rfl, walks_dereference_null_root empty (fun _ => true) [] rfl⟩

/-- C33: `avl_delete` reports height changes exactly.  For every height-balanced subtree
and every key, `avl_delete` returns a height-balanced subtree, and the flag `_shorter`
is true exactly when the height is one less than before the call and false exactly when
the height is unchanged.  In particular, in the closing switch: when the subtree got
shorter on the side where the root was lower by one, so that the other child is higher
by two, the switch rebalances with `balance_right` (`balance_left`), and the flag stays
true unless the balance factor of that taller child was `EqualHeight` before the
rotation, in which case the height of the subtree is what it was before the deletion. -/
theorem avl_delete_shorter_exact [DecidableEq K] (pred : K → K → Bool) (key : K)
    (t : AvlTreeNode K V) (sz : Nat) (h : HeightBalanced t) :
    (∃ o, avl_delete pred key t sz = some o ∧ HeightBalanced o.subRoot ∧
      (o.shorter = true ↔ height o.subRoot + 1 = height t) ∧
      (o.shorter = false ↔ height o.subRoot = height t)) ∧
    (∀ (l : AvlTreeNode K V) k v rl rk rv rb rr, HeightBalanced l →
      HeightBalanced (node rl rk rv rb rr) → height (node rl rk rv rb rr) = height l + 2 →
      ∃ t1, balance_right (node l k v RightHigher (node rl rk rv rb rr)) = some t1 ∧
        avl_delete_switch .EDir_LeftBranch (node l k v RightHigher (node rl rk rv rb rr)) true
          = some (t1, decide (rb ≠ EqualHeight)) ∧
        height t1 + (if rb = EqualHeight then 0 else 1) = height (node rl rk rv rb rr) + 1) ∧
    (∀ ll lk lv lb lr k v (r : AvlTreeNode K V), HeightBalanced (node ll lk lv lb lr) →
      HeightBalanced r → height (node ll lk lv lb lr) = height r + 2 →
      ∃ t1, balance_left (node (node ll lk lv lb lr) k v LeftHigher r) = some t1 ∧
        avl_delete_switch .EDir_RightBranch (node (node ll lk lv lb lr) k v LeftHigher r) true
          = some (t1, decide (lb ≠ EqualHeight)) ∧
        height t1 + (if lb = EqualHeight then 0 else 1) = height (node ll lk lv lb lr) + 1) := by
  refine ⟨?_, ?_, ?_⟩
  · obtain ⟨o, h1, h2, h3⟩ := avl_delete_balanced pred key t sz h
    refine ⟨o, h1, h2, ?_, ?_⟩
    · cases hs : o.shorter
      · rw [hs] at h3
        simp only [Bool.false_eq_true, ↓reduceIte, Nat.add_zero] at h3
        constructor
        · intro hf; exact absurd hf (by simp)
        · intro hf; omega
      · rw [hs] at h3
        simp only [↓reduceIte] at h3
        exact ⟨fun _ => h3.symm, fun _ => rfl⟩
    · cases hs : o.shorter
      · rw [hs] at h3
        simp only [Bool.false_eq_true, ↓reduceIte, Nat.add_zero] at h3
        exact ⟨fun _ => h3.symm, fun _ => rfl⟩
      · rw [hs] at h3
        simp only [↓reduceIte] at h3
        constructor
        · intro hf; exact absurd hf (by simp)
        · intro hf; omega
  · intro l k v rl rk rv rb rr hl hr hh
    obtain ⟨t1, g1, _, g3, _⟩ := balance_right_spec l k v RightHigher _ hl hr hh
    refine ⟨t1, g1, ?_, ?_⟩
    · simp only [avl_delete_switch, g1]
      cases rb <;> simp
    · rw [g3, hh]
      simp only [rootBalance]
      cases rb <;> simp
  · intro ll lk lv lb lr k v r hl hr hh
    obtain ⟨t1, g1, _, g3, _⟩ := balance_left_spec _ k v LeftHigher r hl hr hh
    refine ⟨t1, g1, ?_, ?_⟩
    · simp only [avl_delete_switch, g1]
      cases lb <;> simp
    · rw [g3, hh]
      simp only [rootBalance]
      cases lb <;> simp

theorem avl_delete_shorter_exact_witness :
    HeightBalanced scenarioTree.m_root ∧
      ∃ o, avl_delete less 700 scenarioTree.m_root 7 = some o ∧ HeightBalanced o.subRoot ∧
        (o.shorter = true ↔ height o.subRoot + 1 = height scenarioTree.m_root) ∧
        (o.shorter = false ↔ height o.subRoot = height scenarioTree.m_root) :=
  ⟨by decide, (avl_delete_shorter_exact less 700 scenarioTree.m_root 7 (by decide)).1⟩

/-- C34: during insertion the rebalanced child is never `EqualHeight`.  For every tree
whose root is height-balanced and every key, at every call of `balance_left`
(`balance_right`) that `insert` makes, the left (right) child of the subtree root
exists and its balance factor is not `EqualHeight`. -/
theorem insert_balance_child_not_equal [DecidableEq K] (t : AvlTree K V) (alloc : Bool)
    (key : K) (value : V) (h : HeightBalanced t.m_root) :
    ∀ c ∈ avl_insert_balance_calls t.m_binPredicate alloc key value t.m_root t.m_size,
      (c.1 = true → leftChild c.2 ≠ nil ∧ rootBalance (leftChild c.2) ≠ EqualHeight) ∧
      (c.1 = false → rightChild c.2 ≠ nil ∧ rootBalance (rightChild c.2) ≠ EqualHeight) := by
  intro c hc
  obtain ⟨h1, h2⟩ := balance_calls_shape t.m_binPredicate alloc key value t.m_root t.m_size h c hc
  constructor
  · intro e
    obtain ⟨g1, g2⟩ := h1 e
    refine ⟨g1, ?_⟩
    rcases g2 with g | ⟨g, _⟩ <;> rw [g] <;> simp
  · intro e
    obtain ⟨g1, g2⟩ := h2 e
    refine ⟨g1, ?_⟩
    rcases g2 with g | ⟨g, _⟩ <;> rw [g] <;> simp

theorem insert_balance_child_not_equal_witness :
    HeightBalanced scenarioLeftChain.m_root ∧
      avl_insert_balance_calls scenarioLeftChain.m_binPredicate true 1 10
          scenarioLeftChain.m_root scenarioLeftChain.m_size
        = [(true, node (node (node nil 1 10 EqualHeight nil) 2 20 LeftHigher nil) 3 30
            LeftHigher nil)] ∧
      ∀ c ∈ avl_insert_balance_calls scenarioLeftChain.m_binPredicate true 1 10
          scenarioLeftChain.m_root scenarioLeftChain.m_size,
        (c.1 = true → leftChild c.2 ≠ nil ∧ rootBalance (leftChild c.2) ≠ EqualHeight) ∧
        (c.1 = false → rightChild c.2 ≠ nil ∧ rootBalance (rightChild c.2) ≠ EqualHeight) :=
  ⟨by decide, by decide,
    insert_balance_child_not_equal scenarioLeftChain true 1 10 (by decide)⟩

/-- C35 as stated fails: inserting 2 into the tree with the root 3 and its left child 1
makes `insert` call `balance_left` on a subtree whose left child 1 is `RightHigher`, the
double-rotation case, and the grandchild, the node 2 just inserted, is `EqualHeight`. -/
theorem insert_double_rotation_equal_grandchild :
    HeightBalanced scenarioZigZag.m_root ∧
      avl_insert_balance_calls scenarioZigZag.m_binPredicate true 2 20
          scenarioZigZag.m_root scenarioZigZag.m_size
        = [(true, node (node nil 1 10 RightHigher (node nil 2 20 EqualHeight nil)) 3 30
            LeftHigher nil)] ∧
      (insert scenarioZigZag true 2 20).map (fun r => r.1.m_root)
        = some (node (node nil 1 10 EqualHeight nil) 2 20 EqualHeight
            (node nil 3 30 EqualHeight nil)) := by
  refine ⟨by decide, by decide, by decide⟩

/-- C35 (amended): in the double-rotation case of an insertion the grandchild is
`EqualHeight` only when it is the node just inserted.  For every tree whose root is
height-balanced and every key, at every call of `balance_left` (`balance_right`) that
`insert` makes with a `RightHigher` left child (`LeftHigher` right child), the
grandchild, the left child's right child (the right child's left child), is the leaf
just inserted or exists with a balance factor different from `EqualHeight`. -/
theorem insert_double_rotation_grandchild [DecidableEq K] (t : AvlTree K V) (alloc : Bool)
    (key : K) (value : V) (h : HeightBalanced t.m_root) :
    ∀ c ∈ avl_insert_balance_calls t.m_binPredicate alloc key value t.m_root t.m_size,
      (c.1 = true → rootBalance (leftChild c.2) = RightHigher →
        rightChild (leftChild c.2) = node nil key value EqualHeight nil ∨
          (rightChild (leftChild c.2) ≠ nil ∧
            rootBalance (rightChild (leftChild c.2)) ≠ EqualHeight)) ∧
      (c.1 = false → rootBalance (rightChild c.2) = LeftHigher →
        leftChild (rightChild c.2) = node nil key value EqualHeight nil ∨
          (leftChild (rightChild c.2) ≠ nil ∧
            rootBalance (leftChild (rightChild c.2)) ≠ EqualHeight)) := by
  intro c hc
  obtain ⟨h1, h2⟩ := balance_calls_shape t.m_binPredicate alloc key value t.m_root t.m_size h c hc
  constructor
  · intro e eb
    obtain ⟨_, g2⟩ := h1 e
    rcases g2 with g | ⟨_, g⟩
    · rw [g] at eb; simp at eb
    · exact g
  · intro e eb
    obtain ⟨_, g2⟩ := h2 e
    rcases g2 with g | ⟨_, g⟩
    · rw [g] at eb; simp at eb
    · exact g

theorem insert_double_rotation_grandchild_witness :
    HeightBalanced scenarioZigZag.m_root ∧
      ∀ c ∈ avl_insert_balance_calls scenarioZigZag.m_binPredicate true 2 20
          scenarioZigZag.m_root scenarioZigZag.m_size,
        (c.1 = true → rootBalance (leftChild c.2) = RightHigher →
          rightChild (leftChild c.2) = node nil 2 20 EqualHeight nil ∨
            (rightChild (leftChild c.2) ≠ nil ∧
              rootBalance (rightChild (leftChild c.2)) ≠ EqualHeight)) ∧
        (c.1 = false → rootBalance (rightChild c.2) = LeftHigher →
          leftChild (rightChild c.2) = node nil 2 20 EqualHeight nil ∨
            (leftChild (rightChild c.2) ≠ nil ∧
              rootBalance (leftChild (rightChild c.2)) ≠ EqualHeight)) :=
  ⟨by decide, insert_double_rotation_grandchild scenarioZigZag true 2 20 (by decide)⟩

end AvlTree

/-! ## Theorems: AvlTree in the free store -/

namespace AvlStore

open BalanceFactor AvlTreeNode

variable {K V : Type}

theorem write_same (s : Store K V) (a : Nat) (n : NodeObject K V) : (s.write a n) a = some n := by
  simp [Store.write]

theorem write_other (s : Store K V) (a x : Nat) (n : NodeObject K V) (h : x ≠ a) :
    (s.write a n) x = s x := by
  simp [Store.write, h]

theorem free_same (s : Store K V) (a : Nat) : (s.free a) a = none := by
  simp [Store.free]

theorem free_other (s : Store K V) (a x : Nat) (h : x ≠ a) : (s.free a) x = s x := by
  simp [Store.free, h]

theorem deref_of_ne_zero (s : Store K V) (p : Nat) (h : p ≠ 0) : deref s p = s p := by
  simp [deref, h]

theorem deref_zero (s : Store K V) : deref s 0 = none := by
  simp [deref]

/-- A store that agrees with `s` on the nodes of a tree holds the same tree. -/
theorem holds_frame (s s1 : Store K V) (t : AvlTreeNode K V) :
    ∀ (p : Nat) (F : List Nat), Holds s p t F → (∀ x ∈ F, s1 x = s x) → Holds s1 p t F := by
  induction t with
  | nil => intro p F h _; exact h
  | node l k v b r ihl ihr =>
    intro p F h hf
    obtain ⟨hp, pl, pr, Fl, Fr, hc, hl, hr, hF⟩ := h
    subst hF
    refine ⟨hp, pl, pr, Fl, Fr, ?_, ihl pl Fl hl ?_, ihr pr Fr hr ?_, rfl⟩
    · rw [hf p (List.mem_cons_self _ _)]; exact hc
    · intro x hx; exact hf x (by simp [hx])
    · intro x hx; exact hf x (by simp [hx])

theorem holds_write (s : Store K V) (t : AvlTreeNode K V) (p : Nat) (F : List Nat) (a : Nat)
    (n : NodeObject K V) (h : Holds s p t F) (ha : a ∉ F) : Holds (s.write a n) p t F :=
  holds_frame s _ t p F h (fun x hx => write_other s a x n (fun e => ha (e ▸ hx)))

theorem holds_free (s : Store K V) (t : AvlTreeNode K V) (p : Nat) (F : List Nat) (a : Nat)
    (h : Holds s p t F) (ha : a ∉ F) : Holds (s.free a) p t F :=
  holds_frame s _ t p F h (fun x hx => free_other s a x (fun e => ha (e ▸ hx)))

/-- The nodes of a tree the store holds are objects at non-null addresses. -/
theorem holds_live (s : Store K V) (t : AvlTreeNode K V) :
    ∀ (p : Nat) (F : List Nat), Holds s p t F → ∀ x ∈ F, x ≠ 0 ∧ s x ≠ none := by
  induction t with
  | nil => intro p F h x hx; rw [h.2] at hx; simp at hx
  | node l k v b r ihl ihr =>
    intro p F h x hx
    obtain ⟨hp, pl, pr, Fl, Fr, hc, hl, hr, hF⟩ := h
    subst hF
    simp only [List.mem_cons, List.mem_append] at hx
    rcases hx with e | e | e
    · subst e; exact ⟨hp, by rw [hc]; simp⟩
    · exact ihl pl Fl hl x e
    · exact ihr pr Fr hr x e

theorem holds_length (s : Store K V) (t : AvlTreeNode K V) :
    ∀ (p : Nat) (F : List Nat), Holds s p t F → F.length = AvlTree.count t := by
  induction t with
  | nil => intro p F h; rw [h.2]; rfl
  | node l k v b r ihl ihr =>
    intro p F h
    obtain ⟨hp, pl, pr, Fl, Fr, hc, hl, hr, hF⟩ := h
    subst hF
    simp only [List.length_cons, List.length_append, AvlTree.count, ihl pl Fl hl, ihr pr Fr hr]
    omega

theorem holds_null (s : Store K V) (t : AvlTreeNode K V) (F : List Nat) (h : Holds s 0 t F) :
    t = nil ∧ F = [] := by
  cases t with
  | nil => exact ⟨rfl, h.2⟩
  | node l k v b r => exact absurd rfl h.1

theorem nodup_node (p : Nat) (Fl Fr : List Nat) :
    (p :: (Fl ++ Fr)).Nodup ↔
      p ∉ Fl ∧ p ∉ Fr ∧ Fl.Nodup ∧ Fr.Nodup ∧ ∀ x ∈ Fl, x ∉ Fr := by
  simp only [List.nodup_cons, List.nodup_append, List.mem_append, not_or, List.Disjoint]
  constructor
  · rintro ⟨⟨h1, h2⟩, h3, h4, h5⟩; exact ⟨h1, h2, h3, h4, fun x hx hx2 => h5 hx hx2⟩
  · rintro ⟨h1, h2, h3, h4, h5⟩; exact ⟨⟨h1, h2⟩, h3, h4, fun x hx hx2 => h5 x hx hx2⟩

/-- `rotate_left` on a tree the store holds. -/
theorem rotate_left_holds (s : Store K V) (p : Nat) (t : AvlTreeNode K V) (F : List Nat)
    (h : Holds s p t F) (hn : F.Nodup) :
    Refines (AvlTree.rotate_left t) (rotate_left s p) s F := by
  cases t with
  | nil =>
    refine ⟨fun _ => ?_, fun t1 h1 => by simp [AvlTree.rotate_left] at h1⟩
    rw [h.1]; simp [rotate_left, deref]
  | node l k v b r =>
    obtain ⟨hp, pl, pr, Fl, Fr, hc, hl, hr, hF⟩ := h
    cases r with
    | nil =>
      refine ⟨fun _ => ?_, fun t1 h1 => by simp [AvlTree.rotate_left] at h1⟩
      simp [rotate_left, deref, hp, hc, hr.1]
    | node rl rk rv rb rr =>
      obtain ⟨hpr, prl, prr, Frl, Frr, hcr, hrl, hrr, hFr⟩ := hr
      subst hFr; subst hF
      refine ⟨fun h1 => by simp [AvlTree.rotate_left] at h1, fun t1 h1 => ?_⟩
      simp only [AvlTree.rotate_left, Option.some.injEq] at h1
      subst h1
      rw [nodup_node] at hn
      obtain ⟨n1, n2, n3, n4, n5⟩ := hn
      rw [nodup_node] at n4
      obtain ⟨m1, m2, m3, m4, m5⟩ := n4
      simp only [List.mem_cons, List.mem_append, not_or] at n2 n5
      have hne : pr ≠ p := fun e => n2.1 e.symm
      refine ⟨(s.write p ⟨pl, prl, k, v, b⟩).write pr ⟨p, prr, rk, rv, rb⟩, pr,
        pr :: ((p :: (Fl ++ Frl)) ++ Frr), ?_, ?_, ?_, ?_⟩
      · simp [rotate_left, deref, hp, hc, hpr, hcr, setRight, setLeft, write_other, hne]
      · refine ⟨hpr, p, prr, p :: (Fl ++ Frl), Frr, by simp [Store.write], ?_, ?_, rfl⟩
        · refine ⟨hp, pl, prl, Fl, Frl, by simp [Store.write, hne.symm], ?_, ?_, rfl⟩
          · exact holds_write _ _ _ _ _ _ (holds_write _ _ _ _ _ _ hl n1)
              (fun e => (n5 pr e).1 rfl)
          · exact holds_write _ _ _ _ _ _ (holds_write _ _ _ _ _ _ hrl n2.2.1) m1
        · exact holds_write _ _ _ _ _ _ (holds_write _ _ _ _ _ _ hrr n2.2.2) m2
      · rw [List.perm_iff_count]
        intro x
        simp only [List.count_cons, List.count_append]
        omega
      · intro x hx
        simp only [List.mem_cons, List.mem_append, not_or] at hx
        simp [Store.write, hx.1, hx.2.2.1]

/-- `rotate_right` on a tree the store holds. -/
theorem rotate_right_holds (s : Store K V) (p : Nat) (t : AvlTreeNode K V) (F : List Nat)
    (h : Holds s p t F) (hn : F.Nodup) :
    Refines (AvlTree.rotate_right t) (rotate_right s p) s F := by
  cases t with
  | nil =>
    refine ⟨fun _ => ?_, fun t1 h1 => by simp [AvlTree.rotate_right] at h1⟩
    rw [h.1]; simp [rotate_right, deref]
  | node l k v b r =>
    obtain ⟨hp, pl, pr, Fl, Fr, hc, hl, hr, hF⟩ := h
    cases l with
    | nil =>
      refine ⟨fun _ => ?_, fun t1 h1 => by simp [AvlTree.rotate_right] at h1⟩
      simp [rotate_right, deref, hp, hc, hl.1]
    | node ll lk lv lb lr =>
      obtain ⟨hpl, pll, plr, Fll, Flr, hcl, hll, hlr, hFl⟩ := hl
      subst hFl; subst hF
      refine ⟨fun h1 => by simp [AvlTree.rotate_right] at h1, fun t1 h1 => ?_⟩
      simp only [AvlTree.rotate_right, Option.some.injEq] at h1
      subst h1
      rw [nodup_node] at hn
      obtain ⟨n1, n2, n3, n4, n5⟩ := hn
      rw [nodup_node] at n3
      obtain ⟨m1, m2, m3, m4, m5⟩ := n3
      simp only [List.mem_cons, List.mem_append, not_or] at n1 n5
      have hne : pl ≠ p := fun e => n1.1 e.symm
      refine ⟨(s.write p ⟨plr, pr, k, v, b⟩).write pl ⟨pll, p, lk, lv, lb⟩, pl,
        pl :: (Fll ++ (p :: (Flr ++ Fr))), ?_, ?_, ?_, ?_⟩
      · simp [rotate_right, deref, hp, hc, hpl, hcl, setRight, setLeft, write_other, hne]
      · refine ⟨hpl, pll, p, Fll, p :: (Flr ++ Fr), by simp [Store.write], ?_, ?_, rfl⟩
        · exact holds_write _ _ _ _ _ _ (holds_write _ _ _ _ _ _ hll n1.2.1) m1
        · refine ⟨hp, plr, pr, Flr, Fr, by simp [Store.write, hne.symm], ?_, ?_, rfl⟩
          · exact holds_write _ _ _ _ _ _ (holds_write _ _ _ _ _ _ hlr n1.2.2) m2
          · exact holds_write _ _ _ _ _ _ (holds_write _ _ _ _ _ _ hr n2)
              (fun e => n5 pl (Or.inl rfl) e)
      · rw [List.perm_iff_count]
        intro x
        simp only [List.count_cons, List.count_append]
        omega
      · intro x hx
        simp only [List.mem_cons, List.mem_append, not_or] at hx
        simp [Store.write, hx.1, hx.2.1.1]

theorem refines_frame {vres : Option (AvlTreeNode K V)} {sres : Option (Store K V × Nat)}
    {s s2 : Store K V} {F : List Nat} (h : Refines vres sres s2 F)
    (hf : ∀ x, x ∉ F → s2 x = s x) : Refines vres sres s F := by
  refine ⟨h.1, fun t1 h1 => ?_⟩
  obtain ⟨s1, p1, F1, e1, e2, e3, e4⟩ := h.2 t1 h1
  exact ⟨s1, p1, F1, e1, e2, e3, fun x hx => by rw [e4 x hx, hf x hx]⟩

theorem refines_perm {vres : Option (AvlTreeNode K V)} {sres : Option (Store K V × Nat)}
    {s : Store K V} {F F2 : List Nat} (h : Refines vres sres s F2)
    (hp : F2.Perm F) : Refines vres sres s F := by
  refine ⟨h.1, fun t1 h1 => ?_⟩
  obtain ⟨s1, p1, F1, e1, e2, e3, e4⟩ := h.2 t1 h1
  exact ⟨s1, p1, F1, e1, e2, e3.trans hp, fun x hx => e4 x (fun hx2 => hx (hp.mem_iff.1 hx2))⟩

/-- The node at `p` after its pointer `m_right` is set to a subtree held apart from it. -/
theorem holds_set_right (s : Store K V) (p pl pr p1 : Nat) (k : K) (v : V) (b : BalanceFactor)
    (l r1 : AvlTreeNode K V) (Fl F1 : List Nat) (hp : p ≠ 0)
    (hc : s p = some ⟨pl, pr, k, v, b⟩) (hl : Holds s pl l Fl) (hr : Holds s p1 r1 F1)
    (hpl : p ∉ Fl) (hp1 : p ∉ F1) :
    setRight s p p1 = some (s.write p ⟨pl, p1, k, v, b⟩) ∧
      Holds (s.write p ⟨pl, p1, k, v, b⟩) p (node l k v b r1) (p :: (Fl ++ F1)) := by
  refine ⟨by simp [setRight, deref, hp, hc], hp, pl, p1, Fl, F1, write_same _ _ _, ?_, ?_, rfl⟩
  · exact holds_write _ _ _ _ _ _ hl hpl
  · exact holds_write _ _ _ _ _ _ hr hp1

/-- The node at `p` after its pointer `m_left` is set to a subtree held apart from it. -/
theorem holds_set_left (s : Store K V) (p pl pr p1 : Nat) (k : K) (v : V) (b : BalanceFactor)
    (l1 r : AvlTreeNode K V) (F1 Fr : List Nat) (hp : p ≠ 0)
    (hc : s p = some ⟨pl, pr, k, v, b⟩) (hl : Holds s p1 l1 F1) (hr : Holds s pr r Fr)
    (hp1 : p ∉ F1) (hpr : p ∉ Fr) :
    setLeft s p p1 = some (s.write p ⟨p1, pr, k, v, b⟩) ∧
      Holds (s.write p ⟨p1, pr, k, v, b⟩) p (node l1 k v b r) (p :: (F1 ++ Fr)) := by
  refine ⟨by simp [setLeft, deref, hp, hc], hp, p1, pr, F1, Fr, write_same _ _ _, ?_, ?_, rfl⟩
  · exact holds_write _ _ _ _ _ _ hl hp1
  · exact holds_write _ _ _ _ _ _ hr hpr

/-- The node at `p` after `setBalanceFactor`. -/
theorem holds_set_balance (s : Store K V) (p pl pr : Nat) (k : K) (v : V) (b f : BalanceFactor)
    (l r : AvlTreeNode K V) (Fl Fr : List Nat) (hp : p ≠ 0)
    (hc : s p = some ⟨pl, pr, k, v, b⟩) (hl : Holds s pl l Fl) (hr : Holds s pr r Fr)
    (hpl : p ∉ Fl) (hpr : p ∉ Fr) :
    setBalanceFactor s p f = some (s.write p ⟨pl, pr, k, v, f⟩) ∧
      Holds (s.write p ⟨pl, pr, k, v, f⟩) p (node l k v f r) (p :: (Fl ++ Fr)) := by
  refine ⟨by simp [setBalanceFactor, deref, hp, hc], hp, pl, pr, Fl, Fr, write_same _ _ _,
    ?_, ?_, rfl⟩
  · exact holds_write _ _ _ _ _ _ hl hpl
  · exact holds_write _ _ _ _ _ _ hr hpr

/-- The end of the double rotation of `balance_right`: `rotate_right` on the right child,
through the reference to `m_right`, and then `rotate_left` on the node. -/
theorem rotate_right_left_holds (s3 : Store K V) (p pl pr : Nat) (k : K) (v : V)
    (b1 : BalanceFactor) (l r r1 : AvlTreeNode K V) (Fl Fr : List Nat) (hp : p ≠ 0)
    (hc : s3 p = some ⟨pl, pr, k, v, b1⟩) (hl : Holds s3 pl l Fl) (hr : Holds s3 pr r Fr)
    (hn : (p :: (Fl ++ Fr)).Nodup) (hv : AvlTree.rotate_right r = some r1) :
    Refines (AvlTree.rotate_left (node l k v b1 r1))
      (match rotate_right s3 pr with
        | none => none
        | some (s4, q) =>
          match setRight s4 p q with
          | none => none
          | some s5 => rotate_left s5 p) s3 (p :: (Fl ++ Fr)) := by
  have hn0 := hn
  rw [nodup_node] at hn
  obtain ⟨n1, n2, n3, n4, n5⟩ := hn
  obtain ⟨s4, q, F1, e1, e2, e3, e4⟩ := (rotate_right_holds s3 pr r Fr hr n4).2 r1 hv
  have hpF1 : p ∉ F1 := fun e => n2 (e3.mem_iff.1 e)
  have hc4 : s4 p = some ⟨pl, pr, k, v, b1⟩ := by rw [e4 p n2, hc]
  have hl4 : Holds s4 pl l Fl := holds_frame s3 s4 l pl Fl hl (fun x hx => e4 x (n5 x hx))
  obtain ⟨f1, f2⟩ := holds_set_right s4 p pl pr q k v b1 l r1 Fl F1 hp hc4 hl4 e2 n1 hpF1
  have hperm : (p :: (Fl ++ F1)).Perm (p :: (Fl ++ Fr)) :=
    List.Perm.cons _ (List.Perm.append_left _ e3)
  rw [e1]
  simp only [f1]
  refine refines_frame (refines_perm (rotate_left_holds _ p _ _ f2 (hperm.nodup_iff.2 hn0)) hperm) ?_
  intro x hx
  simp only [List.mem_cons, List.mem_append, not_or] at hx
  rw [write_other _ _ _ _ hx.1, e4 x hx.2.2]

/-- The end of the double rotation of `balance_left`: `rotate_left` on the left child,
through the reference to `m_left`, and then `rotate_right` on the node. -/
theorem rotate_left_right_holds (s3 : Store K V) (p pl pr : Nat) (k : K) (v : V)
    (b1 : BalanceFactor) (l l1 r : AvlTreeNode K V) (Fl Fr : List Nat) (hp : p ≠ 0)
    (hc : s3 p = some ⟨pl, pr, k, v, b1⟩) (hl : Holds s3 pl l Fl) (hr : Holds s3 pr r Fr)
    (hn : (p :: (Fl ++ Fr)).Nodup) (hv : AvlTree.rotate_left l = some l1) :
    Refines (AvlTree.rotate_right (node l1 k v b1 r))
      (match rotate_left s3 pl with
        | none => none
        | some (s4, q) =>
          match setLeft s4 p q with
          | none => none
          | some s5 => rotate_right s5 p) s3 (p :: (Fl ++ Fr)) := by
  have hn0 := hn
  rw [nodup_node] at hn
  obtain ⟨n1, n2, n3, n4, n5⟩ := hn
  obtain ⟨s4, q, F1, e1, e2, e3, e4⟩ := (rotate_left_holds s3 pl l Fl hl n3).2 l1 hv
  have hpF1 : p ∉ F1 := fun e => n1 (e3.mem_iff.1 e)
  have hc4 : s4 p = some ⟨pl, pr, k, v, b1⟩ := by rw [e4 p n1, hc]
  have hr4 : Holds s4 pr r Fr :=
    holds_frame s3 s4 r pr Fr hr (fun x hx => e4 x (fun e => n5 x e hx))
  obtain ⟨f1, f2⟩ := holds_set_left s4 p pl pr q k v b1 l1 r F1 Fr hp hc4 e2 hr4 hpF1 n2
  have hperm : (p :: (F1 ++ Fr)).Perm (p :: (Fl ++ Fr)) :=
    List.Perm.cons _ (List.Perm.append_right _ e3)
  rw [e1]
  simp only [f1]
  refine refines_frame (refines_perm (rotate_right_holds _ p _ _ f2 (hperm.nodup_iff.2 hn0)) hperm) ?_
  intro x hx
  simp only [List.mem_cons, List.mem_append, not_or] at hx
  rw [write_other _ _ _ _ hx.1, e4 x hx.2.1]

/-- `balance_right` on a tree the store holds. -/
theorem balance_right_holds (s : Store K V) (p : Nat) (t : AvlTreeNode K V) (F : List Nat)
    (h : Holds s p t F) (hn : F.Nodup) :
    Refines (AvlTree.balance_right t) (balance_right s p) s F := by
  cases t with
  | nil =>
    refine ⟨fun _ => ?_, fun t1 h1 => by simp [AvlTree.balance_right] at h1⟩
    rw [h.1]; simp [balance_right, deref]
  | node l k v b r =>
    obtain ⟨hp, pl, pr, Fl, Fr, hc, hl, hr, hF⟩ := h
    cases r with
    | nil =>
      refine ⟨fun _ => ?_, fun t1 h1 => by simp [AvlTree.balance_right] at h1⟩
      simp [balance_right, deref, hp, hc, hr.1]
    | node rl rk rv rb rr =>
      obtain ⟨hpr, prl, prr, Frl, Frr, hcr, hrl, hrr, hFr⟩ := hr
      subst hFr; subst hF
      have hn0 := hn
      rw [nodup_node] at hn
      obtain ⟨n1, n2, n3, n4, n5⟩ := hn
      have n40 := n4
      rw [nodup_node] at n4
      obtain ⟨m1, m2, m3, m4, m5⟩ := n4
      simp only [List.mem_cons, List.mem_append, not_or] at n2 n5
      have hne : pr ≠ p := fun e => n2.1 e.symm
      have hprl : pr ∉ Fl := fun e => (n5 pr e).1 rfl
      -- the two nodes with new balance factors
      have two : ∀ b1 b2 : BalanceFactor,
          Holds ((s.write p ⟨pl, pr, k, v, b1⟩).write pr ⟨prl, prr, rk, rv, b2⟩) p
            (node l k v b1 (node rl rk rv b2 rr)) (p :: (Fl ++ pr :: (Frl ++ Frr))) := by
        intro b1 b2
        refine ⟨hp, pl, pr, Fl, _, by simp [Store.write, hne.symm], ?_, ?_, rfl⟩
        · exact holds_write _ _ _ _ _ _ (holds_write _ _ _ _ _ _ hl n1) hprl
        · refine ⟨hpr, prl, prr, Frl, Frr, by simp [Store.write], ?_, ?_, rfl⟩
          · exact holds_write _ _ _ _ _ _ (holds_write _ _ _ _ _ _ hrl n2.2.1) m1
          · exact holds_write _ _ _ _ _ _ (holds_write _ _ _ _ _ _ hrr n2.2.2) m2
      have fr2 : ∀ (b1 b2 : BalanceFactor) (x : Nat), x ∉ p :: (Fl ++ pr :: (Frl ++ Frr)) →
          ((s.write p ⟨pl, pr, k, v, b1⟩).write pr ⟨prl, prr, rk, rv, b2⟩) x = s x := by
        intro b1 b2 x hx
        simp only [List.mem_cons, List.mem_append, not_or] at hx
        simp [Store.write, hx.1, hx.2.2.1]
      cases rb with
      | EqualHeight =>
        have hs : balance_right s p =
            rotate_left ((s.write p ⟨pl, pr, k, v, RightHigher⟩).write pr
              ⟨prl, prr, rk, rv, LeftHigher⟩) p := by
          simp [balance_right, deref, hp, hc, hpr, hcr, setBalanceFactor, write_other, hne]
        rw [hs]
        exact refines_frame (rotate_left_holds _ p _ _ (two RightHigher LeftHigher) hn0)
          (fr2 RightHigher LeftHigher)
      | RightHigher =>
        have hs : balance_right s p =
            rotate_left ((s.write p ⟨pl, pr, k, v, EqualHeight⟩).write pr
              ⟨prl, prr, rk, rv, EqualHeight⟩) p := by
          simp [balance_right, deref, hp, hc, hpr, hcr, setBalanceFactor, write_other, hne]
        rw [hs]
        exact refines_frame (rotate_left_holds _ p _ _ (two EqualHeight EqualHeight) hn0)
          (fr2 EqualHeight EqualHeight)
      | LeftHigher =>
        cases rl with
        | nil =>
          refine ⟨fun _ => ?_, fun t1 h1 => by simp [AvlTree.balance_right] at h1⟩
          simp [balance_right, deref, hp, hc, hpr, hcr, hrl.1]
        | node gl gk gv gb gr =>
          obtain ⟨hpg, pgl, pgr, Fgl, Fgr, hcg, hgl, hgr, hFg⟩ := hrl
          subst hFg
          have m30 := m3
          rw [nodup_node] at m3
          obtain ⟨g1, g2, g3, g4, g5⟩ := m3
          simp only [List.mem_cons, List.mem_append, not_or] at n2 n5 m1 m5 n1
          have hgp : prl ≠ p := fun e => n2.2.1.1 e.symm
          have hgr1 : prl ≠ pr := fun e => m1.1 e.symm
          have hgFl : prl ∉ Fl := fun e => (n5 prl e).2.1.1 rfl
          have hgFrr : prl ∉ Frr := m5 prl (Or.inl rfl)
          -- the store with the three balance factors set
          have three : ∀ b1 b2 : BalanceFactor,
              Refines
                (AvlTree.rotate_left
                  (node l k v b1 (node gl gk gv EqualHeight (node gr rk rv b2 rr))))
                (match rotate_right
                    (((s.write p ⟨pl, pr, k, v, b1⟩).write pr ⟨prl, prr, rk, rv, b2⟩).write prl
                      ⟨pgl, pgr, gk, gv, EqualHeight⟩) pr with
                  | none => none
                  | some (s4, q) =>
                    match setRight s4 p q with
                    | none => none
                    | some s5 => rotate_left s5 p) s
                (p :: (Fl ++ pr :: ((prl :: (Fgl ++ Fgr)) ++ Frr))) := by
            intro b1 b2
            refine refines_frame (rotate_right_left_holds _ p pl pr k v b1 l
              (node (node gl gk gv EqualHeight gr) rk rv b2 rr) _ Fl
              (pr :: ((prl :: (Fgl ++ Fgr)) ++ Frr)) hp
              (by simp [Store.write, hne.symm, hgp.symm]) ?_ ?_ hn0 rfl) ?_
            · exact holds_write _ _ _ _ _ _
                (holds_write _ _ _ _ _ _ (holds_write _ _ _ _ _ _ hl n1) hprl) hgFl
            · refine ⟨hpr, prl, prr, _, Frr, by simp [Store.write, hgr1.symm], ?_, ?_, rfl⟩
              · refine ⟨hpg, pgl, pgr, Fgl, Fgr, by simp [Store.write], ?_, ?_, rfl⟩
                · exact holds_write _ _ _ _ _ _
                    (holds_write _ _ _ _ _ _ (holds_write _ _ _ _ _ _ hgl n2.2.1.2.1) m1.2.1) g1
                · exact holds_write _ _ _ _ _ _
                    (holds_write _ _ _ _ _ _ (holds_write _ _ _ _ _ _ hgr n2.2.1.2.2) m1.2.2) g2
              · exact holds_write _ _ _ _ _ _
                  (holds_write _ _ _ _ _ _ (holds_write _ _ _ _ _ _ hrr n2.2.2) m2) hgFrr
            · intro x hx
              simp only [List.mem_cons, List.mem_append, not_or] at hx
              simp [Store.write, hx.1, hx.2.2.1, hx.2.2.2.1.1]
          cases gb with
          | EqualHeight =>
            simp only [balance_right, deref, hp, hc, hpr, hcr, hpg, hcg, setBalanceFactor,
              write_other, hne, hgp, hgr1, if_false, write_same, ne_eq, not_false_eq_true]
            exact three EqualHeight EqualHeight
          | RightHigher =>
            simp only [balance_right, deref, hp, hc, hpr, hcr, hpg, hcg, setBalanceFactor,
              write_other, hne, hgp, hgr1, if_false, write_same, ne_eq, not_false_eq_true]
            exact three LeftHigher EqualHeight
          | LeftHigher =>
            simp only [balance_right, deref, hp, hc, hpr, hcr, hpg, hcg, setBalanceFactor,
              write_other, hne, hgp, hgr1, if_false, write_same, ne_eq, not_false_eq_true]
            exact three EqualHeight RightHigher

/-- `balance_left` on a tree the store holds. -/
theorem balance_left_holds (s : Store K V) (p : Nat) (t : AvlTreeNode K V) (F : List Nat)
    (h : Holds s p t F) (hn : F.Nodup) :
    Refines (AvlTree.balance_left t) (balance_left s p) s F := by
  cases t with
  | nil =>
    refine ⟨fun _ => ?_, fun t1 h1 => by simp [AvlTree.balance_left] at h1⟩
    rw [h.1]; simp [balance_left, deref]
  | node l k v b r =>
    obtain ⟨hp, pl, pr, Fl, Fr, hc, hl, hr, hF⟩ := h
    cases l with
    | nil =>
      refine ⟨fun _ => ?_, fun t1 h1 => by simp [AvlTree.balance_left] at h1⟩
      simp [balance_left, deref, hp, hc, hl.1]
    | node ll lk lv lb lr =>
      obtain ⟨hpl, pll, plr, Fll, Flr, hcl, hll, hlr, hFl⟩ := hl
      subst hFl; subst hF
      have hn0 := hn
      rw [nodup_node] at hn
      obtain ⟨n1, n2, n3, n4, n5⟩ := hn
      have n30 := n3
      rw [nodup_node] at n3
      obtain ⟨m1, m2, m3, m4, m5⟩ := n3
      simp only [List.mem_cons, List.mem_append, not_or] at n1 n5
      have hne : pl ≠ p := fun e => n1.1 e.symm
      have hplr : pl ∉ Fr := n5 pl (Or.inl rfl)
      have two : ∀ b1 b2 : BalanceFactor,
          Holds ((s.write p ⟨pl, pr, k, v, b1⟩).write pl ⟨pll, plr, lk, lv, b2⟩) p
            (node (node ll lk lv b2 lr) k v b1 r) (p :: ((pl :: (Fll ++ Flr)) ++ Fr)) := by
        intro b1 b2
        refine ⟨hp, pl, pr, _, Fr, by simp [Store.write, hne.symm], ?_, ?_, rfl⟩
        · refine ⟨hpl, pll, plr, Fll, Flr, by simp [Store.write], ?_, ?_, rfl⟩
          · exact holds_write _ _ _ _ _ _ (holds_write _ _ _ _ _ _ hll n1.2.1) m1
          · exact holds_write _ _ _ _ _ _ (holds_write _ _ _ _ _ _ hlr n1.2.2) m2
        · exact holds_write _ _ _ _ _ _ (holds_write _ _ _ _ _ _ hr n2) hplr
      have fr2 : ∀ (b1 b2 : BalanceFactor) (x : Nat), x ∉ p :: ((pl :: (Fll ++ Flr)) ++ Fr) →
          ((s.write p ⟨pl, pr, k, v, b1⟩).write pl ⟨pll, plr, lk, lv, b2⟩) x = s x := by
        intro b1 b2 x hx
        simp only [List.mem_cons, List.mem_append, not_or] at hx
        simp [Store.write, hx.1, hx.2.1.1]
      cases lb with
      | EqualHeight =>
        have hs : balance_left s p =
            rotate_right ((s.write p ⟨pl, pr, k, v, LeftHigher⟩).write pl
              ⟨pll, plr, lk, lv, RightHigher⟩) p := by
          simp [balance_left, deref, hp, hc, hpl, hcl, setBalanceFactor, write_other, hne]
        rw [hs]
        exact refines_frame (rotate_right_holds _ p _ _ (two LeftHigher RightHigher) hn0)
          (fr2 LeftHigher RightHigher)
      | LeftHigher =>
        have hs : balance_left s p =
            rotate_right ((s.write p ⟨pl, pr, k, v, EqualHeight⟩).write pl
              ⟨pll, plr, lk, lv, EqualHeight⟩) p := by
          simp [balance_left, deref, hp, hc, hpl, hcl, setBalanceFactor, write_other, hne]
        rw [hs]
        exact refines_frame (rotate_right_holds _ p _ _ (two EqualHeight EqualHeight) hn0)
          (fr2 EqualHeight EqualHeight)
      | RightHigher =>
        cases lr with
        | nil =>
          refine ⟨fun _ => ?_, fun t1 h1 => by simp [AvlTree.balance_left] at h1⟩
          simp [balance_left, deref, hp, hc, hpl, hcl, hlr.1]
        | node gl gk gv gb gr =>
          obtain ⟨hpg, pgl, pgr, Fgl, Fgr, hcg, hgl, hgr, hFg⟩ := hlr
          subst hFg
          have m40 := m4
          rw [nodup_node] at m4
          obtain ⟨g1, g2, g3, g4, g5⟩ := m4
          simp only [List.mem_cons, List.mem_append, not_or] at n1 n5 m2 m5
          have hgp : plr ≠ p := fun e => n1.2.2.1 e.symm
          have hgl1 : plr ≠ pl := fun e => m2.1 e.symm
          have hgFr : plr ∉ Fr := n5 plr (Or.inr (Or.inr (Or.inl rfl)))
          have hgFll : plr ∉ Fll := fun e => (m5 plr e).1 rfl
          have three : ∀ b1 b2 : BalanceFactor,
              Refines
                (AvlTree.rotate_right
                  (node (node (node ll lk lv b2 gl) gk gv EqualHeight gr) k v b1 r))
                (match rotate_left
                    (((s.write p ⟨pl, pr, k, v, b1⟩).write pl ⟨pll, plr, lk, lv, b2⟩).write plr
                      ⟨pgl, pgr, gk, gv, EqualHeight⟩) pl with
                  | none => none
                  | some (s4, q) =>
                    match setLeft s4 p q with
                    | none => none
                    | some s5 => rotate_right s5 p) s
                (p :: ((pl :: (Fll ++ plr :: (Fgl ++ Fgr))) ++ Fr)) := by
            intro b1 b2
            refine refines_frame (rotate_left_right_holds _ p pl pr k v b1
              (node ll lk lv b2 (node gl gk gv EqualHeight gr)) _ r
              (pl :: (Fll ++ plr :: (Fgl ++ Fgr))) Fr hp
              (by simp [Store.write, hne.symm, hgp.symm]) ?_ ?_ hn0 rfl) ?_
            · refine ⟨hpl, pll, plr, Fll, _, by simp [Store.write, hgl1.symm], ?_, ?_, rfl⟩
              · exact holds_write _ _ _ _ _ _
                  (holds_write _ _ _ _ _ _ (holds_write _ _ _ _ _ _ hll n1.2.1) m1) hgFll
              · refine ⟨hpg, pgl, pgr, Fgl, Fgr, by simp [Store.write], ?_, ?_, rfl⟩
                · exact holds_write _ _ _ _ _ _
                    (holds_write _ _ _ _ _ _ (holds_write _ _ _ _ _ _ hgl n1.2.2.2.1) m2.2.1) g1
                · exact holds_write _ _ _ _ _ _
                    (holds_write _ _ _ _ _ _ (holds_write _ _ _ _ _ _ hgr n1.2.2.2.2) m2.2.2) g2
            · exact holds_write _ _ _ _ _ _
                (holds_write _ _ _ _ _ _ (holds_write _ _ _ _ _ _ hr n2) hplr) hgFr
            · intro x hx
              simp only [List.mem_cons, List.mem_append, not_or] at hx
              simp [Store.write, hx.1, hx.2.1.1, hx.2.1.2.2.1]
          cases gb with
          | EqualHeight =>
            simp only [balance_left, deref, hp, hc, hpl, hcl, hpg, hcg, setBalanceFactor,
              write_other, hne, hgp, hgl1, if_false, write_same, ne_eq, not_false_eq_true]
            exact three EqualHeight EqualHeight
          | RightHigher =>
            simp only [balance_left, deref, hp, hc, hpl, hcl, hpg, hcg, setBalanceFactor,
              write_other, hne, hgp, hgl1, if_false, write_same, ne_eq, not_false_eq_true]
            exact three EqualHeight LeftHigher
          | LeftHigher =>
            simp only [balance_left, deref, hp, hc, hpl, hcl, hpg, hcg, setBalanceFactor,
              write_other, hne, hgp, hgl1, if_false, write_same, ne_eq, not_false_eq_true]
            exact three RightHigher EqualHeight

theorem perm_node_left (p a : Nat) (c : Bool) (F1 Fl Fr : List Nat)
    (h : F1.Perm (if c then a :: Fl else Fl)) :
    (p :: (F1 ++ Fr)).Perm (if c then a :: p :: (Fl ++ Fr) else p :: (Fl ++ Fr)) := by
  cases c with
  | false => exact List.Perm.cons _ (List.Perm.append_right _ h)
  | true =>
    simp only [if_true] at h ⊢
    exact (List.Perm.cons _ (List.Perm.append_right _ h)).trans (List.Perm.swap _ _ _)

theorem perm_node_right (p a : Nat) (c : Bool) (F1 Fl Fr : List Nat)
    (h : F1.Perm (if c then a :: Fr else Fr)) :
    (p :: (Fl ++ F1)).Perm (if c then a :: p :: (Fl ++ Fr) else p :: (Fl ++ Fr)) := by
  cases c with
  | false => exact List.Perm.cons _ (List.Perm.append_left _ h)
  | true =>
    simp only [if_true] at h ⊢
    refine (List.Perm.cons _ (List.Perm.append_left _ h)).trans ?_
    refine (List.Perm.cons _ List.perm_middle).trans (List.Perm.swap _ _ _)

/-- `avl_insert` on a tree the store holds: with a bound above the height of the tree, the
store-level call fails when the call on the tree as a value does, and otherwise leaves the
store holding the resulting tree, in the nodes it had and the new one; the rest of the store
is unchanged. -/
theorem avl_insert_holds [DecidableEq K] (pred : K → K → Bool) (a : Nat) (alloc : Bool)
    (halloc : alloc = true ↔ a ≠ 0) (key : K) (value : V) (t : AvlTreeNode K V) :
    ∀ (fuel : Nat) (s : Store K V) (p : Nat) (F : List Nat) (m_size : Nat),
      Holds s p t F → F.Nodup → a ∉ F → AvlTree.height t < fuel →
      (AvlTree.avl_insert pred alloc key value t m_size = none →
        avl_insert pred a key value fuel s p m_size = none) ∧
      ∀ o, AvlTree.avl_insert pred alloc key value t m_size = some o →
        ∃ s1 o1 F1, avl_insert pred a key value fuel s p m_size = some (s1, o1) ∧
          Holds s1 o1.subRoot o.subRoot F1 ∧
          o1.newNode = (if o.newNode then a else 0) ∧ (o.newNode = true → a ≠ 0) ∧
          o1.taller = o.taller ∧ o1.m_size = o.m_size ∧
          F1.Perm (if o.newNode then a :: F else F) ∧
          ∀ x, x ∉ F → x ≠ a → s1 x = s x := by
  induction t with
  | nil =>
    intro fuel s p F m_size h hn ha hf
    obtain ⟨hp, hF⟩ := h
    subst hp; subst hF
    cases fuel with
    | zero => simp [AvlTree.height] at hf
    | succ fuel =>
      cases alloc with
      | false =>
        have h0 : a = 0 := by
          by_contra h0
          exact absurd (halloc.2 h0) (by simp)
        subst h0
        refine ⟨fun h1 => by simp [AvlTree.avl_insert] at h1, fun o h1 => ?_⟩
        simp only [AvlTree.avl_insert, Bool.false_eq_true, if_false, Option.some.injEq] at h1
        subst h1
        exact ⟨s, ⟨0, 0, false, m_size⟩, [], by simp [avl_insert], ⟨rfl, rfl⟩, rfl,
          by simp, rfl, rfl, List.Perm.refl _, fun _ _ _ => rfl⟩
      | true =>
        have h0 : a ≠ 0 := halloc.1 rfl
        refine ⟨fun h1 => by simp [AvlTree.avl_insert] at h1, fun o h1 => ?_⟩
        simp only [AvlTree.avl_insert, if_true, Option.some.injEq] at h1
        subst h1
        refine ⟨s.write a ⟨0, 0, key, value, EqualHeight⟩, ⟨a, a, true, m_size + 1⟩, [a],
          by simp [avl_insert, h0], ?_, rfl, fun _ => h0, rfl, rfl, List.Perm.refl _, ?_⟩
        · exact ⟨h0, 0, 0, [], [], write_same _ _ _, ⟨rfl, rfl⟩, ⟨rfl, rfl⟩, rfl⟩
        · intro x _ hx
          exact write_other _ _ _ _ hx
  | node l k v b r ihl ihr =>
    intro fuel s p F m_size h hn ha hf
    obtain ⟨hp, pl, pr, Fl, Fr, hc, hl, hr, hF⟩ := h
    subst hF
    cases fuel with
    | zero => simp [AvlTree.height] at hf
    | succ fuel =>
      have hn0 := hn
      rw [nodup_node] at hn
      obtain ⟨n1, n2, n3, n4, n5⟩ := hn
      simp only [List.mem_cons, List.mem_append, not_or] at ha
      obtain ⟨ha1, ha2, ha3⟩ := ha
      have hfl : AvlTree.height l < fuel := by simp only [AvlTree.height] at hf; omega
      have hfr : AvlTree.height r < fuel := by simp only [AvlTree.height] at hf; omega
      by_cases hk : k = key
      · subst hk
        refine ⟨fun h1 => by simp [AvlTree.avl_insert] at h1, fun o h1 => ?_⟩
        simp only [AvlTree.avl_insert, if_true, Option.some.injEq] at h1
        subst h1
        refine ⟨s, ⟨p, 0, false, m_size⟩, _, by simp [avl_insert, hp, deref, hc],
          ⟨hp, pl, pr, Fl, Fr, hc, hl, hr, rfl⟩, rfl, by simp, rfl, rfl, List.Perm.refl _,
          fun _ _ _ => rfl⟩
      · by_cases hpk : pred key k = true
        · obtain ⟨ih1, ih2⟩ := ihl fuel s pl Fl m_size hl n3 ha2 hfl
          cases hv : AvlTree.avl_insert pred alloc key value l m_size with
          | none =>
            have hvl : AvlTree.avl_insert pred alloc key value (node l k v b r) m_size = none := by
              rw [AvlTree.avl_insert]
              simp only [hk, hpk, if_false, if_true, hv]
            rw [hvl]
            refine ⟨fun _ => ?_, fun o h1 => by simp at h1⟩
            simp [avl_insert, hp, deref, hc, hk, hpk, ih1 hv]
          | some o =>
            obtain ⟨s1, o1, F1, e1, e2, e3, e3b, e4, e5, e6, e7⟩ := ih2 o hv
            -- the store after the pointer `m_left` is set
            have hpF1 : p ∉ F1 := by
              intro hx
              have := e6.mem_iff.1 hx
              split at this
              · simp only [List.mem_cons] at this
                rcases this with e | e
                · exact ha1 e.symm
                · exact n1 e
              · exact n1 this
            have hc1 : s1 p = some ⟨pl, pr, k, v, b⟩ := by
              rw [e7 p n1 (fun e => ha1 e.symm), hc]
            have hr1 : Holds s1 pr r Fr :=
              holds_frame s s1 r pr Fr hr
                (fun x hx => e7 x (fun e => n5 x e hx) (fun e => ha3 (e ▸ hx)))
            obtain ⟨f1, f2⟩ :=
              holds_set_left s1 p pl pr o1.subRoot k v b o.subRoot r F1 Fr hp hc1 e2 hr1 hpF1 n2
            have hperm := perm_node_left p a o.newNode F1 Fl Fr e6
            have hnd : (p :: (F1 ++ Fr)).Nodup := by
              refine hperm.nodup_iff.2 ?_
              split
              · refine List.nodup_cons.2 ⟨?_, hn0⟩
                simp only [List.mem_cons, List.mem_append, not_or]
                exact ⟨ha1, ha2, ha3⟩
              · exact hn0
            have hfr2 : ∀ x, x ∉ p :: (Fl ++ Fr) → x ≠ a →
                (s1.write p ⟨o1.subRoot, pr, k, v, b⟩) x = s x := by
              intro x hx hxa
              simp only [List.mem_cons, List.mem_append, not_or] at hx
              rw [write_other _ _ _ _ hx.1, e7 x hx.2.1 hxa]
            have hnotin : ∀ x, x ∉ p :: (Fl ++ Fr) → x ≠ a → x ∉ p :: (F1 ++ Fr) := by
              intro x hx hxa hx2
              have := hperm.mem_iff.1 hx2
              split at this
              · simp only [List.mem_cons] at this
                rcases this with e | e
                · exact hxa e
                · exact hx (List.mem_cons.2 e)
              · exact hx this
            cases htall : o.taller with
            | false =>
              have hvl : AvlTree.avl_insert pred alloc key value (node l k v b r) m_size =
                  some ⟨node o.subRoot k v b r, o.newNode, false, o.m_size⟩ := by
                rw [AvlTree.avl_insert]
                simp only [hk, hpk, if_false, if_true, hv, htall, Bool.false_eq_true]
              have hs : avl_insert pred a key value (fuel + 1) s p m_size =
                  some (s1.write p ⟨o1.subRoot, pr, k, v, b⟩,
                    ⟨p, o1.newNode, false, o1.m_size⟩) := by
                rw [avl_insert]
                simp only [hp, if_false, deref, hc, hk, hpk, if_true, e1, f1, e4, htall,
                  Bool.false_eq_true]
              rw [hvl]
              refine ⟨fun h1 => by simp at h1, fun o2 h1 => ?_⟩
              simp only [Option.some.injEq] at h1
              subst h1
              exact ⟨_, _, _, hs, f2, e3, e3b, rfl, e5, hperm, hfr2⟩
            | true =>
              have hl2 : Holds (s1.write p ⟨o1.subRoot, pr, k, v, b⟩) o1.subRoot o.subRoot F1 :=
                holds_write _ _ _ _ _ _ e2 hpF1
              have hr2 : Holds (s1.write p ⟨o1.subRoot, pr, k, v, b⟩) pr r Fr :=
                holds_write _ _ _ _ _ _ hr1 n2
              have hfr3 : ∀ (n : NodeObject K V) (x : Nat), x ∉ p :: (Fl ++ Fr) → x ≠ a →
                  ((s1.write p ⟨o1.subRoot, pr, k, v, b⟩).write p n) x = s x := by
                intro n x hx hxa
                have hxp : x ≠ p := fun e => hx (by rw [e]; exact List.mem_cons_self _ _)
                rw [write_other _ _ _ _ hxp]
                exact hfr2 x hx hxa
              cases b with
              | EqualHeight =>
                obtain ⟨g1, g2⟩ := holds_set_balance _ p o1.subRoot pr k v EqualHeight LeftHigher
                  o.subRoot r F1 Fr hp (write_same _ _ _) hl2 hr2 hpF1 n2
                have hvl : AvlTree.avl_insert pred alloc key value (node l k v EqualHeight r)
                    m_size = some ⟨node o.subRoot k v LeftHigher r, o.newNode, true, o.m_size⟩ := by
                  rw [AvlTree.avl_insert]
                  simp only [hk, hpk, if_false, if_true, hv, htall]
                have hs : avl_insert pred a key value (fuel + 1) s p m_size =
                    some ((s1.write p ⟨o1.subRoot, pr, k, v, EqualHeight⟩).write p
                      ⟨o1.subRoot, pr, k, v, LeftHigher⟩, ⟨p, o1.newNode, true, o1.m_size⟩) := by
                  rw [avl_insert]
                  simp only [hp, if_false, deref, hc, hk, hpk, if_true, e1, f1, e4, htall,
                    write_same, g1]
                rw [hvl]
                refine ⟨fun h1 => by simp at h1, fun o2 h1 => ?_⟩
                simp only [Option.some.injEq] at h1
                subst h1
                exact ⟨_, _, _, hs, g2, e3, e3b, rfl, e5, hperm, hfr3 _⟩
              | RightHigher =>
                obtain ⟨g1, g2⟩ := holds_set_balance _ p o1.subRoot pr k v RightHigher EqualHeight
                  o.subRoot r F1 Fr hp (write_same _ _ _) hl2 hr2 hpF1 n2
                have hvl : AvlTree.avl_insert pred alloc key value (node l k v RightHigher r)
                    m_size =
                    some ⟨node o.subRoot k v EqualHeight r, o.newNode, false, o.m_size⟩ := by
                  rw [AvlTree.avl_insert]
                  simp only [hk, hpk, if_false, if_true, hv, htall]
                have hs : avl_insert pred a key value (fuel + 1) s p m_size =
                    some ((s1.write p ⟨o1.subRoot, pr, k, v, RightHigher⟩).write p
                      ⟨o1.subRoot, pr, k, v, EqualHeight⟩,
                      ⟨p, o1.newNode, false, o1.m_size⟩) := by
                  rw [avl_insert]
                  simp only [hp, if_false, deref, hc, hk, hpk, if_true, e1, f1, e4, htall,
                    write_same, g1]
                rw [hvl]
                refine ⟨fun h1 => by simp at h1, fun o2 h1 => ?_⟩
                simp only [Option.some.injEq] at h1
                subst h1
                exact ⟨_, _, _, hs, g2, e3, e3b, rfl, e5, hperm, hfr3 _⟩
              | LeftHigher =>
                obtain ⟨b1, b2⟩ := balance_left_holds _ p _ _ f2 hnd
                cases hb : AvlTree.balance_left (node o.subRoot k v LeftHigher r) with
                | none =>
                  have hvl : AvlTree.avl_insert pred alloc key value (node l k v LeftHigher r)
                      m_size = none := by
                    rw [AvlTree.avl_insert]
                    simp only [hk, hpk, if_false, if_true, hv, htall, hb]
                  have hs : avl_insert pred a key value (fuel + 1) s p m_size = none := by
                    rw [avl_insert]
                    simp only [hp, if_false, deref, hc, hk, hpk, if_true, e1, f1, e4, htall,
                      write_same, b1 hb]
                  rw [hvl]
                  exact ⟨fun _ => hs, fun o2 h1 => by simp at h1⟩
                | some t1 =>
                  obtain ⟨s3, q, F3, c1, c2, c3, c4⟩ := b2 t1 hb
                  have hvl : AvlTree.avl_insert pred alloc key value (node l k v LeftHigher r)
                      m_size = some ⟨t1, o.newNode, false, o.m_size⟩ := by
                    rw [AvlTree.avl_insert]
                    simp only [hk, hpk, if_false, if_true, hv, htall, hb]
                  have hs : avl_insert pred a key value (fuel + 1) s p m_size =
                      some (s3, ⟨q, o1.newNode, false, o1.m_size⟩) := by
                    rw [avl_insert]
                    simp only [hp, if_false, deref, hc, hk, hpk, if_true, e1, f1, e4, htall,
                      write_same, c1]
                  rw [hvl]
                  refine ⟨fun h1 => by simp at h1, fun o2 h1 => ?_⟩
                  simp only [Option.some.injEq] at h1
                  subst h1
                  refine ⟨_, _, _, hs, c2, e3, e3b, rfl, e5, c3.trans hperm, ?_⟩
                  intro x hx hxa
                  rw [c4 x (hnotin x hx hxa)]
                  exact hfr2 x hx hxa
        · rw [Bool.not_eq_true] at hpk
          obtain ⟨ih1, ih2⟩ := ihr fuel s pr Fr m_size hr n4 ha3 hfr
          cases hv : AvlTree.avl_insert pred alloc key value r m_size with
          | none =>
            have hvl : AvlTree.avl_insert pred alloc key value (node l k v b r) m_size = none := by
              rw [AvlTree.avl_insert]
              simp only [hk, hpk, if_false, if_true, Bool.false_eq_true, hv]
            rw [hvl]
            refine ⟨fun _ => ?_, fun o h1 => by simp at h1⟩
            simp [avl_insert, hp, deref, hc, hk, hpk, ih1 hv]
          | some o =>
            obtain ⟨s1, o1, F1, e1, e2, e3, e3b, e4, e5, e6, e7⟩ := ih2 o hv
            -- the store after the pointer `m_right` is set
            have hpF1 : p ∉ F1 := by
              intro hx
              have := e6.mem_iff.1 hx
              split at this
              · simp only [List.mem_cons] at this
                rcases this with e | e
                · exact ha1 e.symm
                · exact n2 e
              · exact n2 this
            have hc1 : s1 p = some ⟨pl, pr, k, v, b⟩ := by
              rw [e7 p n2 (fun e => ha1 e.symm), hc]
            have hl1 : Holds s1 pl l Fl :=
              holds_frame s s1 l pl Fl hl
                (fun x hx => e7 x (n5 x hx) (fun e => ha2 (e ▸ hx)))
            obtain ⟨f1, f2⟩ :=
              holds_set_right s1 p pl pr o1.subRoot k v b l o.subRoot Fl F1 hp hc1 hl1 e2 n1 hpF1
            have hperm := perm_node_right p a o.newNode F1 Fl Fr e6
            have hnd : (p :: (Fl ++ F1)).Nodup := by
              refine hperm.nodup_iff.2 ?_
              split
              · refine List.nodup_cons.2 ⟨?_, hn0⟩
                simp only [List.mem_cons, List.mem_append, not_or]
                exact ⟨ha1, ha2, ha3⟩
              · exact hn0
            have hfr2 : ∀ x, x ∉ p :: (Fl ++ Fr) → x ≠ a →
                (s1.write p ⟨pl, o1.subRoot, k, v, b⟩) x = s x := by
              intro x hx hxa
              simp only [List.mem_cons, List.mem_append, not_or] at hx
              rw [write_other _ _ _ _ hx.1, e7 x hx.2.2 hxa]
            have hnotin : ∀ x, x ∉ p :: (Fl ++ Fr) → x ≠ a → x ∉ p :: (Fl ++ F1) := by
              intro x hx hxa hx2
              have := hperm.mem_iff.1 hx2
              split at this
              · simp only [List.mem_cons] at this
                rcases this with e | e
                · exact hxa e
                · exact hx (List.mem_cons.2 e)
              · exact hx this
            cases htall : o.taller with
            | false =>
              have hvl : AvlTree.avl_insert pred alloc key value (node l k v b r) m_size =
                  some ⟨node l k v b o.subRoot, o.newNode, false, o.m_size⟩ := by
                rw [AvlTree.avl_insert]
                simp only [hk, hpk, if_false, if_true, Bool.false_eq_true, hv, htall, Bool.false_eq_true]
              have hs : avl_insert pred a key value (fuel + 1) s p m_size =
                  some (s1.write p ⟨pl, o1.subRoot, k, v, b⟩,
                    ⟨p, o1.newNode, false, o1.m_size⟩) := by
                rw [avl_insert]
                simp only [hp, if_false, deref, hc, hk, hpk, if_true, Bool.false_eq_true, e1, f1, e4, htall,
                  Bool.false_eq_true]
              rw [hvl]
              refine ⟨fun h1 => by simp at h1, fun o2 h1 => ?_⟩
              simp only [Option.some.injEq] at h1
              subst h1
              exact ⟨_, _, _, hs, f2, e3, e3b, rfl, e5, hperm, hfr2⟩
            | true =>
              have hl2 : Holds (s1.write p ⟨pl, o1.subRoot, k, v, b⟩) pl l Fl :=
                holds_write _ _ _ _ _ _ hl1 n1
              have hr2 : Holds (s1.write p ⟨pl, o1.subRoot, k, v, b⟩) o1.subRoot o.subRoot F1 :=
                holds_write _ _ _ _ _ _ e2 hpF1
              have hfr3 : ∀ (n : NodeObject K V) (x : Nat), x ∉ p :: (Fl ++ Fr) → x ≠ a →
                  ((s1.write p ⟨pl, o1.subRoot, k, v, b⟩).write p n) x = s x := by
                intro n x hx hxa
                have hxp : x ≠ p := fun e => hx (by rw [e]; exact List.mem_cons_self _ _)
                rw [write_other _ _ _ _ hxp]
                exact hfr2 x hx hxa
              cases b with
              | EqualHeight =>
                obtain ⟨g1, g2⟩ := holds_set_balance _ p pl o1.subRoot k v EqualHeight RightHigher
                  l o.subRoot Fl F1 hp (write_same _ _ _) hl2 hr2 n1 hpF1
                have hvl : AvlTree.avl_insert pred alloc key value (node l k v EqualHeight r)
                    m_size =
                    some ⟨node l k v RightHigher o.subRoot, o.newNode, true, o.m_size⟩ := by
                  rw [AvlTree.avl_insert]
                  simp only [hk, hpk, if_false, if_true, Bool.false_eq_true, hv, htall]
                have hs : avl_insert pred a key value (fuel + 1) s p m_size =
                    some ((s1.write p ⟨pl, o1.subRoot, k, v, EqualHeight⟩).write p
                      ⟨pl, o1.subRoot, k, v, RightHigher⟩,
                      ⟨p, o1.newNode, true, o1.m_size⟩) := by
                  rw [avl_insert]
                  simp only [hp, if_false, deref, hc, hk, hpk, if_true, Bool.false_eq_true, e1, f1, e4, htall,
                    write_same, g1]
                rw [hvl]
                refine ⟨fun h1 => by simp at h1, fun o2 h1 => ?_⟩
                simp only [Option.some.injEq] at h1
                subst h1
                exact ⟨_, _, _, hs, g2, e3, e3b, rfl, e5, hperm, hfr3 _⟩
              | LeftHigher =>
                obtain ⟨g1, g2⟩ := holds_set_balance _ p pl o1.subRoot k v LeftHigher EqualHeight
                  l o.subRoot Fl F1 hp (write_same _ _ _) hl2 hr2 n1 hpF1
                have hvl : AvlTree.avl_insert pred alloc key value (node l k v LeftHigher r)
                    m_size =
                    some ⟨node l k v EqualHeight o.subRoot, o.newNode, false, o.m_size⟩ := by
                  rw [AvlTree.avl_insert]
                  simp only [hk, hpk, if_false, if_true, Bool.false_eq_true, hv, htall]
                have hs : avl_insert pred a key value (fuel + 1) s p m_size =
                    some ((s1.write p ⟨pl, o1.subRoot, k, v, LeftHigher⟩).write p
                      ⟨pl, o1.subRoot, k, v, EqualHeight⟩,
                      ⟨p, o1.newNode, false, o1.m_size⟩) := by
                  rw [avl_insert]
                  simp only [hp, if_false, deref, hc, hk, hpk, if_true, Bool.false_eq_true, e1, f1, e4, htall,
                    write_same, g1]
                rw [hvl]
                refine ⟨fun h1 => by simp at h1, fun o2 h1 => ?_⟩
                simp only [Option.some.injEq] at h1
                subst h1
                exact ⟨_, _, _, hs, g2, e3, e3b, rfl, e5, hperm, hfr3 _⟩
              | RightHigher =>
                obtain ⟨b1, b2⟩ := balance_right_holds _ p _ _ f2 hnd
                cases hb : AvlTree.balance_right (node l k v RightHigher o.subRoot) with
                | none =>
                  have hvl : AvlTree.avl_insert pred alloc key value (node l k v RightHigher r)
                      m_size = none := by
                    rw [AvlTree.avl_insert]
                    simp only [hk, hpk, if_false, if_true, Bool.false_eq_true, hv, htall, hb]
                  have hs : avl_insert pred a key value (fuel + 1) s p m_size = none := by
                    rw [avl_insert]
                    simp only [hp, if_false, deref, hc, hk, hpk, if_true, Bool.false_eq_true, e1, f1, e4, htall,
                      write_same, b1 hb]
                  rw [hvl]
                  exact ⟨fun _ => hs, fun o2 h1 => by simp at h1⟩
                | some t1 =>
                  obtain ⟨s3, q, F3, c1, c2, c3, c4⟩ := b2 t1 hb
                  have hvl : AvlTree.avl_insert pred alloc key value (node l k v RightHigher r)
                      m_size = some ⟨t1, o.newNode, false, o.m_size⟩ := by
                    rw [AvlTree.avl_insert]
                    simp only [hk, hpk, if_false, if_true, Bool.false_eq_true, hv, htall, hb]
                  have hs : avl_insert pred a key value (fuel + 1) s p m_size =
                      some (s3, ⟨q, o1.newNode, false, o1.m_size⟩) := by
                    rw [avl_insert]
                    simp only [hp, if_false, deref, hc, hk, hpk, if_true, Bool.false_eq_true, e1, f1, e4, htall,
                      write_same, c1]
                  rw [hvl]
                  refine ⟨fun h1 => by simp at h1, fun o2 h1 => ?_⟩
                  simp only [Option.some.injEq] at h1
                  subst h1
                  refine ⟨_, _, _, hs, c2, e3, e3b, rfl, e5, c3.trans hperm, ?_⟩
                  intro x hx hxa
                  rw [c4 x (hnotin x hx hxa)]
                  exact hfr2 x hx hxa

theorem holds_ptr_eq_zero_iff (s : Store K V) (p : Nat) (t : AvlTreeNode K V) (F : List Nat)
    (h : Holds s p t F) : p = 0 ↔ t = nil := by
  cases t with
  | nil => exact ⟨fun _ => rfl, fun _ => h.1⟩
  | node l k v b r => exact ⟨fun e => absurd e h.1, fun e => by simp at e⟩

theorem holds_root_mem (s : Store K V) (p : Nat) (l r : AvlTreeNode K V) (k : K) (v : V)
    (b : BalanceFactor) (F : List Nat) (h : Holds s p (node l k v b r) F) : p ∈ F := by
  obtain ⟨_, _, _, _, _, _, _, _, hF⟩ := h
  rw [hF]; exact List.mem_cons_self _ _

/-- The loop of `find_logical_predecessor` on a tree the store holds. -/
theorem rightmost_holds (s : Store K V) (t : AvlTreeNode K V) :
    ∀ (fuel : Nat) (p : Nat) (F : List Nat), Holds s p t F → AvlTree.height t ≤ fuel →
      (AvlTree.rightmost t = none → rightmost fuel s p = none) ∧
      ∀ kv, AvlTree.rightmost t = some kv →
        ∃ q n, rightmost fuel s p = some q ∧ q ∈ F ∧ q ≠ 0 ∧ s q = some n ∧ n.key = kv.1 ∧
          n.value = kv.2 := by
  induction t with
  | nil =>
    intro fuel p F h _
    refine ⟨fun _ => ?_, fun kv h1 => by simp [AvlTree.rightmost] at h1⟩
    rw [h.1]
    cases fuel <;> simp [rightmost, deref]
  | node l k v b r _ ihr =>
    intro fuel p F h hf
    obtain ⟨hp, pl, pr, Fl, Fr, hc, hl, hr, hF⟩ := h
    subst hF
    cases fuel with
    | zero => simp [AvlTree.height] at hf
    | succ fuel =>
      have hfr : AvlTree.height r ≤ fuel := by simp only [AvlTree.height] at hf; omega
      cases r with
      | nil =>
        refine ⟨fun h1 => by simp [AvlTree.rightmost] at h1, fun kv h1 => ?_⟩
        simp only [AvlTree.rightmost, Option.some.injEq] at h1
        subst h1
        exact ⟨p, _, by simp [rightmost, deref, hp, hc, hr.1], List.mem_cons_self _ _, hp, hc,
          rfl, rfl⟩
      | node rl rk rv rb rr =>
        obtain ⟨i1, i2⟩ := ihr fuel pr Fr hr hfr
        have hpr : pr ≠ 0 := hr.1
        have e : AvlTree.rightmost (node l k v b (node rl rk rv rb rr)) =
            AvlTree.rightmost (node rl rk rv rb rr) := by
          simp [AvlTree.rightmost]
        have es : rightmost (fuel + 1) s p = rightmost fuel s pr := by
          simp [rightmost, deref, hp, hc, hpr]
        rw [e, es]
        refine ⟨i1, fun kv h1 => ?_⟩
        obtain ⟨q, n, e1, e2, e3⟩ := i2 kv h1
        exact ⟨q, n, e1, by simp [e2], e3⟩

theorem count_le_nodup (F1 F : List Nat) (h : ∀ x, F1.count x ≤ F.count x) (hn : F.Nodup) :
    F1.Nodup := by
  rw [List.nodup_iff_count_le_one] at hn ⊢
  intro x
  exact le_trans (h x) (hn x)

theorem count_le_mem (F1 F : List Nat) (h : ∀ x, F1.count x ≤ F.count x) (x : Nat)
    (hx : x ∈ F1) : x ∈ F := by
  have := List.count_pos_iff.2 hx
  exact List.count_pos_iff.1 (lt_of_lt_of_le this (h x))

/-- `delete_node` on a tree the store holds. -/
theorem delete_node_holds (s : Store K V) (p : Nat) (t : AvlTreeNode K V) (F : List Nat)
    (m_size : Nat) (h : Holds s p t F) (hn : F.Nodup) :
    (AvlTree.delete_node t m_size = none → delete_node s p m_size = none) ∧
      ∀ d t1 m1, AvlTree.delete_node t m_size = some (d, t1, m1) →
        ∃ s1 q F1, delete_node s p m_size = some (d, s1, q, m1) ∧ Holds s1 q t1 F1 ∧
          (∀ x, F1.count x ≤ F.count x) ∧ (∀ x, x ∉ F → s1 x = s x) ∧
          (d = false → s1 = s ∧ q = p ∧ m1 = m_size) := by
  cases t with
  | nil =>
    refine ⟨fun _ => ?_, fun d t1 m1 h1 => by simp [AvlTree.delete_node] at h1⟩
    rw [h.1]; simp [delete_node, deref]
  | node l k v b r =>
    obtain ⟨hp, pl, pr, Fl, Fr, hc, hl, hr, hF⟩ := h
    subst hF
    rw [nodup_node] at hn
    obtain ⟨n1, n2, n3, n4, n5⟩ := hn
    cases l with
    | nil =>
      refine ⟨fun h1 => by simp [AvlTree.delete_node] at h1, fun d t1 m1 h1 => ?_⟩
      simp only [AvlTree.delete_node, Option.some.injEq, Prod.mk.injEq] at h1
      obtain ⟨e1, e2, e3⟩ := h1
      subst e1; subst e2; subst e3
      obtain ⟨hpl, hFl⟩ := hl
      subst hpl; subst hFl
      refine ⟨s.free p, pr, Fr, by simp [delete_node, deref, hp, hc],
        holds_free _ _ _ _ _ hr n2, ?_, ?_, by simp⟩
      · intro x
        simp only [List.nil_append, List.count_cons]
        omega
      · intro x hx
        simp only [List.nil_append, List.mem_cons, not_or] at hx
        exact free_other _ _ _ hx.1
    | node ll lk lv lb lr =>
      have hpl : pl ≠ 0 := hl.1
      cases r with
      | nil =>
        refine ⟨fun h1 => by simp [AvlTree.delete_node] at h1, fun d t1 m1 h1 => ?_⟩
        simp only [AvlTree.delete_node, Option.some.injEq, Prod.mk.injEq] at h1
        obtain ⟨e1, e2, e3⟩ := h1
        subst e1; subst e2; subst e3
        obtain ⟨hpr, hFr⟩ := hr
        subst hpr; subst hFr
        refine ⟨s.free p, pl, Fl, by simp [delete_node, deref, hp, hc, hpl],
          holds_free _ _ _ _ _ hl n1, ?_, ?_, by simp⟩
        · intro x
          simp only [List.append_nil, List.count_cons]
          omega
        · intro x hx
          simp only [List.append_nil, List.mem_cons, not_or] at hx
          exact free_other _ _ _ hx.1
      | node rl rk rv rb rr =>
        have hpr : pr ≠ 0 := hr.1
        refine ⟨fun h1 => by simp [AvlTree.delete_node] at h1, fun d t1 m1 h1 => ?_⟩
        simp only [AvlTree.delete_node, Option.some.injEq, Prod.mk.injEq] at h1
        obtain ⟨e1, e2, e3⟩ := h1
        subst e1; subst e2; subst e3
        exact ⟨s, p, _, by simp [delete_node, deref, hp, hc, hpl, hpr],
          ⟨hp, pl, pr, Fl, Fr, hc, hl, hr, rfl⟩, fun _ => le_refl _, fun _ _ => rfl,
          fun _ => ⟨rfl, rfl, rfl⟩⟩

/-- The closing `switch` of `avl_delete` on a tree the store holds. -/
theorem avl_delete_switch_holds (direction : AvlTree.Direction) (s : Store K V) (p : Nat)
    (t : AvlTreeNode K V) (F : List Nat) (shorter : Bool) (h : Holds s p t F) (hn : F.Nodup) :
    (AvlTree.avl_delete_switch direction t shorter = none →
        avl_delete_switch direction s p shorter = none) ∧
      ∀ t1 sh, AvlTree.avl_delete_switch direction t shorter = some (t1, sh) →
        ∃ s1 q F1, avl_delete_switch direction s p shorter = some (s1, q, sh) ∧
          Holds s1 q t1 F1 ∧ F1.Perm F ∧ ∀ x, x ∉ F → s1 x = s x := by
  cases direction with
  | EDir_None =>
    refine ⟨fun h1 => by simp [AvlTree.avl_delete_switch] at h1, fun t1 sh h1 => ?_⟩
    simp only [AvlTree.avl_delete_switch, Option.some.injEq, Prod.mk.injEq] at h1
    obtain ⟨e1, e2⟩ := h1
    subst e1; subst e2
    exact ⟨s, p, F, by simp [avl_delete_switch], h, List.Perm.refl _, fun _ _ => rfl⟩
  | EDir_LeftBranch =>
    cases t with
    | nil =>
      refine ⟨fun _ => ?_, fun t1 sh h1 => by simp [AvlTree.avl_delete_switch] at h1⟩
      rw [h.1]; simp [avl_delete_switch, deref]
    | node l k v b r =>
      have h0 := h
      obtain ⟨hp, pl, pr, Fl, Fr, hc, hl, hr, hF⟩ := h
      subst hF
      have hn0 := hn
      rw [nodup_node] at hn
      obtain ⟨n1, n2, n3, n4, n5⟩ := hn
      have hfr : ∀ (n : NodeObject K V) (x : Nat), x ∉ p :: (Fl ++ Fr) → (s.write p n) x = s x := by
        intro n x hx
        simp only [List.mem_cons, not_or] at hx
        exact write_other _ _ _ _ hx.1
      cases b with
      | LeftHigher =>
        obtain ⟨g1, g2⟩ := holds_set_balance s p pl pr k v LeftHigher EqualHeight l r Fl Fr hp hc
          hl hr n1 n2
        refine ⟨fun h1 => by simp [AvlTree.avl_delete_switch] at h1, fun t1 sh h1 => ?_⟩
        simp only [AvlTree.avl_delete_switch, Option.some.injEq, Prod.mk.injEq] at h1
        obtain ⟨e1, e2⟩ := h1
        subst e1; subst e2
        exact ⟨_, p, _, by simp [avl_delete_switch, deref, hp, hc, g1], g2, List.Perm.refl _,
          hfr _⟩
      | EqualHeight =>
        obtain ⟨g1, g2⟩ := holds_set_balance s p pl pr k v EqualHeight RightHigher l r Fl Fr hp
          hc hl hr n1 n2
        refine ⟨fun h1 => by simp [AvlTree.avl_delete_switch] at h1, fun t1 sh h1 => ?_⟩
        simp only [AvlTree.avl_delete_switch, Option.some.injEq, Prod.mk.injEq] at h1
        obtain ⟨e1, e2⟩ := h1
        subst e1; subst e2
        exact ⟨_, p, _, by simp [avl_delete_switch, deref, hp, hc, g1], g2, List.Perm.refl _,
          hfr _⟩
      | RightHigher =>
        cases r with
        | nil =>
          refine ⟨fun _ => ?_, fun t1 sh h1 => by simp [AvlTree.avl_delete_switch] at h1⟩
          simp [avl_delete_switch, deref, hp, hc, hr.1]
        | node rl rk rv rb rr =>
          obtain ⟨b1, b2⟩ := balance_right_holds s p _ _ h0 hn0
          have hr0 := hr
          obtain ⟨hpr, prl, prr, Frl, Frr, hcr, _, _, _⟩ := hr
          cases hb : AvlTree.balance_right (node l k v RightHigher (node rl rk rv rb rr)) with
          | none =>
            refine ⟨fun _ => ?_, fun t1 sh h1 => by simp [AvlTree.avl_delete_switch, hb] at h1⟩
            simp [avl_delete_switch, deref, hp, hc, hpr, hcr, b1 hb]
          | some t2 =>
            obtain ⟨s1, q, F1, c1, c2, c3, c4⟩ := b2 t2 hb
            refine ⟨fun h1 => by simp [AvlTree.avl_delete_switch, hb] at h1, fun t1 sh h1 => ?_⟩
            simp only [AvlTree.avl_delete_switch, hb, Option.some.injEq, Prod.mk.injEq] at h1
            obtain ⟨e1, e2⟩ := h1
            subst e1; subst e2
            exact ⟨s1, q, F1, by simp [avl_delete_switch, deref, hp, hc, hpr, hcr, c1], c2, c3,
              c4⟩
  | EDir_RightBranch =>
    cases t with
    | nil =>
      refine ⟨fun _ => ?_, fun t1 sh h1 => by simp [AvlTree.avl_delete_switch] at h1⟩
      rw [h.1]; simp [avl_delete_switch, deref]
    | node l k v b r =>
      have h0 := h
      obtain ⟨hp, pl, pr, Fl, Fr, hc, hl, hr, hF⟩ := h
      subst hF
      have hn0 := hn
      rw [nodup_node] at hn
      obtain ⟨n1, n2, n3, n4, n5⟩ := hn
      have hfr : ∀ (n : NodeObject K V) (x : Nat), x ∉ p :: (Fl ++ Fr) → (s.write p n) x = s x := by
        intro n x hx
        simp only [List.mem_cons, not_or] at hx
        exact write_other _ _ _ _ hx.1
      cases b with
      | RightHigher =>
        obtain ⟨g1, g2⟩ := holds_set_balance s p pl pr k v RightHigher EqualHeight l r Fl Fr hp
          hc hl hr n1 n2
        refine ⟨fun h1 => by simp [AvlTree.avl_delete_switch] at h1, fun t1 sh h1 => ?_⟩
        simp only [AvlTree.avl_delete_switch, Option.some.injEq, Prod.mk.injEq] at h1
        obtain ⟨e1, e2⟩ := h1
        subst e1; subst e2
        exact ⟨_, p, _, by simp [avl_delete_switch, deref, hp, hc, g1], g2, List.Perm.refl _,
          hfr _⟩
      | EqualHeight =>
        obtain ⟨g1, g2⟩ := holds_set_balance s p pl pr k v EqualHeight LeftHigher l r Fl Fr hp
          hc hl hr n1 n2
        refine ⟨fun h1 => by simp [AvlTree.avl_delete_switch] at h1, fun t1 sh h1 => ?_⟩
        simp only [AvlTree.avl_delete_switch, Option.some.injEq, Prod.mk.injEq] at h1
        obtain ⟨e1, e2⟩ := h1
        subst e1; subst e2
        exact ⟨_, p, _, by simp [avl_delete_switch, deref, hp, hc, g1], g2, List.Perm.refl _,
          hfr _⟩
      | LeftHigher =>
        cases l with
        | nil =>
          refine ⟨fun _ => ?_, fun t1 sh h1 => by simp [AvlTree.avl_delete_switch] at h1⟩
          simp [avl_delete_switch, deref, hp, hc, hl.1]
        | node ll lk lv lb lr =>
          obtain ⟨b1, b2⟩ := balance_left_holds s p _ _ h0 hn0
          have hl0 := hl
          obtain ⟨hpl, pll, plr, Fll, Flr, hcl, _, _, _⟩ := hl
          cases hb : AvlTree.balance_left (node (node ll lk lv lb lr) k v LeftHigher r) with
          | none =>
            refine ⟨fun _ => ?_, fun t1 sh h1 => by simp [AvlTree.avl_delete_switch, hb] at h1⟩
            simp [avl_delete_switch, deref, hp, hc, hpl, hcl, b1 hb]
          | some t2 =>
            obtain ⟨s1, q, F1, c1, c2, c3, c4⟩ := b2 t2 hb
            refine ⟨fun h1 => by simp [AvlTree.avl_delete_switch, hb] at h1, fun t1 sh h1 => ?_⟩
            simp only [AvlTree.avl_delete_switch, hb, Option.some.injEq, Prod.mk.injEq] at h1
            obtain ⟨e1, e2⟩ := h1
            subst e1; subst e2
            exact ⟨s1, q, F1, by simp [avl_delete_switch, deref, hp, hc, hpl, hcl, c1], c2, c3,
              c4⟩

/-- The end of a pass of `avl_delete` below the left pointer: the pointer `m_left` is set
and the closing `switch` is carried out. -/
theorem delete_tail_left (s3 : Store K V) (p pl pr q : Nat) (k : K) (v : V) (b : BalanceFactor)
    (l1 r : AvlTreeNode K V) (F1 Fr : List Nat) (hp : p ≠ 0)
    (hc : s3 p = some ⟨pl, pr, k, v, b⟩) (hl : Holds s3 q l1 F1) (hr : Holds s3 pr r Fr)
    (hnd : (p :: (F1 ++ Fr)).Nodup) (d : AvlTree.Direction) (sh : Bool) :
    setLeft s3 p q = some (s3.write p ⟨q, pr, k, v, b⟩) ∧
      (AvlTree.avl_delete_switch d (node l1 k v b r) sh = none →
        avl_delete_switch d (s3.write p ⟨q, pr, k, v, b⟩) p sh = none) ∧
      ∀ t1 sh1, AvlTree.avl_delete_switch d (node l1 k v b r) sh = some (t1, sh1) →
        ∃ s5 q5 F5, avl_delete_switch d (s3.write p ⟨q, pr, k, v, b⟩) p sh = some (s5, q5, sh1) ∧
          Holds s5 q5 t1 F5 ∧ F5.Perm (p :: (F1 ++ Fr)) ∧
          ∀ x, x ∉ p :: (F1 ++ Fr) → s5 x = s3 x := by
  have hn0 := hnd
  rw [nodup_node] at hnd
  obtain ⟨n1, n2, _, _, _⟩ := hnd
  obtain ⟨f1, f2⟩ := holds_set_left s3 p pl pr q k v b l1 r F1 Fr hp hc hl hr n1 n2
  obtain ⟨g1, g2⟩ := avl_delete_switch_holds d _ p _ _ sh f2 hn0
  refine ⟨f1, g1, fun t1 sh1 h1 => ?_⟩
  obtain ⟨s5, q5, F5, c1, c2, c3, c4⟩ := g2 t1 sh1 h1
  refine ⟨s5, q5, F5, c1, c2, c3, fun x hx => ?_⟩
  rw [c4 x hx]
  exact write_other _ _ _ _ (fun e => hx (by rw [e]; exact List.mem_cons_self _ _))

/-- The end of a pass of `avl_delete` below the right pointer. -/
theorem delete_tail_right (s3 : Store K V) (p pl pr q : Nat) (k : K) (v : V) (b : BalanceFactor)
    (l r1 : AvlTreeNode K V) (Fl F1 : List Nat) (hp : p ≠ 0)
    (hc : s3 p = some ⟨pl, pr, k, v, b⟩) (hl : Holds s3 pl l Fl) (hr : Holds s3 q r1 F1)
    (hnd : (p :: (Fl ++ F1)).Nodup) (d : AvlTree.Direction) (sh : Bool) :
    setRight s3 p q = some (s3.write p ⟨pl, q, k, v, b⟩) ∧
      (AvlTree.avl_delete_switch d (node l k v b r1) sh = none →
        avl_delete_switch d (s3.write p ⟨pl, q, k, v, b⟩) p sh = none) ∧
      ∀ t1 sh1, AvlTree.avl_delete_switch d (node l k v b r1) sh = some (t1, sh1) →
        ∃ s5 q5 F5, avl_delete_switch d (s3.write p ⟨pl, q, k, v, b⟩) p sh = some (s5, q5, sh1) ∧
          Holds s5 q5 t1 F5 ∧ F5.Perm (p :: (Fl ++ F1)) ∧
          ∀ x, x ∉ p :: (Fl ++ F1) → s5 x = s3 x := by
  have hn0 := hnd
  rw [nodup_node] at hnd
  obtain ⟨n1, n2, _, _, _⟩ := hnd
  obtain ⟨f1, f2⟩ := holds_set_right s3 p pl pr q k v b l r1 Fl F1 hp hc hl hr n1 n2
  obtain ⟨g1, g2⟩ := avl_delete_switch_holds d _ p _ _ sh f2 hn0
  refine ⟨f1, g1, fun t1 sh1 h1 => ?_⟩
  obtain ⟨s5, q5, F5, c1, c2, c3, c4⟩ := g2 t1 sh1 h1
  refine ⟨s5, q5, F5, c1, c2, c3, fun x hx => ?_⟩
  rw [c4 x hx]
  exact write_other _ _ _ _ (fun e => hx (by rw [e]; exact List.mem_cons_self _ _))

theorem nodup_left_of_count (p : Nat) (F1 Fl Fr : List Nat) (h : ∀ x, F1.count x ≤ Fl.count x)
    (hn : (p :: (Fl ++ Fr)).Nodup) : (p :: (F1 ++ Fr)).Nodup := by
  refine count_le_nodup _ _ (fun x => ?_) hn
  simp only [List.count_cons, List.count_append]
  have := h x
  omega

theorem nodup_right_of_count (p : Nat) (F1 Fl Fr : List Nat) (h : ∀ x, F1.count x ≤ Fr.count x)
    (hn : (p :: (Fl ++ Fr)).Nodup) : (p :: (Fl ++ F1)).Nodup := by
  refine count_le_nodup _ _ (fun x => ?_) hn
  simp only [List.count_cons, List.count_append]
  have := h x
  omega

theorem not_mem_left_of_count (p : Nat) (F1 Fl Fr : List Nat)
    (h : ∀ x, F1.count x ≤ Fl.count x) (x : Nat) (hx : x ∉ p :: (Fl ++ Fr)) :
    x ∉ p :: (F1 ++ Fr) := by
  simp only [List.mem_cons, List.mem_append, not_or] at hx ⊢
  exact ⟨hx.1, fun e => hx.2.1 (count_le_mem _ _ h x e), hx.2.2⟩

theorem not_mem_right_of_count (p : Nat) (F1 Fl Fr : List Nat)
    (h : ∀ x, F1.count x ≤ Fr.count x) (x : Nat) (hx : x ∉ p :: (Fl ++ Fr)) :
    x ∉ p :: (Fl ++ F1) := by
  simp only [List.mem_cons, List.mem_append, not_or] at hx ⊢
  exact ⟨hx.1, hx.2.1, fun e => hx.2.2 (count_le_mem _ _ h x e)⟩

theorem count_left_le (p : Nat) (F5 F1 Fl Fr : List Nat) (hp : F5.Perm (p :: (F1 ++ Fr)))
    (h : ∀ x, F1.count x ≤ Fl.count x) (x : Nat) :
    F5.count x ≤ (p :: (Fl ++ Fr)).count x := by
  rw [hp.count_eq]
  simp only [List.count_cons, List.count_append]
  have := h x
  omega

theorem count_right_le (p : Nat) (F5 F1 Fl Fr : List Nat) (hp : F5.Perm (p :: (Fl ++ F1)))
    (h : ∀ x, F1.count x ≤ Fr.count x) (x : Nat) :
    F5.count x ≤ (p :: (Fl ++ Fr)).count x := by
  rw [hp.count_eq]
  simp only [List.count_cons, List.count_append]
  have := h x
  omega

/-- `avl_delete` on a tree the store holds: with a bound above the height of the tree, the
store-level call fails when the call on the tree as a value does, and otherwise leaves the
store holding the resulting tree in nodes it had; the rest of the store is unchanged. -/
theorem avl_delete_holds [DecidableEq K] (pred : K → K → Bool) (t : AvlTreeNode K V) :
    ∀ (fuel : Nat) (key : K) (s : Store K V) (p : Nat) (F : List Nat) (m_size : Nat),
      Holds s p t F → F.Nodup → AvlTree.height t < fuel →
      (AvlTree.avl_delete pred key t m_size = none →
        avl_delete pred fuel key s p m_size = none) ∧
      ∀ o, AvlTree.avl_delete pred key t m_size = some o →
        ∃ s1 o1 F1, avl_delete pred fuel key s p m_size = some (s1, o1) ∧
          Holds s1 o1.subRoot o.subRoot F1 ∧ o1.shorter = o.shorter ∧ o1.m_size = o.m_size ∧
          (∀ x, F1.count x ≤ F.count x) ∧ ∀ x, x ∉ F → s1 x = s x := by
  induction t with
  | nil =>
    intro fuel key s p F m_size h hn hf
    obtain ⟨hp, hF⟩ := h
    subst hp; subst hF
    cases fuel with
    | zero => simp [AvlTree.height] at hf
    | succ fuel =>
      refine ⟨fun h1 => by simp [AvlTree.avl_delete] at h1, fun o h1 => ?_⟩
      simp only [AvlTree.avl_delete, Option.some.injEq] at h1
      subst h1
      exact ⟨s, ⟨0, false, m_size⟩, [], by simp [avl_delete], ⟨rfl, rfl⟩, rfl, rfl,
        fun _ => le_refl _, fun _ _ => rfl⟩
  | node l k v b r ihl ihr =>
    intro fuel key s p F m_size h hn hf
    have h0 := h
    obtain ⟨hp, pl, pr, Fl, Fr, hc, hl, hr, hF⟩ := h
    subst hF
    cases fuel with
    | zero => simp [AvlTree.height] at hf
    | succ fuel =>
      have hn0 := hn
      rw [nodup_node] at hn
      obtain ⟨n1, n2, n3, n4, n5⟩ := hn
      have hfl : AvlTree.height l < fuel := by simp only [AvlTree.height] at hf; omega
      have hfr : AvlTree.height r < fuel := by simp only [AvlTree.height] at hf; omega
      by_cases hk : key = k
      · subst hk
        obtain ⟨d1, d2⟩ := delete_node_holds s p _ _ m_size h0 hn0
        cases hd : AvlTree.delete_node (node l key v b r) m_size with
        | none =>
          have hvl : AvlTree.avl_delete pred key (node l key v b r) m_size = none := by
            rw [AvlTree.avl_delete]
            simp only [if_true, hd]
          have hs : avl_delete pred (fuel + 1) key s p m_size = none := by
            rw [avl_delete]
            simp only [hp, if_false, deref, hc, if_true, d1 hd]
          rw [hvl]
          exact ⟨fun _ => hs, fun o h1 => by simp at h1⟩
        | some res =>
          obtain ⟨d, t1, m1⟩ := res
          obtain ⟨s1, q, F1, c1, c2, c3, c4, c5⟩ := d2 d t1 m1 hd
          cases d with
          | true =>
            have hvl : AvlTree.avl_delete pred key (node l key v b r) m_size =
                some ⟨t1, true, m1⟩ := by
              rw [AvlTree.avl_delete]
              simp only [if_true, hd]
            have hs : avl_delete pred (fuel + 1) key s p m_size =
                some (s1, ⟨q, true, m1⟩) := by
              rw [avl_delete]
              simp only [hp, if_false, deref, hc, if_true, c1]
            rw [hvl]
            refine ⟨fun h1 => by simp at h1, fun o h1 => ?_⟩
            simp only [Option.some.injEq] at h1
            subst h1
            exact ⟨s1, _, F1, hs, c2, rfl, rfl, c3, c4⟩
          | false =>
            obtain ⟨c6, c7, c8⟩ := c5 rfl
            subst c6; subst c7; subst c8
            obtain ⟨r1, r2⟩ := rightmost_holds s1 l fuel pl Fl hl (le_of_lt hfl)
            cases hrm : AvlTree.rightmost l with
            | none =>
              have hvl : AvlTree.avl_delete pred key (node l key v b r) m1 = none := by
                rw [AvlTree.avl_delete]
                simp only [if_true, hd, AvlTree.find_logical_predecessor, hrm]
              have hs : avl_delete pred (fuel + 1) key s1 q m1 = none := by
                rw [avl_delete]
                simp only [hp, if_false, deref, hc, if_true, c1, find_logical_predecessor,
                  r1 hrm]
              rw [hvl]
              exact ⟨fun _ => hs, fun o h1 => by simp at h1⟩
            | some kv =>
              obtain ⟨pk, pv⟩ := kv
              obtain ⟨w, nw, w1, w2, w3, w4, w5, w6⟩ := r2 (pk, pv) hrm
              simp only at w5 w6
              have hwp : w ≠ q := fun e => n1 (e ▸ w2)
              have hq2 : (s1.write q ⟨pl, pr, pk, pv, b⟩) w = some nw := by
                rw [write_other _ _ _ _ hwp, w4]
              have hl2 : Holds (s1.write q ⟨pl, pr, pk, pv, b⟩) pl l Fl :=
                holds_write _ _ _ _ _ _ hl n1
              obtain ⟨ih1, ih2⟩ := ihl fuel pk (s1.write q ⟨pl, pr, pk, pv, b⟩) pl Fl m1 hl2 n3 hfl
              cases hv : AvlTree.avl_delete pred pk l m1 with
              | none =>
                have hvl : AvlTree.avl_delete pred key (node l key v b r) m1 = none := by
                  rw [AvlTree.avl_delete]
                  simp only [if_true, hd, AvlTree.find_logical_predecessor, hrm, hv]
                have hs : avl_delete pred (fuel + 1) key s1 q m1 = none := by
                  rw [avl_delete]
                  simp only [hp, if_false, deref, hc, if_true, c1, find_logical_predecessor,
                    w1, copyDataOnly, w3, w4, w5, w6, hq2, write_same, ih1 hv]
                rw [hvl]
                exact ⟨fun _ => hs, fun o h1 => by simp at h1⟩
              | some o =>
                obtain ⟨s3, o1, F3, e1, e2, e3, e4, e5, e6⟩ := ih2 o hv
                have hc3 : s3 q = some ⟨pl, pr, pk, pv, b⟩ := by
                  rw [e6 q n1, write_same]
                have hr3 : Holds s3 pr r Fr := by
                  refine holds_frame s1 s3 r pr Fr hr (fun x hx => ?_)
                  rw [e6 x (fun e => n5 x e hx)]
                  exact write_other _ _ _ _ (fun e => n2 (e ▸ hx))
                have hnd := nodup_left_of_count q F3 Fl Fr e5 hn0
                obtain ⟨f1, f2, f3⟩ := delete_tail_left s3 q pl pr o1.subRoot pk pv b o.subRoot r
                  F3 Fr hp hc3 e2 hr3 hnd
                  (if o.shorter then .EDir_LeftBranch else .EDir_None) o.shorter
                cases hsw : AvlTree.avl_delete_switch
                    (if o.shorter then .EDir_LeftBranch else .EDir_None)
                    (node o.subRoot pk pv b r) o.shorter with
                | none =>
                  have hvl : AvlTree.avl_delete pred key (node l key v b r) m1 = none := by
                    rw [AvlTree.avl_delete]
                    simp only [if_true, hd, AvlTree.find_logical_predecessor, hrm, hv, hsw]
                  have hs : avl_delete pred (fuel + 1) key s1 q m1 = none := by
                    rw [avl_delete]
                    simp only [hp, if_false, deref, hc, if_true, c1, find_logical_predecessor,
                      w1, copyDataOnly, w3, w4, w5, w6, hq2, write_same, e1, f1, e3, f2 hsw]
                  rw [hvl]
                  exact ⟨fun _ => hs, fun o h1 => by simp at h1⟩
                | some res =>
                  obtain ⟨t2, sh1⟩ := res
                  obtain ⟨s5, q5, F5, g1, g2, g3, g4⟩ := f3 t2 sh1 hsw
                  have hvl : AvlTree.avl_delete pred key (node l key v b r) m1 =
                      some ⟨t2, sh1, o.m_size⟩ := by
                    rw [AvlTree.avl_delete]
                    simp only [if_true, hd, AvlTree.find_logical_predecessor, hrm, hv, hsw]
                  have hs : avl_delete pred (fuel + 1) key s1 q m1 =
                      some (s5, ⟨q5, sh1, o1.m_size⟩) := by
                    rw [avl_delete]
                    simp only [hp, if_false, deref, hc, if_true, c1, find_logical_predecessor,
                      w1, copyDataOnly, w3, w4, w5, w6, hq2, write_same, e1, f1, e3, g1]
                  rw [hvl]
                  refine ⟨fun h1 => by simp at h1, fun o2 h1 => ?_⟩
                  simp only [Option.some.injEq] at h1
                  subst h1
                  refine ⟨s5, _, F5, hs, g2, rfl, e4, count_left_le q F5 F3 Fl Fr g3 e5, ?_⟩
                  intro x hx
                  rw [g4 x (not_mem_left_of_count q F3 Fl Fr e5 x hx)]
                  simp only [List.mem_cons, List.mem_append, not_or] at hx
                  rw [e6 x hx.2.1]
                  exact write_other _ _ _ _ hx.1
      · by_cases hpk : pred key k = true
        · obtain ⟨ih1, ih2⟩ := ihl fuel key s pl Fl m_size hl n3 hfl
          cases hv : AvlTree.avl_delete pred key l m_size with
          | none =>
            have hvl : AvlTree.avl_delete pred key (node l k v b r) m_size = none := by
              rw [AvlTree.avl_delete]
              simp only [hk, hpk, if_false, if_true, hv]
            have hs : avl_delete pred (fuel + 1) key s p m_size = none := by
              rw [avl_delete]
              simp only [hp, if_false, deref, hc, hk, hpk, if_true, ih1 hv]
            rw [hvl]
            exact ⟨fun _ => hs, fun o h1 => by simp at h1⟩
          | some o =>
            obtain ⟨s1, o1, F1, e1, e2, e3, e4, e5, e6⟩ := ih2 o hv
            have hc1 : s1 p = some ⟨pl, pr, k, v, b⟩ := by rw [e6 p n1, hc]
            have hr1 : Holds s1 pr r Fr :=
              holds_frame s s1 r pr Fr hr (fun x hx => e6 x (fun e => n5 x e hx))
            have hnd := nodup_left_of_count p F1 Fl Fr e5 hn0
            obtain ⟨f1, f2, f3⟩ := delete_tail_left s1 p pl pr o1.subRoot k v b o.subRoot r F1 Fr
              hp hc1 e2 hr1 hnd (if o.shorter then .EDir_LeftBranch else .EDir_None) o.shorter
            cases hsw : AvlTree.avl_delete_switch
                (if o.shorter then .EDir_LeftBranch else .EDir_None)
                (node o.subRoot k v b r) o.shorter with
            | none =>
              have hvl : AvlTree.avl_delete pred key (node l k v b r) m_size = none := by
                rw [AvlTree.avl_delete]
                simp only [hk, hpk, if_false, if_true, hv, hsw]
              have hs : avl_delete pred (fuel + 1) key s p m_size = none := by
                rw [avl_delete]
                simp only [hp, if_false, deref, hc, hk, hpk, if_true, e1, f1, e3, f2 hsw]
              rw [hvl]
              exact ⟨fun _ => hs, fun o h1 => by simp at h1⟩
            | some res =>
              obtain ⟨t1, sh1⟩ := res
              obtain ⟨s5, q5, F5, g1, g2, g3, g4⟩ := f3 t1 sh1 hsw
              have hvl : AvlTree.avl_delete pred key (node l k v b r) m_size =
                  some ⟨t1, sh1, o.m_size⟩ := by
                rw [AvlTree.avl_delete]
                simp only [hk, hpk, if_false, if_true, hv, hsw]
              have hs : avl_delete pred (fuel + 1) key s p m_size =
                  some (s5, ⟨q5, sh1, o1.m_size⟩) := by
                rw [avl_delete]
                simp only [hp, if_false, deref, hc, hk, hpk, if_true, e1, f1, e3, g1]
              rw [hvl]
              refine ⟨fun h1 => by simp at h1, fun o2 h1 => ?_⟩
              simp only [Option.some.injEq] at h1
              subst h1
              refine ⟨s5, _, F5, hs, g2, rfl, e4, count_left_le p F5 F1 Fl Fr g3 e5, ?_⟩
              intro x hx
              rw [g4 x (not_mem_left_of_count p F1 Fl Fr e5 x hx)]
              simp only [List.mem_cons, List.mem_append, not_or] at hx
              exact e6 x hx.2.1
        · rw [Bool.not_eq_true] at hpk
          obtain ⟨ih1, ih2⟩ := ihr fuel key s pr Fr m_size hr n4 hfr
          cases hv : AvlTree.avl_delete pred key r m_size with
          | none =>
            have hvl : AvlTree.avl_delete pred key (node l k v b r) m_size = none := by
              rw [AvlTree.avl_delete]
              simp only [hk, hpk, if_false, if_true, Bool.false_eq_true, hv]
            have hs : avl_delete pred (fuel + 1) key s p m_size = none := by
              rw [avl_delete]
              simp only [hp, if_false, deref, hc, hk, hpk, if_true, Bool.false_eq_true, ih1 hv]
            rw [hvl]
            exact ⟨fun _ => hs, fun o h1 => by simp at h1⟩
          | some o =>
            obtain ⟨s1, o1, F1, e1, e2, e3, e4, e5, e6⟩ := ih2 o hv
            have hc1 : s1 p = some ⟨pl, pr, k, v, b⟩ := by rw [e6 p n2, hc]
            have hl1 : Holds s1 pl l Fl :=
              holds_frame s s1 l pl Fl hl (fun x hx => e6 x (n5 x hx))
            have hnd := nodup_right_of_count p F1 Fl Fr e5 hn0
            obtain ⟨f1, f2, f3⟩ := delete_tail_right s1 p pl pr o1.subRoot k v b l o.subRoot Fl F1
              hp hc1 hl1 e2 hnd (if o.shorter then .EDir_RightBranch else .EDir_None) o.shorter
            cases hsw : AvlTree.avl_delete_switch
                (if o.shorter then .EDir_RightBranch else .EDir_None)
                (node l k v b o.subRoot) o.shorter with
            | none =>
              have hvl : AvlTree.avl_delete pred key (node l k v b r) m_size = none := by
                rw [AvlTree.avl_delete]
                simp only [hk, hpk, if_false, if_true, Bool.false_eq_true, hv, hsw]
              have hs : avl_delete pred (fuel + 1) key s p m_size = none := by
                rw [avl_delete]
                simp only [hp, if_false, deref, hc, hk, hpk, if_true, Bool.false_eq_true, e1, f1,
                  e3, f2 hsw]
              rw [hvl]
              exact ⟨fun _ => hs, fun o h1 => by simp at h1⟩
            | some res =>
              obtain ⟨t1, sh1⟩ := res
              obtain ⟨s5, q5, F5, g1, g2, g3, g4⟩ := f3 t1 sh1 hsw
              have hvl : AvlTree.avl_delete pred key (node l k v b r) m_size =
                  some ⟨t1, sh1, o.m_size⟩ := by
                rw [AvlTree.avl_delete]
                simp only [hk, hpk, if_false, if_true, Bool.false_eq_true, hv, hsw]
              have hs : avl_delete pred (fuel + 1) key s p m_size =
                  some (s5, ⟨q5, sh1, o1.m_size⟩) := by
                rw [avl_delete]
                simp only [hp, if_false, deref, hc, hk, hpk, if_true, Bool.false_eq_true, e1, f1,
                  e3, g1]
              rw [hvl]
              refine ⟨fun h1 => by simp at h1, fun o2 h1 => ?_⟩
              simp only [Option.some.injEq] at h1
              subst h1
              refine ⟨s5, _, F5, hs, g2, rfl, e4, count_right_le p F5 F1 Fl Fr g3 e5, ?_⟩
              intro x hx
              rw [g4 x (not_mem_right_of_count p F1 Fl Fr e5 x hx)]
              simp only [List.mem_cons, List.mem_append, not_or] at hx
              exact e6 x hx.2.2

/-- `avl_find` on a tree the store holds: the loop ends, at the null pointer when the key is
not found in the tree as a value and else at a node of the tree with the value found. -/
theorem avl_find_holds [LinearOrder K] (key : K) (s : Store K V) (t : AvlTreeNode K V) :
    ∀ (fuel : Nat) (p : Nat) (F : List Nat), Holds s p t F → AvlTree.height t < fuel →
      ∃ q, avl_find key fuel s p = some q ∧
        (AvlTree.avl_find key t = none → q = 0) ∧
        ∀ v, AvlTree.avl_find key t = some v →
          q ∈ F ∧ q ≠ 0 ∧ ∃ n, s q = some n ∧ n.value = v := by
  induction t with
  | nil =>
    intro fuel p F h hf
    cases fuel with
    | zero => simp [AvlTree.height] at hf
    | succ fuel =>
      rw [h.1]
      exact ⟨0, by simp [avl_find], fun _ => rfl, fun v h1 => by simp [AvlTree.avl_find] at h1⟩
  | node l k v b r ihl ihr =>
    intro fuel p F h hf
    obtain ⟨hp, pl, pr, Fl, Fr, hc, hl, hr, hF⟩ := h
    subst hF
    cases fuel with
    | zero => simp [AvlTree.height] at hf
    | succ fuel =>
      have hfl : AvlTree.height l < fuel := by simp only [AvlTree.height] at hf; omega
      have hfr : AvlTree.height r < fuel := by simp only [AvlTree.height] at hf; omega
      by_cases hk : key = k
      · subst hk
        refine ⟨p, by simp [avl_find, hp, deref, hc], fun h1 => by simp [AvlTree.avl_find] at h1,
          fun w h1 => ?_⟩
        simp only [AvlTree.avl_find, if_true, Option.some.injEq] at h1
        subst h1
        exact ⟨List.mem_cons_self _ _, hp, _, hc, rfl⟩
      · by_cases hlt : key < k
        · obtain ⟨q, e1, e2, e3⟩ := ihl fuel pl Fl hl hfl
          have hv : AvlTree.avl_find key (node l k v b r) = AvlTree.avl_find key l := by
            simp [AvlTree.avl_find, hk, hlt]
          rw [hv]
          refine ⟨q, by simp [avl_find, hp, deref, hc, hk, hlt, e1], e2, fun w h1 => ?_⟩
          obtain ⟨g1, g2⟩ := e3 w h1
          exact ⟨by simp [g1], g2⟩
        · obtain ⟨q, e1, e2, e3⟩ := ihr fuel pr Fr hr hfr
          have hv : AvlTree.avl_find key (node l k v b r) = AvlTree.avl_find key r := by
            simp [AvlTree.avl_find, hk, hlt]
          rw [hv]
          refine ⟨q, by simp [avl_find, hp, deref, hc, hk, hlt, e1], e2, fun w h1 => ?_⟩
          obtain ⟨g1, g2⟩ := e3 w h1
          exact ⟨by simp [g1], g2⟩

/-- `avl_find` reads the nodes of the tree only. -/
theorem avl_find_frame [LinearOrder K] (key : K) (s s1 : Store K V) (t : AvlTreeNode K V) :
    ∀ (fuel : Nat) (p : Nat) (F : List Nat), Holds s p t F → (∀ x ∈ F, s1 x = s x) →
      avl_find key fuel s1 p = avl_find key fuel s p := by
  induction t with
  | nil =>
    intro fuel p F h _
    rw [h.1]
    cases fuel <;> simp [avl_find]
  | node l k v b r ihl ihr =>
    intro fuel p F h hf
    obtain ⟨hp, pl, pr, Fl, Fr, hc, hl, hr, hF⟩ := h
    subst hF
    cases fuel with
    | zero => simp [avl_find]
    | succ fuel =>
      have hc1 : s1 p = some ⟨pl, pr, k, v, b⟩ := by rw [hf p (List.mem_cons_self _ _), hc]
      have e1 := ihl fuel pl Fl hl (fun x hx => hf x (by simp [hx]))
      have e2 := ihr fuel pr Fr hr (fun x hx => hf x (by simp [hx]))
      simp only [avl_find, hp, if_false, deref, hc, hc1, e1, e2]

/-- `internal_clean`, guarded by the test of the pointer as at its call sites, on a tree the
store holds: the nodes of the tree are freed and the rest of the store is unchanged. -/
theorem internal_clean_holds (t : AvlTreeNode K V) :
    ∀ (fuel : Nat) (s : Store K V) (p : Nat) (F : List Nat), Holds s p t F → F.Nodup →
      AvlTree.height t < fuel + 1 →
      ∃ s1, (if p ≠ 0 then internal_clean fuel s p else some s) = some s1 ∧
        (∀ x ∈ F, s1 x = none) ∧ ∀ x, x ∉ F → s1 x = s x := by
  induction t with
  | nil =>
    intro fuel s p F h _ _
    rw [h.1, h.2]
    exact ⟨s, by simp, fun x hx => by simp at hx, fun _ _ => rfl⟩
  | node l k v b r ihl ihr =>
    intro fuel s p F h hn hf
    obtain ⟨hp, pl, pr, Fl, Fr, hc, hl, hr, hF⟩ := h
    subst hF
    rw [nodup_node] at hn
    obtain ⟨n1, n2, n3, n4, n5⟩ := hn
    cases fuel with
    | zero => simp [AvlTree.height] at hf
    | succ fuel =>
      have hfl : AvlTree.height l < fuel + 1 := by simp only [AvlTree.height] at hf; omega
      have hfr : AvlTree.height r < fuel + 1 := by simp only [AvlTree.height] at hf; omega
      obtain ⟨s1, e1, e2, e3⟩ := ihl fuel s pl Fl hl n3 hfl
      have hc1 : s1 p = some ⟨pl, pr, k, v, b⟩ := by rw [e3 p n1, hc]
      have hr1 : Holds s1 pr r Fr :=
        holds_frame s s1 r pr Fr hr (fun x hx => e3 x (fun e => n5 x e hx))
      obtain ⟨s2, f1, f2, f3⟩ := ihr fuel s1 pr Fr hr1 n4 hfr
      have hc2 : s2 p = some ⟨pl, pr, k, v, b⟩ := by rw [f3 p n2, hc1]
      refine ⟨s2.free p, ?_, ?_, ?_⟩
      · simp only [hp, ne_eq, not_false_eq_true, if_true, internal_clean, deref, if_false, hc]
        simp only [ne_eq] at e1 f1
        simp only [e1, hc1, f1, hc2]
      · intro x hx
        simp only [List.mem_cons, List.mem_append] at hx
        by_cases hxp : x = p
        · rw [hxp]; exact free_same _ _
        · rw [free_other _ _ _ hxp]
          rcases hx with e | e | e
          · exact absurd e hxp
          · rw [f3 x (n5 x e)]; exact e2 x e
          · exact f2 x e
      · intro x hx
        simp only [List.mem_cons, List.mem_append, not_or] at hx
        rw [free_other _ _ _ hx.1, f3 x hx.2.2, e3 x hx.2.1]

/-- `copy` of a tree the store holds, into addresses that are not null, differ from each
other and are not nodes of the tree: with a bound above the height of the tree the call
returns, the store holds the same tree at the new root, in the first addresses of the list,
`m_size` has grown by the number of nodes, and the rest of the store is unchanged. -/
theorem copy_holds (t : AvlTreeNode K V) :
    ∀ (fuel : Nat) (addrs : List Nat) (s : Store K V) (p : Nat) (F : List Nat) (m_size : Nat),
      Holds s p t F → addrs.Nodup → (∀ a ∈ addrs, a ≠ 0 ∧ a ∉ F) →
      AvlTree.count t ≤ addrs.length → AvlTree.height t < fuel →
      ∃ s1 root, copy fuel addrs s p m_size =
          some (s1, root, m_size + AvlTree.count t, addrs.drop (AvlTree.count t)) ∧
        Holds s1 root t (addrs.take (AvlTree.count t)) ∧
        ∀ x, x ∉ addrs.take (AvlTree.count t) → s1 x = s x := by
  induction t with
  | nil =>
    intro fuel addrs s p F m_size h _ _ _ hf
    cases fuel with
    | zero => simp [AvlTree.height] at hf
    | succ fuel =>
      rw [h.1]
      exact ⟨s, 0, by simp [copy, AvlTree.count], by simp [AvlTree.count, Holds],
        fun _ _ => rfl⟩
  | node l k v b r ihl ihr =>
    intro fuel addrs s p F m_size h hnd hfresh hlen hf
    obtain ⟨hp, pl, pr, Fl, Fr, hc, hl, hr, hF⟩ := h
    subst hF
    cases fuel with
    | zero => simp [AvlTree.height] at hf
    | succ fuel =>
      have hfl : AvlTree.height l < fuel := by simp only [AvlTree.height] at hf; omega
      have hfr : AvlTree.height r < fuel := by simp only [AvlTree.height] at hf; omega
      cases addrs with
      | nil => simp [AvlTree.count] at hlen
      | cons a rest =>
        simp only [AvlTree.count, List.length_cons] at hlen
        obtain ⟨ha0, haF⟩ := hfresh a (List.mem_cons_self _ _)
        simp only [List.mem_cons, List.mem_append, not_or] at haF
        have hrest : ∀ x ∈ rest, x ≠ 0 ∧ x ≠ p ∧ x ∉ Fl ∧ x ∉ Fr := by
          intro x hx
          have := hfresh x (List.mem_cons_of_mem _ hx)
          simp only [List.mem_cons, List.mem_append, not_or] at this
          exact ⟨this.1, this.2.1, this.2.2.1, this.2.2.2⟩
        obtain ⟨har, hrnd⟩ := List.nodup_cons.1 hnd
        -- the new node
        have hl1 : Holds (s.write a ⟨0, 0, k, v, b⟩) pl l Fl :=
          holds_write _ _ _ _ _ _ hl haF.2.1
        obtain ⟨s2, left, e1, e2, e3⟩ := ihl fuel rest (s.write a ⟨0, 0, k, v, b⟩) pl Fl
          (m_size + 1) hl1 hrnd (fun x hx => ⟨(hrest x hx).1, (hrest x hx).2.2.1⟩)
          (by omega) hfl
        have hat : a ∉ rest.take (AvlTree.count l) := fun e => har (List.mem_of_mem_take e)
        have hpt : ∀ n, p ∉ rest.take n := fun n e => (hrest p (List.mem_of_mem_take e)).2.1 rfl
        have hc2a : s2 a = some ⟨0, 0, k, v, b⟩ := by rw [e3 a hat, write_same]
        have hc2p : s2 p = some ⟨pl, pr, k, v, b⟩ := by
          rw [e3 p (hpt _), write_other _ _ _ _ (fun e => haF.1 e.symm), hc]
        -- the left subtree is linked
        have hr3 : Holds ((s2.write a ⟨left, 0, k, v, b⟩)) pr r Fr := by
          refine holds_frame s _ r pr Fr hr (fun x hx => ?_)
          have hxa : x ≠ a := fun e => haF.2.2 (e ▸ hx)
          rw [write_other _ _ _ _ hxa, e3 x (fun e => (hrest x (List.mem_of_mem_take e)).2.2.2 hx),
            write_other _ _ _ _ hxa]
        have hdn : (rest.drop (AvlTree.count l)).Nodup :=
          List.Nodup.sublist (List.drop_sublist _ _) hrnd
        obtain ⟨s4, right, f1, f2, f3⟩ := ihr fuel (rest.drop (AvlTree.count l))
          (s2.write a ⟨left, 0, k, v, b⟩) pr Fr (m_size + 1 + AvlTree.count l) hr3 hdn
          (fun x hx => ⟨(hrest x (List.mem_of_mem_drop hx)).1,
            (hrest x (List.mem_of_mem_drop hx)).2.2.2⟩)
          (by rw [List.length_drop]; omega) hfr
        have hat2 : a ∉ (rest.drop (AvlTree.count l)).take (AvlTree.count r) :=
          fun e => har (List.mem_of_mem_drop (List.mem_of_mem_take e))
        have hc4a : s4 a = some ⟨left, 0, k, v, b⟩ := by rw [f3 a hat2, write_same]
        have hc4p : ((s2.write a ⟨left, 0, k, v, b⟩)) p = some ⟨pl, pr, k, v, b⟩ := by
          rw [write_other _ _ _ _ (fun e => haF.1 e.symm), hc2p]
        have htake : (a :: rest).take (AvlTree.count l + 1 + AvlTree.count r) =
            a :: (rest.take (AvlTree.count l) ++
              (rest.drop (AvlTree.count l)).take (AvlTree.count r)) := by
          rw [show AvlTree.count l + 1 + AvlTree.count r =
            (AvlTree.count l + AvlTree.count r) + 1 by omega, List.take_succ_cons, List.take_add]
        have hdrop : (a :: rest).drop (AvlTree.count l + 1 + AvlTree.count r) =
            (rest.drop (AvlTree.count l)).drop (AvlTree.count r) := by
          rw [show AvlTree.count l + 1 + AvlTree.count r =
            (AvlTree.count l + AvlTree.count r) + 1 by omega, List.drop_succ_cons,
            List.drop_drop, Nat.add_comm]
        have hdisj : ∀ x ∈ rest.take (AvlTree.count l),
            x ∉ (rest.drop (AvlTree.count l)).take (AvlTree.count r) := by
          intro x hx hx2
          have h1 : (rest.take (AvlTree.count l) ++ rest.drop (AvlTree.count l)).Nodup := by
            rw [List.take_append_drop]; exact hrnd
          exact (List.nodup_append.1 h1).2.2 hx (List.mem_of_mem_take hx2)
        refine ⟨s4.write a ⟨left, right, k, v, b⟩, a, ?_, ?_, ?_⟩
        · rw [copy]
          simp only [hp, if_false, ha0, deref, hc, write_other _ _ _ _ (Ne.symm haF.1), e1,
            setLeft, hc2a, hc2p, hc4p, f1, setRight, hc4a, AvlTree.count, hdrop]
          simp only [Nat.add_assoc, Nat.add_comm, Nat.add_left_comm]
        · simp only [AvlTree.count, htake]
          refine ⟨ha0, left, right, _, _, write_same _ _ _, ?_, ?_, rfl⟩
          · refine holds_write _ _ _ _ _ _ ?_ hat
            refine holds_frame s2 s4 l left _ e2 (fun x hx => ?_)
            rw [f3 x (hdisj x hx)]
            exact write_other _ _ _ _ (fun e => hat (e ▸ hx))
          · exact holds_write _ _ _ _ _ _ f2 hat2
        · intro x hx
          simp only [AvlTree.count, htake, List.mem_cons, List.mem_append, not_or] at hx
          rw [write_other _ _ _ _ hx.1, f3 x hx.2.2, write_other _ _ _ _ hx.1, e3 x hx.2.1,
            write_other _ _ _ _ hx.1]

/-- `find` on a tree the store holds. -/
theorem find_holds [LinearOrder K] (fuel : Nat) (s : Store K V) (t : TreeObject K V)
    (tv : AvlTreeNode K V) (F : List Nat) (h : Holds s t.m_root tv F)
    (hf : AvlTree.height tv < fuel) (k : K) :
    findValue fuel s t k = AvlTree.avl_find k tv ∧
      (∀ out, find_out fuel s t k out = AvlTree.find_out (asValue t tv) k out) ∧
      ((find fuel s t k).isSome = (AvlTree.find (asValue t tv) k).isSome) := by
  obtain ⟨q, e1, e2, e3⟩ := avl_find_holds k s tv fuel t.m_root F h hf
  cases hv : AvlTree.avl_find k tv with
  | none =>
    have hq := e2 hv
    subst hq
    simp [findValue, find, find_out, e1, deref, AvlTree.find_out, AvlTree.find, asValue, hv]
  | some v =>
    obtain ⟨g1, g2, n, g3, g4⟩ := e3 v hv
    simp [findValue, find, find_out, e1, deref, g2, g3, g4, AvlTree.find_out, AvlTree.find,
      asValue, hv]

/-- The find results depend on the nodes of the tree only. -/
theorem sameFinds_of_frame [LinearOrder K] (fuel : Nat) (s1 s2 : Store K V)
    (t : TreeObject K V) (tv : AvlTreeNode K V) (F : List Nat) (h : Holds s1 t.m_root tv F)
    (hf : AvlTree.height tv < fuel) (hfr : ∀ x ∈ F, s2 x = s1 x) : SameFinds fuel s1 s2 t := by
  intro k
  have e := avl_find_frame k s1 s2 tv fuel t.m_root F h hfr
  obtain ⟨q, e1, e2, e3⟩ := avl_find_holds k s1 tv fuel t.m_root F h hf
  have hq : deref s2 q = deref s1 q := by
    cases hv : AvlTree.avl_find k tv with
    | none => rw [e2 hv]; simp [deref]
    | some v =>
      obtain ⟨g1, g2, _⟩ := e3 v hv
      simp [deref, g2, hfr q g1]
  have h1 : find fuel s2 t k = find fuel s1 t k := by
    simp only [find, e, e1, hq]
  refine ⟨h1, ?_, ?_⟩
  · simp only [findValue, h1]
    cases hfd : find fuel s1 t k with
    | none => rfl
    | some p =>
      have : p = q := by
        simp only [find, e1] at hfd
        split at hfd
        · simp at hfd
        · simpa using hfd.symm
      rw [this]
      simp only [hq]
  · intro out
    simp only [find_out, h1]
    cases hfd : find fuel s1 t k with
    | none => rfl
    | some p =>
      have : p = q := by
        simp only [find, e1] at hfd
        split at hfd
        · simp at hfd
        · simpa using hfd.symm
      rw [this]
      simp only [hq]

/-- `insert` on a tree the store holds. -/
theorem insert_holds [DecidableEq K] (fuel a : Nat) (s : Store K V) (t : TreeObject K V)
    (tv : AvlTreeNode K V) (F : List Nat) (key : K) (value : V)
    (h : Holds s t.m_root tv F) (hn : F.Nodup) (ha : a ∉ F) (hf : AvlTree.height tv < fuel) :
    (AvlTree.insert (asValue t tv) (decide (a ≠ 0)) key value = none →
        insert fuel a s t key value = none) ∧
      ∀ r, AvlTree.insert (asValue t tv) (decide (a ≠ 0)) key value = some r →
        ∃ s1 t1 F1, insert fuel a s t key value = some (s1, t1, r.2) ∧
          Holds s1 t1.m_root r.1.m_root F1 ∧ asValue t1 r.1.m_root = r.1 ∧
          F1.Perm (if r.2 then a :: F else F) ∧ ∀ x, x ∉ F → x ≠ a → s1 x = s x := by
  obtain ⟨i1, i2⟩ := avl_insert_holds t.m_binPredicate a (decide (a ≠ 0)) (by simp) key value tv
    fuel s t.m_root F t.m_size h hn ha hf
  cases hv : AvlTree.avl_insert t.m_binPredicate (decide (a ≠ 0)) key value tv t.m_size with
  | none =>
    refine ⟨fun _ => ?_, fun r h1 => ?_⟩
    · simp only [insert, i1 hv]
    · simp only [AvlTree.insert, asValue] at h1
      rw [hv] at h1
      simp at h1
  | some o =>
    obtain ⟨s1, o1, F1, e1, e2, e3, e3b, e4, e5, e6, e7⟩ := i2 o hv
    refine ⟨fun h1 => ?_, fun r h1 => ?_⟩
    · simp only [AvlTree.insert, asValue] at h1
      rw [hv] at h1
      simp at h1
    · simp only [AvlTree.insert, asValue] at h1
      rw [hv] at h1
      simp only [Option.some.injEq] at h1
      subst h1
      refine ⟨s1, { t with m_root := o1.subRoot, m_size := o1.m_size }, F1, ?_, e2, ?_, e6, e7⟩
      · simp only [insert, e1, Option.some.injEq, Prod.mk.injEq, true_and]
        rw [e3]
        cases hnn : o.newNode with
        | false => simp
        | true => simpa using e3b hnn
      · simp only [asValue, e5]

/-- `remove` on a tree the store holds. -/
theorem remove_holds [DecidableEq K] (fuel : Nat) (s : Store K V) (t : TreeObject K V)
    (tv : AvlTreeNode K V) (F : List Nat) (key : K)
    (h : Holds s t.m_root tv F) (hn : F.Nodup) (hf : AvlTree.height tv < fuel) :
    (AvlTree.remove (asValue t tv) key = none → remove fuel s t key = none) ∧
      ∀ r, AvlTree.remove (asValue t tv) key = some r →
        ∃ s1 t1 F1, remove fuel s t key = some (s1, t1) ∧
          Holds s1 t1.m_root r.m_root F1 ∧ asValue t1 r.m_root = r ∧
          (∀ x, F1.count x ≤ F.count x) ∧ ∀ x, x ∉ F → s1 x = s x := by
  obtain ⟨i1, i2⟩ := avl_delete_holds t.m_binPredicate tv fuel key s t.m_root F t.m_size h hn hf
  cases hv : AvlTree.avl_delete t.m_binPredicate key tv t.m_size with
  | none =>
    refine ⟨fun _ => ?_, fun r h1 => ?_⟩
    · simp only [remove, i1 hv]
    · simp only [AvlTree.remove, asValue] at h1
      rw [hv] at h1
      simp at h1
  | some o =>
    obtain ⟨s1, o1, F1, e1, e2, e3, e4, e5, e6⟩ := i2 o hv
    refine ⟨fun h1 => ?_, fun r h1 => ?_⟩
    · simp only [AvlTree.remove, asValue] at h1
      rw [hv] at h1
      simp at h1
    · simp only [AvlTree.remove, asValue] at h1
      rw [hv] at h1
      simp only [Option.some.injEq] at h1
      subst h1
      refine ⟨s1, { t with m_root := o1.subRoot, m_size := o1.m_size }, F1, ?_, e2, ?_, e5, e6⟩
      · simp only [remove, e1]
      · simp only [asValue, e4]

/-- `clear` on a tree the store holds. -/
theorem clear_holds (fuel : Nat) (s : Store K V) (t : TreeObject K V) (tv : AvlTreeNode K V)
    (F : List Nat) (h : Holds s t.m_root tv F) (hn : F.Nodup) (hs : t.m_size = AvlTree.count tv)
    (hf : AvlTree.height tv < fuel) :
    ∃ s1, clear fuel s t = some (s1, { t with m_root := 0, m_size := 0 }) ∧
      (∀ x ∈ F, s1 x = none) ∧ ∀ x, x ∉ F → s1 x = s x := by
  cases tv with
  | nil =>
    have hr : t.m_root = 0 := h.1
    have hs0 : t.m_size = 0 := by rw [hs]; rfl
    refine ⟨s, ?_, fun x hx => by rw [h.2] at hx; simp at hx, fun _ _ => rfl⟩
    simp only [clear, hr, ne_eq, not_true_eq_false, if_false, Option.some.injEq, Prod.mk.injEq,
      true_and]
    cases t
    simp only at hr hs0
    simp [hr, hs0]
  | node l k v b r =>
    have hr : t.m_root ≠ 0 := h.1
    cases fuel with
    | zero => simp at hf
    | succ fuel =>
      obtain ⟨s1, e1, e2, e3⟩ := internal_clean_holds _ (fuel + 1) s t.m_root F h hn (by omega)
      simp only [hr, ne_eq, not_false_eq_true, if_true] at e1
      exact ⟨s1, by simp only [clear, hr, ne_eq, not_false_eq_true, if_true, e1], e2, e3⟩

theorem nodup_append_comm_iff (F G : List Nat) : (F ++ G).Nodup ↔ (G ++ F).Nodup :=
  List.Perm.nodup_iff List.perm_append_comm

/-- A call of `insert` or `remove` on a tree object leaves alone another tree object whose
nodes are apart from its own. -/
theorem calls_leave_other [LinearOrder K] (fuel : Nat) (s1 : Store K V) (a b : TreeObject K V)
    (ta tb : AvlTreeNode K V) (Fa Fb : List Nat) (ha : Holds s1 a.m_root ta Fa)
    (hb : Holds s1 b.m_root tb Fb) (hsep : (Fa ++ Fb).Nodup) (hfa : AvlTree.height ta < fuel)
    (hfb : AvlTree.height tb < fuel) :
    (∀ (x : Nat) (key : K) (value : V), (x = 0 ∨ s1 x = none) →
      (AvlTree.HeightBalanced ta → ∃ r, insert fuel x s1 a key value = some r) ∧
      ∀ s2 a2 ret, insert fuel x s1 a key value = some (s2, a2, ret) →
        SameFinds fuel s1 s2 b ∧ Holds s2 b.m_root tb Fb ∧
        ∃ ta2 F2, AvlTree.insert (asValue a ta) (decide (x ≠ 0)) key value =
            some (asValue a2 ta2, ret) ∧
          Holds s2 a2.m_root ta2 F2 ∧ (F2 ++ Fb).Nodup) ∧
    (∀ (key : K),
      (AvlTree.HeightBalanced ta → ∃ r, remove fuel s1 a key = some r) ∧
      ∀ s2 a2, remove fuel s1 a key = some (s2, a2) →
        SameFinds fuel s1 s2 b ∧ Holds s2 b.m_root tb Fb ∧
        ∃ ta2 F2, AvlTree.remove (asValue a ta) key = some (asValue a2 ta2) ∧
          Holds s2 a2.m_root ta2 F2 ∧ (F2 ++ Fb).Nodup) := by
  obtain ⟨na, nb, nd⟩ := List.nodup_append.1 hsep
  have hdisj : ∀ x ∈ Fb, x ∉ Fa := fun x hx e => nd e hx
  constructor
  · intro x key value hx
    have hxa : x ∉ Fa := by
      intro e
      have := holds_live s1 ta a.m_root Fa ha x e
      rcases hx with h0 | h0
      · exact this.1 h0
      · exact this.2 h0
    have hxb : x ∉ Fb := by
      intro e
      have := holds_live s1 tb b.m_root Fb hb x e
      rcases hx with h0 | h0
      · exact this.1 h0
      · exact this.2 h0
    obtain ⟨i1, i2⟩ := insert_holds fuel x s1 a ta Fa key value ha na hxa hfa
    constructor
    · intro hbal
      obtain ⟨o, ho, _⟩ := AvlTree.avl_insert_balanced a.m_binPredicate (decide (x ≠ 0)) key value
        ta a.m_size hbal
      have hv : AvlTree.insert (asValue a ta) (decide (x ≠ 0)) key value =
          some ({ asValue a ta with m_root := o.subRoot, m_size := o.m_size }, o.newNode) := by
        simp only [AvlTree.insert, asValue, ho]
      obtain ⟨s2, a2, F2, e1, _⟩ := i2 _ hv
      exact ⟨_, e1⟩
    · intro s2 a2 ret hrun
      cases hv : AvlTree.insert (asValue a ta) (decide (x ≠ 0)) key value with
      | none => rw [i1 hv] at hrun; simp at hrun
      | some r =>
        obtain ⟨s2', a2', F2, e1, e2, e3, e4, e5⟩ := i2 r hv
        rw [e1] at hrun
        simp only [Option.some.injEq, Prod.mk.injEq] at hrun
        obtain ⟨h1, h2, h3⟩ := hrun
        subst h1; subst h2
        have hfr : ∀ y ∈ Fb, s2' y = s1 y :=
          fun y hy => e5 y (hdisj y hy) (fun e => hxb (e ▸ hy))
        refine ⟨sameFinds_of_frame fuel s1 s2' b tb Fb hb hfb hfr,
          holds_frame s1 s2' tb b.m_root Fb hb hfr, r.1.m_root, F2, ?_, e2, ?_⟩
        · rw [e3, ← h3]
        · have hsub : ∀ y ∈ F2, y ∈ Fa ∨ y = x := by
            intro y hy
            have := e4.mem_iff.1 hy
            split at this
            · simp only [List.mem_cons] at this
              exact this.symm
            · exact Or.inl this
          have hn2 : F2.Nodup := by
            refine e4.nodup_iff.2 ?_
            split
            · exact List.nodup_cons.2 ⟨hxa, na⟩
            · exact na
          refine List.nodup_append.2 ⟨hn2, nb, ?_⟩
          intro y hy hy2
          rcases hsub y hy with e | e
          · exact nd e hy2
          · exact hxb (e ▸ hy2)
  · intro key
    obtain ⟨i1, i2⟩ := remove_holds fuel s1 a ta Fa key ha na hfa
    constructor
    · intro hbal
      obtain ⟨o, ho, _⟩ := AvlTree.avl_delete_balanced a.m_binPredicate key ta a.m_size hbal
      have hv : AvlTree.remove (asValue a ta) key =
          some { asValue a ta with m_root := o.subRoot, m_size := o.m_size } := by
        simp only [AvlTree.remove, asValue, ho]
      obtain ⟨s2, a2, F2, e1, _⟩ := i2 _ hv
      exact ⟨_, e1⟩
    · intro s2 a2 hrun
      cases hv : AvlTree.remove (asValue a ta) key with
      | none => rw [i1 hv] at hrun; simp at hrun
      | some r =>
        obtain ⟨s2', a2', F2, e1, e2, e3, e4, e5⟩ := i2 r hv
        rw [e1] at hrun
        simp only [Option.some.injEq, Prod.mk.injEq] at hrun
        obtain ⟨h1, h2⟩ := hrun
        subst h1; subst h2
        have hfr : ∀ y ∈ Fb, s2' y = s1 y := fun y hy => e5 y (hdisj y hy)
        refine ⟨sameFinds_of_frame fuel s1 s2' b tb Fb hb hfb hfr,
          holds_frame s1 s2' tb b.m_root Fb hb hfr, r.m_root, F2, ?_, e2, ?_⟩
        · rw [e3]
        · refine List.nodup_append.2 ⟨count_le_nodup F2 Fa e4 na, nb, ?_⟩
          intro y hy hy2
          exact nd (count_le_mem F2 Fa e4 y hy) hy2

/-- An `insert` through a tree object is seen through another tree object that shares its
nodes: in the store, trees are apart only if their nodes are. -/
theorem shared_nodes_see_insert :
    ∃ s2 a2, insert 5 4 scenarioStore scenarioObject 40 400 = some (s2, a2, true) ∧
      findValue 5 scenarioStore scenarioObject 40 = none ∧
      findValue 5 s2 scenarioObject 40 = some 400 :=
  ⟨_, _, rfl, by decide, by decide⟩

-- (end of the AvlStore lemmas)

/-- C25: AvlTree copy is a faithful deep copy, in the free store.  Let the store hold the
tree `ta` at the root of the tree object `a`, in the nodes `Fa`, and apart from them the
tree `tt` of a tree object `t` whose `m_size` is its node count.  Let `b` be the tree
object that the copy constructor builds from `a`, or `t` after `t = a`, the allocator
handing out the addresses `addrs`: not null, different from each other, and free (for the
assignment they may be nodes that `clear()` has just freed).  Then the call returns; the
store holds at the root of `b` the same tree `ta` (same shape, keys, values and balance
factors) in nodes `Fb` that are among the new addresses and apart from the nodes of `a`,
which are untouched; `size()` of `b` is the node count of `a`, comparator and traversal
mode are those of `a`; every `find` yields on `b` the value it yields on `a`.  A later
`insert` or `remove` on `a` (the allocator handing out a null pointer or a free address)
returns when `ta` is height-balanced, and whenever it returns it leaves every `find` result
of `b` as it was: the pointer returned, the value it points to and the result of
`find(key, out)`; `b` still holds `ta`, and `a` holds, apart from the nodes of `b`, what
the call makes of `ta` as a value.  The same holds with `a` and `b` exchanged.
Self-assignment changes nothing. -/
theorem avl_copy_is_faithful_deep_copy [LinearOrder K] (fuel : Nat) (s : Store K V)
    (a t : TreeObject K V) (ta tt : AvlTreeNode K V) (Fa Ft addrs : List Nat)
    (res : Option (Store K V × TreeObject K V))
    (ha : Holds s a.m_root ta Fa) (ht : Holds s t.m_root tt Ft) (hsep : (Fa ++ Ft).Nodup)
    (hts : t.m_size = AvlTree.count tt)
    (hnd : addrs.Nodup) (hnull : ∀ x ∈ addrs, x ≠ 0) (hlen : AvlTree.count ta ≤ addrs.length)
    (hfa : AvlTree.height ta < fuel) (hft : AvlTree.height tt < fuel)
    (hres : (res = copyConstruct fuel addrs s a ∧ ∀ x ∈ addrs, s x = none) ∨
      (res = assign fuel addrs s t (some a) ∧ ∀ x ∈ addrs, s x = none ∨ x ∈ Ft)) :
    ∃ s1 b Fb, res = some (s1, b) ∧
      Holds s1 b.m_root ta Fb ∧ Holds s1 a.m_root ta Fa ∧ (Fa ++ Fb).Nodup ∧
      (∀ x ∈ Fb, x ∈ addrs) ∧ (∀ x ∈ Fa, s1 x = s x) ∧
      b.m_size = AvlTree.count ta ∧ b.m_binPredicate = a.m_binPredicate ∧
      b.m_traversalFunc = a.m_traversalFunc ∧
      (∀ k, findValue fuel s1 b k = findValue fuel s1 a k ∧
        findValue fuel s1 a k = AvlTree.avl_find k ta ∧
        ∀ out, find_out fuel s1 b k out = find_out fuel s1 a k out) ∧
      (∀ (x : Nat) (key : K) (value : V), (x = 0 ∨ s1 x = none) →
        (AvlTree.HeightBalanced ta → ∃ r, insert fuel x s1 a key value = some r) ∧
        ∀ s2 a2 ret, insert fuel x s1 a key value = some (s2, a2, ret) →
          SameFinds fuel s1 s2 b ∧ Holds s2 b.m_root ta Fb ∧
          ∃ ta2 F2, AvlTree.insert (asValue a ta) (decide (x ≠ 0)) key value =
              some (asValue a2 ta2, ret) ∧
            Holds s2 a2.m_root ta2 F2 ∧ (F2 ++ Fb).Nodup) ∧
      (∀ (key : K),
        (AvlTree.HeightBalanced ta → ∃ r, remove fuel s1 a key = some r) ∧
        ∀ s2 a2, remove fuel s1 a key = some (s2, a2) →
          SameFinds fuel s1 s2 b ∧ Holds s2 b.m_root ta Fb ∧
          ∃ ta2 F2, AvlTree.remove (asValue a ta) key = some (asValue a2 ta2) ∧
            Holds s2 a2.m_root ta2 F2 ∧ (F2 ++ Fb).Nodup) ∧
      (∀ (x : Nat) (key : K) (value : V), (x = 0 ∨ s1 x = none) →
        (AvlTree.HeightBalanced ta → ∃ r, insert fuel x s1 b key value = some r) ∧
        ∀ s2 b2 ret, insert fuel x s1 b key value = some (s2, b2, ret) →
          SameFinds fuel s1 s2 a ∧ Holds s2 a.m_root ta Fa ∧
          ∃ tb2 F2, AvlTree.insert (asValue b ta) (decide (x ≠ 0)) key value =
              some (asValue b2 tb2, ret) ∧
            Holds s2 b2.m_root tb2 F2 ∧ (F2 ++ Fa).Nodup) ∧
      (∀ (key : K),
        (AvlTree.HeightBalanced ta → ∃ r, remove fuel s1 b key = some r) ∧
        ∀ s2 b2, remove fuel s1 b key = some (s2, b2) →
          SameFinds fuel s1 s2 a ∧ Holds s2 a.m_root ta Fa ∧
          ∃ tb2 F2, AvlTree.remove (asValue b ta) key = some (asValue b2 tb2) ∧
            Holds s2 b2.m_root tb2 F2 ∧ (F2 ++ Fa).Nodup) ∧
      assign fuel addrs s a none = some (s, a) := by
  obtain ⟨na, nt, ndj⟩ := List.nodup_append.1 hsep
  -- the store before `copyTree`, and the tree object it is called on
  have hpre : ∃ (s0 : Store K V) (t0 : TreeObject K V), res = copyTree fuel addrs s0 t0 a ∧
      t0.m_size = 0 ∧ (∀ x ∈ Fa, s0 x = s x) ∧ ∀ x ∈ addrs, x ∉ Fa := by
    rcases hres with ⟨h1, h2⟩ | ⟨h1, h2⟩
    · refine ⟨s, _, h1, rfl, fun _ _ => rfl, fun x hx e => ?_⟩
      exact (holds_live s ta a.m_root Fa ha x e).2 (h2 x hx)
    · obtain ⟨s0, e1, e2, e3⟩ := clear_holds fuel s t tt Ft ht nt hts hft
      refine ⟨s0, { t with m_root := 0, m_size := 0 }, ?_, rfl,
        fun x hx => e3 x (fun e => ndj hx e), fun x hx e => ?_⟩
      · rw [h1]; simp only [assign, e1]
      · rcases h2 x hx with h3 | h3
        · exact (holds_live s ta a.m_root Fa ha x e).2 h3
        · exact ndj e h3
  obtain ⟨s0, t0, hr0, hsz, hfr0, hfresh⟩ := hpre
  have ha0 : Holds s0 a.m_root ta Fa := holds_frame s s0 ta a.m_root Fa ha hfr0
  obtain ⟨s1, root, c1, c2, c3⟩ := copy_holds ta fuel addrs s0 a.m_root Fa t0.m_size ha0 hnd
    (fun x hx => ⟨hnull x hx, hfresh x hx⟩) hlen hfa
  have hb : Holds s1 root ta (addrs.take (AvlTree.count ta)) := c2
  have hnb : (addrs.take (AvlTree.count ta)).Nodup :=
    List.Nodup.sublist (List.take_sublist _ _) hnd
  have hdj : ∀ x ∈ Fa, x ∉ addrs.take (AvlTree.count ta) :=
    fun x hx e => hfresh x (List.mem_of_mem_take e) hx
  have ha1 : Holds s1 a.m_root ta Fa :=
    holds_frame s0 s1 ta a.m_root Fa ha0 (fun x hx => c3 x (hdj x hx))
  have hsep1 : (Fa ++ addrs.take (AvlTree.count ta)).Nodup :=
    List.nodup_append.2 ⟨na, hnb, fun x hx e => hdj x hx e⟩
  obtain ⟨b, hbeq⟩ : ∃ b : TreeObject K V,
      b = ⟨t0.m_size + AvlTree.count ta, root, a.m_binPredicate, a.m_traversalFunc⟩ :=
    ⟨_, rfl⟩
  have hb1 : Holds s1 b.m_root ta (addrs.take (AvlTree.count ta)) := by rw [hbeq]; exact hb
  refine ⟨s1, b, addrs.take (AvlTree.count ta), ?_, hb1, ha1, hsep1,
    fun x hx => List.mem_of_mem_take hx,
    fun x hx => by rw [c3 x (hdj x hx), hfr0 x hx], by rw [hbeq]; simp [hsz], by rw [hbeq],
    by rw [hbeq], ?_, ?_⟩
  · rw [hr0, hbeq]; simp only [copyTree, c1]
  · intro k
    obtain ⟨f1, f2, _⟩ := find_holds fuel s1 a ta Fa ha1 hfa k
    obtain ⟨g1, g2, _⟩ := find_holds fuel s1 b ta _ hb1 hfa k
    refine ⟨by rw [g1, f1], f1, fun out => ?_⟩
    rw [g2 out, f2 out]
    rfl
  · obtain ⟨p1, p2⟩ := calls_leave_other fuel s1 a b ta ta Fa _ ha1 hb1 hsep1 hfa hfa
    obtain ⟨q1, q2⟩ := calls_leave_other fuel s1 b a ta ta _ Fa hb1 ha1
      ((nodup_append_comm_iff _ _).1 hsep1) hfa hfa
    exact ⟨p1, p2, q1, q2, rfl⟩

theorem avl_copy_is_faithful_deep_copy_witness :
    Holds scenarioStore scenarioObject.m_root scenarioHeld [1, 2, 3] ∧
      Holds scenarioStore scenarioTarget.m_root scenarioTargetHeld [7] ∧
      ([1, 2, 3] ++ [7]).Nodup ∧ scenarioTarget.m_size = AvlTree.count scenarioTargetHeld ∧
      AvlTree.height scenarioHeld < 5 ∧ AvlTree.height scenarioTargetHeld < 5 ∧
      (([4, 5, 6] : List Nat).Nodup ∧ (∀ x ∈ ([4, 5, 6] : List Nat), x ≠ 0) ∧
        AvlTree.count scenarioHeld ≤ ([4, 5, 6] : List Nat).length ∧
        (∀ x ∈ ([4, 5, 6] : List Nat), scenarioStore x = none)) ∧
      (([7, 8, 9] : List Nat).Nodup ∧ (∀ x ∈ ([7, 8, 9] : List Nat), x ≠ 0) ∧
        AvlTree.count scenarioHeld ≤ ([7, 8, 9] : List Nat).length ∧
        (∀ x ∈ ([7, 8, 9] : List Nat), scenarioStore x = none ∨ x ∈ [7])) ∧
      (∃ s1 b Fb, (copyConstruct 5 [4, 5, 6] scenarioStore scenarioObject) = some (s1, b) ∧
        Holds s1 b.m_root scenarioHeld Fb ∧
            Holds s1 scenarioObject.m_root scenarioHeld [1, 2, 3] ∧ ([1, 2, 3] ++ Fb).Nodup ∧
        (∀ x ∈ Fb, x ∈ [4, 5, 6]) ∧ (∀ x ∈ [1, 2, 3], s1 x = scenarioStore x) ∧
        b.m_size = AvlTree.count scenarioHeld ∧ b.m_binPredicate = scenarioObject.m_binPredicate ∧
        b.m_traversalFunc = scenarioObject.m_traversalFunc ∧
        (∀ k, findValue 5 s1 b k = findValue 5 s1 scenarioObject k ∧
          findValue 5 s1 scenarioObject k = AvlTree.avl_find k scenarioHeld ∧
          ∀ out, find_out 5 s1 b k out = find_out 5 s1 scenarioObject k out) ∧
        (∀ (x : Nat) (key : Nat) (value : Nat), (x = 0 ∨ s1 x = none) →
          (AvlTree.HeightBalanced scenarioHeld →
              ∃ r, insert 5 x s1 scenarioObject key value = some r) ∧
          ∀ s2 a2 ret, insert 5 x s1 scenarioObject key value = some (s2, a2, ret) →
            SameFinds 5 s1 s2 b ∧ Holds s2 b.m_root scenarioHeld Fb ∧
            ∃ ta2 F2, AvlTree.insert (asValue scenarioObject scenarioHeld) (decide (x ≠ 0)) key
                value =
                some (asValue a2 ta2, ret) ∧
              Holds s2 a2.m_root ta2 F2 ∧ (F2 ++ Fb).Nodup) ∧
        (∀ (key : Nat),
          (AvlTree.HeightBalanced scenarioHeld → ∃ r, remove 5 s1 scenarioObject key = some r) ∧
          ∀ s2 a2, remove 5 s1 scenarioObject key = some (s2, a2) →
            SameFinds 5 s1 s2 b ∧ Holds s2 b.m_root scenarioHeld Fb ∧
            ∃ ta2 F2, AvlTree.remove (asValue scenarioObject scenarioHeld) key =
                some (asValue a2 ta2) ∧
              Holds s2 a2.m_root ta2 F2 ∧ (F2 ++ Fb).Nodup) ∧
        (∀ (x : Nat) (key : Nat) (value : Nat), (x = 0 ∨ s1 x = none) →
          (AvlTree.HeightBalanced scenarioHeld → ∃ r, insert 5 x s1 b key value = some r) ∧
          ∀ s2 b2 ret, insert 5 x s1 b key value = some (s2, b2, ret) →
            SameFinds 5 s1 s2 scenarioObject ∧
                Holds s2 scenarioObject.m_root scenarioHeld [1, 2, 3] ∧
            ∃ tb2 F2, AvlTree.insert (asValue b scenarioHeld) (decide (x ≠ 0)) key value =
                some (asValue b2 tb2, ret) ∧
              Holds s2 b2.m_root tb2 F2 ∧ (F2 ++ [1, 2, 3]).Nodup) ∧
        (∀ (key : Nat),
          (AvlTree.HeightBalanced scenarioHeld → ∃ r, remove 5 s1 b key = some r) ∧
          ∀ s2 b2, remove 5 s1 b key = some (s2, b2) →
            SameFinds 5 s1 s2 scenarioObject ∧
                Holds s2 scenarioObject.m_root scenarioHeld [1, 2, 3] ∧
            ∃ tb2 F2, AvlTree.remove (asValue b scenarioHeld) key = some (asValue b2 tb2) ∧
              Holds s2 b2.m_root tb2 F2 ∧ (F2 ++ [1, 2, 3]).Nodup) ∧
        assign 5 [4, 5, 6] scenarioStore scenarioObject none = some (scenarioStore, scenarioObject)) ∧
      ∃ s1 b Fb, (assign 5 [7, 8, 9] scenarioStore scenarioTarget (some scenarioObject)) =
          some (s1, b) ∧
        Holds s1 b.m_root scenarioHeld Fb ∧
            Holds s1 scenarioObject.m_root scenarioHeld [1, 2, 3] ∧ ([1, 2, 3] ++ Fb).Nodup ∧
        (∀ x ∈ Fb, x ∈ [7, 8, 9]) ∧ (∀ x ∈ [1, 2, 3], s1 x = scenarioStore x) ∧
        b.m_size = AvlTree.count scenarioHeld ∧ b.m_binPredicate = scenarioObject.m_binPredicate ∧
        b.m_traversalFunc = scenarioObject.m_traversalFunc ∧
        (∀ k, findValue 5 s1 b k = findValue 5 s1 scenarioObject k ∧
          findValue 5 s1 scenarioObject k = AvlTree.avl_find k scenarioHeld ∧
          ∀ out, find_out 5 s1 b k out = find_out 5 s1 scenarioObject k out) ∧
        (∀ (x : Nat) (key : Nat) (value : Nat), (x = 0 ∨ s1 x = none) →
          (AvlTree.HeightBalanced scenarioHeld →
              ∃ r, insert 5 x s1 scenarioObject key value = some r) ∧
          ∀ s2 a2 ret, insert 5 x s1 scenarioObject key value = some (s2, a2, ret) →
            SameFinds 5 s1 s2 b ∧ Holds s2 b.m_root scenarioHeld Fb ∧
            ∃ ta2 F2, AvlTree.insert (asValue scenarioObject scenarioHeld) (decide (x ≠ 0)) key
                value =
                some (asValue a2 ta2, ret) ∧
              Holds s2 a2.m_root ta2 F2 ∧ (F2 ++ Fb).Nodup) ∧
        (∀ (key : Nat),
          (AvlTree.HeightBalanced scenarioHeld → ∃ r, remove 5 s1 scenarioObject key = some r) ∧
          ∀ s2 a2, remove 5 s1 scenarioObject key = some (s2, a2) →
            SameFinds 5 s1 s2 b ∧ Holds s2 b.m_root scenarioHeld Fb ∧
            ∃ ta2 F2, AvlTree.remove (asValue scenarioObject scenarioHeld) key =
                some (asValue a2 ta2) ∧
              Holds s2 a2.m_root ta2 F2 ∧ (F2 ++ Fb).Nodup) ∧
        (∀ (x : Nat) (key : Nat) (value : Nat), (x = 0 ∨ s1 x = none) →
          (AvlTree.HeightBalanced scenarioHeld → ∃ r, insert 5 x s1 b key value = some r) ∧
          ∀ s2 b2 ret, insert 5 x s1 b key value = some (s2, b2, ret) →
            SameFinds 5 s1 s2 scenarioObject ∧
                Holds s2 scenarioObject.m_root scenarioHeld [1, 2, 3] ∧
            ∃ tb2 F2, AvlTree.insert (asValue b scenarioHeld) (decide (x ≠ 0)) key value =
                some (asValue b2 tb2, ret) ∧
              Holds s2 b2.m_root tb2 F2 ∧ (F2 ++ [1, 2, 3]).Nodup) ∧
        (∀ (key : Nat),
          (AvlTree.HeightBalanced scenarioHeld → ∃ r, remove 5 s1 b key = some r) ∧
          ∀ s2 b2, remove 5 s1 b key = some (s2, b2) →
            SameFinds 5 s1 s2 scenarioObject ∧
                Holds s2 scenarioObject.m_root scenarioHeld [1, 2, 3] ∧
            ∃ tb2 F2, AvlTree.remove (asValue b scenarioHeld) key = some (asValue b2 tb2) ∧
              Holds s2 b2.m_root tb2 F2 ∧ (F2 ++ [1, 2, 3]).Nodup) ∧
        assign 5 [7, 8, 9] scenarioStore scenarioObject none = some (scenarioStore, scenarioObject) :=
  have h1 : Holds scenarioStore scenarioObject.m_root scenarioHeld [1, 2, 3] :=
    ⟨by decide, 2, 3, [2], [3], rfl,
      ⟨by decide, 0, 0, [], [], rfl, ⟨rfl, rfl⟩, ⟨rfl, rfl⟩, rfl⟩,
      ⟨by decide, 0, 0, [], [], rfl, ⟨rfl, rfl⟩, ⟨rfl, rfl⟩, rfl⟩, rfl⟩
  have h2 : Holds scenarioStore scenarioTarget.m_root scenarioTargetHeld [7] :=
    ⟨by decide, 0, 0, [], [], rfl, ⟨rfl, rfl⟩, ⟨rfl, rfl⟩, rfl⟩
  have h3 : ∀ x ∈ ([4, 5, 6] : List Nat), scenarioStore x = none := by decide
  have h4 : ∀ x ∈ ([7, 8, 9] : List Nat), scenarioStore x = none ∨ x ∈ [7] := by decide
  ⟨h1, h2, by decide, rfl, by decide, by decide, ⟨by decide, by decide, by decide, h3⟩,
    ⟨by decide, by decide, by decide, h4⟩,
    avl_copy_is_faithful_deep_copy 5 scenarioStore scenarioObject scenarioTarget scenarioHeld
      scenarioTargetHeld [1, 2, 3] [7] [4, 5, 6] _ h1 h2 (by decide) rfl (by decide) (by decide)
      (by decide) (by decide) (by decide) (Or.inl ⟨rfl, h3⟩),
    avl_copy_is_faithful_deep_copy 5 scenarioStore scenarioObject scenarioTarget scenarioHeld
      scenarioTargetHeld [1, 2, 3] [7] [7, 8, 9] _ h1 h2 (by decide) rfl (by decide) (by decide)
      (by decide) (by decide) (by decide) (Or.inr ⟨rfl, h4⟩)⟩

end AvlStore

/-! ## Theorems: BTree -/

namespace BTree

variable {K V : Type}

open BTreeNode

theorem sizeOf_lt_of_mem_branch (c : BTreeNode K V) (br : List (Option (BTreeNode K V)))
    (h : some c ∈ br) : sizeOf c < sizeOf br := by
  have := List.sizeOf_lt_of_mem h
  simp only [Option.some.sizeOf_spec] at this
  omega

/-- Induction over the nodes of a tree: a property holds of a node when it holds of all
the nodes its branch slots point to. -/
theorem node_induct (P : BTreeNode K V → Prop)
    (h : ∀ ks br st, (∀ c, some c ∈ br → P c) → P (BTreeNode.mk ks br st)) : ∀ n, P n := by
  suffices H : ∀ s, ∀ n : BTreeNode K V, sizeOf n = s → P n from fun n => H _ n rfl
  intro s
  induction s using Nat.strong_induction_on with
  | _ s ih =>
    intro n hn
    cases n with
    | mk ks br st =>
      apply h
      intro c hc
      apply ih (sizeOf c) _ c rfl
      have := sizeOf_lt_of_mem_branch c br hc
      rw [← hn]
      simp only [BTreeNode.mk.sizeOf_spec]
      omega

theorem pairsAux_nil_right (ks : List (K × V)) : pairsAux ks ([] : List (Option (BTreeNode K V))) = [] := by
  cases ks <;> simp [pairsAux]

theorem pairsAux_cons (ks : List (K × V)) (b : Option (BTreeNode K V))
    (bs : List (Option (BTreeNode K V))) :
    pairsAux ks (b :: bs) = pairsPtr b ++ pairsAux ks (none :: bs) := by
  cases ks <;> simp [pairsAux, pairsPtr]

theorem pairsAux_append (ks1 ks2 : List (K × V)) (bs1 bs2 : List (Option (BTreeNode K V)))
    (h : ks1.length = bs1.length) :
    pairsAux (ks1 ++ ks2) (bs1 ++ bs2) = pairsAux ks1 (bs1 ++ [none]) ++ pairsAux ks2 bs2 := by
  induction ks1 generalizing bs1 with
  | nil =>
    cases bs1 with
    | nil => simp [pairsAux, pairsPtr]
    | cons b bs => simp at h
  | cons k ks ih =>
    cases bs1 with
    | nil => simp at h
    | cons b bs =>
      simp only [List.length_cons, add_left_inj] at h
      simp [pairsAux, ih bs h]


theorem push_down_branch_eq [LinearOrder K] (order : Nat) (key : K) (val : V)
    (br : List (Option (BTreeNode K V))) (pos : Nat) :
    push_down_branch order key val br pos =
      match br.get? pos with
      | some b => internal_push_down_insert order key val b
      | none => none := by
  induction br generalizing pos with
  | nil => simp [push_down_branch]
  | cons b bs ih =>
    cases pos with
    | zero => simp [push_down_branch]
    | succ i => simp [push_down_branch, ih]

theorem wfList_iff (order : Nat) (l : List (Option (BTreeNode K V))) :
    WFList order l ↔ ∀ b ∈ l, WFPtr order b := by
  induction l with
  | nil => simp [WFList]
  | cons b bs ih => simp [WFList, ih]

theorem wfList_append (order : Nat) (l1 l2 : List (Option (BTreeNode K V))) :
    WFList order (l1 ++ l2) ↔ WFList order l1 ∧ WFList order l2 := by
  simp only [wfList_iff, List.mem_append]
  constructor
  · intro h
    exact ⟨fun b hb => h b (Or.inl hb), fun b hb => h b (Or.inr hb)⟩
  · rintro ⟨h1, h2⟩ b (hb | hb)
    · exact h1 b hb
    · exact h2 b hb

theorem wfList_cons (order : Nat) (b : Option (BTreeNode K V))
    (l : List (Option (BTreeNode K V))) :
    WFList order (b :: l) ↔ WFPtr order b ∧ WFList order l := by
  simp [WFList]

theorem wfList_take (order : Nat) (l : List (Option (BTreeNode K V))) (n : Nat)
    (h : WFList order l) : WFList order (l.take n) := by
  rw [wfList_iff] at h ⊢
  exact fun b hb => h b (List.mem_of_mem_take hb)

theorem wfList_drop (order : Nat) (l : List (Option (BTreeNode K V))) (n : Nat)
    (h : WFList order l) : WFList order (l.drop n) := by
  rw [wfList_iff] at h ⊢
  exact fun b hb => h b (List.mem_of_mem_drop hb)

theorem findKeyPositionFrom_spec [LinearOrder K] (key : K) (ks : List (K × V)) (pos0 : Nat) :
    ∃ ks1 ks2, ks = ks1 ++ ks2 ∧ (findKeyPositionFrom key ks pos0).2 = pos0 + ks1.length ∧
      (∀ p ∈ ks1, p.1 < key) ∧
      ((findKeyPositionFrom key ks pos0).1 = true → ∃ v rest, ks2 = (key, v) :: rest) ∧
      ((findKeyPositionFrom key ks pos0).1 = false → ∀ a rest, ks2 = a :: rest → key < a.1) := by
  induction ks generalizing pos0 with
  | nil => exact ⟨[], [], rfl, rfl, by simp, by simp [findKeyPositionFrom], by simp⟩
  | cons a ks ih =>
    obtain ⟨a, w⟩ := a
    by_cases h : key > a
    · obtain ⟨ks1, ks2, e, hp, h1, h2, h3⟩ := ih (pos0 + 1)
      refine ⟨(a, w) :: ks1, ks2, by rw [e]; rfl, ?_, ?_, ?_, ?_⟩
      · simp only [findKeyPositionFrom, if_pos h, hp, List.length_cons]; omega
      · intro p hp1
        rcases List.mem_cons.1 hp1 with e1 | e1
        · rw [e1]; exact h
        · exact h1 p e1
      · simpa only [findKeyPositionFrom, if_pos h] using h2
      · simpa only [findKeyPositionFrom, if_pos h] using h3
    · refine ⟨[], (a, w) :: ks, rfl, ?_, by simp, ?_, ?_⟩
      · simp only [findKeyPositionFrom, if_neg h, List.length_nil, add_zero]
      · simp only [findKeyPositionFrom, if_neg h, decide_eq_true_eq]
        intro e
        exact ⟨w, ks, by rw [e]⟩
      · simp only [findKeyPositionFrom, if_neg h, decide_eq_false_iff_not]
        intro hne b rest e
        simp only [List.cons.injEq] at e
        rw [← e.1]
        exact lt_of_le_of_ne (not_lt.1 h) hne

theorem pairsAux_node (ks1 ks2 : List (K × V)) (bs1 : List (Option (BTreeNode K V)))
    (c : Option (BTreeNode K V)) (bs2 : List (Option (BTreeNode K V)))
    (h : ks1.length = bs1.length) :
    pairsAux (ks1 ++ ks2) (bs1 ++ c :: bs2) =
      pairsAux ks1 (bs1 ++ [none]) ++ pairsPtr c ++ pairsAux ks2 (none :: bs2) := by
  rw [pairsAux_append _ _ _ _ h, pairsAux_cons ks2 c bs2, List.append_assoc]

theorem pairsAux_node_insert (ks1 ks2 : List (K × V)) (bs1 : List (Option (BTreeNode K V)))
    (c rb : Option (BTreeNode K V)) (bs2 : List (Option (BTreeNode K V))) (kv : K × V)
    (h : ks1.length = bs1.length) :
    pairsAux (ks1 ++ kv :: ks2) (bs1 ++ c :: rb :: bs2) =
      pairsAux ks1 (bs1 ++ [none]) ++ (pairsPtr c ++ kv :: pairsPtr rb) ++
        pairsAux ks2 (none :: bs2) := by
  rw [pairsAux_append _ _ _ _ h]
  simp only [pairsAux]
  rw [pairsAux_cons ks2 rb bs2]
  simp

theorem pairsAux_take_drop (ks : List (K × V)) (br : List (Option (BTreeNode K V))) (mid : Nat)
    (med : K × V) (hm : ks.get? mid = some med) (hb : br.length = ks.length + 1) :
    pairsAux ks br =
      pairsAux (ks.take mid) (br.take (mid + 1)) ++
        med :: pairsAux (ks.drop (mid + 1)) (br.drop (mid + 1)) := by
  induction mid generalizing ks br with
  | zero =>
    cases ks with
    | nil => simp at hm
    | cons k ks =>
      cases br with
      | nil => simp at hb
      | cons b br =>
        simp only [List.get?_cons_zero, Option.some.injEq] at hm
        subst hm
        simp [pairsAux]
  | succ m ih =>
    cases ks with
    | nil => simp at hm
    | cons k ks =>
      cases br with
      | nil => simp at hb
      | cons b br =>
        simp only [List.get?_cons_succ] at hm
        have := ih ks br hm (by simpa using hb)
        simp only [List.take_succ_cons, List.drop_succ_cons, pairsAux, this]
        simp

/-- The pairs before the branch `pos` all have keys below `key` when the node's keys
before `pos` do. -/
theorem before_lt [LinearOrder K] (key : K) (ks1 : List (K × V))
    (bs1 : List (Option (BTreeNode K V))) (h : ks1.length = bs1.length)
    (hs : SortedKeys (pairsAux ks1 (bs1 ++ [none]))) (hk : ∀ p ∈ ks1, p.1 < key) :
    ∀ x ∈ pairsAux ks1 (bs1 ++ [none]), x.1 < key := by
  rcases List.eq_nil_or_concat ks1 with e | ⟨ks, k, e⟩
  · subst e
    cases bs1 with
    | nil => simp [pairsAux, pairsPtr]
    | cons b bs => simp at h
  · subst e
    rcases List.eq_nil_or_concat bs1 with e2 | ⟨bs, b, e2⟩
    · subst e2; simp at h
    · subst e2
      have hl : ks.length = bs.length := by simpa using h
      have e3 : pairsAux (ks ++ [k]) (bs ++ [b] ++ [none]) =
          pairsAux ks (bs ++ [none]) ++ pairsPtr b ++ [k] := by
        rw [List.append_assoc, pairsAux_append _ _ _ _ hl]
        simp [pairsAux, pairsPtr]
      simp only [List.concat_eq_append] at hs hk ⊢
      rw [e3] at hs ⊢
      have hkk : k.1 < key := hk k (by simp)
      rw [sortedKeys_append] at hs
      intro x hx
      rcases List.mem_append.1 hx with hx | hx
      · exact lt_trans (hs.2.2 x hx k (List.mem_singleton_self _)) hkk
      · rw [List.mem_singleton.1 hx]; exact hkk

/-- The pairs from the key `pos` on all have keys above `key` when the key at `pos` does. -/
theorem after_gt [LinearOrder K] (key : K) (ks2 : List (K × V))
    (bs2 : List (Option (BTreeNode K V)))
    (hs : SortedKeys (pairsAux ks2 (none :: bs2)))
    (hk : ∀ a rest, ks2 = a :: rest → key < a.1) :
    ∀ x ∈ pairsAux ks2 (none :: bs2), key < x.1 := by
  cases ks2 with
  | nil => simp [pairsAux, pairsPtr]
  | cons a rest =>
    simp only [pairsAux, pairsPtr, List.nil_append] at hs ⊢
    rw [sortedKeys_cons] at hs
    have ha := hk a rest rfl
    intro x hx
    rcases List.mem_cons.1 hx with e | e
    · rw [e]; exact ha
    · exact lt_trans ha (hs.1 x e)

theorem insertAt_append (order : Nat) (ks1 ks2 : List (K × V))
    (bs1 : List (Option (BTreeNode K V))) (c rb : Option (BTreeNode K V))
    (bs2 st : List (Option (BTreeNode K V))) (kv : K × V) (h : ks1.length = bs1.length)
    (hlt : (ks1 ++ ks2).length < MAXKEYS order) :
    insertAt order (BTreeNode.mk (ks1 ++ ks2) (bs1 ++ c :: bs2) st) ks1.length kv rb =
      some (BTreeNode.mk (ks1 ++ kv :: ks2) (bs1 ++ c :: rb :: bs2) (st.drop 1)) := by
  simp only [insertAt, nbKeys, keys, hlt, ↓reduceIte, m_branch, m_stale, take_length_append,
    drop_length_append]
  rw [h, take_succ_length_append_cons, drop_succ_length_append_cons]
  simp

theorem splitInsertAt_eq (order : Nat) (h3 : 3 ≤ order) (ks : List (K × V))
    (br st : List (Option (BTreeNode K V))) (pos : Nat) (kv : K × V)
    (rb : Option (BTreeNode K V)) (hfull : ks.length = MAXKEYS order)
    (hbr : br.length = ks.length + 1) (hpos : pos ≤ ks.length) :
    ∃ med st1 st2, (ks.take pos ++ kv :: ks.drop pos).get? (order / 2) = some med ∧
      splitInsertAt order (BTreeNode.mk ks br st) pos kv rb =
        some (BTreeNode.mk ((ks.take pos ++ kv :: ks.drop pos).take (order / 2))
            ((br.take (pos + 1) ++ rb :: br.drop (pos + 1)).take (order / 2 + 1)) st1,
          med,
          BTreeNode.mk ((ks.take pos ++ kv :: ks.drop pos).drop (order / 2 + 1))
            ((br.take (pos + 1) ++ rb :: br.drop (pos + 1)).drop (order / 2 + 1)) st2) := by
  have hM : MAXKEYS order = order - 1 := rfl
  have hmid : order / 2 < order - 1 := by omega
  have hKlen : (ks.take pos ++ kv :: ks.drop pos).length = order := by
    simp only [List.length_append, List.length_take, List.length_cons, List.length_drop]
    omega
  have hBlen : (br.take (pos + 1) ++ rb :: br.drop (pos + 1)).length = order + 1 := by
    simp only [List.length_append, List.length_take, List.length_cons, List.length_drop]
    omega
  obtain ⟨med, hmed⟩ : ∃ med, (ks.take pos ++ kv :: ks.drop pos).get? (order / 2) = some med := by
    have : order / 2 < (ks.take pos ++ kv :: ks.drop pos).length := by omega
    exact ⟨_, List.get?_eq_get this⟩
  obtain ⟨b, hb⟩ : ∃ b, (br.take (pos + 1) ++ rb :: br.drop (pos + 1)).get? (order / 2 + 1) = some b := by
    have : order / 2 + 1 < (br.take (pos + 1) ++ rb :: br.drop (pos + 1)).length := by omega
    exact ⟨_, List.get?_eq_get this⟩
  have hfullb : (BTreeNode.mk ks br st).isFull order = true := by
    simp [isFull, nbKeys, keys, hfull]
  unfold splitInsertAt
  simp only [hfullb, ↓reduceIte, keys, m_branch, m_stale]
  by_cases hle : pos ≤ order / 2
  · simp only [hle, ↓reduceIte]
    have hins : insertAt order (BTreeNode.mk (List.take (order / 2) ks)
        (List.take (order / 2 + 1) br) (List.drop (order / 2 + 1) br ++ st)) pos kv rb =
        some (BTreeNode.mk ((ks.take pos ++ kv :: ks.drop pos).take (order / 2 + 1))
          ((br.take (pos + 1) ++ rb :: br.drop (pos + 1)).take (order / 2 + 1 + 1))
          ((List.drop (order / 2 + 1) br ++ st).drop 1)) := by
      have : (List.take (order / 2) ks).length < MAXKEYS order := by
        simp only [List.length_take]; omega
      simp only [insertAt, nbKeys, keys, this, ↓reduceIte, m_branch, m_stale]
      rw [take_insert_of_le ks kv pos (order / 2) hle,
        take_insert_of_le br rb (pos + 1) (order / 2 + 1) (by omega)]
    simp only [hins, keys, m_branch, m_stale]
    rw [getLast?_take_succ _ _ (by omega), getLast?_take_succ _ _ (by omega), hmed, hb]
    simp only
    rw [dropLast_take_succ _ _ (by omega), dropLast_take_succ _ _ (by omega)]
    refine ⟨med, b :: List.drop 1 (List.drop (order / 2 + 1) br ++ st),
      List.replicate (order / 2) none, rfl, ?_⟩
    rw [drop_eq_cons_of_get? _ _ _ hb, ← drop_insert_of_le ks kv pos (order / 2) hle,
      ← drop_insert_of_le br rb (pos + 1) (order / 2 + 1) (by omega)]
    simp
  · simp only [hle, ↓reduceIte]
    have hlt : order / 2 < pos := by omega
    have hins : insertAt order (BTreeNode.mk (List.drop (order / 2 + 1) ks)
        (none :: List.drop (order / 2 + 1 + 1) br) (List.replicate (order / 2 + 1) none))
        (pos - (order / 2 + 1)) kv rb =
        some (BTreeNode.mk ((ks.take pos ++ kv :: ks.drop pos).drop (order / 2 + 1))
          (none :: (br.take (pos + 1) ++ rb :: br.drop (pos + 1)).drop (order / 2 + 1 + 1))
          ((List.replicate (order / 2 + 1) (none : Option (BTreeNode K V))).drop 1)) := by
      have : (List.drop (order / 2 + 1) ks).length < MAXKEYS order := by
        simp only [List.length_drop]; omega
      simp only [insertAt, nbKeys, keys, this, ↓reduceIte, m_branch, m_stale]
      rw [drop_insert_of_ge ks kv pos (order / 2 + 1) (by omega) hpos,
        ← drop_insert_of_ge br rb (pos + 1) (order / 2 + 1 + 1) (by omega) (by omega)]
      have e : pos + 1 - (order / 2 + 1 + 1) = pos - (order / 2 + 1) := by omega
      simp [e]
    simp only [hins, keys, m_branch, m_stale]
    rw [getLast?_take_succ _ _ (by omega), getLast?_take_succ _ _ (by omega)]
    have hmed2 : ks.get? (order / 2) = some med := by
      rw [← get?_insert_of_lt ks kv pos (order / 2) hlt hpos]; exact hmed
    have hb2 : br.get? (order / 2 + 1) = some b := by
      rw [← get?_insert_of_lt br rb (pos + 1) (order / 2 + 1) (by omega) (by omega)]; exact hb
    rw [hmed2, hb2]
    simp only
    rw [dropLast_take_succ _ _ (by omega), dropLast_take_succ _ _ (by omega)]
    refine ⟨med, b :: (List.drop (order / 2 + 1 + 1) br ++ st),
      (List.replicate (order / 2 + 1) none).drop 1, hmed, ?_⟩
    rw [drop_eq_cons_of_get? _ _ _ hb,
      ← take_insert_of_ge ks kv pos (order / 2) (by omega) hpos,
      ← take_insert_of_ge br rb (pos + 1) (order / 2 + 1) (by omega) (by omega)]
    simp

theorem mem_descendantsList (bs : List (Option (BTreeNode K V))) (x : BTreeNode K V) :
    x ∈ descendantsList bs ↔ ∃ b ∈ bs, x ∈ descendantsPtr b := by
  induction bs with
  | nil => simp [descendantsList]
  | cons b bs ih => simp [descendantsList, ih]

theorem minKeysList_iff (order : Nat) (bs : List (Option (BTreeNode K V))) :
    MinKeysList order bs ↔ ∀ b ∈ bs, MinKeysPtr order b := by
  simp only [MinKeysList, MinKeysPtr, mem_descendantsList]
  constructor
  · intro h b hb x hx
    exact h x ⟨b, hb, hx⟩
  · rintro h x ⟨b, hb, hx⟩
    exact h b hb x hx

theorem minKeysList_append (order : Nat) (l1 l2 : List (Option (BTreeNode K V))) :
    MinKeysList order (l1 ++ l2) ↔ MinKeysList order l1 ∧ MinKeysList order l2 := by
  simp only [minKeysList_iff, List.mem_append]
  constructor
  · intro h
    exact ⟨fun b hb => h b (Or.inl hb), fun b hb => h b (Or.inr hb)⟩
  · rintro ⟨h1, h2⟩ b (hb | hb)
    · exact h1 b hb
    · exact h2 b hb

theorem minKeysList_cons (order : Nat) (b : Option (BTreeNode K V))
    (l : List (Option (BTreeNode K V))) :
    MinKeysList order (b :: l) ↔ MinKeysPtr order b ∧ MinKeysList order l := by
  simp only [minKeysList_iff, List.mem_cons, forall_eq_or_imp]

theorem minKeysList_take (order : Nat) (l : List (Option (BTreeNode K V))) (n : Nat)
    (h : MinKeysList order l) : MinKeysList order (l.take n) := by
  rw [minKeysList_iff] at h ⊢
  exact fun b hb => h b (List.mem_of_mem_take hb)

theorem minKeysList_drop (order : Nat) (l : List (Option (BTreeNode K V))) (n : Nat)
    (h : MinKeysList order l) : MinKeysList order (l.drop n) := by
  rw [minKeysList_iff] at h ⊢
  exact fun b hb => h b (List.mem_of_mem_drop hb)

theorem minKeysPtr_none (order : Nat) : MinKeysPtr order (none : Option (BTreeNode K V)) := by
  simp [MinKeysPtr, descendantsPtr]

theorem minKeysPtr_some (order : Nat) (n : BTreeNode K V) :
    MinKeysPtr order (some n) ↔ MINKEYS order ≤ n.nbKeys ∧ MinKeysList order n.m_branch := by
  cases n with
  | mk ks br st =>
    simp only [MinKeysPtr, descendantsPtr, descendants, List.mem_cons, forall_eq_or_imp,
      MinKeysList, BTreeNode.m_branch]

/-- What `internal_push_down_insert` returns on a well-formed, search-ordered subtree. -/
theorem push_down_spec [LinearOrder K] (order : Nat) (h3 : 3 ≤ order) (key : K) (val : V)
    (p : Option (BTreeNode K V)) (hw : WFPtr order p) (hs : SortedKeys (pairsPtr p)) :
    (lookup key (pairsPtr p) ≠ none ∧
      internal_push_down_insert order key val p = some .ERCode_Insert_Error_Duplicate) ∨
    (lookup key (pairsPtr p) = none ∧
      ((∃ p1, internal_push_down_insert order key val p = some (.ERCode_Insert_Success p1) ∧
          WFPtr order p1 ∧ pairsPtr p1 = insList key val (pairsPtr p) ∧
          (∀ n, p = some n → ∃ n1, p1 = some n1 ∧ n.nbKeys ≤ n1.nbKeys ∧
            (MinKeysList order n.m_branch → MinKeysList order n1.m_branch))) ∨
        (∃ p1 med r, internal_push_down_insert order key val p =
            some (.ERCode_Insert_Overflow p1 med r) ∧
          WFPtr order p1 ∧ WFPtr order r ∧
          pairsPtr p1 ++ med :: pairsPtr r = insList key val (pairsPtr p) ∧
          (p = none → p1 = none ∧ r = none) ∧
          (∀ n, p = some n → ∃ l rn, p1 = some l ∧ r = some rn ∧ l.nbKeys = order / 2 ∧
            rn.nbKeys = MAXKEYS order - order / 2 ∧
            (MinKeysList order n.m_branch →
              MinKeysList order l.m_branch ∧ MinKeysList order rn.m_branch))))) := by
  have hnone : ∀ q : Option (BTreeNode K V), q = none →
      (lookup key (pairsPtr q) = none ∧
        ∃ p1 med r, internal_push_down_insert order key val q =
            some (.ERCode_Insert_Overflow p1 med r) ∧
          WFPtr order p1 ∧ WFPtr order r ∧
          pairsPtr p1 ++ med :: pairsPtr r = insList key val (pairsPtr q) ∧
          (q = none → p1 = none ∧ r = none) ∧
          (∀ n, q = some n → ∃ l rn, p1 = some l ∧ r = some rn ∧ l.nbKeys = order / 2 ∧
            rn.nbKeys = MAXKEYS order - order / 2 ∧
            (MinKeysList order n.m_branch →
              MinKeysList order l.m_branch ∧ MinKeysList order rn.m_branch))) := by
    intro q hq
    subst hq
    exact ⟨rfl, none, (key, val), none, by simp [internal_push_down_insert], trivial, trivial,
      by simp [pairsPtr, insList], fun _ => ⟨rfl, rfl⟩, fun n hn => by simp at hn⟩
  cases p with
  | none => exact Or.inr ⟨(hnone none rfl).1, Or.inr (hnone none rfl).2⟩
  | some n =>
    revert hw hs
    induction n using node_induct with
    | h ks br st ih =>
      intro hw hs
      simp only [WFPtr, WF] at hw
      obtain ⟨hlen, hbr, hwl⟩ := hw
      simp only [pairsPtr, pairs] at hs ⊢
      obtain ⟨ks1, ks2, e, hpos, hlt, hfound, hnotfound⟩ := findKeyPositionFrom_spec key ks 0
      simp only [zero_add] at hpos
      obtain ⟨bs1, b, bs2, eb, hb1⟩ := exists_append_cons_of_lt_length br ks1.length
        (by rw [hbr, e]; simp; omega)
      subst e
      subst eb
      have hl : ks1.length = bs1.length := hb1.symm
      rw [pairsAux_node _ _ _ _ _ hl] at hs ⊢
      have hs2 := hs
      rw [sortedKeys_append, sortedKeys_append] at hs2
      obtain ⟨⟨hsb, hsc, hbc⟩, hsa, hba⟩ := hs2
      have hbefore := before_lt key ks1 bs1 hl hsb hlt
      rw [wfList_append, wfList_cons] at hwl
      obtain ⟨hw1, hwb, hw2⟩ := hwl
      have hchild : (lookup key (pairsPtr b) ≠ none ∧
          internal_push_down_insert order key val b = some .ERCode_Insert_Error_Duplicate) ∨
        (lookup key (pairsPtr b) = none ∧
          ((∃ p1, internal_push_down_insert order key val b =
              some (.ERCode_Insert_Success p1) ∧
              WFPtr order p1 ∧ pairsPtr p1 = insList key val (pairsPtr b) ∧
              (MinKeysPtr order b → MinKeysPtr order p1)) ∨
            (∃ p1 med r, internal_push_down_insert order key val b =
                some (.ERCode_Insert_Overflow p1 med r) ∧
              WFPtr order p1 ∧ WFPtr order r ∧
              pairsPtr p1 ++ med :: pairsPtr r = insList key val (pairsPtr b) ∧
              (MinKeysPtr order b → MinKeysPtr order p1 ∧ MinKeysPtr order r)))) := by
        have hM : MINKEYS order = (order - 1) / 2 := rfl
        have hM2 : MAXKEYS order = order - 1 := rfl
        cases b with
        | none =>
          obtain ⟨g1, p1, med, r, g2, g3, g4, g5, g6, _⟩ := hnone none rfl
          refine Or.inr ⟨g1, Or.inr ⟨p1, med, r, g2, g3, g4, g5, fun _ => ?_⟩⟩
          rw [(g6 rfl).1, (g6 rfl).2]
          exact ⟨minKeysPtr_none order, minKeysPtr_none order⟩
        | some c =>
          rcases ih c (by simp) hwb hsc with hd | ⟨g1, hrest⟩
          · exact Or.inl hd
          · refine Or.inr ⟨g1, ?_⟩
            rcases hrest with ⟨p1, g2, g3, g4, g5⟩ | ⟨p1, med, r, g2, g3, g4, g5, _, g7⟩
            · left
              refine ⟨p1, g2, g3, g4, fun hmin => ?_⟩
              obtain ⟨n1, e1, e2, e3⟩ := g5 c rfl
              rw [minKeysPtr_some] at hmin
              rw [e1, minKeysPtr_some]
              exact ⟨le_trans hmin.1 e2, e3 hmin.2⟩
            · right
              refine ⟨p1, med, r, g2, g3, g4, g5, fun hmin => ?_⟩
              obtain ⟨l, rn, e1, e2, e3, e4, e5⟩ := g7 c rfl
              rw [minKeysPtr_some] at hmin
              rw [e1, e2, minKeysPtr_some, minKeysPtr_some]
              exact ⟨⟨by omega, (e5 hmin.2).1⟩, ⟨by omega, (e5 hmin.2).2⟩⟩
      have hbranch : push_down_branch order key val (bs1 ++ b :: bs2) ks1.length =
          internal_push_down_insert order key val b := by
        rw [push_down_branch_eq, hl, get?_append_cons_length]
      cases hfk : findKeyPositionFrom key (ks1 ++ ks2) 0 with
      | mk found pos =>
        rw [hfk] at hpos hfound hnotfound
        simp only at hpos hfound hnotfound
        subst hpos
        cases found with
        | true =>
          obtain ⟨v, rest, e2⟩ := hfound rfl
          subst e2
          left
          refine ⟨?_, by simp only [internal_push_down_insert, push_down_node, hfk]⟩
          have hmem : (key, v) ∈ pairsAux ((key, v) :: rest) (none :: bs2) := by
            simp [pairsAux]
          have h1 : ∀ x ∈ pairsAux ks1 (bs1 ++ [none]) ++ pairsPtr b, x.1 ≠ key :=
            fun x hx => ne_of_lt (hba x hx (key, v) hmem)
          rw [lookup_append_of_not_mem _ _ _ h1]
          simp [pairsAux, pairsPtr, lookup]
        | false =>
          have hafter := after_gt key ks2 bs2 hsa (hnotfound rfl)
          rw [lookup_middle key _ _ _ hbefore hafter, insList_middle key val _ _ _ hbefore hafter]
          rcases hchild with ⟨hd1, hd2⟩ | ⟨hn1, hrest⟩
          · left
            exact ⟨hd1, by simp only [internal_push_down_insert, push_down_node, hfk, hbranch, hd2]⟩
          · right
            refine ⟨hn1, ?_⟩
            rcases hrest with ⟨p1, hp1, hwp1, hpp1, hmin1⟩ | ⟨p1, med, r, hp1, hwp1, hwr, hpp1, hmin1⟩
            · left
              refine ⟨some (BTreeNode.mk (ks1 ++ ks2) (bs1 ++ p1 :: bs2) st), ?_, ?_, ?_, ?_⟩
              · have hset : (bs1 ++ b :: bs2).set ks1.length p1 = bs1 ++ p1 :: bs2 := by
                  rw [hl, set_append_cons_length]
                simp only [internal_push_down_insert, push_down_node, hfk, hbranch, hp1, hset]
              · simp only [WFPtr, WF]
                refine ⟨hlen, by simpa using hbr, ?_⟩
                rw [wfList_append, wfList_cons]
                exact ⟨hw1, hwp1, hw2⟩
              · simp only [pairsPtr, pairs]
                rw [pairsAux_node _ _ _ _ _ hl, hpp1]
              · intro n hn
                simp only [Option.some.injEq] at hn
                subst hn
                refine ⟨_, rfl, le_refl _, ?_⟩
                simp only [BTreeNode.m_branch]
                rw [minKeysList_append, minKeysList_cons, minKeysList_append, minKeysList_cons]
                exact fun h => ⟨h.1, hmin1 h.2.1, h.2.2⟩
            · have hset : (bs1 ++ b :: bs2).set ks1.length p1 = bs1 ++ p1 :: bs2 := by
                rw [hl, set_append_cons_length]
              have hKB : pairsAux (ks1 ++ med :: ks2) (bs1 ++ p1 :: r :: bs2) =
                  pairsAux ks1 (bs1 ++ [none]) ++ insList key val (pairsPtr b) ++
                    pairsAux ks2 (none :: bs2) := by
                rw [pairsAux_node_insert _ _ _ _ _ _ _ hl, hpp1]
              have hwB : WFList order (bs1 ++ p1 :: r :: bs2) := by
                rw [wfList_append, wfList_cons, wfList_cons]
                exact ⟨hw1, hwp1, hwr, hw2⟩
              have hminB : MinKeysList order (bs1 ++ b :: bs2) →
                  MinKeysList order (bs1 ++ p1 :: r :: bs2) := by
                rw [minKeysList_append, minKeysList_cons, minKeysList_append, minKeysList_cons,
                  minKeysList_cons]
                exact fun h => ⟨h.1, (hmin1 h.2.1).1, (hmin1 h.2.1).2, h.2.2⟩
              by_cases hfull : (ks1 ++ ks2).length = MAXKEYS order
              · right
                have hfullb : (BTreeNode.mk (ks1 ++ ks2) (bs1 ++ p1 :: bs2) st).isFull order =
                    true := by
                  simp [isFull, nbKeys, keys, hfull]
                obtain ⟨medv, st1, st2, hmed, hsplit⟩ := splitInsertAt_eq order h3 (ks1 ++ ks2)
                  (bs1 ++ p1 :: bs2) st ks1.length med r hfull (by simpa using hbr) (by simp)
                have eK : List.take ks1.length (ks1 ++ ks2) ++ med :: List.drop ks1.length (ks1 ++ ks2) =
                    ks1 ++ med :: ks2 := by
                  rw [take_length_append, drop_length_append]
                have eB : List.take (ks1.length + 1) (bs1 ++ p1 :: bs2) ++
                    r :: List.drop (ks1.length + 1) (bs1 ++ p1 :: bs2) = bs1 ++ p1 :: r :: bs2 := by
                  rw [hl, take_succ_length_append_cons, drop_succ_length_append_cons]
                  simp
                rw [eK, eB] at hsplit
                rw [eK] at hmed
                have hM : MAXKEYS order = order - 1 := rfl
                have hKlen : (ks1 ++ med :: ks2).length = order := by
                  simp only [List.length_append, List.length_cons] at hfull ⊢; omega
                have hBlen : (bs1 ++ p1 :: r :: bs2).length = order + 1 := by
                  simp only [List.length_append, List.length_cons] at hbr hfull ⊢; omega
                refine ⟨some (BTreeNode.mk ((ks1 ++ med :: ks2).take (order / 2))
                    ((bs1 ++ p1 :: r :: bs2).take (order / 2 + 1)) st1), medv,
                  some (BTreeNode.mk ((ks1 ++ med :: ks2).drop (order / 2 + 1))
                    ((bs1 ++ p1 :: r :: bs2).drop (order / 2 + 1)) st2), ?_, ?_, ?_, ?_,
                  fun hh => by simp at hh, ?_⟩
                · simp only [internal_push_down_insert, push_down_node, hfk, hbranch, hp1, hset, hfullb,
                    ↓reduceIte, hsplit]
                · simp only [WFPtr, WF, List.length_take, hKlen, hBlen]
                  exact ⟨by omega, by omega, wfList_take _ _ _ hwB⟩
                · simp only [WFPtr, WF, List.length_drop, hKlen, hBlen]
                  exact ⟨by omega, by omega, wfList_drop _ _ _ hwB⟩
                · simp only [pairsPtr, pairs]
                  rw [← pairsAux_take_drop _ _ _ _ hmed (by omega), hKB]
                · intro n hn
                  simp only [Option.some.injEq] at hn
                  subst hn
                  refine ⟨_, _, rfl, rfl, ?_, ?_, ?_⟩
                  · simp only [nbKeys, keys, List.length_take, hKlen]; omega
                  · simp only [nbKeys, keys, List.length_drop, hKlen]; omega
                  · simp only [BTreeNode.m_branch]
                    exact fun h => ⟨minKeysList_take _ _ _ (hminB h),
                      minKeysList_drop _ _ _ (hminB h)⟩
              · left
                have hfullb : (BTreeNode.mk (ks1 ++ ks2) (bs1 ++ p1 :: bs2) st).isFull order =
                    false := by
                  simp only [isFull, nbKeys, keys, beq_eq_false_iff_ne, ne_eq]
                  exact hfull
                have hlt2 : (ks1 ++ ks2).length < MAXKEYS order := lt_of_le_of_ne hlen hfull
                refine ⟨some (BTreeNode.mk (ks1 ++ med :: ks2) (bs1 ++ p1 :: r :: bs2)
                  (st.drop 1)), ?_, ?_, ?_, ?_⟩
                · simp only [internal_push_down_insert, push_down_node, hfk, hbranch, hp1, hset, hfullb,
                    Bool.false_eq_true, ↓reduceIte,
                    insertAt_append order ks1 ks2 bs1 p1 r bs2 st med hl hlt2]
                · simp only [WFPtr, WF]
                  refine ⟨?_, ?_, hwB⟩
                  · simp only [List.length_append, List.length_cons] at hlt2 ⊢; omega
                  · simp only [List.length_append, List.length_cons] at hbr ⊢; omega
                · simp only [pairsPtr, pairs]
                  exact hKB
                · intro n hn
                  simp only [Option.some.injEq] at hn
                  subst hn
                  refine ⟨_, rfl, ?_, ?_⟩
                  · simp only [nbKeys, keys, List.length_append, List.length_cons]; omega
                  · simp only [BTreeNode.m_branch]
                    exact hminB

theorem internal_find_branch_eq [LinearOrder K] (key : K)
    (br : List (Option (BTreeNode K V))) (pos : Nat) :
    internal_find_branch key br pos =
      match br.get? pos with
      | some b => internal_find key b
      | none => none := by
  induction br generalizing pos with
  | nil => simp [internal_find_branch]
  | cons b bs ih =>
    cases pos with
    | zero => simp [internal_find_branch]
    | succ i => simp [internal_find_branch, ih]

/-- On a well-formed, search-ordered tree `find` returns what the list of pairs holds. -/
theorem find_eq_lookup [LinearOrder K] (order : Nat) (key : K) (t : BTree K V)
    (hw : WFPtr order t.m_root) (hs : SortedKeys (pairsPtr t.m_root)) :
    find t key = lookup key (pairsPtr t.m_root) := by
  unfold find
  cases t with
  | mk p =>
    simp only at hw hs ⊢
    cases p with
    | none => simp [internal_find, pairsPtr, lookup]
    | some n =>
      revert hw hs
      induction n using node_induct with
      | h ks br st ih =>
        intro hw hs
        simp only [WFPtr, WF] at hw
        obtain ⟨hlen, hbr, hwl⟩ := hw
        simp only [pairsPtr, pairs] at hs ⊢
        obtain ⟨ks1, ks2, e, hpos, hlt, hfound, hnotfound⟩ := findKeyPositionFrom_spec key ks 0
        simp only [zero_add] at hpos
        obtain ⟨bs1, b, bs2, eb, hb1⟩ := exists_append_cons_of_lt_length br ks1.length
          (by rw [hbr, e]; simp; omega)
        subst e
        subst eb
        have hl : ks1.length = bs1.length := hb1.symm
        rw [pairsAux_node _ _ _ _ _ hl] at hs ⊢
        have hs2 := hs
        rw [sortedKeys_append, sortedKeys_append] at hs2
        obtain ⟨⟨hsb, hsc, hbc⟩, hsa, hba⟩ := hs2
        have hbefore := before_lt key ks1 bs1 hl hsb hlt
        rw [wfList_append, wfList_cons] at hwl
        obtain ⟨hw1, hwb, hw2⟩ := hwl
        cases hfk : findKeyPositionFrom key (ks1 ++ ks2) 0 with
        | mk found pos =>
          rw [hfk] at hpos hfound hnotfound
          simp only at hpos hfound hnotfound
          subst hpos
          cases found with
          | true =>
            obtain ⟨v, rest, e2⟩ := hfound rfl
            subst e2
            have hmem : (key, v) ∈ pairsAux ((key, v) :: rest) (none :: bs2) := by
              simp [pairsAux]
            have h1 : ∀ x ∈ pairsAux ks1 (bs1 ++ [none]) ++ pairsPtr b, x.1 ≠ key :=
              fun x hx => ne_of_lt (hba x hx (key, v) hmem)
            rw [lookup_append_of_not_mem _ _ _ h1]
            simp only [internal_find, internal_find_node, hfk, keys, get?_append_cons_length]
            simp [pairsAux, pairsPtr, lookup]
          | false =>
            have hafter := after_gt key ks2 bs2 hsa (hnotfound rfl)
            rw [lookup_middle key _ _ _ hbefore hafter]
            simp only [internal_find, internal_find_node, hfk, internal_find_branch_eq]
            rw [hl, get?_append_cons_length]
            simp only
            cases b with
            | none => simp [internal_find, pairsPtr, lookup]
            | some c => exact ih c (by simp) hwb hsc

/-- What `insert` does to a well-formed, search-ordered tree. -/
theorem btree_insert_spec [LinearOrder K] (order : Nat) (h3 : 3 ≤ order) (t : BTree K V) (key : K)
    (val : V) (hw : WFPtr order t.m_root) (hs : SortedKeys (pairsPtr t.m_root)) :
    ∃ t1 ret, insert order t key val = some (t1, ret) ∧ WFPtr order t1.m_root ∧
      SortedKeys (pairsPtr t1.m_root) ∧ ret = (lookup key (pairsPtr t.m_root)).isNone ∧
      (ret = true → pairsPtr t1.m_root = insList key val (pairsPtr t.m_root)) ∧
      (ret = false → t1 = t) ∧
      ((∀ root, t.m_root = some root → 1 ≤ root.nbKeys ∧ MinKeysList order root.m_branch) →
        ∀ root1, t1.m_root = some root1 →
          1 ≤ root1.nbKeys ∧ MinKeysList order root1.m_branch) := by
  have hM : MAXKEYS order = order - 1 := rfl
  have hM1 : MINKEYS order = (order - 1) / 2 := rfl
  rcases push_down_spec order h3 key val t.m_root hw hs with ⟨hd1, hd2⟩ | ⟨hn1, hrest⟩
  · refine ⟨t, false, by simp only [insert, hd2], hw, hs, ?_, by simp, fun _ => rfl,
      fun h => h⟩
    cases h : lookup key (pairsPtr t.m_root) with
    | none => exact absurd h hd1
    | some w => rfl
  · rcases hrest with ⟨p1, hp1, hwp1, hpp1, hc1⟩ | ⟨p1, med, r, hp1, hwp1, hwr, hpp1, hc1, hc2⟩
    · refine ⟨{ m_root := p1 }, true, by simp only [insert, hp1], hwp1, ?_, by rw [hn1]; rfl,
        fun _ => hpp1, by simp, ?_⟩
      · show SortedKeys (pairsPtr p1)
        rw [hpp1]; exact sortedKeys_insList _ _ _ hs
      · intro hroot root1 hr1
        simp only at hr1
        cases hroot0 : t.m_root with
        | none => rw [hroot0] at hp1; simp [internal_push_down_insert] at hp1
        | some root =>
          obtain ⟨n1, e1, e2, e3⟩ := hc1 root hroot0
          rw [e1, Option.some.injEq] at hr1
          subst hr1
          exact ⟨le_trans (hroot root hroot0).1 e2, e3 (hroot root hroot0).2⟩
    · have hins : insertAt order (BTreeNode.mk [] [p1] (List.replicate (order - 1) none)) 0 med r =
          some (BTreeNode.mk [med] [p1, r] ((List.replicate (order - 1) none).drop 1)) := by
        have : (0 : Nat) < MAXKEYS order := by omega
        simp [insertAt, nbKeys, keys, m_branch, m_stale, this]
      have hp : pairsPtr (some (BTreeNode.mk [med] [p1, r]
          ((List.replicate (order - 1) (none : Option (BTreeNode K V))).drop 1))) =
          insList key val (pairsPtr t.m_root) := by
        rw [← hpp1]; simp [pairsPtr, pairs, pairsAux]
      refine ⟨{ m_root := some (BTreeNode.mk [med] [p1, r]
          ((List.replicate (order - 1) none).drop 1)) }, true, by simp only [insert, hp1, hins],
        ?_, ?_, by rw [hn1]; rfl, fun _ => hp, by simp, ?_⟩
      · simp only [WFPtr, WF, WFList, List.length_singleton, List.length_cons, List.length_nil,
          hM]
        exact ⟨by omega, trivial, hwp1, hwr, trivial⟩
      · rw [hp]; exact sortedKeys_insList _ _ _ hs
      · intro hroot root1 hr1
        simp only [Option.some.injEq] at hr1
        subst hr1
        refine ⟨by simp [nbKeys, keys], ?_⟩
        simp only [BTreeNode.m_branch]
        rw [minKeysList_cons, minKeysList_cons]
        refine ⟨?_, ?_, by simp [MinKeysList, descendantsList]⟩
        · cases hroot0 : t.m_root with
          | none => rw [(hc1 hroot0).1]; exact minKeysPtr_none order
          | some root =>
            obtain ⟨l, rn, e1, e2, e3, e4, e5⟩ := hc2 root hroot0
            rw [e1, minKeysPtr_some]
            exact ⟨by omega, (e5 (hroot root hroot0).2).1⟩
        · cases hroot0 : t.m_root with
          | none => rw [(hc1 hroot0).2]; exact minKeysPtr_none order
          | some root =>
            obtain ⟨l, rn, e1, e2, e3, e4, e5⟩ := hc2 root hroot0
            rw [e2, minKeysPtr_some]
            exact ⟨by omega, (e5 (hroot root hroot0).2).2⟩

theorem wf_descendants (order : Nat) (n : BTreeNode K V) (hw : WF order n) :
    n.nbKeys ≤ MAXKEYS order ∧ ∀ x ∈ descendants n, x.nbKeys ≤ MAXKEYS order := by
  revert hw
  induction n using node_induct with
  | h ks br st ih =>
    intro hw
    simp only [WF] at hw
    refine ⟨hw.1, ?_⟩
    intro x hx
    simp only [descendants, mem_descendantsList] at hx
    obtain ⟨b, hb, hx⟩ := hx
    cases b with
    | none => simp [descendantsPtr] at hx
    | some c =>
      have hwc : WF order c := (wfList_iff order br).1 hw.2.2 (some c) hb
      simp only [descendantsPtr, List.mem_cons] at hx
      rcases hx with e | e
      · rw [e]; exact (ih c hb hwc).1
      · exact (ih c hb hwc).2 x e

/-- A sequence of `insert` calls keeps the tree well-formed and search-ordered, with a
root of at least one key above nodes of at least `MINKEYS` keys. -/
theorem insert_calls_invariant [LinearOrder K] (order : Nat) (h3 : 3 ≤ order)
    (kvs : List (K × V)) (t : BTree K V) (hw : WFPtr order t.m_root)
    (hs : SortedKeys (pairsPtr t.m_root))
    (hr : ∀ root, t.m_root = some root → 1 ≤ root.nbKeys ∧ MinKeysList order root.m_branch) :
    ∃ t1, calls order t (kvs.map (fun kv => Call.insert kv.1 kv.2)) = some t1 ∧
      WFPtr order t1.m_root ∧ SortedKeys (pairsPtr t1.m_root) ∧
      ∀ root, t1.m_root = some root → 1 ≤ root.nbKeys ∧ MinKeysList order root.m_branch := by
  induction kvs generalizing t with
  | nil => exact ⟨t, rfl, hw, hs, hr⟩
  | cons kv kvs ih =>
    obtain ⟨t1, ret, h1, h2, h3', _, _, _, h7⟩ := btree_insert_spec order h3 t kv.1 kv.2 hw hs
    obtain ⟨t2, g1, g2⟩ := ih t1 h2 h3' (h7 hr)
    exact ⟨t2, by simp only [List.map_cons, calls, call, h1, g1], g2⟩

theorem uniformList_iff (h : Nat) (l : List (Option (BTreeNode K V))) :
    UniformList h l ↔ ∀ b ∈ l, UniformPtr h b := by
  induction l with
  | nil => simp [UniformList]
  | cons b bs ih => simp [UniformList, ih]

theorem uniformPtr_some (h : Nat) (n : BTreeNode K V) :
    UniformPtr h (some n) ↔ 0 < h ∧ ∀ b ∈ n.m_branch, UniformPtr (h - 1) b := by
  cases n with
  | mk ks br st => simp only [UniformPtr, Uniform, uniformList_iff, BTreeNode.m_branch]

theorem uniformPtr_none (h : Nat) : UniformPtr h (none : Option (BTreeNode K V)) ↔ h = 0 := by
  simp only [UniformPtr]

/-- The branches of a node are all null or all non-null when its leaves are on one
level. -/
theorem uniform_branch_cases (h : Nat) (l : List (Option (BTreeNode K V)))
    (hu : ∀ b ∈ l, UniformPtr h b) :
    (h = 0 ∧ ∀ b ∈ l, b = none) ∨ (0 < h ∧ ∀ b ∈ l, ∃ c, b = some c) := by
  rcases Nat.eq_zero_or_pos h with e | e
  · left
    refine ⟨e, fun b hb => ?_⟩
    have := hu b hb
    cases b with
    | none => rfl
    | some c => simp only [UniformPtr] at this; omega
  · right
    refine ⟨e, fun b hb => ?_⟩
    have := hu b hb
    cases b with
    | none => simp only [UniformPtr] at this; omega
    | some c => exact ⟨c, rfl⟩

theorem mem_of_mem_set {α : Type} (l : List α) (i : Nat) (a x : α) (h : x ∈ l.set i a) :
    x = a ∨ x ∈ l := by
  induction l generalizing i with
  | nil => simp at h
  | cons b bs ih =>
    cases i with
    | zero =>
      simp only [List.set_cons_zero, List.mem_cons] at h
      rcases h with h | h
      · exact Or.inl h
      · exact Or.inr (List.mem_cons_of_mem _ h)
    | succ j =>
      simp only [List.set_cons_succ, List.mem_cons] at h
      rcases h with h | h
      · exact Or.inr (by rw [h]; exact List.mem_cons_self _ _)
      · rcases ih j h with h1 | h1
        · exact Or.inl h1
        · exact Or.inr (List.mem_cons_of_mem _ h1)

/-- The branches `insertAt` leaves in a node are the old ones and `rightBranch`. -/
theorem insertAt_branch_mem (order : Nat) (n n1 : BTreeNode K V) (pos : Nat) (kv : K × V)
    (rb : Option (BTreeNode K V)) (h : insertAt order n pos kv rb = some n1) :
    ∀ b ∈ n1.m_branch, b = rb ∨ b ∈ n.m_branch := by
  simp only [insertAt] at h
  split at h
  · simp only [Option.some.injEq] at h
    subst h
    intro b hb
    simp only [BTreeNode.m_branch, List.mem_append, List.mem_cons] at hb
    rcases hb with hb | hb | hb
    · exact Or.inr (List.mem_of_mem_take hb)
    · exact Or.inl hb
    · exact Or.inr (List.mem_of_mem_drop hb)
  · simp at h

/-- The branches `splitInsertAt` leaves in the two nodes are the old ones and
`rightBranchIn`. -/
theorem splitInsertAt_branch_mem (order : Nat) (n l r : BTreeNode K V) (pos : Nat) (kv med : K × V)
    (rb : Option (BTreeNode K V)) (h : splitInsertAt order n pos kv rb = some (l, med, r)) :
    (∀ b ∈ l.m_branch, b = rb ∨ b ∈ n.m_branch) ∧ (∀ b ∈ r.m_branch, b = rb ∨ b ∈ n.m_branch) := by
  simp only [splitInsertAt] at h
  split at h
  · split at h
    · simp at h
    · rename_i l0 r0 hh
      split at h
      · rename_i median b0 hk hb
        simp only [Option.some.injEq, Prod.mk.injEq] at h
        obtain ⟨e1, _, e3⟩ := h
        subst e1 e3
        have hb0 : b0 ∈ l0.m_branch := List.mem_of_getLast?_eq_some hb
        have key : (∀ b ∈ l0.m_branch, b = rb ∨ b ∈ n.m_branch) ∧
            (∀ b ∈ r0.m_branch.drop 1, b = rb ∨ b ∈ n.m_branch) := by
          split at hh
          · split at hh
            · rename_i l1 hi
              simp only [Option.some.injEq, Prod.mk.injEq] at hh
              obtain ⟨e1, e2⟩ := hh
              subst e1 e2
              constructor
              · intro b hb
                rcases insertAt_branch_mem order _ _ _ _ _ hi b hb with h1 | h1
                · exact Or.inl h1
                · exact Or.inr (List.mem_of_mem_take h1)
              · intro b hb
                simp only [BTreeNode.m_branch, List.drop_succ_cons, List.drop_zero] at hb
                exact Or.inr (List.mem_of_mem_drop hb)
            · simp at hh
          · split at hh
            · rename_i r1 hi
              simp only [Option.some.injEq, Prod.mk.injEq] at hh
              obtain ⟨e1, e2⟩ := hh
              subst e1 e2
              constructor
              · intro b hb
                exact Or.inr (List.mem_of_mem_take hb)
              · intro b hb
                simp only [insertAt] at hi
                split at hi
                · simp only [Option.some.injEq] at hi
                  subst hi
                  simp only [BTreeNode.m_branch, BTreeNode.keys, List.take_succ_cons, List.cons_append,
                    List.drop_succ_cons, List.drop_zero, List.mem_append, List.mem_cons] at hb
                  rcases hb with hb | hb | hb
                  · exact Or.inr (List.mem_of_mem_drop (List.mem_of_mem_take hb))
                  · exact Or.inl hb
                  · exact Or.inr (List.mem_of_mem_drop (List.mem_of_mem_drop hb))
                · simp at hi
            · simp at hh
        constructor
        · intro b hb
          simp only [BTreeNode.m_branch] at hb
          exact key.1 b (List.mem_of_mem_dropLast hb)
        · intro b hb
          simp only [BTreeNode.m_branch, List.mem_cons] at hb
          rcases hb with hb | hb
          · rw [hb]; exact key.1 b0 hb0
          · exact key.2 b hb
      · simp at h
  · simp at h

/-- `internal_push_down_insert` keeps the leaves on one level: the node after the call and
the split-off right node have the height of the subtree before the call. -/
theorem push_down_uniform [LinearOrder K] (order : Nat) (key : K) (val : V)
    (p : Option (BTreeNode K V)) :
    ∀ h, UniformPtr h p →
    (∀ p1, internal_push_down_insert order key val p = some (.ERCode_Insert_Success p1) →
      UniformPtr h p1) ∧
    (∀ p1 med r, internal_push_down_insert order key val p =
        some (.ERCode_Insert_Overflow p1 med r) → UniformPtr h p1 ∧ UniformPtr h r) := by
  have hnone : ∀ h, UniformPtr h (none : Option (BTreeNode K V)) →
      (∀ p1, internal_push_down_insert order key val none = some (.ERCode_Insert_Success p1) →
        UniformPtr h p1) ∧
      (∀ p1 med r, internal_push_down_insert order key val none =
          some (.ERCode_Insert_Overflow p1 med r) → UniformPtr h p1 ∧ UniformPtr h r) := by
    intro h hu
    simp only [internal_push_down_insert, Option.some.injEq, PushDown.ERCode_Insert_Overflow.injEq,
      and_imp, false_implies, implies_true, true_and]
    constructor
    · intro p1 hp; cases hp
    · intro p1 med r e1 _ e3
      subst e1 e3
      exact ⟨hu, hu⟩
  cases p with
  | none => exact hnone
  | some n =>
    induction n using node_induct with
    | h ks br st ih =>
      intro h hu
      rw [uniformPtr_some] at hu
      obtain ⟨hpos, hbr⟩ := hu
      simp only [BTreeNode.m_branch] at hbr
      simp only [internal_push_down_insert, push_down_node]
      rcases hfk : findKeyPositionFrom key ks 0 with ⟨found, position⟩
      cases found with
      | true => simp
      | false =>
        simp only [push_down_branch_eq]
        cases hg : br.get? position with
        | none => simp
        | some b =>
          have hb : b ∈ br := List.get?_mem hg
          have hchild := (show (∀ h, UniformPtr h b →
              (∀ p1, internal_push_down_insert order key val b =
                  some (.ERCode_Insert_Success p1) → UniformPtr h p1) ∧
              (∀ p1 med r, internal_push_down_insert order key val b =
                  some (.ERCode_Insert_Overflow p1 med r) →
                UniformPtr h p1 ∧ UniformPtr h r)) from by
            cases b with
            | none => exact hnone
            | some c => exact ih c hb) (h - 1) (hbr b hb)
          simp only []
          cases hr : internal_push_down_insert order key val b with
          | none => simp
          | some res =>
            cases res with
            | ERCode_Insert_Error_Duplicate => simp
            | ERCode_Insert_Success child =>
              have hc := hchild.1 child hr
              constructor
              · intro p1 hp
                simp only [Option.some.injEq, PushDown.ERCode_Insert_Success.injEq] at hp
                subst hp
                rw [uniformPtr_some]
                refine ⟨hpos, fun x hx => ?_⟩
                simp only [BTreeNode.m_branch] at hx
                rcases mem_of_mem_set _ _ _ _ hx with e | e
                · rw [e]; exact hc
                · exact hbr x e
              · intro p1 med r hp
                simp at hp
            | ERCode_Insert_Overflow child median rb =>
              obtain ⟨hc, hrb⟩ := hchild.2 child median rb hr
              have hset : ∀ x ∈ (BTreeNode.mk ks (br.set position child) st).m_branch,
                  UniformPtr (h - 1) x := by
                intro x hx
                simp only [BTreeNode.m_branch] at hx
                rcases mem_of_mem_set _ _ _ _ hx with e | e
                · rw [e]; exact hc
                · exact hbr x e
              simp only []
              split
              · cases hsp : splitInsertAt order (BTreeNode.mk ks (br.set position child) st) position
                    median rb with
                | none => simp
                | some res =>
                  obtain ⟨l, m, r⟩ := res
                  obtain ⟨m1, m2⟩ := splitInsertAt_branch_mem order _ _ _ _ _ _ _ hsp
                  constructor
                  · intro p1 hp
                    simp at hp
                  · intro p1 med r1 hp
                    simp only [Option.some.injEq, PushDown.ERCode_Insert_Overflow.injEq] at hp
                    obtain ⟨e1, _, e3⟩ := hp
                    subst e1 e3
                    constructor
                    · rw [uniformPtr_some]
                      refine ⟨hpos, fun x hx => ?_⟩
                      rcases m1 x hx with e | e
                      · rw [e]; exact hrb
                      · exact hset x e
                    · rw [uniformPtr_some]
                      refine ⟨hpos, fun x hx => ?_⟩
                      rcases m2 x hx with e | e
                      · rw [e]; exact hrb
                      · exact hset x e
              · cases hin : insertAt order (BTreeNode.mk ks (br.set position child) st) position
                    median rb with
                | none => simp
                | some n1 =>
                  have m1 := insertAt_branch_mem order _ _ _ _ _ hin
                  constructor
                  · intro p1 hp
                    simp only [Option.some.injEq, PushDown.ERCode_Insert_Success.injEq] at hp
                    subst hp
                    rw [uniformPtr_some]
                    refine ⟨hpos, fun x hx => ?_⟩
                    rcases m1 x hx with e | e
                    · rw [e]; exact hrb
                    · exact hset x e
                  · intro p1 med r hp
                    simp at hp

/-- `insert` keeps the leaves on one level; the height grows by one exactly when a new
root is made. -/
theorem insert_uniform [LinearOrder K] (order : Nat) (t t1 : BTree K V) (key : K) (val : V)
    (ret : Bool) (h : Nat) (hu : UniformPtr h t.m_root)
    (hi : insert order t key val = some (t1, ret)) :
    UniformPtr h t1.m_root ∨ UniformPtr (h + 1) t1.m_root := by
  obtain ⟨u1, u2⟩ := push_down_uniform order key val t.m_root h hu
  simp only [insert] at hi
  cases hr : internal_push_down_insert order key val t.m_root with
  | none => simp [hr] at hi
  | some res =>
    cases res with
    | ERCode_Insert_Error_Duplicate =>
      simp only [hr, Option.some.injEq, Prod.mk.injEq] at hi
      rw [← hi.1]; exact Or.inl hu
    | ERCode_Insert_Success current =>
      simp only [hr, Option.some.injEq, Prod.mk.injEq] at hi
      rw [← hi.1]; exact Or.inl (u1 current hr)
    | ERCode_Insert_Overflow current median rb =>
      obtain ⟨hc, hrb⟩ := u2 current median rb hr
      simp only [hr] at hi
      cases hin : insertAt order (BTreeNode.mk [] [current] (List.replicate (order - 1) none)) 0
          median rb with
      | none => simp [hin] at hi
      | some nodePtr =>
        simp only [hin, Option.some.injEq, Prod.mk.injEq] at hi
        rw [← hi.1]
        right
        have m1 := insertAt_branch_mem order _ _ _ _ _ hin
        show UniformPtr (h + 1) (some nodePtr)
        rw [uniformPtr_some]
        refine ⟨Nat.succ_pos _, fun x hx => ?_⟩
        simp only [Nat.add_sub_cancel]
        rcases m1 x hx with e | e
        · rw [e]; exact hrb
        · simp only [BTreeNode.m_branch, List.mem_singleton] at e
          rw [e]; exact hc

theorem set_append_cons_succ_length {α : Type} (l1 : List α) (a b c : α) (l2 : List α) :
    (l1 ++ a :: b :: l2).set (l1.length + 1) c = l1 ++ a :: c :: l2 := by
  induction l1 with
  | nil => rfl
  | cons x l ih => simp [ih]

theorem eraseIdx_append_cons_length {α : Type} (l1 : List α) (a : α) (l2 : List α) :
    (l1 ++ a :: l2).eraseIdx l1.length = l1 ++ l2 := by
  induction l1 with
  | nil => rfl
  | cons x l ih => simp [ih]

theorem eraseIdx_append_cons_succ_length {α : Type} (l1 : List α) (a b : α) (l2 : List α) :
    (l1 ++ a :: b :: l2).eraseIdx (l1.length + 1) = l1 ++ a :: l2 := by
  induction l1 with
  | nil => rfl
  | cons x l ih => simp [ih]

theorem branch_left (ks : List (K × V)) (bs1 : List (Option (BTreeNode K V)))
    (b : Option (BTreeNode K V)) (bs2 st : List (Option (BTreeNode K V))) (i : Nat)
    (hi : i = bs1.length) : (BTreeNode.mk ks (bs1 ++ b :: bs2) st).branch i = b := by
  subst hi
  simp only [branch, BTreeNode.m_branch, BTreeNode.m_stale, List.append_assoc, List.cons_append,
    getD_append_cons_length]

theorem branch_right (ks : List (K × V)) (bs1 : List (Option (BTreeNode K V)))
    (a b : Option (BTreeNode K V)) (bs2 st : List (Option (BTreeNode K V))) (i : Nat)
    (hi : i = bs1.length + 1) : (BTreeNode.mk ks (bs1 ++ a :: b :: bs2) st).branch i = b := by
  have e : bs1 ++ a :: b :: bs2 = (bs1 ++ [a]) ++ b :: bs2 := by simp
  rw [e]
  exact branch_left ks (bs1 ++ [a]) b bs2 st i (by simp [hi])

/-- The pairs of a node whose last pair and last branch are split off. -/
theorem pairsAux_concat (ks : List (K × V)) (kv : K × V) (bs : List (Option (BTreeNode K V)))
    (b : Option (BTreeNode K V)) (h : bs.length = ks.length + 1) :
    pairsAux (ks ++ [kv]) (bs ++ [b]) = pairsAux ks bs ++ kv :: pairsPtr b := by
  induction ks generalizing bs with
  | nil =>
    cases bs with
    | nil => simp at h
    | cons c cs =>
      cases cs with
      | nil => simp [pairsAux]
      | cons d ds => simp at h
  | cons k ks ih =>
    cases bs with
    | nil => simp at h
    | cons c cs =>
      simp only [List.length_cons, add_left_inj] at h
      simp [pairsAux, ih cs h]

/-- The pairs of two nodes joined around a separator. -/
theorem pairsAux_join (ks1 ks2 : List (K × V)) (sep : K × V)
    (bs1 bs2 : List (Option (BTreeNode K V))) (h : bs1.length = ks1.length + 1) :
    pairsAux (ks1 ++ sep :: ks2) (bs1 ++ bs2) = pairsAux ks1 bs1 ++ sep :: pairsAux ks2 bs2 := by
  induction ks1 generalizing bs1 with
  | nil =>
    cases bs1 with
    | nil => simp at h
    | cons c cs =>
      cases cs with
      | nil => simp [pairsAux]
      | cons d ds => simp at h
  | cons k ks ih =>
    cases bs1 with
    | nil => simp at h
    | cons c cs =>
      simp only [List.length_cons, add_left_inj] at h
      simp [pairsAux, ih cs h]

/-- The pairs of a leaf are its own pairs. -/
theorem pairsAux_leaf (ks : List (K × V)) (bs : List (Option (BTreeNode K V)))
    (h : bs.length = ks.length + 1) (hn : ∀ b ∈ bs, b = none) : pairsAux ks bs = ks := by
  induction ks generalizing bs with
  | nil =>
    cases bs with
    | nil => simp at h
    | cons c cs =>
      have := hn c (List.mem_cons_self _ _)
      subst this
      simp [pairsAux, pairsPtr]
  | cons k ks ih =>
    cases bs with
    | nil => simp at h
    | cons c cs =>
      have := hn c (List.mem_cons_self _ _)
      subst this
      simp only [List.length_cons, add_left_inj] at h
      simp [pairsAux, pairsPtr, ih cs h (fun b hb => hn b (List.mem_cons_of_mem _ hb))]

theorem wf_mk (order : Nat) (ks : List (K × V)) (br st : List (Option (BTreeNode K V))) :
    WF order (BTreeNode.mk ks br st) ↔
      ks.length ≤ MAXKEYS order ∧ br.length = ks.length + 1 ∧ ∀ b ∈ br, WFPtr order b := by
  simp only [WF, wfList_iff]

theorem uniform_mk (h : Nat) (ks : List (K × V)) (br st : List (Option (BTreeNode K V))) :
    Uniform h (BTreeNode.mk ks br st) ↔ ∀ b ∈ br, UniformPtr h b := by
  simp only [Uniform, uniformList_iff]

/-- Replacing two neighbouring children and their separator by others with the same
pairs keeps the node well-formed, level and with the same pairs. -/
theorem pair_replace (order h : Nat) (ks1 ks2 : List (K × V)) (sep sep1 : K × V)
    (bs1 bs2 st st1 : List (Option (BTreeNode K V))) (l r l1 r1 : BTreeNode K V)
    (hl : bs1.length = ks1.length)
    (hw : WF order (BTreeNode.mk (ks1 ++ sep :: ks2) (bs1 ++ some l :: some r :: bs2) st))
    (hu : Uniform h (BTreeNode.mk (ks1 ++ sep :: ks2) (bs1 ++ some l :: some r :: bs2) st))
    (hwl : WF order l1) (hwr : WF order r1) (hul : Uniform (h - 1) l1)
    (hur : Uniform (h - 1) r1)
    (hp : pairs l1 ++ sep1 :: pairs r1 = pairs l ++ sep :: pairs r) :
    WF order (BTreeNode.mk (ks1 ++ sep1 :: ks2) (bs1 ++ some l1 :: some r1 :: bs2) st1) ∧
      Uniform h (BTreeNode.mk (ks1 ++ sep1 :: ks2) (bs1 ++ some l1 :: some r1 :: bs2) st1) ∧
      pairs (BTreeNode.mk (ks1 ++ sep1 :: ks2) (bs1 ++ some l1 :: some r1 :: bs2) st1) =
        pairs (BTreeNode.mk (ks1 ++ sep :: ks2) (bs1 ++ some l :: some r :: bs2) st) := by
  rw [wf_mk] at hw ⊢
  rw [uniform_mk] at hu ⊢
  obtain ⟨hk, hb, hwb⟩ := hw
  have hpos : 0 < h := by
    have := hu (some l) (by simp)
    simp only [UniformPtr] at this
    exact this.1
  refine ⟨⟨by simpa using hk, by simpa using hb, ?_⟩, ?_, ?_⟩
  · intro x hx
    simp only [List.mem_append, List.mem_cons] at hx
    rcases hx with hx | hx | hx | hx
    · exact hwb x (by simp [hx])
    · rw [hx]; exact hwl
    · rw [hx]; exact hwr
    · exact hwb x (by simp [hx])
  · intro x hx
    simp only [List.mem_append, List.mem_cons] at hx
    rcases hx with hx | hx | hx | hx
    · exact hu x (by simp [hx])
    · rw [hx]; exact ⟨hpos, hul⟩
    · rw [hx]; exact ⟨hpos, hur⟩
    · exact hu x (by simp [hx])
  · simp only [pairs]
    rw [pairsAux_node_insert _ _ _ _ _ _ _ hl.symm, pairsAux_node_insert _ _ _ _ _ _ _ hl.symm]
    simp only [pairsPtr, hp]

/-- Replacing two neighbouring children and their separator by one child with the same
pairs keeps the node well-formed, level and with the same pairs. -/
theorem pair_merge (order h : Nat) (ks1 ks2 : List (K × V)) (sep : K × V)
    (bs1 bs2 st st1 : List (Option (BTreeNode K V))) (l r m : BTreeNode K V)
    (hl : bs1.length = ks1.length)
    (hw : WF order (BTreeNode.mk (ks1 ++ sep :: ks2) (bs1 ++ some l :: some r :: bs2) st))
    (hu : Uniform h (BTreeNode.mk (ks1 ++ sep :: ks2) (bs1 ++ some l :: some r :: bs2) st))
    (hwm : WF order m) (hum : Uniform (h - 1) m)
    (hp : pairs m = pairs l ++ sep :: pairs r) :
    WF order (BTreeNode.mk (ks1 ++ ks2) (bs1 ++ some m :: bs2) st1) ∧
      Uniform h (BTreeNode.mk (ks1 ++ ks2) (bs1 ++ some m :: bs2) st1) ∧
      pairs (BTreeNode.mk (ks1 ++ ks2) (bs1 ++ some m :: bs2) st1) =
        pairs (BTreeNode.mk (ks1 ++ sep :: ks2) (bs1 ++ some l :: some r :: bs2) st) := by
  rw [wf_mk] at hw ⊢
  rw [uniform_mk] at hu ⊢
  obtain ⟨hk, hb, hwb⟩ := hw
  have hpos : 0 < h := by
    have := hu (some l) (by simp)
    simp only [UniformPtr] at this
    exact this.1
  refine ⟨⟨?_, ?_, ?_⟩, ?_, ?_⟩
  · simp only [List.length_append, List.length_cons] at hk ⊢; omega
  · simp only [List.length_append, List.length_cons] at hb ⊢; omega
  · intro x hx
    simp only [List.mem_append, List.mem_cons] at hx
    rcases hx with hx | hx | hx
    · exact hwb x (by simp [hx])
    · rw [hx]; exact hwm
    · exact hwb x (by simp [hx])
  · intro x hx
    simp only [List.mem_append, List.mem_cons] at hx
    rcases hx with hx | hx | hx
    · exact hu x (by simp [hx])
    · rw [hx]; exact ⟨hpos, hum⟩
    · exact hu x (by simp [hx])
  · simp only [pairs]
    rw [pairsAux_node _ _ _ _ _ hl.symm, pairsAux_node_insert _ _ _ _ _ _ _ hl.symm]
    simp only [pairsPtr, hp]

/-- The node after `moveRight(i)`. -/
theorem moveRight_spec (order h : Nat) (n n1 : BTreeNode K V) (i : Nat)
    (hw : WF order n) (hu : Uniform h n) (hi : i < n.nbKeys)
    (hm : moveRight order n i = some n1) :
    WF order n1 ∧ Uniform h n1 ∧ pairs n1 = pairs n ∧ n1.nbKeys = n.nbKeys ∧
      ∃ r r1, n.branch (i + 1) = some r ∧ n1.branch (i + 1) = some r1 ∧
        r1.nbKeys = r.nbKeys + 1 := by
  cases n with
  | mk ks br st =>
    rw [wf_mk] at hw
    rw [uniform_mk] at hu
    obtain ⟨hk, hb, hwl⟩ := hw
    simp only [nbKeys, BTreeNode.keys] at hi
    obtain ⟨ks1, sep, ks2, e1, hl1⟩ := exists_append_cons_of_lt_length ks i hi
    obtain ⟨bs1, bl, bs', e2, hl2⟩ := exists_append_cons_of_lt_length br i (by omega)
    subst e1 e2
    cases bs' with
    | nil => simp at hb; omega
    | cons brr bs2 =>
      have hbl := branch_left (ks1 ++ sep :: ks2) bs1 bl (brr :: bs2) st i hl2.symm
      have hbr := branch_right (ks1 ++ sep :: ks2) bs1 bl brr bs2 st (i + 1) (by rw [hl2])
      have hsep : (ks1 ++ sep :: ks2).get? i = some sep := by
        rw [← hl1]; exact get?_append_cons_length ks1 sep ks2
      simp only [moveRight, hbl, hbr, hsep, BTreeNode.keys, BTreeNode.m_branch,
        BTreeNode.m_stale] at hm
      cases bl with
      | none => simp at hm
      | some l =>
        cases brr with
        | none => simp at hm
        | some r =>
          simp only [] at hm
          split at hm
          · rename_i hgt
            split at hm
            · rename_i r1 last b hsr hlast hblast
              simp only [Option.some.injEq] at hm
              subst hm
              cases l with
              | mk lks lbs lst =>
                cases r with
                | mk rks rbs rst =>
                  simp only [BTreeNode.keys, BTreeNode.m_branch, BTreeNode.m_stale, nbKeys] at *
                  obtain ⟨lks1, e3⟩ := List.getLast?_eq_some_iff.1 hlast
                  obtain ⟨lbs1, e4⟩ := List.getLast?_eq_some_iff.1 hblast
                  subst e3 e4
                  have hwL := hwl (some (BTreeNode.mk (lks1 ++ [last]) (lbs1 ++ [b]) lst)) (by simp)
                  have hwR := hwl (some (BTreeNode.mk rks rbs rst)) (by simp)
                  have huL := hu (some (BTreeNode.mk (lks1 ++ [last]) (lbs1 ++ [b]) lst)) (by simp)
                  have huR := hu (some (BTreeNode.mk rks rbs rst)) (by simp)
                  simp only [WFPtr, wf_mk] at hwL hwR
                  simp only [UniformPtr, uniform_mk] at huL huR
                  simp only [shift_right, nbKeys, BTreeNode.keys, BTreeNode.m_branch,
                    BTreeNode.m_stale, List.take_zero, List.drop_zero, List.nil_append] at hsr
                  split at hsr
                  · rename_i hcond
                    simp only [Option.some.injEq] at hsr
                    subst hsr
                    have hbb : (BTreeNode.mk (lks1 ++ [last]) (lbs1 ++ [b]) lst).branch
                        (lks1 ++ [last]).length = b :=
                      branch_left _ lbs1 b [] lst _ (by
                        have := hwL.2.1
                        simp only [List.length_append, List.length_singleton] at this ⊢
                        omega)
                    rw [hbb]
                    rw [← hl1, List.dropLast_concat, List.dropLast_concat,
                      set_append_cons_length]
                    rw [hl1, ← hl2, set_append_cons_length, set_append_cons_succ_length]
                    have hw0 : WF order (BTreeNode.mk (ks1 ++ sep :: ks2)
                        (bs1 ++ some (BTreeNode.mk (lks1 ++ [last]) (lbs1 ++ [b]) lst) ::
                          some (BTreeNode.mk rks rbs rst) :: bs2) st) := by
                      rw [wf_mk]; exact ⟨hk, hb, hwl⟩
                    have hu0 : Uniform h (BTreeNode.mk (ks1 ++ sep :: ks2)
                        (bs1 ++ some (BTreeNode.mk (lks1 ++ [last]) (lbs1 ++ [b]) lst) ::
                          some (BTreeNode.mk rks rbs rst) :: bs2) st) := by
                      rw [uniform_mk]; exact hu
                    have hlen : lbs1.length = lks1.length + 1 := by
                      have := hwL.2.1
                      simp only [List.length_append, List.length_singleton] at this
                      omega
                    obtain ⟨g1, g2, g3⟩ := pair_replace order h ks1 ks2 sep last bs1 bs2 st st
                      (BTreeNode.mk (lks1 ++ [last]) (lbs1 ++ [b]) lst) (BTreeNode.mk rks rbs rst)
                      (BTreeNode.mk lks1 lbs1 (b :: lst))
                      (BTreeNode.mk (sep :: rks) (b :: rbs) (List.drop 1 rst))
                      (by rw [hl1, hl2]) hw0 hu0
                      (by
                        rw [wf_mk]
                        refine ⟨?_, hlen, fun x hx => hwL.2.2 x (by simp [hx])⟩
                        have := hwL.1
                        simp only [List.length_append, List.length_singleton] at this
                        omega)
                      (by
                        rw [wf_mk]
                        refine ⟨by simp only [List.length_cons]; omega,
                          by simp only [List.length_cons]; omega, fun x hx => ?_⟩
                        simp only [List.mem_cons] at hx
                        rcases hx with hx | hx
                        · rw [hx]; exact hwL.2.2 b (by simp)
                        · exact hwR.2.2 x hx)
                      (by rw [uniform_mk]; exact fun x hx => huL.2 x (by simp [hx]))
                      (by
                        rw [uniform_mk]
                        intro x hx
                        simp only [List.mem_cons] at hx
                        rcases hx with hx | hx
                        · rw [hx]; exact huL.2 b (by simp)
                        · exact huR.2 x hx)
                      (by
                        simp only [pairs, pairsAux]
                        rw [pairsAux_concat _ _ _ _ hlen]
                        simp)
                    exact ⟨g1, g2, g3, by simp, _, _, branch_right _ bs1 _ _ bs2 st _ rfl,
                      branch_right _ bs1 _ _ bs2 st _ rfl, by simp [nbKeys, BTreeNode.keys]⟩
                  · simp at hsr
            · simp at hm
          · simp at hm

/-- The node after `moveLeft(i + 1)`. -/
theorem moveLeft_spec (order h : Nat) (n n1 : BTreeNode K V) (i : Nat)
    (hw : WF order n) (hu : Uniform h n) (hi : i < n.nbKeys)
    (hroom : ∀ c, n.branch i = some c → c.nbKeys < MAXKEYS order)
    (hm : moveLeft order n (i + 1) = some n1) :
    WF order n1 ∧ Uniform h n1 ∧ pairs n1 = pairs n ∧ n1.nbKeys = n.nbKeys := by
  cases n with
  | mk ks br st =>
    have hw0 := hw
    have hu0 := hu
    rw [wf_mk] at hw
    rw [uniform_mk] at hu
    obtain ⟨hk, hb, hwl⟩ := hw
    simp only [nbKeys, BTreeNode.keys] at hi
    obtain ⟨ks1, sep, ks2, e1, hl1⟩ := exists_append_cons_of_lt_length ks i hi
    obtain ⟨bs1, bl, bs', e2, hl2⟩ := exists_append_cons_of_lt_length br i (by omega)
    subst e1 e2
    cases bs' with
    | nil => simp at hb; omega
    | cons brr bs2 =>
      have hbl := branch_left (ks1 ++ sep :: ks2) bs1 bl (brr :: bs2) st i hl2.symm
      have hbr := branch_right (ks1 ++ sep :: ks2) bs1 bl brr bs2 st (i + 1) (by rw [hl2])
      have hsep : (ks1 ++ sep :: ks2).get? i = some sep := by
        rw [← hl1]; exact get?_append_cons_length ks1 sep ks2
      simp only [moveLeft, Nat.add_one_ne_zero, ↓reduceIte, Nat.add_sub_cancel, hbl, hbr, hsep,
        BTreeNode.keys, BTreeNode.m_branch, BTreeNode.m_stale] at hm
      cases bl with
      | none => simp at hm
      | some l =>
        cases brr with
        | none => simp at hm
        | some r =>
          have hroom1 := hroom l hbl
          simp only [] at hm
          split at hm
          · rename_i hgt
            split at hm
            · rename_i first r1 hfirst hsl
              simp only [Option.some.injEq] at hm
              subst hm
              cases l with
              | mk lks lbs lst =>
                cases r with
                | mk rks rbs rst =>
                  have hwL := hwl (some (BTreeNode.mk lks lbs lst)) (by simp)
                  have hwR := hwl (some (BTreeNode.mk rks rbs rst)) (by simp)
                  have huL := hu (some (BTreeNode.mk lks lbs lst)) (by simp)
                  have huR := hu (some (BTreeNode.mk rks rbs rst)) (by simp)
                  simp only [WFPtr, wf_mk] at hwL hwR
                  simp only [UniformPtr, uniform_mk] at huL huR
                  simp only [BTreeNode.keys, BTreeNode.m_branch, BTreeNode.m_stale, nbKeys] at *
                  cases rks with
                  | nil => simp at hfirst
                  | cons f rk =>
                    simp only [List.head?_cons, Option.some.injEq] at hfirst
                    subst hfirst
                    cases rbs with
                    | nil => simp at hwR
                    | cons rb0 rbs1 =>
                      simp only [shift_left, nbKeys, BTreeNode.keys, BTreeNode.m_branch,
                        BTreeNode.m_stale, List.eraseIdx_cons_zero, Nat.sub_self] at hsl
                      split at hsl
                      · simp only [Option.some.injEq] at hsl
                        subst hsl
                        have hb0 : (BTreeNode.mk (f :: rk) (rb0 :: rbs1) rst).branch 0 = rb0 :=
                          branch_left _ [] rb0 rbs1 rst 0 rfl
                        rw [hb0]
                        rw [← hl1, set_append_cons_length]
                        rw [hl1, ← hl2, set_append_cons_length, set_append_cons_succ_length]
                        obtain ⟨g1, g2, g3⟩ := pair_replace order h ks1 ks2 sep f bs1 bs2 st st
                          (BTreeNode.mk lks lbs lst) (BTreeNode.mk (f :: rk) (rb0 :: rbs1) rst)
                          (BTreeNode.mk (lks ++ [sep]) (lbs ++ [rb0]) (List.drop 1 lst))
                          (BTreeNode.mk rk rbs1 (none :: rst))
                          (by rw [hl1, hl2]) hw0 hu0
                          (by
                            rw [wf_mk]
                            refine ⟨?_, ?_, fun x hx => ?_⟩
                            · simp only [List.length_append, List.length_singleton]; omega
                            · simp only [List.length_append, List.length_singleton]; omega
                            · simp only [List.mem_append, List.mem_singleton] at hx
                              rcases hx with hx | hx
                              · exact hwL.2.2 x hx
                              · rw [hx]; exact hwR.2.2 rb0 (by simp))
                          (by
                            rw [wf_mk]
                            have := hwR.1
                            have := hwR.2.1
                            simp only [List.length_cons] at *
                            exact ⟨by omega, by omega, fun x hx => hwR.2.2 x (by simp [hx])⟩)
                          (by
                            rw [uniform_mk]
                            intro x hx
                            simp only [List.mem_append, List.mem_singleton] at hx
                            rcases hx with hx | hx
                            · exact huL.2 x hx
                            · rw [hx]; exact huR.2 rb0 (by simp))
                          (by rw [uniform_mk]; exact fun x hx => huR.2 x (by simp [hx]))
                          (by
                            simp only [pairs, pairsAux]
                            rw [pairsAux_concat _ _ _ _ hwL.2.1]
                            simp)
                        exact ⟨g1, g2, g3, by simp⟩
                      · simp at hsl
            · simp at hm
          · simp at hm

/-- The node after `combine(i + 1)`. -/
theorem combine_spec (order h : Nat) (n n1 r : BTreeNode K V) (i : Nat)
    (hw : WF order n) (hu : Uniform h n) (hi : i < n.nbKeys)
    (hm : combine order n (i + 1) = some (n1, r)) :
    WF order n1 ∧ Uniform h n1 ∧ pairs n1 = pairs n ∧ n1.nbKeys + 1 = n.nbKeys := by
  cases n with
  | mk ks br st =>
    have hw0 := hw
    have hu0 := hu
    rw [wf_mk] at hw
    rw [uniform_mk] at hu
    obtain ⟨hk, hb, hwl⟩ := hw
    simp only [nbKeys, BTreeNode.keys] at hi
    obtain ⟨ks1, sep, ks2, e1, hl1⟩ := exists_append_cons_of_lt_length ks i hi
    obtain ⟨bs1, bl, bs', e2, hl2⟩ := exists_append_cons_of_lt_length br i (by omega)
    subst e1 e2
    cases bs' with
    | nil => simp at hb; omega
    | cons brr bs2 =>
      have hbl := branch_left (ks1 ++ sep :: ks2) bs1 bl (brr :: bs2) st i hl2.symm
      have hbr := branch_right (ks1 ++ sep :: ks2) bs1 bl brr bs2 st (i + 1) (by rw [hl2])
      have hsep : (ks1 ++ sep :: ks2).get? i = some sep := by
        rw [← hl1]; exact get?_append_cons_length ks1 sep ks2
      simp only [combine, Nat.add_one_ne_zero, ↓reduceIte, Nat.add_sub_cancel, hbl, hbr, hsep,
        BTreeNode.keys, BTreeNode.m_branch, BTreeNode.m_stale] at hm
      cases bl with
      | none => simp at hm
      | some l =>
        cases brr with
        | none => simp at hm
        | some r0 =>
          simp only [] at hm
          split at hm
          · rename_i hlt
            simp only [Option.some.injEq, Prod.mk.injEq] at hm
            obtain ⟨hm, _⟩ := hm
            subst hm
            cases l with
            | mk lks lbs lst =>
              cases r0 with
              | mk rks rbs rst =>
                have hwL := hwl (some (BTreeNode.mk lks lbs lst)) (by simp)
                have hwR := hwl (some (BTreeNode.mk rks rbs rst)) (by simp)
                have huL := hu (some (BTreeNode.mk lks lbs lst)) (by simp)
                have huR := hu (some (BTreeNode.mk rks rbs rst)) (by simp)
                simp only [WFPtr, wf_mk] at hwL hwR
                simp only [UniformPtr, uniform_mk] at huL huR
                simp only [BTreeNode.keys, BTreeNode.m_branch, BTreeNode.m_stale, nbKeys] at *
                rw [← hl1, eraseIdx_append_cons_length]
                rw [hl1, ← hl2, set_append_cons_length, eraseIdx_append_cons_succ_length]
                obtain ⟨g1, g2, g3⟩ := pair_merge order h ks1 ks2 sep bs1 bs2 st (none :: st)
                  (BTreeNode.mk lks lbs lst) (BTreeNode.mk rks rbs rst)
                  (BTreeNode.mk (lks ++ sep :: rks) (lbs ++ rbs) (List.drop (rks.length + 1) lst))
                  (by rw [hl1, hl2]) hw0 hu0
                  (by
                    rw [wf_mk]
                    refine ⟨?_, ?_, fun x hx => ?_⟩
                    · simp only [List.length_append, List.length_cons]; omega
                    · simp only [List.length_append, List.length_cons]; omega
                    · simp only [List.mem_append] at hx
                      rcases hx with hx | hx
                      · exact hwL.2.2 x hx
                      · exact hwR.2.2 x hx)
                  (by
                    rw [uniform_mk]
                    intro x hx
                    simp only [List.mem_append] at hx
                    rcases hx with hx | hx
                    · exact huL.2 x hx
                    · exact huR.2 x hx)
                  (by
                    simp only [pairs]
                    rw [pairsAux_join _ _ _ _ _ hwL.2.1])
                exact ⟨g1, g2, g3, by simp only [List.length_append, List.length_cons]; omega⟩
          · simp at hm

/-- The node after `internal_restore`, called on a child with too few keys. -/
theorem internal_restore_spec (order h : Nat) (h3 : 3 ≤ order) (n n1 : BTreeNode K V)
    (position : Nat) (hw : WF order n) (hu : Uniform h n) (hp : position ≤ n.nbKeys)
    (hlow : ∀ c, n.branch position = some c → c.nbKeys < MINKEYS order)
    (hr : internal_restore order n position = some n1) :
    WF order n1 ∧ Uniform h n1 ∧ pairs n1 = pairs n := by
  have hmm : MINKEYS order < MAXKEYS order := by
    simp only [MINKEYS, MAXKEYS]; omega
  simp only [internal_restore] at hr
  by_cases h1 : position = n.nbKeys
  · simp only [h1, ↓reduceIte] at hr
    by_cases h2 : n.nbKeys = 0
    · simp [h2] at hr
    · simp only [h2, ↓reduceIte] at hr
      cases hl : n.branch (n.nbKeys - 1) with
      | none => simp [hl] at hr
      | some l =>
        simp only [hl] at hr
        by_cases h4 : l.nbKeys > MINKEYS order
        · simp only [h4, ↓reduceIte] at hr
          obtain ⟨g1, g2, g3, _⟩ := moveRight_spec order h n n1 (n.nbKeys - 1) hw hu (by omega) hr
          exact ⟨g1, g2, g3⟩
        · simp only [h4, ↓reduceIte] at hr
          cases hc : combine order n n.nbKeys with
          | none => simp [hc] at hr
          | some res =>
            obtain ⟨m, r⟩ := res
            simp only [hc, Option.some.injEq] at hr
            subst hr
            have e : n.nbKeys = n.nbKeys - 1 + 1 := by omega
            rw [e] at hc
            obtain ⟨g1, g2, g3, _⟩ := combine_spec order h n m r (n.nbKeys - 1) hw hu (by omega) hc
            exact ⟨g1, g2, g3⟩
  · simp only [h1, ↓reduceIte] at hr
    by_cases h2 : position = 0
    · subst h2
      simp only [↓reduceIte, Nat.zero_add] at hr
      cases hrr : n.branch 1 with
      | none => simp [hrr] at hr
      | some r =>
        simp only [hrr] at hr
        by_cases h4 : r.nbKeys > MINKEYS order
        · simp only [h4, ↓reduceIte] at hr
          obtain ⟨g1, g2, g3, _⟩ := moveLeft_spec order h n n1 0 hw hu (by omega)
            (fun c hc => lt_trans (hlow c hc) hmm) hr
          exact ⟨g1, g2, g3⟩
        · simp only [h4, ↓reduceIte] at hr
          cases hc : combine order n 1 with
          | none => simp [hc] at hr
          | some res =>
            obtain ⟨m, r0⟩ := res
            simp only [hc, Option.some.injEq] at hr
            subst hr
            obtain ⟨g1, g2, g3, _⟩ := combine_spec order h n m r0 0 hw hu (by omega) hc
            exact ⟨g1, g2, g3⟩
    · simp only [h2, ↓reduceIte] at hr
      cases hl : n.branch (position - 1) with
      | none => simp [hl] at hr
      | some l =>
        simp only [hl] at hr
        have hcur : ∀ c1, (if l.nbKeys > MINKEYS order then moveRight order n (position - 1)
            else some n) = some c1 →
            WF order c1 ∧ Uniform h c1 ∧ pairs c1 = pairs n ∧ c1.nbKeys = n.nbKeys ∧
              ∀ c, c1.branch position = some c → c.nbKeys < MAXKEYS order := by
          intro c1 hc1
          by_cases h4 : l.nbKeys > MINKEYS order
          · simp only [h4, ↓reduceIte] at hc1
            obtain ⟨g1, g2, g3, g4, r, r1, g5, g6, g7⟩ :=
              moveRight_spec order h n c1 (position - 1) hw hu (by omega) hc1
            have e : position - 1 + 1 = position := by omega
            rw [e] at g5 g6
            refine ⟨g1, g2, g3, g4, fun c hc => ?_⟩
            rw [g6] at hc
            simp only [Option.some.injEq] at hc
            subst hc
            have := hlow r g5
            omega
          · simp only [h4, ↓reduceIte, Option.some.injEq] at hc1
            subst hc1
            exact ⟨hw, hu, rfl, rfl, fun c hc => lt_trans (hlow c hc) hmm⟩
        cases hc1 : (if l.nbKeys > MINKEYS order then moveRight order n (position - 1)
            else some n) with
        | none => simp [hc1] at hr
        | some c1 =>
          obtain ⟨f1, f2, f3, f4, f5⟩ := hcur c1 hc1
          simp only [hc1] at hr
          cases hrr : c1.branch (position + 1) with
          | none => simp [hrr] at hr
          | some r =>
            simp only [hrr] at hr
            by_cases h5 : r.nbKeys > MINKEYS order
            · simp only [h5, ↓reduceIte] at hr
              obtain ⟨g1, g2, g3, _⟩ := moveLeft_spec order h c1 n1 position f1 f2 (by omega) f5 hr
              exact ⟨g1, g2, g3.trans f3⟩
            · simp only [h5, ↓reduceIte] at hr
              cases hc : combine order c1 position with
              | none => simp [hc] at hr
              | some res =>
                obtain ⟨m, r0⟩ := res
                simp only [hc, Option.some.injEq] at hr
                subst hr
                have e : position = position - 1 + 1 := by omega
                rw [e] at hc
                obtain ⟨g1, g2, g3, _⟩ :=
                  combine_spec order h c1 m r0 (position - 1) f1 f2 (by omega) hc
                exact ⟨g1, g2, g3.trans f3⟩

/-- The node after the closing test of `internal_recursive_remove`. -/
theorem restore_if_underflow_spec (order h : Nat) (h3 : 3 ≤ order) (n n1 : BTreeNode K V)
    (position : Nat) (hw : WF order n) (hu : Uniform h n) (hp : position ≤ n.nbKeys)
    (hr : restore_if_underflow order n position = some n1) :
    WF order n1 ∧ Uniform h n1 ∧ pairs n1 = pairs n := by
  simp only [restore_if_underflow] at hr
  cases hb : n.branch position with
  | none =>
    simp only [hb, Option.some.injEq] at hr
    subst hr
    exact ⟨hw, hu, rfl⟩
  | some c =>
    simp only [hb] at hr
    by_cases hlt : c.nbKeys < MINKEYS order
    · simp only [hlt, ↓reduceIte] at hr
      refine internal_restore_spec order h h3 n n1 position hw hu hp (fun c1 hc1 => ?_) hr
      rw [hb] at hc1
      simp only [Option.some.injEq] at hc1
      subst hc1
      exact hlt
    · simp only [hlt, ↓reduceIte, Option.some.injEq] at hr
      subst hr
      exact ⟨hw, hu, rfl⟩

theorem delList_middle [LinearOrder K] (k : K) (l1 l2 l3 : List (K × V))
    (h1 : ∀ b ∈ l1, b.1 < k) (h3 : ∀ b ∈ l3, k < b.1) :
    delList k (l1 ++ l2 ++ l3) = l1 ++ delList k l2 ++ l3 := by
  rw [List.append_assoc, delList_append_of_not_mem k l1 _ (fun p hp => ne_of_lt (h1 p hp)),
    delList_append_left k l2 l3 (fun p hp => ne_of_gt (h3 p hp)), List.append_assoc]

theorem delList_concat_last [LinearOrder K] (l : List (K × V)) (p : K × V)
    (hs : SortedKeys (l ++ [p])) : delList p.1 (l ++ [p]) = l := by
  rw [sortedKeys_append] at hs
  rw [delList_append_of_not_mem p.1 l _ (fun q hq => ne_of_lt (hs.2.2 q hq p (by simp)))]
  obtain ⟨a, w⟩ := p
  simp [delList]

theorem recursive_remove_branch_eq [LinearOrder K] (order : Nat) (key : K)
    (br : List (Option (BTreeNode K V))) (pos : Nat) :
    recursive_remove_branch order br pos key =
      match br.get? pos with
      | some b => internal_recursive_remove order b key
      | none => some (none, false) := by
  induction br generalizing pos with
  | nil => simp [recursive_remove_branch]
  | cons b bs ih =>
    cases pos with
    | zero => simp [recursive_remove_branch]
    | succ i => simp [recursive_remove_branch, ih]

theorem lastOfRightmostAt_eq (ks : List (K × V)) (br : List (Option (BTreeNode K V)))
    (i : Nat) :
    lastOfRightmostAt ks br i =
      match br.get? i with
      | none => none
      | some none => ks.getLast?
      | some (some c) => lastOfRightmost c := by
  induction br generalizing i with
  | nil => simp [lastOfRightmostAt]
  | cons b bs ih =>
    cases i with
    | zero => cases b <;> simp [lastOfRightmostAt]
    | succ j => simp [lastOfRightmostAt, ih]

/-- The pair `copyInPredecessor` copies is the last pair of the subtree in symmetric
order. -/
theorem lastOfRightmost_spec (order : Nat) (n : BTreeNode K V) :
    ∀ p, WF order n → lastOfRightmost n = some p → ∃ X, pairs n = X ++ [p] := by
  induction n using node_induct with
  | h ks br st ih =>
    intro p hw hl
    rw [wf_mk] at hw
    obtain ⟨_, hb, hwl⟩ := hw
    simp only [lastOfRightmost, lastOfRightmostAt_eq] at hl
    obtain ⟨bs1, b, bs2, e, hl1⟩ := exists_append_cons_of_lt_length br ks.length (by omega)
    subst e
    cases bs2 with
    | cons x xs => simp at hb; omega
    | nil =>
      rw [← hl1, get?_append_cons_length] at hl
      simp only [pairs]
      cases b with
      | none =>
        simp only [] at hl
        obtain ⟨ks1, e⟩ := List.getLast?_eq_some_iff.1 hl
        subst e
        have hlen : bs1.length = ks1.length + 1 := by simpa using hl1
        rw [pairsAux_concat _ _ _ _ hlen]
        exact ⟨pairsAux ks1 bs1, by simp [pairsPtr]⟩
      | some c =>
        simp only [] at hl
        obtain ⟨X, hX⟩ := ih c (by simp) p (hwl (some c) (by simp)) hl
        have := pairsAux_node ks [] bs1 (some c) [] hl1.symm
        simp only [List.append_nil] at this
        rw [this]
        simp only [pairsPtr, hX, pairsAux, List.append_nil]
        exact ⟨pairsAux ks (bs1 ++ [none]) ++ X, by simp⟩

/-- The node after `removeLeafData(idx)`: the pair at `idx` is gone and the branch slots
in use are among the old ones. -/
theorem removeLeafData_spec (ks1 rest : List (K × V)) (kv : K × V)
    (br st : List (Option (BTreeNode K V))) (n1 : BTreeNode K V)
    (hbr : br.length = (ks1 ++ kv :: rest).length + 1)
    (hr : removeLeafData (BTreeNode.mk (ks1 ++ kv :: rest) br st) ks1.length = some n1) :
    n1.keys = ks1 ++ rest ∧ n1.m_branch.length = (ks1 ++ rest).length + 1 ∧
      ∀ x ∈ n1.m_branch, x ∈ br := by
  simp only [removeLeafData] at hr
  split at hr
  · simp at hr
  · split at hr
    · rename_i hlast
      simp only [nbKeys, BTreeNode.keys, List.length_append, List.length_cons] at hlast
      have hrest : rest = [] := List.eq_nil_of_length_eq_zero (by omega)
      subst hrest
      split at hr
      · simp only [Option.some.injEq] at hr
        subst hr
        simp only [BTreeNode.keys, BTreeNode.m_branch, List.dropLast_concat, List.append_nil,
          List.length_dropLast, true_and]
        refine ⟨?_, fun x hx => List.mem_of_mem_dropLast hx⟩
        simp only [List.length_append, List.length_cons, List.length_nil] at hbr
        omega
      · simp at hr
    · simp only [shift_left] at hr
      split at hr
      · rename_i hcond
        simp only [Option.some.injEq] at hr
        subst hr
        simp only [BTreeNode.keys, BTreeNode.m_branch, Nat.add_sub_cancel,
          eraseIdx_append_cons_length, true_and]
        refine ⟨?_, fun x hx => List.eraseIdx_subset _ _ hx⟩
        rw [List.length_eraseIdx]
        simp only [List.length_append, List.length_cons] at hbr ⊢
        split <;> omega
      · simp at hr

/-- What `internal_recursive_remove` returns on a well-formed, search-ordered subtree
with its leaves on one level, when no assertion fails. -/
theorem recursive_remove_spec [LinearOrder K] (order : Nat) (h3 : 3 ≤ order)
    (p : Option (BTreeNode K V)) :
    ∀ (h : Nat) (key : K) (child : Option (BTreeNode K V)) (result : Bool),
      WFPtr order p → SortedKeys (pairsPtr p) → UniformPtr h p →
      internal_recursive_remove order p key = some (child, result) →
      WFPtr order child ∧ UniformPtr h child ∧ pairsPtr child = delList key (pairsPtr p) ∧
        result = (lookup key (pairsPtr p)).isSome := by
  have hnone : ∀ (h : Nat) (key : K) (child : Option (BTreeNode K V)) (result : Bool),
      WFPtr order (none : Option (BTreeNode K V)) → SortedKeys (pairsPtr (none : Option (BTreeNode K V))) →
      UniformPtr h (none : Option (BTreeNode K V)) →
      internal_recursive_remove order none key = some (child, result) →
      WFPtr order child ∧ UniformPtr h child ∧ pairsPtr child = delList key (pairsPtr none) ∧
        result = (lookup key (pairsPtr (none : Option (BTreeNode K V)))).isSome := by
    intro h key child result _ _ hu hr
    simp only [internal_recursive_remove, Option.some.injEq, Prod.mk.injEq] at hr
    obtain ⟨e1, e2⟩ := hr
    subst e1 e2
    exact ⟨trivial, hu, by simp [pairsPtr, delList], by simp [pairsPtr, lookup]⟩
  cases p with
  | none => exact hnone
  | some n =>
    induction n using node_induct with
    | h ks br st ih =>
      intro h key child result hw hs hu hr
      simp only [WFPtr] at hw
      rw [wf_mk] at hw
      obtain ⟨hlen, hbr, hwl⟩ := hw
      simp only [UniformPtr] at hu
      obtain ⟨hpos, hu⟩ := hu
      rw [uniform_mk] at hu
      simp only [pairsPtr, pairs] at hs ⊢
      have hchild : ∀ b ∈ br, ∀ (h : Nat) (key : K) (child : Option (BTreeNode K V))
          (result : Bool), WFPtr order b → SortedKeys (pairsPtr b) → UniformPtr h b →
          internal_recursive_remove order b key = some (child, result) →
          WFPtr order child ∧ UniformPtr h child ∧ pairsPtr child = delList key (pairsPtr b) ∧
            result = (lookup key (pairsPtr b)).isSome := by
        intro b hb
        cases b with
        | none => exact hnone
        | some c => exact ih c hb
      obtain ⟨ks1, ks2, e, hposn, hlt, hfound, hnotfound⟩ := findKeyPositionFrom_spec key ks 0
      simp only [zero_add] at hposn
      obtain ⟨bs1, b, bs2, eb, hb1⟩ := exists_append_cons_of_lt_length br ks1.length
        (by rw [hbr, e]; simp; omega)
      subst e
      subst eb
      have hl : ks1.length = bs1.length := hb1.symm
      have hpairs := pairsAux_node ks1 ks2 bs1 b bs2 hl
      have hs2 := hs
      rw [hpairs, sortedKeys_append, sortedKeys_append] at hs2
      obtain ⟨⟨hsb, hsc, hbc⟩, hsa, hba⟩ := hs2
      have hbefore := before_lt key ks1 bs1 hl hsb hlt
      have hwb := hwl b (by simp)
      have hub := hu b (by simp)
      have hmid : ∀ (ks3 : List (K × V)) (c1 : Option (BTreeNode K V)),
          ks3.length = ks2.length → WFPtr order c1 → UniformPtr (h - 1) c1 →
          WF order (BTreeNode.mk (ks1 ++ ks3) (bs1 ++ c1 :: bs2) st) ∧
            Uniform (h - 1) (BTreeNode.mk (ks1 ++ ks3) (bs1 ++ c1 :: bs2) st) := by
        intro ks3 c1 hk3 hw1 hu1
        rw [wf_mk, uniform_mk]
        refine ⟨⟨?_, ?_, fun x hx => ?_⟩, fun x hx => ?_⟩
        · simp only [List.length_append] at hlen ⊢; omega
        · simp only [List.length_append, List.length_cons] at hbr ⊢; omega
        · simp only [List.mem_append, List.mem_cons] at hx
          rcases hx with hx | hx | hx
          · exact hwl x (by simp [hx])
          · rw [hx]; exact hw1
          · exact hwl x (by simp [hx])
        · simp only [List.mem_append, List.mem_cons] at hx
          rcases hx with hx | hx | hx
          · exact hu x (by simp [hx])
          · rw [hx]; exact hu1
          · exact hu x (by simp [hx])
      cases hfk : findKeyPositionFrom key (ks1 ++ ks2) 0 with
      | mk found pos =>
        rw [hfk] at hposn hfound hnotfound
        simp only at hposn hfound hnotfound
        subst hposn
        cases found with
        | false =>
          have hafter := after_gt key ks2 bs2 hsa (hnotfound rfl)
          simp only [internal_recursive_remove, recursive_remove_node, hfk,
            recursive_remove_branch_eq] at hr
          rw [hl, get?_append_cons_length] at hr
          simp only [set_append_cons_length] at hr
          cases hrb : internal_recursive_remove order b key with
          | none => simp [hrb] at hr
          | some res =>
            obtain ⟨c1, res1⟩ := res
            obtain ⟨f1, f2, f3, f4⟩ := hchild b (by simp) (h - 1) key c1 res1 hwb hsc hub hrb
            simp only [hrb] at hr
            obtain ⟨m1, m2⟩ := hmid ks2 c1 rfl f1 f2
            cases hre : restore_if_underflow order (BTreeNode.mk (ks1 ++ ks2) (bs1 ++ c1 :: bs2) st)
                bs1.length with
            | none => simp [hre] at hr
            | some cur2 =>
              simp only [hre, Option.some.injEq, Prod.mk.injEq] at hr
              obtain ⟨e1, e2⟩ := hr
              subst e1 e2
              obtain ⟨g1, g2, g3⟩ := restore_if_underflow_spec order (h - 1) h3 _ cur2 bs1.length
                m1 m2 (by simp [nbKeys, BTreeNode.keys, hl]) hre
              refine ⟨g1, ⟨hpos, g2⟩, ?_, ?_⟩
              · simp only [pairsPtr]
                rw [g3, hpairs]
                simp only [pairs]
                rw [pairsAux_node ks1 ks2 bs1 c1 bs2 hl, f3,
                  delList_middle key _ _ _ hbefore hafter]
              · rw [f4, hpairs, lookup_middle key _ _ _ hbefore hafter]
        | true =>
          obtain ⟨v, rest, e2⟩ := hfound rfl
          subst e2
          have hmem : (key, v) ∈ pairsAux ((key, v) :: rest) (none :: bs2) := by
            simp [pairsAux]
          have h1 : ∀ x ∈ pairsAux ks1 (bs1 ++ [none]) ++ pairsPtr b, x.1 ≠ key :=
            fun x hx => ne_of_lt (hba x hx (key, v) hmem)
          have hB : pairsAux ((key, v) :: rest) (none :: bs2) =
              (key, v) :: pairsAux rest bs2 := by
            simp [pairsAux, pairsPtr]
          have hlook : lookup key (pairsAux (ks1 ++ (key, v) :: rest) (bs1 ++ b :: bs2)) =
              some v := by
            rw [hpairs, lookup_append_of_not_mem _ _ _ h1, hB]
            simp [lookup]
          have hdel : delList key (pairsAux (ks1 ++ (key, v) :: rest) (bs1 ++ b :: bs2)) =
              pairsAux ks1 (bs1 ++ [none]) ++ pairsPtr b ++ pairsAux rest bs2 := by
            rw [hpairs, delList_append_of_not_mem _ _ _ h1, hB]
            simp [delList]
          have hbl := branch_left (ks1 ++ (key, v) :: rest) bs1 b bs2 st ks1.length hl
          simp only [internal_recursive_remove, recursive_remove_node, hfk, hbl] at hr
          cases b with
          | none =>
            simp only [] at hr
            have hh : h - 1 = 0 := by simpa [UniformPtr] using hub
            have hall : ∀ x ∈ bs1 ++ none :: bs2, x = none := by
              intro x hx
              have := hu x hx
              rw [hh] at this
              cases x with
              | none => rfl
              | some c => simp [UniformPtr] at this
            cases hrl : removeLeafData
                (BTreeNode.mk (ks1 ++ (key, v) :: rest) (bs1 ++ none :: bs2) st) ks1.length with
            | none => simp [hrl] at hr
            | some cur1 =>
              simp only [hrl] at hr
              obtain ⟨r1, r2, r3⟩ := removeLeafData_spec ks1 rest (key, v) _ st cur1 hbr hrl
              cases cur1 with
              | mk cks cbr cst =>
                simp only [BTreeNode.keys, BTreeNode.m_branch] at r1 r2 r3
                subst r1
                have hwc : WF order (BTreeNode.mk (ks1 ++ rest) cbr cst) := by
                  rw [wf_mk]
                  refine ⟨?_, r2, fun x hx => ?_⟩
                  · simp only [List.length_append, List.length_cons] at hlen ⊢; omega
                  · rw [hall x (r3 x hx)]; trivial
                have huc : Uniform (h - 1) (BTreeNode.mk (ks1 ++ rest) cbr cst) := by
                  rw [uniform_mk]
                  intro x hx
                  rw [hall x (r3 x hx), hh]
                  simp [UniformPtr]
                cases hre : restore_if_underflow order (BTreeNode.mk (ks1 ++ rest) cbr cst)
                    ks1.length with
                | none => simp [hre] at hr
                | some cur2 =>
                  simp only [hre, Option.some.injEq, Prod.mk.injEq] at hr
                  obtain ⟨e1, e2⟩ := hr
                  subst e1 e2
                  obtain ⟨g1, g2, g3⟩ := restore_if_underflow_spec order (h - 1) h3 _ cur2
                    ks1.length hwc huc (by simp [nbKeys, BTreeNode.keys]) hre
                  refine ⟨g1, ⟨hpos, g2⟩, ?_, ?_⟩
                  · simp only [pairsPtr]
                    rw [g3]
                    simp only [pairs]
                    rw [pairsAux_leaf _ _ r2 (fun x hx => hall x (r3 x hx)),
                      pairsAux_leaf _ _ hbr hall,
                      delList_append_of_not_mem key ks1 _ (fun p hp => ne_of_lt (hlt p hp))]
                    simp [delList]
                  · rw [hlook]; rfl
          | some c =>
            simp only [copyInPredecessor, hbl] at hr
            cases hlr : lastOfRightmost c with
            | none => simp [hlr] at hr
            | some p =>
              have hidx : ks1.length <
                  (BTreeNode.mk (ks1 ++ (key, v) :: rest) (bs1 ++ some c :: bs2) st).nbKeys := by
                simp [nbKeys, BTreeNode.keys]
              simp only [hlr, hidx, ↓reduceIte, BTreeNode.keys, set_append_cons_length,
                get?_append_cons_length, recursive_remove_branch_eq] at hr
              rw [hl, get?_append_cons_length] at hr
              simp only [set_append_cons_length] at hr
              have hwc : WF order c := hwb
              obtain ⟨X, hX⟩ := lastOfRightmost_spec order c p hwc hlr
              have hscX : SortedKeys (X ++ [p]) := by
                simp only [pairsPtr, hX] at hsc; exact hsc
              cases hrb : internal_recursive_remove order (some c) p.1 with
              | none => simp [hrb] at hr
              | some res =>
                obtain ⟨c1, res1⟩ := res
                obtain ⟨f1, f2, f3, _⟩ :=
                  hchild (some c) (by simp) (h - 1) p.1 c1 res1 hwb hsc hub hrb
                simp only [pairsPtr, hX, delList_concat_last X p hscX] at f3
                simp only [hrb] at hr
                obtain ⟨m1, m2⟩ := hmid (p :: rest) c1 rfl f1 f2
                cases hre : restore_if_underflow order
                    (BTreeNode.mk (ks1 ++ p :: rest) (bs1 ++ c1 :: bs2) st) bs1.length with
                | none => simp [hre] at hr
                | some cur2 =>
                  simp only [hre, Option.some.injEq, Prod.mk.injEq] at hr
                  obtain ⟨e1, e2⟩ := hr
                  subst e1 e2
                  obtain ⟨g1, g2, g3⟩ := restore_if_underflow_spec order (h - 1) h3 _ cur2
                    bs1.length m1 m2 (by simp [nbKeys, BTreeNode.keys, hl]) hre
                  refine ⟨g1, ⟨hpos, g2⟩, ?_, ?_⟩
                  · simp only [pairsPtr]
                    rw [g3, hdel]
                    simp only [pairs]
                    rw [pairsAux_node ks1 (p :: rest) bs1 c1 bs2 hl]
                    simp only [pairsPtr] at f3 ⊢
                    rw [f3, hX]
                    simp [pairsAux, pairsPtr]
                  · rw [hlook]; rfl

/-- What `remove` does to a well-formed, search-ordered tree with its leaves on one
level, when no assertion fails. -/
theorem btree_remove_spec [LinearOrder K] (order : Nat) (h3 : 3 ≤ order) (t t1 : BTree K V)
    (key : K) (h : Nat) (hw : WFPtr order t.m_root) (hs : SortedKeys (pairsPtr t.m_root))
    (hu : UniformPtr h t.m_root) (hr : remove order t key = some t1) :
    WFPtr order t1.m_root ∧ SortedKeys (pairsPtr t1.m_root) ∧
      (UniformPtr h t1.m_root ∨ UniformPtr (h - 1) t1.m_root) ∧
      pairsPtr t1.m_root = delList key (pairsPtr t.m_root) := by
  simp only [remove] at hr
  cases hrr : internal_recursive_remove order t.m_root key with
  | none => simp [hrr] at hr
  | some res =>
    obtain ⟨root, result⟩ := res
    obtain ⟨f1, f2, f3, f4⟩ := recursive_remove_spec order h3 t.m_root h key root result hw hs hu hrr
    have hsorted : SortedKeys (pairsPtr root) := by
      rw [f3]; exact sortedKeys_delList key _ hs
    simp only [hrr] at hr
    cases root with
    | none =>
      simp only [Option.some.injEq] at hr
      subst hr
      exact ⟨f1, hsorted, Or.inl f2, f3⟩
    | some n =>
      simp only [] at hr
      split at hr
      · rename_i hcond
        simp only [Option.some.injEq] at hr
        subst hr
        cases n with
        | mk ks br st =>
          simp only [nbKeys, BTreeNode.keys, List.length_eq_zero] at hcond
          obtain ⟨_, hks⟩ := hcond
          subst hks
          simp only [WFPtr] at f1
          rw [wf_mk] at f1
          simp only [UniformPtr] at f2
          rw [uniform_mk] at f2
          obtain ⟨_, hb, hwl⟩ := f1
          cases br with
          | nil => simp at hb
          | cons b0 bs =>
            cases bs with
            | cons x xs => simp at hb
            | nil =>
              have e : (BTreeNode.mk ([] : List (K × V)) [b0] st).branch 0 = b0 :=
                branch_left [] [] b0 [] st 0 rfl
              simp only [e]
              have hp : pairsPtr (some (BTreeNode.mk ([] : List (K × V)) [b0] st)) = pairsPtr b0 := by
                simp [pairsPtr, pairs, pairsAux]
              rw [hp] at f3 hsorted
              exact ⟨hwl b0 (by simp), hsorted, Or.inr (f2.2 b0 (by simp)), f3⟩
      · simp only [Option.some.injEq] at hr
        subst hr
        exact ⟨f1, hsorted, Or.inl f2, f3⟩

/-- Every call that returns keeps the tree well-formed, search-ordered and with its
leaves on one level. -/
theorem btree_call_invariant [LinearOrder K] (order : Nat) (h3 : 3 ≤ order) (c : Call K V)
    (t t1 : BTree K V) (hw : WFPtr order t.m_root) (hs : SortedKeys (pairsPtr t.m_root))
    (hu : ∃ h, UniformPtr h t.m_root) (hc : call order t c = some t1) :
    WFPtr order t1.m_root ∧ SortedKeys (pairsPtr t1.m_root) ∧ ∃ h, UniformPtr h t1.m_root := by
  obtain ⟨h, hu⟩ := hu
  cases c with
  | insert key value =>
    obtain ⟨t2, ret, g1, g2, g3, _⟩ := btree_insert_spec order h3 t key value hw hs
    simp only [call, g1, Option.some.injEq] at hc
    subst hc
    refine ⟨g2, g3, ?_⟩
    rcases insert_uniform order t t2 key value ret h hu g1 with e | e
    · exact ⟨h, e⟩
    · exact ⟨h + 1, e⟩
  | remove key =>
    simp only [call] at hc
    obtain ⟨g1, g2, g3, _⟩ := btree_remove_spec order h3 t t1 key h hw hs hu hc
    refine ⟨g1, g2, ?_⟩
    rcases g3 with e | e
    · exact ⟨h, e⟩
    · exact ⟨h - 1, e⟩
  | clear =>
    simp only [call, clear, Option.some.injEq] at hc
    subst hc
    exact ⟨trivial, List.Pairwise.nil, 0, rfl⟩

theorem btree_calls_invariant [LinearOrder K] (order : Nat) (h3 : 3 ≤ order)
    (cs : List (Call K V)) (t t1 : BTree K V) (hw : WFPtr order t.m_root)
    (hs : SortedKeys (pairsPtr t.m_root)) (hu : ∃ h, UniformPtr h t.m_root)
    (hc : calls order t cs = some t1) :
    WFPtr order t1.m_root ∧ SortedKeys (pairsPtr t1.m_root) ∧ ∃ h, UniformPtr h t1.m_root := by
  induction cs generalizing t with
  | nil =>
    simp only [calls, Option.some.injEq] at hc
    subst hc
    exact ⟨hw, hs, hu⟩
  | cons c cs ih =>
    simp only [calls] at hc
    cases hcc : call order t c with
    | none => simp [hcc] at hc
    | some t2 =>
      simp only [hcc] at hc
      obtain ⟨g1, g2, g3⟩ := btree_call_invariant order h3 c t t2 hw hs hu hcc
      exact ih t2 g1 g2 g3 hc

/-- Every tree the public calls build from the empty tree is well-formed, search-ordered
and has its leaves on one level. -/
theorem btree_reachable_invariant [LinearOrder K] (order : Nat) (h3 : 3 ≤ order)
    (cs : List (Call K V)) (t : BTree K V) (hc : calls order (empty : BTree K V) cs = some t) :
    WFPtr order t.m_root ∧ SortedKeys (pairsPtr t.m_root) ∧ ∃ h, UniformPtr h t.m_root :=
  btree_calls_invariant order h3 cs empty t trivial List.Pairwise.nil ⟨0, rfl⟩ hc

/-- Where `internal_find` locates a key, `internal_push_down_insert` reports a
duplicate. -/
theorem push_down_duplicate [LinearOrder K] (order : Nat) (key : K) (val : V)
    (p : Option (BTreeNode K V)) (h : (internal_find key p).isSome = true) :
    internal_push_down_insert order key val p = some .ERCode_Insert_Error_Duplicate := by
  cases p with
  | none => simp [internal_find] at h
  | some n =>
    induction n using node_induct with
    | h ks br st ih =>
      simp only [internal_find, internal_find_node] at h
      simp only [internal_push_down_insert, push_down_node]
      rcases hfk : findKeyPositionFrom key ks 0 with ⟨found, position⟩
      rw [hfk] at h
      cases found with
      | true => rfl
      | false =>
        simp only [internal_find_branch_eq] at h
        simp only [push_down_branch_eq]
        cases hg : br.get? position with
        | none =>
          rw [hg] at h
          simp at h
        | some b =>
          simp only [hg] at h
          cases b with
          | none => simp [internal_find] at h
          | some c =>
            have := ih c (List.get?_mem hg) h
            simp only [this]

/-- In a list with strictly increasing keys the pair at an index inside the first part of
a decomposition belongs to that part. -/
theorem get?_append_mem {α : Type} (l1 l2 : List α) (i : Nat) (a : α)
    (h : (l1 ++ l2).get? i = some a) : (i < l1.length ∧ a ∈ l1) ∨ (l1.length ≤ i ∧
      l2.get? (i - l1.length) = some a) := by
  induction l1 generalizing i with
  | nil => right; simpa using h
  | cons x xs ih =>
    cases i with
    | zero =>
      left
      simp only [List.cons_append, List.get?_cons_zero, Option.some.injEq] at h
      simp [h]
    | succ j =>
      simp only [List.cons_append, List.get?_cons_succ] at h
      rcases ih j h with ⟨e1, e2⟩ | ⟨e1, e2⟩
      · left; exact ⟨by simp; omega, List.mem_cons_of_mem _ e2⟩
      · right
        refine ⟨by simp; omega, ?_⟩
        simpa using e2

/-- Inserting at the position `findKeyPosition` returns for an absent key is the
insertion into the sorted list of pairs. -/
theorem insert_at_position_eq_insList [LinearOrder K] (k : K) (v : V) (ks : List (K × V))
    (hk : ∀ p ∈ ks, p.1 ≠ k) :
    (findKeyPositionFrom k ks 0).2 ≤ ks.length ∧
      ks.take (findKeyPositionFrom k ks 0).2 ++ (k, v) :: ks.drop (findKeyPositionFrom k ks 0).2 =
        insList k v ks := by
  obtain ⟨ks1, ks2, e, hpos, hlt, hfound, hnotfound⟩ := findKeyPositionFrom_spec k ks 0
  subst e
  cases hfk : findKeyPositionFrom k (ks1 ++ ks2) 0 with
  | mk found pos =>
    rw [hfk] at hpos hfound hnotfound
    simp only [zero_add] at hpos hfound hnotfound ⊢
    subst hpos
    cases found with
    | true =>
      obtain ⟨v1, rest, e3⟩ := hfound rfl
      subst e3
      exact absurd rfl (hk (k, v1) (by simp))
    | false =>
      refine ⟨by simp, ?_⟩
      rw [take_length_append, drop_length_append, insList_append_of_lt k v ks1 ks2 hlt]
      cases ks2 with
      | nil => simp [insList]
      | cons a rest =>
        obtain ⟨b, u⟩ := a
        have := hnotfound rfl (b, u) rest rfl
        simp only at this
        simp [insList, this]

theorem lookup_eq_some_iff_mem [LinearOrder K] (k : K) (v : V) (l : List (K × V))
    (hs : SortedKeys l) : lookup k l = some v ↔ (k, v) ∈ l := by
  induction l with
  | nil => simp [lookup]
  | cons a l ih =>
    obtain ⟨a, w⟩ := a
    rw [sortedKeys_cons] at hs
    by_cases h : k = a
    · subst h
      simp only [lookup, ↓reduceIte, Option.some.injEq, List.mem_cons, Prod.mk.injEq, true_and]
      constructor
      · intro e; exact Or.inl e.symm
      · rintro (e | e)
        · exact e.symm
        · exact absurd (hs.1 _ e) (lt_irrefl _)
    · simp only [lookup, h, ↓reduceIte, ih hs.2, List.mem_cons, Prod.mk.injEq, false_and,
        false_or]

theorem copy_branches_eq_map (br : List (Option (BTreeNode K V))) :
    copy_branches br = br.map copy := by
  induction br with
  | nil => rfl
  | cons b bs ih => simp only [copy_branches, List.map_cons, ih]

theorem pairsAux_map (f : Option (BTreeNode K V) → Option (BTreeNode K V))
    (ks : List (K × V)) (br : List (Option (BTreeNode K V)))
    (h : ∀ b ∈ br, pairsPtr (f b) = pairsPtr b) :
    pairsAux ks (br.map f) = pairsAux ks br := by
  induction br generalizing ks with
  | nil => cases ks <;> simp [pairsAux]
  | cons b bs ih =>
    cases ks with
    | nil => simp only [List.map_cons, pairsAux]; exact h b (List.mem_cons_self _ _)
    | cons kv ks =>
      simp only [List.map_cons, pairsAux]
      rw [h b (List.mem_cons_self _ _), ih ks (fun x hx => h x (List.mem_cons_of_mem _ hx))]

/-- The copy of a node holds the pairs of the original, in the same order. -/
theorem pairs_copy_node (n : BTreeNode K V) : pairs (copy_node n) = pairs n := by
  induction n using node_induct with
  | h ks br st ih =>
    simp only [copy_node, pairs, copy_branches_eq_map]
    apply pairsAux_map
    intro b hb
    cases b with
    | none => rfl
    | some c => simp only [copy, pairsPtr]; exact ih c hb

theorem pairsPtr_copy (q : Option (BTreeNode K V)) : pairsPtr (copy q) = pairsPtr q := by
  cases q with
  | none => rfl
  | some n => simp only [copy, pairsPtr]; exact pairs_copy_node n

/-- The copy of a well-formed node is well-formed. -/
theorem wf_copy_node (order : Nat) (n : BTreeNode K V) (h : WF order n) :
    WF order (copy_node n) := by
  induction n using node_induct with
  | h ks br st ih =>
    rw [wf_mk] at h
    obtain ⟨h1, h2, h3⟩ := h
    simp only [copy_node, copy_branches_eq_map]
    rw [wf_mk]
    refine ⟨h1, by simp [h2], ?_⟩
    intro b hb
    simp only [List.mem_map] at hb
    obtain ⟨x, hx, e⟩ := hb
    subst e
    cases x with
    | none => trivial
    | some c => simp only [copy, WFPtr]; exact ih c hx (h3 _ hx)

theorem wfPtr_copy (order : Nat) (q : Option (BTreeNode K V)) (h : WFPtr order q) :
    WFPtr order (copy q) := by
  cases q with
  | none => trivial
  | some n => simp only [copy, WFPtr]; exact wf_copy_node order n h

theorem sameShapeList_map (f : Option (BTreeNode K V) → Option (BTreeNode K V))
    (br : List (Option (BTreeNode K V))) (h : ∀ b ∈ br, SameShapePtr b (f b)) :
    SameShapeList br (br.map f) := by
  induction br with
  | nil => simp [SameShapeList]
  | cons b bs ih =>
    simp only [List.map_cons, SameShapeList]
    exact ⟨h b (List.mem_cons_self _ _), ih (fun x hx => h x (List.mem_cons_of_mem _ hx))⟩

/-- The copy of a node has the shape of the original. -/
theorem sameShape_copy_node (n : BTreeNode K V) : SameShape n (copy_node n) := by
  induction n using node_induct with
  | h ks br st ih =>
    simp only [copy_node, SameShape, BTreeNode.keys, BTreeNode.m_branch, copy_branches_eq_map,
      true_and]
    apply sameShapeList_map
    intro b hb
    cases b with
    | none => simp [copy, SameShapePtr]
    | some c => simp only [copy, SameShapePtr]; exact ih c hb

theorem sameShapePtr_copy (q : Option (BTreeNode K V)) : SameShapePtr q (copy q) := by
  cases q with
  | none => simp [copy, SameShapePtr]
  | some n => simp only [copy, SameShapePtr]; exact sameShape_copy_node n

/-- After a sequence of `remove` calls that return, every pair still stored was stored
before and has none of the removed keys. -/
theorem btree_removes_invariant [LinearOrder K] (order : Nat) (h3 : 3 ≤ order) (ks : List K)
    (t t1 : BTree K V) (hw : WFPtr order t.m_root) (hs : SortedKeys (pairsPtr t.m_root))
    (hu : ∃ h, UniformPtr h t.m_root)
    (hc : calls order t (ks.map Call.remove) = some t1) :
    WFPtr order t1.m_root ∧ SortedKeys (pairsPtr t1.m_root) ∧
      ∀ p ∈ pairsPtr t1.m_root, p ∈ pairsPtr t.m_root ∧ p.1 ∉ ks := by
  induction ks generalizing t with
  | nil =>
    simp only [List.map_nil, calls, Option.some.injEq] at hc
    subst hc
    exact ⟨hw, hs, fun p hp => ⟨hp, by simp⟩⟩
  | cons k ks ih =>
    simp only [List.map_cons, calls, call] at hc
    cases hr : remove order t k with
    | none => simp [hr] at hc
    | some t2 =>
      simp only [hr] at hc
      obtain ⟨h, hu⟩ := hu
      obtain ⟨g1, g2, g3, g4⟩ := btree_remove_spec order h3 t t2 k h hw hs hu hr
      have hu2 : ∃ h, UniformPtr h t2.m_root := by
        rcases g3 with e | e
        · exact ⟨_, e⟩
        · exact ⟨_, e⟩
      obtain ⟨f1, f2, f3⟩ := ih t2 g1 g2 hu2 hc
      refine ⟨f1, f2, fun p hp => ?_⟩
      obtain ⟨m1, m2⟩ := f3 p hp
      rw [g4] at m1
      obtain ⟨m3, m4⟩ := mem_delList k _ hs p m1
      refine ⟨m3, ?_⟩
      simp only [List.mem_cons, not_or]
      exact ⟨m4, m2⟩

/-- At order 6 the `remove` calls for all the keys of `scenarioSplitTree` return and leave
the empty tree. -/
theorem scenarioSplitTree_remove_all :
    calls 6 scenarioSplitTree ([0, 10, 20, 30, 40, 35].map Call.remove) = some empty := by
  simp [scenarioSplitTree, calls, call, remove, internal_recursive_remove,
    recursive_remove_node, recursive_remove_branch,
    findKeyPositionFrom, restore_if_underflow, internal_restore, moveLeft, moveRight, combine,
    shift_left, shift_right, removeLeafData, copyInPredecessor, branch, nbKeys, keys,
    m_branch, m_stale, MAXKEYS, MINKEYS, empty, lastOfRightmost, lastOfRightmostAt]

/-- A well-formed subtree with its leaves on one level has one height only. -/
theorem uniformPtr_unique (order : Nat) (q : Option (BTreeNode K V)) :
    ∀ h h1, WFPtr order q → UniformPtr h q → UniformPtr h1 q → h1 = h := by
  cases q with
  | none =>
    intro h h1 _ hu hu1
    simp only [UniformPtr] at hu hu1
    omega
  | some n =>
    induction n using node_induct with
    | h ks br st ih =>
      intro h h1 hw hu hu1
      simp only [WFPtr] at hw
      rw [wf_mk] at hw
      obtain ⟨_, hb, hwl⟩ := hw
      rw [uniformPtr_some] at hu hu1
      simp only [BTreeNode.m_branch] at hu hu1
      cases br with
      | nil => simp at hb
      | cons b bs =>
        have u := hu.2 b (by simp)
        have u1 := hu1.2 b (by simp)
        cases b with
        | none =>
          simp only [UniformPtr] at u u1
          omega
        | some c =>
          have := ih c (by simp) (h - 1) (h1 - 1) (hwl _ (by simp)) u u1
          omega

/-- The height after `insert`: one more when `internal_push_down_insert` reports an
overflow at the root, the same otherwise. -/
theorem insert_height [LinearOrder K] (order : Nat) (t t1 : BTree K V) (key : K) (val : V)
    (ret : Bool) (h : Nat) (hu : UniformPtr h t.m_root)
    (hi : insert order t key val = some (t1, ret)) :
    ((∃ c m r, internal_push_down_insert order key val t.m_root =
        some (.ERCode_Insert_Overflow c m r)) → UniformPtr (h + 1) t1.m_root) ∧
      ((¬ ∃ c m r, internal_push_down_insert order key val t.m_root =
        some (.ERCode_Insert_Overflow c m r)) → UniformPtr h t1.m_root) := by
  obtain ⟨u1, u2⟩ := push_down_uniform order key val t.m_root h hu
  simp only [insert] at hi
  cases hr : internal_push_down_insert order key val t.m_root with
  | none => simp [hr] at hi
  | some res =>
    cases res with
    | ERCode_Insert_Error_Duplicate =>
      simp only [hr, Option.some.injEq, Prod.mk.injEq] at hi
      refine ⟨fun ⟨c, m, r, e⟩ => by simp at e, fun _ => ?_⟩
      rw [← hi.1]; exact hu
    | ERCode_Insert_Success current =>
      simp only [hr, Option.some.injEq, Prod.mk.injEq] at hi
      refine ⟨fun ⟨c, m, r, e⟩ => by simp at e, fun _ => ?_⟩
      rw [← hi.1]; exact u1 current hr
    | ERCode_Insert_Overflow current median rb =>
      obtain ⟨hc, hrb⟩ := u2 current median rb hr
      simp only [hr] at hi
      refine ⟨fun _ => ?_, fun hn => absurd ⟨current, median, rb, rfl⟩ hn⟩
      cases hin : insertAt order (BTreeNode.mk [] [current] (List.replicate (order - 1) none)) 0
          median rb with
      | none => simp [hin] at hi
      | some nodePtr =>
        simp only [hin, Option.some.injEq, Prod.mk.injEq] at hi
        rw [← hi.1]
        have m1 := insertAt_branch_mem order _ _ _ _ _ hin
        show UniformPtr (h + 1) (some nodePtr)
        rw [uniformPtr_some]
        refine ⟨Nat.succ_pos _, fun x hx => ?_⟩
        simp only [Nat.add_sub_cancel]
        rcases m1 x hx with e | e
        · rw [e]; exact hrb
        · simp only [BTreeNode.m_branch, List.mem_singleton] at e
          rw [e]; exact hc

/-- The height after `remove`: one less when the root is left without a key, the same
otherwise. -/
theorem remove_height [LinearOrder K] (order : Nat) (h3 : 3 ≤ order) (t t1 : BTree K V)
    (key : K) (h : Nat) (hw : WFPtr order t.m_root) (hs : SortedKeys (pairsPtr t.m_root))
    (hu : UniformPtr h t.m_root) (hr : remove order t key = some t1) :
    ((∃ n, internal_recursive_remove order t.m_root key = some (some n, true) ∧
        n.nbKeys = 0) → 0 < h ∧ UniformPtr (h - 1) t1.m_root) ∧
      ((¬ ∃ n, internal_recursive_remove order t.m_root key = some (some n, true) ∧
        n.nbKeys = 0) → UniformPtr h t1.m_root) := by
  simp only [remove] at hr
  cases hrr : internal_recursive_remove order t.m_root key with
  | none => simp [hrr] at hr
  | some res =>
    obtain ⟨root, result⟩ := res
    obtain ⟨f1, f2, _, _⟩ :=
      recursive_remove_spec order h3 t.m_root h key root result hw hs hu hrr
    simp only [hrr] at hr
    cases root with
    | none =>
      simp only [Option.some.injEq] at hr
      subst hr
      refine ⟨fun ⟨n, e, _⟩ => by simp at e, fun _ => f2⟩
    | some n =>
      simp only [] at hr
      split at hr
      · rename_i hcond
        simp only [Option.some.injEq] at hr
        subst hr
        refine ⟨fun _ => ?_, fun hn => absurd ⟨n, by rw [hcond.1], hcond.2⟩ hn⟩
        cases n with
        | mk ks br st =>
          simp only [WFPtr] at f1
          rw [wf_mk] at f1
          rw [uniformPtr_some] at f2
          obtain ⟨_, hb, _⟩ := f1
          cases br with
          | nil => simp at hb
          | cons b0 bs =>
            have e : (BTreeNode.mk ks (b0 :: bs) st).branch 0 = b0 :=
              branch_left ks [] b0 bs st 0 rfl
            simp only [e]
            exact ⟨f2.1, f2.2 b0 (by simp [BTreeNode.m_branch])⟩
      · rename_i hcond
        simp only [Option.some.injEq] at hr
        subst hr
        refine ⟨fun ⟨m, e, hm⟩ => ?_, fun _ => f2⟩
        simp only [Option.some.injEq, Prod.mk.injEq] at e
        exact absurd ⟨e.2, by rw [e.1]; exact hm⟩ hcond

/-- At the orders 3 and 4 (`MINKEYS = 1`) an underflowed child holds no key, and
`moveRight` onto it fails the assertion of `shift_right`. -/
theorem moveRight_fails_on_underflowed_child (order : Nat) (ho : order = 3 ∨ order = 4)
    (n r : BTreeNode K V) (p : Nat) (hr : n.branch (p + 1) = some r)
    (hu : r.nbKeys < MINKEYS order) :
    (∀ kv lb, shift_right order r 0 kv lb = none) ∧ moveRight order n p = none := by
  have hm : MINKEYS order = 1 := by
    rcases ho with e | e <;> subst e <;> simp [MINKEYS, MAXKEYS]
  have h0 : r.nbKeys = 0 := by omega
  have hs : ∀ kv lb, shift_right order r 0 kv lb = none := by
    intro kv lb
    simp [shift_right, h0]
  refine ⟨hs, ?_⟩
  simp only [moveRight, hr]
  cases n.branch p with
  | none => rfl
  | some l =>
    cases n.keys.get? p with
    | none => rfl
    | some sep =>
      simp only [hs]
      split <;> rfl

/-- `internal_push_down_insert` reports an overflow at the root exactly when the tree is
empty or the root node is split. -/
theorem root_overflow_iff [LinearOrder K] (order : Nat) (key : K) (val : V) (t : BTree K V) :
    (∃ c m r, internal_push_down_insert order key val t.m_root =
        some (.ERCode_Insert_Overflow c m r)) ↔
      (t.m_root = none ∨ ∃ root c m r, t.m_root = some root ∧
        push_down_node order key val root = some (.ERCode_Insert_Overflow c m r)) := by
  cases h : t.m_root with
  | none => simp [internal_push_down_insert]
  | some root => simp [internal_push_down_insert]

/-- `moveRight(i)` leaves the branch slots other than `i` and `i + 1` as they are. -/
theorem moveRight_branch_other (order : Nat) (n n1 : BTreeNode K V) (i j : Nat)
    (h : moveRight order n i = some n1) (h1 : j ≠ i) (h2 : j ≠ i + 1) :
    n1.branch j = n.branch j := by
  simp only [moveRight] at h
  split at h
  · split at h
    · split at h
      · simp only [Option.some.injEq] at h
        rw [← h]
        simp only [branch, BTreeNode.m_branch, BTreeNode.m_stale, List.getD_eq_getElem?_getD,
          List.getElem?_append, List.length_set, List.getElem?_set]
        split
        · rw [if_neg (Ne.symm h2), if_neg (Ne.symm h1)]
        · rfl
      · exact absurd h (by simp)
    · exact absurd h (by simp)
  · exact absurd h (by simp)

-- (end of the BTree lemmas)

/-- C3: a failing input of `BTree.remove` at order 5 (`MAXKEYS = 4`, `MINKEYS = 2`).  The
calls `insert` of 10, 20, ..., 80 and 5 build the root {30, 60} over the leaves
{5, 10, 20}, {40, 50} and {70, 80}, every node within its key-count bounds.  `remove(40)`
leaves the middle leaf with one key; `internal_restore` borrows from the left leaf with
`moveRight(0)` and then, the `else` being absent, goes on to `combine(1)` on two leaves of
two keys each, whose assertion `nbKeys() + nbKeys() < MAXKEYS` fails: the call does not
return a tree. -/
theorem remove_fails_after_borrow_order5 :
    calls 5 (empty : BTree Nat Nat)
        [.insert 10 1, .insert 20 2, .insert 30 3, .insert 40 4, .insert 50 5, .insert 60 6,
          .insert 70 7, .insert 80 8, .insert 5 0] =
      some ⟨some (.mk [(30, 3), (60, 6)]
        [some (.mk [(5, 0), (10, 1), (20, 2)] [none, none, none, none] [none]),
          some (.mk [(40, 4), (50, 5)] [none, none, none] [none, none]),
          some (.mk [(70, 7), (80, 8)] [none, none, none] [none, none])] [none, none])⟩ ∧
    remove 5 (⟨some (.mk [(30, 3), (60, 6)]
        [some (.mk [(5, 0), (10, 1), (20, 2)] [none, none, none, none] [none]),
          some (.mk [(40, 4), (50, 5)] [none, none, none] [none, none]),
          some (.mk [(70, 7), (80, 8)] [none, none, none] [none, none])] [none, none])⟩ :
        BTree Nat Nat) 40 = none := by
  constructor
  · simp [calls, call, insert, internal_push_down_insert, push_down_node, push_down_branch,
      findKeyPositionFrom, insertAt, splitInsertAt, isFull, nbKeys, keys, m_branch, m_stale,
      MAXKEYS, empty]
  · simp [remove, internal_recursive_remove, recursive_remove_node, recursive_remove_branch,
      findKeyPositionFrom, restore_if_underflow, internal_restore, moveLeft, moveRight, combine,
      shift_left, shift_right, removeLeafData, copyInPredecessor, branch, nbKeys, keys,
      m_branch, m_stale, MAXKEYS, MINKEYS]

/-- C4: `BTree.insert` keeps the key-count invariant.  For every order >= 3 and every
sequence of `insert` calls applied to an empty BTree, every call returns, every non-root
node holds between `MINKEYS = (order-1)/2` and `MAXKEYS = order-1` keys, and the root holds
between 1 and `MAXKEYS` keys. -/
theorem insert_keeps_key_count [LinearOrder K] (order : Nat) (h3 : 3 ≤ order)
    (kvs : List (K × V)) :
    ∃ t, calls order (empty : BTree K V) (kvs.map (fun kv => Call.insert kv.1 kv.2)) = some t ∧
      ∀ root, t.m_root = some root →
        (1 ≤ root.nbKeys ∧ root.nbKeys ≤ MAXKEYS order) ∧
        ∀ n ∈ descendants root, MINKEYS order ≤ n.nbKeys ∧ n.nbKeys ≤ MAXKEYS order := by
  obtain ⟨t, h1, h2, _, h4⟩ := insert_calls_invariant order h3 kvs (empty : BTree K V) trivial
    List.Pairwise.nil (fun root hroot => by simp [empty] at hroot)
  refine ⟨t, h1, ?_⟩
  intro root hroot
  rw [hroot] at h2
  obtain ⟨u1, u2⟩ := wf_descendants order root h2
  obtain ⟨m1, m2⟩ := h4 root hroot
  refine ⟨⟨m1, u1⟩, fun n hn => ⟨?_, u2 n hn⟩⟩
  cases root with
  | mk ks br st => exact m2 n hn

theorem insert_keeps_key_count_witness :
    3 ≤ 3 ∧ ∃ t, calls 3 (empty : BTree Nat Nat)
        ([(1, 10), (2, 20), (3, 30), (4, 40), (5, 50)].map
          (fun kv => Call.insert kv.1 kv.2)) = some t ∧
      ∀ root, t.m_root = some root →
        (1 ≤ root.nbKeys ∧ root.nbKeys ≤ MAXKEYS 3) ∧
        ∀ n ∈ descendants root, MINKEYS 3 ≤ n.nbKeys ∧ n.nbKeys ≤ MAXKEYS 3 :=
  ⟨by decide, insert_keeps_key_count 3 (by decide) [(1, 10), (2, 20), (3, 30), (4, 40), (5, 50)]⟩

/-- C6: a failing input of the call sequences at order 3 (`MAXKEYS = 2`, `MINKEYS = 1`).
The calls `insert` of 1, 2, 3 and 0 build the root {2} over the leaves {0, 1} and {3};
`remove(3)` then empties the right leaf, `internal_restore` calls `moveRight(0)`, and
`shift_right(0, ...)` on the empty leaf fails its assertion `_begPos < nbKeys()`: the
sequence does not end in a tree. -/
theorem calls_fail_on_borrow_order3 :
    calls 3 (empty : BTree Nat Nat) [.insert 1 10, .insert 2 20, .insert 3 30, .insert 0 0] =
      some ⟨some (.mk [(2, 20)]
        [some (.mk [(0, 0), (1, 10)] [none, none, none] []),
          some (.mk [(3, 30)] [none, none] [none])] [none])⟩ ∧
    calls 3 (empty : BTree Nat Nat)
        [.insert 1 10, .insert 2 20, .insert 3 30, .insert 0 0, .remove 3] = none := by
  constructor
  · simp [calls, call, insert, internal_push_down_insert, push_down_node, push_down_branch,
      findKeyPositionFrom, insertAt, splitInsertAt, isFull, nbKeys, keys, m_branch, m_stale,
      MAXKEYS, empty]
  · simp [calls, call, insert, internal_push_down_insert, push_down_node, push_down_branch,
      findKeyPositionFrom, insertAt, splitInsertAt, isFull, nbKeys, keys, m_branch, m_stale,
      MAXKEYS, empty, remove, internal_recursive_remove, recursive_remove_node,
      recursive_remove_branch, restore_if_underflow, internal_restore, moveLeft, moveRight,
      combine, shift_left, shift_right, removeLeafData, copyInPredecessor, branch, MINKEYS]

/-- C8: `BTree.insert` of a new key.  For every order >= 3, every tree `t` built from
the empty tree by `insert`, `remove` and `clear` calls, every key `k` that `find` does not locate
in `t` and every value `v`, `insert(k, v)` returns true, afterwards `find(k)` yields `v`,
every key located before is still located with its previous value, and no key other than
`k` becomes newly located. -/
theorem btree_insert_fresh_key [LinearOrder K] (order : Nat) (h3 : 3 ≤ order)
    (cs : List (Call K V)) (t : BTree K V)
    (hc : calls order (empty : BTree K V) cs = some t) (k : K) (v : V)
    (hk : find t k = none) :
    ∃ t1, insert order t k v = some (t1, true) ∧ find t1 k = some v ∧
      (∀ k1 w, find t k1 = some w → find t1 k1 = some w) ∧
      (∀ k1, k1 ≠ k → find t k1 = none → find t1 k1 = none) := by
  obtain ⟨hw, hs, _⟩ := btree_reachable_invariant order h3 cs t hc
  obtain ⟨t1, ret, h1, h2, h3', h4, h5, _, _⟩ := btree_insert_spec order h3 t k v hw hs
  have hl : lookup k (pairsPtr t.m_root) = none := by
    rw [← find_eq_lookup order k t hw hs]; exact hk
  have hr : ret = true := by rw [h4, hl]; rfl
  subst hr
  have e1 := h5 rfl
  refine ⟨t1, h1, ?_, ?_, ?_⟩
  · rw [find_eq_lookup order k t1 h2 h3', e1, lookup_insList k v _ hl, if_pos rfl]
  · intro k1 w hw1
    rw [find_eq_lookup order k1 t hw hs] at hw1
    have hne : k1 ≠ k := by
      intro e; rw [e, hl] at hw1; exact absurd hw1 (by simp)
    rw [find_eq_lookup order k1 t1 h2 h3', e1, lookup_insList k v _ hl, if_neg hne, hw1]
  · intro k1 hne hn1
    rw [find_eq_lookup order k1 t hw hs] at hn1
    rw [find_eq_lookup order k1 t1 h2 h3', e1, lookup_insList k v _ hl, if_neg hne, hn1]

theorem btree_insert_fresh_key_witness :
    calls 5 (empty : BTree Nat Nat) [.insert 10 1, .insert 40 4, .insert 30 3, .remove 40] =
        some ⟨some (.mk [(10, 1), (30, 3)] [none, none, none] [none, none])⟩ ∧
      find (⟨some (.mk [(10, 1), (30, 3)] [none, none, none] [none, none])⟩ :
        BTree Nat Nat) 20 = none ∧
      ∃ t1, insert 5 (⟨some (.mk [(10, 1), (30, 3)] [none, none, none] [none, none])⟩ :
          BTree Nat Nat) 20 2 = some (t1, true) ∧
        find t1 20 = some 2 ∧
        (∀ k1 w, find (⟨some (.mk [(10, 1), (30, 3)] [none, none, none] [none, none])⟩ :
          BTree Nat Nat) k1 = some w → find t1 k1 = some w) ∧
        (∀ k1, k1 ≠ 20 →
          find (⟨some (.mk [(10, 1), (30, 3)] [none, none, none] [none, none])⟩ :
            BTree Nat Nat) k1 = none → find t1 k1 = none) :=
  have hc : calls 5 (empty : BTree Nat Nat)
      [.insert 10 1, .insert 40 4, .insert 30 3, .remove 40] =
        some ⟨some (.mk [(10, 1), (30, 3)] [none, none, none] [none, none])⟩ := by
    simp [calls, call, insert, remove, internal_push_down_insert, push_down_node,
      push_down_branch, internal_recursive_remove, recursive_remove_node, recursive_remove_branch,
      findKeyPositionFrom, insertAt, isFull, nbKeys, keys, m_branch, m_stale, branch,
      removeLeafData, shift_left, restore_if_underflow, MAXKEYS, MINKEYS, empty]
  have hf : find (⟨some (.mk [(10, 1), (30, 3)] [none, none, none] [none, none])⟩ :
      BTree Nat Nat) 20 = none := by
    simp [find, internal_find, internal_find_node, internal_find_branch, findKeyPositionFrom]
  ⟨hc, hf, btree_insert_fresh_key 5 (by decide) _ _ hc 20 2 hf⟩

/-- C10: a failing input of `BTree.remove` at order 4 (`MAXKEYS = 3`, `MINKEYS = 1`).
The calls `insert` of 4, 3, 1 and 2 build the root {3} over the leaves {1, 2} and {4}; the
key 4 is stored (`find(4)` yields its value), yet `remove(4)` does not return: it empties
the right leaf and `moveRight(0)` fails the assertion of `shift_right` on it. -/
theorem remove_stored_key_fails_order4 :
    calls 4 (empty : BTree Nat Nat) [.insert 4 40, .insert 3 30, .insert 1 10, .insert 2 20] =
      some ⟨some (.mk [(3, 30)]
        [some (.mk [(1, 10), (2, 20)] [none, none, none] [none]),
          some (.mk [(4, 40)] [none, none] [none, none])] [none, none])⟩ ∧
    find (⟨some (.mk [(3, 30)]
        [some (.mk [(1, 10), (2, 20)] [none, none, none] [none]),
          some (.mk [(4, 40)] [none, none] [none, none])] [none, none])⟩ : BTree Nat Nat) 4 =
      some 40 ∧
    remove 4 (⟨some (.mk [(3, 30)]
        [some (.mk [(1, 10), (2, 20)] [none, none, none] [none]),
          some (.mk [(4, 40)] [none, none] [none, none])] [none, none])⟩ : BTree Nat Nat) 4 =
      none := by
  refine ⟨?_, ?_, ?_⟩
  · simp [calls, call, insert, internal_push_down_insert, push_down_node, push_down_branch,
      findKeyPositionFrom, insertAt, splitInsertAt, isFull, nbKeys, keys, m_branch, m_stale,
      MAXKEYS, empty]
  · simp [find, internal_find, internal_find_node, internal_find_branch, findKeyPositionFrom,
      keys]
  · simp [remove, internal_recursive_remove, recursive_remove_node, recursive_remove_branch,
      findKeyPositionFrom, restore_if_underflow, internal_restore, moveLeft, moveRight, combine,
      shift_left, shift_right, removeLeafData, copyInPredecessor, branch, nbKeys, keys,
      m_branch, m_stale, MAXKEYS, MINKEYS]

/-- C12: BTree rejects duplicates without mutation.  For every order (in particular every
order >= 3), every tree (in particular every tree built by public calls) and every key `k`
that `find` locates in it, in a leaf or in an internal node, `insert(k, v)` returns false
and the tree is unchanged: every node keeps its keys, values and branches, and `find(k)`
still yields the value stored before. -/
theorem btree_duplicate_rejected [LinearOrder K] (order : Nat) (t : BTree K V)
    (k : K) (w v : V) (hk : find t k = some w) :
    insert order t k v = some (t, false) ∧
      ∀ t1 ret, insert order t k v = some (t1, ret) → find t1 k = some w := by
  have h1 : (internal_find k t.m_root).isSome = true := by
    simp only [find] at hk
    cases hf : internal_find k t.m_root with
    | none => simp [hf] at hk
    | some r => rfl
  have h2 : insert order t k v = some (t, false) := by
    simp only [insert, push_down_duplicate order k v t.m_root h1]
  refine ⟨h2, fun t1 ret hi => ?_⟩
  rw [h2] at hi
  simp only [Option.some.injEq, Prod.mk.injEq] at hi
  rw [← hi.1]
  exact hk

theorem btree_duplicate_rejected_witness :
    find (⟨some (.mk [(30, 3)]
        [some (.mk [(10, 1), (20, 2)] [none, none, none] [none, none]),
          some (.mk [(40, 4), (50, 5)] [none, none, none] [none, none])] [none, none, none])⟩ :
        BTree Nat Nat) 30 = some 3 ∧
      (insert 5 (⟨some (.mk [(30, 3)]
        [some (.mk [(10, 1), (20, 2)] [none, none, none] [none, none]),
          some (.mk [(40, 4), (50, 5)] [none, none, none] [none, none])] [none, none, none])⟩ :
          BTree Nat Nat) 30 99 =
        some (⟨some (.mk [(30, 3)]
          [some (.mk [(10, 1), (20, 2)] [none, none, none] [none, none]),
            some (.mk [(40, 4), (50, 5)] [none, none, none] [none, none])] [none, none, none])⟩,
          false) ∧
      ∀ t1 ret, insert 5 (⟨some (.mk [(30, 3)]
        [some (.mk [(10, 1), (20, 2)] [none, none, none] [none, none]),
          some (.mk [(40, 4), (50, 5)] [none, none, none] [none, none])] [none, none, none])⟩ :
          BTree Nat Nat) 30 99 = some (t1, ret) → find t1 30 = some 3) :=
  have hf : find (⟨some (.mk [(30, 3)]
        [some (.mk [(10, 1), (20, 2)] [none, none, none] [none, none]),
          some (.mk [(40, 4), (50, 5)] [none, none, none] [none, none])] [none, none, none])⟩ :
        BTree Nat Nat) 30 = some 3 := by
    simp [find, internal_find, internal_find_node, internal_find_branch, findKeyPositionFrom,
      keys]
  ⟨hf, btree_duplicate_rejected 5 _ 30 3 99 hf⟩

/-- C15: the contract of `BTreeNode::findKeyPosition`.  For every node with strictly
increasing keys and every key `k`: when `k` is the key at an index `i` of the node, it
returns true with `pos = i`; when `k` is not in the node, it returns false with a `pos`
of at most `nbKeys()` such that every key before `pos` is smaller than `k` and the key
at `pos`, if there is one, is greater than `k` (so `pos` is the smallest index with a
greater key), and `pos = nbKeys()` when no key is greater. -/
theorem findKeyPosition_contract [LinearOrder K] (n : BTreeNode K V) (k : K)
    (hs : SortedKeys n.keys) :
    (∀ i v, n.keys.get? i = some (k, v) → n.findKeyPosition k = (true, i)) ∧
    ((∀ p ∈ n.keys, p.1 ≠ k) →
      ∃ pos, n.findKeyPosition k = (false, pos) ∧ pos ≤ n.nbKeys ∧
        (∀ i p, i < pos → n.keys.get? i = some p → p.1 < k) ∧
        (∀ p, n.keys.get? pos = some p → k < p.1) ∧
        ((∀ p ∈ n.keys, ¬ k < p.1) → pos = n.nbKeys)) := by
  cases n with
  | mk ks br st =>
    simp only [BTreeNode.keys, findKeyPosition, nbKeys] at hs ⊢
    obtain ⟨ks1, ks2, e, hpos, hlt, hfound, hnotfound⟩ := findKeyPositionFrom_spec k ks 0
    subst e
    rw [sortedKeys_append] at hs
    obtain ⟨_, hs2, h12⟩ := hs
    cases hfk : findKeyPositionFrom k (ks1 ++ ks2) 0 with
    | mk found pos =>
      rw [hfk] at hpos hfound hnotfound
      simp only [zero_add] at hpos hfound hnotfound
      subst hpos
      constructor
      · intro i v hi
        rcases get?_append_mem ks1 ks2 i (k, v) hi with ⟨_, e2⟩ | ⟨e1, e2⟩
        · exact absurd (hlt _ e2) (lt_irrefl _)
        · cases found with
          | false =>
            cases ks2 with
            | nil => simp at e2
            | cons a rest =>
              have ha := hnotfound rfl a rest rfl
              rw [sortedKeys_cons] at hs2
              have hmem : (k, v) ∈ a :: rest := List.get?_mem e2
              rcases List.mem_cons.1 hmem with e3 | e3
              · rw [← e3] at ha; exact absurd ha (lt_irrefl _)
              · exact absurd (lt_trans ha (hs2.1 _ e3)) (lt_irrefl _)
          | true =>
            obtain ⟨v1, rest, e3⟩ := hfound rfl
            subst e3
            rw [sortedKeys_cons] at hs2
            cases hj : i - ks1.length with
            | zero =>
              have : i = ks1.length := by omega
              rw [this]
            | succ j =>
              rw [hj] at e2
              simp only [List.get?_cons_succ] at e2
              exact absurd (hs2.1 _ (List.get?_mem e2)) (lt_irrefl _)
      · intro hne
        cases found with
        | true =>
          obtain ⟨v1, rest, e3⟩ := hfound rfl
          subst e3
          exact absurd rfl (hne (k, v1) (by simp))
        | false =>
          refine ⟨ks1.length, rfl, by simp, ?_, ?_, ?_⟩
          · intro i p hi hp
            rcases get?_append_mem ks1 ks2 i p hp with ⟨_, e2⟩ | ⟨e1, _⟩
            · exact hlt p e2
            · omega
          · intro p hp
            cases ks2 with
            | nil => simp at hp
            | cons a rest =>
              rw [get?_append_cons_length] at hp
              simp only [Option.some.injEq] at hp
              rw [← hp]
              exact hnotfound rfl a rest rfl
          · intro hng
            cases ks2 with
            | nil => simp
            | cons a rest =>
              exact absurd (hnotfound rfl a rest rfl) (hng a (by simp))

theorem findKeyPosition_contract_witness :
    SortedKeys scenarioNode.keys ∧
      ((∀ i v, scenarioNode.keys.get? i = some (35, v) →
        scenarioNode.findKeyPosition 35 = (true, i)) ∧
      ((∀ p ∈ scenarioNode.keys, p.1 ≠ 35) →
        ∃ pos, scenarioNode.findKeyPosition 35 = (false, pos) ∧ pos ≤ scenarioNode.nbKeys ∧
          (∀ i p, i < pos → scenarioNode.keys.get? i = some p → p.1 < 35) ∧
          (∀ p, scenarioNode.keys.get? pos = some p → 35 < p.1) ∧
          ((∀ p ∈ scenarioNode.keys, ¬ 35 < p.1) → pos = scenarioNode.nbKeys))) :=
  have hs : SortedKeys scenarioNode.keys := by
    simp [SortedKeys, scenarioNode, BTreeNode.keys]
  ⟨hs, findKeyPosition_contract scenarioNode 35 hs⟩

/-- C17: a failing input of the insert-all/remove-all round trip at order 3.  After
`insert` of the keys 1, 2, 3, 0 the removals in the order 3, 2, 1, 0 do not get past the
first one: `remove(3)` empties the right leaf of the root {2} and the borrow from the
left leaf {0, 1} fails the assertion of `shift_right`. -/
theorem round_trip_fails_order3 :
    calls 3 (empty : BTree Nat Nat)
        ([(1, 10), (2, 20), (3, 30), (0, 0)].map (fun kv => Call.insert kv.1 kv.2) ++
          [3, 2, 1, 0].map Call.remove) = none := by
  simp [calls, call, insert, internal_push_down_insert, push_down_node, push_down_branch,
    findKeyPositionFrom, insertAt, splitInsertAt, isFull, nbKeys, keys, m_branch, m_stale,
    MAXKEYS, empty, remove, internal_recursive_remove, recursive_remove_node,
    recursive_remove_branch, restore_if_underflow, internal_restore, moveLeft, moveRight,
    combine, shift_left, shift_right, removeLeafData, copyInPredecessor, branch, MINKEYS]

/-- C18 (amended): the restore strategy for an interior child.  When the underflowed
child is neither the leftmost nor the rightmost child and its left sibling has no more
than `MINKEYS` keys, `internal_restore` performs exactly one action: `moveLeft(position +
1)`, a borrow from the right sibling, if that sibling has more than `MINKEYS` keys, and
otherwise `combine(position)`, the merge of the child with its left sibling.  When the
left sibling has more than `MINKEYS` keys, `internal_restore` makes the borrow from the
left sibling, `moveRight(position - 1)`, on the node it was given, and its result is what
the second `if` of the source (`moveLeft(position + 1)` when the right sibling has more than
`MINKEYS` keys, `combine(position)` otherwise) makes of the node after that borrow. -/
theorem restore_interior_strategy (order : Nat) (n l r : BTreeNode K V) (position : Nat)
    (h0 : position ≠ 0) (hn : position ≠ n.nbKeys)
    (hl : n.branch (position - 1) = some l) (hr : n.branch (position + 1) = some r) :
    (l.nbKeys ≤ MINKEYS order → r.nbKeys > MINKEYS order →
      internal_restore order n position = moveLeft order n (position + 1)) ∧
    (l.nbKeys ≤ MINKEYS order → r.nbKeys ≤ MINKEYS order →
      internal_restore order n position = (combine order n position).map Prod.fst) ∧
    (l.nbKeys > MINKEYS order →
      internal_restore order n position =
        (moveRight order n (position - 1)).bind (fun n1 =>
          if r.nbKeys > MINKEYS order then moveLeft order n1 (position + 1)
          else (combine order n1 position).map Prod.fst)) := by
  refine ⟨?_, ?_, ?_⟩
  · intro h1 h2
    have h1' : ¬ l.nbKeys > MINKEYS order := by omega
    simp only [internal_restore, hn, h0, ↓reduceIte, hl, h1', hr, h2]
  · intro h1 h2
    have h1' : ¬ l.nbKeys > MINKEYS order := by omega
    have h2' : ¬ r.nbKeys > MINKEYS order := by omega
    simp only [internal_restore, hn, h0, ↓reduceIte, hl, h1', hr, h2']
    cases combine order n position with
    | none => rfl
    | some res => rfl
  · intro h1
    simp only [internal_restore, hn, h0, ↓reduceIte, hl, h1]
    cases hm : moveRight order n (position - 1) with
    | none => rfl
    | some n1 =>
      have hb : n1.branch (position + 1) = some r := by
        rw [moveRight_branch_other order n n1 (position - 1) (position + 1) hm (by omega)
          (by omega), hr]
      simp only [Option.bind, hb]
      split
      · rfl
      · cases combine order n1 position with
        | none => rfl
        | some res => rfl

theorem restore_interior_strategy_witness :
    (1 ≠ 0) ∧
    (internal_restore 5 (BTreeNode.mk [(30, 3), (60, 6)]
        [some (.mk [(10, 1), (20, 2)] [none, none, none] [none, none]),
          some (.mk [(40, 4)] [none, none] [none, none, none]),
          some (.mk [(70, 7), (80, 8), (90, 9)] [none, none, none, none] [none])]
        [none, none] : BTreeNode Nat Nat) 1 =
      moveLeft 5 (BTreeNode.mk [(30, 3), (60, 6)]
        [some (.mk [(10, 1), (20, 2)] [none, none, none] [none, none]),
          some (.mk [(40, 4)] [none, none] [none, none, none]),
          some (.mk [(70, 7), (80, 8), (90, 9)] [none, none, none, none] [none])]
        [none, none] : BTreeNode Nat Nat) 2) ∧
    (internal_restore 5 (BTreeNode.mk [(30, 3), (60, 6)]
        [some (.mk [(10, 1), (20, 2)] [none, none, none] [none, none]),
          some (.mk [(40, 4)] [none, none] [none, none, none]),
          some (.mk [(70, 7), (80, 8)] [none, none, none] [none, none])] [none, none] :
          BTreeNode Nat Nat) 1 =
      (combine 5 (BTreeNode.mk [(30, 3), (60, 6)]
        [some (.mk [(10, 1), (20, 2)] [none, none, none] [none, none]),
          some (.mk [(40, 4)] [none, none] [none, none, none]),
          some (.mk [(70, 7), (80, 8)] [none, none, none] [none, none])] [none, none] :
          BTreeNode Nat Nat) 1).map Prod.fst) ∧
    (internal_restore 5 (BTreeNode.mk [(30, 3), (60, 6)]
        [some (.mk [(5, 0), (10, 1), (20, 2)] [none, none, none, none] [none]),
          some (.mk [(40, 4)] [none, none] [none, none, none]),
          some (.mk [(70, 7), (80, 8), (90, 9)] [none, none, none, none] [none])]
        [none, none] : BTreeNode Nat Nat) 1 =
      (moveRight 5 (BTreeNode.mk [(30, 3), (60, 6)]
        [some (.mk [(5, 0), (10, 1), (20, 2)] [none, none, none, none] [none]),
          some (.mk [(40, 4)] [none, none] [none, none, none]),
          some (.mk [(70, 7), (80, 8), (90, 9)] [none, none, none, none] [none])]
        [none, none] : BTreeNode Nat Nat) (1 - 1)).bind (fun n1 =>
          if (BTreeNode.mk [(70, 7), (80, 8), (90, 9)] [none, none, none, none] [none] :
              BTreeNode Nat Nat).nbKeys > MINKEYS 5
          then moveLeft 5 n1 (1 + 1)
          else (combine 5 n1 1).map Prod.fst)) :=
  have h0 : (1 : Nat) ≠ 0 := by decide
  ⟨h0, (restore_interior_strategy 5 _
      (.mk [(10, 1), (20, 2)] [none, none, none] [none, none])
      (.mk [(70, 7), (80, 8), (90, 9)] [none, none, none, none] [none]) 1 h0
      (by simp [nbKeys, BTreeNode.keys])
      (by simp [branch, BTreeNode.m_branch, BTreeNode.m_stale])
      (by simp [branch, BTreeNode.m_branch, BTreeNode.m_stale])).1
      (by simp [nbKeys, BTreeNode.keys, MINKEYS, MAXKEYS])
      (by simp [nbKeys, BTreeNode.keys, MINKEYS, MAXKEYS]),
    (restore_interior_strategy 5 _
      (.mk [(10, 1), (20, 2)] [none, none, none] [none, none])
      (.mk [(70, 7), (80, 8)] [none, none, none] [none, none]) 1 h0
      (by simp [nbKeys, BTreeNode.keys])
      (by simp [branch, BTreeNode.m_branch, BTreeNode.m_stale])
      (by simp [branch, BTreeNode.m_branch, BTreeNode.m_stale])).2.1
      (by simp [nbKeys, BTreeNode.keys, MINKEYS, MAXKEYS])
      (by simp [nbKeys, BTreeNode.keys, MINKEYS, MAXKEYS]),
    (restore_interior_strategy 5 _
      (.mk [(5, 0), (10, 1), (20, 2)] [none, none, none, none] [none])
      (.mk [(70, 7), (80, 8), (90, 9)] [none, none, none, none] [none]) 1 h0
      (by simp [nbKeys, BTreeNode.keys])
      (by simp [branch, BTreeNode.m_branch, BTreeNode.m_stale])
      (by simp [branch, BTreeNode.m_branch, BTreeNode.m_stale])).2.2
      (by simp [nbKeys, BTreeNode.keys, MINKEYS, MAXKEYS])⟩

/-- C18 as stated fails, at order 5 (`MINKEYS = 2`).  With the underflowed child {40}
between the siblings {10, 20} and {70, 80}, neither with surplus, `internal_restore`
merges the child with its left sibling, not with its right one (`combine(2)`).  With the
siblings {5, 10, 20} and {70, 80, 90}, both with surplus, it does not make the borrow from
the right sibling alone (`moveLeft(2)`): it borrows from the left sibling first. -/
theorem restore_interior_not_right_first :
    internal_restore 5 (BTreeNode.mk [(30, 3), (60, 6)]
        [some (.mk [(10, 1), (20, 2)] [none, none, none] [none, none]),
          some (.mk [(40, 4)] [none, none] [none, none, none]),
          some (.mk [(70, 7), (80, 8)] [none, none, none] [none, none])] [none, none] :
          BTreeNode Nat Nat) 1 =
      some (.mk [(60, 6)]
        [some (.mk [(10, 1), (20, 2), (30, 3), (40, 4)] [none, none, none, none, none] []),
          some (.mk [(70, 7), (80, 8)] [none, none, none] [none, none])] [none, none, none]) ∧
    internal_restore 5 (BTreeNode.mk [(30, 3), (60, 6)]
        [some (.mk [(10, 1), (20, 2)] [none, none, none] [none, none]),
          some (.mk [(40, 4)] [none, none] [none, none, none]),
          some (.mk [(70, 7), (80, 8)] [none, none, none] [none, none])] [none, none] :
          BTreeNode Nat Nat) 1 ≠
      (combine 5 (BTreeNode.mk [(30, 3), (60, 6)]
        [some (.mk [(10, 1), (20, 2)] [none, none, none] [none, none]),
          some (.mk [(40, 4)] [none, none] [none, none, none]),
          some (.mk [(70, 7), (80, 8)] [none, none, none] [none, none])] [none, none] :
          BTreeNode Nat Nat) 2).map Prod.fst ∧
    internal_restore 5 (BTreeNode.mk [(30, 3), (60, 6)]
        [some (.mk [(5, 0), (10, 1), (20, 2)] [none, none, none, none] [none]),
          some (.mk [(40, 4)] [none, none] [none, none, none]),
          some (.mk [(70, 7), (80, 8), (90, 9)] [none, none, none, none] [none])] [none, none] :
          BTreeNode Nat Nat) 1 ≠
      moveLeft 5 (BTreeNode.mk [(30, 3), (60, 6)]
        [some (.mk [(5, 0), (10, 1), (20, 2)] [none, none, none, none] [none]),
          some (.mk [(40, 4)] [none, none] [none, none, none]),
          some (.mk [(70, 7), (80, 8), (90, 9)] [none, none, none, none] [none])] [none, none] :
          BTreeNode Nat Nat) 2 := by
  refine ⟨?_, ?_, ?_⟩ <;>
  simp [internal_restore, moveLeft, moveRight, combine, shift_left, shift_right, branch, nbKeys,
    keys, m_branch, m_stale, MAXKEYS, MINKEYS]

/-- C19: a failing input of `combine` at order 6 (`MAXKEYS = 5`, `MINKEYS = 2`), the order
of the unit tests.  The calls `insert` of 10, 20, 30, 40, 50, 60, 25, 26, 27, 5 build the
root {26, 40} over the leaves {5, 10, 20, 25}, {27, 30} and {50, 60}.  `remove(30)` leaves
the middle leaf with one key; `internal_restore` borrows from the left leaf with
`moveRight(0)` and then calls `combine(1)` on the leaves {5, 10, 20} and {26, 27}, whose
key counts sum to `MAXKEYS`: the asserted precondition fails. -/
theorem combine_precondition_fails_order6 :
    calls 6 (empty : BTree Nat Nat)
        [.insert 10 1, .insert 20 2, .insert 30 3, .insert 40 4, .insert 50 5, .insert 60 6,
          .insert 25 7, .insert 26 8, .insert 27 9, .insert 5 0] =
      some ⟨some (.mk [(26, 8), (40, 4)]
        [some (.mk [(5, 0), (10, 1), (20, 2), (25, 7)] [none, none, none, none, none] [none]),
          some (.mk [(27, 9), (30, 3)] [none, none, none] [none, none, none]),
          some (.mk [(50, 5), (60, 6)] [none, none, none] [none, none, none])]
        [none, none, none])⟩ ∧
    moveRight 6 (BTreeNode.mk [(26, 8), (40, 4)]
        [some (.mk [(5, 0), (10, 1), (20, 2), (25, 7)] [none, none, none, none, none] [none]),
          some (.mk [(27, 9)] [none, none] [none, none, none, none]),
          some (.mk [(50, 5), (60, 6)] [none, none, none] [none, none, none])]
        [none, none, none] : BTreeNode Nat Nat) 0 =
      some (.mk [(25, 7), (40, 4)]
        [some (.mk [(5, 0), (10, 1), (20, 2)] [none, none, none, none] [none, none]),
          some (.mk [(26, 8), (27, 9)] [none, none, none] [none, none, none]),
          some (.mk [(50, 5), (60, 6)] [none, none, none] [none, none, none])]
        [none, none, none]) ∧
    combine 6 (BTreeNode.mk [(25, 7), (40, 4)]
        [some (.mk [(5, 0), (10, 1), (20, 2)] [none, none, none, none] [none, none]),
          some (.mk [(26, 8), (27, 9)] [none, none, none] [none, none, none]),
          some (.mk [(50, 5), (60, 6)] [none, none, none] [none, none, none])]
        [none, none, none] : BTreeNode Nat Nat) 1 = none ∧
    remove 6 (⟨some (.mk [(26, 8), (40, 4)]
        [some (.mk [(5, 0), (10, 1), (20, 2), (25, 7)] [none, none, none, none, none] [none]),
          some (.mk [(27, 9), (30, 3)] [none, none, none] [none, none, none]),
          some (.mk [(50, 5), (60, 6)] [none, none, none] [none, none, none])]
        [none, none, none])⟩ : BTree Nat Nat) 30 = none := by
  refine ⟨?_, ?_, ?_, ?_⟩
  · simp [calls, call, insert, internal_push_down_insert, push_down_node, push_down_branch,
      findKeyPositionFrom, insertAt, splitInsertAt, isFull, nbKeys, keys, m_branch, m_stale,
      MAXKEYS, empty]
  · simp [moveRight, shift_right, branch, nbKeys, keys, m_branch, m_stale, MAXKEYS, MINKEYS]
  · simp [combine, branch, nbKeys, keys, m_branch, m_stale, MAXKEYS]
  · simp [remove, internal_recursive_remove, recursive_remove_node, recursive_remove_branch,
      findKeyPositionFrom, restore_if_underflow, internal_restore, moveLeft, moveRight, combine,
      shift_left, shift_right, removeLeafData, copyInPredecessor, branch, nbKeys, keys,
      m_branch, m_stale, MAXKEYS, MINKEYS]

/-- C20: `BTreeNode::splitInsertAt` splits and inserts together.  For every order >= 3,
every full node with strictly increasing keys and every key `k` absent from the node,
with `pos` the position `findKeyPosition(k)` returns, `splitInsertAt` returns, and there
is a sequence `S`, a strictly increasing rearrangement of the old pairs plus `(k, v)`,
such that the left (current) node holds the first `ORDER/2` pairs of `S`, the median
output is the pair at index `ORDER/2` of `S`, and the right node holds the remaining
`MAXKEYS - ORDER/2` pairs of `S` in order. -/
theorem splitInsertAt_sorted_halves [LinearOrder K] (order : Nat) (h3 : 3 ≤ order)
    (n : BTreeNode K V) (k : K) (v : V) (rb : Option (BTreeNode K V))
    (hfull : n.isFull order = true) (hbr : n.m_branch.length = n.nbKeys + 1)
    (hs : SortedKeys n.keys) (hk : ∀ p ∈ n.keys, p.1 ≠ k) :
    ∃ l med r S, splitInsertAt order n (n.findKeyPosition k).2 (k, v) rb = some (l, med, r) ∧
      S.Perm ((k, v) :: n.keys) ∧ SortedKeys S ∧
      l.keys = S.take (order / 2) ∧ S.get? (order / 2) = some med ∧
      r.keys = S.drop (order / 2 + 1) ∧
      l.nbKeys = order / 2 ∧ r.nbKeys = MAXKEYS order - order / 2 := by
  cases n with
  | mk ks br st =>
    simp only [BTreeNode.keys, BTreeNode.m_branch, nbKeys, isFull, beq_iff_eq,
      findKeyPosition] at *
    obtain ⟨hle, heq⟩ := insert_at_position_eq_insList k v ks hk
    obtain ⟨med, st1, st2, hmed, hsplit⟩ := splitInsertAt_eq order h3 ks br st
      (findKeyPositionFrom k ks 0).2 (k, v) rb hfull hbr hle
    rw [heq] at hmed hsplit
    have hperm := perm_insList k v ks hk
    have hlen : (insList k v ks).length = order := by
      rw [List.Perm.length_eq hperm]
      simp only [List.length_cons, hfull, MAXKEYS]
      omega
    refine ⟨_, med, _, insList k v ks, hsplit, hperm, sortedKeys_insList k v ks hs, rfl, hmed,
      rfl, ?_, ?_⟩
    · simp only [BTreeNode.keys, List.length_take, hlen]
      omega
    · simp only [BTreeNode.keys, List.length_drop, hlen, MAXKEYS]
      omega

theorem splitInsertAt_sorted_halves_witness :
    scenarioNode.isFull 6 = true ∧
      scenarioNode.m_branch.length = scenarioNode.nbKeys + 1 ∧
      SortedKeys scenarioNode.keys ∧ (∀ p ∈ scenarioNode.keys, p.1 ≠ 35) ∧
      ∃ l med r S,
        splitInsertAt 6 scenarioNode (scenarioNode.findKeyPosition 35).2 (35, 5) none =
          some (l, med, r) ∧
        S.Perm ((35, 5) :: scenarioNode.keys) ∧ SortedKeys S ∧
        l.keys = S.take (6 / 2) ∧ S.get? (6 / 2) = some med ∧ r.keys = S.drop (6 / 2 + 1) ∧
        l.nbKeys = 6 / 2 ∧ r.nbKeys = MAXKEYS 6 - 6 / 2 :=
  have h1 : scenarioNode.isFull 6 = true := by decide
  have h2 : scenarioNode.m_branch.length = scenarioNode.nbKeys + 1 := by decide
  have h3 : SortedKeys scenarioNode.keys := by
    simp [SortedKeys, scenarioNode, BTreeNode.keys]
  have h4 : ∀ p ∈ scenarioNode.keys, p.1 ≠ 35 := by
    simp [scenarioNode, BTreeNode.keys]
  ⟨h1, h2, h3, h4, splitInsertAt_sorted_halves 6 (by decide) scenarioNode 35 5 none h1 h2 h3 h4⟩

/-- C21: the concrete split scenario at order 6.  Inserting the keys 0, 10, 20, 30, 40,
with any values, into an empty BTree of order 6 gives a single leaf root with these 5
keys; inserting 35 next returns true and gives a root with exactly one key, 30, whose
left child is a leaf with the keys 0, 10, 20 and whose right child is a leaf with the
keys 35, 40 (every branch slot of the two children is null). -/
theorem split_scenario_order6 (v0 v10 v20 v30 v40 v35 : V) :
    calls 6 empty [.insert 0 v0, .insert 10 v10, .insert 20 v20, .insert 30 v30,
        .insert 40 v40]
      = some { m_root := some (BTreeNode.mk [(0, v0), (10, v10), (20, v20), (30, v30), (40, v40)]
          [none, none, none, none, none, none] []) } ∧
    insert 6 { m_root := some (BTreeNode.mk [(0, v0), (10, v10), (20, v20), (30, v30), (40, v40)]
          [none, none, none, none, none, none] []) } 35 v35
      = some ({ m_root := some (BTreeNode.mk [(30, v30)]
          [some (BTreeNode.mk [(0, v0), (10, v10), (20, v20)] [none, none, none, none]
              [none, none]),
           some (BTreeNode.mk [(35, v35), (40, v40)] [none, none, none] [none, none, none])]
          [none, none, none, none]) }, true) := by
  constructor
  · simp [calls, call, insert, internal_push_down_insert, push_down_node, push_down_branch,
      findKeyPositionFrom, insertAt, splitInsertAt, isFull, nbKeys, keys, m_branch, m_stale,
      MAXKEYS, empty]
  · simp [calls, call, insert, internal_push_down_insert, push_down_node, push_down_branch,
      findKeyPositionFrom, insertAt, splitInsertAt, isFull, nbKeys, keys, m_branch, m_stale,
      MAXKEYS, empty]

/-- C22: the contract of `BTreeNode::moveLeft`, for every order the class admits (an
order greater than 2).  The parent holds the keys `ks1 ++ sep :: ks2` and the branches
`bs1 ++ left :: right :: bs2` with as many branches in `bs1` as keys in `ks1`, so that
`r = ks1.length + 1 >= 1`, `sep` is `key(r-1)`, `left` is `branch(r-1)` and `right` is
`branch(r)`.  When the right child has more than MINKEYS keys and the left child is not
full, `moveLeft(r)` returns: the left child's keys are its old keys followed by `sep` and
its new last branch is the right child's old `branch(0)`; the parent's `key(r-1)` is the
right child's old first key, its other keys and branches are unchanged; the right child
is its old self without its first key and first branch.  The left child gains exactly one
key and still fits, the right child loses exactly one, and the parent's key count is
unchanged. -/
theorem moveLeft_contract (order : Nat) (h3 : 3 ≤ order) (ks1 ks2 : List (K × V))
    (sep first : K × V) (bs1 bs2 st : List (Option (BTreeNode K V)))
    (lks rks : List (K × V)) (lbr rbr lst rst : List (Option (BTreeNode K V)))
    (rb0 : Option (BTreeNode K V))
    (hlen : bs1.length = ks1.length)
    (hl : lbr.length = lks.length + 1)
    (hroom : lks.length < MAXKEYS order)
    (hmin : MINKEYS order < (first :: rks).length) :
    moveLeft order
        (BTreeNode.mk (ks1 ++ sep :: ks2)
          (bs1 ++ some (BTreeNode.mk lks lbr lst) ::
            some (BTreeNode.mk (first :: rks) (rb0 :: rbr) rst) :: bs2) st)
        (ks1.length + 1)
      = some (BTreeNode.mk (ks1 ++ first :: ks2)
          (bs1 ++ some (BTreeNode.mk (lks ++ [sep]) (lbr ++ [rb0]) (lst.drop 1)) ::
            some (BTreeNode.mk rks rbr (none :: rst)) :: bs2) st) ∧
      (BTreeNode.mk (lks ++ [sep]) (lbr ++ [rb0]) (lst.drop 1)).branch (lks.length + 1) = rb0 ∧
      (lks ++ [sep]).length = lks.length + 1 ∧
      (lks ++ [sep]).length ≤ MAXKEYS order ∧
      rks.length + 1 = (first :: rks).length ∧
      (ks1 ++ first :: ks2).length = (ks1 ++ sep :: ks2).length := by
  have htwo : 1 < (first :: rks).length := by
    simp only [MINKEYS, MAXKEYS] at hmin
    omega
  have hbl := branch_left (ks1 ++ sep :: ks2) bs1 (some (BTreeNode.mk lks lbr lst))
    (some (BTreeNode.mk (first :: rks) (rb0 :: rbr) rst) :: bs2) st ks1.length hlen.symm
  have hbr := branch_right (ks1 ++ sep :: ks2) bs1 (some (BTreeNode.mk lks lbr lst))
    (some (BTreeNode.mk (first :: rks) (rb0 :: rbr) rst)) bs2 st (ks1.length + 1)
    (by rw [hlen])
  have hsep : (ks1 ++ sep :: ks2).get? ks1.length = some sep :=
    get?_append_cons_length ks1 sep ks2
  have hb0 : (BTreeNode.mk (first :: rks) (rb0 :: rbr) rst).branch 0 = rb0 :=
    branch_left _ [] rb0 rbr rst 0 rfl
  refine ⟨?_, ?_, by simp, ?_, by simp, by simp⟩
  · simp only [moveLeft, Nat.add_one_ne_zero, ↓reduceIte, Nat.add_sub_cancel, hbl, hbr, hsep,
      BTreeNode.keys, BTreeNode.m_branch, BTreeNode.m_stale, nbKeys, hmin, shift_left, htwo,
      hb0, List.head?_cons, Nat.lt_irrefl, Nat.sub_self, List.eraseIdx_cons_zero,
      and_self, Nat.zero_lt_one, true_and]
    rw [set_append_cons_length ks1]
    simp only [← hlen, set_append_cons_length bs1, set_append_cons_succ_length bs1]
  · exact branch_left _ lbr rb0 [] _ _ hl.symm
  · simp only [List.length_append, List.length_singleton]; omega

theorem moveLeft_contract_witness :
    3 ≤ 6 ∧
      ([] : List (Option (BTreeNode Nat Nat))).length = ([] : List (Nat × Nat)).length ∧
      ([none, none] : List (Option (BTreeNode Nat Nat))).length = [(10, 1)].length + 1 ∧
      [(10, 1)].length < MAXKEYS 6 ∧
      MINKEYS 6 < ((35, 5) :: [(40, 4), (50, 6)]).length ∧
      moveLeft 6
        (BTreeNode.mk ([] ++ (30, 3) :: [])
          ([] ++ some (BTreeNode.mk [(10, 1)] [none, none] [none, none, none, none]) ::
            some (BTreeNode.mk ((35, 5) :: [(40, 4), (50, 6)]) (none :: [none, none, none])
              [none, none]) :: []) [none, none, none, none])
        (([] : List (Nat × Nat)).length + 1)
      = some (BTreeNode.mk ([] ++ (35, 5) :: [])
          ([] ++ some (BTreeNode.mk ([(10, 1)] ++ [(30, 3)]) ([none, none] ++ [none])
              ([none, none, none, none].drop 1)) ::
            some (BTreeNode.mk [(40, 4), (50, 6)] [none, none, none] (none :: [none, none])) ::
              []) [none, none, none, none]) :=
  ⟨by decide, rfl, rfl, by decide, by decide,
    (moveLeft_contract 6 (by decide) [] [] (30, 3) (35, 5) [] [] [none, none, none, none]
      [(10, 1)] [(40, 4), (50, 6)] [none, none] [none, none, none] [none, none, none, none]
      [none, none] none rfl rfl (by decide) (by decide)).1⟩

/-- C23: the contract of `BTreeNode::moveRight`.  The parent holds the keys
`ks1 ++ sep :: ks2` and the branches `bs1 ++ left :: right :: bs2` with as many branches
in `bs1` as keys in `ks1`, so that `l = ks1.length`, `sep` is `key(l)`, `left` is
`branch(l)` and `right` is `branch(l+1)`.  When the left child has more than MINKEYS keys
and the right child holds at least one key and is not full, `moveRight(l)` returns: the
right child's keys are `sep` followed by its old keys and its new `branch(0)` is the left
child's old last branch; the parent's `key(l)` is the left child's old last key, its other
keys and branches are unchanged; the left child is its old self without its last key.
The right child gains exactly one key and still fits, the left child loses exactly one,
and the parent's key count is unchanged. -/
theorem moveRight_contract (order : Nat) (ks1 ks2 : List (K × V)) (sep last rfirst : K × V)
    (bs1 bs2 st : List (Option (BTreeNode K V)))
    (lks rks : List (K × V)) (lbr rbr lst rst : List (Option (BTreeNode K V)))
    (lb : Option (BTreeNode K V))
    (hlen : bs1.length = ks1.length)
    (hl : lbr.length = lks.length + 1)
    (hmin : MINKEYS order < (lks ++ [last]).length)
    (hroom : (rfirst :: rks).length < MAXKEYS order) :
    moveRight order
        (BTreeNode.mk (ks1 ++ sep :: ks2)
          (bs1 ++ some (BTreeNode.mk (lks ++ [last]) (lbr ++ [lb]) lst) ::
            some (BTreeNode.mk (rfirst :: rks) rbr rst) :: bs2) st)
        ks1.length
      = some (BTreeNode.mk (ks1 ++ last :: ks2)
          (bs1 ++ some (BTreeNode.mk lks lbr (lb :: lst)) ::
            some (BTreeNode.mk (sep :: rfirst :: rks) (lb :: rbr) (rst.drop 1)) :: bs2) st) ∧
      (BTreeNode.mk (lks ++ [last]) (lbr ++ [lb]) lst).branch (lks ++ [last]).length = lb ∧
      (sep :: rfirst :: rks).length = (rfirst :: rks).length + 1 ∧
      (sep :: rfirst :: rks).length ≤ MAXKEYS order ∧
      lks.length + 1 = (lks ++ [last]).length ∧
      (ks1 ++ last :: ks2).length = (ks1 ++ sep :: ks2).length := by
  have hbl := branch_left (ks1 ++ sep :: ks2) bs1
    (some (BTreeNode.mk (lks ++ [last]) (lbr ++ [lb]) lst))
    (some (BTreeNode.mk (rfirst :: rks) rbr rst) :: bs2) st ks1.length hlen.symm
  have hbr := branch_right (ks1 ++ sep :: ks2) bs1
    (some (BTreeNode.mk (lks ++ [last]) (lbr ++ [lb]) lst))
    (some (BTreeNode.mk (rfirst :: rks) rbr rst)) bs2 st (ks1.length + 1) (by rw [hlen])
  have hsep : (ks1 ++ sep :: ks2).get? ks1.length = some sep :=
    get?_append_cons_length ks1 sep ks2
  have hb0 : (BTreeNode.mk (lks ++ [last]) (lbr ++ [lb]) lst).branch (lks ++ [last]).length
      = lb :=
    branch_left _ lbr lb [] lst _ (by simp [hl])
  refine ⟨?_, hb0, by simp, ?_, by simp, by simp⟩
  · have hpos : 0 < (rfirst :: rks).length := by simp
    simp only [moveRight, hbl, hbr, hsep, BTreeNode.keys, BTreeNode.m_branch,
      BTreeNode.m_stale, nbKeys, hmin, shift_right, hroom, hpos, hb0, ↓reduceIte, and_self,
      List.take_zero, List.drop_zero, List.nil_append, List.getLast?_append,
      List.getLast?_singleton, Option.or, List.dropLast_concat]
    rw [set_append_cons_length ks1]
    simp only [← hlen, set_append_cons_length bs1, set_append_cons_succ_length bs1]
  · simp only [List.length_cons] at hroom ⊢; omega

theorem moveRight_contract_witness :
    ([] : List (Option (BTreeNode Nat Nat))).length = ([] : List (Nat × Nat)).length ∧
      ([none, none, none] : List (Option (BTreeNode Nat Nat))).length
        = [(10, 1), (20, 2)].length + 1 ∧
      MINKEYS 6 < ([(10, 1), (20, 2)] ++ [(30, 3)]).length ∧
      ((50, 6) :: ([] : List (Nat × Nat))).length < MAXKEYS 6 ∧
      moveRight 6
        (BTreeNode.mk ([] ++ (35, 5) :: [])
          ([] ++ some (BTreeNode.mk ([(10, 1), (20, 2)] ++ [(30, 3)])
              ([none, none, none] ++ [none]) [none, none]) ::
            some (BTreeNode.mk ((50, 6) :: []) [none, none] [none, none, none, none]) :: [])
          [none, none, none, none])
        ([] : List (Nat × Nat)).length
      = some (BTreeNode.mk ([] ++ (30, 3) :: [])
          ([] ++ some (BTreeNode.mk [(10, 1), (20, 2)] [none, none, none]
              (none :: [none, none])) ::
            some (BTreeNode.mk ((35, 5) :: (50, 6) :: []) (none :: [none, none])
              ([none, none, none, none].drop 1)) :: []) [none, none, none, none]) :=
  ⟨rfl, rfl, by decide, by decide,
    (moveRight_contract 6 [] [] (35, 5) (30, 3) (50, 6) [] [] [none, none, none, none]
      [(10, 1), (20, 2)] [] [none, none, none] [none, none] [none, none]
      [none, none, none, none] none rfl rfl (by decide) (by decide)).1⟩

/-- C24: the contract of `BTreeNode::combine`.  The parent holds the keys
`ks1 ++ sep :: ks2` and the branches `bs1 ++ left :: right :: bs2` with as many branches
in `bs1` as keys in `ks1`, so that `r = ks1.length + 1 >= 1`, `sep` is `key(r-1)`, `left`
is `branch(r-1)` and `right` is `branch(r)`.  When the key counts of the two children sum
to less than MAXKEYS, `combine(r)` returns: the left child's keys are its old keys, then
`sep`, then all the keys of the old right child in order, with the right child's branches
appended after the left child's; the parent has lost `key(r-1)` and `branch(r)`, its later
keys and branches shifted left by one, and its key count has decreased by exactly 1; the
node returned is the former right child. -/
theorem combine_contract (order : Nat) (ks1 ks2 : List (K × V)) (sep : K × V)
    (bs1 bs2 st : List (Option (BTreeNode K V)))
    (lks rks : List (K × V)) (lbr rbr lst rst : List (Option (BTreeNode K V)))
    (hlen : bs1.length = ks1.length)
    (hl : lbr.length = lks.length + 1)
    (hr : rbr.length = rks.length + 1)
    (hsum : lks.length + rks.length < MAXKEYS order) :
    combine order
        (BTreeNode.mk (ks1 ++ sep :: ks2)
          (bs1 ++ some (BTreeNode.mk lks lbr lst) :: some (BTreeNode.mk rks rbr rst) :: bs2) st)
        (ks1.length + 1)
      = some (BTreeNode.mk (ks1 ++ ks2)
          (bs1 ++ some (BTreeNode.mk (lks ++ sep :: rks) (lbr ++ rbr)
            (lst.drop (rks.length + 1))) :: bs2) (none :: st),
          BTreeNode.mk rks rbr rst) ∧
      (lks ++ sep :: rks).length = lks.length + 1 + rks.length ∧
      (lks ++ sep :: rks).length ≤ MAXKEYS order ∧
      (lbr ++ rbr).length = (lks ++ sep :: rks).length + 1 ∧
      (ks1 ++ ks2).length + 1 = (ks1 ++ sep :: ks2).length := by
  have hbl := branch_left (ks1 ++ sep :: ks2) bs1 (some (BTreeNode.mk lks lbr lst))
    (some (BTreeNode.mk rks rbr rst) :: bs2) st ks1.length hlen.symm
  have hbr := branch_right (ks1 ++ sep :: ks2) bs1 (some (BTreeNode.mk lks lbr lst))
    (some (BTreeNode.mk rks rbr rst)) bs2 st (ks1.length + 1) (by rw [hlen])
  have hsep : (ks1 ++ sep :: ks2).get? ks1.length = some sep :=
    get?_append_cons_length ks1 sep ks2
  refine ⟨?_, ?_, ?_, ?_, ?_⟩
  · simp only [combine, Nat.add_one_ne_zero, ↓reduceIte, Nat.add_sub_cancel, hbl, hbr, hsep,
      BTreeNode.keys, BTreeNode.m_branch, BTreeNode.m_stale, nbKeys, hsum]
    rw [eraseIdx_append_cons_length ks1]
    simp only [← hlen, set_append_cons_length bs1, eraseIdx_append_cons_succ_length bs1]
  · simp only [List.length_append, List.length_cons]; omega
  · simp only [List.length_append, List.length_cons]; omega
  · simp only [List.length_append, List.length_cons]; omega
  · simp only [List.length_append, List.length_cons]; omega

theorem combine_contract_witness :
    ([] : List (Option (BTreeNode Nat Nat))).length = ([] : List (Nat × Nat)).length ∧
      ([none, none] : List (Option (BTreeNode Nat Nat))).length = [(10, 1)].length + 1 ∧
      ([none, none, none] : List (Option (BTreeNode Nat Nat))).length
        = [(35, 5), (50, 6)].length + 1 ∧
      [(10, 1)].length + [(35, 5), (50, 6)].length < MAXKEYS 6 ∧
      combine 6
        (BTreeNode.mk ([] ++ (30, 3) :: [])
          ([] ++ some (BTreeNode.mk [(10, 1)] [none, none] [none, none, none, none]) ::
            some (BTreeNode.mk [(35, 5), (50, 6)] [none, none, none] [none, none, none]) :: [])
          [none, none, none, none])
        (([] : List (Nat × Nat)).length + 1)
      = some (BTreeNode.mk ([] ++ [])
          ([] ++ some (BTreeNode.mk ([(10, 1)] ++ (30, 3) :: [(35, 5), (50, 6)])
              ([none, none] ++ [none, none, none])
              ([none, none, none, none].drop ([(35, 5), (50, 6)].length + 1))) :: [])
          (none :: [none, none, none, none]),
          BTreeNode.mk [(35, 5), (50, 6)] [none, none, none] [none, none, none]) :=
  ⟨rfl, rfl, rfl, by decide,
    (combine_contract 6 [] [] (30, 3) [] [] [none, none, none, none] [(10, 1)]
      [(35, 5), (50, 6)] [none, none] [none, none, none] [none, none, none, none]
      [none, none, none] rfl rfl rfl (by decide)).1⟩

/-- C36: a failing input of the insert-only trees at order 3.  The calls `insert` of
1, 2, 3, 4, 5, 6, 7 build the root {4} over the nodes {2} and {6}; the node {2} holds one
key and its branch slots 0 and 1 point to the leaves {1} and {3}, yet its slot 2, an index
greater than its key count, still points to the leaf {5}, which is slot 0 of the node
{6}: `splitInsertAt` handed the branch to the right half without clearing it. -/
theorem split_leaves_stale_branch_order3 :
    calls 3 (empty : BTree Nat Nat)
        [.insert 1 10, .insert 2 20, .insert 3 30, .insert 4 40, .insert 5 50, .insert 6 60,
          .insert 7 70] =
      some ⟨some (.mk [(4, 40)]
        [some (.mk [(2, 20)]
          [some (.mk [(1, 10)] [none, none] [none]), some (.mk [(3, 30)] [none, none] [none])]
          [some (.mk [(5, 50)] [none, none] [none])]),
         some (.mk [(6, 60)]
          [some (.mk [(5, 50)] [none, none] [none]), some (.mk [(7, 70)] [none, none] [none])]
          [none])]
        [none])⟩ ∧
    (BTreeNode.mk [(2, 20)]
        [some (.mk [(1, 10)] [none, none] [none]), some (.mk [(3, 30)] [none, none] [none])]
        [some (.mk [(5, 50)] [none, none] [none])] : BTreeNode Nat Nat).nbKeys = 1 ∧
    (BTreeNode.mk [(2, 20)]
        [some (.mk [(1, 10)] [none, none] [none]), some (.mk [(3, 30)] [none, none] [none])]
        [some (.mk [(5, 50)] [none, none] [none])] : BTreeNode Nat Nat).m_stale.get? 0 =
      some (some (.mk [(5, 50)] [none, none] [none])) := by
  refine ⟨?_, rfl, rfl⟩
  simp [calls, call, insert, internal_push_down_insert, push_down_node, push_down_branch,
    findKeyPositionFrom, insertAt, splitInsertAt, isFull, nbKeys, keys, m_branch, m_stale,
    MAXKEYS, empty]

/-- C38: failing inputs of the borrow from the left sibling at the orders 3 and 4
(`MINKEYS = 1`).  Order 3: the calls `insert` of 5, 6, 7, 4 build the root {6} over the
leaves {4, 5} and {7}; `remove(7)` empties the right leaf, `internal_restore` at position
1 sees the left sibling above `MINKEYS` and calls `moveRight(0)`, whose receiving child
holds zero keys, so the assertion `_begPos < nbKeys()` of `shift_right(0, ...)` fails and
`remove` does not return.  Order 4: the same with the calls `insert` of 10, 20, 30, 40,
the root {30} over the leaves {10, 20} and {40}, and `remove(40)`. -/
theorem moveRight_receiver_empty_orders_3_4 :
    (calls 3 (empty : BTree Nat Nat) [.insert 5 50, .insert 6 60, .insert 7 70, .insert 4 40] =
        some ⟨some (.mk [(6, 60)]
          [some (.mk [(4, 40), (5, 50)] [none, none, none] []),
            some (.mk [(7, 70)] [none, none] [none])] [none])⟩ ∧
      removeLeafData (.mk [(7, 70)] [none, none] [none] : BTreeNode Nat Nat) 0 =
        some (.mk [] [none] [none, none]) ∧
      (BTreeNode.mk [] [none] [none, none] : BTreeNode Nat Nat).nbKeys = 0 ∧
      shift_right 3 (.mk [] [none] [none, none] : BTreeNode Nat Nat) 0 (6, 60) none = none ∧
      moveRight 3 (.mk [(6, 60)]
          [some (.mk [(4, 40), (5, 50)] [none, none, none] []),
            some (.mk [] [none] [none, none])] [none] : BTreeNode Nat Nat) 0 = none ∧
      internal_restore 3 (.mk [(6, 60)]
          [some (.mk [(4, 40), (5, 50)] [none, none, none] []),
            some (.mk [] [none] [none, none])] [none] : BTreeNode Nat Nat) 1 = none ∧
      calls 3 (empty : BTree Nat Nat)
        [.insert 5 50, .insert 6 60, .insert 7 70, .insert 4 40, .remove 7] = none) ∧
    (calls 4 (empty : BTree Nat Nat)
          [.insert 10 1, .insert 20 2, .insert 30 3, .insert 40 4] =
        some ⟨some (.mk [(30, 3)]
          [some (.mk [(10, 1), (20, 2)] [none, none, none] [none]),
            some (.mk [(40, 4)] [none, none] [none, none])] [none, none])⟩ ∧
      removeLeafData (.mk [(40, 4)] [none, none] [none, none] : BTreeNode Nat Nat) 0 =
        some (.mk [] [none] [none, none, none]) ∧
      shift_right 4 (.mk [] [none] [none, none, none] : BTreeNode Nat Nat) 0 (30, 3) none =
        none ∧
      moveRight 4 (.mk [(30, 3)]
          [some (.mk [(10, 1), (20, 2)] [none, none, none] [none]),
            some (.mk [] [none] [none, none, none])] [none, none] : BTreeNode Nat Nat) 0 =
        none ∧
      internal_restore 4 (.mk [(30, 3)]
          [some (.mk [(10, 1), (20, 2)] [none, none, none] [none]),
            some (.mk [] [none] [none, none, none])] [none, none] : BTreeNode Nat Nat) 1 =
        none ∧
      calls 4 (empty : BTree Nat Nat)
        [.insert 10 1, .insert 20 2, .insert 30 3, .insert 40 4, .remove 40] = none) := by
  refine ⟨⟨?_, ?_, rfl, ?_, ?_, ?_, ?_⟩, ⟨?_, ?_, ?_, ?_, ?_, ?_⟩⟩
  all_goals
    simp [calls, call, insert, internal_push_down_insert, push_down_node, push_down_branch,
      findKeyPositionFrom, insertAt, splitInsertAt, isFull, nbKeys, keys, m_branch, m_stale,
      MAXKEYS, empty, remove, internal_recursive_remove, recursive_remove_node,
      recursive_remove_branch, restore_if_underflow, internal_restore, moveLeft, moveRight,
      combine, shift_left, shift_right, removeLeafData, copyInPredecessor, branch, MINKEYS]

/-- C37 as stated fails: on the empty tree, which has no root to be split, `insert(1, 10)`
at order 3 makes the leaf {1} the root, and the height goes from 0 to 1. -/
theorem insert_into_empty_grows_without_split :
    (empty : BTree Nat Nat).m_root = none ∧
      UniformPtr 0 (empty : BTree Nat Nat).m_root ∧
      insert 3 (empty : BTree Nat Nat) 1 10 =
        some (⟨some (.mk [(1, 10)] [none, none] [none])⟩, true) ∧
      UniformPtr 1 (some (.mk [(1, 10)] [none, none] [none]) : Option (BTreeNode Nat Nat)) ∧
      ¬ UniformPtr 0 (some (.mk [(1, 10)] [none, none] [none]) : Option (BTreeNode Nat Nat)) := by
  refine ⟨rfl, ?_, ?_, ?_, ?_⟩
  · simp [empty, UniformPtr]
  · simp [insert, internal_push_down_insert, insertAt, nbKeys, keys, m_branch, m_stale,
      MAXKEYS, empty]
  · rw [uniformPtr_some]
    simp [m_branch, uniformPtr_none]
  · rw [uniformPtr_some]
    simp

/-- C37 (amended): the BTree stays perfectly height-balanced.  For every order >= 3 and
every tree reached from the empty tree by calls that return, the leaves are on one level,
at a height `h` that is the only one (0 for the empty tree).  An `insert` that returns
leaves a tree of height `h + 1` when the tree was empty or its root was split
(`internal_push_down_insert` reports an overflow at the root node) and of height `h`
otherwise; a `remove` that returns leaves a tree of height `h - 1` when the root is left
with zero keys and of height `h` otherwise. -/
theorem btree_height_changes [LinearOrder K] (order : Nat) (h3 : 3 ≤ order)
    (cs : List (Call K V)) (t : BTree K V)
    (hc : calls order (empty : BTree K V) cs = some t) :
    ∃ h, UniformPtr h t.m_root ∧ (∀ h1, UniformPtr h1 t.m_root → h1 = h) ∧
      (∀ key val t1 ret, insert order t key val = some (t1, ret) →
        ((t.m_root = none ∨ ∃ root c m r, t.m_root = some root ∧
            push_down_node order key val root = some (.ERCode_Insert_Overflow c m r)) →
          UniformPtr (h + 1) t1.m_root ∧ ∀ h1, UniformPtr h1 t1.m_root → h1 = h + 1) ∧
        ((¬ (t.m_root = none ∨ ∃ root c m r, t.m_root = some root ∧
            push_down_node order key val root = some (.ERCode_Insert_Overflow c m r))) →
          UniformPtr h t1.m_root ∧ ∀ h1, UniformPtr h1 t1.m_root → h1 = h)) ∧
      (∀ key t1, remove order t key = some t1 →
        ((∃ n, internal_recursive_remove order t.m_root key = some (some n, true) ∧
            n.nbKeys = 0) →
          0 < h ∧ UniformPtr (h - 1) t1.m_root ∧ ∀ h1, UniformPtr h1 t1.m_root → h1 = h - 1) ∧
        ((¬ ∃ n, internal_recursive_remove order t.m_root key = some (some n, true) ∧
            n.nbKeys = 0) →
          UniformPtr h t1.m_root ∧ ∀ h1, UniformPtr h1 t1.m_root → h1 = h)) := by
  obtain ⟨hw, hs, h, hu⟩ := btree_reachable_invariant order h3 cs t hc
  refine ⟨h, hu, fun h1 hu1 => uniformPtr_unique order _ h h1 hw hu hu1, ?_, ?_⟩
  · intro key val t1 ret hi
    obtain ⟨a1, a2⟩ := insert_height order t t1 key val ret h hu hi
    rw [root_overflow_iff] at a1 a2
    have hw1 : WFPtr order t1.m_root :=
      (btree_call_invariant order h3 (Call.insert key val) t t1 hw hs ⟨h, hu⟩
        (by simp only [call, hi])).1
    exact ⟨fun e => ⟨a1 e, fun h1 hu1 => uniformPtr_unique order _ _ h1 hw1 (a1 e) hu1⟩,
      fun e => ⟨a2 e, fun h1 hu1 => uniformPtr_unique order _ _ h1 hw1 (a2 e) hu1⟩⟩
  · intro key t1 hr
    obtain ⟨a1, a2⟩ := remove_height order h3 t t1 key h hw hs hu hr
    have hw1 : WFPtr order t1.m_root :=
      (btree_call_invariant order h3 (Call.remove key) t t1 hw hs ⟨h, hu⟩
        (by simp only [call, hr])).1
    exact ⟨fun e => ⟨(a1 e).1, (a1 e).2,
        fun h1 hu1 => uniformPtr_unique order _ _ h1 hw1 (a1 e).2 hu1⟩,
      fun e => ⟨a2 e, fun h1 hu1 => uniformPtr_unique order _ _ h1 hw1 (a2 e) hu1⟩⟩

theorem btree_height_changes_witness :
    3 ≤ 6 ∧ calls 6 (empty : BTree Nat Nat) scenarioSplitCalls = some scenarioSplitTree ∧
    ∃ h, UniformPtr h scenarioSplitTree.m_root ∧
      (∀ h1, UniformPtr h1 scenarioSplitTree.m_root → h1 = h) ∧
      (∀ key val t1 ret, insert 6 scenarioSplitTree key val = some (t1, ret) →
        ((scenarioSplitTree.m_root = none ∨ ∃ root c m r,
            scenarioSplitTree.m_root = some root ∧
            push_down_node 6 key val root = some (.ERCode_Insert_Overflow c m r)) →
          UniformPtr (h + 1) t1.m_root ∧ ∀ h1, UniformPtr h1 t1.m_root → h1 = h + 1) ∧
        ((¬ (scenarioSplitTree.m_root = none ∨ ∃ root c m r,
            scenarioSplitTree.m_root = some root ∧
            push_down_node 6 key val root = some (.ERCode_Insert_Overflow c m r))) →
          UniformPtr h t1.m_root ∧ ∀ h1, UniformPtr h1 t1.m_root → h1 = h)) ∧
      (∀ key t1, remove 6 scenarioSplitTree key = some t1 →
        ((∃ n, internal_recursive_remove 6 scenarioSplitTree.m_root key = some (some n, true) ∧
            n.nbKeys = 0) →
          0 < h ∧ UniformPtr (h - 1) t1.m_root ∧ ∀ h1, UniformPtr h1 t1.m_root → h1 = h - 1) ∧
        ((¬ ∃ n, internal_recursive_remove 6 scenarioSplitTree.m_root key =
            some (some n, true) ∧ n.nbKeys = 0) →
          UniformPtr h t1.m_root ∧ ∀ h1, UniformPtr h1 t1.m_root → h1 = h)) :=
  have ha : calls 6 (empty : BTree Nat Nat) scenarioSplitCalls = some scenarioSplitTree := by
    simp [scenarioSplitCalls, scenarioSplitTree, calls, call, insert, internal_push_down_insert,
      push_down_node, push_down_branch, findKeyPositionFrom, insertAt, splitInsertAt, isFull,
      nbKeys, keys, m_branch, m_stale, MAXKEYS, empty]
  ⟨by decide, ha, btree_height_changes 6 (by decide) scenarioSplitCalls scenarioSplitTree ha⟩

end BTree

/-! ## Theorems: BTree in the free store -/

namespace BTreeStore

open BTreeNode BTree

variable {K V : Type}

theorem store_write_same (s : Store K V) (a : Nat) (n : NodeObject K V) :
    (s.write a n) a = some n := by
  simp [Store.write]

theorem store_write_other (s : Store K V) (a x : Nat) (n : NodeObject K V) (h : x ≠ a) :
    (s.write a n) x = s x := by
  simp [Store.write, h]

theorem store_free_other (s : Store K V) (a x : Nat) (h : x ≠ a) : (s.free a) x = s x := by
  simp [Store.free, h]

theorem deref_eq_of_ne_zero (s : Store K V) (p : Nat) (h : p ≠ 0) : deref s p = s p := by
  simp [deref, h]

theorem deref_null (s : Store K V) : deref s 0 = none := by
  simp [deref]

theorem holdsNode_mk (s : Store K V) (p : Nat) (ks : List (K × V))
    (br st : List (Option (BTreeNode K V))) (F : List Nat) :
    HoldsNode s p (BTreeNode.mk ks br st) F ↔
      p ≠ 0 ∧ ∃ pbr pst G, s p = some ⟨ks, pbr, pst⟩ ∧ HoldsList s pbr br G ∧ F = p :: G := by
  rw [HoldsNode]

theorem holdsList_nil (s : Store K V) (ps : List Nat) (F : List Nat) :
    HoldsList s ps ([] : List (Option (BTreeNode K V))) F ↔ ps = [] ∧ F = [] := by
  rw [HoldsList]

theorem holdsList_cons (s : Store K V) (ps : List Nat) (b : Option (BTreeNode K V))
    (bs : List (Option (BTreeNode K V))) (F : List Nat) :
    HoldsList s ps (b :: bs) F ↔
      ∃ q qs F1 F2, ps = q :: qs ∧ HoldsPtr s q b F1 ∧ HoldsList s qs bs F2 ∧ F = F1 ++ F2 := by
  rw [HoldsList]

theorem holdsPtr_none (s : Store K V) (q : Nat) (F : List Nat) :
    HoldsPtr s q (none : Option (BTreeNode K V)) F ↔ q = 0 ∧ F = [] := by
  rw [HoldsPtr]

theorem holdsPtr_some (s : Store K V) (q : Nat) (n : BTreeNode K V) (F : List Nat) :
    HoldsPtr s q (some n) F ↔ HoldsNode s q n F := by
  rw [HoldsPtr]

/-- The slot-by-slot form of `HoldsList` for a list that is built by `cons`. -/
theorem holdsList_cons_cons (s : Store K V) (q : Nat) (qs : List Nat)
    (b : Option (BTreeNode K V)) (bs : List (Option (BTreeNode K V))) (F1 F2 : List Nat)
    (h1 : HoldsPtr s q b F1) (h2 : HoldsList s qs bs F2) :
    HoldsList s (q :: qs) (b :: bs) (F1 ++ F2) := by
  rw [holdsList_cons]
  exact ⟨q, qs, F1, F2, rfl, h1, h2, rfl⟩

theorem holdsList_length (s : Store K V) (bs : List (Option (BTreeNode K V))) :
    ∀ (ps F : List Nat), HoldsList s ps bs F → ps.length = bs.length := by
  induction bs with
  | nil => intro ps F h; rw [holdsList_nil] at h; rw [h.1]; rfl
  | cons b bs ih =>
    intro ps F h
    rw [holdsList_cons] at h
    obtain ⟨q, qs, F1, F2, e, _, h2, _⟩ := h
    subst e
    simp [ih qs F2 h2]

theorem holdsList_append (s : Store K V) (bs1 bs2 : List (Option (BTreeNode K V))) :
    ∀ (ps1 ps2 F1 F2 : List Nat), HoldsList s ps1 bs1 F1 → HoldsList s ps2 bs2 F2 →
      HoldsList s (ps1 ++ ps2) (bs1 ++ bs2) (F1 ++ F2) := by
  induction bs1 with
  | nil =>
    intro ps1 ps2 F1 F2 h1 h2
    rw [holdsList_nil] at h1
    rw [h1.1, h1.2]
    exact h2
  | cons b bs ih =>
    intro ps1 ps2 F1 F2 h1 h2
    rw [holdsList_cons] at h1
    obtain ⟨q, qs, G1, G2, e, hq, hqs, eF⟩ := h1
    subst e; subst eF
    have := holdsList_cons_cons s q (qs ++ ps2) b (bs ++ bs2) G1 (G2 ++ F2) hq
      (ih qs ps2 G2 F2 hqs h2)
    simpa using this

theorem holdsList_of_append (s : Store K V) (bs1 bs2 : List (Option (BTreeNode K V))) :
    ∀ (ps F : List Nat), HoldsList s ps (bs1 ++ bs2) F →
      ∃ ps1 ps2 F1 F2, ps = ps1 ++ ps2 ∧ F = F1 ++ F2 ∧ ps1.length = bs1.length ∧
        HoldsList s ps1 bs1 F1 ∧ HoldsList s ps2 bs2 F2 := by
  induction bs1 with
  | nil =>
    intro ps F h
    exact ⟨[], ps, [], F, rfl, rfl, rfl, (holdsList_nil s [] []).2 ⟨rfl, rfl⟩, h⟩
  | cons b bs ih =>
    intro ps F h
    rw [List.cons_append, holdsList_cons] at h
    obtain ⟨q, qs, G1, G2, e, hq, hqs, eF⟩ := h
    obtain ⟨ps1, ps2, F1, F2, e1, e2, e3, h1, h2⟩ := ih qs G2 hqs
    subst e; subst eF; subst e1; subst e2
    exact ⟨q :: ps1, ps2, G1 ++ F1, F2, rfl, by simp, by simp [e3],
      holdsList_cons_cons s q ps1 b bs G1 F1 hq h1, h2⟩

/-- The parts of a list of held subtrees around one slot. -/
theorem holdsList_of_append_cons (s : Store K V) (bs1 : List (Option (BTreeNode K V)))
    (b : Option (BTreeNode K V)) (bs2 : List (Option (BTreeNode K V))) (ps F : List Nat)
    (h : HoldsList s ps (bs1 ++ b :: bs2) F) :
    ∃ ps1 q ps2 F1 Fq F2, ps = ps1 ++ q :: ps2 ∧ F = F1 ++ (Fq ++ F2) ∧
      ps1.length = bs1.length ∧ HoldsList s ps1 bs1 F1 ∧ HoldsPtr s q b Fq ∧
      HoldsList s ps2 bs2 F2 := by
  obtain ⟨ps1, ps2, F1, F2, e1, e2, e3, h1, h2⟩ := holdsList_of_append s bs1 (b :: bs2) ps F h
  rw [holdsList_cons] at h2
  obtain ⟨q, qs, G1, G2, e, hq, hqs, eF⟩ := h2
  subst e; subst eF
  exact ⟨ps1, q, qs, F1, G1, G2, e1, e2, e3, h1, hq, hqs⟩

theorem holdsList_append_cons (s : Store K V) (bs1 : List (Option (BTreeNode K V)))
    (b : Option (BTreeNode K V)) (bs2 : List (Option (BTreeNode K V)))
    (ps1 : List Nat) (q : Nat) (ps2 F1 Fq F2 : List Nat)
    (h1 : HoldsList s ps1 bs1 F1) (hq : HoldsPtr s q b Fq) (h2 : HoldsList s ps2 bs2 F2) :
    HoldsList s (ps1 ++ q :: ps2) (bs1 ++ b :: bs2) (F1 ++ (Fq ++ F2)) :=
  holdsList_append s bs1 (b :: bs2) ps1 (q :: ps2) F1 (Fq ++ F2) h1
    (holdsList_cons_cons s q ps2 b bs2 Fq F2 hq h2)

/-- A list of held subtrees is held in a store that agrees on their nodes, when each of
the subtrees is. -/
theorem holdsList_frame_of (s s1 : Store K V) (bs : List (Option (BTreeNode K V)))
    (hb : ∀ c, some c ∈ bs → ∀ (q : Nat) (F : List Nat), HoldsNode s q c F →
      (∀ x ∈ F, s1 x = s x) → HoldsNode s1 q c F) :
    ∀ (ps F : List Nat), HoldsList s ps bs F → (∀ x ∈ F, s1 x = s x) →
      HoldsList s1 ps bs F := by
  induction bs with
  | nil => intro ps F h _; rw [holdsList_nil] at h ⊢; exact h
  | cons b bs ih =>
    intro ps F h hf
    rw [holdsList_cons] at h ⊢
    obtain ⟨q, qs, F1, F2, e, hq, hqs, eF⟩ := h
    subst eF
    refine ⟨q, qs, F1, F2, e, ?_, ih (fun c hc => hb c (List.mem_cons_of_mem _ hc)) qs F2 hqs
      (fun x hx => hf x (by simp [hx])), rfl⟩
    cases b with
    | none => rw [holdsPtr_none] at hq ⊢; exact hq
    | some c =>
      rw [holdsPtr_some] at hq ⊢
      exact hb c (List.mem_cons_self _ _) q F1 hq (fun x hx => hf x (by simp [hx]))

/-- A store that agrees with `s` on the nodes of a subtree holds the same subtree. -/
theorem holdsNode_frame (s s1 : Store K V) (n : BTreeNode K V) :
    ∀ (p : Nat) (F : List Nat), HoldsNode s p n F → (∀ x ∈ F, s1 x = s x) →
      HoldsNode s1 p n F := by
  induction n using node_induct with
  | h ks br st ih =>
    intro p F h hf
    rw [holdsNode_mk] at h ⊢
    obtain ⟨hp, pbr, pst, G, hc, hl, eF⟩ := h
    subst eF
    refine ⟨hp, pbr, pst, G, ?_, ?_, rfl⟩
    · rw [hf p (List.mem_cons_self _ _)]; exact hc
    · exact holdsList_frame_of s s1 br (fun c hc => ih c hc) pbr G hl
        (fun x hx => hf x (List.mem_cons_of_mem _ hx))

theorem holdsPtr_frame (s s1 : Store K V) (b : Option (BTreeNode K V)) (q : Nat)
    (F : List Nat) (h : HoldsPtr s q b F) (hf : ∀ x ∈ F, s1 x = s x) : HoldsPtr s1 q b F := by
  cases b with
  | none => rw [holdsPtr_none] at h ⊢; exact h
  | some c => rw [holdsPtr_some] at h ⊢; exact holdsNode_frame s s1 c q F h hf

theorem holdsList_frame (s s1 : Store K V) (bs : List (Option (BTreeNode K V)))
    (ps F : List Nat) (h : HoldsList s ps bs F) (hf : ∀ x ∈ F, s1 x = s x) :
    HoldsList s1 ps bs F :=
  holdsList_frame_of s s1 bs (fun c _ => holdsNode_frame s s1 c) ps F h hf

theorem holdsList_live_of (s : Store K V) (bs : List (Option (BTreeNode K V)))
    (hb : ∀ c, some c ∈ bs → ∀ (q : Nat) (F : List Nat), HoldsNode s q c F →
      ∀ x ∈ F, x ≠ 0 ∧ s x ≠ none) :
    ∀ (ps F : List Nat), HoldsList s ps bs F → ∀ x ∈ F, x ≠ 0 ∧ s x ≠ none := by
  induction bs with
  | nil => intro ps F h x hx; rw [holdsList_nil] at h; rw [h.2] at hx; simp at hx
  | cons b bs ih =>
    intro ps F h x hx
    rw [holdsList_cons] at h
    obtain ⟨q, qs, F1, F2, e, hq, hqs, eF⟩ := h
    subst eF
    rcases List.mem_append.1 hx with h1 | h1
    · cases b with
      | none => rw [holdsPtr_none] at hq; rw [hq.2] at h1; simp at h1
      | some c =>
        rw [holdsPtr_some] at hq
        exact hb c (List.mem_cons_self _ _) q F1 hq x h1
    · exact ih (fun c hc => hb c (List.mem_cons_of_mem _ hc)) qs F2 hqs x h1

/-- The nodes of a subtree the store holds are objects at non-null addresses. -/
theorem holdsNode_live (s : Store K V) (n : BTreeNode K V) :
    ∀ (p : Nat) (F : List Nat), HoldsNode s p n F → ∀ x ∈ F, x ≠ 0 ∧ s x ≠ none := by
  induction n using node_induct with
  | h ks br st ih =>
    intro p F h x hx
    rw [holdsNode_mk] at h
    obtain ⟨hp, pbr, pst, G, hc, hl, eF⟩ := h
    subst eF
    rcases List.mem_cons.1 hx with e | e
    · subst e; exact ⟨hp, by rw [hc]; simp⟩
    · exact holdsList_live_of s br (fun c hc => ih c hc) pbr G hl x e

theorem holdsList_live (s : Store K V) (bs : List (Option (BTreeNode K V))) (ps F : List Nat)
    (h : HoldsList s ps bs F) : ∀ x ∈ F, x ≠ 0 ∧ s x ≠ none :=
  holdsList_live_of s bs (fun c _ => holdsNode_live s c) ps F h

theorem holdsPtr_write (s : Store K V) (b : Option (BTreeNode K V)) (q : Nat) (F : List Nat)
    (a : Nat) (o : NodeObject K V) (h : HoldsPtr s q b F) (ha : a ∉ F) :
    HoldsPtr (s.write a o) q b F :=
  holdsPtr_frame s _ b q F h (fun x hx => store_write_other s a x o (fun e => ha (e ▸ hx)))

theorem holdsList_write (s : Store K V) (bs : List (Option (BTreeNode K V))) (ps F : List Nat)
    (a : Nat) (o : NodeObject K V) (h : HoldsList s ps bs F) (ha : a ∉ F) :
    HoldsList (s.write a o) ps bs F :=
  holdsList_frame s _ bs ps F h (fun x hx => store_write_other s a x o (fun e => ha (e ▸ hx)))

theorem holdsNode_write (s : Store K V) (n : BTreeNode K V) (q : Nat) (F : List Nat)
    (a : Nat) (o : NodeObject K V) (h : HoldsNode s q n F) (ha : a ∉ F) :
    HoldsNode (s.write a o) q n F :=
  holdsNode_frame s _ n q F h (fun x hx => store_write_other s a x o (fun e => ha (e ▸ hx)))

theorem holdsPtr_free (s : Store K V) (b : Option (BTreeNode K V)) (q : Nat) (F : List Nat)
    (a : Nat) (h : HoldsPtr s q b F) (ha : a ∉ F) : HoldsPtr (s.free a) q b F :=
  holdsPtr_frame s _ b q F h (fun x hx => store_free_other s a x (fun e => ha (e ▸ hx)))

theorem holdsNode_free (s : Store K V) (n : BTreeNode K V) (q : Nat) (F : List Nat)
    (a : Nat) (h : HoldsNode s q n F) (ha : a ∉ F) : HoldsNode (s.free a) q n F :=
  holdsNode_frame s _ n q F h (fun x hx => store_free_other s a x (fun e => ha (e ▸ hx)))

/-- A held pointer is null exactly when it holds no node. -/
theorem holdsPtr_eq_zero_iff (s : Store K V) (b : Option (BTreeNode K V)) (q : Nat)
    (F : List Nat) (h : HoldsPtr s q b F) : q = 0 ↔ b = none := by
  cases b with
  | none => rw [holdsPtr_none] at h; simp [h.1]
  | some c =>
    cases c with
    | mk ks br st =>
      rw [holdsPtr_some, holdsNode_mk] at h
      simp [h.1]

theorem holdsNode_root_mem (s : Store K V) (n : BTreeNode K V) (p : Nat) (F : List Nat)
    (h : HoldsNode s p n F) : p ∈ F := by
  cases n with
  | mk ks br st =>
    rw [holdsNode_mk] at h
    obtain ⟨_, _, _, G, _, _, eF⟩ := h
    rw [eF]; exact List.mem_cons_self _ _

/-- The object at a held node. -/
theorem holdsNode_deref (s : Store K V) (ks : List (K × V))
    (br st : List (Option (BTreeNode K V))) (p : Nat) (F : List Nat)
    (h : HoldsNode s p (BTreeNode.mk ks br st) F) :
    ∃ pbr pst G, deref s p = some ⟨ks, pbr, pst⟩ ∧ s p = some ⟨ks, pbr, pst⟩ ∧ p ≠ 0 ∧
      HoldsList s pbr br G ∧ F = p :: G := by
  rw [holdsNode_mk] at h
  obtain ⟨hp, pbr, pst, G, hc, hl, eF⟩ := h
  exact ⟨pbr, pst, G, by rw [deref_eq_of_ne_zero s p hp]; exact hc, hc, hp, hl, eF⟩

theorem object_branch_left (ks : List (K × V)) (ps1 : List Nat) (q : Nat) (ps2 pst : List Nat)
    (i : Nat) (hi : i = ps1.length) :
    (NodeObject.mk ks (ps1 ++ q :: ps2) pst).branch i = q := by
  subst hi
  simp only [NodeObject.branch, List.getD_eq_getElem?_getD, List.append_assoc, List.cons_append]
  rw [List.getElem?_append_right (Nat.le_refl _)]
  simp

theorem object_branch_right (ks : List (K × V)) (ps1 : List Nat) (a q : Nat) (ps2 pst : List Nat)
    (i : Nat) (hi : i = ps1.length + 1) :
    (NodeObject.mk ks (ps1 ++ a :: q :: ps2) pst).branch i = q := by
  subst hi
  have := object_branch_left ks (ps1 ++ [a]) q ps2 pst (ps1.length + 1) (by simp)
  simpa using this

theorem nodup_cons_append3 (p : Nat) (F1 Fq F2 : List Nat)
    (h : (p :: (F1 ++ (Fq ++ F2))).Nodup) :
    p ∉ F1 ∧ p ∉ Fq ∧ p ∉ F2 ∧ F1.Nodup ∧ Fq.Nodup ∧ F2.Nodup ∧
      (∀ x ∈ Fq, x ∉ F1 ∧ x ∉ F2) ∧ (∀ x ∈ F1, x ∉ F2) := by
  simp only [List.nodup_cons, List.nodup_append, List.mem_append, not_or,
    List.Disjoint] at h
  obtain ⟨⟨h1, h2, h3⟩, h4, ⟨h5, h6, h7⟩, h8⟩ := h
  refine ⟨h1, h2, h3, h4, h5, h6, fun x hx => ⟨fun hx1 => h8 hx1 (Or.inl hx), fun hx2 => h7 hx hx2⟩,
    fun x hx hx2 => h8 hx (Or.inr hx2)⟩

/-- A list whose elements occur no more often than in a list without duplicates has no
duplicates. -/
theorem nodup_of_count_le (F1 F : List Nat) (h : ∀ x, F1.count x ≤ F.count x) (hn : F.Nodup) :
    F1.Nodup := by
  rw [List.nodup_iff_count_le_one] at hn ⊢
  exact fun x => le_trans (h x) (hn x)

theorem mem_of_count_le (F1 F : List Nat) (h : ∀ x, F1.count x ≤ F.count x) (x : Nat)
    (hx : x ∈ F1) : x ∈ F := by
  have := List.count_pos_iff.2 hx
  exact List.count_pos_iff.1 (lt_of_lt_of_le this (h x))

theorem findAgrees_none [LinearOrder K] (order : Nat) (key : K) (s : Store K V) :
    FindAgrees order key s (none : Option (BTreeNode K V)) := by
  intro fuel h q F hh _ _ hf
  rw [holdsPtr_none] at hh
  obtain ⟨e, _⟩ := hh
  subst e
  cases fuel with
  | zero => omega
  | succ f =>
    refine ⟨fun _ => by simp [internal_find], fun m pos hm => ?_⟩
    simp [BTree.internal_find] at hm

theorem findAgrees_node [LinearOrder K] (order : Nat) (key : K) (s : Store K V)
    (n : BTreeNode K V) : FindAgrees order key s (some n) := by
  induction n using node_induct with
  | h ks br st ih =>
    intro fuel h p F hh hw hu hf
    rw [holdsPtr_some] at hh
    obtain ⟨pbr, pst, G, hd, hc, hp, hl, eF⟩ := holdsNode_deref s ks br st p F hh
    simp only [WFPtr] at hw
    rw [wf_mk] at hw
    obtain ⟨hlen, hbr, hwl⟩ := hw
    rw [uniformPtr_some] at hu
    obtain ⟨hpos, hu⟩ := hu
    simp only [BTreeNode.m_branch] at hu
    cases fuel with
    | zero => omega
    | succ f =>
      obtain ⟨ks1, ks2, e, hposn, hlt, hfound, hnotfound⟩ := findKeyPositionFrom_spec key ks 0
      simp only [zero_add] at hposn
      cases hfk : findKeyPositionFrom key ks 0 with
      | mk found pos =>
        rw [hfk] at hposn hfound hnotfound
        simp only at hposn hfound hnotfound
        subst hposn
        cases found with
        | true =>
          obtain ⟨v, rest, e2⟩ := hfound rfl
          subst e2
          subst e
          refine ⟨fun h0 => ?_, fun m pos hm => ?_⟩
          · simp [BTree.internal_find, internal_find_node, hfk] at h0
          · simp only [BTree.internal_find, internal_find_node, hfk, Option.some.injEq,
              Prod.mk.injEq] at hm
            obtain ⟨e1, e2⟩ := hm
            subst e1; subst e2
            refine ⟨by simp [BTreeNode.keys], p, pbr, pst, ?_, ?_⟩
            · simp only [internal_find, hp, ↓reduceIte, hd, hfk]
            · simpa [BTreeNode.keys] using hd
        | false =>
          obtain ⟨bs1, b, bs2, eb, hb1⟩ := exists_append_cons_of_lt_length br ks1.length
            (by rw [hbr, e]; simp; omega)
          subst eb
          obtain ⟨ps1, q, ps2, F1, Fq, F2, e1, e2, e3, h1, hq, h2⟩ :=
            holdsList_of_append_cons s bs1 b bs2 pbr G hl
          subst e1
          have hbranch : (NodeObject.mk ks (ps1 ++ q :: ps2) pst).branch ks1.length = q :=
            object_branch_left ks ps1 q ps2 pst ks1.length (by rw [e3, hb1])
          have hv : BTree.internal_find key (some (BTreeNode.mk ks (bs1 ++ b :: bs2) st)) =
              BTree.internal_find key b := by
            simp only [BTree.internal_find, internal_find_node, hfk, internal_find_branch_eq]
            rw [← hb1, get?_append_cons_length]
          have hs : internal_find key (f + 1) s p = internal_find key f s q := by
            simp only [internal_find, hp, ↓reduceIte, hd, hfk, hbranch]
          rw [hv, hs]
          have hwb := hwl b (by simp)
          have hub := hu b (by simp)
          cases b with
          | none => exact findAgrees_none order key s f (h - 1) q Fq hq hwb hub (by
              rw [uniformPtr_none] at hub; omega)
          | some c =>
            exact ih c (by simp) f (h - 1) q Fq hq hwb hub (by omega)

theorem internal_find_holds [LinearOrder K] (order : Nat) (key : K) (s : Store K V)
    (b : Option (BTreeNode K V)) : FindAgrees order key s b := by
  cases b with
  | none => exact findAgrees_none order key s
  | some n => exact findAgrees_node order key s n

/-- `find` on a tree the store holds returns what `find` returns on the tree as a value. -/
theorem btree_find_holds [LinearOrder K] (order fuel h : Nat) (key : K) (s : Store K V)
    (t : TreeObject) (tv : Option (BTreeNode K V)) (F : List Nat)
    (hh : HoldsPtr s t.m_root tv F) (hw : WFPtr order tv) (hu : UniformPtr h tv)
    (hf : h < fuel) :
    find fuel s t key = some (BTree.find { m_root := tv } key) := by
  obtain ⟨h1, h2⟩ := internal_find_holds order key s tv fuel h t.m_root F hh hw hu hf
  cases hv : BTree.internal_find key tv with
  | none =>
    simp only [find, h1 hv, BTree.find, hv]
  | some r =>
    obtain ⟨m, pos⟩ := r
    obtain ⟨hlt, r, pbr, pst, e1, e2⟩ := h2 m pos hv
    obtain ⟨kv, hkv⟩ : ∃ kv, m.keys.get? pos = some kv :=
      ⟨m.keys.get ⟨pos, hlt⟩, List.get?_eq_get hlt⟩
    simp only [find, e1, e2, BTree.find, hv, hkv]

/-- The find results of a tree depend on its nodes only. -/
theorem find_frame [LinearOrder K] (order fuel h : Nat) (key : K) (s s1 : Store K V)
    (t : TreeObject) (tv : Option (BTreeNode K V)) (F : List Nat)
    (hh : HoldsPtr s t.m_root tv F) (hw : WFPtr order tv) (hu : UniformPtr h tv)
    (hf : h < fuel) (hs : ∀ x ∈ F, s1 x = s x) :
    find fuel s1 t key = find fuel s t key := by
  rw [btree_find_holds order fuel h key s t tv F hh hw hu hf,
    btree_find_holds order fuel h key s1 t tv F (holdsPtr_frame s s1 tv _ F hh hs) hw hu hf]

theorem descendantsList_cons (b : Option (BTreeNode K V)) (bs : List (Option (BTreeNode K V))) :
    descendantsList (b :: bs) = descendantsPtr b ++ descendantsList bs := by
  rw [descendantsList]

theorem descendantsPtr_some (ks : List (K × V)) (br st : List (Option (BTreeNode K V))) :
    descendantsPtr (some (BTreeNode.mk ks br st)) =
      BTreeNode.mk ks br st :: descendantsList br := by
  rw [descendantsPtr, descendants]

theorem copyAgrees_none (order : Nat) : CopyAgrees order (none : Option (BTreeNode K V)) := by
  intro fuel h addrs s q F hh _ _ hf _ _ _
  rw [holdsPtr_none] at hh
  obtain ⟨e, _⟩ := hh
  subst e
  cases fuel with
  | zero => omega
  | succ f =>
    refine ⟨s, 0, by simp [copy, descendantsPtr], ?_, fun _ _ => rfl⟩
    simp only [BTree.copy, descendantsPtr, List.length_nil, List.take_zero]
    rw [holdsPtr_none]
    exact ⟨rfl, rfl⟩

/-- The loop of `copy` over the branch slots that are left, when the calls of `copy` on
them do what `CopyAgrees` says. -/
theorem copy_loop_holds (order fuel h : Nat) (ks : List (K × V)) (zst pst : List Nat)
    (p c : Nat) (bs2 : List (Option (BTreeNode K V))) :
    (∀ b ∈ bs2, CopyAgrees order b) → (∀ b ∈ bs2, WFPtr order b) →
    (∀ b ∈ bs2, UniformPtr h b) → h < fuel →
    ∀ (ps1 ps2 done addrs : List Nat) (s : Store K V) (G2 : List Nat),
      p ≠ 0 → s p = some ⟨ks, ps1 ++ ps2, pst⟩ → HoldsList s ps2 bs2 G2 →
      s c = some ⟨ks, done ++ List.replicate ps2.length 0, zst⟩ → done.length = ps1.length →
      c ≠ 0 → c ≠ p → c ∉ G2 → c ∉ addrs → addrs.Nodup →
      (∀ a ∈ addrs, a ≠ 0 ∧ a ≠ p ∧ a ∉ G2) →
      (descendantsList bs2).length ≤ addrs.length →
      ∃ s1 newps, copy_loop (fun a1 s1 p1 => copy fuel a1 s1 p1) bs2.length ps1.length addrs s c p
            = some (s1, addrs.drop (descendantsList bs2).length) ∧
        s1 c = some ⟨ks, done ++ newps, zst⟩ ∧
        HoldsList s1 newps (copy_branches bs2) (addrs.take (descendantsList bs2).length) ∧
        ∀ x, x ≠ c → x ∉ addrs.take (descendantsList bs2).length → s1 x = s x := by
  induction bs2 with
  | nil =>
    intro _ _ _ _ ps1 ps2 done addrs s G2 hp hsp hl hsc hdl hc0 hcp hcG hca hnd hfr hlen
    rw [holdsList_nil] at hl
    obtain ⟨e1, e2⟩ := hl
    subst e1
    refine ⟨s, [], by simp [copy_loop, descendantsList], by simpa using hsc, ?_, fun _ _ _ => rfl⟩
    simp only [copy_branches, descendantsList, List.length_nil, List.take_zero]
    rw [holdsList_nil]
    exact ⟨rfl, rfl⟩
  | cons b bs ih =>
    intro hrec hw hu hf ps1 ps2 done addrs s G2 hp hsp hl hsc hdl hc0 hcp hcG hca hnd hfr hlen
    rw [holdsList_cons] at hl
    obtain ⟨q, qs, Fq, G, e, hq, hqs, eG⟩ := hl
    subst e; subst eG
    rw [descendantsList_cons, List.length_append] at hlen
    simp only [List.mem_append, not_or] at hcG
    have hfrq : ∀ a ∈ addrs, a ≠ 0 ∧ a ∉ Fq := fun a ha =>
      ⟨(hfr a ha).1, fun e => (hfr a ha).2.2 (List.mem_append_left _ e)⟩
    obtain ⟨s1, r, c1, c2, c3⟩ := hrec b (List.mem_cons_self _ _) fuel h addrs s q Fq hq
      (hw b (List.mem_cons_self _ _)) (hu b (List.mem_cons_self _ _)) hf hnd hfrq (by omega)
    have hct : c ∉ addrs.take (descendantsPtr b).length := fun e => hca (List.mem_of_mem_take e)
    have hpt : p ∉ addrs.take (descendantsPtr b).length :=
      fun e => (hfr p (List.mem_of_mem_take e)).2.1 rfl
    have hs1c : s1 c = some ⟨ks, done ++ List.replicate (q :: qs).length 0, zst⟩ := by
      rw [c3 c hct]; exact hsc
    have hs1p : s1 p = some ⟨ks, ps1 ++ q :: qs, pst⟩ := by rw [c3 p hpt]; exact hsp
    have hset : (done ++ List.replicate (q :: qs).length 0).set ps1.length r =
        (done ++ [r]) ++ List.replicate qs.length 0 := by
      rw [← hdl]
      simp only [List.length_cons, List.replicate_succ, set_append_cons_length,
        List.append_assoc, List.singleton_append]
    obtain ⟨s2, hs2⟩ : ∃ s2 : Store K V, s2 =
        s1.write c ⟨ks, (done ++ [r]) ++ List.replicate qs.length 0, zst⟩ := ⟨_, rfl⟩
    have hsb : setBranch s1 c ps1.length r = some s2 := by
      have hlt : ps1.length < (done ++ List.replicate (q :: qs).length 0).length := by
        simp only [List.length_append, List.length_replicate, List.length_cons]; omega
      simp only [setBranch, deref_eq_of_ne_zero s1 c hc0, hs1c, hlt, ↓reduceIte, hset, hs2]
    have hdn : (addrs.drop (descendantsPtr b).length).Nodup :=
      List.Nodup.sublist (List.drop_sublist _ _) hnd
    have hs2p : s2 p = some ⟨ks, (ps1 ++ [q]) ++ qs, pst⟩ := by
      rw [hs2, store_write_other _ _ _ _ (Ne.symm hcp), hs1p]
      simp
    have hs2c : s2 c = some ⟨ks, (done ++ [r]) ++ List.replicate qs.length 0, zst⟩ := by
      rw [hs2, store_write_same]
    have hqs2 : HoldsList s2 qs bs G := by
      refine holdsList_frame s s2 bs qs G hqs (fun x hx => ?_)
      have hxc : x ≠ c := fun e => hcG.2 (e ▸ hx)
      have hxa : x ∉ addrs.take (descendantsPtr b).length :=
        fun e => (hfr x (List.mem_of_mem_take e)).2.2 (List.mem_append_right _ hx)
      rw [hs2, store_write_other _ _ _ _ hxc, c3 x hxa]
    obtain ⟨s3, newps, d1, d2, d3, d4⟩ := ih (fun x hx => hrec x (List.mem_cons_of_mem _ hx))
      (fun x hx => hw x (List.mem_cons_of_mem _ hx)) (fun x hx => hu x (List.mem_cons_of_mem _ hx))
      hf (ps1 ++ [q]) qs (done ++ [r]) (addrs.drop (descendantsPtr b).length) s2 G hp hs2p hqs2
      hs2c (by simp [hdl]) hc0 hcp hcG.2 (fun e => hca (List.mem_of_mem_drop e)) hdn
      (fun a ha => ⟨(hfr a (List.mem_of_mem_drop ha)).1, (hfr a (List.mem_of_mem_drop ha)).2.1,
        fun e => (hfr a (List.mem_of_mem_drop ha)).2.2 (List.mem_append_right _ e)⟩)
      (by rw [List.length_drop]; omega)
    have htake : addrs.take ((descendantsPtr b).length + (descendantsList bs).length) =
        addrs.take (descendantsPtr b).length ++
          (addrs.drop (descendantsPtr b).length).take (descendantsList bs).length :=
      List.take_add _ _ _
    have hdrop : addrs.drop ((descendantsPtr b).length + (descendantsList bs).length) =
        (addrs.drop (descendantsPtr b).length).drop (descendantsList bs).length := by
      rw [List.drop_drop, Nat.add_comm]
    have hdisj : ∀ x ∈ addrs.take (descendantsPtr b).length,
        x ∉ (addrs.drop (descendantsPtr b).length).take (descendantsList bs).length := by
      intro x hx1 hx2
      have hnd2 := hnd
      rw [← List.take_append_drop (descendantsPtr b).length addrs, List.nodup_append] at hnd2
      exact hnd2.2.2 hx1 (List.mem_of_mem_take hx2)
    refine ⟨s3, r :: newps, ?_, by simpa using d2, ?_, ?_⟩
    · have hbr : (NodeObject.mk ks (ps1 ++ q :: qs) pst).branch ps1.length = q :=
        object_branch_left ks ps1 q qs pst ps1.length rfl
      simp only [List.length_append, List.length_singleton] at d1
      simp only [List.length_cons, copy_loop, deref_eq_of_ne_zero s p hp, hsp, hbr, c1, hsb, d1,
        descendantsList_cons, List.length_append, hdrop]
    · rw [copy_branches, descendantsList_cons, List.length_append, htake]
      refine holdsList_cons_cons s3 r newps _ _ _ _ ?_ d3
      refine holdsPtr_frame s1 s3 _ r _ c2 (fun x hx => ?_)
      have hxc : x ≠ c := fun e => hct (e ▸ hx)
      rw [d4 x hxc (hdisj x hx), hs2, store_write_other _ _ _ _ hxc]
    · intro x hxc hx
      rw [descendantsList_cons, List.length_append, htake, List.mem_append, not_or] at hx
      rw [d4 x hxc hx.2, hs2, store_write_other _ _ _ _ hxc, c3 x hx.1]

theorem copyAgrees_node (order : Nat) (n : BTreeNode K V) : CopyAgrees order (some n) := by
  induction n using node_induct with
  | h ks br st ih =>
    intro fuel h addrs s p F hh hw hu hf hnd hfr hlen
    rw [holdsPtr_some] at hh
    obtain ⟨pbr, pst, G, hd, hc, hp, hl, eF⟩ := holdsNode_deref s ks br st p F hh
    subst eF
    simp only [WFPtr] at hw
    rw [wf_mk] at hw
    obtain ⟨hklen, hbr, hwl⟩ := hw
    rw [uniformPtr_some] at hu
    obtain ⟨hpos, hu⟩ := hu
    simp only [BTreeNode.m_branch] at hu
    rw [descendantsPtr_some] at hlen ⊢
    simp only [List.length_cons] at hlen ⊢
    cases fuel with
    | zero => omega
    | succ f =>
      cases addrs with
      | nil => simp at hlen
      | cons c rest =>
        simp only [List.length_cons] at hlen
        obtain ⟨hc0, hcF⟩ := hfr c (List.mem_cons_self _ _)
        simp only [List.mem_cons, not_or] at hcF
        obtain ⟨hcr, hrnd⟩ := List.nodup_cons.1 hnd
        have hpl := holdsList_length s br pbr G hl
        obtain ⟨s0, hs0⟩ : ∃ s0 : Store K V, s0 = s.write c
            ⟨ks, List.replicate pbr.length 0, List.replicate pst.length 0⟩ := ⟨_, rfl⟩
        have hchild : ∀ b ∈ br, CopyAgrees order b := by
          intro b hb
          cases b with
          | none => exact copyAgrees_none order
          | some x => exact ih x hb
        obtain ⟨s1, newps, d1, d2, d3, d4⟩ := copy_loop_holds order f (h - 1) ks
          (List.replicate pst.length 0) pst p c br hchild hwl hu (by omega) [] pbr [] rest s0 G hp
          (by rw [hs0, store_write_other _ _ _ _ (Ne.symm hcF.1)]; simpa using hc)
          (holdsList_frame s s0 br pbr G hl (fun x hx => by
            have hxc : x ≠ c := fun e => hcF.2 (e ▸ hx)
            rw [hs0, store_write_other _ _ _ _ hxc]))
          (by rw [hs0, store_write_same]; simp) rfl hc0 hcF.1 hcF.2 hcr hrnd
          (fun a ha => by
            have := hfr a (List.mem_cons_of_mem _ ha)
            simp only [List.mem_cons, not_or] at this
            exact ⟨this.1, this.2.1, this.2.2⟩) (by omega)
        refine ⟨s1, c, ?_, ?_, ?_⟩
        · simp only [List.length_nil] at d1
          have hn : (NodeObject.mk ks pbr pst).nbKeys + 1 = br.length := by
            simp [NodeObject.nbKeys, hbr]
          simp only [copy, hp, ↓reduceIte, hc0, hd, hn, ← hs0, d1, List.drop_succ_cons]
        · simp only [BTree.copy, copy_node, List.take_succ_cons]
          rw [holdsPtr_some, holdsNode_mk]
          exact ⟨hc0, newps, List.replicate pst.length 0, _, by simpa using d2, d3, rfl⟩
        · intro x hx
          simp only [List.take_succ_cons, List.mem_cons, not_or] at hx
          rw [d4 x hx.1 hx.2, hs0, store_write_other _ _ _ _ hx.1]

/-- `copy` on a subtree the store holds: it builds the copy of the subtree in the nodes at
the first addresses of the list and changes nothing else. -/
theorem btree_copy_holds (order : Nat) (b : Option (BTreeNode K V)) : CopyAgrees order b := by
  cases b with
  | none => exact copyAgrees_none order
  | some n => exact copyAgrees_node order n

theorem uniform_copy_node (n : BTreeNode K V) :
    ∀ h, UniformPtr h (some n) → UniformPtr h (some (copy_node n)) := by
  induction n using node_induct with
  | h ks br st ih =>
    intro h hu
    rw [uniformPtr_some] at hu ⊢
    refine ⟨hu.1, ?_⟩
    simp only [BTreeNode.m_branch, copy_node, copy_branches_eq_map, List.mem_map] at hu ⊢
    rintro b ⟨x, hx, e⟩
    subst e
    cases x with
    | none => exact hu.2 none hx
    | some c => exact ih c hx (h - 1) (hu.2 (some c) hx)

/-- The copy of a subtree with its leaves on one level has its leaves on that level. -/
theorem uniformPtr_copy (h : Nat) (q : Option (BTreeNode K V)) (hu : UniformPtr h q) :
    UniformPtr h (BTree.copy q) := by
  cases q with
  | none => exact hu
  | some n => exact uniform_copy_node n h hu

theorem disjoint_of_count (F A B : List Nat) (hn : F.Nodup)
    (h : ∀ y, A.count y + B.count y ≤ F.count y) : ∀ x ∈ A, x ∉ B := by
  intro x hx hxb
  have h1 := List.count_pos_iff.2 hx
  have h2 := List.count_pos_iff.2 hxb
  have h3 := List.nodup_iff_count_le_one.1 hn x
  have := h x
  omega

/-- The parts of a held node around a key and the two branches next to it. -/
theorem holdsNode_two_children (order : Nat) (s : Store K V) (p : Nat) (ks : List (K × V))
    (br st : List (Option (BTreeNode K V))) (F : List Nat) (i : Nat)
    (hh : HoldsNode s p (BTreeNode.mk ks br st) F) (hw : WF order (BTreeNode.mk ks br st))
    (hi : i < ks.length) :
    ∃ ks1 sep ks2 bs1 bl bR bs2 ps1 pl pr ps2 pst F1 Fl Fr F2,
      ks = ks1 ++ sep :: ks2 ∧ br = bs1 ++ bl :: bR :: bs2 ∧ ks1.length = i ∧ bs1.length = i ∧
      ps1.length = i ∧ p ≠ 0 ∧ s p = some ⟨ks, ps1 ++ pl :: pr :: ps2, pst⟩ ∧
      HoldsList s ps1 bs1 F1 ∧ HoldsPtr s pl bl Fl ∧ HoldsPtr s pr bR Fr ∧
      HoldsList s ps2 bs2 F2 ∧ F = p :: (F1 ++ (Fl ++ (Fr ++ F2))) ∧
      WFPtr order bl ∧ WFPtr order bR := by
  obtain ⟨pbr, pst, G, hd, hc, hp, hl, eF⟩ := holdsNode_deref s ks br st p F hh
  rw [wf_mk] at hw
  obtain ⟨hklen, hbr, hwl⟩ := hw
  obtain ⟨ks1, sep, ks2, eks, hk1⟩ := exists_append_cons_of_lt_length ks i hi
  obtain ⟨bs1, bl, rest, eb, hb1⟩ := exists_append_cons_of_lt_length br i (by omega)
  cases rest with
  | nil =>
    exfalso
    rw [eb] at hbr
    simp only [List.length_append, List.length_cons, List.length_nil] at hbr
    omega
  | cons bR bs2 =>
    subst eb
    obtain ⟨ps1, pl, ps', F1, Fl, F', e1, e2, e3, h1, hpl, h2⟩ :=
      holdsList_of_append_cons s bs1 bl (bR :: bs2) pbr G hl
    rw [holdsList_cons] at h2
    obtain ⟨pr, ps2, Fr, F2, e4, hpr, h3, e5⟩ := h2
    subst e1; subst e4; subst e2; subst e5
    exact ⟨ks1, sep, ks2, bs1, bl, bR, bs2, ps1, pl, pr, ps2, pst, F1, Fl, Fr, F2, eks, rfl, hk1,
      hb1, by rw [e3, hb1], hp, hc, h1, hpl, hpr, h3, eF, hwl bl (by simp), hwl bR (by simp)⟩

/-- A node is held when its object and the parts around two branches next to each other
are. -/
theorem holdsNode_of_two_children (s : Store K V) (p : Nat) (ks : List (K × V))
    (bs1 : List (Option (BTreeNode K V))) (bl bR : Option (BTreeNode K V))
    (bs2 st : List (Option (BTreeNode K V))) (ps1 : List Nat) (pl pr : Nat) (ps2 pst : List Nat)
    (F1 Fl Fr F2 : List Nat) (hp : p ≠ 0)
    (hc : s p = some ⟨ks, ps1 ++ pl :: pr :: ps2, pst⟩)
    (h1 : HoldsList s ps1 bs1 F1) (hl : HoldsPtr s pl bl Fl) (hr : HoldsPtr s pr bR Fr)
    (h2 : HoldsList s ps2 bs2 F2) :
    HoldsNode s p (BTreeNode.mk ks (bs1 ++ bl :: bR :: bs2) st)
      (p :: (F1 ++ (Fl ++ (Fr ++ F2)))) := by
  rw [holdsNode_mk]
  exact ⟨hp, _, pst, _, hc, holdsList_append_cons s bs1 bl (bR :: bs2) ps1 pl (pr :: ps2) F1 Fl
    (Fr ++ F2) h1 hl (holdsList_cons_cons s pr ps2 bR bs2 Fr F2 hr h2), rfl⟩

/-- A node is held when its object and the parts around one branch are. -/
theorem holdsNode_of_child (s : Store K V) (p : Nat) (ks : List (K × V))
    (bs1 : List (Option (BTreeNode K V))) (b : Option (BTreeNode K V))
    (bs2 st : List (Option (BTreeNode K V))) (ps1 : List Nat) (q : Nat) (ps2 pst : List Nat)
    (F1 Fq F2 : List Nat) (hp : p ≠ 0)
    (hc : s p = some ⟨ks, ps1 ++ q :: ps2, pst⟩)
    (h1 : HoldsList s ps1 bs1 F1) (hq : HoldsPtr s q b Fq) (h2 : HoldsList s ps2 bs2 F2) :
    HoldsNode s p (BTreeNode.mk ks (bs1 ++ b :: bs2) st) (p :: (F1 ++ (Fq ++ F2))) := by
  rw [holdsNode_mk]
  exact ⟨hp, _, pst, _, hc, holdsList_append_cons s bs1 b bs2 ps1 q ps2 F1 Fq F2 h1 hq h2, rfl⟩

/-- The parts of a held node around one branch. -/
theorem holdsNode_child (order : Nat) (s : Store K V) (p : Nat) (ks : List (K × V))
    (br st : List (Option (BTreeNode K V))) (F : List Nat) (i : Nat)
    (hh : HoldsNode s p (BTreeNode.mk ks br st) F) (hw : WF order (BTreeNode.mk ks br st))
    (hi : i ≤ ks.length) :
    ∃ bs1 b bs2 ps1 q ps2 pst F1 Fq F2,
      br = bs1 ++ b :: bs2 ∧ bs1.length = i ∧ ps1.length = i ∧ p ≠ 0 ∧
      s p = some ⟨ks, ps1 ++ q :: ps2, pst⟩ ∧
      HoldsList s ps1 bs1 F1 ∧ HoldsPtr s q b Fq ∧ HoldsList s ps2 bs2 F2 ∧
      F = p :: (F1 ++ (Fq ++ F2)) ∧ WFPtr order b := by
  obtain ⟨pbr, pst, G, hd, hc, hp, hl, eF⟩ := holdsNode_deref s ks br st p F hh
  rw [wf_mk] at hw
  obtain ⟨hklen, hbr, hwl⟩ := hw
  obtain ⟨bs1, b, bs2, eb, hb1⟩ := exists_append_cons_of_lt_length br i (by omega)
  subst eb
  obtain ⟨ps1, q, ps2, F1, Fq, F2, e1, e2, e3, h1, hq, h2⟩ :=
    holdsList_of_append_cons s bs1 b bs2 pbr G hl
  subst e1; subst e2
  exact ⟨bs1, b, bs2, ps1, q, ps2, pst, F1, Fq, F2, rfl, hb1, by rw [e3, hb1], hp, hc, h1, hq, h2,
    eF, hwl b (by simp)⟩

theorem refinesNode_none (sres : Option (Store K V)) (s : Store K V) (p : Nat) (F : List Nat)
    (vres : Option (BTreeNode K V)) (hv : vres = none) (hs : sres = none) :
    RefinesNode vres sres s p F := by
  subst hv
  exact ⟨fun _ => hs, fun n1 h1 => by simp at h1⟩

theorem exists_concat_of_ne_nil {α : Type} (l : List α) (h : l ≠ []) :
    ∃ l0 a, l = l0 ++ [a] :=
  ⟨l.dropLast, l.getLast h, (List.dropLast_append_getLast h).symm⟩

/-- `moveRight` on a node the store holds. -/
theorem moveRight_holds (order : Nat) (s : Store K V) (p : Nat) (n : BTreeNode K V)
    (F : List Nat) (i : Nat) (hh : HoldsNode s p n F) (hn : F.Nodup) (hw : WF order n)
    (hi : i < n.nbKeys) :
    RefinesNode (BTreeNode.moveRight order n i) (moveRight order s p i) s p F := by
  cases n with
  | mk ks br st =>
    simp only [nbKeys, BTreeNode.keys] at hi
    obtain ⟨ks1, sep, ks2, bs1, bl, bR, bs2, ps1, pl, pr, ps2, pst, F1, Fl, Fr, F2, eks, ebr, hk1,
      hb1, hps1, hp, hc, h1, hl, hr, h2, eF, hwl, hwr⟩ :=
      holdsNode_two_children order s p ks br st F i hh hw hi
    subst eks; subst ebr; subst eF; subst hk1
    have hbl := branch_left (ks1 ++ sep :: ks2) bs1 bl (bR :: bs2) st ks1.length hb1.symm
    have hbr := branch_right (ks1 ++ sep :: ks2) bs1 bl bR bs2 st (ks1.length + 1) (by rw [hb1])
    have hsep : (ks1 ++ sep :: ks2).get? ks1.length = some sep := get?_append_cons_length ks1 sep ks2
    have hol := object_branch_left (ks1 ++ sep :: ks2) ps1 pl (pr :: ps2) pst ks1.length hps1.symm
    have hor := object_branch_right (ks1 ++ sep :: ks2) ps1 pl pr ps2 pst (ks1.length + 1)
      (by rw [hps1])
    have hd : deref s p = some ⟨ks1 ++ sep :: ks2, ps1 ++ pl :: pr :: ps2, pst⟩ := by
      rw [deref_eq_of_ne_zero s p hp, hc]
    cases bl with
    | none =>
      rw [holdsPtr_none] at hl
      obtain ⟨e, _⟩ := hl
      subst e
      refine refinesNode_none _ s p _ _ ?_ ?_
      · simp only [BTreeNode.moveRight, hbl]
      · simp only [moveRight, hd, hol, deref_null]
    | some l =>
      cases l with
      | mk lks lbr lst =>
        rw [holdsPtr_some] at hl
        obtain ⟨plbr, plst, Gl, hdl, hcl, hpl, hll, eFl⟩ := holdsNode_deref s lks lbr lst pl Fl hl
        subst eFl
        simp only [WFPtr] at hwl
        rw [wf_mk] at hwl
        obtain ⟨_, hlbr, _⟩ := hwl
        by_cases hgt : lks.length > MINKEYS order
        · cases bR with
          | none =>
            rw [holdsPtr_none] at hr
            obtain ⟨e, _⟩ := hr
            subst e
            refine refinesNode_none _ s p _ _ ?_ ?_
            · simp only [BTreeNode.moveRight, hbl, hbr]
            · simp only [moveRight, hd, hol, hor, hdl, hsep, NodeObject.nbKeys, hgt, ↓reduceIte,
                shift_right, deref_null]
          | some r =>
            cases r with
            | mk rks rbr rst =>
              rw [holdsPtr_some] at hr
              obtain ⟨prbr, prst, Gr, hdr, hcr, hpr, hlr, eFr⟩ :=
                holdsNode_deref s rks rbr rst pr Fr hr
              subst eFr
              by_cases hcond : 0 < rks.length ∧ rks.length < MAXKEYS order
              · -- the entry moves
                obtain ⟨lks0, last, e⟩ := exists_concat_of_ne_nil lks (by
                  intro e; subst e; simp at hgt)
                subst e
                obtain ⟨lbr0, lb, e⟩ := exists_concat_of_ne_nil lbr (by
                  intro e; subst e; simp at hlbr)
                subst e
                obtain ⟨plbr0, pp, Gl0, Flb, e1, e2, e3, hll0, hlb⟩ :=
                  holdsList_of_append s lbr0 [lb] plbr Gl hll
                rw [holdsList_cons] at hlb
                obtain ⟨plb, pnil, Flb1, Fnil, e4, hlb1, hnil, e5⟩ := hlb
                rw [holdsList_nil] at hnil
                obtain ⟨e6, e7⟩ := hnil
                subst e6; subst e7; subst e4; subst e5; subst e1; subst e2
                simp only [List.append_nil] at hn ⊢
                have hlen0 : lbr0.length = lks0.length + 1 := by
                  simp only [List.length_append, List.length_singleton] at hlbr; omega
                have hF : ∀ y, [p, pl, pr].count y + (F1 ++ (Gl0 ++ (Flb1 ++ (Gr ++ F2)))).count y ≤
                    (p :: (F1 ++ (pl :: (Gl0 ++ Flb1) ++ (pr :: Gr ++ F2)))).count y := by
                  intro y
                  simp only [List.count_cons, List.count_append, List.count_nil, List.cons_append]
                  omega
                have hdisj := disjoint_of_count _ [p, pl, pr]
                  (F1 ++ (Gl0 ++ (Flb1 ++ (Gr ++ F2)))) hn hF
                have hne1 : p ≠ pl := by
                  intro e
                  have h3 := List.nodup_iff_count_le_one.1 hn p
                  simp only [List.count_cons, List.count_append, List.cons_append, e,
                    beq_self_eq_true, ↓reduceIte] at h3
                  omega
                have hne2 : p ≠ pr := by
                  intro e
                  have h3 := List.nodup_iff_count_le_one.1 hn p
                  simp only [List.count_cons, List.count_append, List.cons_append, e,
                    beq_self_eq_true, ↓reduceIte] at h3
                  omega
                have hne3 : pl ≠ pr := by
                  intro e
                  have h3 := List.nodup_iff_count_le_one.1 hn pl
                  simp only [List.count_cons, List.count_append, List.cons_append, e,
                    beq_self_eq_true, ↓reduceIte] at h3
                  omega
                obtain ⟨s3, hs3⟩ : ∃ s3 : Store K V, s3 =
                    ((s.write pr ⟨sep :: rks, plb :: prbr, prst.drop 1⟩).write p
                      ⟨ks1 ++ last :: ks2, ps1 ++ pl :: pr :: ps2, pst⟩).write pl
                      ⟨lks0, plbr0, plb :: plst⟩ := ⟨_, rfl⟩
                have hfr : ∀ x, x ∉ [p, pl, pr] → s3 x = s x := by
                  intro x hx
                  simp only [List.mem_cons, List.mem_singleton, List.not_mem_nil, or_false,
                    not_or] at hx
                  rw [hs3, store_write_other _ _ _ _ hx.2.1, store_write_other _ _ _ _ hx.1,
                    store_write_other _ _ _ _ hx.2.2]
                have hfr2 : ∀ (A : List Nat), (∀ x ∈ A, x ∈ F1 ++ (Gl0 ++ (Flb1 ++ (Gr ++ F2)))) →
                    ∀ x ∈ A, s3 x = s x := by
                  intro A hA x hx
                  exact hfr x (fun e => hdisj x e (hA x hx))
                have hv : BTreeNode.moveRight order
                    (BTreeNode.mk (ks1 ++ sep :: ks2)
                      (bs1 ++ some (BTreeNode.mk (lks0 ++ [last]) (lbr0 ++ [lb]) lst) ::
                        some (BTreeNode.mk rks rbr rst) :: bs2) st) ks1.length =
                    some (BTreeNode.mk (ks1 ++ last :: ks2)
                      (bs1 ++ some (BTreeNode.mk lks0 lbr0 (lb :: lst)) ::
                        some (BTreeNode.mk (sep :: rks) (lb :: rbr) (rst.drop 1)) :: bs2) st) := by
                  have hlb2 := branch_left (lks0 ++ [last]) lbr0 lb [] lst (lks0 ++ [last]).length
                    (by simp [hlen0])
                  have hset1 : ∀ X, (bs1 ++ some (BTreeNode.mk (lks0 ++ [last]) (lbr0 ++ [lb]) lst) ::
                      some (BTreeNode.mk rks rbr rst) :: bs2).set ks1.length X =
                      bs1 ++ X :: some (BTreeNode.mk rks rbr rst) :: bs2 := by
                    intro X; rw [← hb1]; exact set_append_cons_length _ _ _ _
                  have hset2 : ∀ X Y, (bs1 ++ X :: some (BTreeNode.mk rks rbr rst) :: bs2).set
                      (ks1.length + 1) Y = bs1 ++ X :: Y :: bs2 := by
                    intro X Y; rw [← hb1]; exact set_append_cons_succ_length _ _ _ _ _
                  simp only [BTreeNode.moveRight, hbl, hbr, hsep, nbKeys, BTreeNode.keys, hgt,
                    ↓reduceIte, BTreeNode.shift_right, hcond, and_self, hlb2, List.take_zero,
                    List.drop_zero, List.nil_append, BTreeNode.m_branch, BTreeNode.m_stale,
                    List.getLast?_concat, List.dropLast_concat, set_append_cons_length, hset1,
                    hset2]
                have hs : moveRight order s p ks1.length = some s3 := by
                  have hlb2 := object_branch_left (lks0 ++ [last]) plbr0 plb [] plst
                    (lks0 ++ [last]).length (by simp [e3, hlen0])
                  have hd1l : deref (s.write pr ⟨sep :: rks, plb :: prbr, prst.drop 1⟩) pl =
                      some ⟨lks0 ++ [last], plbr0 ++ [plb], plst⟩ := by
                    rw [deref_eq_of_ne_zero _ pl hpl, store_write_other _ _ _ _ hne3, hcl]
                  have hd1p : deref (s.write pr ⟨sep :: rks, plb :: prbr, prst.drop 1⟩) p =
                      some ⟨ks1 ++ sep :: ks2, ps1 ++ pl :: pr :: ps2, pst⟩ := by
                    rw [deref_eq_of_ne_zero _ p hp, store_write_other _ _ _ _ hne2, hc]
                  have hd2l : deref ((s.write pr ⟨sep :: rks, plb :: prbr, prst.drop 1⟩).write p
                      ⟨ks1 ++ last :: ks2, ps1 ++ pl :: pr :: ps2, pst⟩) pl =
                      some ⟨lks0 ++ [last], plbr0 ++ [plb], plst⟩ := by
                    rw [deref_eq_of_ne_zero _ pl hpl, store_write_other _ _ _ _ (Ne.symm hne1),
                      store_write_other _ _ _ _ hne3, hcl]
                  have hlt : ks1.length < (ks1 ++ sep :: ks2).length := by simp
                  simp only [moveRight, hd, hol, hor, hdl, hsep, NodeObject.nbKeys, hgt, ↓reduceIte,
                    shift_right, hdr, hcond, and_self, hlb2, List.take_zero, List.drop_zero,
                    List.nil_append, hd1l, List.getLast?_concat, copy_assign_key_value, hd1p, hlt,
                    set_append_cons_length, dropLastEntry, hd2l, List.dropLast_concat, hs3]
                refine ⟨fun h0 => by rw [hv] at h0; simp at h0, fun n1 h1 => ?_⟩
                rw [hv] at h1
                simp only [Option.some.injEq] at h1
                subst h1
                refine ⟨s3, p :: (F1 ++ ((pl :: Gl0) ++ ((pr :: (Flb1 ++ Gr)) ++ F2))), hs, ?_, ?_, ?_⟩
                · refine holdsNode_of_two_children s3 p _ bs1 _ _ bs2 st ps1 pl pr ps2 pst F1 _ _ F2
                    hp ?_ ?_ ?_ ?_ ?_
                  · rw [hs3, store_write_other _ _ _ _ hne1, store_write_same]
                  · exact holdsList_frame s s3 bs1 ps1 F1 h1
                      (hfr2 F1 (fun x hx => by simp [hx]))
                  · rw [holdsPtr_some, holdsNode_mk]
                    refine ⟨hpl, plbr0, plb :: plst, Gl0, by rw [hs3, store_write_same], ?_, rfl⟩
                    exact holdsList_frame s s3 lbr0 plbr0 Gl0 hll0
                      (hfr2 Gl0 (fun x hx => by simp [hx]))
                  · rw [holdsPtr_some, holdsNode_mk]
                    refine ⟨hpr, plb :: prbr, prst.drop 1, Flb1 ++ Gr, ?_, ?_, rfl⟩
                    · rw [hs3, store_write_other _ _ _ _ (Ne.symm hne3),
                        store_write_other _ _ _ _ (Ne.symm hne2), store_write_same]
                    · refine holdsList_cons_cons s3 plb prbr lb rbr Flb1 Gr ?_ ?_
                      · exact holdsPtr_frame s s3 lb plb Flb1 hlb1
                          (hfr2 Flb1 (fun x hx => by simp [hx]))
                      · exact holdsList_frame s s3 rbr prbr Gr hlr
                          (hfr2 Gr (fun x hx => by simp [hx]))
                  · exact holdsList_frame s s3 bs2 ps2 F2 h2
                      (hfr2 F2 (fun x hx => by simp [hx]))
                · intro x
                  simp only [List.count_cons, List.count_append, List.cons_append]
                  omega
                · intro x hx
                  apply hfr
                  intro e
                  apply hx
                  simp only [List.mem_cons, List.mem_singleton, List.not_mem_nil, or_false] at e
                  rcases e with e | e | e <;> subst e <;> simp
              · refine refinesNode_none _ s p _ _ ?_ ?_
                · simp only [BTreeNode.moveRight, hbl, hbr, hsep, nbKeys, BTreeNode.keys, hgt,
                    ↓reduceIte, BTreeNode.shift_right, hcond]
                · simp only [moveRight, hd, hol, hor, hdl, hsep, NodeObject.nbKeys, hgt, ↓reduceIte,
                    shift_right, hdr, hcond]
        · refine refinesNode_none _ s p _ _ ?_ ?_
          · cases bR <;> simp only [BTreeNode.moveRight, hbl, hbr, hsep, nbKeys, BTreeNode.keys,
              hgt, ↓reduceIte]
          · simp only [moveRight, hd, hol, hdl, hsep, NodeObject.nbKeys, hgt, ↓reduceIte]

/-- The pointers of a parent and two children next to each other are three pointers. -/
theorem three_pointers (p pl pr : Nat) (F1 Gl Gr F2 : List Nat)
    (hn : (p :: (F1 ++ (pl :: Gl ++ (pr :: Gr ++ F2)))).Nodup) :
    p ≠ pl ∧ p ≠ pr ∧ pl ≠ pr ∧
      ∀ x ∈ F1 ++ (Gl ++ (Gr ++ F2)), x ∉ [p, pl, pr] := by
  have hc := List.nodup_iff_count_le_one.1 hn
  refine ⟨?_, ?_, ?_, ?_⟩
  · intro e
    have h3 := hc p
    simp only [List.count_cons, List.count_append, List.cons_append, e,
      beq_self_eq_true, ↓reduceIte] at h3
    omega
  · intro e
    have h3 := hc p
    simp only [List.count_cons, List.count_append, List.cons_append, e,
      beq_self_eq_true, ↓reduceIte] at h3
    omega
  · intro e
    have h3 := hc pl
    simp only [List.count_cons, List.count_append, List.cons_append, e,
      beq_self_eq_true, ↓reduceIte] at h3
    omega
  · intro x hx hx2
    refine disjoint_of_count _ (F1 ++ (Gl ++ (Gr ++ F2))) [p, pl, pr] hn ?_ x hx hx2
    intro y
    simp only [List.count_cons, List.count_append, List.count_nil, List.cons_append]
    omega

/-- `moveLeft` on a node the store holds. -/
theorem moveLeft_holds (order : Nat) (s : Store K V) (p : Nat) (n : BTreeNode K V)
    (F : List Nat) (i : Nat) (hh : HoldsNode s p n F) (hn : F.Nodup) (hw : WF order n)
    (hi : i < n.nbKeys) :
    RefinesNode (BTreeNode.moveLeft order n (i + 1)) (moveLeft order s p (i + 1)) s p F := by
  cases n with
  | mk ks br st =>
    simp only [nbKeys, BTreeNode.keys] at hi
    obtain ⟨ks1, sep, ks2, bs1, bl, bR, bs2, ps1, pl, pr, ps2, pst, F1, Fl, Fr, F2, eks, ebr, hk1,
      hb1, hps1, hp, hc, h1, hl, hr, h2, eF, hwl, hwr⟩ :=
      holdsNode_two_children order s p ks br st F i hh hw hi
    subst eks; subst ebr; subst eF; subst hk1
    have hbl := branch_left (ks1 ++ sep :: ks2) bs1 bl (bR :: bs2) st ks1.length hb1.symm
    have hbr := branch_right (ks1 ++ sep :: ks2) bs1 bl bR bs2 st (ks1.length + 1) (by rw [hb1])
    have hsep : (ks1 ++ sep :: ks2).get? ks1.length = some sep := get?_append_cons_length ks1 sep ks2
    have hol := object_branch_left (ks1 ++ sep :: ks2) ps1 pl (pr :: ps2) pst ks1.length hps1.symm
    have hor := object_branch_right (ks1 ++ sep :: ks2) ps1 pl pr ps2 pst (ks1.length + 1)
      (by rw [hps1])
    have hd : deref s p = some ⟨ks1 ++ sep :: ks2, ps1 ++ pl :: pr :: ps2, pst⟩ := by
      rw [deref_eq_of_ne_zero s p hp, hc]
    cases bR with
    | none =>
      rw [holdsPtr_none] at hr
      obtain ⟨e, _⟩ := hr
      subst e
      refine refinesNode_none _ s p _ _ ?_ ?_
      · cases bl <;> simp only [BTreeNode.moveLeft, Nat.add_one_ne_zero, ↓reduceIte,
          Nat.add_sub_cancel, hbl, hbr]
      · simp only [moveLeft, Nat.add_one_ne_zero, ↓reduceIte, Nat.add_sub_cancel, hd, hor,
          deref_null]
    | some r =>
      cases r with
      | mk rks rbr rst =>
        rw [holdsPtr_some] at hr
        obtain ⟨prbr, prst, Gr, hdr, hcr, hpr, hlr, eFr⟩ := holdsNode_deref s rks rbr rst pr Fr hr
        subst eFr
        simp only [WFPtr] at hwr
        rw [wf_mk] at hwr
        obtain ⟨_, hrbr, _⟩ := hwr
        by_cases hgt : rks.length > MINKEYS order
        · cases bl with
          | none =>
            rw [holdsPtr_none] at hl
            obtain ⟨e, _⟩ := hl
            subst e
            refine refinesNode_none _ s p _ _ ?_ ?_
            · simp only [BTreeNode.moveLeft, Nat.add_one_ne_zero, ↓reduceIte, Nat.add_sub_cancel,
                hbl]
            · simp only [moveLeft, Nat.add_one_ne_zero, ↓reduceIte, Nat.add_sub_cancel, hd, hol,
                hor, hdr, hsep, NodeObject.nbKeys, hgt, appendEntry, deref_null]
          | some l =>
            cases l with
            | mk lks lbr lst =>
              rw [holdsPtr_some] at hl
              obtain ⟨plbr, plst, Gl, hdl, hcl, hpl, hll, eFl⟩ :=
                holdsNode_deref s lks lbr lst pl Fl hl
              subst eFl
              obtain ⟨hne1, hne2, hne3, hdisj⟩ := three_pointers p pl pr F1 Gl Gr F2 hn
              cases rbr with
              | nil => simp at hrbr
              | cons rb0 rbr1 =>
                rw [holdsList_cons] at hlr
                obtain ⟨prb0, prbr1, Frb0, Gr1, e1, hrb0, hlr1, e2⟩ := hlr
                subst e1; subst e2
                have hrb : (BTreeNode.mk rks (rb0 :: rbr1) rst).branch 0 = rb0 := rfl
                have horb : (NodeObject.mk rks (prb0 :: prbr1) prst).branch 0 = prb0 := rfl
                have hd1r : deref (s.write pl ⟨lks ++ [sep], plbr ++ [prb0], plst.drop 1⟩) pr =
                    some ⟨rks, prb0 :: prbr1, prst⟩ := by
                  rw [deref_eq_of_ne_zero _ pr hpr, store_write_other _ _ _ _ (Ne.symm hne3), hcr]
                have hd1p : deref (s.write pl ⟨lks ++ [sep], plbr ++ [prb0], plst.drop 1⟩) p =
                    some ⟨ks1 ++ sep :: ks2, ps1 ++ pl :: pr :: ps2, pst⟩ := by
                  rw [deref_eq_of_ne_zero _ p hp, store_write_other _ _ _ _ hne1, hc]
                have hlt : ks1.length < (ks1 ++ sep :: ks2).length := by simp
                cases rks with
                | nil => simp at hgt
                | cons first rks1 =>
                  have hd2r : deref ((s.write pl ⟨lks ++ [sep], plbr ++ [prb0], plst.drop 1⟩).write
                      p ⟨ks1 ++ first :: ks2, ps1 ++ pl :: pr :: ps2, pst⟩) pr =
                      some ⟨first :: rks1, prb0 :: prbr1, prst⟩ := by
                    rw [deref_eq_of_ne_zero _ pr hpr, store_write_other _ _ _ _ (Ne.symm hne2),
                      store_write_other _ _ _ _ (Ne.symm hne3), hcr]
                  by_cases hcond : 1 < (first :: rks1).length
                  · obtain ⟨s3, hs3⟩ : ∃ s3 : Store K V, s3 =
                        ((s.write pl ⟨lks ++ [sep], plbr ++ [prb0], plst.drop 1⟩).write p
                          ⟨ks1 ++ first :: ks2, ps1 ++ pl :: pr :: ps2, pst⟩).write pr
                          ⟨rks1, prbr1, 0 :: prst⟩ := ⟨_, rfl⟩
                    have hfr : ∀ x, x ∉ [p, pl, pr] → s3 x = s x := by
                      intro x hx
                      simp only [List.mem_cons, List.mem_singleton, List.not_mem_nil, or_false,
                        not_or] at hx
                      rw [hs3, store_write_other _ _ _ _ hx.2.2, store_write_other _ _ _ _ hx.1,
                        store_write_other _ _ _ _ hx.2.1]
                    have hfr2 : ∀ (A : List Nat),
                        (∀ x ∈ A, x ∈ F1 ++ (Gl ++ ((Frb0 ++ Gr1) ++ F2))) →
                        ∀ x ∈ A, s3 x = s x := by
                      intro A hA x hx
                      exact hfr x (hdisj x (hA x hx))
                    have hv : BTreeNode.moveLeft order
                        (BTreeNode.mk (ks1 ++ sep :: ks2)
                          (bs1 ++ some (BTreeNode.mk lks lbr lst) ::
                            some (BTreeNode.mk (first :: rks1) (rb0 :: rbr1) rst) :: bs2) st)
                        (ks1.length + 1) =
                        some (BTreeNode.mk (ks1 ++ first :: ks2)
                          (bs1 ++ some (BTreeNode.mk (lks ++ [sep]) (lbr ++ [rb0]) (lst.drop 1)) ::
                            some (BTreeNode.mk rks1 rbr1 (none :: rst)) :: bs2) st) := by
                      have hset1 : ∀ X, (bs1 ++ some (BTreeNode.mk lks lbr lst) ::
                          some (BTreeNode.mk (first :: rks1) (rb0 :: rbr1) rst) :: bs2).set
                            ks1.length X =
                          bs1 ++ X :: some (BTreeNode.mk (first :: rks1) (rb0 :: rbr1) rst) ::
                            bs2 := by
                        intro X; rw [← hb1]; exact set_append_cons_length _ _ _ _
                      have hset2 : ∀ X Y, (bs1 ++ X ::
                          some (BTreeNode.mk (first :: rks1) (rb0 :: rbr1) rst) :: bs2).set
                          (ks1.length + 1) Y = bs1 ++ X :: Y :: bs2 := by
                        intro X Y; rw [← hb1]; exact set_append_cons_succ_length _ _ _ _ _
                      simp only [BTreeNode.moveLeft, Nat.add_one_ne_zero, ↓reduceIte,
                        Nat.add_sub_cancel, hbl, hbr, hsep, nbKeys, BTreeNode.keys, hgt,
                        List.head?_cons, BTreeNode.shift_left, Nat.lt_add_one, hcond, and_self,
                        hrb, BTreeNode.m_branch, BTreeNode.m_stale, Nat.sub_self,
                        List.eraseIdx_cons_zero, set_append_cons_length, hset1, hset2]
                    have hs : moveLeft order s p (ks1.length + 1) = some s3 := by
                      simp only [moveLeft, Nat.add_one_ne_zero, ↓reduceIte, Nat.add_sub_cancel, hd,
                        hol, hor, hdr, hsep, NodeObject.nbKeys, hgt, appendEntry, hdl, horb, hd1r,
                        List.head?_cons, copy_assign_key_value, hd1p, hlt, set_append_cons_length,
                        shift_left, hd2r, Nat.lt_add_one, hcond, and_self, Nat.sub_self,
                        List.eraseIdx_cons_zero, hs3]
                    refine ⟨fun h0 => by rw [hv] at h0; simp at h0, fun n1 hn1 => ?_⟩
                    rw [hv] at hn1
                    simp only [Option.some.injEq] at hn1
                    subst hn1
                    refine ⟨s3, p :: (F1 ++ ((pl :: (Gl ++ Frb0)) ++ ((pr :: Gr1) ++ F2))), hs,
                      ?_, ?_, ?_⟩
                    · refine holdsNode_of_two_children s3 p _ bs1 _ _ bs2 st ps1 pl pr ps2 pst F1
                        _ _ F2 hp ?_ ?_ ?_ ?_ ?_
                      · rw [hs3, store_write_other _ _ _ _ hne2, store_write_same]
                      · exact holdsList_frame s s3 bs1 ps1 F1 h1
                          (hfr2 F1 (fun x hx => by simp [hx]))
                      · rw [holdsPtr_some, holdsNode_mk]
                        refine ⟨hpl, plbr ++ [prb0], plst.drop 1, Gl ++ Frb0, ?_, ?_, rfl⟩
                        · rw [hs3, store_write_other _ _ _ _ hne3,
                            store_write_other _ _ _ _ (Ne.symm hne1), store_write_same]
                        · have := holdsList_append s3 lbr [rb0] plbr [prb0] Gl (Frb0 ++ [])
                            (holdsList_frame s s3 lbr plbr Gl hll
                              (hfr2 Gl (fun x hx => by simp [hx])))
                            (holdsList_cons_cons s3 prb0 [] rb0 [] Frb0 []
                              (holdsPtr_frame s s3 rb0 prb0 Frb0 hrb0
                                (hfr2 Frb0 (fun x hx => by simp [hx])))
                              ((holdsList_nil s3 [] []).2 ⟨rfl, rfl⟩))
                          simpa using this
                      · rw [holdsPtr_some, holdsNode_mk]
                        refine ⟨hpr, prbr1, 0 :: prst, Gr1, by rw [hs3, store_write_same], ?_, rfl⟩
                        exact holdsList_frame s s3 rbr1 prbr1 Gr1 hlr1
                          (hfr2 Gr1 (fun x hx => by simp [hx]))
                      · exact holdsList_frame s s3 bs2 ps2 F2 h2
                          (hfr2 F2 (fun x hx => by simp [hx]))
                    · intro x
                      simp only [List.count_cons, List.count_append, List.cons_append]
                      omega
                    · intro x hx
                      apply hfr
                      intro e
                      apply hx
                      simp only [List.mem_cons, List.mem_singleton, List.not_mem_nil,
                        or_false] at e
                      rcases e with e | e | e <;> subst e <;> simp
                  · refine refinesNode_none _ s p _ _ ?_ ?_
                    · simp only [BTreeNode.moveLeft, Nat.add_one_ne_zero, ↓reduceIte,
                        Nat.add_sub_cancel, hbl, hbr, hsep, nbKeys, BTreeNode.keys, hgt,
                        List.head?_cons, BTreeNode.shift_left, Nat.lt_add_one, hcond, and_false]
                    · simp only [moveLeft, Nat.add_one_ne_zero, ↓reduceIte, Nat.add_sub_cancel, hd,
                        hol, hor, hdr, hsep, NodeObject.nbKeys, hgt, appendEntry, hdl, horb, hd1r,
                        List.head?_cons, copy_assign_key_value, hd1p, hlt, set_append_cons_length,
                        shift_left, hd2r, Nat.lt_add_one, hcond, and_false]
        · refine refinesNode_none _ s p _ _ ?_ ?_
          · cases bl <;> simp only [BTreeNode.moveLeft, Nat.add_one_ne_zero, ↓reduceIte,
              Nat.add_sub_cancel, hbl, hbr, hsep, nbKeys, BTreeNode.keys, hgt]
          · simp only [moveLeft, Nat.add_one_ne_zero, ↓reduceIte, Nat.add_sub_cancel, hd, hor, hdr,
              hsep, NodeObject.nbKeys, hgt]

/-- `combine` on a node the store holds, followed by `destroyObject` on the right child it
returns. -/
theorem combine_holds (order : Nat) (s : Store K V) (p : Nat) (n : BTreeNode K V)
    (F : List Nat) (i : Nat) (hh : HoldsNode s p n F) (hn : F.Nodup) (hw : WF order n)
    (hi : i < n.nbKeys) :
    RefinesNode (Option.map Prod.fst (BTreeNode.combine order n (i + 1)))
      (combine_destroy order s p (i + 1)) s p F := by
  cases n with
  | mk ks br st =>
    simp only [nbKeys, BTreeNode.keys] at hi
    obtain ⟨ks1, sep, ks2, bs1, bl, bR, bs2, ps1, pl, pr, ps2, pst, F1, Fl, Fr, F2, eks, ebr, hk1,
      hb1, hps1, hp, hc, h1, hl, hr, h2, eF, hwl, hwr⟩ :=
      holdsNode_two_children order s p ks br st F i hh hw hi
    subst eks; subst ebr; subst eF; subst hk1
    have hbl := branch_left (ks1 ++ sep :: ks2) bs1 bl (bR :: bs2) st ks1.length hb1.symm
    have hbr := branch_right (ks1 ++ sep :: ks2) bs1 bl bR bs2 st (ks1.length + 1) (by rw [hb1])
    have hsep : (ks1 ++ sep :: ks2).get? ks1.length = some sep := get?_append_cons_length ks1 sep ks2
    have hol := object_branch_left (ks1 ++ sep :: ks2) ps1 pl (pr :: ps2) pst ks1.length hps1.symm
    have hor := object_branch_right (ks1 ++ sep :: ks2) ps1 pl pr ps2 pst (ks1.length + 1)
      (by rw [hps1])
    have hd : deref s p = some ⟨ks1 ++ sep :: ks2, ps1 ++ pl :: pr :: ps2, pst⟩ := by
      rw [deref_eq_of_ne_zero s p hp, hc]
    cases bl with
    | none =>
      rw [holdsPtr_none] at hl
      obtain ⟨e, _⟩ := hl
      subst e
      refine refinesNode_none _ s p _ _ ?_ ?_
      · simp only [BTreeNode.combine, Nat.add_one_ne_zero, ↓reduceIte, Nat.add_sub_cancel, hbl,
          Option.map_none']
      · simp only [combine_destroy, combine, Nat.add_one_ne_zero, ↓reduceIte, Nat.add_sub_cancel,
          hd, hol, deref_null]
    | some l =>
      cases l with
      | mk lks lbr lst =>
        rw [holdsPtr_some] at hl
        obtain ⟨plbr, plst, Gl, hdl, hcl, hpl, hll, eFl⟩ := holdsNode_deref s lks lbr lst pl Fl hl
        subst eFl
        cases bR with
        | none =>
          rw [holdsPtr_none] at hr
          obtain ⟨e, _⟩ := hr
          subst e
          refine refinesNode_none _ s p _ _ ?_ ?_
          · simp only [BTreeNode.combine, Nat.add_one_ne_zero, ↓reduceIte, Nat.add_sub_cancel, hbl,
              hbr, Option.map_none']
          · simp only [combine_destroy, combine, Nat.add_one_ne_zero, ↓reduceIte,
              Nat.add_sub_cancel, hd, hol, hor, hdl, deref_null]
        | some r =>
          cases r with
          | mk rks rbr rst =>
            rw [holdsPtr_some] at hr
            obtain ⟨prbr, prst, Gr, hdr, hcr, hpr, hlr, eFr⟩ :=
              holdsNode_deref s rks rbr rst pr Fr hr
            subst eFr
            obtain ⟨hne1, hne2, hne3, hdisj⟩ := three_pointers p pl pr F1 Gl Gr F2 hn
            by_cases hcond : lks.length + rks.length < MAXKEYS order
            · obtain ⟨s3, hs3⟩ : ∃ s3 : Store K V, s3 =
                  ((s.write pl ⟨lks ++ sep :: rks, plbr ++ prbr, plst.drop (rks.length + 1)⟩).write
                    p ⟨ks1 ++ ks2, ps1 ++ pl :: ps2, 0 :: pst⟩).free pr := ⟨_, rfl⟩
              have hfr : ∀ x, x ∉ [p, pl, pr] → s3 x = s x := by
                intro x hx
                simp only [List.mem_cons, List.mem_singleton, List.not_mem_nil, or_false,
                  not_or] at hx
                rw [hs3, store_free_other _ _ _ hx.2.2, store_write_other _ _ _ _ hx.1,
                  store_write_other _ _ _ _ hx.2.1]
              have hfr2 : ∀ (A : List Nat), (∀ x ∈ A, x ∈ F1 ++ (Gl ++ (Gr ++ F2))) →
                  ∀ x ∈ A, s3 x = s x := by
                intro A hA x hx
                exact hfr x (hdisj x (hA x hx))
              have hv : BTreeNode.combine order
                  (BTreeNode.mk (ks1 ++ sep :: ks2)
                    (bs1 ++ some (BTreeNode.mk lks lbr lst) ::
                      some (BTreeNode.mk rks rbr rst) :: bs2) st) (ks1.length + 1) =
                  some (BTreeNode.mk (ks1 ++ ks2)
                    (bs1 ++ some (BTreeNode.mk (lks ++ sep :: rks) (lbr ++ rbr)
                      (lst.drop (rks.length + 1))) :: bs2) (none :: st),
                    BTreeNode.mk rks rbr rst) := by
                have hset1 : ∀ X, (bs1 ++ some (BTreeNode.mk lks lbr lst) ::
                    some (BTreeNode.mk rks rbr rst) :: bs2).set ks1.length X =
                    bs1 ++ X :: some (BTreeNode.mk rks rbr rst) :: bs2 := by
                  intro X; rw [← hb1]; exact set_append_cons_length _ _ _ _
                have hset2 : ∀ X, (bs1 ++ X :: some (BTreeNode.mk rks rbr rst) :: bs2).eraseIdx
                    (ks1.length + 1) = bs1 ++ X :: bs2 := by
                  intro X; rw [← hb1]; exact eraseIdx_append_cons_succ_length _ _ _ _
                simp only [BTreeNode.combine, Nat.add_one_ne_zero, ↓reduceIte, Nat.add_sub_cancel,
                  hbl, hbr, hsep, nbKeys, BTreeNode.keys, hcond, BTreeNode.m_branch,
                  BTreeNode.m_stale, eraseIdx_append_cons_length, hset1, hset2]
              have hs : combine_destroy order s p (ks1.length + 1) = some s3 := by
                have hd1p : deref (s.write pl
                    ⟨lks ++ sep :: rks, plbr ++ prbr, plst.drop (rks.length + 1)⟩) p =
                    some ⟨ks1 ++ sep :: ks2, ps1 ++ pl :: pr :: ps2, pst⟩ := by
                  rw [deref_eq_of_ne_zero _ p hp, store_write_other _ _ _ _ hne1, hc]
                have hd2r : deref ((s.write pl
                    ⟨lks ++ sep :: rks, plbr ++ prbr, plst.drop (rks.length + 1)⟩).write p
                    ⟨ks1 ++ ks2, ps1 ++ pl :: ps2, 0 :: pst⟩) pr = some ⟨rks, prbr, prst⟩ := by
                  rw [deref_eq_of_ne_zero _ pr hpr, store_write_other _ _ _ _ (Ne.symm hne2),
                    store_write_other _ _ _ _ (Ne.symm hne3), hcr]
                have hset2 : (ps1 ++ pl :: pr :: ps2).eraseIdx (ks1.length + 1) =
                    ps1 ++ pl :: ps2 := by
                  rw [← hps1]; exact eraseIdx_append_cons_succ_length _ _ _ _
                simp only [combine_destroy, combine, Nat.add_one_ne_zero, ↓reduceIte,
                  Nat.add_sub_cancel, hd, hol, hor, hdl, hdr, hsep, NodeObject.nbKeys, hcond, hd1p,
                  eraseIdx_append_cons_length, hset2, destroyObject, hd2r, hs3]
              refine ⟨fun h0 => by rw [hv] at h0; simp at h0, fun n1 hn1 => ?_⟩
              rw [hv] at hn1
              simp only [Option.map_some', Option.some.injEq] at hn1
              subst hn1
              refine ⟨s3, p :: (F1 ++ ((pl :: (Gl ++ Gr)) ++ F2)), hs, ?_, ?_, ?_⟩
              · refine holdsNode_of_child s3 p _ bs1 _ bs2 _ ps1 pl ps2 (0 :: pst) F1 _ F2 hp
                  ?_ ?_ ?_ ?_
                · rw [hs3, store_free_other _ _ _ hne2, store_write_same]
                · exact holdsList_frame s s3 bs1 ps1 F1 h1 (hfr2 F1 (fun x hx => by simp [hx]))
                · rw [holdsPtr_some, holdsNode_mk]
                  refine ⟨hpl, plbr ++ prbr, plst.drop (rks.length + 1), Gl ++ Gr, ?_, ?_, rfl⟩
                  · rw [hs3, store_free_other _ _ _ hne3,
                      store_write_other _ _ _ _ (Ne.symm hne1), store_write_same]
                  · exact holdsList_append s3 lbr rbr plbr prbr Gl Gr
                      (holdsList_frame s s3 lbr plbr Gl hll (hfr2 Gl (fun x hx => by simp [hx])))
                      (holdsList_frame s s3 rbr prbr Gr hlr (hfr2 Gr (fun x hx => by simp [hx])))
                · exact holdsList_frame s s3 bs2 ps2 F2 h2 (hfr2 F2 (fun x hx => by simp [hx]))
              · intro x
                simp only [List.count_cons, List.count_append, List.cons_append]
                omega
              · intro x hx
                apply hfr
                intro e
                apply hx
                simp only [List.mem_cons, List.mem_singleton, List.not_mem_nil, or_false] at e
                rcases e with e | e | e <;> subst e <;> simp
            · refine refinesNode_none _ s p _ _ ?_ ?_
              · simp only [BTreeNode.combine, Nat.add_one_ne_zero, ↓reduceIte, Nat.add_sub_cancel,
                  hbl, hbr, hsep, nbKeys, BTreeNode.keys, hcond, Option.map_none']
              · simp only [combine_destroy, combine, Nat.add_one_ne_zero, ↓reduceIte,
                  Nat.add_sub_cancel, hd, hol, hor, hdl, hdr, hsep, NodeObject.nbKeys, hcond]

/-- The branch slot `j` of a held node, for `j` up to its key count: the pointer in the
store is null when the slot holds no node, and points to the object of the node it
holds. -/
theorem holdsNode_branch (order : Nat) (s : Store K V) (p : Nat) (ks : List (K × V))
    (br st : List (Option (BTreeNode K V))) (F : List Nat) (j : Nat)
    (hh : HoldsNode s p (BTreeNode.mk ks br st) F) (hw : WF order (BTreeNode.mk ks br st))
    (hj : j ≤ ks.length) :
    ∃ pbr pst, deref s p = some ⟨ks, pbr, pst⟩ ∧
      ((BTreeNode.mk ks br st).branch j = none → (NodeObject.mk ks pbr pst).branch j = 0) ∧
      ∀ c, (BTreeNode.mk ks br st).branch j = some c →
        (NodeObject.mk ks pbr pst).branch j ≠ 0 ∧
        ∃ cb cst, deref s ((NodeObject.mk ks pbr pst).branch j) = some ⟨c.keys, cb, cst⟩ := by
  obtain ⟨bs1, b, bs2, ps1, q, ps2, pst, F1, Fq, F2, ebr, hb1, hps1, hp, hc, h1, hq, h2, eF, hwb⟩ :=
    holdsNode_child order s p ks br st F j hh hw hj
  subst ebr
  have hbl := branch_left ks bs1 b bs2 st j hb1.symm
  have hol := object_branch_left ks ps1 q ps2 pst j hps1.symm
  refine ⟨ps1 ++ q :: ps2, pst, by rw [deref_eq_of_ne_zero s p hp, hc], ?_, ?_⟩
  · intro h0
    rw [hbl] at h0
    subst h0
    rw [holdsPtr_none] at hq
    rw [hol]; exact hq.1
  · intro c hcb
    rw [hbl] at hcb
    subst hcb
    cases c with
    | mk cks cbr cst =>
      rw [holdsPtr_some] at hq
      obtain ⟨pcbr, pcst, G, hdc, _, hq0, _, _⟩ := holdsNode_deref s cks cbr cst q Fq hq
      rw [hol]
      exact ⟨hq0, pcbr, pcst, hdc⟩

theorem refinesNode_trans (vres : Option (BTreeNode K V)) (sres : Option (Store K V))
    (s s1 : Store K V) (p : Nat) (F F1 : List Nat)
    (h : RefinesNode vres sres s1 p F1) (hc : ∀ x, F1.count x ≤ F.count x)
    (hf : ∀ x, x ∉ F → s1 x = s x) : RefinesNode vres sres s p F := by
  refine ⟨h.1, fun n1 hn1 => ?_⟩
  obtain ⟨s2, F2, e, hh, hc2, hf2⟩ := h.2 n1 hn1
  refine ⟨s2, F2, e, hh, fun x => le_trans (hc2 x) (hc x), fun x hx => ?_⟩
  rw [hf2 x (fun e1 => hx (mem_of_count_le F1 F hc x e1)), hf x hx]

/-- `internal_restore` on a node the store holds. -/
theorem internal_restore_holds (order h : Nat) (s : Store K V) (p : Nat)
    (n : BTreeNode K V) (F : List Nat) (position : Nat) (hh : HoldsNode s p n F) (hn : F.Nodup)
    (hw : WF order n) (hu : Uniform h n) (hp : position ≤ n.nbKeys) :
    RefinesNode (BTree.internal_restore order n position)
      (internal_restore order s p position) s p F := by
  cases n with
  | mk ks br st =>
    simp only [nbKeys, BTreeNode.keys] at hp
    have hk : (BTreeNode.mk ks br st).keys = ks := rfl
    by_cases hlast : position = ks.length
    · by_cases h0 : position = 0
      · refine refinesNode_none _ s p _ _ ?_ ?_
        · simp only [BTree.internal_restore, nbKeys, hk, hlast.symm, h0,
            ↓reduceIte]
        · obtain ⟨pbr, pst, hd, _, _⟩ := holdsNode_branch order s p ks br st F 0 hh hw (by omega)
          simp only [internal_restore, hd, NodeObject.nbKeys, hlast.symm, h0, ↓reduceIte]
      · obtain ⟨pbr, pst, hd, hb0, hb1⟩ :=
          holdsNode_branch order s p ks br st F (position - 1) hh hw (by omega)
        have hpos : position - 1 + 1 = position := by omega
        cases hbv : (BTreeNode.mk ks br st).branch (position - 1) with
        | none =>
          refine refinesNode_none _ s p _ _ ?_ ?_
          · simp only [BTree.internal_restore, nbKeys, hk, hlast.symm, h0,
              ↓reduceIte, hbv]
          · simp only [internal_restore, hd, NodeObject.nbKeys, hlast.symm, h0, ↓reduceIte,
              hb0 hbv, deref_null]
        | some l =>
          obtain ⟨_, cb, cst, hdl⟩ := hb1 l hbv
          by_cases hgt : l.keys.length > MINKEYS order
          · have hv : BTree.internal_restore order (BTreeNode.mk ks br st) position =
                BTreeNode.moveRight order (BTreeNode.mk ks br st) (position - 1) := by
              simp only [BTree.internal_restore, nbKeys, hk, hlast.symm, h0,
                ↓reduceIte, hbv, hgt]
            have hs : internal_restore order s p position = moveRight order s p (position - 1) := by
              simp only [internal_restore, hd, NodeObject.nbKeys, hlast.symm, h0, ↓reduceIte, hdl,
                hgt]
            rw [hv, hs]
            exact moveRight_holds order s p _ F (position - 1) hh hn hw (by
              simp only [nbKeys, BTreeNode.keys]; omega)
          · have hv : BTree.internal_restore order (BTreeNode.mk ks br st) position =
                Option.map Prod.fst
                  (BTreeNode.combine order (BTreeNode.mk ks br st) (position - 1 + 1)) := by
              rw [hpos]
              simp only [BTree.internal_restore, nbKeys, hk, hlast.symm, h0,
                ↓reduceIte, hbv, hgt]
              cases BTreeNode.combine order (BTreeNode.mk ks br st) position <;> rfl
            have hs : internal_restore order s p position =
                combine_destroy order s p (position - 1 + 1) := by
              rw [hpos]
              simp only [internal_restore, hd, NodeObject.nbKeys, hlast.symm, h0, ↓reduceIte, hdl,
                hgt]
            rw [hv, hs]
            exact combine_holds order s p _ F (position - 1) hh hn hw (by
              simp only [nbKeys, BTreeNode.keys]; omega)
    · by_cases h0 : position = 0
      · subst h0
        obtain ⟨pbr, pst, hd, hb0, hb1⟩ :=
          holdsNode_branch order s p ks br st F 1 hh hw (by omega)
        have hl2 : ¬ (0 = ks.length) := hlast
        cases hbv : (BTreeNode.mk ks br st).branch 1 with
        | none =>
          refine refinesNode_none _ s p _ _ ?_ ?_
          · simp only [BTree.internal_restore, nbKeys, hk, hl2, ↓reduceIte,
              Nat.zero_add, hbv]
          · simp only [internal_restore, hd, NodeObject.nbKeys, hl2, ↓reduceIte, Nat.zero_add,
              hb0 hbv, deref_null]
        | some r =>
          obtain ⟨_, cb, cst, hdr⟩ := hb1 r hbv
          by_cases hgt : r.keys.length > MINKEYS order
          · have hv : BTree.internal_restore order (BTreeNode.mk ks br st) 0 =
                BTreeNode.moveLeft order (BTreeNode.mk ks br st) (0 + 1) := by
              simp only [BTree.internal_restore, nbKeys, hk, hl2, ↓reduceIte,
                Nat.zero_add, hbv, hgt]
            have hs : internal_restore order s p 0 = moveLeft order s p (0 + 1) := by
              simp only [internal_restore, hd, NodeObject.nbKeys, hl2, ↓reduceIte, Nat.zero_add,
                hdr, hgt]
            rw [hv, hs]
            exact moveLeft_holds order s p _ F 0 hh hn hw (by
              simp only [nbKeys, BTreeNode.keys]; omega)
          · have hv : BTree.internal_restore order (BTreeNode.mk ks br st) 0 =
                Option.map Prod.fst (BTreeNode.combine order (BTreeNode.mk ks br st) (0 + 1)) := by
              simp only [BTree.internal_restore, nbKeys, hk, hl2, ↓reduceIte,
                Nat.zero_add, hbv, hgt]
              cases BTreeNode.combine order (BTreeNode.mk ks br st) 1 <;> rfl
            have hs : internal_restore order s p 0 = combine_destroy order s p (0 + 1) := by
              simp only [internal_restore, hd, NodeObject.nbKeys, hl2, ↓reduceIte, Nat.zero_add,
                hdr, hgt]
            rw [hv, hs]
            exact combine_holds order s p _ F 0 hh hn hw (by
              simp only [nbKeys, BTreeNode.keys]; omega)
      · -- an interior branch
        obtain ⟨pbr, pst, hd, hb0, hb1⟩ :=
          holdsNode_branch order s p ks br st F (position - 1) hh hw (by omega)
        have hpos : position - 1 + 1 = position := by omega
        have hlt : position < ks.length := by omega
        cases hbv : (BTreeNode.mk ks br st).branch (position - 1) with
        | none =>
          refine refinesNode_none _ s p _ _ ?_ ?_
          · simp only [BTree.internal_restore, nbKeys, hk, hlast, h0,
              ↓reduceIte, hbv]
          · simp only [internal_restore, hd, NodeObject.nbKeys, hlast, h0, ↓reduceIte,
              hb0 hbv, deref_null]
        | some l =>
          obtain ⟨_, cb, cst, hdl⟩ := hb1 l hbv
          -- the second half, from a node `n1` held in a store `s1`
          have second : ∀ (s1 : Store K V) (n1 : BTreeNode K V) (F1 : List Nat)
              (vres : Option (BTreeNode K V)) (sres : Option (Store K V)),
              HoldsNode s1 p n1 F1 → F1.Nodup → WF order n1 → n1.nbKeys = ks.length →
              (n1.branch (position + 1) = none → vres = none) →
              (∀ r, n1.branch (position + 1) = some r → r.keys.length > MINKEYS order →
                vres = BTreeNode.moveLeft order n1 (position + 1)) →
              (∀ r, n1.branch (position + 1) = some r → ¬ r.keys.length > MINKEYS order →
                vres = Option.map Prod.fst (BTreeNode.combine order n1 (position - 1 + 1))) →
              (∀ o1, deref s1 p = some o1 → deref s1 (o1.branch (position + 1)) = none →
                sres = none) →
              (∀ o1 r, deref s1 p = some o1 → deref s1 (o1.branch (position + 1)) = some r →
                r.keys.length > MINKEYS order → sres = moveLeft order s1 p (position + 1)) →
              (∀ o1 r, deref s1 p = some o1 → deref s1 (o1.branch (position + 1)) = some r →
                ¬ r.keys.length > MINKEYS order →
                sres = combine_destroy order s1 p (position - 1 + 1)) →
              RefinesNode vres sres s1 p F1 := by
            intro s1 n1 F1 vres sres hh1 hn1 hw1 hk1 v0 v1 v2 t0 t1 t2
            cases n1 with
            | mk ks' br' st' =>
              simp only [nbKeys, BTreeNode.keys] at hk1
              obtain ⟨pbr1, pst1, hd1, hc0, hc1⟩ :=
                holdsNode_branch order s1 p ks' br' st' F1 (position + 1) hh1 hw1 (by omega)
              cases hbv1 : (BTreeNode.mk ks' br' st').branch (position + 1) with
              | none =>
                refine refinesNode_none _ s1 p _ _ (v0 hbv1) (t0 _ hd1 ?_)
                rw [hc0 hbv1, deref_null]
              | some r =>
                obtain ⟨_, cb1, cst1, hdr⟩ := hc1 r hbv1
                by_cases hgt1 : r.keys.length > MINKEYS order
                · rw [v1 r hbv1 hgt1, t1 _ _ hd1 hdr hgt1]
                  exact moveLeft_holds order s1 p _ F1 position hh1 hn1 hw1 (by
                    simp only [nbKeys, BTreeNode.keys]; omega)
                · rw [v2 r hbv1 hgt1, t2 _ _ hd1 hdr hgt1]
                  exact combine_holds order s1 p _ F1 (position - 1) hh1 hn1 hw1 (by
                    simp only [nbKeys, BTreeNode.keys]; omega)
          by_cases hgt : l.keys.length > MINKEYS order
          · -- first `moveRight`
            have hR := moveRight_holds order s p _ F (position - 1) hh hn hw (by
              simp only [nbKeys, BTreeNode.keys]; omega)
            cases hmv : BTreeNode.moveRight order (BTreeNode.mk ks br st) (position - 1) with
            | none =>
              refine refinesNode_none _ s p _ _ ?_ ?_
              · simp only [BTree.internal_restore, nbKeys, hk, hlast, h0,
                  ↓reduceIte, hbv, hgt, hmv]
              · simp only [internal_restore, hd, NodeObject.nbKeys, hlast, h0, ↓reduceIte, hdl,
                  hgt, hR.1 hmv]
            | some n1 =>
              obtain ⟨s1, F1, e1, hh1, hc1, hf1⟩ := hR.2 n1 hmv
              obtain ⟨w1, _, _, k1, _⟩ := moveRight_spec order h _ n1 (position - 1) hw hu (by
                simp only [nbKeys, BTreeNode.keys]; omega) hmv
              refine refinesNode_trans _ _ s s1 p F F1
                (second s1 n1 F1 _ _ hh1 (nodup_of_count_le F1 F hc1 hn) w1 (by
                  rw [k1]; rfl) ?_ ?_ ?_ ?_ ?_ ?_) hc1 hf1
              · intro hb
                simp only [BTree.internal_restore, nbKeys, hk, hlast, h0, ↓reduceIte, hbv, hgt,
                  hmv, hb]
              · intro r hb hg
                simp only [BTree.internal_restore, nbKeys, hk, hlast, h0, ↓reduceIte, hbv, hgt,
                  hmv, hb, hg]
              · intro r hb hg
                rw [hpos]
                simp only [BTree.internal_restore, nbKeys, hk, hlast, h0, ↓reduceIte, hbv, hgt,
                  hmv, hb, hg]
                cases BTreeNode.combine order n1 position <;> rfl
              · intro o1 ho hb
                simp only [internal_restore, hd, NodeObject.nbKeys, hlast, h0, ↓reduceIte, hdl,
                  hgt, e1, ho, hb]
              · intro o1 r ho hb hg
                simp only [internal_restore, hd, NodeObject.nbKeys, hlast, h0, ↓reduceIte, hdl,
                  hgt, e1, ho, hb, hg]
              · intro o1 r ho hb hg
                rw [hpos]
                simp only [internal_restore, hd, NodeObject.nbKeys, hlast, h0, ↓reduceIte, hdl,
                  hgt, e1, ho, hb, hg]
          · refine second s (BTreeNode.mk ks br st) F _ _ hh hn hw rfl ?_ ?_ ?_ ?_ ?_ ?_
            · intro hb
              simp only [BTree.internal_restore, nbKeys, hk, hlast, h0, ↓reduceIte, hbv, hgt, hb]
            · intro r hb hg
              simp only [BTree.internal_restore, nbKeys, hk, hlast, h0, ↓reduceIte, hbv, hgt,
                hb, hg]
            · intro r hb hg
              rw [hpos]
              simp only [BTree.internal_restore, nbKeys, hk, hlast, h0, ↓reduceIte, hbv, hgt,
                hb, hg]
              cases BTreeNode.combine order (BTreeNode.mk ks br st) position <;> rfl
            · intro o1 ho hb
              simp only [internal_restore, hd, NodeObject.nbKeys, hlast, h0, ↓reduceIte, hdl,
                hgt, hb, Option.some.injEq] at ho ⊢
              subst ho
              simp only [hb]
            · intro o1 r ho hb hg
              rw [hd] at ho
              simp only [Option.some.injEq] at ho
              subst ho
              simp only [internal_restore, hd, NodeObject.nbKeys, hlast, h0, ↓reduceIte, hdl,
                hgt, hb, hg]
            · intro o1 r ho hb hg
              rw [hd] at ho
              simp only [Option.some.injEq] at ho
              subst ho
              rw [hpos]
              simp only [internal_restore, hd, NodeObject.nbKeys, hlast, h0, ↓reduceIte, hdl,
                hgt, hb, hg]

theorem refinesNode_refl (s : Store K V) (p : Nat) (n : BTreeNode K V) (F : List Nat)
    (hh : HoldsNode s p n F) : RefinesNode (some n) (some s) s p F := by
  refine ⟨fun h0 => by simp at h0, fun n1 hn1 => ?_⟩
  simp only [Option.some.injEq] at hn1
  subst hn1
  exact ⟨s, F, rfl, hh, fun _ => le_refl _, fun _ _ => rfl⟩

/-- The closing test of `internal_recursive_remove` on a node the store holds. -/
theorem restore_if_underflow_holds (order h : Nat) (s : Store K V) (p : Nat)
    (n : BTreeNode K V) (F : List Nat) (position : Nat) (hh : HoldsNode s p n F) (hn : F.Nodup)
    (hw : WF order n) (hu : Uniform h n) (hp : position ≤ n.nbKeys) :
    RefinesNode (BTree.restore_if_underflow order n position)
      (restore_if_underflow order s p position) s p F := by
  cases n with
  | mk ks br st =>
    simp only [nbKeys, BTreeNode.keys] at hp
    obtain ⟨pbr, pst, hd, hb0, hb1⟩ := holdsNode_branch order s p ks br st F position hh hw hp
    cases hbv : (BTreeNode.mk ks br st).branch position with
    | none =>
      have hv : BTree.restore_if_underflow order (BTreeNode.mk ks br st) position =
          some (BTreeNode.mk ks br st) := by
        simp only [BTree.restore_if_underflow, hbv]
      have hs : restore_if_underflow order s p position = some s := by
        simp only [restore_if_underflow, hd, hb0 hbv, ne_eq, not_true_eq_false, ↓reduceIte]
      rw [hv, hs]
      exact refinesNode_refl s p _ F hh
    | some c =>
      obtain ⟨hq0, cb, cst, hdc⟩ := hb1 c hbv
      by_cases hlt : c.keys.length < MINKEYS order
      · have hv : BTree.restore_if_underflow order (BTreeNode.mk ks br st) position =
            BTree.internal_restore order (BTreeNode.mk ks br st) position := by
          simp only [BTree.restore_if_underflow, hbv, nbKeys, hlt, ↓reduceIte]
        have hs : restore_if_underflow order s p position =
            internal_restore order s p position := by
          simp only [restore_if_underflow, hd, ne_eq, hq0, not_false_eq_true, ↓reduceIte, hdc,
            NodeObject.nbKeys, hlt]
        rw [hv, hs]
        exact internal_restore_holds order h s p _ F position hh hn hw hu (by
          simp only [nbKeys, BTreeNode.keys]; exact hp)
      · have hv : BTree.restore_if_underflow order (BTreeNode.mk ks br st) position =
            some (BTreeNode.mk ks br st) := by
          simp only [BTree.restore_if_underflow, hbv, nbKeys, hlt, ↓reduceIte]
        have hs : restore_if_underflow order s p position = some s := by
          simp only [restore_if_underflow, hd, ne_eq, hq0, not_false_eq_true, ↓reduceIte, hdc,
            NodeObject.nbKeys, hlt]
        rw [hv, hs]
        exact refinesNode_refl s p _ F hh

/-- Branch slots that hold no node are null pointers. -/
theorem holdsList_all_none (s : Store K V) (bs : List (Option (BTreeNode K V))) :
    ∀ (ps F : List Nat), HoldsList s ps bs F → (∀ x ∈ bs, x = none) →
      (∀ q ∈ ps, q = 0) ∧ F = [] := by
  induction bs with
  | nil =>
    intro ps F h _
    rw [holdsList_nil] at h
    rw [h.1, h.2]
    exact ⟨by simp, rfl⟩
  | cons b bs ih =>
    intro ps F h hall
    rw [holdsList_cons] at h
    obtain ⟨q, qs, F1, F2, e, hq, hqs, eF⟩ := h
    subst e; subst eF
    have hb := hall b (List.mem_cons_self _ _)
    subst hb
    rw [holdsPtr_none] at hq
    obtain ⟨i1, i2⟩ := ih qs F2 hqs (fun x hx => hall x (List.mem_cons_of_mem _ hx))
    rw [hq.1, hq.2, i2]
    refine ⟨?_, rfl⟩
    intro x hx
    rcases List.mem_cons.1 hx with e | e
    · exact e
    · exact i1 x e

theorem holdsList_of_all_none (s : Store K V) (bs : List (Option (BTreeNode K V))) :
    ∀ (ps : List Nat), ps.length = bs.length → (∀ x ∈ bs, x = none) → (∀ q ∈ ps, q = 0) →
      HoldsList s ps bs [] := by
  induction bs with
  | nil =>
    intro ps hl _ _
    rw [holdsList_nil]
    exact ⟨List.eq_nil_of_length_eq_zero hl, rfl⟩
  | cons b bs ih =>
    intro ps hl hall hz
    cases ps with
    | nil => simp at hl
    | cons q qs =>
      have hb := hall b (List.mem_cons_self _ _)
      have hq := hz q (List.mem_cons_self _ _)
      subst hb; subst hq
      have := holdsList_cons_cons s 0 qs none bs [] []
        ((holdsPtr_none s 0 []).2 ⟨rfl, rfl⟩)
        (ih qs (by simpa using hl) (fun x hx => hall x (List.mem_cons_of_mem _ hx))
          (fun x hx => hz x (List.mem_cons_of_mem _ hx)))
      simpa using this

theorem getD_of_all_eq {α : Type} (l : List α) (d e : α) (i : Nat) (h : ∀ x ∈ l, x = e)
    (hi : i < l.length) : l.getD i d = e := by
  rw [List.getD_eq_getElem?_getD, List.getElem?_eq_getElem hi]
  exact h _ (List.getElem_mem hi)

theorem getLast?_of_all_eq {α : Type} (l : List α) (e : α) (h : ∀ x ∈ l, x = e)
    (hl : l ≠ []) : l.getLast? = some e := by
  rw [List.getLast?_eq_getLast l hl, h _ (List.getLast_mem hl)]

/-- `removeLeafData` on a leaf the store holds. -/
theorem removeLeafData_holds (s : Store K V) (p : Nat) (ks : List (K × V))
    (br st : List (Option (BTreeNode K V))) (F : List Nat) (idx : Nat)
    (hh : HoldsNode s p (BTreeNode.mk ks br st) F) (hbr : br.length = ks.length + 1)
    (hall : ∀ x ∈ br, x = none) (hidx : idx < ks.length) :
    RefinesNode (BTreeNode.removeLeafData (BTreeNode.mk ks br st) idx) (removeLeafData s p idx)
      s p F := by
  obtain ⟨pbr, pst, G, hd, hc, hp, hl, eF⟩ := holdsNode_deref s ks br st p F hh
  obtain ⟨hz, eG⟩ := holdsList_all_none s br pbr G hl hall
  subst eG; subst eF
  have hpl := holdsList_length s br pbr [] hl
  have hvb : (BTreeNode.mk ks br st).branch idx = none := by
    simp only [branch, BTreeNode.m_branch, BTreeNode.m_stale, List.getD_eq_getElem?_getD]
    rw [List.getElem?_append_left (by omega), ← List.getD_eq_getElem?_getD]
    exact getD_of_all_eq br none none idx hall (by omega)
  have hsb : (NodeObject.mk ks pbr pst).branch idx = 0 := by
    simp only [NodeObject.branch, List.getD_eq_getElem?_getD]
    rw [List.getElem?_append_left (by omega), ← List.getD_eq_getElem?_getD]
    exact getD_of_all_eq pbr 0 0 idx hz (by omega)
  have hbne : br ≠ [] := by intro e; rw [e] at hbr; simp at hbr
  have hpne : pbr ≠ [] := by intro e; rw [e] at hpl; rw [← hpl] at hbr; simp at hbr
  have done : ∀ (ks' : List (K × V)) (br' st' : List (Option (BTreeNode K V)))
      (pbr' pst' : List Nat), pbr'.length = br'.length → (∀ x ∈ br', x ∈ br) →
      (∀ x ∈ pbr', x ∈ pbr) →
      RefinesNode (some (BTreeNode.mk ks' br' st')) (some (s.write p ⟨ks', pbr', pst'⟩)) s p
        [p] := by
    intro ks' br' st' pbr' pst' hlen hsub hsubp
    refine ⟨fun h0 => by simp at h0, fun n1 hn1 => ?_⟩
    simp only [Option.some.injEq] at hn1
    subst hn1
    refine ⟨_, [p], rfl, ?_, fun _ => le_refl _, fun x hx => ?_⟩
    · rw [holdsNode_mk]
      exact ⟨hp, pbr', pst', [], store_write_same _ _ _,
        holdsList_of_all_none _ br' pbr' hlen (fun x hx => hall x (hsub x hx))
          (fun x hx => hz x (hsubp x hx)), rfl⟩
    · simp only [List.mem_singleton] at hx
      exact store_write_other _ _ _ _ hx
  by_cases hlast : idx + 1 = ks.length
  · have hv : BTreeNode.removeLeafData (BTreeNode.mk ks br st) idx =
        some (BTreeNode.mk ks.dropLast br.dropLast (none :: st)) := by
      simp only [BTreeNode.removeLeafData, hvb, nbKeys, BTreeNode.keys, hlast, ↓reduceIte,
        BTreeNode.m_branch, BTreeNode.m_stale, getLast?_of_all_eq br none hall hbne]
    have hs : removeLeafData s p idx =
        some (s.write p ⟨ks.dropLast, pbr.dropLast, 0 :: pst⟩) := by
      simp only [removeLeafData, hd, hsb, ne_eq, not_true_eq_false, ↓reduceIte,
        NodeObject.nbKeys, hlast, getLast?_of_all_eq pbr 0 hz hpne]
    rw [hv, hs]
    exact done _ _ _ _ _ (by simp [hpl]) (fun x hx => List.mem_of_mem_dropLast hx)
      (fun x hx => List.mem_of_mem_dropLast hx)
  · have hcond : 0 < idx + 1 ∧ idx + 1 < ks.length := ⟨by omega, by omega⟩
    have hv : BTreeNode.removeLeafData (BTreeNode.mk ks br st) idx =
        some (BTreeNode.mk (ks.eraseIdx idx) (br.eraseIdx idx) (none :: st)) := by
      simp only [BTreeNode.removeLeafData, hvb, nbKeys, BTreeNode.keys, hlast, ↓reduceIte,
        BTreeNode.shift_left, hcond, and_self, Nat.add_sub_cancel, BTreeNode.m_branch,
        BTreeNode.m_stale]
    have hs : removeLeafData s p idx =
        some (s.write p ⟨ks.eraseIdx idx, pbr.eraseIdx idx, 0 :: pst⟩) := by
      simp only [removeLeafData, hd, hsb, ne_eq, not_true_eq_false, ↓reduceIte,
        NodeObject.nbKeys, hlast, shift_left, hcond, and_self, Nat.add_sub_cancel]
    rw [hv, hs]
    exact done _ _ _ _ _ (by rw [List.length_eraseIdx, List.length_eraseIdx, hpl])
      (fun x hx => List.eraseIdx_subset _ _ hx) (fun x hx => List.eraseIdx_subset _ _ hx)

/-- The loop of `copyInPredecessor` on a subtree the store holds stops at a node whose last
pair is the pair that `lastOfRightmost` returns. -/
theorem rightmost_leaf_holds (order : Nat) (s : Store K V) (c : BTreeNode K V) :
    ∀ (fuel h q : Nat) (F : List Nat), HoldsNode s q c F → WF order c →
      UniformPtr h (some c) → h ≤ fuel →
      ∃ r rks rbr rst, rightmost fuel s q = some r ∧ deref s r = some ⟨rks, rbr, rst⟩ ∧
        lastOfRightmost c = rks.getLast? := by
  induction c using node_induct with
  | h ks br st ih =>
    intro fuel h q F hh hw hu hf
    obtain ⟨bs1, b, bs2, ps1, pb, ps2, pst, F1, Fq, F2, ebr, hb1, hps1, hp, hc, h1, hq, h2, eF,
      hwb⟩ := holdsNode_child order s q ks br st F ks.length hh hw (le_refl _)
    subst ebr
    rw [uniformPtr_some] at hu
    obtain ⟨hpos, hu⟩ := hu
    simp only [BTreeNode.m_branch] at hu
    have hd : deref s q = some ⟨ks, ps1 ++ pb :: ps2, pst⟩ := by
      rw [deref_eq_of_ne_zero s q hp, hc]
    have hol := object_branch_left ks ps1 pb ps2 pst ks.length hps1.symm
    cases fuel with
    | zero => omega
    | succ f =>
      cases b with
      | none =>
        rw [holdsPtr_none] at hq
        refine ⟨q, ks, ps1 ++ pb :: ps2, pst, ?_, hd, ?_⟩
        · have hol0 : (NodeObject.mk ks (ps1 ++ pb :: ps2) pst).branch ks.length = 0 := by
            rw [hol]; exact hq.1
          simp only [rightmost, hd, NodeObject.nbKeys, hol0, ne_eq, not_true_eq_false,
            ↓reduceIte]
        · simp only [lastOfRightmost, lastOfRightmostAt_eq]
          rw [← hb1, get?_append_cons_length]
      | some c1 =>
        have hub := hu (some c1) (by simp)
        have hpb0 : pb ≠ 0 := by
          intro e
          have := (holdsPtr_eq_zero_iff s (some c1) pb Fq hq).1 e
          simp at this
        rw [holdsPtr_some] at hq
        have hh0 : 0 < h - 1 := by
          rw [uniformPtr_some] at hub; exact hub.1
        obtain ⟨r, rks, rbr, rst, e1, e2, e3⟩ := ih c1 (by simp) f (h - 1) pb Fq hq hwb hub
          (by omega)
        refine ⟨r, rks, rbr, rst, ?_, e2, ?_⟩
        · simp only [rightmost, hd, NodeObject.nbKeys, hol, ne_eq, hpb0, not_false_eq_true,
            ↓reduceIte, e1]
        · simp only [lastOfRightmost, lastOfRightmostAt_eq]
          rw [← hb1, get?_append_cons_length]
          exact e3

/-- `copyInPredecessor` on a node the store holds: both fail, or the pair at the index is
replaced in the node and in its object by one pair. -/
theorem copyInPredecessor_holds (order fuel h : Nat) (s : Store K V) (p : Nat)
    (ks : List (K × V)) (br st : List (Option (BTreeNode K V))) (pbr pst : List Nat)
    (G : List Nat) (idx : Nat) (hp : p ≠ 0) (hc : s p = some ⟨ks, pbr, pst⟩)
    (hl : HoldsList s pbr br G) (hw : WF order (BTreeNode.mk ks br st))
    (hu : ∀ b ∈ br, UniformPtr h b) (hf : h ≤ fuel) (hidx : idx < ks.length) :
    (BTreeNode.copyInPredecessor (BTreeNode.mk ks br st) idx = none ∧
      copyInPredecessor fuel s p idx = none) ∨
    ∃ kv, BTreeNode.copyInPredecessor (BTreeNode.mk ks br st) idx =
        some (BTreeNode.mk (ks.set idx kv) br st) ∧
      copyInPredecessor fuel s p idx = some (s.write p ⟨ks.set idx kv, pbr, pst⟩) := by
  have hh : HoldsNode s p (BTreeNode.mk ks br st) (p :: G) := by
    rw [holdsNode_mk]; exact ⟨hp, pbr, pst, G, hc, hl, rfl⟩
  obtain ⟨bs1, b, bs2, ps1, q, ps2, pst', F1, Fq, F2, ebr, hb1, hps1, _, hc', h1, hq, h2, eF,
    hwb⟩ := holdsNode_child order s p ks br st (p :: G) idx hh hw (le_of_lt hidx)
  rw [hc] at hc'
  simp only [Option.some.injEq, NodeObject.mk.injEq, true_and] at hc'
  obtain ⟨e1, e2⟩ := hc'
  subst e1; subst e2; subst ebr
  have hd : deref s p = some ⟨ks, ps1 ++ q :: ps2, pst⟩ := by
    rw [deref_eq_of_ne_zero s p hp, hc]
  have hbl := branch_left ks bs1 b bs2 st idx hb1.symm
  have hol := object_branch_left ks ps1 q ps2 pst idx hps1.symm
  cases b with
  | none =>
    left
    rw [holdsPtr_none] at hq
    refine ⟨by simp only [BTreeNode.copyInPredecessor, hbl], ?_⟩
    have hol0 : (NodeObject.mk ks (ps1 ++ q :: ps2) pst).branch idx = 0 := by
      rw [hol]; exact hq.1
    simp only [copyInPredecessor, hd, hol0]
    cases fuel with
    | zero => simp only [rightmost]
    | succ f => simp only [rightmost, deref_null]
  | some c =>
    rw [holdsPtr_some] at hq
    obtain ⟨r, rks, rbr, rst, e1, e2, e3⟩ := rightmost_leaf_holds order s c fuel h q Fq hq hwb
      (hu (some c) (by simp)) hf
    cases hg : rks.getLast? with
    | none =>
      left
      rw [hg] at e3
      refine ⟨by simp only [BTreeNode.copyInPredecessor, hbl, e3], ?_⟩
      simp only [copyInPredecessor, hd, hol, e1, e2, hg]
    | some kv =>
      right
      rw [hg] at e3
      refine ⟨kv, ?_, ?_⟩
      · simp only [BTreeNode.copyInPredecessor, hbl, e3, nbKeys, BTreeNode.keys, hidx, ↓reduceIte,
          BTreeNode.m_branch, BTreeNode.m_stale]
      · simp only [copyInPredecessor, hd, hol, e1, e2, hg, copy_assign_key_value,
          NodeObject.nbKeys, hidx, ↓reduceIte]

theorem refinesRemove_none (vres : Option (Option (BTreeNode K V) × Bool))
    (sres : Option (Store K V × Bool)) (s : Store K V) (q : Nat) (F : List Nat)
    (hv : vres = none) (hs : sres = none) : RefinesRemove vres sres s q F := by
  subst hv
  exact ⟨fun _ => hs, fun c r h1 => by simp at h1⟩

theorem refinesRemove_some (vres : Option (Option (BTreeNode K V) × Bool))
    (sres : Option (Store K V × Bool)) (s s1 : Store K V) (q : Nat) (F F1 : List Nat)
    (child : Option (BTreeNode K V)) (result : Bool)
    (hv : vres = some (child, result)) (hs : sres = some (s1, result))
    (hh : HoldsPtr s1 q child F1) (hc : ∀ x, F1.count x ≤ F.count x)
    (hf : ∀ x, x ∉ F → s1 x = s x) : RefinesRemove vres sres s q F := by
  subst hv
  refine ⟨fun h0 => by simp at h0, fun c r h1 => ?_⟩
  simp only [Option.some.injEq, Prod.mk.injEq] at h1
  obtain ⟨e1, e2⟩ := h1
  subst e1; subst e2
  exact ⟨s1, F1, hs, hh, hc, hf⟩

theorem removeAgrees_none [LinearOrder K] (order : Nat) :
    RemoveAgrees order (none : Option (BTreeNode K V)) := by
  intro fuel h key s q F hh _ _ _ _ hf
  rw [holdsPtr_none] at hh
  obtain ⟨e, eF⟩ := hh
  subst e; subst eF
  cases fuel with
  | zero => omega
  | succ f =>
    exact refinesRemove_some _ _ s s 0 [] [] none false
      (by simp only [BTree.internal_recursive_remove])
      (by simp only [internal_recursive_remove, ↓reduceIte])
      ((holdsPtr_none s 0 []).2 ⟨rfl, rfl⟩) (fun _ => le_refl _) (fun _ _ => rfl)

/-- The node of a parent after a step on one of its branches: it is held in the store after
the step, when the step has left the rest of the parent's nodes alone. -/
theorem holdsNode_child_step (s s1 : Store K V) (p : Nat) (ks : List (K × V))
    (bs1 : List (Option (BTreeNode K V))) (child : Option (BTreeNode K V))
    (bs2 st : List (Option (BTreeNode K V))) (ps1 : List Nat) (q : Nat) (ps2 pst : List Nat)
    (F1 Fq Fq1 F2 : List Nat) (hp : p ≠ 0)
    (hc : s1 p = some ⟨ks, ps1 ++ q :: ps2, pst⟩)
    (h1 : HoldsList s ps1 bs1 F1) (h2 : HoldsList s ps2 bs2 F2)
    (hq : HoldsPtr s1 q child Fq1) (hcnt : ∀ x, Fq1.count x ≤ Fq.count x)
    (hf : ∀ x ∈ F1 ++ F2, s1 x = s x) :
    HoldsNode s1 p (BTreeNode.mk ks (bs1 ++ child :: bs2) st) (p :: (F1 ++ (Fq1 ++ F2))) ∧
      ∀ x, (p :: (F1 ++ (Fq1 ++ F2))).count x ≤ (p :: (F1 ++ (Fq ++ F2))).count x := by
  refine ⟨holdsNode_of_child s1 p ks bs1 child bs2 st ps1 q ps2 pst F1 Fq1 F2 hp hc
    (holdsList_frame s s1 bs1 ps1 F1 h1 (fun x hx => hf x (by simp [hx]))) hq
    (holdsList_frame s s1 bs2 ps2 F2 h2 (fun x hx => hf x (by simp [hx]))), fun x => ?_⟩
  have := hcnt x
  simp only [List.count_cons, List.count_append]
  omega

theorem parts_of_nodup (p : Nat) (F1 Fq F2 : List Nat)
    (hn : (p :: (F1 ++ (Fq ++ F2))).Nodup) :
    p ∉ Fq ∧ Fq.Nodup ∧ (∀ x ∈ F1 ++ F2, x ≠ p ∧ x ∉ Fq) := by
  obtain ⟨a1, a2, a3, a4, a5, a6, a7, a8⟩ := nodup_cons_append3 p F1 Fq F2 hn
  refine ⟨a2, a5, fun x hx => ?_⟩
  rcases List.mem_append.1 hx with e | e
  · exact ⟨fun e1 => a1 (e1 ▸ e), fun e1 => (a7 x e1).1 e⟩
  · exact ⟨fun e1 => a3 (e1 ▸ e), fun e1 => (a7 x e1).2 e⟩

theorem removeAgrees_node [LinearOrder K] (order : Nat) (h3 : 3 ≤ order) (n : BTreeNode K V) :
    RemoveAgrees order (some n) := by
  induction n using node_induct with
  | h ks br st ih =>
    intro fuel h key s p F hh hn hw hs hu hf
    rw [holdsPtr_some] at hh
    have hw0 : WF order (BTreeNode.mk ks br st) := hw
    simp only [WFPtr] at hw
    rw [wf_mk] at hw
    obtain ⟨hlen, hbr, hwl⟩ := hw
    simp only [UniformPtr] at hu
    obtain ⟨hpos, hu⟩ := hu
    rw [uniform_mk] at hu
    simp only [pairsPtr, pairs] at hs
    have hchild : ∀ b ∈ br, RemoveAgrees order b := by
      intro b hb
      cases b with
      | none => exact removeAgrees_none order
      | some c => exact ih c hb
    obtain ⟨ks1, ks2, e, hposn, hlt, hfound, hnotfound⟩ := findKeyPositionFrom_spec key ks 0
    simp only [zero_add] at hposn
    obtain ⟨bs1, b, bs2, ps1, q, ps2, pst, F1, Fq, F2, ebr, hb1, hps1, hp, hc, h1, hq, h2, eF,
      hwb⟩ := holdsNode_child order s p ks br st F ks1.length hh hw0 (by rw [e]; simp)
    subst e; subst ebr; subst eF
    obtain ⟨hpFq, hnq, hdis⟩ := parts_of_nodup p F1 Fq F2 hn
    have hl : ks1.length = bs1.length := hb1.symm
    have hpairs := pairsAux_node ks1 ks2 bs1 b bs2 hl
    have hs2 := hs
    rw [hpairs, sortedKeys_append, sortedKeys_append] at hs2
    obtain ⟨⟨hsb, hsc, hbc⟩, hsa, hba⟩ := hs2
    have hub := hu b (by simp)
    have hd : deref s p = some ⟨ks1 ++ ks2, ps1 ++ q :: ps2, pst⟩ := by
      rw [deref_eq_of_ne_zero s p hp, hc]
    have hol := object_branch_left (ks1 ++ ks2) ps1 q ps2 pst ks1.length hps1.symm
    have hget : (bs1 ++ b :: bs2).get? ks1.length = some b := by
      rw [hl]; exact get?_append_cons_length _ _ _
    have hset : ∀ X, (bs1 ++ b :: bs2).set ks1.length X = bs1 ++ X :: bs2 := by
      intro X; rw [hl]; exact set_append_cons_length _ _ _ _
    have hmid : ∀ (ks3 : List (K × V)) (c1 : Option (BTreeNode K V)),
        ks3.length = ks2.length → WFPtr order c1 → UniformPtr (h - 1) c1 →
        WF order (BTreeNode.mk (ks1 ++ ks3) (bs1 ++ c1 :: bs2) st) ∧
          Uniform (h - 1) (BTreeNode.mk (ks1 ++ ks3) (bs1 ++ c1 :: bs2) st) := by
      intro ks3 c1 hk3 hw1 hu1
      rw [wf_mk, uniform_mk]
      refine ⟨⟨?_, ?_, fun x hx => ?_⟩, fun x hx => ?_⟩
      · simp only [List.length_append] at hlen ⊢; omega
      · simp only [List.length_append, List.length_cons] at hbr ⊢; omega
      · simp only [List.mem_append, List.mem_cons] at hx
        rcases hx with hx | hx | hx
        · exact hwl x (by simp [hx])
        · rw [hx]; exact hw1
        · exact hwl x (by simp [hx])
      · simp only [List.mem_append, List.mem_cons] at hx
        rcases hx with hx | hx | hx
        · exact hu x (by simp [hx])
        · rw [hx]; exact hu1
        · exact hu x (by simp [hx])
    -- the closing test, on the node with the branch `c1` in a store `s2`
    have closing : ∀ (s2 : Store K V) (ks3 : List (K × V)) (c1 : Option (BTreeNode K V))
        (Fq1 : List Nat) (result : Bool) (vres : Option (Option (BTreeNode K V) × Bool))
        (sres : Option (Store K V × Bool)),
        ks3.length = ks2.length → WFPtr order c1 → UniformPtr (h - 1) c1 →
        s2 p = some ⟨ks1 ++ ks3, ps1 ++ q :: ps2, pst⟩ → HoldsPtr s2 q c1 Fq1 →
        (∀ x, Fq1.count x ≤ Fq.count x) → (∀ x ∈ F1 ++ F2, s2 x = s x) →
        (∀ x, x ∉ p :: (F1 ++ (Fq ++ F2)) → s2 x = s x) →
        (BTree.restore_if_underflow order (BTreeNode.mk (ks1 ++ ks3) (bs1 ++ c1 :: bs2) st)
            ks1.length = none → vres = none) →
        (∀ cur2, BTree.restore_if_underflow order
            (BTreeNode.mk (ks1 ++ ks3) (bs1 ++ c1 :: bs2) st) ks1.length = some cur2 →
          vres = some (some cur2, result)) →
        (restore_if_underflow order s2 p ks1.length = none → sres = none) →
        (∀ s3, restore_if_underflow order s2 p ks1.length = some s3 →
          sres = some (s3, result)) →
        RefinesRemove vres sres s p (p :: (F1 ++ (Fq ++ F2))) := by
      intro s2 ks3 c1 Fq1 result vres sres hk3 hw1 hu1 hc2 hq1 hcnt hfr hfr0 v0 v1 t0 t1
      obtain ⟨m1, m2⟩ := hmid ks3 c1 hk3 hw1 hu1
      obtain ⟨hh2, hc3⟩ := holdsNode_child_step s s2 p (ks1 ++ ks3) bs1 c1 bs2 st ps1 q ps2 pst
        F1 Fq Fq1 F2 hp hc2 h1 h2 hq1 hcnt hfr
      have hR := restore_if_underflow_holds order (h - 1) s2 p _ _ ks1.length hh2
        (nodup_of_count_le _ _ hc3 hn) m1 m2 (by simp [nbKeys, BTreeNode.keys])
      cases hre : BTree.restore_if_underflow order
          (BTreeNode.mk (ks1 ++ ks3) (bs1 ++ c1 :: bs2) st) ks1.length with
      | none => exact refinesRemove_none _ _ s p _ (v0 hre) (t0 (hR.1 hre))
      | some cur2 =>
        obtain ⟨s3, F3, e3, hh3, hc4, hf4⟩ := hR.2 cur2 hre
        refine refinesRemove_some _ _ s s3 p _ F3 (some cur2) result (v1 cur2 hre) (t1 s3 e3)
          ((holdsPtr_some s3 p cur2 F3).2 hh3) (fun x => le_trans (hc4 x) (hc3 x))
          (fun x hx => ?_)
        rw [hf4 x (fun e1 => hx (mem_of_count_le _ _ hc3 x e1)), hfr0 x hx]
    cases fuel with
    | zero => omega
    | succ f =>
      cases hfk : findKeyPositionFrom key (ks1 ++ ks2) 0 with
      | mk found pos =>
        rw [hfk] at hposn hfound hnotfound
        simp only at hposn hfound hnotfound
        subst hposn
        cases found with
        | false =>
          have hI := hchild b (by simp) f (h - 1) key s q Fq hq hnq hwb hsc hub (by omega)
          cases hrb : BTree.internal_recursive_remove order b key with
          | none =>
            refine refinesRemove_none _ _ s p _ ?_ ?_
            · simp only [BTree.internal_recursive_remove, recursive_remove_node, hfk,
                recursive_remove_branch_eq, hget, hrb]
            · simp only [internal_recursive_remove, hp, ↓reduceIte, hd, hfk, hol, hI.1 hrb]
          | some res =>
            obtain ⟨c1, res1⟩ := res
            obtain ⟨s1, Fq1, e1, hq1, hcnt, hfr⟩ := hI.2 c1 res1 hrb
            obtain ⟨f1, f2, _, _⟩ := recursive_remove_spec order h3 b (h - 1) key c1 res1 hwb hsc
              hub hrb
            have hs1p : s1 p = some ⟨ks1 ++ ks2, ps1 ++ q :: ps2, pst⟩ := by
              rw [hfr p hpFq, hc]
            refine closing s1 ks2 c1 Fq1 res1 _ _ rfl f1 f2 hs1p hq1 hcnt
              (fun x hx => hfr x (hdis x hx).2) (fun x hx => hfr x (fun e => hx (by simp [e])))
              ?_ ?_ ?_ ?_
            · intro hre
              simp only [BTree.internal_recursive_remove, recursive_remove_node, hfk,
                recursive_remove_branch_eq, hget, hrb, hset, hre]
            · intro cur2 hre
              simp only [BTree.internal_recursive_remove, recursive_remove_node, hfk,
                recursive_remove_branch_eq, hget, hrb, hset, hre]
            · intro hre
              simp only [internal_recursive_remove, hp, ↓reduceIte, hd, hfk, hol, e1, hre]
            · intro s3 hre
              simp only [internal_recursive_remove, hp, ↓reduceIte, hd, hfk, hol, e1, hre]
        | true =>
          obtain ⟨v, rest, e2⟩ := hfound rfl
          subst e2
          have hbl := branch_left (ks1 ++ (key, v) :: rest) bs1 b bs2 st ks1.length hl
          have hidx : ks1.length < (ks1 ++ (key, v) :: rest).length := by simp
          cases b with
          | none =>
            rw [holdsPtr_none] at hq
            obtain ⟨eq0, eFq⟩ := hq
            subst eq0; subst eFq
            have hh0 : h - 1 = 0 := by simpa [UniformPtr] using hub
            have hall : ∀ x ∈ bs1 ++ none :: bs2, x = none := by
              intro x hx
              have := hu x hx
              rw [hh0] at this
              cases x with
              | none => rfl
              | some c => simp [UniformPtr] at this
            have hRl := removeLeafData_holds s p (ks1 ++ (key, v) :: rest) (bs1 ++ none :: bs2) st
              _ ks1.length hh hbr hall hidx
            cases hrl : BTreeNode.removeLeafData
                (BTreeNode.mk (ks1 ++ (key, v) :: rest) (bs1 ++ none :: bs2) st) ks1.length with
            | none =>
              refine refinesRemove_none _ _ s p _ ?_ ?_
              · simp only [BTree.internal_recursive_remove, recursive_remove_node, hfk, hbl, hrl]
              · simp only [internal_recursive_remove, hp, ↓reduceIte, hd, hfk, hol, ne_eq,
                  not_true_eq_false, hRl.1 hrl]
            | some cur1 =>
              obtain ⟨s1, G1, e1, hh1, hc1, hf1⟩ := hRl.2 cur1 hrl
              obtain ⟨r1, r2, r3⟩ := removeLeafData_spec ks1 rest (key, v) _ st cur1 hbr hrl
              cases cur1 with
              | mk cks cbr cst =>
                simp only [BTreeNode.keys, BTreeNode.m_branch] at r1 r2 r3
                subst r1
                have hwc : WF order (BTreeNode.mk (ks1 ++ rest) cbr cst) := by
                  rw [wf_mk]
                  refine ⟨?_, r2, fun x hx => ?_⟩
                  · simp only [List.length_append, List.length_cons] at hlen ⊢; omega
                  · rw [hall x (r3 x hx)]; trivial
                have huc : Uniform (h - 1) (BTreeNode.mk (ks1 ++ rest) cbr cst) := by
                  rw [uniform_mk]
                  intro x hx
                  rw [hall x (r3 x hx), hh0]
                  simp [UniformPtr]
                have hR := restore_if_underflow_holds order (h - 1) s1 p _ G1 ks1.length hh1
                  (nodup_of_count_le _ _ hc1 hn) hwc huc (by simp [nbKeys, BTreeNode.keys])
                cases hre : BTree.restore_if_underflow order (BTreeNode.mk (ks1 ++ rest) cbr cst)
                    ks1.length with
                | none =>
                  refine refinesRemove_none _ _ s p _ ?_ ?_
                  · simp only [BTree.internal_recursive_remove, recursive_remove_node, hfk, hbl,
                      hrl, hre]
                  · simp only [internal_recursive_remove, hp, ↓reduceIte, hd, hfk, hol, ne_eq,
                      not_true_eq_false, e1, hR.1 hre]
                | some cur2 =>
                  obtain ⟨s3, F3, e3, hh3, hc4, hf4⟩ := hR.2 cur2 hre
                  refine refinesRemove_some _ _ s s3 p _ F3 (some cur2) true ?_ ?_
                    ((holdsPtr_some s3 p cur2 F3).2 hh3) (fun x => le_trans (hc4 x) (hc1 x))
                    (fun x hx => ?_)
                  · simp only [BTree.internal_recursive_remove, recursive_remove_node, hfk, hbl,
                      hrl, hre]
                  · simp only [internal_recursive_remove, hp, ↓reduceIte, hd, hfk, hol, ne_eq,
                      not_true_eq_false, e1, e3]
                  · rw [hf4 x (fun e4 => hx (mem_of_count_le _ _ hc1 x e4)), hf1 x hx]
          | some c =>
            have hq0 : q ≠ 0 := by
              intro e
              have := (holdsPtr_eq_zero_iff s (some c) q Fq hq).1 e
              simp at this
            rcases copyInPredecessor_holds order f (h - 1) s p (ks1 ++ (key, v) :: rest)
                (bs1 ++ some c :: bs2) st (ps1 ++ q :: ps2) pst (F1 ++ (Fq ++ F2))
                ks1.length hp hc
                (holdsList_append_cons s bs1 (some c) bs2 ps1 q ps2 F1 Fq F2 h1 hq h2) hw0 hu
                (by omega) hidx with ⟨cv0, cs0⟩ | ⟨kv, cv, cs⟩
            · refine refinesRemove_none _ _ s p _ ?_ ?_
              · simp only [BTree.internal_recursive_remove, recursive_remove_node, hfk, hbl, cv0]
              · simp only [internal_recursive_remove, hp, ↓reduceIte, hd, hfk, hol, ne_eq, hq0,
                  not_false_eq_true, cs0]
            · rw [set_append_cons_length] at cv cs
              obtain ⟨s1, hs1⟩ : ∃ s1 : Store K V, s1 =
                  s.write p ⟨ks1 ++ kv :: rest, ps1 ++ q :: ps2, pst⟩ := ⟨_, rfl⟩
              rw [← hs1] at cs
              have hs1p : s1 p = some ⟨ks1 ++ kv :: rest, ps1 ++ q :: ps2, pst⟩ := by
                rw [hs1, store_write_same]
              have hd1 : deref s1 p = some ⟨ks1 ++ kv :: rest, ps1 ++ q :: ps2, pst⟩ := by
                rw [deref_eq_of_ne_zero s1 p hp, hs1p]
              have hol1 := object_branch_left (ks1 ++ kv :: rest) ps1 q ps2 pst ks1.length
                hps1.symm
              have hfr1 : ∀ x, x ≠ p → s1 x = s x := by
                intro x hx; rw [hs1, store_write_other _ _ _ _ hx]
              have hq1 : HoldsPtr s1 q (some c) Fq :=
                holdsPtr_frame s s1 (some c) q Fq hq
                  (fun x hx => hfr1 x (fun e => hpFq (e ▸ hx)))
              have hgk : (ks1 ++ kv :: rest).get? ks1.length = some kv :=
                get?_append_cons_length _ _ _
              have hI := hchild (some c) (by simp) f (h - 1) kv.1 s1 q Fq hq1 hnq hwb hsc hub
                (by omega)
              cases hrb : BTree.internal_recursive_remove order (some c) kv.1 with
              | none =>
                refine refinesRemove_none _ _ s p _ ?_ ?_
                · simp only [BTree.internal_recursive_remove, recursive_remove_node, hfk, hbl, cv,
                    BTreeNode.keys, hgk, recursive_remove_branch_eq, hget]
                  simp only [BTree.internal_recursive_remove] at hrb
                  simp only [hrb]
                · simp only [internal_recursive_remove, hp, ↓reduceIte, hd, hfk, hol, ne_eq, hq0,
                    not_false_eq_true, cs, hd1, hgk, hol1, hI.1 hrb]
              | some res =>
                obtain ⟨c1, res1⟩ := res
                obtain ⟨s2, Fq1, e1, hq2, hcnt, hfr⟩ := hI.2 c1 res1 hrb
                obtain ⟨f1, f2, _, _⟩ := recursive_remove_spec order h3 (some c) (h - 1) kv.1 c1
                  res1 hwb hsc hub hrb
                have hs2p : s2 p = some ⟨ks1 ++ kv :: rest, ps1 ++ q :: ps2, pst⟩ := by
                  rw [hfr p hpFq, hs1p]
                refine closing s2 (kv :: rest) c1 Fq1 true _ _ rfl f1 f2 hs2p hq2 hcnt
                  (fun x hx => by rw [hfr x (hdis x hx).2, hfr1 x (hdis x hx).1])
                  (fun x hx => by
                    rw [hfr x (fun e => hx (by simp [e])), hfr1 x (fun e => hx (by simp [e]))])
                  ?_ ?_ ?_ ?_
                · intro hre
                  simp only [BTree.internal_recursive_remove, recursive_remove_node, hfk, hbl, cv,
                    BTreeNode.keys, hgk, recursive_remove_branch_eq, hget]
                  simp only [BTree.internal_recursive_remove] at hrb
                  simp only [hrb, hset, hre]
                · intro cur2 hre
                  simp only [BTree.internal_recursive_remove, recursive_remove_node, hfk, hbl, cv,
                    BTreeNode.keys, hgk, recursive_remove_branch_eq, hget]
                  simp only [BTree.internal_recursive_remove] at hrb
                  simp only [hrb, hset, hre]
                · intro hre
                  simp only [internal_recursive_remove, hp, ↓reduceIte, hd, hfk, hol, ne_eq, hq0,
                    not_false_eq_true, cs, hd1, hgk, hol1, e1, hre]
                · intro s3 hre
                  simp only [internal_recursive_remove, hp, ↓reduceIte, hd, hfk, hol, ne_eq, hq0,
                    not_false_eq_true, cs, hd1, hgk, hol1, e1, hre]

/-- `internal_recursive_remove` on a subtree the store holds. -/
theorem recursive_remove_holds [LinearOrder K] (order : Nat) (h3 : 3 ≤ order)
    (b : Option (BTreeNode K V)) : RemoveAgrees order b := by
  cases b with
  | none => exact removeAgrees_none order
  | some n => exact removeAgrees_node order h3 n

theorem refinesTree_none (vres : Option (BTree K V)) (sres : Option (Store K V × TreeObject))
    (s : Store K V) (F : List Nat) (hv : vres = none) (hs : sres = none) :
    RefinesTree vres sres s F := by
  subst hv
  exact ⟨fun _ => hs, fun t1 h1 => by simp at h1⟩

theorem refinesTree_some (vres : Option (BTree K V)) (sres : Option (Store K V × TreeObject))
    (s s1 : Store K V) (F F1 : List Nat) (t1 : BTree K V) (o1 : TreeObject)
    (hv : vres = some t1) (hs : sres = some (s1, o1))
    (hh : HoldsPtr s1 o1.m_root t1.m_root F1) (hc : ∀ x, F1.count x ≤ F.count x)
    (hf : ∀ x, x ∉ F → s1 x = s x) : RefinesTree vres sres s F := by
  subst hv
  refine ⟨fun h0 => by simp at h0, fun t2 h1 => ?_⟩
  simp only [Option.some.injEq] at h1
  subst h1
  exact ⟨s1, o1, F1, hs, hh, hc, hf⟩

/-- `remove` on a tree the store holds. -/
theorem btree_remove_holds [LinearOrder K] (order : Nat) (h3 : 3 ≤ order) (fuel h : Nat) (key : K)
    (s : Store K V) (t : TreeObject) (tv : BTree K V) (F : List Nat)
    (hh : HoldsPtr s t.m_root tv.m_root F) (hn : F.Nodup) (hw : WFPtr order tv.m_root)
    (hs : SortedKeys (pairsPtr tv.m_root)) (hu : UniformPtr h tv.m_root) (hf : h < fuel) :
    RefinesTree (BTree.remove order tv key) (remove order fuel s t key) s F := by
  have hR := recursive_remove_holds order h3 tv.m_root fuel h key s t.m_root F hh hn hw hs hu hf
  cases hrr : BTree.internal_recursive_remove order tv.m_root key with
  | none =>
    refine refinesTree_none _ _ s F ?_ ?_
    · simp only [BTree.remove, hrr]
    · simp only [remove, hR.1 hrr]
  | some res =>
    obtain ⟨root, result⟩ := res
    obtain ⟨s1, F1, e1, hh1, hc1, hf1⟩ := hR.2 root result hrr
    obtain ⟨f1, _, _, _⟩ := recursive_remove_spec order h3 tv.m_root h key root result hw hs hu hrr
    have hn1 : F1.Nodup := nodup_of_count_le F1 F hc1 hn
    cases root with
    | none =>
      have h0 : t.m_root = 0 := (holdsPtr_eq_zero_iff s1 none t.m_root F1 hh1).2 rfl
      refine refinesTree_some _ _ s s1 F F1 { m_root := none } t ?_ ?_ hh1 hc1 hf1
      · simp only [BTree.remove, hrr]
      · have hne : ¬ (result = true ∧ t.m_root ≠ 0) := fun e => e.2 h0
        simp only [remove, e1, hne, ↓reduceIte]
    | some n =>
      have h0 : t.m_root ≠ 0 := by
        intro e
        have := (holdsPtr_eq_zero_iff s1 (some n) t.m_root F1 hh1).1 e
        simp at this
      cases n with
      | mk ks br st =>
        have hh2 := hh1
        rw [holdsPtr_some] at hh2
        obtain ⟨pbr, pst, G, hd, hc, _, hl, eF⟩ := holdsNode_deref s1 ks br st t.m_root F1 hh2
        by_cases hcond : result = true ∧ ks.length = 0
        · obtain ⟨hres, hk0⟩ := hcond
          have hks : ks = [] := List.eq_nil_of_length_eq_zero hk0
          subst hks
          simp only [WFPtr] at f1
          rw [wf_mk] at f1
          obtain ⟨_, hb, _⟩ := f1
          cases br with
          | nil => simp at hb
          | cons b0 bs =>
            cases bs with
            | cons x xs => simp at hb
            | nil =>
              rw [holdsList_cons] at hl
              obtain ⟨q0, qs, Fq, Fn, e2, hq0, hnil, e3⟩ := hl
              rw [holdsList_nil] at hnil
              obtain ⟨e4, e5⟩ := hnil
              subst e2; subst e3; subst e4; subst e5; subst eF
              simp only [List.append_nil] at hn1 hc1 hd hc ⊢
              have hpq : t.m_root ∉ Fq := (List.nodup_cons.1 hn1).1
              refine refinesTree_some _ _ s (s1.free t.m_root) F Fq { m_root := b0 }
                { m_root := q0 } ?_ ?_ ?_ ?_ ?_
              · simp only [BTree.remove, hrr, hres, nbKeys, BTreeNode.keys, List.length_nil,
                  and_self, ↓reduceIte]
                rfl
              · simp only [remove, e1, hres, ne_eq, h0, not_false_eq_true, and_self, ↓reduceIte,
                  hd, NodeObject.nbKeys, List.length_nil, destroyObject]
                rfl
              · exact holdsPtr_free s1 b0 q0 Fq t.m_root hq0 hpq
              · intro x
                have := hc1 x
                simp only [List.count_cons] at this
                omega
              · intro x hx
                have hxp : x ≠ t.m_root := by
                  intro e
                  apply hx
                  rw [e]
                  exact mem_of_count_le _ F hc1 _ (List.mem_cons_self _ _)
                rw [store_free_other _ _ _ hxp, hf1 x hx]
        · refine refinesTree_some _ _ s s1 F F1 { m_root := some (BTreeNode.mk ks br st) } t
            ?_ ?_ hh1 hc1 hf1
          · simp only [BTree.remove, hrr, nbKeys, BTreeNode.keys, hcond, ↓reduceIte]
          · by_cases hres : result = true
            · have hk : ¬ ks.length = 0 := fun e => hcond ⟨hres, e⟩
              simp only [remove, e1, hres, ne_eq, h0, not_false_eq_true, and_self, ↓reduceIte,
                hd, NodeObject.nbKeys, hk]
            · have hne : ¬ (result = true ∧ t.m_root ≠ 0) := fun e => hres e.1
              simp only [remove, e1, hne, ↓reduceIte]

/-- A sequence of `remove` calls on a tree the store holds. -/
theorem removes_holds [LinearOrder K] (order : Nat) (h3 : 3 ≤ order) (fuel : Nat) (ks : List K) :
    ∀ (h : Nat) (s : Store K V) (t : TreeObject) (tv : BTree K V) (F : List Nat),
      HoldsPtr s t.m_root tv.m_root F → F.Nodup → WFPtr order tv.m_root →
      SortedKeys (pairsPtr tv.m_root) → UniformPtr h tv.m_root → h < fuel →
      RefinesTree (BTree.calls order tv (ks.map Call.remove)) (removes order fuel s t ks) s F := by
  induction ks with
  | nil =>
    intro h s t tv F hh _ _ _ _ _
    exact refinesTree_some _ _ s s F F tv t (by simp only [List.map_nil, BTree.calls])
      (by simp only [removes]) hh (fun _ => le_refl _) (fun _ _ => rfl)
  | cons key ks ih =>
    intro h s t tv F hh hn hw hs hu hf
    have hR := btree_remove_holds order h3 fuel h key s t tv F hh hn hw hs hu hf
    cases hrv : BTree.remove order tv key with
    | none =>
      refine refinesTree_none _ _ s F ?_ ?_
      · simp only [List.map_cons, BTree.calls, BTree.call, hrv]
      · simp only [removes, hR.1 hrv]
    | some tv1 =>
      obtain ⟨s1, o1, F1, e1, hh1, hc1, hf1⟩ := hR.2 tv1 hrv
      obtain ⟨g1, g2, g3, _⟩ := btree_remove_spec order h3 tv tv1 key h hw hs hu hrv
      have hn1 : F1.Nodup := nodup_of_count_le F1 F hc1 hn
      have hI : RefinesTree (BTree.calls order tv1 (ks.map Call.remove))
          (removes order fuel s1 o1 ks) s1 F1 := by
        rcases g3 with g3 | g3
        · exact ih h s1 o1 tv1 F1 hh1 hn1 g1 g2 g3 hf
        · exact ih (h - 1) s1 o1 tv1 F1 hh1 hn1 g1 g2 g3 (by omega)
      have hv : BTree.calls order tv ((key :: ks).map Call.remove) =
          BTree.calls order tv1 (ks.map Call.remove) := by
        simp only [List.map_cons, BTree.calls, BTree.call, hrv]
      have hst : removes order fuel s t (key :: ks) = removes order fuel s1 o1 ks := by
        simp only [removes, e1]
      rw [hv, hst]
      refine ⟨hI.1, fun t2 h2 => ?_⟩
      obtain ⟨s2, o2, F2, e2, hh2, hc2, hf2⟩ := hI.2 t2 h2
      refine ⟨s2, o2, F2, e2, hh2, fun x => le_trans (hc2 x) (hc1 x), fun x hx => ?_⟩
      rw [hf2 x (fun e => hx (mem_of_count_le F1 F hc1 x e)), hf1 x hx]

/-- A sequence of `remove` calls leaves a well-formed, search-ordered tree with its leaves
on one level, no higher than before. -/
theorem btree_removes_uniform [LinearOrder K] (order : Nat) (h3 : 3 ≤ order) (ks : List K) :
    ∀ (h : Nat) (t t1 : BTree K V), WFPtr order t.m_root → SortedKeys (pairsPtr t.m_root) →
      UniformPtr h t.m_root → BTree.calls order t (ks.map Call.remove) = some t1 →
      ∃ h1, h1 ≤ h ∧ UniformPtr h1 t1.m_root := by
  induction ks with
  | nil =>
    intro h t t1 _ _ hu hc
    simp only [List.map_nil, BTree.calls, Option.some.injEq] at hc
    subst hc
    exact ⟨h, le_refl _, hu⟩
  | cons k ks ih =>
    intro h t t1 hw hs hu hc
    simp only [List.map_cons, BTree.calls, BTree.call] at hc
    cases hr : BTree.remove order t k with
    | none => simp [hr] at hc
    | some t2 =>
      simp only [hr] at hc
      obtain ⟨g1, g2, g3, _⟩ := btree_remove_spec order h3 t t2 k h hw hs hu hr
      rcases g3 with e | e
      · exact ih h t2 t1 g1 g2 e hc
      · obtain ⟨h1, a1, a2⟩ := ih (h - 1) t2 t1 g1 g2 e hc
        exact ⟨h1, by omega, a2⟩

/-- The copy that `copy` builds of a tree the store holds, with what the theorem on the
copy constructor and the assignment says of it. -/
theorem deep_copy_core [LinearOrder K] (order : Nat) (h3 : 3 ≤ order) (fuel h : Nat)
    (s s0 : Store K V) (a : TreeObject) (ta : BTree K V) (Fa addrs : List Nat)
    (hwa : WFPtr order ta.m_root) (hsa : SortedKeys (pairsPtr ta.m_root))
    (hua : UniformPtr h ta.m_root) (hf : h < fuel)
    (ha0 : HoldsPtr s0 a.m_root ta.m_root Fa) (hs0 : ∀ x ∈ Fa, s0 x = s x) (hnA : Fa.Nodup)
    (hnd : addrs.Nodup) (hfresh : ∀ x ∈ addrs, x ≠ 0 ∧ x ∉ Fa)
    (hlen : (descendantsPtr ta.m_root).length ≤ addrs.length) :
    ∃ s1 root rest Fb, copy fuel addrs s0 a.m_root = some (s1, root, rest) ∧
      HoldsPtr s1 root (BTree.copy ta.m_root) Fb ∧ HoldsPtr s1 a.m_root ta.m_root Fa ∧
      (Fa ++ Fb).Nodup ∧ (∀ x ∈ Fb, x ∈ addrs) ∧ (∀ x ∈ Fa, s1 x = s x) ∧
      SameShapePtr ta.m_root (BTree.copy ta.m_root) ∧
      pairsPtr (BTree.copy ta.m_root) = pairsPtr ta.m_root ∧
      (∀ k, find fuel s1 { m_root := root } k = find fuel s1 a k ∧
        find fuel s1 a k = some (BTree.find ta k)) ∧
      (∀ k v, find fuel s1 { m_root := root } k = some (some v) ↔ (k, v) ∈ pairsPtr ta.m_root) ∧
      ∀ ks : List K,
        (∀ ta1, BTree.calls order ta (ks.map Call.remove) = some ta1 →
          ∃ s2 a2, removes order fuel s1 a ks = some (s2, a2)) ∧
        ∀ s2 a2, removes order fuel s1 a ks = some (s2, a2) →
          HoldsPtr s2 root (BTree.copy ta.m_root) Fb ∧
          (∀ k, find fuel s2 { m_root := root } k = find fuel s1 { m_root := root } k) ∧
          (∀ p ∈ pairsPtr ta.m_root, find fuel s2 { m_root := root } p.1 = some (some p.2)) ∧
          ∃ ta1 F2, BTree.calls order ta (ks.map Call.remove) = some ta1 ∧
            HoldsPtr s2 a2.m_root ta1.m_root F2 ∧ (F2 ++ Fb).Nodup ∧
            (∀ k, find fuel s2 a2 k = some (BTree.find ta1 k)) ∧
            ((∀ p ∈ pairsPtr ta.m_root, p.1 ∈ ks) → ∀ k, find fuel s2 a2 k = some none) := by
  obtain ⟨s1, root, e, hb, hfr⟩ := btree_copy_holds order ta.m_root fuel h addrs s0 a.m_root Fa ha0
    hwa hua hf hnd hfresh hlen
  obtain ⟨Fb, hFb⟩ : ∃ Fb, Fb = addrs.take (descendantsPtr ta.m_root).length := ⟨_, rfl⟩
  rw [← hFb] at hb hfr
  have hsub : ∀ x ∈ Fb, x ∈ addrs := fun x hx => by
    rw [hFb] at hx; exact List.mem_of_mem_take hx
  have hdisj : ∀ x ∈ Fa, x ∉ Fb := fun x hx hxb => (hfresh x (hsub x hxb)).2 hx
  have hnB : Fb.Nodup := by
    rw [hFb]; exact List.Nodup.sublist (List.take_sublist _ _) hnd
  have hnAB : (Fa ++ Fb).Nodup := by
    rw [List.nodup_append]
    exact ⟨hnA, hnB, fun x hx hxb => hdisj x hx hxb⟩
  have ha1 : HoldsPtr s1 a.m_root ta.m_root Fa :=
    holdsPtr_frame s0 s1 _ _ Fa ha0 (fun x hx => hfr x (hdisj x hx))
  have hwb : WFPtr order (BTree.copy ta.m_root) := wfPtr_copy order _ hwa
  have hub : UniformPtr h (BTree.copy ta.m_root) := uniformPtr_copy h _ hua
  have hpb : pairsPtr (BTree.copy ta.m_root) = pairsPtr ta.m_root := pairsPtr_copy _
  have hvB : ∀ k, BTree.find ({ m_root := BTree.copy ta.m_root } : BTree K V) k =
      lookup k (pairsPtr ta.m_root) := by
    intro k
    rw [find_eq_lookup order k { m_root := BTree.copy ta.m_root } hwb (by rw [hpb]; exact hsa)]
    simp only [hpb]
  have hvA : ∀ k, BTree.find ta k = lookup k (pairsPtr ta.m_root) :=
    fun k => find_eq_lookup order k ta hwa hsa
  have hfB : ∀ (s2 : Store K V), HoldsPtr s2 root (BTree.copy ta.m_root) Fb →
      ∀ k, find fuel s2 { m_root := root } k = some (lookup k (pairsPtr ta.m_root)) := by
    intro s2 hb2 k
    rw [btree_find_holds order fuel h k s2 { m_root := root } (BTree.copy ta.m_root) Fb hb2 hwb hub hf,
      hvB]
  have hfA : ∀ k, find fuel s1 a k = some (BTree.find ta k) :=
    fun k => btree_find_holds order fuel h k s1 a ta.m_root Fa ha1 hwa hua hf
  refine ⟨s1, root, _, Fb, e, hb, ha1, hnAB, hsub,
    fun x hx => by rw [hfr x (hdisj x hx), hs0 x hx], sameShapePtr_copy _, hpb,
    fun k => ⟨by rw [hfB s1 hb k, hfA k, hvA k], hfA k⟩, fun k v => ?_, fun ks => ?_⟩
  · rw [hfB s1 hb k]
    simp only [Option.some.injEq]
    exact lookup_eq_some_iff_mem k v _ hsa
  · have hR := removes_holds order h3 fuel ks h s1 a ta Fa ha1 hnA hwa hsa hua hf
    refine ⟨fun ta1 hc => ?_, fun s2 a2 hrm => ?_⟩
    · obtain ⟨s2, o2, F2, e2, _⟩ := hR.2 ta1 hc
      exact ⟨s2, o2, e2⟩
    · cases hcv : BTree.calls order ta (ks.map Call.remove) with
      | none =>
        rw [hR.1 hcv] at hrm
        simp at hrm
      | some ta1 =>
        obtain ⟨s2', o2, F2, e2, hh2, hc2, hf2⟩ := hR.2 ta1 hcv
        rw [e2] at hrm
        simp only [Option.some.injEq, Prod.mk.injEq] at hrm
        obtain ⟨e3, e4⟩ := hrm
        subst e3; subst e4
        have hb2 : HoldsPtr s2' root (BTree.copy ta.m_root) Fb :=
          holdsPtr_frame s1 s2' _ _ Fb hb (fun x hx => hf2 x (fun e5 => hdisj x e5 hx))
        obtain ⟨r1, r2, r3⟩ := btree_removes_invariant order h3 ks ta ta1 hwa hsa ⟨h, hua⟩ hcv
        obtain ⟨h1, hle, hu1⟩ := btree_removes_uniform order h3 ks h ta ta1 hwa hsa hua hcv
        have hfA2 : ∀ k, find fuel s2' o2 k = some (BTree.find ta1 k) :=
          fun k => btree_find_holds order fuel h1 k s2' o2 ta1.m_root F2 hh2 r1 hu1 (by omega)
        refine ⟨hb2, fun k => by rw [hfB s2' hb2 k, hfB s1 hb k], fun p hp => ?_, ta1, F2, rfl,
          hh2, ?_, hfA2, fun hcover k => ?_⟩
        · rw [hfB s2' hb2 p.1]
          simp only [Option.some.injEq]
          exact (lookup_eq_some_iff_mem p.1 p.2 _ hsa).2 hp
        · refine nodup_of_count_le (F2 ++ Fb) (Fa ++ Fb) (fun x => ?_) hnAB
          have := hc2 x
          simp only [List.count_append]
          omega
        · rw [hfA2 k, find_eq_lookup order k ta1 r1 r2]
          simp only [Option.some.injEq]
          rw [lookup_eq_none_iff]
          intro p hp1 _
          obtain ⟨m1, m2⟩ := r3 p hp1
          exact m2 (hcover p m1)

theorem scenarioStore_holds :
    HoldsPtr scenarioStore scenarioObject.m_root scenarioSplitTree.m_root [1, 2, 3] := by
  simp only [scenarioSplitTree, scenarioObject, holdsPtr_some, holdsNode_mk]
  refine ⟨by decide, [2, 3], [0, 0, 0, 0], [2, 3], rfl, ?_, rfl⟩
  have hz : ∀ (n : Nat), HoldsList scenarioStore (List.replicate n 0)
      (List.replicate n (none : Option (BTreeNode Nat Nat))) [] := by
    intro n
    exact holdsList_of_all_none scenarioStore _ _ (by simp) (fun x hx => (List.mem_replicate.1 hx).2)
      (fun x hx => (List.mem_replicate.1 hx).2)
  refine holdsList_cons_cons scenarioStore 2 [3] _ _ [2] [3] ?_
    (holdsList_cons_cons scenarioStore 3 [] _ _ [3] [] ?_ ((holdsList_nil _ _ _).2 ⟨rfl, rfl⟩))
  · rw [holdsPtr_some, holdsNode_mk]
    exact ⟨by decide, [0, 0, 0, 0], [0, 0], [], rfl, hz 4, rfl⟩
  · rw [holdsPtr_some, holdsNode_mk]
    exact ⟨by decide, [0, 0, 0], [0, 0, 0], [], rfl, hz 3, rfl⟩

theorem scenarioSplitTree_built :
    BTree.calls 6 (BTree.empty : BTree Nat Nat) scenarioSplitCalls = some scenarioSplitTree := by
  simp [scenarioSplitCalls, scenarioSplitTree, BTree.calls, BTree.call, BTree.insert,
    internal_push_down_insert, push_down_node, push_down_branch, findKeyPositionFrom, insertAt,
    splitInsertAt, isFull, nbKeys, BTreeNode.keys, BTreeNode.m_branch, BTreeNode.m_stale, MAXKEYS,
    BTree.empty]

theorem scenarioSplitTree_height (h : Nat) (hu : UniformPtr h scenarioSplitTree.m_root) :
    h < 5 := by
  simp only [scenarioSplitTree, uniformPtr_some, BTreeNode.m_branch, List.mem_cons,
    List.mem_singleton, List.not_mem_nil, or_false, forall_eq_or_imp, forall_eq,
    uniformPtr_none] at hu
  omega

theorem scenarioSplitTree_count :
    (descendantsPtr scenarioSplitTree.m_root).length ≤ ([4, 5, 6] : List Nat).length := by
  simp [scenarioSplitTree, descendantsPtr, descendants, descendantsList]

/-- Two tree objects that share their nodes are not independent: after `remove(30)` on the
tree object at the address 1 of `scenarioStore`, `find(30)` on that object, which returned
the value 3, returns `nullptr`. -/
theorem shared_nodes_see_remove :
    ∃ s2 a2, remove 6 5 scenarioStore scenarioObject 30 = some (s2, a2) ∧
      find 5 scenarioStore scenarioObject 30 = some (some 3) ∧
      find 5 s2 scenarioObject 30 = some none :=
  ⟨_, _, rfl, by decide, by decide⟩

/-- The copy of `scenarioSplitTree` in the store outlives the original: after the copy
constructor and the `remove` calls for all the keys of the original, which return, no key
is found in the original and each of them is found in the copy with its value. -/
theorem scenario_copy_outlives_original :
    ∃ s1 b s2 a2, copyConstruct 5 [4, 5, 6] scenarioStore scenarioObject = some (s1, b) ∧
      removes 6 5 s1 scenarioObject [0, 10, 20, 30, 40, 35] = some (s2, a2) ∧
      (∀ k, find 5 s2 a2 k = some none) ∧
      find 5 s2 b 0 = some (some 0) ∧ find 5 s2 b 10 = some (some 1) ∧
      find 5 s2 b 20 = some (some 2) ∧ find 5 s2 b 30 = some (some 3) ∧
      find 5 s2 b 40 = some (some 4) ∧ find 5 s2 b 35 = some (some 5) := by
  obtain ⟨hwa, hsa, h, hua⟩ := btree_reachable_invariant 6 (by decide) scenarioSplitCalls
    scenarioSplitTree scenarioSplitTree_built
  have h3 : ∀ x ∈ ([4, 5, 6] : List Nat), x ≠ 0 ∧ x ∉ [1, 2, 3] := by decide
  obtain ⟨s1, root, rest, Fb, e, c1, c2, c3, c4, c5, c6, c7, c8, c9, c10⟩ :=
    deep_copy_core 6 (by decide) 5 h scenarioStore scenarioStore scenarioObject scenarioSplitTree
      [1, 2, 3] [4, 5, 6] hwa hsa hua (scenarioSplitTree_height h hua) scenarioStore_holds
      (fun _ _ => rfl) (by decide) (by decide) h3 scenarioSplitTree_count
  obtain ⟨d1, d2⟩ := c10 [0, 10, 20, 30, 40, 35]
  obtain ⟨s2, a2, e2⟩ := d1 BTree.empty scenarioSplitTree_remove_all
  obtain ⟨g1, g2, g3, ta1, F2, g4, g5, g6, g7, g8⟩ := d2 s2 a2 e2
  have hp : pairsPtr scenarioSplitTree.m_root =
      [(0, 0), (10, 1), (20, 2), (30, 3), (35, 5), (40, 4)] := by
    simp [scenarioSplitTree, pairsPtr, pairs, pairsAux]
  refine ⟨s1, { m_root := root }, s2, a2, by simp only [copyConstruct, e], e2,
    g8 (by rw [hp]; decide), ?_, ?_, ?_, ?_, ?_, ?_⟩
  · exact g3 (0, 0) (by rw [hp]; decide)
  · exact g3 (10, 1) (by rw [hp]; decide)
  · exact g3 (20, 2) (by rw [hp]; decide)
  · exact g3 (30, 3) (by rw [hp]; decide)
  · exact g3 (40, 4) (by rw [hp]; decide)
  · exact g3 (35, 5) (by rw [hp]; decide)

-- (end of the BTreeStore lemmas)

end BTreeStore

/-! ## Theorems: GTree -/

namespace GTree

variable {K V : Type}

-- (end of the GTree lemmas)

/-- C40: a failing input of the post-order walk.  On the tree with the root 1, its child
2 and the grandchild 3, `traverse` in post-order mode visits 2, 3, 1: `postorder` calls
`preorder` on the children, so the child 2 comes before its own child 3, where the
post-order sequence is 3, 2, 1. -/
theorem gtree_postorder_child_before_grandchild :
    traverse (setPostOrderTraversal (empty : GTree Nat)) scenarioChain = [2, 3, 1] ∧
      truePostorder scenarioChain = [3, 2, 1] ∧
      traverse (setPostOrderTraversal (empty : GTree Nat)) scenarioChain
        ≠ truePostorder scenarioChain := by
  have h1 : traverse (setPostOrderTraversal (empty : GTree Nat)) scenarioChain = [2, 3, 1] := by
    simp [traverse, setPostOrderTraversal, scenarioChain, postorder, preorder, preorderChildren]
  have h2 : truePostorder scenarioChain = [3, 2, 1] := by
    simp [scenarioChain, truePostorder, truePostorderChildren]
  refine ⟨h1, h2, ?_⟩
  rw [h1, h2]
  decide

end GTree

/-! ## Theorems: CHeap -/

namespace CHeap

variable {K V : Type}

/-- On the heap with the keys 5 and 3 `reheapDown(0)` calls itself with the same index on
the same heap. -/
theorem reheapDown_scenarioPair (depth : Nat) :
    reheapDown scenarioPair depth 0 = .depthExceeded := by
  induction depth with
  | zero => rfl
  | succ n ih =>
    have hs : swap scenarioPair 0 0 = some scenarioPair := by
      simp [swap, scenarioPair]
    have hc1 : compareNodes scenarioPair (0 * 2 + 1) (0 * 2 + 2) = some 1 := by
      simp [compareNodes, scenarioPair, BTreeArrayNode.isValid]
    have hc2 : compareNodes scenarioPair 0 1 = some 0 := by
      simp [compareNodes, scenarioPair, BTreeArrayNode.isValid, AvlTree.greater]
    simp only [reheapDown, hc1, hc2, hs]
    exact ih

/-- On `scenarioStuck` the call `reheapDown(1)` calls itself with the same index on the
same heap. -/
theorem reheapDown_scenarioStuck (depth : Nat) :
    reheapDown scenarioStuck depth 1 = .depthExceeded := by
  induction depth with
  | zero => rfl
  | succ n ih =>
    have hs : swap scenarioStuck 1 1 = some scenarioStuck := by
      simp [swap, scenarioStuck]
    have hc1 : compareNodes scenarioStuck (1 * 2 + 1) (1 * 2 + 2) = some 4 := by
      simp [compareNodes, scenarioStuck, BTreeArrayNode.isValid, AvlTree.greater]
    have hc2 : compareNodes scenarioStuck 1 4 = some 1 := by
      simp [compareNodes, scenarioStuck, BTreeArrayNode.isValid, AvlTree.greater]
    simp only [reheapDown, hc1, hc2, hs]
    exact ih

-- (end of the CHeap lemmas)

/-- C32: failing inputs of `reheapDown`.  On the heap in order with the keys 5 and 3 under
the predicate `greater`, `reheapDown(0)` does not return within any recursion depth: the
root wins the comparison with its child, and the block behind the empty statement
`if (swapIndex != _nodeIndex);` swaps the root with itself and calls `reheapDown(0)`
again.  Through the interface: after `insert` of the keys 10, 9, 8, 1, 2, 7 into
`CHeap(7)`, `removeRoot()` does not return within any recursion depth; the key 7 sinks
below 9 and then stays above 1 and 2. -/
theorem reheapDown_recurs_forever :
    (∀ depth, reheapDown scenarioPair depth 0 = .depthExceeded) ∧
      inserts (new AvlTree.greater 7 : CHeap Nat Nat) 3
          [(10, 100), (9, 90), (8, 80), (1, 10), (2, 20), (7, 70)] = .done scenarioSix ∧
      (∀ depth, removeRoot scenarioSix depth = .depthExceeded) := by
  have hd : (default : Nat × Nat) = (0, 0) := rfl
  refine ⟨reheapDown_scenarioPair, ?_, ?_⟩
  · simp [inserts, insert, new, resize, reheapUp, compareNodes, swap, m_uCapacity,
      BTreeArrayNode.isValid, AvlTree.greater, scenarioSix, hd]
  · intro depth
    cases depth with
    | zero => simp [removeRoot, scenarioSix, reheapDown]
    | succ n =>
      have h := reheapDown_scenarioStuck n
      simp only [scenarioStuck] at h
      simp [removeRoot, scenarioSix, reheapDown, compareNodes, swap, BTreeArrayNode.isValid,
        AvlTree.greater, h, hd, -Prod.mk_zero_zero]

end CHeap

/-! ## Theorems: RedBlackTree -/

namespace RedBlackTree

variable {K V : Type}

open RbTreeNode RbTreeNode.Color

theorem pairs_plug (path : List (Frame K V)) : ∀ t : RbTreeNode K V,
    pairs (plug t path) = pairsBefore path ++ pairs t ++ pairsAfter path := by
  induction path with
  | nil => intro t; simp [plug, pairsBefore, pairsAfter]
  | cons f path ih =>
    intro t
    cases f <;> simp [plug, Frame.fill, ih, pairs, pairsBefore, pairsAfter]

theorem blackHeight_fill (f : Frame K V) (t : RbTreeNode K V) (n : Nat)
    (h : PathEqualBlackCounts (f :: path) n) (ht : blackHeight t = n) :
    blackHeight (f.fill t) = n + (if f.color = Black then 1 else 0) := by
  cases f <;> simp only [PathEqualBlackCounts] at h <;>
    simp [Frame.fill, blackHeight, Frame.color, ht, h.1]

theorem equalBlackCounts_plug (path : List (Frame K V)) : ∀ t : RbTreeNode K V,
    EqualBlackCounts (plug t path) ↔
      EqualBlackCounts t ∧ PathEqualBlackCounts path (blackHeight t) := by
  induction path with
  | nil => intro t; simp [plug, PathEqualBlackCounts]
  | cons f path ih =>
    intro t
    cases f with
    | left c k v r =>
      simp only [plug, Frame.fill, ih, EqualBlackCounts, PathEqualBlackCounts, blackHeight]
      constructor
      · rintro ⟨⟨h1, h2, h3⟩, h4⟩
        exact ⟨h2, h1.symm, h3, h4⟩
      · rintro ⟨h2, h1, h3, h4⟩
        exact ⟨⟨h1.symm, h2, h3⟩, h4⟩
    | right l c k v =>
      simp only [plug, Frame.fill, ih, EqualBlackCounts, PathEqualBlackCounts, blackHeight]
      constructor
      · rintro ⟨⟨h1, h2, h3⟩, h4⟩
        exact ⟨h3, h1, h2, by rw [← h1]; exact h4⟩
      · rintro ⟨h2, h1, h3, h4⟩
        exact ⟨⟨h1, h3, h2⟩, by rw [h1]; exact h4⟩

theorem noRedRed_plug (path : List (Frame K V)) : ∀ t : RbTreeNode K V,
    NoRedRed (plug t path) ↔ NoRedRed t ∧ PathNoRedRed path (color t) := by
  induction path with
  | nil => intro t; simp [plug, PathNoRedRed]
  | cons f path ih =>
    intro t
    cases f <;> simp only [plug, Frame.fill, ih, NoRedRed, PathNoRedRed, color] <;> tauto

theorem color_plug (path : List (Frame K V)) : ∀ t : RbTreeNode K V,
    color (plug t path) = pathRootColor path (color t) := by
  induction path with
  | nil => intro t; rfl
  | cons f path ih =>
    intro t
    cases f <;> simp only [plug, Frame.fill, pathRootColor, Frame.color] <;> rw [ih] <;> rfl

theorem pathNoRedRed_black (path : List (Frame K V)) (c : Color) (h : PathNoRedRed path c) :
    PathNoRedRed path Black := by
  cases path with
  | nil => trivial
  | cons f path =>
    cases f <;> simp only [PathNoRedRed] at h ⊢ <;> tauto

theorem color_withColor (c : Color) (t : RbTreeNode K V) (h : t ≠ nil) :
    color (withColor c t) = c := by
  cases t with
  | nil => exact absurd rfl h
  | node => rfl

theorem color_withColor_black (t : RbTreeNode K V) : color (withColor Black t) = Black := by
  cases t <;> rfl

theorem noRedRed_withColor_black (t : RbTreeNode K V) (h : NoRedRed t) :
    NoRedRed (withColor Black t) := by
  cases t with
  | nil => trivial
  | node l c k v r =>
    simp only [NoRedRed, withColor] at h ⊢
    exact ⟨nofun, h.2⟩

theorem equalBlackCounts_withColor (c : Color) (t : RbTreeNode K V) (h : EqualBlackCounts t) :
    EqualBlackCounts (withColor c t) := by
  cases t with
  | nil => trivial
  | node l c k v r => exact h

theorem pairs_withColor (c : Color) (t : RbTreeNode K V) : pairs (withColor c t) = pairs t := by
  cases t <;> rfl

theorem color_ne_red {c : Color} : c ≠ Red ↔ c = Black := by
  cases c <;> simp

theorem color_ne_black {c : Color} : c ≠ Black ↔ c = Red := by
  cases c <;> simp

theorem pathNoRedRed_of_black (f : Frame K V) (path : List (Frame K V)) (c : Color)
    (h : PathNoRedRed (f :: path) Black) (hf : f.color = Black) :
    PathNoRedRed (f :: path) c := by
  cases f <;> simp only [PathNoRedRed, Frame.color] at h hf ⊢ <;> subst hf <;>
    exact ⟨nofun, h.2⟩

theorem pathRootColor_black (path : List (Frame K V)) (c : Color)
    (h : pathRootColor path c = Black) : pathRootColor path Black = Black := by
  cases path with
  | nil => rfl
  | cons f path => exact h

theorem pathEqualBlackCounts_congr (rest : List (Frame K V)) (a b : Nat)
    (h : PathEqualBlackCounts rest a) (e : a = b) : PathEqualBlackCounts rest b := e ▸ h

/-- A valid subtree put at a position whose surroundings are valid gives, once the root is
coloured black, a tree with the properties #2, #4 and #5. -/
theorem plug_black_valid (sub : RbTreeNode K V) (rest : List (Frame K V))
    (h1 : NoRedRed sub) (h2 : EqualBlackCounts sub) (h3 : PathNoRedRed rest (color sub))
    (h4 : PathEqualBlackCounts rest (blackHeight sub)) :
    color (withColor Black (plug sub rest)) = Black ∧
      NoRedRed (withColor Black (plug sub rest)) ∧
      EqualBlackCounts (withColor Black (plug sub rest)) ∧
      pairs (withColor Black (plug sub rest)) = pairs (plug sub rest) :=
  ⟨color_withColor_black _, noRedRed_withColor_black _ ((noRedRed_plug rest sub).2 ⟨h1, h3⟩),
    equalBlackCounts_withColor _ _ ((equalBlackCounts_plug rest sub).2 ⟨h2, h4⟩),
    pairs_withColor _ _⟩

theorem rb_insert_fixup_len (n : Nat) : ∀ (path : List (Frame K V)), path.length ≤ n →
    ∀ (zl zr : RbTreeNode K V) (zk : K) (zv : V),
    NoRedRed (node zl Red zk zv zr) → EqualBlackCounts (node zl Red zk zv zr) →
    PathEqualBlackCounts path (blackHeight zl) → PathNoRedRed path Black →
    pathRootColor path Black = Black →
    ∃ t1, rb_insert_fixup (node zl Red zk zv zr) path = some t1 ∧ color t1 = Black ∧
      NoRedRed t1 ∧ EqualBlackCounts t1 ∧
      pairs t1 = pairs (plug (node zl Red zk zv zr) path) := by
  induction n with
  | zero =>
    intro path hl zl zr zk zv hn hb _ _ _
    cases path with
    | nil => exact ⟨_, rfl, rfl, ⟨nofun, hn.2⟩, hb, rfl⟩
    | cons f path => simp at hl
  | succ n ih =>
    intro path hl zl zr zk zv hn hb hpb hpn hpr
    have hfin : ∀ (f : Frame K V) (q : List (Frame K V)), path = f :: q → f.color = Black →
        ∃ t1, some (withColor Black (plug (node zl Red zk zv zr) path)) = some t1 ∧
          color t1 = Black ∧ NoRedRed t1 ∧ EqualBlackCounts t1 ∧
          pairs t1 = pairs (plug (node zl Red zk zv zr) path) := by
      intro f q e hf
      subst e
      exact ⟨_, rfl, plug_black_valid _ _ hn hb (pathNoRedRed_of_black f q _ hpn hf)
        (by simpa [blackHeight] using hpb)⟩
    match path, hl, hpb, hpn, hpr, hfin with
    | [], _, _, _, _, _ => exact ⟨_, rfl, rfl, ⟨nofun, hn.2⟩, hb, rfl⟩
    | [p], _, hpb, hpn, hpr, hfin =>
      have hp : p.color = Black := hpr
      simp only [rb_insert_fixup, hp]
      exact hfin p [] rfl hp
    | p :: g :: rest, hl, hpb, hpn, hpr, hfin =>
      by_cases hp : p.color = Red
      · have hl1 : rest.length ≤ n := by simp at hl; omega
        have hr1 : pathRootColor rest Black = Black := pathRootColor_black rest g.color hpr
        cases g with
        | left gc gk gv aunt =>
          cases p with
          | left pc pk pv pr =>
            simp only [Frame.color] at hp
            subst hp
            simp only [PathEqualBlackCounts, PathNoRedRed] at hpb hpn
            have hgc : gc = Black := color_ne_red.1 (fun e => by simpa using (hpn.2.2.1 e).1)
            subst hgc
            by_cases ha : color aunt = Red
            · cases aunt with
              | nil => simp [color] at ha
              | node al ac ak av ar =>
                simp only [color] at ha
                subst ha
                simp only [rb_insert_fixup, Frame.color, color, Frame.fill, withColor, if_true]
                obtain ⟨t1, e, r1, r2, r3, r4⟩ := ih rest hl1
                  (node (node zl Red zk zv zr) Black pk pv pr) (node al Black ak av ar) gk gv
                  (by simp [NoRedRed, color] at hn hpn ⊢; and_intros <;> first | assumption | tauto)
                  (by simp [EqualBlackCounts, blackHeight] at hb hpb ⊢
                      and_intros <;> first | assumption | omega | tauto)
                  (pathEqualBlackCounts_congr rest _ _ hpb.2.2.2.2
                    (by simp [EqualBlackCounts, blackHeight] at hb hpb ⊢))
                  hpn.2.2.2.2 hr1
                refine ⟨t1, e, r1, r2, r3, ?_⟩
                rw [r4]
                simp [pairs_plug, pairs, pairsBefore, pairsAfter]
            · have ha1 : color aunt = Black := color_ne_red.1 ha
              simp only [rb_insert_fixup, Frame.color, ha1, if_true]
              refine ⟨_, rfl, ?_⟩
              obtain ⟨q1, q2, q3, q4⟩ := plug_black_valid
                (node (node zl Red zk zv zr) Black pk pv (node pr Red gk gv aunt)) rest
                (by simp [NoRedRed, color] at hn hpn ⊢; and_intros <;> first | assumption | tauto)
                (by simp [EqualBlackCounts, blackHeight] at hb hpb ⊢
                    and_intros <;> first | assumption | omega | tauto)
                (by simpa [color] using hpn.2.2.2.2)
                (pathEqualBlackCounts_congr rest _ _ hpb.2.2.2.2
                  (by simp [EqualBlackCounts, blackHeight] at hb hpb ⊢))
              refine ⟨q1, q2, q3, ?_⟩
              rw [q4]
              simp [pairs_plug, pairs, pairsBefore, pairsAfter]
          | right pl pc pk pv =>
            simp only [Frame.color] at hp
            subst hp
            simp only [PathEqualBlackCounts, PathNoRedRed] at hpb hpn
            have hgc : gc = Black := color_ne_red.1 (fun e => by simpa using (hpn.2.2.1 e).1)
            subst hgc
            by_cases ha : color aunt = Red
            · cases aunt with
              | nil => simp [color] at ha
              | node al ac ak av ar =>
                simp only [color] at ha
                subst ha
                simp only [rb_insert_fixup, Frame.color, color, Frame.fill, withColor, if_true]
                obtain ⟨t1, e, r1, r2, r3, r4⟩ := ih rest hl1
                  (node pl Black pk pv (node zl Red zk zv zr)) (node al Black ak av ar) gk gv
                  (by simp [NoRedRed, color] at hn hpn ⊢; and_intros <;> first | assumption | tauto)
                  (by simp [EqualBlackCounts, blackHeight] at hb hpb ⊢
                      and_intros <;> first | assumption | omega | tauto)
                  (pathEqualBlackCounts_congr rest _ _ hpb.2.2.2.2
                    (by simp [EqualBlackCounts, blackHeight] at hb hpb ⊢; omega))
                  hpn.2.2.2.2 hr1
                refine ⟨t1, e, r1, r2, r3, ?_⟩
                rw [r4]
                simp [pairs_plug, pairs, pairsBefore, pairsAfter]
            · have ha1 : color aunt = Black := color_ne_red.1 ha
              simp only [rb_insert_fixup, Frame.color, ha1, if_true]
              refine ⟨_, rfl, ?_⟩
              obtain ⟨q1, q2, q3, q4⟩ := plug_black_valid
                (node (node pl Red pk pv zl) Black zk zv (node zr Red gk gv aunt)) rest
                (by simp [NoRedRed, color] at hn hpn ⊢; and_intros <;> first | assumption | tauto)
                (by simp [EqualBlackCounts, blackHeight] at hb hpb ⊢
                    and_intros <;> first | assumption | omega | tauto)
                (by simpa [color] using hpn.2.2.2.2)
                (pathEqualBlackCounts_congr rest _ _ hpb.2.2.2.2
                  (by simp [EqualBlackCounts, blackHeight] at hb hpb ⊢; omega))
              refine ⟨q1, q2, q3, ?_⟩
              rw [q4]
              simp [pairs_plug, pairs, pairsBefore, pairsAfter]
        | right aunt gc gk gv =>
          cases p with
          | left pc pk pv pr =>
            simp only [Frame.color] at hp
            subst hp
            simp only [PathEqualBlackCounts, PathNoRedRed] at hpb hpn
            have hgc : gc = Black := color_ne_red.1 (fun e => by simpa using (hpn.2.2.1 e).2)
            subst hgc
            by_cases ha : color aunt = Red
            · cases aunt with
              | nil => simp [color] at ha
              | node al ac ak av ar =>
                simp only [color] at ha
                subst ha
                simp only [rb_insert_fixup, Frame.color, color, Frame.fill, withColor, if_true]
                obtain ⟨t1, e, r1, r2, r3, r4⟩ := ih rest hl1
                  (node al Black ak av ar) (node (node zl Red zk zv zr) Black pk pv pr) gk gv
                  (by simp [NoRedRed, color] at hn hpn ⊢; and_intros <;> first | assumption | tauto)
                  (by simp [EqualBlackCounts, blackHeight] at hb hpb ⊢
                      and_intros <;> first | assumption | omega | tauto)
                  (pathEqualBlackCounts_congr rest _ _ hpb.2.2.2.2
                    (by simp [EqualBlackCounts, blackHeight] at hb hpb ⊢; omega))
                  hpn.2.2.2.2 hr1
                refine ⟨t1, e, r1, r2, r3, ?_⟩
                rw [r4]
                simp [pairs_plug, pairs, pairsBefore, pairsAfter]
            · have ha1 : color aunt = Black := color_ne_red.1 ha
              simp only [rb_insert_fixup, Frame.color, ha1, if_true]
              refine ⟨_, rfl, ?_⟩
              obtain ⟨q1, q2, q3, q4⟩ := plug_black_valid
                (node (node aunt Red gk gv zl) Black zk zv (node zr Red pk pv pr)) rest
                (by simp [NoRedRed, color] at hn hpn ⊢; and_intros <;> first | assumption | tauto)
                (by simp [EqualBlackCounts, blackHeight] at hb hpb ⊢
                    and_intros <;> first | assumption | omega | tauto)
                (by simpa [color] using hpn.2.2.2.2)
                (pathEqualBlackCounts_congr rest _ _ hpb.2.2.2.2
                  (by simp [EqualBlackCounts, blackHeight] at hb hpb ⊢; omega))
              refine ⟨q1, q2, q3, ?_⟩
              rw [q4]
              simp [pairs_plug, pairs, pairsBefore, pairsAfter]
          | right pl pc pk pv =>
            simp only [Frame.color] at hp
            subst hp
            simp only [PathEqualBlackCounts, PathNoRedRed] at hpb hpn
            have hgc : gc = Black := color_ne_red.1 (fun e => by simpa using (hpn.2.2.1 e).2)
            subst hgc
            by_cases ha : color aunt = Red
            · cases aunt with
              | nil => simp [color] at ha
              | node al ac ak av ar =>
                simp only [color] at ha
                subst ha
                simp only [rb_insert_fixup, Frame.color, color, Frame.fill, withColor, if_true]
                obtain ⟨t1, e, r1, r2, r3, r4⟩ := ih rest hl1
                  (node al Black ak av ar) (node pl Black pk pv (node zl Red zk zv zr)) gk gv
                  (by simp [NoRedRed, color] at hn hpn ⊢; and_intros <;> first | assumption | tauto)
                  (by simp [EqualBlackCounts, blackHeight] at hb hpb ⊢
                      and_intros <;> first | assumption | omega | tauto)
                  (pathEqualBlackCounts_congr rest _ _ hpb.2.2.2.2
                    (by simp [EqualBlackCounts, blackHeight] at hb hpb ⊢; omega))
                  hpn.2.2.2.2 hr1
                refine ⟨t1, e, r1, r2, r3, ?_⟩
                rw [r4]
                simp [pairs_plug, pairs, pairsBefore, pairsAfter]
            · have ha1 : color aunt = Black := color_ne_red.1 ha
              simp only [rb_insert_fixup, Frame.color, ha1, if_true]
              refine ⟨_, rfl, ?_⟩
              obtain ⟨q1, q2, q3, q4⟩ := plug_black_valid
                (node (node aunt Red gk gv pl) Black pk pv (node zl Red zk zv zr)) rest
                (by simp [NoRedRed, color] at hn hpn ⊢; and_intros <;> first | assumption | tauto)
                (by simp [EqualBlackCounts, blackHeight] at hb hpb ⊢
                    and_intros <;> first | assumption | omega | tauto)
                (by simpa [color] using hpn.2.2.2.2)
                (pathEqualBlackCounts_congr rest _ _ hpb.2.2.2.2
                  (by simp [EqualBlackCounts, blackHeight] at hb hpb ⊢; omega))
              refine ⟨q1, q2, q3, ?_⟩
              rw [q4]
              simp [pairs_plug, pairs, pairsBefore, pairsAfter]
      · have hp1 : p.color = Black := color_ne_red.1 hp
        simp only [rb_insert_fixup, hp1]
        exact hfin p _ rfl hp1

theorem rb_insert_search_plug [DecidableEq K] (pred : K → K → Bool) (key : K)
    (t : RbTreeNode K V) : ∀ path path1, rb_insert_search pred key t path = some path1 →
      plug nil path1 = plug t path := by
  induction t with
  | nil =>
    intro path path1 h
    simp only [rb_insert_search, Option.some.injEq] at h
    rw [h]
  | node l c k v r ihl ihr =>
    intro path path1 h
    simp only [rb_insert_search] at h
    split at h
    · exact ihl _ _ h
    · split at h
      · exact absurd h (by simp)
      · exact ihr _ _ h

/-- The keys around the position where the search loop of `rb_insert` ends. -/
theorem rb_insert_search_bounds [LinearOrder K] (key : K) (t : RbTreeNode K V) :
    ∀ path path1, rb_insert_search AvlTree.less key t path = some path1 →
      SortedKeys (pairs (plug t path)) →
      (∀ p ∈ pairsBefore path, p.1 < key) → (∀ p ∈ pairsAfter path, key < p.1) →
      (∀ p ∈ pairsBefore path1, p.1 < key) ∧ (∀ p ∈ pairsAfter path1, key < p.1) := by
  induction t with
  | nil =>
    intro path path1 h _ hb ha
    simp only [rb_insert_search, Option.some.injEq] at h
    rw [← h]
    exact ⟨hb, ha⟩
  | node l c k v r ihl ihr =>
    intro path path1 h hs hb ha
    have hs1 := hs
    rw [pairs_plug, sortedKeys_append, sortedKeys_append] at hs1
    obtain ⟨⟨_, hn, _⟩, _, _⟩ := hs1
    simp only [pairs] at hn
    rw [sortedKeys_append, sortedKeys_cons] at hn
    obtain ⟨_, ⟨hr, _⟩, hlk⟩ := hn
    simp only [rb_insert_search, AvlTree.less, decide_eq_true_eq] at h
    split at h
    · rename_i hlt
      refine ihl _ _ h hs hb ?_
      intro p hp
      simp only [pairsAfter, List.mem_cons, List.mem_append] at hp
      rcases hp with (e | e) | e
      · rw [e]; exact hlt
      · exact lt_trans hlt (hr p e)
      · exact ha p e
    · rename_i hlt
      split at h
      · exact absurd h (by simp)
      · rename_i hne
        have hgt : k < key := lt_of_le_of_ne (not_lt.1 hlt) (Ne.symm hne)
        refine ihr _ _ h hs ?_ ha
        intro p hp
        simp only [pairsBefore, List.mem_append, List.mem_singleton] at hp
        rcases hp with e | e | e
        · exact hb p e
        · exact lt_trans (hlk p e (k, v) (by simp)) hgt
        · rw [e]; exact hgt

/-- When the search loop of `rb_insert` meets the key, the key is stored. -/
theorem rb_insert_search_none [LinearOrder K] (key : K) (value : V) (t : RbTreeNode K V) :
    ∀ path, rb_insert_search AvlTree.less key t path = none →
      SortedKeys (pairs (plug t path)) →
      (∀ p ∈ pairsBefore path, p.1 < key) → (∀ p ∈ pairsAfter path, key < p.1) →
      insList key value (pairs (plug t path)) = pairs (plug t path) := by
  induction t with
  | nil =>
    intro path h
    simp [rb_insert_search] at h
  | node l c k v r ihl ihr =>
    intro path h hs hb ha
    have hs1 := hs
    rw [pairs_plug, sortedKeys_append, sortedKeys_append] at hs1
    obtain ⟨⟨_, hn, _⟩, _, _⟩ := hs1
    simp only [pairs] at hn
    rw [sortedKeys_append, sortedKeys_cons] at hn
    obtain ⟨_, ⟨hr, _⟩, hlk⟩ := hn
    simp only [rb_insert_search, AvlTree.less, decide_eq_true_eq] at h
    split at h
    · rename_i hlt
      refine ihl _ h hs hb ?_
      intro p hp
      simp only [pairsAfter, List.mem_cons, List.mem_append] at hp
      rcases hp with (e | e) | e
      · rw [e]; exact hlt
      · exact lt_trans hlt (hr p e)
      · exact ha p e
    · rename_i hlt
      split at h
      · rename_i he
        subst he
        rw [pairs_plug]
        simp only [pairs]
        rw [insList_middle key value _ _ _ hb ha,
          insList_append_eq key value (pairs l) (key, v) (pairs r)
            (fun b hb1 => hlk b hb1 (key, v) (by simp)) rfl]
      · rename_i hne
        have hgt : k < key := lt_of_le_of_ne (not_lt.1 hlt) (Ne.symm hne)
        refine ihr _ h hs ?_ ha
        intro p hp
        simp only [pairsBefore, List.mem_append, List.mem_singleton] at hp
        rcases hp with e | e | e
        · exact hb p e
        · exact lt_trans (hlk p e (k, v) (by simp)) hgt
        · rw [e]; exact hgt

/-- `insert` on a tree with the red-black properties. -/
theorem rb_insert_spec [LinearOrder K] (t : RedBlackTree K V) (key : K) (value : V)
    (hc : t.m_binPredicate = AvlTree.less) (h : IsRedBlack t.m_root) :
    ∃ t1 ret, insert t key value = some (t1, ret) ∧ t1.m_binPredicate = AvlTree.less ∧
      IsRedBlack t1.m_root ∧ pairs t1.m_root = insList key value (pairs t.m_root) := by
  obtain ⟨hs, hr, hn, hb⟩ := h
  simp only [insert, rb_insert, hc]
  cases hse : rb_insert_search AvlTree.less key t.m_root [] with
  | none =>
    refine ⟨t, false, rfl, hc, ⟨hs, hr, hn, hb⟩, ?_⟩
    exact (rb_insert_search_none key value t.m_root [] hse hs (by simp [pairsBefore])
      (by simp [pairsAfter])).symm
  | some path1 =>
    have hp := rb_insert_search_plug _ key t.m_root [] path1 hse
    simp only [plug] at hp
    obtain ⟨b1, b2⟩ := rb_insert_search_bounds key t.m_root [] path1 hse hs
      (by simp [pairsBefore]) (by simp [pairsAfter])
    have hins : pairs (plug (node nil Red key value nil) path1) =
        insList key value (pairs t.m_root) := by
      rw [← hp, pairs_plug, pairs_plug, insList_middle key value _ _ _ b1 b2]
      simp [pairs, insList]
    cases path1 with
    | nil =>
      refine ⟨_, true, rfl, ?_, ?_, ?_⟩
      · rfl
      · refine ⟨?_, rfl, ?_, ?_⟩
        · simp [pairs, SortedKeys]
        · simp [NoRedRed]
        · simp [EqualBlackCounts]
      · rw [← hins]; rfl
    | cons f path =>
      rw [← hp, noRedRed_plug] at hn
      rw [← hp, equalBlackCounts_plug] at hb
      rw [← hp, color_plug] at hr
      obtain ⟨t1, e, r1, r2, r3, r4⟩ := rb_insert_fixup_len (f :: path).length (f :: path)
        (le_refl _) nil nil key value (by simp [NoRedRed, color]) (by simp [EqualBlackCounts])
        hb.2 hn.2 hr
      simp only [e]
      refine ⟨_, true, rfl, ?_, ⟨?_, r1, r2, r3⟩, ?_⟩
      · rfl
      · show SortedKeys (pairs t1)
        rw [r4, hins]
        exact sortedKeys_insList key value _ hs
      · show pairs t1 = _
        rw [r4, hins]

theorem plug_append (p1 p2 : List (Frame K V)) : ∀ t : RbTreeNode K V,
    plug t (p1 ++ p2) = plug (plug t p1) p2 := by
  induction p1 with
  | nil => intro t; rfl
  | cons f p1 ih => intro t; simp only [List.cons_append, plug, List.append_eq, ih]

theorem pairsBefore_append (p1 p2 : List (Frame K V)) :
    pairsBefore (p1 ++ p2) = pairsBefore p2 ++ pairsBefore p1 := by
  induction p1 with
  | nil => simp [pairsBefore]
  | cons f p1 ih => cases f <;> simp [pairsBefore, ih]

theorem pairsAfter_append (p1 p2 : List (Frame K V)) :
    pairsAfter (p1 ++ p2) = pairsAfter p1 ++ pairsAfter p2 := by
  induction p1 with
  | nil => simp [pairsAfter]
  | cons f p1 ih => cases f <;> simp [pairsAfter, ih]

theorem pathRootColor_append (p1 p2 : List (Frame K V)) : ∀ c,
    pathRootColor (p1 ++ p2) c = pathRootColor p2 (pathRootColor p1 c) := by
  induction p1 with
  | nil => intro c; rfl
  | cons f p1 ih => intro c; simp only [List.cons_append, pathRootColor, List.append_eq, ih]

theorem pathNoRedRed_append (p1 p2 : List (Frame K V)) : ∀ c,
    PathNoRedRed (p1 ++ p2) c ↔ PathNoRedRed p1 c ∧ PathNoRedRed p2 (pathRootColor p1 c) := by
  induction p1 with
  | nil => intro c; simp [PathNoRedRed, pathRootColor]
  | cons f p1 ih =>
    intro c
    cases f <;>
      simp only [List.cons_append, PathNoRedRed, pathRootColor, List.append_eq, ih,
        Frame.color] <;> tauto

theorem pathEqualBlackCounts_append (p1 p2 : List (Frame K V)) : ∀ n,
    PathEqualBlackCounts (p1 ++ p2) n ↔
      PathEqualBlackCounts p1 n ∧ PathEqualBlackCounts p2 (n + pathBlackCount p1) := by
  induction p1 with
  | nil => intro n; simp [PathEqualBlackCounts, pathBlackCount]
  | cons f p1 ih =>
    intro n
    cases f <;>
      simp only [List.cons_append, PathEqualBlackCounts, pathBlackCount, List.append_eq, ih,
        Frame.color, Nat.add_assoc] <;> tauto

theorem noRedRed_of_withColor_black (t : RbTreeNode K V) (h : NoRedRed (withColor Black t))
    (hc : color t = Black) : NoRedRed t := by
  cases t with
  | nil => trivial
  | node l c1 k v r =>
    simp only [color] at hc
    subst hc
    exact h

theorem blackHeight_withColor_black (t : RbTreeNode K V) (hc : color t = Red) :
    blackHeight (withColor Black t) = blackHeight t + 1 := by
  cases t with
  | nil => simp [color] at hc
  | node l c1 k v r =>
    simp only [color] at hc
    subst hc
    simp [blackHeight, withColor]

/-- One pass of the loop of `rb_remove_fixup` from Case 2 on, `x` the left child. -/
theorem rb_remove_fixup_left_spec (x s : RbTreeNode K V) (pc : Color) (pk : K) (pv : V)
    (hx1 : NoRedRed x) (hx2 : EqualBlackCounts x)
    (hs1 : NoRedRed s) (hs2 : EqualBlackCounts s) (hsc : color s = Black)
    (hbh : blackHeight s = blackHeight x + 1) :
    (∃ x1, rb_remove_fixup_left x pc pk pv s = some (.up x1) ∧
      NoRedRed (withColor Black x1) ∧ EqualBlackCounts x1 ∧
      blackHeight x1 = blackHeight x + (if pc = Black then 1 else 0) ∧ color x1 = pc ∧
      pairs x1 = pairs x ++ (pk, pv) :: pairs s) ∨
    (∃ sub, rb_remove_fixup_left x pc pk pv s = some (.stop sub) ∧
      NoRedRed sub ∧ EqualBlackCounts sub ∧
      blackHeight sub = blackHeight x + 1 + (if pc = Black then 1 else 0) ∧ color sub = pc ∧
      pairs sub = pairs x ++ (pk, pv) :: pairs s) := by
  cases s with
  | nil => simp [blackHeight] at hbh
  | node sl sc sk sv sr =>
    simp only [color] at hsc
    subst hsc
    simp only [rb_remove_fixup_left]
    by_cases h2 : color sr = Black ∧ color sl = Black
    · left
      rw [if_pos h2]
      refine ⟨_, rfl, ?_, ?_, ?_, rfl, ?_⟩
      · simp [NoRedRed, withColor] at hs1 ⊢
        exact ⟨hx1, ⟨h2.2, h2.1⟩, hs1⟩
      · simp [EqualBlackCounts, blackHeight] at hs2 hbh ⊢
        exact ⟨by omega, hx2, hs2⟩
      · simp [blackHeight]
      · simp [pairs]
    · right
      rw [if_neg h2]
      by_cases h3 : color sr = Black
      · rw [if_pos h3]
        have hsl : color sl = Red := color_ne_black.1 (fun e => h2 ⟨h3, e⟩)
        cases sl with
        | nil => simp [color] at hsl
        | node sll slc slk slv slr =>
          simp only [color] at hsl
          subst hsl
          refine ⟨_, rfl, ?_, ?_, ?_, rfl, ?_⟩
          · simp [NoRedRed, color] at hs1 ⊢
            have := hs1.1
            and_intros <;> first | assumption | tauto
          · simp [EqualBlackCounts, blackHeight] at hs2 hbh ⊢
            and_intros <;> first | assumption | omega | tauto
          · simp [blackHeight]
          · simp [pairs]
      · rw [if_neg h3]
        have hsr : color sr = Red := color_ne_black.1 h3
        cases sr with
        | nil => simp [color] at hsr
        | node srl src srk srv srr =>
          simp only [color] at hsr
          subst hsr
          refine ⟨_, rfl, ?_, ?_, ?_, rfl, ?_⟩
          · simp [NoRedRed, color, withColor] at hs1 ⊢
            and_intros <;> first | assumption | tauto
          · simp [EqualBlackCounts, blackHeight, withColor] at hs2 hbh ⊢
            and_intros <;> first | assumption | omega | tauto
          · simp [blackHeight]
          · simp [pairs, withColor]

/-- One pass of the loop of `rb_remove_fixup` from Case 2 on, `x` the right child. -/
theorem rb_remove_fixup_right_spec (x s : RbTreeNode K V) (pc : Color) (pk : K) (pv : V)
    (hx1 : NoRedRed x) (hx2 : EqualBlackCounts x)
    (hs1 : NoRedRed s) (hs2 : EqualBlackCounts s) (hsc : color s = Black)
    (hbh : blackHeight s = blackHeight x + 1) :
    (∃ x1, rb_remove_fixup_right x pc pk pv s = some (.up x1) ∧
      NoRedRed (withColor Black x1) ∧ EqualBlackCounts x1 ∧
      blackHeight x1 = blackHeight x + (if pc = Black then 1 else 0) ∧ color x1 = pc ∧
      pairs x1 = pairs s ++ (pk, pv) :: pairs x) ∨
    (∃ sub, rb_remove_fixup_right x pc pk pv s = some (.stop sub) ∧
      NoRedRed sub ∧ EqualBlackCounts sub ∧
      blackHeight sub = blackHeight x + 1 + (if pc = Black then 1 else 0) ∧ color sub = pc ∧
      pairs sub = pairs s ++ (pk, pv) :: pairs x) := by
  cases s with
  | nil => simp [blackHeight] at hbh
  | node sl sc sk sv sr =>
    simp only [color] at hsc
    subst hsc
    simp only [rb_remove_fixup_right]
    by_cases h2 : color sl = Black ∧ color sr = Black
    · left
      rw [if_pos h2]
      refine ⟨_, rfl, ?_, ?_, ?_, rfl, ?_⟩
      · simp [NoRedRed, withColor] at hs1 ⊢
        and_intros <;> first | assumption | tauto
      · simp [EqualBlackCounts, blackHeight] at hs2 hbh ⊢
        and_intros <;> first | assumption | omega | tauto
      · simp [blackHeight] at hs2 hbh ⊢
        omega
      · simp [pairs]
    · right
      rw [if_neg h2]
      by_cases h3 : color sl = Black
      · rw [if_pos h3]
        have hsr : color sr = Red := color_ne_black.1 (fun e => h2 ⟨h3, e⟩)
        cases sr with
        | nil => simp [color] at hsr
        | node srl src srk srv srr =>
          simp only [color] at hsr
          subst hsr
          refine ⟨_, rfl, ?_, ?_, ?_, rfl, ?_⟩
          · simp [NoRedRed, color] at hs1 ⊢
            have := hs1.1
            and_intros <;> first | assumption | tauto
          · simp [EqualBlackCounts, blackHeight] at hs2 hbh ⊢
            and_intros <;> first | assumption | omega | tauto
          · simp [blackHeight] at hs2 hbh ⊢
            omega
          · simp [pairs]
      · rw [if_neg h3]
        have hsl : color sl = Red := color_ne_black.1 h3
        cases sl with
        | nil => simp [color] at hsl
        | node sll slc slk slv slr =>
          simp only [color] at hsl
          subst hsl
          refine ⟨_, rfl, ?_, ?_, ?_, rfl, ?_⟩
          · simp [NoRedRed, color, withColor] at hs1 ⊢
            and_intros <;> first | assumption | tauto
          · simp [EqualBlackCounts, blackHeight, withColor] at hs2 hbh ⊢
            and_intros <;> first | assumption | omega | tauto
          · simp [blackHeight, withColor] at hs2 hbh ⊢
            omega
          · simp [pairs, withColor]

/-- `rb_remove_fixup` for a subtree `x` one black node short of what its surroundings
expect. -/
theorem rb_remove_fixup_spec (path : List (Frame K V)) : ∀ x : RbTreeNode K V,
    NoRedRed (withColor Black x) → EqualBlackCounts x →
    PathEqualBlackCounts path (blackHeight x + 1) → PathNoRedRed path Black →
    pathRootColor path Black = Black →
    ∃ t1, rb_remove_fixup x path = some t1 ∧ color t1 = Black ∧ NoRedRed t1 ∧
      EqualBlackCounts t1 ∧ pairs t1 = pairs (plug x path) := by
  induction path with
  | nil =>
    intro x hn hb _ _ _
    exact ⟨_, rfl, color_withColor_black _, hn, equalBlackCounts_withColor _ _ hb,
      by simp [plug, pairs_withColor]⟩
  | cons f rest ih =>
    intro x hn hb hpb hpn hpr
    by_cases hx : color x = Red
    · have e : rb_remove_fixup x (f :: rest) = some (plug (withColor Black x) (f :: rest)) := by
        cases f <;> simp [rb_remove_fixup, hx]
      refine ⟨_, e, ?_, ?_, ?_, ?_⟩
      · rw [color_plug]; exact hpr
      · rw [noRedRed_plug]
        exact ⟨hn, by rw [color_withColor_black]; exact hpn⟩
      · rw [equalBlackCounts_plug]
        exact ⟨equalBlackCounts_withColor _ _ hb,
          by rw [blackHeight_withColor_black x hx]; exact hpb⟩
      · simp [pairs_plug, pairs_withColor]
    · have hx : color x = Black := color_ne_red.1 hx
      have hn1 := noRedRed_of_withColor_black x hn hx
      have hr1 : pathRootColor rest Black = Black := pathRootColor_black rest f.color hpr
      cases f with
      | left pc pk pv s =>
        simp only [PathEqualBlackCounts, PathNoRedRed] at hpb hpn
        obtain ⟨hb1, hb2, hb3⟩ := hpb
        obtain ⟨hn2, hn3, hn4⟩ := hpn
        cases s with
        | nil => simp [blackHeight] at hb1
        | node sl sc sk sv sr =>
          by_cases hsc : sc = Red
          · subst hsc
            have hpc : pc = Black := color_ne_red.1 (fun e => by simpa [color] using (hn2 e).2)
            subst hpc
            simp only [NoRedRed, EqualBlackCounts] at hn3 hb2
            simp [blackHeight] at hb1
            rcases rb_remove_fixup_left_spec x sl Red pk pv hn1 hb hn3.2.1 hb2.2.1
                (hn3.1 trivial).1 hb1 with
              ⟨x1, e, q1, q2, q3, q4, q5⟩ | ⟨sub, e, q1, q2, q3, q4, q5⟩
            · refine ⟨plug (withColor Black x1) (.left Black sk sv sr :: rest),
                by simp [rb_remove_fixup, hx, e], ?_, ?_, ?_, ?_⟩
              · rw [color_plug]; exact hr1
              · rw [noRedRed_plug, color_withColor_black]
                simp only [PathNoRedRed]
                exact ⟨q1, nofun, hn3.2.2, hn4⟩
              · rw [equalBlackCounts_plug]
                refine ⟨equalBlackCounts_withColor _ _ q2, ?_⟩
                rw [blackHeight_withColor_black x1 q4]
                simp only [PathEqualBlackCounts]
                simp at q3
                refine ⟨by omega, hb2.2.2, pathEqualBlackCounts_congr rest _ _ hb3 (by simp; omega)⟩
              · simp [pairs_plug, pairs_withColor, q5, pairs, pairsBefore, pairsAfter]
            · refine ⟨withColor Black (plug sub (.left Black sk sv sr :: rest)),
                by simp [rb_remove_fixup, hx, e], ?_⟩
              simp at q3
              obtain ⟨r1, r2, r3, r4⟩ := plug_black_valid sub (.left Black sk sv sr :: rest) q1 q2
                (by rw [q4]; simp only [PathNoRedRed]; exact ⟨nofun, hn3.2.2, hn4⟩)
                (by
                  simp only [PathEqualBlackCounts]
                  exact ⟨by omega, hb2.2.2,
                    pathEqualBlackCounts_congr rest _ _ hb3 (by simp; omega)⟩)
              refine ⟨r1, r2, r3, ?_⟩
              rw [r4]
              simp [pairs_plug, q5, pairs, pairsBefore, pairsAfter]
          · have hsc1 : sc = Black := color_ne_red.1 hsc
            subst hsc1
            rcases rb_remove_fixup_left_spec x (node sl Black sk sv sr) pc pk pv hn1 hb hn3 hb2
                rfl hb1 with
              ⟨x1, e, q1, q2, q3, q4, q5⟩ | ⟨sub, e, q1, q2, q3, q4, q5⟩
            · obtain ⟨t1, e1, r1, r2, r3, r4⟩ := ih x1 q1 q2
                (pathEqualBlackCounts_congr rest _ _ hb3 (by omega))
                (pathNoRedRed_black rest _ hn4) hr1
              refine ⟨t1, by simp [rb_remove_fixup, hx, e, e1], r1, r2, r3, ?_⟩
              rw [r4]
              simp [pairs_plug, q5, pairs, pairsBefore, pairsAfter]
            · refine ⟨withColor Black (plug sub rest), by simp [rb_remove_fixup, hx, e], ?_⟩
              obtain ⟨r1, r2, r3, r4⟩ := plug_black_valid sub rest q1 q2
                (by rw [q4]; exact hn4)
                (pathEqualBlackCounts_congr rest _ _ hb3 (by omega))
              refine ⟨r1, r2, r3, ?_⟩
              rw [r4]
              simp [pairs_plug, q5, pairs, pairsBefore, pairsAfter]
      | right s pc pk pv =>
        simp only [PathEqualBlackCounts, PathNoRedRed] at hpb hpn
        obtain ⟨hb1, hb2, hb3⟩ := hpb
        obtain ⟨hn2, hn3, hn4⟩ := hpn
        cases s with
        | nil => simp [blackHeight] at hb1
        | node sl sc sk sv sr =>
          by_cases hsc : sc = Red
          · subst hsc
            have hpc : pc = Black := color_ne_red.1 (fun e => by simpa [color] using (hn2 e).1)
            subst hpc
            simp only [NoRedRed, EqualBlackCounts] at hn3 hb2
            simp [blackHeight] at hb1
            have hb4 : blackHeight sr = blackHeight x + 1 := by omega
            rcases rb_remove_fixup_right_spec x sr Red pk pv hn1 hb hn3.2.2 hb2.2.2
                (hn3.1 trivial).2 hb4 with
              ⟨x1, e, q1, q2, q3, q4, q5⟩ | ⟨sub, e, q1, q2, q3, q4, q5⟩
            · refine ⟨plug (withColor Black x1) (.right sl Black sk sv :: rest),
                by simp [rb_remove_fixup, hx, e], ?_, ?_, ?_, ?_⟩
              · rw [color_plug]; exact hr1
              · rw [noRedRed_plug, color_withColor_black]
                simp only [PathNoRedRed]
                exact ⟨q1, nofun, hn3.2.1, hn4⟩
              · rw [equalBlackCounts_plug]
                refine ⟨equalBlackCounts_withColor _ _ q2, ?_⟩
                rw [blackHeight_withColor_black x1 q4]
                simp only [PathEqualBlackCounts]
                simp at q3
                refine ⟨by omega, hb2.2.1, pathEqualBlackCounts_congr rest _ _ hb3 (by simp; omega)⟩
              · simp [pairs_plug, pairs_withColor, q5, pairs, pairsBefore, pairsAfter]
            · refine ⟨withColor Black (plug sub (.right sl Black sk sv :: rest)),
                by simp [rb_remove_fixup, hx, e], ?_⟩
              simp at q3
              obtain ⟨r1, r2, r3, r4⟩ := plug_black_valid sub (.right sl Black sk sv :: rest) q1 q2
                (by rw [q4]; simp only [PathNoRedRed]; exact ⟨nofun, hn3.2.1, hn4⟩)
                (by
                  simp only [PathEqualBlackCounts]
                  exact ⟨by omega, hb2.2.1,
                    pathEqualBlackCounts_congr rest _ _ hb3 (by simp; omega)⟩)
              refine ⟨r1, r2, r3, ?_⟩
              rw [r4]
              simp [pairs_plug, q5, pairs, pairsBefore, pairsAfter]
          · have hsc1 : sc = Black := color_ne_red.1 hsc
            subst hsc1
            rcases rb_remove_fixup_right_spec x (node sl Black sk sv sr) pc pk pv hn1 hb hn3 hb2
                rfl hb1 with
              ⟨x1, e, q1, q2, q3, q4, q5⟩ | ⟨sub, e, q1, q2, q3, q4, q5⟩
            · obtain ⟨t1, e1, r1, r2, r3, r4⟩ := ih x1 q1 q2
                (pathEqualBlackCounts_congr rest _ _ hb3 (by omega))
                (pathNoRedRed_black rest _ hn4) hr1
              refine ⟨t1, by simp [rb_remove_fixup, hx, e, e1], r1, r2, r3, ?_⟩
              rw [r4]
              simp [pairs_plug, q5, pairs, pairsBefore, pairsAfter]
            · refine ⟨withColor Black (plug sub rest), by simp [rb_remove_fixup, hx, e], ?_⟩
              obtain ⟨r1, r2, r3, r4⟩ := plug_black_valid sub rest q1 q2
                (by rw [q4]; exact hn4)
                (pathEqualBlackCounts_congr rest _ _ hb3 (by omega))
              refine ⟨r1, r2, r3, ?_⟩
              rw [r4]
              simp [pairs_plug, q5, pairs, pairsBefore, pairsAfter]

theorem minimum_spec (t : RbTreeNode K V) : ∀ path : List (Frame K V), t ≠ nil →
    ∃ yc yk yv yr inner, minimum t path = some (yc, yk, yv, yr, inner ++ path) ∧
      plug (node nil yc yk yv yr) inner = t ∧ pairsBefore inner = [] := by
  induction t with
  | nil => intro path h; exact absurd rfl h
  | node l c k v r ihl _ =>
    intro path _
    cases l with
    | nil => exact ⟨c, k, v, r, [], rfl, rfl, rfl⟩
    | node ll lc lk lv lr =>
      obtain ⟨yc, yk, yv, yr, inner, e, h1, h2⟩ := ihl (.left c k v r :: path) (by simp)
      refine ⟨yc, yk, yv, yr, inner ++ [.left c k v r], ?_, ?_, ?_⟩
      · simp only [minimum, e, List.append_assoc, List.singleton_append]
      · rw [plug_append, h1]; rfl
      · rw [pairsBefore_append, h2]; rfl

theorem bst_find_some [DecidableEq K] (pred : K → K → Bool) (key : K) (t : RbTreeNode K V) :
    ∀ path n path1, bst_find pred key t path = some (n, path1) →
      plug n path1 = plug t path ∧ ∃ l c v r, n = node l c key v r := by
  induction t with
  | nil => intro path n path1 h; simp [bst_find] at h
  | node l c k v r ihl ihr =>
    intro path n path1 h
    simp only [bst_find] at h
    split at h
    · exact ihl _ _ _ h
    · split at h
      · rename_i he
        simp only [Option.some.injEq, Prod.mk.injEq] at h
        rw [← h.1, ← h.2, he]
        exact ⟨rfl, l, c, v, r, rfl⟩
      · exact ihr _ _ _ h

/-- When `bst_find` returns `nullptr`, the key is not stored. -/
theorem bst_find_none [LinearOrder K] (key : K) (t : RbTreeNode K V) :
    ∀ path, bst_find AvlTree.less key t path = none →
      SortedKeys (pairs (plug t path)) →
      (∀ p ∈ pairsBefore path, p.1 < key) → (∀ p ∈ pairsAfter path, key < p.1) →
      ∀ p ∈ pairs (plug t path), p.1 ≠ key := by
  induction t with
  | nil =>
    intro path _ _ hb ha p hp
    rw [pairs_plug] at hp
    simp only [pairs, List.append_nil, List.mem_append] at hp
    rcases hp with e | e
    · exact ne_of_lt (hb p e)
    · exact ne_of_gt (ha p e)
  | node l c k v r ihl ihr =>
    intro path h hs hb ha
    have hs1 := hs
    rw [pairs_plug, sortedKeys_append, sortedKeys_append] at hs1
    obtain ⟨⟨_, hn, _⟩, _, _⟩ := hs1
    simp only [pairs] at hn
    rw [sortedKeys_append, sortedKeys_cons] at hn
    obtain ⟨_, ⟨hr, _⟩, hlk⟩ := hn
    simp only [bst_find, AvlTree.less, decide_eq_true_eq] at h
    split at h
    · rename_i hlt
      refine ihl _ h hs hb ?_
      intro p hp
      simp only [pairsAfter, List.mem_cons, List.mem_append] at hp
      rcases hp with (e | e) | e
      · rw [e]; exact hlt
      · exact lt_trans hlt (hr p e)
      · exact ha p e
    · rename_i hlt
      split at h
      · exact absurd h (by simp)
      · rename_i hne
        have hgt : k < key := lt_of_le_of_ne (not_lt.1 hlt) (Ne.symm hne)
        refine ihr _ h hs ?_ ha
        intro p hp
        simp only [pairsBefore, List.mem_append, List.mem_singleton] at hp
        rcases hp with e | e | e
        · exact hb p e
        · exact lt_trans (hlk p e (k, v) (by simp)) hgt
        · rw [e]; exact hgt

theorem pathRootColor_of_ne_nil (f : Frame K V) (path : List (Frame K V)) (c1 c2 : Color) :
    pathRootColor (f :: path) c1 = pathRootColor (f :: path) c2 := rfl

/-- A valid subtree put at a position whose surroundings are valid. -/
theorem plug_valid (sub : RbTreeNode K V) (path : List (Frame K V))
    (h1 : NoRedRed sub) (h2 : EqualBlackCounts sub) (h3 : PathNoRedRed path (color sub))
    (h4 : PathEqualBlackCounts path (blackHeight sub))
    (h5 : pathRootColor path (color sub) = Black) :
    color (plug sub path) = Black ∧ NoRedRed (plug sub path) ∧
      EqualBlackCounts (plug sub path) :=
  ⟨by rw [color_plug]; exact h5, (noRedRed_plug path sub).2 ⟨h1, h3⟩,
    (equalBlackCounts_plug path sub).2 ⟨h2, h4⟩⟩

theorem pathRootColor_red (path : List (Frame K V)) (c : Color)
    (h : pathRootColor path Red = Black) : pathRootColor path c = Black := by
  cases path with
  | nil => simp [pathRootColor] at h
  | cons f path => exact h

theorem pathNoRedRed_replace (inner path : List (Frame K V)) (l : RbTreeNode K V) (c : Color)
    (k k1 : K) (v v1 : V) (hc : Color) :
    PathNoRedRed (inner ++ .right l c k v :: path) hc ↔
      PathNoRedRed (inner ++ .right l c k1 v1 :: path) hc := by
  rw [pathNoRedRed_append, pathNoRedRed_append]
  simp only [PathNoRedRed]

theorem pathEqualBlackCounts_replace (inner path : List (Frame K V)) (l : RbTreeNode K V)
    (c : Color) (k k1 : K) (v v1 : V) (n : Nat) :
    PathEqualBlackCounts (inner ++ .right l c k v :: path) n ↔
      PathEqualBlackCounts (inner ++ .right l c k1 v1 :: path) n := by
  rw [pathEqualBlackCounts_append, pathEqualBlackCounts_append]
  simp only [PathEqualBlackCounts]

theorem pathRootColor_replace (inner path : List (Frame K V)) (l : RbTreeNode K V)
    (c : Color) (k k1 : K) (v v1 : V) (hc : Color) :
    pathRootColor (inner ++ .right l c k v :: path) hc =
      pathRootColor (inner ++ .right l c k1 v1 :: path) hc := by
  rw [pathRootColor_append, pathRootColor_append]
  rfl

/-- `rb_remove` on a node of a tree with the properties #2, #4 and #5. -/
theorem rb_remove_spec (l r : RbTreeNode K V) (c : Color) (k : K) (v : V)
    (path : List (Frame K V))
    (hr : color (plug (node l c k v r) path) = Black)
    (hn : NoRedRed (plug (node l c k v r) path))
    (hb : EqualBlackCounts (plug (node l c k v r) path)) :
    ∃ t1, rb_remove (node l c k v r) path = some t1 ∧ color t1 = Black ∧ NoRedRed t1 ∧
      EqualBlackCounts t1 ∧
      pairs t1 = pairsBefore path ++ (pairs l ++ pairs r) ++ pairsAfter path := by
  have hr0 := hr
  have hn0 := hn
  have hb0 := hb
  rw [color_plug] at hr
  rw [noRedRed_plug] at hn
  rw [equalBlackCounts_plug] at hb
  obtain ⟨hn1, hn2⟩ := hn
  obtain ⟨hb1, hb2⟩ := hb
  simp only [color] at hr hn2
  cases l with
  | nil =>
    cases r with
    | nil =>
      by_cases hc : c = Black
      · subst hc
        obtain ⟨t1, e, r1, r2, r3, r4⟩ := rb_remove_fixup_spec path nil trivial trivial
          (by simpa [blackHeight] using hb2) hn2 hr
        refine ⟨t1, by simp [rb_remove, e], r1, r2, r3, ?_⟩
        rw [r4, pairs_plug]
        simp [pairs]
      · have hc1 : c = Red := color_ne_black.1 hc
        subst hc1
        obtain ⟨r1, r2, r3⟩ := plug_valid nil path trivial trivial
          (pathNoRedRed_black path _ hn2) (by simpa [blackHeight] using hb2)
          (pathRootColor_red path _ hr)
        refine ⟨plug nil path, by simp [rb_remove], r1, r2, r3, ?_⟩
        rw [pairs_plug]
        simp [pairs]
    | node rl rc rk rv rr =>
      have hrc : rc = Red := by
        apply color_ne_black.1
        intro e
        subst e
        simp [EqualBlackCounts, blackHeight] at hb1
      subst hrc
      have hc : c = Black := by
        apply color_ne_red.1
        intro e
        subst e
        simp [NoRedRed, color] at hn1
      subst hc
      obtain ⟨t1, e, r1, r2, r3, r4⟩ := rb_remove_fixup_spec path (node rl Red rk rv rr)
        (noRedRed_withColor_black _ hn1.2.2) hb1.2.2
        (pathEqualBlackCounts_congr path _ _ hb2
          (by simp [EqualBlackCounts, blackHeight] at hb1 ⊢; omega)) hn2 hr
      refine ⟨t1, by simp [rb_remove, e], r1, r2, r3, ?_⟩
      rw [r4, pairs_plug]
      simp [pairs]
  | node ll lc lk lv lr =>
    cases r with
    | nil =>
      have hlc : lc = Red := by
        apply color_ne_black.1
        intro e
        subst e
        simp [EqualBlackCounts, blackHeight] at hb1
      subst hlc
      have hc : c = Black := by
        apply color_ne_red.1
        intro e
        subst e
        simp [NoRedRed, color] at hn1
      subst hc
      obtain ⟨t1, e, r1, r2, r3, r4⟩ := rb_remove_fixup_spec path (node ll Red lk lv lr)
        (noRedRed_withColor_black _ hn1.2.1) hb1.2.1
        (pathEqualBlackCounts_congr path _ _ hb2
          (by simp [EqualBlackCounts, blackHeight] at hb1 ⊢)) hn2 hr
      refine ⟨t1, by simp [rb_remove, e], r1, r2, r3, ?_⟩
      rw [r4, pairs_plug]
      simp [pairs]
    | node rl rc rk rv rr =>
      obtain ⟨yc, yk, yv, x, inner, e, h1, h2⟩ :=
        minimum_spec (node rl rc rk rv rr) [] (by simp)
      rw [List.append_nil] at e
      have hT : plug (node (node ll lc lk lv lr) c k v (node rl rc rk rv rr)) path =
          plug (node nil yc yk yv x)
            (inner ++ .right (node ll lc lk lv lr) c k v :: path) := by
        rw [plug_append, h1]; rfl
      rw [hT, color_plug] at hr0
      rw [hT, noRedRed_plug] at hn0
      rw [hT, equalBlackCounts_plug] at hb0
      obtain ⟨hy1, hy2⟩ := hn0
      obtain ⟨hy3, hy4⟩ := hb0
      simp only [color] at hr0 hy2
      rw [pathNoRedRed_replace inner path _ c k yk v yv] at hy2
      rw [pathEqualBlackCounts_replace inner path _ c k yk v yv] at hy4
      rw [pathRootColor_replace inner path _ c k yk v yv] at hr0
      have hpairs : pairs (plug x (inner ++ .right (node ll lc lk lv lr) c yk yv :: path)) =
          pairsBefore path ++ (pairs (node ll lc lk lv lr) ++ pairs (node rl rc rk rv rr)) ++
            pairsAfter path := by
        rw [pairs_plug, pairsBefore_append, pairsAfter_append, h2]
        conv_rhs => rw [← h1, pairs_plug, h2]
        simp [pairs, pairsBefore, pairsAfter]
      by_cases hyc : yc = Black
      · subst hyc
        obtain ⟨t1, e1, r1, r2, r3, r4⟩ := rb_remove_fixup_spec
          (inner ++ .right (node ll lc lk lv lr) c yk yv :: path) x
          (noRedRed_withColor_black _ hy1.2.2) hy3.2.2
          (pathEqualBlackCounts_congr _ _ _ hy4
            (by simp [EqualBlackCounts, blackHeight] at hy3 ⊢; omega))
          hy2 (by
            cases inner with
            | nil => exact hr0
            | cons f q => exact hr0)
        refine ⟨t1, by simp [rb_remove, e, e1], r1, r2, r3, ?_⟩
        rw [r4, hpairs]
      · have hyc1 : yc = Red := color_ne_black.1 hyc
        subst hyc1
        have hxc : color x = Black := by
          simp only [NoRedRed] at hy1
          exact (hy1.1 trivial).2
        obtain ⟨r1, r2, r3⟩ := plug_valid x
          (inner ++ .right (node ll lc lk lv lr) c yk yv :: path) hy1.2.2 hy3.2.2
          (by rw [hxc]; exact pathNoRedRed_black _ _ hy2)
          (pathEqualBlackCounts_congr _ _ _ hy4
            (by simp [EqualBlackCounts, blackHeight] at hy3 ⊢; omega))
          (pathRootColor_red _ _ hr0)
        refine ⟨_, by simp [rb_remove, e], r1, r2, r3, hpairs⟩

/-- `erase` on a tree with the red-black properties. -/
theorem rb_erase_spec [LinearOrder K] (t : RedBlackTree K V) (key : K)
    (hc : t.m_binPredicate = AvlTree.less) (h : IsRedBlack t.m_root) :
    ∃ t1, erase t key = some t1 ∧ t1.m_binPredicate = AvlTree.less ∧
      IsRedBlack t1.m_root ∧ pairs t1.m_root = delList key (pairs t.m_root) := by
  obtain ⟨hs, hr, hn, hb⟩ := h
  simp only [erase, hc]
  cases hf : bst_find AvlTree.less key t.m_root [] with
  | none =>
    refine ⟨t, rfl, hc, ⟨hs, hr, hn, hb⟩, ?_⟩
    rw [delList_of_not_mem]
    exact bst_find_none key t.m_root [] hf hs (by simp [pairsBefore]) (by simp [pairsAfter])
  | some res =>
    obtain ⟨n, path⟩ := res
    obtain ⟨hp, l, c, v, r, hnode⟩ := bst_find_some _ key t.m_root [] n path hf
    subst hnode
    simp only [plug] at hp
    rw [← hp] at hr hn hb hs
    obtain ⟨t1, e, r1, r2, r3, r4⟩ := rb_remove_spec l r c key v path hr hn hb
    have hdel : pairs t1 = delList key (pairs t.m_root) := by
      rw [r4, ← hp, pairs_plug]
      simp only [pairs]
      rw [pairs_plug, sortedKeys_append] at hs
      obtain ⟨hs1, _, _⟩ := hs
      simp only [pairs] at hs1
      have e1 : pairsBefore path ++ (pairs l ++ (key, v) :: pairs r) ++ pairsAfter path =
          (pairsBefore path ++ pairs l) ++ ((key, v) :: (pairs r ++ pairsAfter path)) := by
        simp
      rw [e1, delList_append_of_not_mem]
      · simp [delList]
      · have hs2 : SortedKeys ((pairsBefore path ++ pairs l) ++ (key, v) :: pairs r) := by
          simpa using hs1
        rw [sortedKeys_append] at hs2
        intro p hp1
        exact ne_of_lt (hs2.2.2 p hp1 (key, v) (by simp))
    simp only [e]
    refine ⟨_, rfl, ?_, ⟨?_, r1, r2, r3⟩, hdel⟩
    · rfl
    · show SortedKeys (pairs t1)
      rw [hdel]
      rw [hp] at hs
      exact sortedKeys_delList key _ hs

theorem blackHeight_mem_blackCounts (t : RbTreeNode K V) : blackHeight t ∈ blackCounts t := by
  induction t with
  | nil => simp [blackHeight, blackCounts]
  | node l c k v r ihl _ =>
    simp only [blackHeight, blackCounts, List.mem_map, List.mem_append]
    exact ⟨blackHeight l, Or.inl ihl, rfl⟩

theorem blackCounts_of_equalBlackCounts (t : RbTreeNode K V) (h : EqualBlackCounts t) :
    ∀ a ∈ blackCounts t, a = blackHeight t := by
  induction t with
  | nil => simp [blackHeight, blackCounts]
  | node l c k v r ihl ihr =>
    obtain ⟨h1, h2, h3⟩ := h
    intro a ha
    simp only [blackCounts, List.mem_map, List.mem_append] at ha
    obtain ⟨x, hx, e⟩ := ha
    simp only [blackHeight]
    rcases hx with hx | hx
    · rw [← e, ihl h2 x hx]
    · rw [← e, ihr h3 x hx, h1]

theorem self_mem_subtrees (t : RbTreeNode K V) : t ∈ subtrees t := by
  cases t <;> simp [subtrees]

theorem equalBlackCounts_of_mem_subtrees (t : RbTreeNode K V) (h : EqualBlackCounts t) :
    ∀ s ∈ subtrees t, EqualBlackCounts s := by
  induction t with
  | nil =>
    intro s hs
    simp only [subtrees, List.mem_singleton] at hs
    rw [hs]; trivial
  | node l c k v r ihl ihr =>
    intro s hs
    simp only [subtrees, List.mem_cons, List.mem_append] at hs
    rcases hs with e | e | e
    · rw [e]; exact h
    · exact ihl h.2.1 s e
    · exact ihr h.2.2 s e

/-- Property #5 in terms of the paths: `EqualBlackCounts` holds exactly when, for each
node, all simple paths from the node to descendant nil leaves contain the same number of
black nodes. -/
theorem equalBlackCounts_iff (t : RbTreeNode K V) :
    EqualBlackCounts t ↔
      ∀ s ∈ subtrees t, ∀ a ∈ blackCounts s, ∀ b ∈ blackCounts s, a = b := by
  constructor
  · intro h s hs a ha b hb
    have hse := equalBlackCounts_of_mem_subtrees t h s hs
    rw [blackCounts_of_equalBlackCounts s hse a ha, blackCounts_of_equalBlackCounts s hse b hb]
  · induction t with
    | nil => intro _; trivial
    | node l c k v r ihl ihr =>
      intro h
      refine ⟨?_, ihl ?_, ihr ?_⟩
      · have h1 := h (node l c k v r) (self_mem_subtrees _)
          (blackHeight l + (if c = Black then 1 else 0))
          (by
            simp only [blackCounts, List.mem_map, List.mem_append]
            exact ⟨_, Or.inl (blackHeight_mem_blackCounts l), rfl⟩)
          (blackHeight r + (if c = Black then 1 else 0))
          (by
            simp only [blackCounts, List.mem_map, List.mem_append]
            exact ⟨_, Or.inr (blackHeight_mem_blackCounts r), rfl⟩)
        omega
      · intro s hs
        exact h s (by
          simp only [subtrees, List.mem_cons, List.mem_append]
          exact Or.inr (Or.inl hs))
      · intro s hs
        exact h s (by
          simp only [subtrees, List.mem_cons, List.mem_append]
          exact Or.inr (Or.inr hs))

-- (end of the RedBlackTree lemmas)

/-- C31: `RedBlackTree` insert and erase preserve the red-black properties.  For every
tree with the comparator `less` that is search-ordered, has a black root, has no red node
with a red child, and has the same number of black nodes on every path from any node to
its descendant nil leaves, `insert(key, value)` and `erase(key)` return, and the tree
after the call satisfies all of these again; its pairs in key order are those before the
call with `(key, value)` put in (unless the key was stored), respectively with the pair of
`key` taken out. -/
theorem rb_insert_erase_preserve_red_black [LinearOrder K] (t : RedBlackTree K V)
    (hc : t.m_binPredicate = AvlTree.less) (hs : SortedKeys (pairs t.m_root))
    (hr : color t.m_root = Black) (hn : NoRedRed t.m_root)
    (hb : EqualBlackCounts t.m_root) :
    (∀ key value, ∃ t1 ret, insert t key value = some (t1, ret) ∧
      t1.m_binPredicate = AvlTree.less ∧
      SortedKeys (pairs t1.m_root) ∧ color t1.m_root = Black ∧ NoRedRed t1.m_root ∧
      EqualBlackCounts t1.m_root ∧
      pairs t1.m_root = insList key value (pairs t.m_root)) ∧
    (∀ key, ∃ t1, erase t key = some t1 ∧
      t1.m_binPredicate = AvlTree.less ∧
      SortedKeys (pairs t1.m_root) ∧ color t1.m_root = Black ∧ NoRedRed t1.m_root ∧
      EqualBlackCounts t1.m_root ∧
      pairs t1.m_root = delList key (pairs t.m_root)) := by
  constructor
  · intro key value
    obtain ⟨t1, ret, e, h1, ⟨h2, h3, h4, h5⟩, h6⟩ :=
      rb_insert_spec t key value hc ⟨hs, hr, hn, hb⟩
    exact ⟨t1, ret, e, h1, h2, h3, h4, h5, h6⟩
  · intro key
    obtain ⟨t1, e, h1, ⟨h2, h3, h4, h5⟩, h6⟩ := rb_erase_spec t key hc ⟨hs, hr, hn, hb⟩
    exact ⟨t1, e, h1, h2, h3, h4, h5, h6⟩

theorem rb_insert_erase_preserve_red_black_witness :
    scenarioThree.m_binPredicate = AvlTree.less ∧
    SortedKeys (pairs scenarioThree.m_root) ∧ color scenarioThree.m_root = Black ∧
    NoRedRed scenarioThree.m_root ∧ EqualBlackCounts scenarioThree.m_root ∧
    (∀ key value, ∃ t1 ret, insert scenarioThree key value = some (t1, ret) ∧
      t1.m_binPredicate = AvlTree.less ∧
      SortedKeys (pairs t1.m_root) ∧ color t1.m_root = Black ∧ NoRedRed t1.m_root ∧
      EqualBlackCounts t1.m_root ∧
      pairs t1.m_root = insList key value (pairs scenarioThree.m_root)) ∧
    (∀ key, ∃ t1, erase scenarioThree key = some t1 ∧
      t1.m_binPredicate = AvlTree.less ∧
      SortedKeys (pairs t1.m_root) ∧ color t1.m_root = Black ∧ NoRedRed t1.m_root ∧
      EqualBlackCounts t1.m_root ∧
      pairs t1.m_root = delList key (pairs scenarioThree.m_root)) :=
  ⟨rfl, by simp [SortedKeys, pairs, scenarioThree], rfl,
    by simp [NoRedRed, scenarioThree, color], by simp [EqualBlackCounts, scenarioThree, blackHeight],
    rb_insert_erase_preserve_red_black scenarioThree rfl
      (by simp [SortedKeys, pairs, scenarioThree]) rfl
      (by simp [NoRedRed, scenarioThree, color])
      (by simp [EqualBlackCounts, scenarioThree, blackHeight])⟩

end RedBlackTree

end glare
